import Mathlib

/-! # automerge-native-go: change graph, op set, apply engine, storage, sync and diff

A shallow embedding of `internal/model`, `internal/changegraph`, `internal/opset`,
the chunk format of `internal/storage`, the Bloom filter, state and messages of
`internal/sync`, and the apply, save, load, sync and diff paths of `automerge`,
followed by theorems about them.

Conventions of the embedding.

* `uint32`, `uint64` and `int` values are natural numbers; the places where a
  conversion between them can wrap (`int(seq)` in `HashForActorSeq`) are
  written out with an explicit two's-complement reading.
* A Go `map` is an association list that is only read through `get?` and only
  written through `set` / `delete`, so that it holds one binding per key.
* A Go run-time panic and an `error` return are both values of `GoError`;
  functions that can produce either return `Except GoError _`.
* Loops whose trip count is not syntactically bounded carry a fuel argument and
  report `GoError.outOfFuel` when it runs out.
* Functions of the Go standard library (SHA-256, `encoding/json`, `compress/flate`,
  `crc32`) are parameters of the functions that call them; worked examples
  instantiate them with small stand-ins that decode what they encode.
* A `float64` is its 64-bit pattern; `==` on it is `model.f64Eq`.
-/

set_option autoImplicit false

/-! ## Go maps -/

/-- A Go map as an association list with at most one binding per key. -/
abbrev GoMap (κ ν : Type) := List (κ × ν)

namespace GoMap

variable {κ ν : Type} [DecidableEq κ]

/-- The lookup `v, ok := m[k]`. -/
def get? (m : GoMap κ ν) (k : κ) : Option ν :=
  match m with
  | [] => none
  | (k', v) :: rest => if k' = k then some v else get? rest k

/-- The statement `delete(m, k)`. -/
def delete (m : GoMap κ ν) (k : κ) : GoMap κ ν :=
  m.filter (fun p => !decide (p.1 = k))

/-- The assignment `m[k] = v`. -/
def set (m : GoMap κ ν) (k : κ) (v : ν) : GoMap κ ν :=
  delete m k ++ [(k, v)]

/-- The test `_, ok := m[k]`. -/
def contains (m : GoMap κ ν) (k : κ) : Bool :=
  (get? m k).isSome

/-- The keys in storage order (Go iterates them in an unspecified order). -/
def keys (m : GoMap κ ν) : List κ :=
  m.map Prod.fst

end GoMap

/-! ## Errors and panics -/

/-- The error values of the packages, and the run-time panics that the embedded code can raise. -/
inductive GoError where
  | ErrChangeExists
  | ErrUnknownDependency
  | ErrInvalidActorSeq
  | ErrUnknownHead
  | ErrInvalidNodeIndex
  | ErrValidationMismatch
  | ErrUnknownObject
  | ErrWrongObjectType
  | ErrInvalidIndex
  | ErrCounterNotFound
  | ErrDuplicateSeqNumber
  | ErrMissingChange
  | ErrUnknownOperationKind
  | ErrInvalidCurrentActor
  | ErrTransactionOpen
  | ErrTransactionClosed
  | ErrMarkNotOpen
  | ErrMarkNotClosed
  | ErrInvalidMarkRange
  | ErrNoLastCommittedChange
  | panicIndexOutOfRange
  | panicNilMapWrite
  | outOfFuel
  | ErrStateDecode
  | ErrMessageDecode
  | ErrSyncDecodeChanges
  | ErrPartialLoad
  | ErrBadMagic
  | ErrShortHeader
  | ErrShortPayload
  | ErrBadChecksum
  | ErrUnknownChunk
  | ErrInflatePayload
  | ErrDeflatePayload
  | ErrRustChunk
  | errJSON
  | errHex
  | panicMakeSliceCap
  | ErrDiffUnknownObject
  | ErrRustBadMagic
  | ErrRustShort
  | ErrRustChecksum
  | ErrRustChunkType
  | ErrBadColumnMeta
  | panicSliceBounds
  | errCursorUnknownObject
  | errCursorWrongObjectType
  deriving DecidableEq, Repr

/-- Whether the value stands for a run-time panic, which no `if err != nil` catches. -/
def GoError.isPanic : GoError → Bool
  | .panicIndexOutOfRange => true
  | .panicNilMapWrite => true
  | .panicMakeSliceCap => true
  | .panicSliceBounds => true
  | _ => false

/-! ## internal/model -/

namespace model

/-- A 32-byte change hash, read as the big-endian number of its bytes, so that
`ChangeHash.Compare` (`bytes.Compare`) is the order of the numbers. -/
abbrev ChangeHash := Nat

/-- The `slices.SortFunc` call of `SortChangeHashes`; on a linear order the sorted
permutation is unique, so the algorithm does not matter. -/
def SortChangeHashes (hashes : List ChangeHash) : List ChangeHash :=
  hashes.insertionSort (fun a b => a ≤ b)

/-- The conversion `int(x)` of a `uint64` on a 64-bit platform. -/
def intOfUint64 (x : Nat) : Int :=
  if x % 2 ^ 64 < 2 ^ 63 then ((x % 2 ^ 64 : Nat) : Int) else ((x % 2 ^ 64 : Nat) : Int) - 2 ^ 64

end model

/-! ## internal/changegraph -/

namespace changegraph

open model

structure ChangeMeta where
  Hash : ChangeHash
  Deps : List ChangeHash
  Actor : Nat
  Seq : Nat
  MaxOp : Nat
  deriving DecidableEq, Repr

structure node where
  hash : ChangeHash
  depIdx : List Nat
  depHash : List ChangeHash
  actor : Nat
  seq : Nat
  maxOp : Nat
  deriving DecidableEq, Repr

structure Graph where
  nodes : List node
  byHash : GoMap ChangeHash Nat
  headSet : GoMap ChangeHash Unit
  byActor : GoMap Nat (List Nat)
  maxOp : Nat
  deriving DecidableEq, Repr

def New : Graph :=
  { nodes := [], byHash := [], headSet := [], byActor := [], maxOp := 0 }

namespace Graph

def Len (g : Graph) : Nat := g.nodes.length

def MaxOp (g : Graph) : Nat := g.maxOp

/-- The read `g.byActor[actor]`, which is the nil slice for an absent key. -/
def actorIndexes (g : Graph) (actor : Nat) : List Nat :=
  (GoMap.get? g.byActor actor).getD []

def MaxOpForActor (g : Graph) (actor : Nat) : Except GoError Nat :=
  let indexes := g.actorIndexes actor
  if indexes.length = 0 then .ok 0
  else
    match indexes[indexes.length - 1]? with
    | none => .error .panicIndexOutOfRange
    | some i =>
      match g.nodes[i]? with
      | none => .error .panicIndexOutOfRange
      | some n => .ok n.maxOp

def SeqForActor (g : Graph) (actor : Nat) : Nat :=
  (g.actorIndexes actor).length

/-- The guard is `int(seq) > len(indexes)`; the index expression `indexes[seq-1]`
panics when `seq-1` is not below the length. -/
def HashForActorSeq (g : Graph) (actor seq : Nat) : Except GoError (Option ChangeHash) :=
  if seq = 0 then .ok none
  else
    let indexes := g.actorIndexes actor
    if intOfUint64 seq > (indexes.length : Int) then .ok none
    else
      match indexes[seq - 1]? with
      | none => .error .panicIndexOutOfRange
      | some i =>
        match g.nodes[i]? with
        | none => .error .panicIndexOutOfRange
        | some n => .ok (some n.hash)

def HasChange (g : Graph) (hash : ChangeHash) : Bool :=
  GoMap.contains g.byHash hash

def HashToIndex (g : Graph) (hash : ChangeHash) : Option Nat :=
  GoMap.get? g.byHash hash

def Heads (g : Graph) : List ChangeHash :=
  SortChangeHashes (GoMap.keys g.headSet)

def DepsForHash (g : Graph) (hash : ChangeHash) : Except GoError (Option (List ChangeHash)) :=
  match GoMap.get? g.byHash hash with
  | none => .ok none
  | some idx =>
    match g.nodes[idx]? with
    | none => .error .panicIndexOutOfRange
    | some n => .ok (some n.depHash)

/-- The loop of `AddChange` that resolves the sorted dependency hashes to node indexes. -/
def resolveDeps (g : Graph) : List ChangeHash → Except GoError (List Nat)
  | [] => .ok []
  | dep :: rest =>
    match GoMap.get? g.byHash dep with
    | none => .error .ErrUnknownDependency
    | some idx =>
      match resolveDeps g rest with
      | .error e => .error e
      | .ok idxs => .ok (idx :: idxs)

/-- The function `AddChange`; an error is returned before the graph is touched, so
the error case carries no graph. -/
def AddChange (g : Graph) (m : ChangeMeta) : Except GoError Graph :=
  if g.HasChange m.Hash then .error .ErrChangeExists
  else
    let wantSeq := (g.actorIndexes m.Actor).length + 1
    if m.Seq ≠ wantSeq then .error .ErrInvalidActorSeq
    else
      let depHash := SortChangeHashes m.Deps
      match resolveDeps g depHash with
      | .error e => .error e
      | .ok depIdx =>
        let n : node :=
          { hash := m.Hash, depIdx := depIdx, depHash := depHash,
            actor := m.Actor, seq := m.Seq, maxOp := m.MaxOp }
        let index := g.nodes.length
        .ok
          { nodes := g.nodes ++ [n]
            byHash := GoMap.set g.byHash m.Hash index
            byActor := GoMap.set g.byActor m.Actor (g.actorIndexes m.Actor ++ [index])
            maxOp := if m.MaxOp > g.maxOp then m.MaxOp else g.maxOp
            headSet := depHash.foldl GoMap.delete (GoMap.set g.headSet m.Hash ()) }

/-- The traversal state of `GetHashesFromHeads`: the keys of `visited` and the slice `out`. -/
structure DfsState where
  visited : List Nat
  out : List ChangeHash
  deriving DecidableEq, Repr

/-- The closure `dfs`; the first argument bounds the recursion depth. -/
def dfs (g : Graph) : Nat → Nat → DfsState → Except GoError DfsState
  | 0, _, _ => .error .outOfFuel
  | fuel + 1, idx, st =>
    if idx ∈ st.visited then .ok st
    else
      match g.nodes[idx]? with
      | none => .error .panicIndexOutOfRange
      | some n =>
        match n.depIdx.foldlM (fun s d => dfs g fuel d s)
            { st with visited := idx :: st.visited } with
        | .error e => .error e
        | .ok st2 => .ok { st2 with out := st2.out ++ [n.hash] }

/-- The final loop of `GetHashesFromHeads` over the sorted heads. -/
def dfsHeads (g : Graph) (fuel : Nat) : List ChangeHash → DfsState → Except GoError DfsState
  | [], st => .ok st
  | h :: rest, st =>
    match GoMap.get? g.byHash h with
    | none => .error .panicIndexOutOfRange
    | some idx =>
      match dfs g fuel idx st with
      | .error e => .error e
      | .ok st1 => dfsHeads g fuel rest st1

/-- The function `GetHashesFromHeads`. A call of `dfs` that recurses marks a node
not marked before, so the depth never exceeds the number of nodes plus one. -/
def GetHashesFromHeads (g : Graph) (heads : List ChangeHash) : Except GoError (List ChangeHash) :=
  if heads.length = 0 then .ok (g.nodes.map node.hash)
  else
    let orderedHeads := SortChangeHashes heads
    if orderedHeads.any (fun h => !g.HasChange h) then .error .ErrUnknownHead
    else
      match dfsHeads g (g.nodes.length + 1) orderedHeads { visited := [], out := [] } with
      | .error e => .error e
      | .ok st => .ok st.out

end Graph

/-- The graphs that `New` and a sequence of successful `AddChange` calls produce
(a failed call leaves the graph as it was). -/
inductive Built : Graph → Prop where
  | new : Built New
  | add (g g' : Graph) (m : ChangeMeta) : Built g → g.AddChange m = .ok g' → Built g'

/-- The structural invariant of a change graph: the hash index and the dependency
indexes agree with the nodes, dependencies point backwards, the head set holds the
hashes without a dependent, and the per-actor index lists the nodes of an actor in
insertion order with the sequence numbers 1, 2, ... -/
structure WellFormed (g : Graph) : Prop where
  byHash_iff : ∀ (h : ChangeHash) (i : Nat),
    GoMap.get? g.byHash h = some i ↔ ∃ n : node, g.nodes[i]? = some n ∧ n.hash = h
  deps : ∀ (i : Nat) (n : node), g.nodes[i]? = some n →
    List.Forall₂ (fun d h => d < i ∧ ∃ nd : node, g.nodes[d]? = some nd ∧ nd.hash = h)
      n.depIdx n.depHash
  heads_nodup : (GoMap.keys g.headSet).Nodup
  heads_iff : ∀ h, h ∈ GoMap.keys g.headSet ↔
    (g.HasChange h = true ∧ ∀ n ∈ g.nodes, h ∉ n.depHash)
  actor_lt : ∀ a, ∀ i ∈ g.actorIndexes a, i < g.nodes.length
  actor_nodes : ∀ a, (g.actorIndexes a).filterMap (fun i => g.nodes[i]?) =
    g.nodes.filter (fun n => decide (n.actor = a))
  actor_seq : ∀ a, (g.nodes.filter (fun n => decide (n.actor = a))).map node.seq =
    List.range' 1 (g.SeqForActor a)

namespace Graph

/-- A run of `AddChange` calls; a call that fails leaves the graph as it was. -/
def addChanges (g : Graph) : List ChangeMeta → Graph
  | [] => g
  | m :: rest =>
    match g.AddChange m with
    | .ok g' => addChanges g' rest
    | .error _ => addChanges g rest

/-- The hash `b` is one of the dependencies that `DepsForHash` reports for `a`. -/
def DepStep (g : Graph) (a b : ChangeHash) : Prop :=
  ∃ deps, g.DepsForHash a = .ok (some deps) ∧ b ∈ deps

/-- The hash `b` is reachable from `a` through dependencies (in zero or more steps). -/
def Reaches (g : Graph) : ChangeHash → ChangeHash → Prop :=
  Relation.ReflTransGen (DepStep g)

/-- The dependency indexes of the node at index `j` (none outside the graph). -/
def depIdxAt (g : Graph) (j : Nat) : List Nat :=
  ((g.nodes[j]?).map node.depIdx).getD []

/-- The hash of the node at index `j`. -/
def hashAt (g : Graph) (j : Nat) : ChangeHash :=
  ((g.nodes[j]?).map node.hash).getD 0

/-- Index-level reachability through `depIdx`. -/
def ReachIdx (g : Graph) : Nat → Nat → Prop :=
  Relation.ReflTransGen (fun a b => b ∈ g.depIdxAt a)

/-- In the list of indexes `L` every node comes after all of its dependencies;
the entries are distinct and inside the graph. -/
def GoodOrder (g : Graph) (L : List Nat) : Prop :=
  (∀ a j b, L = a ++ j :: b → ∀ d ∈ g.depIdxAt j, d ∈ a) ∧ L.Nodup ∧
    ∀ j ∈ L, j < g.nodes.length

/-- The traversal state `st` has emitted exactly the nodes of `L`: all of them are
marked, and every marked node below `k` is among them (the nodes marked but not
yet emitted are the callers of the running `dfs`, which lie at or above `k`). -/
def Tracks (g : Graph) (L : List Nat) (st : DfsState) (k : Nat) : Prop :=
  st.out = L.map g.hashAt ∧ (∀ j ∈ L, j ∈ st.visited) ∧ ∀ j ∈ st.visited, j < k → j ∈ L

end Graph

/-- Three changes by two actors: `20` has no dependency, `10` and `30` depend on `20`. -/
def exampleMetas : List ChangeMeta :=
  [ { Hash := 20, Deps := [], Actor := 1, Seq := 1, MaxOp := 1 },
    { Hash := 10, Deps := [20], Actor := 2, Seq := 1, MaxOp := 2 },
    { Hash := 30, Deps := [20], Actor := 1, Seq := 2, MaxOp := 3 } ]

/-- The graph obtained from `New` by adding `exampleMetas` in order. -/
def exampleGraph : Graph :=
  New.addChanges exampleMetas

end changegraph

/-! ## internal/model: identifiers and scalar values -/

/-- Go's `string`; only valid UTF-8 strings are represented, and ranging over a
string yields its characters. -/
abbrev GoString := String

/-- Go's `int64` and `int` values as integers. -/
abbrev int64 := Int

namespace model

/-- The result of an `int64` addition, which wraps around. -/
def wrapInt64 (x : Int) : Int :=
  (x + 2 ^ 63) % 2 ^ 64 - 2 ^ 63

structure OpID where
  Counter : Nat
  Actor : Nat
  deriving DecidableEq, Repr

def OpID.Compare (id other : OpID) : Int :=
  if id.Counter < other.Counter then -1
  else if id.Counter > other.Counter then 1
  else if id.Actor < other.Actor then -1
  else if id.Actor > other.Actor then 1
  else 0

structure ObjID where
  Root : Bool
  Op : OpID
  deriving DecidableEq, Repr

def RootObjID : ObjID :=
  { Root := true, Op := { Counter := 0, Actor := 0 } }

abbrev ScalarKind := Nat

def ScalarNull : ScalarKind := 0
def ScalarBytes : ScalarKind := 1
def ScalarString : ScalarKind := 2
def ScalarInt : ScalarKind := 3
def ScalarUint : ScalarKind := 4
def ScalarF64 : ScalarKind := 5
def ScalarCounter : ScalarKind := 6
def ScalarTimestamp : ScalarKind := 7
def ScalarBoolean : ScalarKind := 8
def ScalarUnknown : ScalarKind := 9

/-- The struct `ScalarValue`; the `float64` field is held as its 64-bit pattern. -/
structure ScalarValue where
  Kind : ScalarKind
  Bytes : List Nat
  String : GoString
  Int : int64
  Uint : Nat
  F64 : Nat
  Counter : int64
  Time : int64
  Boolean : Bool
  TypeCode : Nat
  deriving DecidableEq, Repr

/-- The zero value `ScalarValue{}`. -/
def zeroScalar : ScalarValue :=
  { Kind := ScalarNull, Bytes := [], String := "", Int := 0, Uint := 0, F64 := 0,
    Counter := 0, Time := 0, Boolean := false, TypeCode := 0 }

def StringValue (v : GoString) : ScalarValue :=
  { zeroScalar with Kind := ScalarString, String := v }

def CounterValue (v : int64) : ScalarValue :=
  { zeroScalar with Kind := ScalarCounter, Counter := v }

end model

/-! ## internal/changegraph: clocks -/

namespace changegraph

structure Clock where
  maxByActor : GoMap Nat Nat
  deriving DecidableEq, Repr

def NewClock : Clock :=
  { maxByActor := [] }

namespace Clock

def MaxSeq (c : Clock) (actor : Nat) : Nat :=
  (GoMap.get? c.maxByActor actor).getD 0

def Observe (c : Clock) (actor seq : Nat) : Clock :=
  if seq > c.MaxSeq actor then { maxByActor := GoMap.set c.maxByActor actor seq } else c

def Covers (c : Clock) (actor seq : Nat) : Bool :=
  decide (c.MaxSeq actor ≥ seq)

end Clock

end changegraph

/-! ## internal/opset -/

namespace opset

open model

abbrev ObjType := Nat

def ObjMap : ObjType := 0
def ObjList : ObjType := 1
def ObjText : ObjType := 2

abbrev ValueKind := Nat

def ValueScalar : ValueKind := 0
def ValueObject : ValueKind := 1

structure ObjectValue where
  ID : ObjID
  Typ : ObjType
  deriving DecidableEq, Repr

structure Value where
  Kind : ValueKind
  Scalar : ScalarValue
  Object : ObjectValue
  deriving DecidableEq, Repr

/-- The zero value `Value{}`. -/
def zeroValue : Value :=
  { Kind := ValueScalar, Scalar := zeroScalar,
    Object := { ID := { Root := false, Op := { Counter := 0, Actor := 0 } }, Typ := 0 } }

def NewScalarValue (v : ScalarValue) : Value :=
  { zeroValue with Kind := ValueScalar, Scalar := v }

def NewObjectValue (id : ObjID) (typ : ObjType) : Value :=
  { zeroValue with Kind := ValueObject, Object := { ID := id, Typ := typ } }

structure VersionedValue where
  OpID : OpID
  Actor : Nat
  Seq : Nat
  Value : Value
  deriving DecidableEq, Repr

structure Mark where
  Start : Int
  End : Int
  Name : GoString
  Value : ScalarValue
  OpID : OpID
  Actor : Nat
  Seq : Nat
  deriving DecidableEq, Repr

structure listEntry where
  versions : List VersionedValue
  deriving DecidableEq, Repr

/-- The struct `objectState`; `m` is `none` for the nil map of a list or text object. -/
structure objectState where
  mkObjectState ::
  typ : ObjType
  m : Option (GoMap GoString listEntry)
  l : List listEntry
  mk : List Mark
  deriving DecidableEq, Repr

abbrev opKind := Nat

def opMapPut : opKind := 0
def opMapDelete : opKind := 1
def opListInsert : opKind := 2
def opListSet : opKind := 3
def opListDelete : opKind := 4
def opMark : opKind := 5

structure opRecord where
  kind : opKind
  id : OpID
  actor : Nat
  seq : Nat
  obj : ObjID
  key : GoString
  index : Int
  value : Value
  pred : List OpID
  start : Int
  stop : Int
  name : GoString
  deriving DecidableEq, Repr

/-- The zero value `opRecord{}`, the base of the composite literals in the write operations. -/
def zeroRecord : opRecord :=
  { kind := 0, id := { Counter := 0, Actor := 0 }, actor := 0, seq := 0,
    obj := { Root := false, Op := { Counter := 0, Actor := 0 } }, key := "", index := 0,
    value := zeroValue, pred := [], start := 0, stop := 0, name := "" }

structure OpSet where
  objects : GoMap ObjID objectState
  current : GoMap ObjID objectState
  ops : List opRecord
  deriving DecidableEq, Repr

def New : OpSet :=
  { objects := [(RootObjID, { typ := ObjMap, m := some [], l := [], mk := [] })]
    current := [(RootObjID, { typ := ObjMap, m := some [], l := [], mk := [] })]
    ops := [] }

/-- The helper `removePreds`: the versions whose OpID is not listed in `pred`. -/
def removePreds (versions : List VersionedValue) (pred : List OpID) : List VersionedValue :=
  if pred.length = 0 then versions
  else versions.filter (fun v => !decide (v.OpID ∈ pred))

/-- The helper `sortedVersions` on the versions of an entry (empty for a nil entry):
a copy sorted by `OpID.Compare`. The sort is stable, as Go's is for short slices;
with distinct OpIDs the result does not depend on the algorithm. -/
def sortedVersions (versions : List VersionedValue) : List VersionedValue :=
  versions.insertionSort (fun a b => a.OpID.Compare b.OpID ≤ 0)

/-- The versions of the entry `m[key]` of a possibly nil map, empty when there is no entry. -/
def entryVersions (m : Option (GoMap GoString listEntry)) (key : GoString) :
    List VersionedValue :=
  match m with
  | none => []
  | some mm =>
    match GoMap.get? mm key with
    | none => []
    | some e => e.versions

/-- The version that a put or a list set appends. -/
def versionOf (op : opRecord) : VersionedValue :=
  { OpID := op.id, Actor := op.actor, Seq := op.seq, Value := op.value }

/-- Insertion of `e` at position `i` of a slice (`i` at most the length). -/
def insertAt (l : List listEntry) (i : Nat) (e : listEntry) : List listEntry :=
  l.take i ++ e :: l.drop i

/-- The function `applyRecord` on one object state (the caller has looked the
object up); writing a map entry of a nil map panics. -/
def applyRecordObj (obj : objectState) (op : opRecord) : Except GoError objectState :=
  if op.kind = opMapPut then
    match obj.m with
    | none => .error .panicNilMapWrite
    | some mm =>
      let versions := removePreds (entryVersions obj.m op.key) op.pred ++ [versionOf op]
      .ok { obj with m := some (GoMap.set mm op.key { versions := versions }) }
  else if op.kind = opMapDelete then
    match obj.m with
    | none => .ok obj
    | some mm =>
      match GoMap.get? mm op.key with
      | none => .ok obj
      | some e =>
        let versions := removePreds e.versions op.pred
        .ok { obj with m := some (GoMap.set mm op.key { versions := versions }) }
  else if op.kind = opListInsert then
    if op.index < 0 ∨ op.index > (obj.l.length : Int) then .ok obj
    else .ok { obj with l := insertAt obj.l op.index.toNat { versions := [versionOf op] } }
  else if op.kind = opListSet then
    if op.index < 0 ∨ op.index ≥ (obj.l.length : Int) then .ok obj
    else
      match obj.l[op.index.toNat]? with
      | none => .error .panicIndexOutOfRange
      | some e =>
        let versions := removePreds e.versions op.pred ++ [versionOf op]
        .ok { obj with l := obj.l.set op.index.toNat { versions := versions } }
  else if op.kind = opListDelete then
    if op.index < 0 ∨ op.index ≥ (obj.l.length : Int) then .ok obj
    else .ok { obj with l := obj.l.eraseIdx op.index.toNat }
  else if op.kind = opMark then
    let mark : Mark :=
      { Start := op.start, End := op.stop, Name := op.name, Value := op.value.Scalar,
        OpID := op.id, Actor := op.actor, Seq := op.seq }
    .ok { obj with mk := obj.mk ++ [mark] }
  else .ok obj

/-- The function `applyRecord`. -/
def applyRecord (state : GoMap ObjID objectState) (op : opRecord) :
    Except GoError (GoMap ObjID objectState) :=
  match GoMap.get? state op.obj with
  | none => .ok state
  | some obj =>
    match applyRecordObj obj op with
    | .error e => .error e
    | .ok obj' => .ok (GoMap.set state op.obj obj')

/-- The method `applyRecordToCurrent`: only map puts and deletes on an object with
a non-nil map are tracked. -/
def applyRecordToCurrent (o : OpSet) (op : opRecord) : OpSet :=
  match GoMap.get? o.current op.obj with
  | none => o
  | some obj =>
    match obj.m with
    | none => o
    | some mm =>
      if op.kind = opMapPut then
        let versions := removePreds (entryVersions obj.m op.key) op.pred ++ [versionOf op]
        let updated : objectState :=
          { obj with m := some (GoMap.set mm op.key { versions := versions }) }
        { o with current := GoMap.set o.current op.obj updated }
      else if op.kind = opMapDelete then
        match GoMap.get? mm op.key with
        | none => o
        | some e =>
          let versions := removePreds e.versions op.pred
          let updated : objectState :=
            { obj with m := some (GoMap.set mm op.key { versions := versions }) }
          { o with current := GoMap.set o.current op.obj updated }
      else o

/-- The fresh state that `materialize` starts from: every object with its type and
an empty map (map objects) or an empty slice (the others). -/
def freshState (objects : GoMap ObjID objectState) : GoMap ObjID objectState :=
  objects.map (fun p =>
    (p.1, if p.2.typ = ObjMap then
            ({ typ := p.2.typ, m := some [], l := [], mk := [] } : objectState)
          else { typ := p.2.typ, m := none, l := [], mk := [] }))

/-- The replay loop of `materialize`. -/
def replay (cover : Option changegraph.Clock) :
    List opRecord → GoMap ObjID objectState → Except GoError (GoMap ObjID objectState)
  | [], state => .ok state
  | op :: rest, state =>
    match cover with
    | some clk =>
      if clk.Covers op.actor op.seq then
        match applyRecord state op with
        | .error e => .error e
        | .ok state' => replay cover rest state'
      else replay cover rest state
    | none =>
      match applyRecord state op with
      | .error e => .error e
      | .ok state' => replay cover rest state'

namespace OpSet

def materialize (o : OpSet) (cover : Option changegraph.Clock) :
    Except GoError (GoMap ObjID objectState) :=
  replay cover o.ops (freshState o.objects)

def ObjectType (o : OpSet) (id : ObjID) : Option ObjType :=
  (GoMap.get? o.objects id).map objectState.typ

def CreateObject (o : OpSet) (id : ObjID) (typ : ObjType) : OpSet :=
  match GoMap.get? o.objects id with
  | some _ => o
  | none =>
    let st : objectState :=
      if typ = ObjMap then { typ := typ, m := some [], l := [], mk := [] }
      else { typ := typ, m := none, l := [], mk := [] }
    { o with objects := GoMap.set o.objects id st, current := GoMap.set o.current id st }

def ensureType (o : OpSet) (obj : ObjID) (want : List ObjType) : Except GoError Unit :=
  match GoMap.get? o.objects obj with
  | none => .error .ErrUnknownObject
  | some st => if st.typ ∈ want then .ok () else .error .ErrWrongObjectType

def currentMapEntry (o : OpSet) (obj : ObjID) (key : GoString) : List VersionedValue :=
  match GoMap.get? o.current obj with
  | none => []
  | some st => entryVersions st.m key

/-- The method `visibleMapVersionIDs`: with no clock the current state is read,
otherwise the state materialized at the clock. -/
def visibleMapVersionIDs (o : OpSet) (obj : ObjID) (key : GoString)
    (cover : Option changegraph.Clock) : Except GoError (List OpID) :=
  match cover with
  | none => .ok ((sortedVersions (o.currentMapEntry obj key)).map VersionedValue.OpID)
  | some clk =>
    match o.materialize (some clk) with
    | .error e => .error e
    | .ok state =>
      match GoMap.get? state obj with
      | none => .ok []
      | some st => .ok ((sortedVersions (entryVersions st.m key)).map VersionedValue.OpID)

def visibleListVersionIDs (o : OpSet) (obj : ObjID) (index : Int)
    (cover : Option changegraph.Clock) : Except GoError (List OpID) :=
  match o.materialize cover with
  | .error e => .error e
  | .ok state =>
    match GoMap.get? state obj with
    | none => .ok []
    | some st =>
      if index < 0 ∨ index ≥ (st.l.length : Int) then .ok []
      else
        match st.l[index.toNat]? with
        | none => .error .panicIndexOutOfRange
        | some e => .ok ((sortedVersions e.versions).map VersionedValue.OpID)

/-- The common tail of the write operations: append the record and track it. -/
def record (o : OpSet) (rec : opRecord) : OpSet :=
  applyRecordToCurrent { o with ops := o.ops ++ [rec] } rec

def PutMap (o : OpSet) (obj : ObjID) (key : GoString) (value : Value) (id : OpID)
    (actor seq : Nat) : Except GoError OpSet :=
  match o.ensureType obj [ObjMap] with
  | .error e => .error e
  | .ok _ =>
    match o.visibleMapVersionIDs obj key none with
    | .error e => .error e
    | .ok pred =>
      .ok (o.record { zeroRecord with kind := opMapPut, obj := obj, key := key, value := value,
                                      id := id, actor := actor, seq := seq, pred := pred })

def PutMapRaw (o : OpSet) (obj : ObjID) (key : GoString) (value : Value) (id : OpID)
    (actor seq : Nat) (pred : List OpID) : Except GoError OpSet :=
  match o.ensureType obj [ObjMap] with
  | .error e => .error e
  | .ok _ =>
    .ok (o.record { zeroRecord with kind := opMapPut, obj := obj, key := key, value := value,
                                    id := id, actor := actor, seq := seq, pred := pred })

def DeleteMap (o : OpSet) (obj : ObjID) (key : GoString) (id : OpID) (actor seq : Nat) :
    Except GoError OpSet :=
  match o.ensureType obj [ObjMap] with
  | .error e => .error e
  | .ok _ =>
    match o.visibleMapVersionIDs obj key none with
    | .error e => .error e
    | .ok pred =>
      .ok (o.record { zeroRecord with kind := opMapDelete, obj := obj, key := key, id := id,
                                      actor := actor, seq := seq, pred := pred })

def InsertList (o : OpSet) (obj : ObjID) (index : Int) (value : Value) (id : OpID)
    (actor seq : Nat) : Except GoError OpSet :=
  match o.ensureType obj [ObjList, ObjText] with
  | .error e => .error e
  | .ok _ =>
    if index < 0 then .error .ErrInvalidIndex
    else
      .ok (o.record { zeroRecord with kind := opListInsert, obj := obj, index := index,
                                      value := value, id := id, actor := actor, seq := seq })

def SetList (o : OpSet) (obj : ObjID) (index : Int) (value : Value) (id : OpID)
    (actor seq : Nat) : Except GoError OpSet :=
  match o.ensureType obj [ObjList, ObjText] with
  | .error e => .error e
  | .ok _ =>
    if index < 0 then .error .ErrInvalidIndex
    else
      match o.visibleListVersionIDs obj index none with
      | .error e => .error e
      | .ok pred =>
        .ok (o.record { zeroRecord with kind := opListSet, obj := obj, index := index,
                                        value := value, id := id, actor := actor, seq := seq,
                                        pred := pred })

def SetListRaw (o : OpSet) (obj : ObjID) (index : Int) (value : Value) (id : OpID)
    (actor seq : Nat) (pred : List OpID) : Except GoError OpSet :=
  match o.ensureType obj [ObjList, ObjText] with
  | .error e => .error e
  | .ok _ =>
    if index < 0 then .error .ErrInvalidIndex
    else
      .ok (o.record { zeroRecord with kind := opListSet, obj := obj, index := index,
                                      value := value, id := id, actor := actor, seq := seq,
                                      pred := pred })

def DeleteList (o : OpSet) (obj : ObjID) (index : Int) (id : OpID) (actor seq : Nat) :
    Except GoError OpSet :=
  match o.ensureType obj [ObjList, ObjText] with
  | .error e => .error e
  | .ok _ =>
    if index < 0 then .error .ErrInvalidIndex
    else
      .ok (o.record { zeroRecord with kind := opListDelete, obj := obj, index := index,
                                      id := id, actor := actor, seq := seq })

def GetMap (o : OpSet) (obj : ObjID) (key : GoString) (cover : Option changegraph.Clock) :
    Except GoError (Option Value) :=
  match o.materialize cover with
  | .error e => .error e
  | .ok state =>
    match GoMap.get? state obj with
    | none => .ok none
    | some st =>
      .ok ((sortedVersions (entryVersions st.m key)).getLast?.map VersionedValue.Value)

def GetAllMap (o : OpSet) (obj : ObjID) (key : GoString) (cover : Option changegraph.Clock) :
    Except GoError (List Value) :=
  match o.materialize cover with
  | .error e => .error e
  | .ok state =>
    match GoMap.get? state obj with
    | none => .ok []
    | some st => .ok ((sortedVersions (entryVersions st.m key)).map VersionedValue.Value)

def IncrementMapCounter (o : OpSet) (obj : ObjID) (key : GoString) (by_ : int64) (id : OpID)
    (actor seq : Nat) : Except GoError OpSet :=
  match o.GetMap obj key none with
  | .error e => .error e
  | .ok none => .error .ErrCounterNotFound
  | .ok (some current) =>
    if current.Kind ≠ ValueScalar ∨ current.Scalar.Kind ≠ ScalarCounter then
      .error .ErrCounterNotFound
    else
      o.PutMap obj key (NewScalarValue (CounterValue (wrapInt64 (current.Scalar.Counter + by_))))
        id actor seq

/-- The first loop of `SpliceText`: `n` deletions at `index`. -/
def spliceDeletes (obj : ObjID) (index : Int) (actor : Nat) :
    Nat → OpSet → Nat → Except GoError (OpSet × Nat)
  | 0, o, seq => .ok (o, seq)
  | n + 1, o, seq =>
    let seq := (seq + 1) % 2 ^ 64
    match o.DeleteList obj index { Counter := seq, Actor := actor } actor seq with
    | .error e => .error e
    | .ok o' => spliceDeletes obj index actor n o' seq

/-- The second loop of `SpliceText`: one insertion per character. -/
def spliceInserts (obj : ObjID) (actor : Nat) :
    List Char → OpSet → Int → Nat → Except GoError (OpSet × Nat)
  | [], o, _, seq => .ok (o, seq)
  | r :: rest, o, index, seq =>
    let seq := (seq + 1) % 2 ^ 64
    match o.InsertList obj index (NewScalarValue (StringValue (String.singleton r)))
        { Counter := seq, Actor := actor } actor seq with
    | .error e => .error e
    | .ok o' => spliceInserts obj actor rest o' (index + 1) seq

def SpliceText (o : OpSet) (obj : ObjID) (index : Int) (deleteCount : Int) (insert : GoString)
    (actor startSeq : Nat) : Except GoError (OpSet × Nat) :=
  match o.ensureType obj [ObjText] with
  | .error e => .error e
  | .ok _ =>
    if index < 0 ∨ deleteCount < 0 then .error .ErrInvalidIndex
    else
      match spliceDeletes obj index actor deleteCount.toNat o startSeq with
      | .error e => .error e
      | .ok (o1, seq) => spliceInserts obj actor insert.toList o1 index seq

def AddMark (o : OpSet) (obj : ObjID) (start stop : Int) (name : GoString)
    (value : ScalarValue) (id : OpID) (actor seq : Nat) : Except GoError OpSet :=
  match o.ensureType obj [ObjText] with
  | .error e => .error e
  | .ok _ =>
    if start < 0 ∨ stop < start then .error .ErrInvalidIndex
    else
      .ok (o.record { zeroRecord with kind := opMark, id := id, actor := actor, seq := seq,
                                      obj := obj, start := start, stop := stop, name := name,
                                      value := NewScalarValue value })

/-- The winning value of a list entry, if it has a version. -/
def winner (e : listEntry) : Option Value :=
  (sortedVersions e.versions).getLast?.map VersionedValue.Value

def ListRange (o : OpSet) (obj : ObjID) (start stop : Int) (cover : Option changegraph.Clock) :
    Except GoError (List Value) :=
  match o.materialize cover with
  | .error e => .error e
  | .ok state =>
    match GoMap.get? state obj with
    | none => .ok []
    | some st =>
      let list : List listEntry := st.l
      let start1 : Int := if start < 0 then 0 else start
      let stop1 : Int := if stop > (list.length : Int) ∨ stop < 0 then (list.length : Int) else stop
      let start2 : Int := if start1 > stop1 then stop1 else start1
      .ok (((list.drop start2.toNat).take (stop1 - start2).toNat).filterMap winner)

def Text (o : OpSet) (obj : ObjID) (cover : Option changegraph.Clock) :
    Except GoError GoString :=
  match o.ListRange obj 0 (-1) cover with
  | .error e => .error e
  | .ok vals =>
    .ok (vals.foldl (fun b v =>
      if v.Kind = ValueScalar ∧ v.Scalar.Kind = ScalarString then b ++ v.Scalar.String else b) "")

end OpSet

end opset

/-! ## Op set: reachable states and surviving versions -/

namespace opset

open model

/-- The op sets that `New`, `CreateObject` and the successful write operations produce
(a failed write leaves the op set as it was). -/
inductive Reachable : OpSet → Prop where
  | new : Reachable New
  | createObject (o : OpSet) (id : ObjID) (typ : ObjType) :
      Reachable o → Reachable (o.CreateObject id typ)
  | putMap (o o' : OpSet) (obj : ObjID) (key : GoString) (value : Value) (id : OpID)
      (actor seq : Nat) : Reachable o → o.PutMap obj key value id actor seq = .ok o' →
      Reachable o'
  | putMapRaw (o o' : OpSet) (obj : ObjID) (key : GoString) (value : Value) (id : OpID)
      (actor seq : Nat) (pred : List OpID) : Reachable o →
      o.PutMapRaw obj key value id actor seq pred = .ok o' → Reachable o'
  | deleteMap (o o' : OpSet) (obj : ObjID) (key : GoString) (id : OpID) (actor seq : Nat) :
      Reachable o → o.DeleteMap obj key id actor seq = .ok o' → Reachable o'
  | insertList (o o' : OpSet) (obj : ObjID) (index : Int) (value : Value) (id : OpID)
      (actor seq : Nat) : Reachable o → o.InsertList obj index value id actor seq = .ok o' →
      Reachable o'
  | setList (o o' : OpSet) (obj : ObjID) (index : Int) (value : Value) (id : OpID)
      (actor seq : Nat) : Reachable o → o.SetList obj index value id actor seq = .ok o' →
      Reachable o'
  | setListRaw (o o' : OpSet) (obj : ObjID) (index : Int) (value : Value) (id : OpID)
      (actor seq : Nat) (pred : List OpID) : Reachable o →
      o.SetListRaw obj index value id actor seq pred = .ok o' → Reachable o'
  | deleteList (o o' : OpSet) (obj : ObjID) (index : Int) (id : OpID) (actor seq : Nat) :
      Reachable o → o.DeleteList obj index id actor seq = .ok o' → Reachable o'
  | incrementMapCounter (o o' : OpSet) (obj : ObjID) (key : GoString) (by_ : int64)
      (id : OpID) (actor seq : Nat) : Reachable o →
      o.IncrementMapCounter obj key by_ id actor seq = .ok o' → Reachable o'
  | spliceText (o o' : OpSet) (obj : ObjID) (index deleteCount : Int) (insert : GoString)
      (actor startSeq seq : Nat) : Reachable o →
      o.SpliceText obj index deleteCount insert actor startSeq = .ok (o', seq) → Reachable o'
  | addMark (o o' : OpSet) (obj : ObjID) (start stop : Int) (name : GoString)
      (value : ScalarValue) (id : OpID) (actor seq : Nat) : Reachable o →
      o.AddMark obj start stop name value id actor seq = .ok o' → Reachable o'

/-- The record is replayed under the clock (every record when there is no clock). -/
def covered (cover : Option changegraph.Clock) (r : opRecord) : Bool :=
  match cover with
  | none => true
  | some clk => clk.Covers r.actor r.seq

/-- The record is a replayed map put or map delete on the key `key` of `obj`. -/
def touches (cover : Option changegraph.Clock) (obj : ObjID) (key : GoString)
    (r : opRecord) : Bool :=
  covered cover r && decide (r.obj = obj) && decide (r.key = key) &&
    (decide (r.kind = opMapPut) || decide (r.kind = opMapDelete))

/-- No record of `later` that touches the key lists `id` among its predecessors. -/
def survivesIn (cover : Option changegraph.Clock) (obj : ObjID) (key : GoString)
    (later : List opRecord) (id : OpID) : Bool :=
  later.all (fun q => !(touches cover obj key q && decide (id ∈ q.pred)))

/-- The surviving versions of a key, read off the op log: the versions written by
the replayed puts on the key that no later replayed put or delete on the key lists
as a predecessor, in log order. -/
def survivors (cover : Option changegraph.Clock) (obj : ObjID) (key : GoString) :
    List opRecord → List VersionedValue
  | [] => []
  | r :: rest =>
    if touches cover obj key r && decide (r.kind = opMapPut) &&
        survivesIn cover obj key rest r.id then
      versionOf r :: survivors cover obj key rest
    else survivors cover obj key rest

/-- The effect of one record on the versions of the key `key` of `obj`. -/
def stepVersions (cover : Option changegraph.Clock) (obj : ObjID) (key : GoString)
    (vs : List VersionedValue) (r : opRecord) : List VersionedValue :=
  if touches cover obj key r then
    if r.kind = opMapPut then removePreds vs r.pred ++ [versionOf r] else removePreds vs r.pred
  else vs

/-- Every map put of the log targets an object that the state does not hold with
a nil map. -/
def PutsOnMaps (state : GoMap ObjID objectState) (ops : List opRecord) : Prop :=
  ∀ r ∈ ops, r.kind = opMapPut → ∀ st, GoMap.get? state r.obj = some st → st.m.isSome = true

/-- Invariant of reachable op sets: map objects hold a map in `objects`, and every
map put of the log targets a map object. -/
def Typed (o : OpSet) : Prop :=
  (∀ id st, GoMap.get? o.objects id = some st → (st.typ = ObjMap ↔ st.m.isSome = true)) ∧
  ∀ r ∈ o.ops, r.kind = opMapPut →
    ∃ st, GoMap.get? o.objects r.obj = some st ∧ st.typ = ObjMap

/-- The order of `OpID.Compare` on versions. -/
def versionLE (a b : VersionedValue) : Prop :=
  a.OpID.Compare b.OpID ≤ 0

end opset

namespace opset

open model

/-- The op set of `TestMapConflictsGetAll`: two raw puts on the root key `name` with
empty pred, `"alice"` with the OpID `1@1` and `"ally"` with the OpID `1@2`. -/
def exampleOpSet : OpSet :=
  match New.PutMapRaw RootObjID "name" (NewScalarValue (StringValue "alice"))
      { Counter := 1, Actor := 1 } 1 1 [] with
  | .error _ => New
  | .ok o1 =>
    match o1.PutMapRaw RootObjID "name" (NewScalarValue (StringValue "ally"))
        { Counter := 1, Actor := 2 } 2 1 [] with
    | .error _ => o1
    | .ok o2 => o2

end opset

/-! ## automerge: changes and documents -/

namespace automerge

open model changegraph

abbrev ChangeOperationKind := Nat

def OpPut : ChangeOperationKind := 0
def OpPutObject : ChangeOperationKind := 1
def OpInsert : ChangeOperationKind := 2
def OpInsertObject : ChangeOperationKind := 3
def OpDeleteMap : ChangeOperationKind := 4
def OpDeleteList : ChangeOperationKind := 5
def OpIncrement : ChangeOperationKind := 6
def OpSpliceText : ChangeOperationKind := 7
def OpMark : ChangeOperationKind := 8

structure ChangeOperation where
  Kind : ChangeOperationKind
  ObjID : model.ObjID
  ChildObjID : model.ObjID
  Key : GoString
  Index : Int
  Value : ScalarValue
  ObjType : opset.ObjType
  By : int64
  DeleteCount : Int
  InsertText : GoString
  Start : Int
  End : Int
  MarkName : GoString
  OpID : model.OpID
  deriving DecidableEq, Repr

/-- The zero value `ChangeOperation{}`. -/
def zeroOperation : ChangeOperation :=
  { Kind := 0, ObjID := { Root := false, Op := { Counter := 0, Actor := 0 } },
    ChildObjID := { Root := false, Op := { Counter := 0, Actor := 0 } }, Key := "",
    Index := 0, Value := zeroScalar, ObjType := 0, By := 0, DeleteCount := 0,
    InsertText := "", Start := 0, End := 0, MarkName := "",
    OpID := { Counter := 0, Actor := 0 } }

structure Change where
  Hash : ChangeHash
  Actor : Nat
  Seq : Nat
  StartOp : Nat
  MaxOp : Nat
  Deps : List ChangeHash
  Message : Option GoString
  Time : Option int64
  Operations : List ChangeOperation
  deriving DecidableEq, Repr

/-- The struct `Document`. The field `openTx` tells whether `open` points to a
transaction; a transaction that is not closed is the one `open` points to. -/
structure Document where
  graph : Graph
  ops : opset.OpSet
  changes : GoMap ChangeHash Change
  queue : List Change
  legacyRaw : List Nat
  saveCache : GoMap (Bool × Bool) (List Nat)
  actor : Nat
  openTx : Bool
  last : Option Change
  deriving DecidableEq, Repr

def NewDocument : Document :=
  { graph := changegraph.New, ops := opset.New, changes := [], queue := [], legacyRaw := [],
    saveCache := [], actor := 1, openTx := false, last := none }

/-- The outcome of a method that changes the document in place and may return an
error (or panic) after it has changed it: the document as the call leaves it, and
the error if there is one. -/
structure Outcome where
  doc : Document
  err : Option GoError
  deriving DecidableEq, Repr

namespace Document

def SetActor (d : Document) (actor : Nat) : Except GoError Document :=
  if actor = 0 then .error .ErrInvalidCurrentActor else .ok { d with actor := actor }

def Heads (d : Document) : List ChangeHash :=
  d.graph.Heads

def hasChange (d : Document) (hash : ChangeHash) : Bool :=
  d.graph.HasChange hash

def clearLegacyRaw (d : Document) : Document :=
  { d with legacyRaw := [], saveCache := [] }

def GetMap (d : Document) (obj : ObjID) (key : GoString) (cover : Option Clock) :
    Except GoError (Option opset.Value) :=
  d.ops.GetMap obj key cover

def GetAllMap (d : Document) (obj : ObjID) (key : GoString) (cover : Option Clock) :
    Except GoError (List opset.Value) :=
  d.ops.GetAllMap obj key cover

def ListRange (d : Document) (obj : ObjID) (start stop : Int) (cover : Option Clock) :
    Except GoError (List opset.Value) :=
  d.ops.ListRange obj start stop cover

def Text (d : Document) (obj : ObjID) (cover : Option Clock) : Except GoError GoString :=
  d.ops.Text obj cover

def isCausallyReady (d : Document) (c : Change) (ready : GoMap ChangeHash Unit) : Bool :=
  c.Deps.all (fun dep => d.hasChange dep || GoMap.contains ready dep)

/-- The scan of `popNextCausallyReady` from position `i`: the index of the first
queued change that is causally ready. -/
def firstReady (d : Document) (ready : GoMap ChangeHash Unit) : List Change → Nat → Option Nat
  | [], _ => none
  | c :: rest, i => if d.isCausallyReady c ready then some i else firstReady d ready rest (i + 1)

/-- The method `popNextCausallyReady`: the first ready change is taken out by
moving the last queued change into its place. -/
def popNextCausallyReady (d : Document) (ready : GoMap ChangeHash Unit) :
    Option (Change × Document) :=
  match firstReady d ready d.queue 0 with
  | none => none
  | some i =>
    match d.queue[i]?, d.queue.getLast? with
    | some c, some lastC => some (c, { d with queue := (d.queue.set i lastC).dropLast })
    | _, _ => none

end Document

/-- The function `applyChangeOperation`; the op set is returned also when the
operation fails, because an object-creating operation registers the child before
the put or insert that may fail. -/
def applyChangeOperation (ops : opset.OpSet) (actor : Nat) (op : ChangeOperation) :
    opset.OpSet × Option GoError :=
  let seq := op.OpID.Counter
  let lift : opset.OpSet → Except GoError opset.OpSet → opset.OpSet × Option GoError :=
    fun before r =>
      match r with
      | .ok o => (o, none)
      | .error e => (before, some e)
  if op.Kind = OpPut then
    lift ops (ops.PutMap op.ObjID op.Key (opset.NewScalarValue op.Value) op.OpID actor seq)
  else if op.Kind = OpPutObject then
    let ops1 := ops.CreateObject op.ChildObjID op.ObjType
    lift ops1 (ops1.PutMap op.ObjID op.Key (opset.NewObjectValue op.ChildObjID op.ObjType)
      op.OpID actor seq)
  else if op.Kind = OpInsert then
    lift ops (ops.InsertList op.ObjID op.Index (opset.NewScalarValue op.Value) op.OpID actor seq)
  else if op.Kind = OpInsertObject then
    let ops1 := ops.CreateObject op.ChildObjID op.ObjType
    lift ops1 (ops1.InsertList op.ObjID op.Index
      (opset.NewObjectValue op.ChildObjID op.ObjType) op.OpID actor seq)
  else if op.Kind = OpDeleteMap then
    lift ops (ops.DeleteMap op.ObjID op.Key op.OpID actor seq)
  else if op.Kind = OpDeleteList then
    lift ops (ops.DeleteList op.ObjID op.Index op.OpID actor seq)
  else if op.Kind = OpIncrement then
    lift ops (ops.IncrementMapCounter op.ObjID op.Key op.By op.OpID actor seq)
  else if op.Kind = OpSpliceText then
    let start := if seq > 0 then seq - 1 else seq
    match ops.SpliceText op.ObjID op.Index op.DeleteCount op.InsertText actor start with
    | .ok (o, _) => (o, none)
    | .error e => (ops, some e)
  else if op.Kind = OpMark then
    lift ops (ops.AddMark op.ObjID op.Start op.End op.MarkName op.Value op.OpID actor seq)
  else (ops, some .ErrUnknownOperationKind)

/-- The loop of `applyOneChange` over the operations of a change. -/
def applyOperations (actor : Nat) : List ChangeOperation → opset.OpSet →
    opset.OpSet × Option GoError
  | [], ops => (ops, none)
  | op :: rest, ops =>
    match applyChangeOperation ops actor op with
    | (ops1, some e) => (ops1, some e)
    | (ops1, none) => applyOperations actor rest ops1

namespace Document

def applyOneChange (d : Document) (c : Change) : Outcome :=
  match applyOperations c.Actor c.Operations d.ops with
  | (ops1, some e) => { doc := { d with ops := ops1 }, err := some e }
  | (ops1, none) =>
    match d.graph.AddChange
        { Hash := c.Hash, Deps := c.Deps, Actor := c.Actor, Seq := c.Seq, MaxOp := c.MaxOp } with
    | .error e => { doc := { d with ops := ops1 }, err := some e }
    | .ok g =>
      let d1 : Document :=
        { d with ops := ops1, graph := g, changes := GoMap.set d.changes c.Hash c }
      { doc := { d1.clearLegacyRaw with last := some c }, err := none }

end Document

/-! ### The heap and the topological order of a batch -/

/-- The hash of the batch element with index `i` (`in[i].Hash`). -/
def hashOfIndex (batch : List Change) (i : Nat) : Except GoError ChangeHash :=
  match batch[i]? with
  | none => .error .panicIndexOutOfRange
  | some c => .ok c.Hash

/-- The method `lessPos` of `changeIndexHeap`. -/
def lessPos (batch : List Change) (items : List Nat) (i j : Nat) : Except GoError Bool :=
  match items[i]?, items[j]? with
  | some a, some b =>
    match hashOfIndex batch a, hashOfIndex batch b with
    | .ok ha, .ok hb => .ok (decide (ha < hb))
    | _, _ => .error .panicIndexOutOfRange
  | _, _ => .error .panicIndexOutOfRange

/-- The exchange `items[i], items[j] = items[j], items[i]`. -/
def swapItems (items : List Nat) (i j : Nat) : Except GoError (List Nat) :=
  match items[i]?, items[j]? with
  | some a, some b => .ok ((items.set i b).set j a)
  | _, _ => .error .panicIndexOutOfRange

/-- The loop of `Push` that moves the new item towards the root. -/
def siftUp (batch : List Change) : Nat → List Nat → Nat → Except GoError (List Nat)
  | 0, _, _ => .error .outOfFuel
  | fuel + 1, items, i =>
    if i > 0 then
      let p := (i - 1) / 2
      match lessPos batch items i p with
      | .error e => .error e
      | .ok false => .ok items
      | .ok true =>
        match swapItems items i p with
        | .error e => .error e
        | .ok items1 => siftUp batch fuel items1 p
    else .ok items

/-- The method `Push`; the loop halves the position, so it runs at most `i + 1` times. -/
def heapPush (batch : List Change) (items : List Nat) (v : Nat) : Except GoError (List Nat) :=
  let items1 := items ++ [v]
  siftUp batch (items1.length + 1) items1 (items1.length - 1)

/-- The loop of `Pop` that moves the root item down. -/
def siftDown (batch : List Change) : Nat → List Nat → Nat → Except GoError (List Nat)
  | 0, _, _ => .error .outOfFuel
  | fuel + 1, items, i =>
    let left := 2 * i + 1
    let right := left + 1
    match (if left < items.length then lessPos batch items left i else .ok false) with
    | .error e => .error e
    | .ok b1 =>
      let smallest1 := if b1 then left else i
      match (if right < items.length then lessPos batch items right smallest1
             else .ok false) with
      | .error e => .error e
      | .ok b2 =>
        let smallest := if b2 then right else smallest1
        if smallest = i then .ok items
        else
          match swapItems items i smallest with
          | .error e => .error e
          | .ok items1 => siftDown batch fuel items1 smallest

/-- The method `Pop`: the root item and the remaining heap. -/
def heapPop (batch : List Change) (items : List Nat) : Except GoError (Nat × List Nat) :=
  match items[0]?, items.getLast? with
  | some x, some lastItem =>
    let items1 := items.dropLast
    if items1.length = 0 then .ok (x, items1)
    else
      match siftDown batch (items1.length + 1) (items1.set 0 lastItem) 0 with
      | .error e => .error e
      | .ok items2 => .ok (x, items2)
  | _, _ => .error .panicIndexOutOfRange

/-- The table `indexByHash` of `orderChangeIndicesTopologically`. -/
def indexByHash : List Change → Nat → GoMap ChangeHash Nat → GoMap ChangeHash Nat
  | [], _, m => m
  | c :: rest, i, m => indexByHash rest (i + 1) (GoMap.set m c.Hash i)

/-- The state of the counting loops: `depsCount` and `dependents`. -/
structure TopoTables where
  depsCount : List Int
  dependents : GoMap Nat (List Nat)
  deriving DecidableEq, Repr

/-- The inner loop over the dependencies of the change with index `i`. -/
def countDeps (byHash : GoMap ChangeHash Nat) (i : Nat) : List ChangeHash → TopoTables →
    TopoTables
  | [], t => t
  | dep :: rest, t =>
    match GoMap.get? byHash dep with
    | none => countDeps byHash i rest t
    | some j =>
      countDeps byHash i rest
        { depsCount := t.depsCount.modify (fun n => n + 1) i
          dependents := GoMap.set t.dependents j ((GoMap.get? t.dependents j).getD [] ++ [i]) }

/-- The outer counting loop over the batch. -/
def countAll (byHash : GoMap ChangeHash Nat) : List Change → Nat → TopoTables → TopoTables
  | [], _, t => t
  | c :: rest, i, t => countAll byHash rest (i + 1) (countDeps byHash i c.Deps t)

/-- The loop that pushes the indexes without a counted dependency. -/
def pushInitial (batch : List Change) (depsCount : List Int) :
    List Nat → List Nat → Except GoError (List Nat)
  | [], items => .ok items
  | i :: rest, items =>
    if depsCount[i]? = some 0 then
      match heapPush batch items i with
      | .error e => .error e
      | .ok items1 => pushInitial batch depsCount rest items1
    else pushInitial batch depsCount rest items

/-- The state of the main loop: the counts, the heap and the output. -/
structure TopoState where
  depsCount : List Int
  items : List Nat
  out : List Nat
  deriving DecidableEq, Repr

/-- The inner loop over `dependents[i]`. -/
def releaseDependents (batch : List Change) : List Nat → TopoState → Except GoError TopoState
  | [], st => .ok st
  | dep :: rest, st =>
    match st.depsCount[dep]? with
    | none => .error .panicIndexOutOfRange
    | some n =>
      let counts := st.depsCount.set dep (n - 1)
      if n - 1 = 0 then
        match heapPush batch st.items dep with
        | .error e => .error e
        | .ok items1 =>
          releaseDependents batch rest { st with depsCount := counts, items := items1 }
      else releaseDependents batch rest { st with depsCount := counts }

/-- The main loop `for ready.Len() > 0`. -/
def topoLoop (batch : List Change) (dependents : GoMap Nat (List Nat)) :
    Nat → TopoState → Except GoError TopoState
  | 0, _ => .error .outOfFuel
  | fuel + 1, st =>
    if st.items.length > 0 then
      match heapPop batch st.items with
      | .error e => .error e
      | .ok (i, items1) =>
        match releaseDependents batch ((GoMap.get? dependents i).getD [])
            { st with items := items1, out := st.out ++ [i] } with
        | .error e => .error e
        | .ok st1 => topoLoop batch dependents fuel st1
    else .ok st

/-- The fallback order: the indexes sorted by hash. -/
def fallbackOrder (batch : List Change) : List Nat :=
  (List.range batch.length).insertionSort
    (fun a b => ((batch[a]?).map Change.Hash).getD 0 ≤ ((batch[b]?).map Change.Hash).getD 0)

/-- The function `orderChangeIndicesTopologically`. An index enters the heap only
when its count reaches zero, which happens once, so the main loop runs at most
`len(in)` times. -/
def orderChangeIndicesTopologically (batch : List Change) : Except GoError (List Nat) :=
  if batch.length ≤ 1 then .ok (List.range batch.length)
  else
    let byHash := indexByHash batch 0 []
    let t := countAll byHash batch 0
      { depsCount := List.replicate batch.length 0, dependents := [] }
    match pushInitial batch t.depsCount (List.range batch.length) [] with
    | .error e => .error e
    | .ok items =>
      match topoLoop batch t.dependents (batch.length + 1)
          { depsCount := t.depsCount, items := items, out := [] } with
      | .error e => .error e
      | .ok st =>
        if st.out.length ≠ batch.length then .ok (fallbackOrder batch) else .ok st.out

/-- Invariant of the main loop on a batch of `n` changes: no index is both emitted
and waiting in the heap, or there twice; and an index that has entered the heap has
a count of zero or less, so that it cannot reach zero again. -/
def TopoInv (n : Nat) (st : TopoState) : Prop :=
  (st.out ++ st.items).Nodup ∧ st.depsCount.length = n ∧
    ∀ i ∈ st.out ++ st.items, ∃ k, st.depsCount[i]? = some k ∧ k ≤ 0

/-! ### ApplyChanges and Merge -/

/-- The function `RemapActor` of `internal/apply` for a non-nil actor map. -/
def RemapActor (opID : OpID) (actorMap : GoMap Nat Nat) : OpID :=
  match GoMap.get? actorMap opID.Actor with
  | some mapped => { opID with Actor := mapped }
  | none => opID

def RemapObjID (obj : ObjID) (actorMap : GoMap Nat Nat) : ObjID :=
  if obj.Root then obj else { obj with Op := RemapActor obj.Op actorMap }

/-- The function `remapChangeActors`; `none` is the nil actor map. -/
def remapChangeActors (c : Change) (actorMap : Option (GoMap Nat Nat)) : Change :=
  match actorMap with
  | none => c
  | some am =>
    { c with
      Actor := (GoMap.get? am c.Actor).getD c.Actor
      Operations := c.Operations.map (fun op =>
        { op with OpID := RemapActor op.OpID am, ObjID := RemapObjID op.ObjID am,
                  ChildObjID := RemapObjID op.ChildObjID am }) }

/-- The state of the first two loops of `ApplyChangesWithActorMap`. -/
structure Intake where
  doc : Document
  ready : GoMap ChangeHash Unit
  batch : List Change
  deriving DecidableEq, Repr

/-- The first loop: every change is dropped, refused, admitted to the batch or queued. -/
def intakeLoop (actorMap : Option (GoMap Nat Nat)) : List Change → Intake →
    Intake × Option GoError
  | [], st => (st, none)
  | c0 :: rest, st =>
    let c := remapChangeActors c0 actorMap
    if st.doc.hasChange c.Hash then intakeLoop actorMap rest st
    else
      match st.doc.graph.HashForActorSeq c.Actor c.Seq with
      | .error e => (st, some e)
      | .ok (some existing) =>
        if existing ≠ c.Hash then (st, some .ErrDuplicateSeqNumber)
        else intakeLoop actorMap rest st
      | .ok none =>
        if st.doc.isCausallyReady c st.ready then
          intakeLoop actorMap rest
            { st with batch := st.batch ++ [c], ready := GoMap.set st.ready c.Hash () }
        else
          intakeLoop actorMap rest { st with doc := { st.doc with queue := st.doc.queue ++ [c] } }

/-- The second loop: changes are taken from the pending queue while one is ready. -/
def drainLoop : Nat → Intake → Except GoError Intake
  | 0, _ => .error .outOfFuel
  | fuel + 1, st =>
    match st.doc.popNextCausallyReady st.ready with
    | none => .ok st
    | some (next, d1) =>
      drainLoop fuel
        { doc := d1, batch := st.batch ++ [next], ready := GoMap.set st.ready next.Hash () }

/-- The third loop: the batch is applied in the computed order. -/
def applyLoop (batch : List Change) : List Nat → Document → Outcome
  | [], d => { doc := d, err := none }
  | idx :: rest, d =>
    match batch[idx]? with
    | none => { doc := d, err := some .panicIndexOutOfRange }
    | some c =>
      if d.hasChange c.Hash then applyLoop batch rest d
      else
        match d.applyOneChange c with
        | { doc := d1, err := some e } => { doc := d1, err := some e }
        | { doc := d1, err := none } => applyLoop batch rest d1

/-- The set `ready` holds the hashes of the changes admitted to the batch. -/
def ReadyIsBatch (st : Intake) : Prop :=
  ∀ h, GoMap.contains st.ready h = true ↔ ∃ c ∈ st.batch, c.Hash = h

namespace Document

/-- The method `ApplyChangesWithActorMap`. Every round of the second loop removes
a change from the queue, so it runs at most `len(queue) + 1` times. -/
def ApplyChangesWithActorMap (d : Document) (changes : List Change)
    (actorMap : Option (GoMap Nat Nat)) : Outcome :=
  match intakeLoop actorMap changes { doc := d, ready := [], batch := [] } with
  | (st, some e) => { doc := st.doc, err := some e }
  | (st, none) =>
    match drainLoop (st.doc.queue.length + 1) st with
    | .error e => { doc := st.doc, err := some e }
    | .ok st1 =>
      match orderChangeIndicesTopologically st1.batch with
      | .error e => { doc := st1.doc, err := some e }
      | .ok order => applyLoop st1.batch order st1.doc

def ApplyChanges (d : Document) (changes : List Change) : Outcome :=
  d.ApplyChangesWithActorMap changes none

/-- The state of the loop of `getChangesAdded`. -/
structure WalkState where
  stack : List ChangeHash
  seen : GoMap ChangeHash Unit
  out : List ChangeHash
  deriving DecidableEq, Repr

/-- The loop of `getChangesAdded`: the stack is popped at its end. -/
def walkAdded (d other : Document) : Nat → WalkState → Except GoError (List ChangeHash)
  | 0, _ => .error .outOfFuel
  | fuel + 1, st =>
    match st.stack.getLast? with
    | none => .ok st.out
    | some h =>
      let stack1 := st.stack.dropLast
      if GoMap.contains st.seen h then walkAdded d other fuel { st with stack := stack1 }
      else
        let seen1 := GoMap.set st.seen h ()
        if d.hasChange h then
          walkAdded d other fuel { st with stack := stack1, seen := seen1 }
        else
          match other.graph.DepsForHash h with
          | .error e => .error e
          | .ok none =>
            walkAdded d other fuel { stack := stack1, seen := seen1, out := st.out ++ [h] }
          | .ok (some deps) =>
            walkAdded d other fuel
              { stack := stack1 ++ deps, seen := seen1, out := st.out ++ [h] }

/-- The total number of dependency entries in a graph. -/
def depEntries (g : Graph) : Nat :=
  (g.nodes.map (fun n => n.depHash.length)).sum

/-- The method `getChangesAdded`. A hash is expanded only the first time it is
popped, so the stack receives at most the heads and every dependency entry once. -/
def getChangesAdded (d other : Document) : Except GoError (List ChangeHash) :=
  match walkAdded d other (other.Heads.length + depEntries other.graph + 1)
      { stack := other.Heads, seen := [], out := [] } with
  | .error e => .error e
  | .ok out => .ok out.reverse

/-- The loop of `Merge` that fetches the changes from the other document. -/
def lookupChanges (other : Document) : List ChangeHash → Except GoError (List Change)
  | [] => .ok []
  | h :: rest =>
    match GoMap.get? other.changes h with
    | none => .error .ErrMissingChange
    | some c =>
      match lookupChanges other rest with
      | .error e => .error e
      | .ok cs => .ok (c :: cs)

def Merge (d other : Document) : Outcome :=
  match getChangesAdded d other with
  | .error e => { doc := d, err := some e }
  | .ok hashes =>
    match lookupChanges other hashes with
    | .error e => { doc := d, err := some e }
    | .ok changes => d.ApplyChangesWithActorMap changes none

end Document

end automerge

/-! ## automerge: transactions -/

namespace automerge

open model changegraph

structure CommitOptions where
  Message : Option GoString
  Time : Option int64
  deriving DecidableEq, Repr

/-- The function `computeChangeHash`, whose digest is computed by the SHA-256
implementation of the standard library; it is a parameter of `CommitWith`. -/
abbrev ChangeHasher :=
  Nat → Nat → Nat → Nat → List ChangeHash → CommitOptions → List ChangeOperation → ChangeHash

structure txCheckpoint where
  actor : Nat
  seq : Nat
  startOp : Nat
  deps : List ChangeHash
  deriving DecidableEq, Repr

/-- The implementations of the interface `txMutation`. -/
inductive txMutation where
  | putMutation (obj : ObjID) (key : GoString) (value : ScalarValue)
  | putObjectMutation (obj : ObjID) (key : GoString) (typ : opset.ObjType) (child : ObjID)
  | insertMutation (obj : ObjID) (index : Int) (value : ScalarValue)
  | insertObjectMutation (obj : ObjID) (index : Int) (typ : opset.ObjType) (child : ObjID)
  | deleteMapMutation (obj : ObjID) (key : GoString)
  | deleteListMutation (obj : ObjID) (index : Int)
  | incrementMutation (obj : ObjID) (key : GoString) (by_ : int64)
  | spliceTextMutation (obj : ObjID) (index : Int) (deleteCount : Int) (insert : GoString)
  | markMutation (obj : ObjID) (start stop : Int) (name : GoString) (value : ScalarValue)
  deriving DecidableEq, Repr

namespace txMutation

def toChangeOp (m : txMutation) (opid : OpID) : ChangeOperation :=
  match m with
  | putMutation obj key value =>
    { zeroOperation with Kind := OpPut, ObjID := obj, Key := key, Value := value, OpID := opid }
  | putObjectMutation obj key typ child =>
    { zeroOperation with Kind := OpPutObject, ObjID := obj, ChildObjID := child, Key := key,
                         ObjType := typ, OpID := opid }
  | insertMutation obj index value =>
    { zeroOperation with Kind := OpInsert, ObjID := obj, Index := index, Value := value,
                         OpID := opid }
  | insertObjectMutation obj index typ child =>
    { zeroOperation with Kind := OpInsertObject, ObjID := obj, ChildObjID := child,
                         Index := index, ObjType := typ, OpID := opid }
  | deleteMapMutation obj key =>
    { zeroOperation with Kind := OpDeleteMap, ObjID := obj, Key := key, OpID := opid }
  | deleteListMutation obj index =>
    { zeroOperation with Kind := OpDeleteList, ObjID := obj, Index := index, OpID := opid }
  | incrementMutation obj key by_ =>
    { zeroOperation with Kind := OpIncrement, ObjID := obj, Key := key, By := by_, OpID := opid }
  | spliceTextMutation obj index deleteCount insert =>
    { zeroOperation with Kind := OpSpliceText, ObjID := obj, Index := index,
                         DeleteCount := deleteCount, InsertText := insert, OpID := opid }
  | markMutation obj start stop name value =>
    { zeroOperation with Kind := OpMark, ObjID := obj, Start := start, End := stop,
                         MarkName := name, Value := value, OpID := opid }

/-- The method `apply`; as for `applyChangeOperation` the op set is returned also
on failure. -/
def apply (m : txMutation) (ops : opset.OpSet) (opid : OpID) (actor seq : Nat) :
    opset.OpSet × Option GoError :=
  let lift : opset.OpSet → Except GoError opset.OpSet → opset.OpSet × Option GoError :=
    fun before r =>
      match r with
      | .ok o => (o, none)
      | .error e => (before, some e)
  match m with
  | putMutation obj key value =>
    lift ops (ops.PutMap obj key (opset.NewScalarValue value) opid actor seq)
  | putObjectMutation obj key typ child =>
    let ops1 := ops.CreateObject child typ
    lift ops1 (ops1.PutMap obj key (opset.NewObjectValue child typ) opid actor seq)
  | insertMutation obj index value =>
    lift ops (ops.InsertList obj index (opset.NewScalarValue value) opid actor seq)
  | insertObjectMutation obj index typ child =>
    let ops1 := ops.CreateObject child typ
    lift ops1 (ops1.InsertList obj index (opset.NewObjectValue child typ) opid actor seq)
  | deleteMapMutation obj key => lift ops (ops.DeleteMap obj key opid actor seq)
  | deleteListMutation obj index => lift ops (ops.DeleteList obj index opid actor seq)
  | incrementMutation obj key by_ =>
    lift ops (ops.IncrementMapCounter obj key by_ opid actor seq)
  | spliceTextMutation obj index deleteCount insert =>
    let start := if seq > 0 then seq - 1 else seq
    match ops.SpliceText obj index deleteCount insert actor start with
    | .ok (o, _) => (o, none)
    | .error e => (ops, some e)
  | markMutation obj start stop name value =>
    lift ops (ops.AddMark obj start stop name value opid actor seq)

/-- The method `opCount`; for a splice it is `uint64(deleteCount + runeCount)`. -/
def opCount (m : txMutation) : Nat :=
  match m with
  | spliceTextMutation _ _ deleteCount insert =>
    ((deleteCount + (insert.length : Int)) % 2 ^ 64).toNat
  | _ => 1

end txMutation

structure openMark where
  obj : ObjID
  start : Int
  name : GoString
  value : ScalarValue
  deriving DecidableEq, Repr

/-- The struct `Transaction` without its pointer to the document, which the
methods below take as an argument. -/
structure Transaction where
  closed : Bool
  cp : txCheckpoint
  ops : List txMutation
  openMk : List openMark
  deriving DecidableEq, Repr

namespace Document

def dependenciesForActorSeq (d : Document) (actor seq : Nat) :
    Except GoError (List ChangeHash) :=
  let deps := d.graph.Heads
  if seq > 1 then
    match d.graph.HashForActorSeq actor (seq - 1) with
    | .error e => .error e
    | .ok none => .ok deps
    | .ok (some prev) =>
      if prev ∈ deps then .ok deps else .ok (SortChangeHashes (deps ++ [prev]))
  else .ok deps

def newTransaction (d : Document) : Except GoError Transaction :=
  let actor := d.actor
  let seq := d.graph.SeqForActor actor + 1
  let startOp := (d.graph.MaxOp + 1) % 2 ^ 64
  match d.dependenciesForActorSeq actor seq with
  | .error e => .error e
  | .ok deps =>
    .ok { closed := false, cp := { actor := actor, seq := seq, startOp := startOp, deps := deps },
          ops := [], openMk := [] }

def Begin (d : Document) : Except GoError (Document × Transaction) :=
  if d.openTx then .error .ErrTransactionOpen
  else
    match d.newTransaction with
    | .error e => .error e
    | .ok tx => .ok ({ d with openTx := true }, tx)

end Document

namespace Transaction

def totalMutationOpCount (tx : Transaction) : Nat :=
  tx.ops.foldl (fun total m => (total + m.opCount) % 2 ^ 64) 0

def nextOpIDForNextMutation (tx : Transaction) : OpID :=
  { Counter := (tx.cp.startOp + tx.totalMutationOpCount) % 2 ^ 64, Actor := tx.cp.actor }

/-- The common shape of the staging methods: refuse on a closed transaction,
otherwise append the mutation. -/
def stage (tx : Transaction) (m : txMutation) : Except GoError Transaction :=
  if tx.closed then .error .ErrTransactionClosed else .ok { tx with ops := tx.ops ++ [m] }

def Put (tx : Transaction) (obj : ObjID) (key : GoString) (value : ScalarValue) :
    Except GoError Transaction :=
  tx.stage (.putMutation obj key value)

def PutObject (tx : Transaction) (obj : ObjID) (key : GoString) (typ : opset.ObjType) :
    Except GoError (Transaction × ObjID) :=
  let objID : ObjID := { Root := false, Op := tx.nextOpIDForNextMutation }
  match tx.stage (.putObjectMutation obj key typ objID) with
  | .error e => .error e
  | .ok tx1 => .ok (tx1, objID)

def Insert (tx : Transaction) (obj : ObjID) (index : Int) (value : ScalarValue) :
    Except GoError Transaction :=
  tx.stage (.insertMutation obj index value)

def InsertObject (tx : Transaction) (obj : ObjID) (index : Int) (typ : opset.ObjType) :
    Except GoError (Transaction × ObjID) :=
  let objID : ObjID := { Root := false, Op := tx.nextOpIDForNextMutation }
  match tx.stage (.insertObjectMutation obj index typ objID) with
  | .error e => .error e
  | .ok tx1 => .ok (tx1, objID)

def DeleteMap (tx : Transaction) (obj : ObjID) (key : GoString) : Except GoError Transaction :=
  tx.stage (.deleteMapMutation obj key)

def DeleteList (tx : Transaction) (obj : ObjID) (index : Int) : Except GoError Transaction :=
  tx.stage (.deleteListMutation obj index)

def Increment (tx : Transaction) (obj : ObjID) (key : GoString) (by_ : int64) :
    Except GoError Transaction :=
  tx.stage (.incrementMutation obj key by_)

def SpliceText (tx : Transaction) (obj : ObjID) (index : Int) (deleteCount : Int)
    (insert : GoString) : Except GoError Transaction :=
  if tx.closed then .error .ErrTransactionClosed
  else if deleteCount = 0 ∧ insert = "" then .ok tx
  else .ok { tx with ops := tx.ops ++ [.spliceTextMutation obj index deleteCount insert] }

def Mark (tx : Transaction) (obj : ObjID) (start stop : Int) (name : GoString)
    (value : ScalarValue) : Except GoError Transaction :=
  if tx.closed then .error .ErrTransactionClosed
  else if start < 0 ∨ stop < start then .error .ErrInvalidMarkRange
  else .ok { tx with ops := tx.ops ++ [.markMutation obj start stop name value] }

/-- The result of `CommitWith`: the document and the transaction as the call
leaves them, the returned change (if any) and the returned error (if any). -/
structure CommitResult where
  doc : Document
  tx : Transaction
  change : Option Change
  err : Option GoError
  deriving DecidableEq, Repr

/-- The loop of `CommitWith` over the staged mutations: the op set, the change
operations built so far and the offset. -/
def commitLoop (cp : txCheckpoint) : List txMutation → opset.OpSet → List ChangeOperation →
    Nat → opset.OpSet × List ChangeOperation × Nat × Option GoError
  | [], ops, changeOps, offset => (ops, changeOps, offset, none)
  | m :: rest, ops, changeOps, offset =>
    let opid : OpID := { Counter := (cp.startOp + offset) % 2 ^ 64, Actor := cp.actor }
    match m.apply ops opid cp.actor opid.Counter with
    | (ops1, some e) => (ops1, changeOps, offset, some e)
    | (ops1, none) =>
      commitLoop cp rest ops1 (changeOps ++ [m.toChangeOp opid]) ((offset + m.opCount) % 2 ^ 64)

def CommitWith (hasher : ChangeHasher) (d : Document) (tx : Transaction)
    (opts : CommitOptions) : CommitResult :=
  if tx.closed then { doc := d, tx := tx, change := none, err := some .ErrTransactionClosed }
  else if tx.openMk.length > 0 then
    { doc := d, tx := tx, change := none, err := some .ErrMarkNotClosed }
  else if tx.ops.length = 0 then
    { doc := { d with openTx := false }, tx := { tx with closed := true }, change := none,
      err := none }
  else
    match commitLoop tx.cp tx.ops d.ops [] 0 with
    | (ops1, _, _, some e) =>
      { doc := { d with ops := ops1 }, tx := tx, change := none, err := some e }
    | (ops1, changeOps, offset, none) =>
      if offset = 0 then
        { doc := { d with ops := ops1, openTx := false }, tx := { tx with closed := true },
          change := none, err := none }
      else
        let maxOp := (tx.cp.startOp + offset + (2 ^ 64 - 1)) % 2 ^ 64
        let hash := hasher tx.cp.actor tx.cp.seq tx.cp.startOp maxOp tx.cp.deps opts changeOps
        match d.graph.AddChange
            { Hash := hash, Deps := tx.cp.deps, Actor := tx.cp.actor, Seq := tx.cp.seq,
              MaxOp := maxOp } with
        | .error e => { doc := { d with ops := ops1 }, tx := tx, change := none, err := some e }
        | .ok g =>
          let change : Change :=
            { Hash := hash, Actor := tx.cp.actor, Seq := tx.cp.seq, StartOp := tx.cp.startOp,
              MaxOp := maxOp, Deps := tx.cp.deps, Message := opts.Message, Time := opts.Time,
              Operations := changeOps }
          let d1 : Document :=
            { d with ops := ops1, graph := g, changes := GoMap.set d.changes hash change }
          { doc := { d1.clearLegacyRaw with last := some change, openTx := false },
            tx := { tx with closed := true }, change := some change, err := none }

def Commit (hasher : ChangeHasher) (d : Document) (tx : Transaction) : CommitResult :=
  CommitWith hasher d tx { Message := none, Time := none }

def Rollback (d : Document) (tx : Transaction) : Except GoError (Document × Transaction) :=
  if tx.closed then .error .ErrTransactionClosed
  else .ok ({ d with openTx := false }, { tx with ops := [], openMk := [], closed := true })

end Transaction

end automerge

/-! ## Worked examples -/

namespace automerge

open model changegraph

/-- A stand-in for `computeChangeHash` in the worked examples: the change of actor
`a` with sequence number `s` gets the hash `100 * a + s`, so that the hashes of actor
1 are below those of actor 2. The examples depend only on the order of the hashes,
and they are stated for both orders. -/
def exampleHasherAsc : ChangeHasher :=
  fun actor seq _ _ _ _ _ => 100 * actor + seq

/-- The stand-in with the opposite order: the hashes of actor 1 are above those of
actor 2. -/
def exampleHasherDesc : ChangeHasher :=
  fun actor seq _ _ _ _ _ => 1000 - 100 * actor + seq

/-- The transaction reported when `Begin` fails and there is none. -/
def noTransaction : Transaction :=
  { closed := true, cp := { actor := 0, seq := 0, startOp := 0, deps := [] }, ops := [],
    openMk := [] }

/-- One local commit that puts the string `value` at `key` of the root map:
`Begin`, `Put`, `Commit`. -/
def commitPut (hasher : ChangeHasher) (d : Document) (key value : GoString) :
    Transaction.CommitResult :=
  match d.Begin with
  | .error e => { doc := d, tx := noTransaction, change := none, err := some e }
  | .ok (d1, tx) =>
    match tx.Put RootObjID key (StringValue value) with
    | .error e => { doc := d1, tx := tx, change := none, err := some e }
    | .ok tx1 => Transaction.Commit hasher d1 tx1

/-- The change that puts the string `value` at `key` of the root map as the first
change of `actor`, with the operation id `1@actor` and the given hash. -/
def firstPut (hash actor : Nat) (key value : GoString) : Change :=
  { Hash := hash, Actor := actor, Seq := 1, StartOp := 1, MaxOp := 1, Deps := [],
    Message := none, Time := none,
    Operations := [{ zeroOperation with Kind := OpPut, ObjID := RootObjID, Key := key,
                                        Value := StringValue value,
                                        OpID := { Counter := 1, Actor := actor } }] }

/-- The document with the given actor. -/
def documentOfActor (actor : Nat) : Document :=
  { NewDocument with actor := actor }

/-- The common history of the merge example: one change by actor 3. -/
def sharedBase (hasher : ChangeHasher) : Document :=
  (commitPut hasher (documentOfActor 3) "title" "base").doc

/-- Replica A: the common history, then a local commit of actor 1 that puts `k = "A"`. -/
def replicaA (hasher : ChangeHasher) : Document :=
  (commitPut hasher
    { (NewDocument.ApplyChanges (sharedBase hasher).changes.unzip.2).doc with actor := 1 }
    "k" "A").doc

/-- Replica B: the common history, then a local commit of actor 2 that puts `k = "B"`. -/
def replicaB (hasher : ChangeHasher) : Document :=
  (commitPut hasher
    { (NewDocument.ApplyChanges (sharedBase hasher).changes.unzip.2).doc with actor := 2 }
    "k" "B").doc

/-- Three successive local commits of actor 1 on a new document, each putting a
new string at the root key `k`; every change depends on the one before. -/
def chainCommit1 (hasher : ChangeHasher) : Transaction.CommitResult :=
  commitPut hasher NewDocument "k" "v1"

def chainCommit2 (hasher : ChangeHasher) : Transaction.CommitResult :=
  commitPut hasher (chainCommit1 hasher).doc "k" "v2"

def chainCommit3 (hasher : ChangeHasher) : Transaction.CommitResult :=
  commitPut hasher (chainCommit2 hasher).doc "k" "v3"

/-- The first two changes of the chain, the dependent one first. -/
def outOfOrderBatch (hasher : ChangeHasher) : List Change :=
  (chainCommit2 hasher).change.toList ++ (chainCommit1 hasher).change.toList

/-- The last two changes of the chain, the dependent one first; the first change
of the chain, on which they build, is left out. -/
def orphanBatch (hasher : ChangeHasher) : List Change :=
  (chainCommit3 hasher).change.toList ++ (chainCommit2 hasher).change.toList

/-- The string held by a value read from a map. -/
def stringOf (r : Except GoError (Option opset.Value)) : Option GoString :=
  match r with
  | .ok (some v) => some v.Scalar.String
  | _ => none

/-- The strings held by the values that `GetAllMap` returns. -/
def stringsOf (r : Except GoError (List opset.Value)) : List GoString :=
  match r with
  | .ok vs => vs.map (fun v => v.Scalar.String)
  | .error _ => []

end automerge

namespace automerge

open model changegraph

/-! ### The heap order -/

/-- The hash of the batch element with index `x`, zero out of range. -/
def keyOf (batch : List Change) (x : Nat) : Nat :=
  ((batch[x]?).map Change.Hash).getD 0

/-- The hash of the change at heap position `k`. -/
def keyAt (batch : List Change) (items : List Nat) (k : Nat) : Nat :=
  keyOf batch ((items[k]?).getD 0)

/-- The heap order: no position holds a smaller hash than its parent. -/
def IsHeap (batch : List Change) (items : List Nat) : Prop :=
  ∀ k, 0 < k → k < items.length → keyAt batch items ((k - 1) / 2) ≤ keyAt batch items k

/-- The heap order with position `i` possibly smaller than its parent. -/
def HeapUp (batch : List Change) (items : List Nat) (i : Nat) : Prop :=
  (∀ k, 0 < k → k < items.length → k ≠ i →
    keyAt batch items ((k - 1) / 2) ≤ keyAt batch items k) ∧
  (∀ k, 0 < k → k < items.length → (k - 1) / 2 = i → 0 < i →
    keyAt batch items ((i - 1) / 2) ≤ keyAt batch items k)

/-- The heap order with position `i` possibly larger than its children. -/
def HeapDown (batch : List Change) (items : List Nat) (i : Nat) : Prop :=
  (∀ k, 0 < k → k < items.length → (k - 1) / 2 ≠ i →
    keyAt batch items ((k - 1) / 2) ≤ keyAt batch items k) ∧
  (∀ k, 0 < k → k < items.length → (k - 1) / 2 = i → 0 < i →
    keyAt batch items ((i - 1) / 2) ≤ keyAt batch items k)

/-- Every item is an index of the batch. -/
def ValidItems (n : Nat) (items : List Nat) : Prop :=
  ∀ x ∈ items, x < n

end automerge

namespace automerge

open model changegraph

/-! ### The order of a batch, stated on hashes -/

/-- The dependencies of the batch element with index `i`. -/
def depsAt (batch : List Change) (i : Nat) : List ChangeHash :=
  ((batch[i]?).map Change.Deps).getD []

/-- The entry `dependents[j]`, nil when absent. -/
def dependentsOf (m : GoMap Nat (List Nat)) (j : Nat) : List Nat :=
  (GoMap.get? m j).getD []

/-- The number of entries of `deps` that name a change of the batch whose hash is
not in `emitted`. -/
def pending (batch : List Change) (emitted : List ChangeHash) (deps : List ChangeHash) : Nat :=
  deps.countP (fun d => decide (d ∈ batch.map Change.Hash) && !decide (d ∈ emitted))

/-- A change of the batch that is not emitted and whose dependencies inside the
batch are all emitted. -/
def HReady (batch : List Change) (emitted : List ChangeHash) (c : Change) : Prop :=
  c ∈ batch ∧ c.Hash ∉ emitted ∧ ∀ d ∈ c.Deps, d ∈ batch.map Change.Hash → d ∈ emitted

/-- The hash `h` is the smallest hash of a ready change. -/
def IsNext (batch : List Change) (emitted : List ChangeHash) (h : ChangeHash) : Prop :=
  (∃ c, HReady batch emitted c ∧ c.Hash = h) ∧ ∀ c, HReady batch emitted c → h ≤ c.Hash

/-- Every hash of the list is the smallest ready hash after the hashes before it. -/
def GreedyPre (batch : List Change) : List ChangeHash → List ChangeHash → Prop
  | _, [] => True
  | emitted, h :: t => IsNext batch emitted h ∧ GreedyPre batch (emitted ++ [h]) t

/-- The list of hashes obtained by emitting the smallest ready hash until no change
is ready. -/
def GreedyFrom (batch : List Change) : List ChangeHash → List ChangeHash → Prop
  | emitted, [] => ∀ c, ¬ HReady batch emitted c
  | emitted, h :: t => IsNext batch emitted h ∧ GreedyFrom batch (emitted ++ [h]) t

/-- The table `dependents` of a batch: `dependents[j]` holds the index `i` once
for every entry of the dependencies of change `i` that names change `j`. -/
def DepTable (batch : List Change) (dependents : GoMap Nat (List Nat)) : Prop :=
  ∀ j, j < batch.length →
    (∀ x ∈ dependentsOf dependents j, x < batch.length) ∧
    ∀ i, i < batch.length →
      (dependentsOf dependents j).count i = (depsAt batch i).count (keyOf batch j)

end automerge

namespace automerge

open model changegraph

/-- The invariant of the main loop of `orderChangeIndicesTopologically`: the count
of an index is the number of its dependency entries inside the batch that are not
emitted, the heap holds the indexes that are not emitted and have no such entry, and
every emitted hash was the smallest ready hash when it was emitted. -/
structure TopoSem (batch : List Change) (st : TopoState) : Prop where
  validItems : ValidItems batch.length st.items
  validOut : ValidItems batch.length st.out
  nodup : (st.out ++ st.items).Nodup
  heap : IsHeap batch st.items
  length : st.depsCount.length = batch.length
  counts : ∀ i, i < batch.length → st.depsCount[i]? =
    some ((pending batch (st.out.map (keyOf batch)) (depsAt batch i) : Nat) : Int)
  items_iff : ∀ i, i < batch.length →
    (i ∈ st.items ↔
      i ∉ st.out ∧ pending batch (st.out.map (keyOf batch)) (depsAt batch i) = 0)
  out_done : ∀ i ∈ st.out, pending batch (st.out.map (keyOf batch)) (depsAt batch i) = 0
  greedy : GreedyPre batch [] (st.out.map (keyOf batch))

/-- The invariant of the inner loop over `dependents[i]`, after the entries `done`:
`emitted` holds the hashes emitted before the index popped last, `popped` the heap
after the pop and `out` the output with that index. -/
structure ReleaseInv (batch : List Change) (emitted : List ChangeHash) (popped out done : List Nat)
    (st : TopoState) : Prop where
  out_eq : st.out = out
  validItems : ValidItems batch.length st.items
  nodup : (st.out ++ st.items).Nodup
  heap : IsHeap batch st.items
  length : st.depsCount.length = batch.length
  counts : ∀ i, i < batch.length → st.depsCount[i]? =
    some (((pending batch emitted (depsAt batch i) : Nat) : Int) - ((done.count i : Nat) : Int))
  items_iff : ∀ i, i < batch.length →
    (i ∈ st.items ↔
      i ∈ popped ∨ (i ∈ done ∧ pending batch emitted (depsAt batch i) = done.count i))

/-- The hashes of a batch in the order of `orderChangeIndicesTopologically`: the
smallest ready hash is emitted until no change is ready; when changes are left over
the order is that of the hashes. -/
def OrderSpec (batch : List Change) (hs : List ChangeHash) : Prop :=
  (GreedyFrom batch [] hs ∧ hs.length = batch.length) ∨
  ((∃ hs', GreedyFrom batch [] hs' ∧ hs'.length ≠ batch.length) ∧
    hs.Sorted (fun a b => a ≤ b) ∧ hs.Perm (batch.map Change.Hash))

end automerge

namespace automerge

open model changegraph

/-- The document with another pending queue. -/
def Document.withQueue (d : Document) (q : List Change) : Document :=
  { d with queue := q }

/-- The outcome with another pending queue. -/
def Outcome.withQueue (o : Outcome) (q : List Change) : Outcome :=
  { doc := o.doc.withQueue q, err := o.err }

end automerge

namespace automerge

open model changegraph

/-! ### The first two loops of ApplyChanges, stated on the changes -/

/-- The first loop keeps a change, for the batch or for the pending queue, when its
hash is not in the graph and the graph has no change with its actor and sequence
number. -/
def intakeKeeps (g : Graph) (c : Change) : Bool :=
  !g.HasChange c.Hash &&
    (match g.HashForActorSeq c.Actor c.Seq with
     | .ok none => true
     | _ => false)

/-- The first loop stops at a change whose hash is not in the graph when the lookup
of its actor and sequence number fails or finds another hash. -/
def intakeFails (g : Graph) (c : Change) : Bool :=
  !g.HasChange c.Hash &&
    (match g.HashForActorSeq c.Actor c.Seq with
     | .error _ => true
     | .ok (some existing) => decide (existing ≠ c.Hash)
     | .ok none => false)

/-- The hashes that can be applied: the hash of a change of `S` is admitted when
every dependency of the change that is not in the graph is admitted. -/
inductive Admitted (g : Graph) (S : List Change) : ChangeHash → Prop
  | intro (c : Change) : c ∈ S →
      (∀ dep, dep ∈ c.Deps → g.HasChange dep = false → Admitted g S dep) →
      Admitted g S c.Hash

end automerge

namespace storage

/-! ### Chunks -/

/-- The bytes `Magic`: the letters `AMG6`. -/
def Magic : List Nat := [65, 77, 71, 54]

def ChunkDocument : Nat := 1

def ChunkChange : Nat := 2

def flagDeflate : Nat := 1

def Version1 : Nat := 1

/-- The call `binary.BigEndian.PutUint32` on a `uint32`. -/
def putUint32 (v : Nat) : List Nat :=
  [v / 2 ^ 24 % 256, v / 2 ^ 16 % 256, v / 2 ^ 8 % 256, v % 256]

/-- The function `EncodeChunk`. The functions `deflateBytes` (compress/flate) and
`crc32.ChecksumIEEE` belong to the standard library and are parameters; the length
of the body is converted to `uint32`. -/
def EncodeChunk (deflateBytes : List Nat → Except GoError (List Nat))
    (checksum : List Nat → Nat) (typ : Nat) (payload : List Nat) (deflate : Bool) :
    Except GoError (List Nat) :=
  match (if deflate then deflateBytes payload else .ok payload) with
  | .error e => .error e
  | .ok body =>
    let flags := if deflate then flagDeflate else 0
    let chk := checksum payload
    .ok (Magic ++ [Version1, typ, flags, 0] ++ putUint32 (body.length % 2 ^ 32) ++
      putUint32 (chk % 2 ^ 32) ++ body)

end storage

namespace automerge

open model changegraph

/-! ### Save -/

structure SaveOptions where
  Deflate : Bool
  RetainOrphans : Bool
  deriving DecidableEq, Repr

def DefaultSaveOptions : SaveOptions :=
  { Deflate := true, RetainOrphans := true }

/-- The standard library behind Save: `json.Marshal` of the encoded change and of
the encoded document, `deflateBytes` and `crc32.ChecksumIEEE`. -/
structure Codec where
  marshalChange : Change → Except GoError (List Nat)
  marshalDocument : List Change → Except GoError (List Nat)
  deflateBytes : List Nat → Except GoError (List Nat)
  checksum : List Nat → Nat

namespace Document

/-- The method `AllChanges`: the changes of the graph in the order of
`GetHashesFromHeads`, nil when that fails. -/
def AllChanges (d : Document) : List Change :=
  match d.graph.GetHashesFromHeads d.Heads with
  | .error _ => []
  | .ok hashes => hashes.filterMap (fun h => GoMap.get? d.changes h)

/-- The loop of `SaveWithOptions` over the pending queue: one chunk for every
queued change, in the order of the queue. -/
def saveQueueLoop (codec : Codec) (deflate : Bool) :
    List Change → List Nat → Except GoError (List Nat)
  | [], buf => .ok buf
  | q :: rest, buf =>
    match codec.marshalChange q with
    | .error e => .error e
    | .ok p =>
      match storage.EncodeChunk codec.deflateBytes codec.checksum storage.ChunkChange p
          deflate with
      | .error e => .error e
      | .ok cbuf => saveQueueLoop codec deflate rest (buf ++ cbuf)

/-- The method `SaveWithOptions`: the bytes or the error, and the document with its
cache. -/
def SaveWithOptions (d : Document) (codec : Codec) (opts : SaveOptions) :
    Except GoError (List Nat) × Document :=
  if d.legacyRaw.length > 0 ∧ d.changes.length = 0 then (.ok d.legacyRaw, d)
  else
    let key := (opts.Deflate, opts.RetainOrphans)
    match (if d.queue.length = 0 then GoMap.get? d.saveCache key else none) with
    | some cached => (.ok cached, d)
    | none =>
      match codec.marshalDocument d.AllChanges with
      | .error e => (.error e, d)
      | .ok payload =>
        match storage.EncodeChunk codec.deflateBytes codec.checksum storage.ChunkDocument
            payload opts.Deflate with
        | .error e => (.error e, d)
        | .ok buf =>
          match (if opts.RetainOrphans then saveQueueLoop codec opts.Deflate d.queue buf
                 else .ok buf) with
          | .error e => (.error e, d)
          | .ok out =>
            if d.queue.length = 0 then
              (.ok out, { d with saveCache := GoMap.set d.saveCache key out })
            else (.ok out, d)

def Save (d : Document) (codec : Codec) : Except GoError (List Nat) × Document :=
  d.SaveWithOptions codec DefaultSaveOptions

end Document

/-- A stand-in for the standard library behind Save: a change is written as its
hash, actor and sequence number, a document as the hashes of its changes, nothing
is compressed and the checksum is the sum of the bytes. -/
def exampleCodec : Codec :=
  { marshalChange := fun c => .ok [c.Hash % 256, c.Actor % 256, c.Seq % 256]
    marshalDocument := fun cs => .ok (cs.map (fun c => c.Hash % 256))
    deflateBytes := fun b => .ok b
    checksum := fun b => b.sum }

/-- The bytes that a Save returned, none when it failed. -/
def savedBytes (r : Except GoError (List Nat) × Document) : Option (List Nat) :=
  match r.1 with
  | .ok b => some b
  | .error _ => none

/-- Two changes with the same hash field that put different strings at the root
key `k`. -/
def twinBatch : List Change :=
  [firstPut 7 1 "k" "a", firstPut 7 2 "k" "b"]

end automerge

namespace changegraph

open model

namespace Graph

/-- The loop of `ClockForHeads` over the hashes of the closure: `g.byHash[h]` is
zero for an absent hash and `g.nodes[idx]` panics outside the graph. -/
def clockLoop (g : Graph) : List ChangeHash → Clock → Except GoError Clock
  | [], clk => .ok clk
  | h :: rest, clk =>
    let idx := (GoMap.get? g.byHash h).getD 0
    match g.nodes[idx]? with
    | none => .error .panicIndexOutOfRange
    | some n => clockLoop g rest (clk.Observe n.actor n.maxOp)

def ClockForHeads (g : Graph) (heads : List ChangeHash) : Except GoError Clock :=
  match g.GetHashesFromHeads heads with
  | .error e => .error e
  | .ok hashes => g.clockLoop hashes NewClock

/-- The number `v` is the greatest `MaxOp` over the changes of actor `a` whose hash
satisfies `P`, and zero when there is none. -/
def IsMaxOpOf (g : Graph) (a : Nat) (P : ChangeHash → Prop) (v : Nat) : Prop :=
  (∀ n ∈ g.nodes, n.actor = a → P n.hash → n.maxOp ≤ v) ∧
  (v = 0 ∨ ∃ n ∈ g.nodes, n.actor = a ∧ P n.hash ∧ n.maxOp = v)

end Graph

/-- Two changes of actor 1 of which the second carries the smaller `MaxOp`. -/
def decreasingMetas : List ChangeMeta :=
  [ { Hash := 1, Deps := [], Actor := 1, Seq := 1, MaxOp := 5 },
    { Hash := 2, Deps := [1], Actor := 1, Seq := 2, MaxOp := 3 } ]

def decreasingGraph : Graph :=
  New.addChanges decreasingMetas

end changegraph

namespace changegraph

open model

namespace Graph

/-- The loop of `Validate` over `n.depIdx`; `i` is the loop index and `ch` the map
`computedHeads`. The wrapped pair `ErrValidationMismatch: ErrInvalidNodeIndex` is
reported as `ErrValidationMismatch`; a node index is never negative. -/
def validateDeps (g : Graph) (depHash : List ChangeHash) :
    List Nat → Nat → GoMap ChangeHash Unit → Except GoError (GoMap ChangeHash Unit)
  | [], _, ch => .ok ch
  | depIdx :: rest, i, ch =>
    if depIdx ≥ g.nodes.length then .error .ErrValidationMismatch
    else
      match g.nodes[depIdx]?, depHash[i]? with
      | some nd, some dh =>
        if nd.hash ≠ dh then .error .ErrValidationMismatch
        else validateDeps g depHash rest (i + 1) (GoMap.delete ch dh)
      | _, _ => .error .panicIndexOutOfRange

/-- The loop of `Validate` over the nodes, with the loop index, `localMax` and
`computedHeads` as state. -/
def validateNodes (g : Graph) :
    List node → Nat → Nat → GoMap ChangeHash Unit →
      Except GoError (Nat × GoMap ChangeHash Unit)
  | [], _, localMax, ch => .ok (localMax, ch)
  | n :: rest, idx, localMax, ch =>
    let localMax := if n.maxOp > localMax then n.maxOp else localMax
    match GoMap.get? g.byHash n.hash with
    | none => .error .ErrValidationMismatch
    | some mapped =>
      if mapped ≠ idx then .error .ErrValidationMismatch
      else if n.depIdx.length ≠ n.depHash.length then .error .ErrValidationMismatch
      else
        match validateDeps g n.depHash n.depIdx 0 ch with
        | .error e => .error e
        | .ok ch1 => validateNodes g rest (idx + 1) localMax ch1

/-- The inner loop of `Validate` over the indexes of one actor. -/
def validateActor (g : Graph) (actor : Nat) : List Nat → Nat → Except GoError Unit
  | [], _ => .ok ()
  | idx :: rest, i =>
    match g.nodes[idx]? with
    | none => .error .panicIndexOutOfRange
    | some n =>
      if n.actor ≠ actor then .error .ErrValidationMismatch
      else if n.seq ≠ i + 1 then .error .ErrValidationMismatch
      else validateActor g actor rest (i + 1)

/-- The loop of `Validate` over `g.byActor`. -/
def validateActors (g : Graph) : List (Nat × List Nat) → Except GoError Unit
  | [] => .ok ()
  | (actor, idxs) :: rest =>
    match validateActor g actor idxs 0 with
    | .error e => .error e
    | .ok _ => validateActors g rest

/-- The function `Validate`; `nil` is `.ok ()`. The size of a map is the length of
its association list. -/
def Validate (g : Graph) : Except GoError Unit :=
  if g.nodes.length ≠ g.byHash.length then .error .ErrValidationMismatch
  else
    let computedHeads : GoMap ChangeHash Unit :=
      g.nodes.foldl (fun ch n => GoMap.set ch n.hash ()) []
    match validateNodes g g.nodes 0 0 computedHeads with
    | .error e => .error e
    | .ok (localMax, ch) =>
      if localMax ≠ g.maxOp then .error .ErrValidationMismatch
      else if ch.length ≠ g.headSet.length then .error .ErrValidationMismatch
      else if (GoMap.keys ch).any (fun h => !GoMap.contains g.headSet h) then
        .error .ErrValidationMismatch
      else validateActors g g.byActor

end Graph

/-- The part of the graph invariant that `Validate` checks beyond `WellFormed`: the
hash index has one entry per node, `maxOp` is the greatest `MaxOp` of a node, and the
entries of the actor index are the ones a lookup finds. -/
structure Counted (g : Graph) : Prop where
  byHash_length : g.byHash.length = g.nodes.length
  maxOp_eq : g.maxOp = g.nodes.foldl (fun m n => if n.maxOp > m then n.maxOp else m) 0
  byActor_get : ∀ p ∈ g.byActor, GoMap.get? g.byActor p.1 = some p.2

end changegraph

namespace automerge

open model changegraph

/-- One call of a staging method of `Transaction` with its arguments. -/
inductive StageCall where
  | put (obj : ObjID) (key : GoString) (value : ScalarValue)
  | putObject (obj : ObjID) (key : GoString) (typ : opset.ObjType)
  | insert (obj : ObjID) (index : Int) (value : ScalarValue)
  | insertObject (obj : ObjID) (index : Int) (typ : opset.ObjType)
  | deleteMap (obj : ObjID) (key : GoString)
  | deleteList (obj : ObjID) (index : Int)
  | increment (obj : ObjID) (key : GoString) (by_ : int64)
  | spliceText (obj : ObjID) (index : Int) (deleteCount : Int) (insert : GoString)
  | mark (obj : ObjID) (start stop : Int) (name : GoString) (value : ScalarValue)
  deriving DecidableEq, Repr

/-- What a staging call leaves and returns: the transaction after the call, the
returned error and, for `PutObject` and `InsertObject`, the returned `ObjID`. -/
structure StageResult where
  tx : Transaction
  err : Option GoError
  obj : Option ObjID
  deriving DecidableEq, Repr

namespace Transaction

/-- The transaction and the error after a method that returns only an error; a
failed call leaves the transaction as it was. -/
def afterCall (tx : Transaction) (r : Except GoError Transaction) : StageResult :=
  match r with
  | .ok tx1 => { tx := tx1, err := none, obj := none }
  | .error e => { tx := tx, err := some e, obj := none }

/-- The same for `PutObject` and `InsertObject`, which return the zero `ObjID` with
an error. -/
def afterObjectCall (tx : Transaction) (r : Except GoError (Transaction × ObjID)) :
    StageResult :=
  match r with
  | .ok (tx1, id) => { tx := tx1, err := none, obj := some id }
  | .error e =>
    { tx := tx, err := some e, obj := some { Root := false, Op := { Counter := 0, Actor := 0 } } }

/-- Dispatch of one staging call. -/
def call (tx : Transaction) (c : StageCall) : StageResult :=
  match c with
  | .put obj key value => tx.afterCall (tx.Put obj key value)
  | .putObject obj key typ => tx.afterObjectCall (tx.PutObject obj key typ)
  | .insert obj index value => tx.afterCall (tx.Insert obj index value)
  | .insertObject obj index typ => tx.afterObjectCall (tx.InsertObject obj index typ)
  | .deleteMap obj key => tx.afterCall (tx.DeleteMap obj key)
  | .deleteList obj index => tx.afterCall (tx.DeleteList obj index)
  | .increment obj key by_ => tx.afterCall (tx.Increment obj key by_)
  | .spliceText obj index deleteCount insert =>
    tx.afterCall (tx.SpliceText obj index deleteCount insert)
  | .mark obj start stop name value => tx.afterCall (tx.Mark obj start stop name value)

/-- The transaction after a sequence of staging calls. -/
def calls (tx : Transaction) (cs : List StageCall) : Transaction :=
  cs.foldl (fun t c => (t.call c).tx) tx

end Transaction

/-- The value is in the range of Go's `int`. -/
def isGoInt (x : Int) : Bool :=
  decide (-(2 : Int) ^ 63 ≤ x) && decide (x < (2 : Int) ^ 63)

/-- The `int` arguments of the call are in the range of `int` and the string of a
splice has fewer than `2^63` characters. -/
def StageCall.typed : StageCall → Bool
  | .insert _ index _ => isGoInt index
  | .insertObject _ index _ => isGoInt index
  | .deleteList _ index => isGoInt index
  | .spliceText _ index deleteCount text =>
    isGoInt index && isGoInt deleteCount && decide (text.length < 2 ^ 63)
  | .mark _ start stop _ _ => isGoInt start && isGoInt stop
  | _ => true

/-- What the staging methods guarantee of a staged mutation: a splice is not the
empty splice, and its arguments are in range. -/
def txMutation.Staged : txMutation → Prop
  | .spliceTextMutation _ _ deleteCount text =>
    ¬ (deleteCount = 0 ∧ text = "") ∧ isGoInt deleteCount = true ∧ text.length < 2 ^ 63
  | _ => True

/-- The op count in the words of the specification: one, except the number of
deletions plus the number of characters of the inserted text for a text splice. -/
def txMutation.specCount : txMutation → Nat
  | .spliceTextMutation _ _ deleteCount text => deleteCount.toNat + text.length
  | _ => 1

/-- The sum of the op counts of the mutations, as a natural number. -/
def countSum (ops : List txMutation) : Nat :=
  (ops.map txMutation.opCount).sum

/-- The change operations that the loop of `CommitWith` builds from the mutations,
starting at the given offset. -/
def assignOps (cp : txCheckpoint) : List txMutation → Nat → List ChangeOperation
  | [], _ => []
  | m :: rest, offset =>
    m.toChangeOp { Counter := (cp.startOp + offset) % 2 ^ 64, Actor := cp.actor } ::
      assignOps cp rest ((offset + m.opCount) % 2 ^ 64)

/-- A remote change of actor 2 whose `MaxOp` is `2^64 - 3`. -/
def farChange : Change :=
  { Hash := 7, Actor := 2, Seq := 1, StartOp := 1, MaxOp := 2 ^ 64 - 3, Deps := [],
    Message := none, Time := none, Operations := [] }

/-- After `farChange`: `Begin`, `PutObject(root, "t", Text)`, a splice that inserts
`"abc"` into the new text object, `Commit`. -/
def farCommit (hasher : ChangeHasher) : Transaction.CommitResult :=
  match (NewDocument.ApplyChanges [farChange]).doc.Begin with
  | .error e =>
    { doc := NewDocument, tx := noTransaction, change := none, err := some e }
  | .ok (d1, tx) =>
    let r1 := tx.call (.putObject RootObjID "t" opset.ObjText)
    let r2 := r1.tx.call (.spliceText (r1.obj.getD RootObjID) 0 0 "abc")
    Transaction.Commit hasher d1 r2.tx

/-- The transaction that `Begin` returns on a new document. -/
def firstTransaction : Transaction :=
  { closed := false, cp := { actor := 1, seq := 1, startOp := 1, deps := [] }, ops := [],
    openMk := [] }

/-- Two staging calls: `PutObject(root, "t", Text)`, which returns the object `1@1` on
a first transaction, and a splice that inserts `"abc"` into that object. -/
def textCalls : List StageCall :=
  [ .putObject RootObjID "t" opset.ObjText,
    .spliceText { Root := false, Op := { Counter := 1, Actor := 1 } } 0 0 "abc" ]

/-- The change that the commit of `textCalls` on a new document returns under
`exampleHasherAsc`. -/
def textChange : Change :=
  { Hash := 101, Actor := 1, Seq := 1, StartOp := 1, MaxOp := 4, Deps := [],
    Message := none, Time := none,
    Operations :=
      [ { zeroOperation with Kind := OpPutObject, ObjID := RootObjID,
                             ChildObjID := { Root := false, Op := { Counter := 1, Actor := 1 } },
                             Key := "t", ObjType := opset.ObjText,
                             OpID := { Counter := 1, Actor := 1 } },
        { zeroOperation with Kind := OpSpliceText,
                             ObjID := { Root := false, Op := { Counter := 1, Actor := 1 } },
                             Index := 0, DeleteCount := 0, InsertText := "abc",
                             OpID := { Counter := 2, Actor := 1 } } ] }

end automerge

namespace automerge

open model changegraph

/-- An object that no document of the examples holds. -/
def strayObject : ObjID :=
  { Root := false, Op := { Counter := 9, Actor := 9 } }

/-- On a new document: `Begin`, `Put(root, "a", "1")`, `Put(strayObject, "b", "2")`,
`Commit`. -/
def halfCommit (hasher : ChangeHasher) : Transaction.CommitResult :=
  Transaction.Commit hasher { NewDocument with openTx := true }
    (firstTransaction.calls
      [.put RootObjID "a" (StringValue "1"), .put strayObject "b" (StringValue "2")])

end automerge

namespace opset

open model

namespace OpSet

/-- The method `KeysMap`: the keys with at least one version, sorted by `sort.Strings`;
a nil slice and an empty slice are both the empty list. -/
def KeysMap (o : OpSet) (obj : ObjID) (cover : Option changegraph.Clock) :
    Except GoError (List GoString) :=
  match o.materialize cover with
  | .error e => .error e
  | .ok state =>
    match GoMap.get? state obj with
    | none => .ok []
    | some st =>
      .ok ((((st.m.getD []).filter (fun p => decide (p.2.versions.length > 0))).map
        Prod.fst).insertionSort (fun a b => ¬ b < a))

end OpSet

/-- Every record of the log is on an object of the op set. -/
def Anchored (o : OpSet) : Prop :=
  ∀ r ∈ o.ops, GoMap.contains o.objects r.obj = true

/-- The objects of `o` are objects of `o'`, with the same state. -/
def ObjectsLE (o o' : OpSet) : Prop :=
  ∀ id st, GoMap.get? o.objects id = some st → GoMap.get? o'.objects id = some st

end opset

namespace automerge

open model

/-- The object that the mutation creates before it writes, with its type. -/
def txMutation.creates : txMutation → Option (ObjID × opset.ObjType)
  | .putObjectMutation _ _ typ child => some (child, typ)
  | .insertObjectMutation _ _ typ child => some (child, typ)
  | _ => none

/-- The op set after the `CreateObject` call of the mutation; the op set itself for a
mutation that creates no object. -/
def txMutation.prepare (m : txMutation) (o : opset.OpSet) : opset.OpSet :=
  match m.creates with
  | some (id, typ) => o.CreateObject id typ
  | none => o

end automerge

namespace automerge

open model changegraph

/-- The object type that a `PutObject` or `InsertObject` call asks for. -/
def StageCall.objectType : StageCall → Option opset.ObjType
  | .putObject _ _ typ => some typ
  | .insertObject _ _ typ => some typ
  | _ => none

/-- Every staged mutation that creates an object carries the object id made of the
op id that the mutation gets at commit. -/
def Transaction.Named (tx : Transaction) : Prop :=
  ∀ (j : Nat) (m : txMutation) (id : ObjID) (typ : opset.ObjType),
    tx.ops[j]? = some m → m.creates = some (id, typ) →
    id = { Root := false,
           Op := { Counter := (tx.cp.startOp + countSum (tx.ops.take j)) % 2 ^ 64,
                   Actor := tx.cp.actor } }

/-- A remote change of actor 2 whose `PutObject` operation creates, as a map, the
object `2@1`. -/
def squatChange : Change :=
  { Hash := 7, Actor := 2, Seq := 1, StartOp := 1, MaxOp := 1, Deps := [],
    Message := none, Time := none,
    Operations := [{ zeroOperation with
      Kind := OpPutObject, ObjID := RootObjID, Key := "x", ObjType := opset.ObjMap,
      ChildObjID := { Root := false, Op := { Counter := 2, Actor := 1 } },
      OpID := { Counter := 1, Actor := 2 } }] }

/-- After `squatChange`: `Begin` and `PutObject(root, "y", List)`. -/
def squatCall : StageResult :=
  match (NewDocument.ApplyChanges [squatChange]).doc.Begin with
  | .error e => { tx := noTransaction, err := some e, obj := none }
  | .ok (_, tx) => tx.call (.putObject RootObjID "y" opset.ObjList)

/-- The commit of the transaction of `squatCall`. -/
def squatCommit (hasher : ChangeHasher) : Transaction.CommitResult :=
  Transaction.Commit hasher
    { (NewDocument.ApplyChanges [squatChange]).doc with openTx := true } squatCall.tx

end automerge

namespace opset

open model

/-- A list object `1@1` beside the root map. -/
def listOpSet : OpSet :=
  New.CreateObject { Root := false, Op := { Counter := 1, Actor := 1 } } ObjList

end opset

namespace opset

open model

/-- A text object `1@1` beside the root map. -/
def textOpSet : OpSet :=
  New.CreateObject { Root := false, Op := { Counter := 1, Actor := 1 } } ObjText

/-- The object `1@1` of `listOpSet` and of `textOpSet`. -/
def firstObject : ObjID :=
  { Root := false, Op := { Counter := 1, Actor := 1 } }

/-- The state of an empty list object. -/
def emptyList : objectState :=
  { typ := ObjList, m := none, l := [], mk := [] }

end opset

namespace opset

open model

/-- The versions that the op set tracks for every key are the ones the log yields. -/
def CurrentSync (o : OpSet) : Prop :=
  ∀ obj key, o.currentMapEntry obj key = o.ops.foldl (stepVersions none obj key) []

/-- Every map object is tracked with a non-nil map. -/
def Tracked (o : OpSet) : Prop :=
  ∀ id st, GoMap.get? o.objects id = some st → st.typ = ObjMap →
    ∃ st', GoMap.get? o.current id = some st' ∧ st'.m.isSome = true

/-- The invariant of op sets that links the tracked versions to the log. -/
structure Sync (o : OpSet) : Prop where
  current : CurrentSync o
  tracked : Tracked o
  anchored : Anchored o

/-- A run of `IncrementMapCounter` calls on one key, each with its amount, op id, actor
and sequence number; the first error stops the run. -/
def incrementAll (obj : ObjID) (key : GoString) :
    List (int64 × OpID × Nat × Nat) → OpSet → Except GoError OpSet
  | [], o => .ok o
  | (by_, id, actor, seq) :: rest, o =>
    match o.IncrementMapCounter obj key by_ id actor seq with
    | .error e => .error e
    | .ok o' => incrementAll obj key rest o'

/-- The op set after `PutMap(root, "n", counter 5)` on a new op set. -/
def counterOpSet : OpSet :=
  match New.PutMap RootObjID "n" (NewScalarValue (CounterValue 5)) { Counter := 1, Actor := 1 }
      1 1 with
  | .ok o => o
  | .error _ => New

end opset

namespace changegraph

open model

/-- The graph `g'` extends `g`: the nodes of `g` come first, the changes of `g` keep
their dependencies, and `maxOp` has not gone down. -/
structure GraphLE (g g' : Graph) : Prop where
  nodes : ∃ more, g'.nodes = g.nodes ++ more
  deps : ∀ h, g.HasChange h = true →
    g'.HasChange h = true ∧ g'.DepsForHash h = g.DepsForHash h
  maxOp : g.maxOp ≤ g'.maxOp

end changegraph

namespace automerge

open model changegraph

namespace Document

def ClockForHeads (d : Document) (heads : List ChangeHash) : Except GoError Clock :=
  d.graph.ClockForHeads (if heads.length = 0 then d.graph.Heads else heads)

/-- The function `clockFromHeads`: for no heads the zero clock, which covers nothing. -/
def clockFromHeads (d : Document) (heads : List ChangeHash) : Except GoError Clock :=
  if heads.length = 0 then .ok NewClock else d.ClockForHeads heads

def GetMapAt (d : Document) (obj : ObjID) (key : GoString) (heads : List ChangeHash) :
    Except GoError (Option opset.Value) :=
  match d.clockFromHeads heads with
  | .error e => .error e
  | .ok clk => d.ops.GetMap obj key (some clk)

def KeysMapAt (d : Document) (obj : ObjID) (heads : List ChangeHash) :
    Except GoError (List GoString) :=
  match d.clockFromHeads heads with
  | .error e => .error e
  | .ok clk => d.ops.KeysMap obj (some clk)

def TextAt (d : Document) (obj : ObjID) (heads : List ChangeHash) : Except GoError GoString :=
  match d.clockFromHeads heads with
  | .error e => .error e
  | .ok clk => d.ops.Text obj (some clk)

end Document

/-- One step in the life of a document that is built by local commits: `SetActor`, or
`Begin`, some staging calls and a `CommitWith` that returns a change. -/
inductive LocalStep (hasher : ChangeHasher) : Document → Document → Prop where
  | setActor (d d' : Document) (actor : Nat) : d.SetActor actor = .ok d' →
      LocalStep hasher d d'
  | commit (d d1 : Document) (tx0 : Transaction) (cs : List StageCall) (opts : CommitOptions)
      (c : Change) : d.Begin = .ok (d1, tx0) → (∀ call ∈ cs, call.typed = true) →
      (Transaction.CommitWith hasher d1 (tx0.calls cs) opts).change = some c →
      LocalStep hasher d (Transaction.CommitWith hasher d1 (tx0.calls cs) opts).doc

/-- The invariant of documents built by local commits whose op counter has not wrapped:
the graph is built by `AddChange`, its `maxOp` is the number of op records, every record
lies in the op range of a change of its actor, and every record is on an object of the
op set. -/
structure LocalInv (d : Document) : Prop where
  built : Built d.graph
  maxOp : d.graph.maxOp = d.ops.ops.length
  covered : ∀ r ∈ d.ops.ops, ∃ n ∈ d.graph.nodes, n.actor = r.actor ∧ r.seq ≤ n.maxOp
  anchored : opset.Anchored d.ops

/-- The document `d'` is a later state of `d`: the graph is extended, the op log is
extended by records with sequence numbers above the `maxOp` of `d`, and the objects of
`d` are kept. -/
structure DocLE (d d' : Document) : Prop where
  graph : GraphLE d.graph d'.graph
  ops : ∃ later, d'.ops.ops = d.ops.ops ++ later ∧ ∀ r ∈ later, d.graph.maxOp < r.seq
  objects : opset.ObjectsLE d.ops d'.ops

end automerge

namespace automerge

open model changegraph

/-- A first commit on a new document, as the test `TestHistoricalReadAPIsAtHeads` makes
it: it puts `"v1"` at `"k"` of the root map, creates the text object `2@1` at `"t"` and
inserts `"ab"` into it. -/
def historyCalls1 : List StageCall :=
  [ .put RootObjID "k" (StringValue "v1"),
    .putObject RootObjID "t" opset.ObjText,
    .spliceText { Root := false, Op := { Counter := 2, Actor := 1 } } 0 0 "ab" ]

/-- A second commit: it overwrites `"k"` with `"v2"`, adds the key `"n"` and appends
`"c"` to the text. -/
def historyCalls2 : List StageCall :=
  [ .put RootObjID "k" (StringValue "v2"),
    .put RootObjID "n" (StringValue "x"),
    .spliceText { Root := false, Op := { Counter := 2, Actor := 1 } } 2 0 "c" ]

/-- The document after the first commit. -/
def historyDoc1 : Document :=
  (Transaction.CommitWith exampleHasherAsc { NewDocument with openTx := true }
    (firstTransaction.calls historyCalls1) { Message := none, Time := none }).doc

/-- The transaction that `Begin` returns on `historyDoc1`. -/
def secondTransaction : Transaction :=
  { closed := false, cp := { actor := 1, seq := 2, startOp := 5, deps := [101] }, ops := [],
    openMk := [] }

/-- The document after the second commit. -/
def historyDoc2 : Document :=
  (Transaction.CommitWith exampleHasherAsc { historyDoc1 with openTx := true }
    (secondTransaction.calls historyCalls2) { Message := none, Time := none }).doc

end automerge

/-! ## internal/sync: Bloom filters -/

namespace sync

open model

def bloomBits : Nat := 1024

def bloomWords : Nat := bloomBits / 64

/-- The struct `BloomFilter`; `Words` is the array `[bloomWords]uint64`, a list of
`bloomWords` numbers below `2^64`. -/
structure BloomFilter where
  Words : List Nat
  deriving DecidableEq, Repr

def NewBloomFilter : BloomFilter :=
  { Words := List.replicate bloomWords 0 }

/-- The 32 bytes `hash[:]` of a change hash. -/
def hashBytes (hash : ChangeHash) : List Nat :=
  (List.range 32).map (fun i => hash / 256 ^ (31 - i) % 256)

/-- The call `binary.BigEndian.PutUint64` on a `uint64`. -/
def putUint64 (v : Nat) : List Nat :=
  (List.range 8).map (fun i => v / 256 ^ (7 - i) % 256)

/-- The hash `fnv.New64a` of the standard library over the written bytes: FNV-1a with
the 64-bit offset basis and prime, the product taken in `uint64`. -/
def fnv64a (data : List Nat) : Nat :=
  data.foldl (fun h c => (h ^^^ c) * 1099511628211 % 2 ^ 64) 14695981039346656037

/-- The first probe position of `AddHash` and `ContainsHash`. -/
def probe1 (hash : ChangeHash) : Nat :=
  fnv64a (hashBytes hash) % bloomBits

/-- The second probe position of `AddHash` and `ContainsHash`. -/
def probe2 (hash : ChangeHash) : Nat :=
  fnv64a (putUint64 (fnv64a (hashBytes hash) ^^^ 0x9e3779b97f4a7c15)) % bloomBits

namespace BloomFilter

/-- The read `b.Words[word]`. -/
def word (b : BloomFilter) (i : Nat) : Nat :=
  b.Words.getD i 0

def AddHash (b : BloomFilter) (hash : ChangeHash) : BloomFilter :=
  let sum := fnv64a (hashBytes hash)
  let idx := sum % bloomBits
  let word := idx / 64
  let bit := idx % 64
  let b1 : BloomFilter := { Words := b.Words.set word (b.word word ||| (1 <<< bit)) }
  let s2 := fnv64a (putUint64 (sum ^^^ 0x9e3779b97f4a7c15))
  let idx2 := s2 % bloomBits
  let w2 := idx2 / 64
  let b2 := idx2 % 64
  { Words := b1.Words.set w2 (b1.word w2 ||| (1 <<< b2)) }

def ContainsHash (b : BloomFilter) (hash : ChangeHash) : Bool :=
  let sum := fnv64a (hashBytes hash)
  let idx := sum % bloomBits
  let word := idx / 64
  let bit := idx % 64
  if b.word word &&& (1 <<< bit) = 0 then false
  else
    let s2 := fnv64a (putUint64 (sum ^^^ 0x9e3779b97f4a7c15))
    let idx2 := s2 % bloomBits
    let w2 := idx2 / 64
    let b2 := idx2 % 64
    decide (b.word w2 &&& (1 <<< b2) ≠ 0)

/-- The bit at position `idx` of the filter is set. -/
def bitAt (b : BloomFilter) (idx : Nat) : Bool :=
  (b.word (idx / 64)).testBit (idx % 64)

end BloomFilter

def BloomFromHashes (hashes : List ChangeHash) : BloomFilter :=
  hashes.foldl BloomFilter.AddHash NewBloomFilter

end sync

/-! ## internal/sync: the sync state and its persisted form -/

namespace sync

open model

def syncStateType : Nat := 0x43

abbrev Capability := Nat

def CapabilityMessageV1 : Capability := 0

def CapabilityMessageV2 : Capability := 1

structure Have where
  LastSync : List ChangeHash
  Bloom : BloomFilter
  deriving DecidableEq, Repr

/-- The struct `State`; a pointer field is `none` when it is nil, and so is the map
`SentHashes`. -/
structure State where
  SharedHeads : List ChangeHash
  LastSentHeads : List ChangeHash
  TheirHeads : Option (List ChangeHash)
  TheirNeed : Option (List ChangeHash)
  TheirHave : Option (List Have)
  SentHashes : Option (GoMap ChangeHash Unit)
  InFlight : Bool
  HaveResponded : Bool
  TheirCapabilities : Option (List Capability)
  deriving DecidableEq, Repr

def NewState : State :=
  { SharedHeads := [], LastSentHeads := [], TheirHeads := none, TheirNeed := none,
    TheirHave := none, SentHashes := some [], InFlight := false, HaveResponded := false,
    TheirCapabilities := none }

/-- The loop of `appendULEB`; a `uint64` has at most ten groups of seven bits, and the
fuel is the number of groups that may still follow. -/
def appendULEBLoop : Nat → List Nat → Nat → List Nat
  | 0, dst, _ => dst
  | fuel + 1, dst, v =>
    let b := v &&& 0x7f
    let v := v >>> 7
    if v ≠ 0 then appendULEBLoop fuel (dst ++ [b ||| 0x80]) v
    else dst ++ [b]

def appendULEB (dst : List Nat) (v : Nat) : List Nat :=
  appendULEBLoop 10 dst v

/-- The loop of `readULEB` from the byte with index `i`; the shifted value is cut to
`uint64`. -/
def readULEBLoop : List Nat → Nat → Nat → Nat → Except GoError (Nat × Nat)
  | [], _, _, _ => .error .ErrStateDecode
  | b :: rest, i, out, shift =>
    let out := out ||| ((b &&& 0x7f) <<< shift) % 2 ^ 64
    if b &&& 0x80 = 0 then .ok (out, i + 1)
    else
      let shift := shift + 7
      if shift > 63 then .error .ErrStateDecode
      else readULEBLoop rest (i + 1) out shift

def readULEB (data : List Nat) : Except GoError (Nat × Nat) :=
  readULEBLoop data 0 0 0

/-- The change hash with the given 32 bytes (`copy(h[:], ...)`). -/
def hashOfBytes (bytes : List Nat) : ChangeHash :=
  bytes.foldl (fun acc b => acc * 256 + b) 0

/-- The largest size in bytes that the Go runtime allocates (`maxAlloc` on a 64-bit
platform with 48 address bits); `make` panics above it, and it panics when the capacity
does not fit `int`. -/
def maxAlloc : Nat := 2 ^ 48

namespace State

def Encode (s : State) : List Nat :=
  s.SharedHeads.foldl (fun out h => out ++ hashBytes h)
    (appendULEB [syncStateType] (s.SharedHeads.length % 2 ^ 64))

end State

/-- The loop of `DecodeState` that reads `count` heads from `offset`. -/
def decodeHeads (input : List Nat) : Nat → Nat → List ChangeHash →
    Except GoError (List ChangeHash × Nat)
  | 0, offset, head => .ok (head, offset)
  | count + 1, offset, head =>
    if (input.length : Int) - (offset : Int) < 32 then .error .ErrStateDecode
    else
      decodeHeads input count (offset + 32)
        (head ++ [hashOfBytes ((input.drop offset).take 32)])

def DecodeState (input : List Nat) : Except GoError State :=
  if input.length = 0 ∨ input[0]? ≠ some syncStateType then .error .ErrStateDecode
  else
    let offset := 1
    match readULEB (input.drop offset) with
    | .error _ => .error .ErrStateDecode
    | .ok (count, n) =>
      let offset := offset + n
      if intOfUint64 count < 0 ∨ count * 32 > maxAlloc then .error .panicMakeSliceCap
      else
        match decodeHeads input count offset [] with
        | .error e => .error e
        | .ok (head, offset) =>
          if input.length ≠ offset then .error .ErrStateDecode
          else .ok { NewState with SharedHeads := head, TheirHave := some [] }

/-- A persisted state that announces `2^63` heads and holds none. -/
def hugeCountState : List Nat :=
  [0x43, 0x80, 0x80, 0x80, 0x80, 0x80, 0x80, 0x80, 0x80, 0x80, 0x01]

end sync

namespace opset

open model

/-- The value that `SpliceText` inserts for one character of the inserted string. -/
def runeValue (c : Char) : Value :=
  NewScalarValue (StringValue (String.singleton c))

/-- The op set holds the text object `obj`, and the elements of its list are the
characters of `t`, one string of one character each (what `SpliceText` inserts). -/
def HoldsText (o : OpSet) (obj : ObjID) (t : GoString) : Prop :=
  o.ensureType obj [ObjText] = .ok () ∧
  ∃ S st, o.materialize none = .ok S ∧ GoMap.get? S obj = some st ∧
    st.l.map OpSet.winner = t.toList.map (fun c => some (runeValue c))

/-- The text object `1@1` after `SpliceText(obj, 0, 0, "hello", 1, 0)`, the first splice
of the test `TestTextSpliceAndMaterialize`. -/
def helloOpSet : OpSet :=
  match textOpSet.SpliceText firstObject 0 0 "hello" 1 0 with
  | .ok (o, _) => o
  | .error _ => textOpSet

end opset

namespace opset

open model

/-- The comparison of the `sort.Slice` call of `Marks`: by start, end and OpID. -/
def markLess (a b : Mark) : Bool :=
  if a.Start ≠ b.Start then decide (a.Start < b.Start)
  else if a.End ≠ b.End then decide (a.End < b.End)
  else decide (a.OpID.Compare b.OpID < 0)

/-- The comparison of the `sort.Slice` call of `MarksAtIndex`: by name and OpID. -/
def markNameLess (a b : Mark) : Bool :=
  if a.Name ≠ b.Name then decide (a.Name < b.Name)
  else decide (a.OpID.Compare b.OpID < 0)

/-- The loop body of `MarksAtIndex` that keeps, for every name, the mark with the greater
OpID. -/
def byNameStep (acc : GoMap GoString Mark) (m : Mark) : GoMap GoString Mark :=
  match GoMap.get? acc m.Name with
  | none => GoMap.set acc m.Name m
  | some curr => if curr.OpID.Compare m.OpID < 0 then GoMap.set acc m.Name m else acc

namespace OpSet

/-- The method `Marks`. The `sort.Slice` call is embedded as a stable insertion sort
(Go sorts slices of up to 12 elements so); marks that compare equal may come in another
order from Go's sort of a longer slice. -/
def Marks (o : OpSet) (obj : ObjID) (cover : Option changegraph.Clock) :
    Except GoError (List Mark) :=
  match o.materialize cover with
  | .error e => .error e
  | .ok state =>
    match GoMap.get? state obj with
    | none => .ok []
    | some st => .ok (st.mk.insertionSort (fun a b => markLess b a = false))

/-- The method `MarksAtIndex`; the map `byName` is iterated in storage order and the
marks are then sorted by name. -/
def MarksAtIndex (o : OpSet) (obj : ObjID) (index : Int) (cover : Option changegraph.Clock) :
    Except GoError (List Mark) :=
  if index < 0 then .ok []
  else
    match o.Marks obj cover with
    | .error e => .error e
    | .ok all =>
      let filtered := all.filter (fun m => decide (m.Start ≤ index ∧ index < m.End))
      if filtered.length = 0 then .ok []
      else
        let byName : GoMap GoString Mark := filtered.foldl byNameStep []
        let out := byName.map Prod.snd
        .ok (out.insertionSort (fun a b => markNameLess b a = false))

end OpSet

/-- The mark that `applyRecord` appends for a mark record. -/
def markOf (op : opRecord) : Mark :=
  { Start := op.start, End := op.stop, Name := op.name, Value := op.value.Scalar,
    OpID := op.id, Actor := op.actor, Seq := op.seq }

/-- The marks of the mark records on `obj` that are visible in the clock, in the order of
the log. -/
def visibleMarks (cover : Option changegraph.Clock) (obj : ObjID) (ops : List opRecord) :
    List Mark :=
  (ops.filter (fun r => covered cover r && decide (r.obj = obj) && decide (r.kind = opMark))).map
    markOf

/-- The text object `31@1` of the test `TestMarksAtIndexUsesLatestByName`. -/
def marksText : ObjID :=
  { Root := false, Op := { Counter := 31, Actor := 1 } }

/-- The op set of the test after `SpliceText(textID, 0, 0, "abcd", 1, 0)`, which returns
the counter 4. -/
def marksOpSet1 : OpSet :=
  match (New.CreateObject marksText ObjText).SpliceText marksText 0 0 "abcd" 1 0 with
  | .ok (o, _) => o
  | .error _ => New

/-- The op set after the mark `bold = true` on `[1, 3)` with the OpID `5@1`. -/
def marksOpSet2 : OpSet :=
  match marksOpSet1.AddMark marksText 1 3 "bold"
      { zeroScalar with Kind := ScalarBoolean, Boolean := true }
      { Counter := 5, Actor := 1 } 1 5 with
  | .ok o => o
  | .error _ => marksOpSet1

/-- The op set after the mark `bold = false` on `[0, 4)` with the OpID `6@1`. -/
def marksOpSet3 : OpSet :=
  match marksOpSet2.AddMark marksText 0 4 "bold" { zeroScalar with Kind := ScalarBoolean }
      { Counter := 6, Actor := 1 } 1 6 with
  | .ok o => o
  | .error _ => marksOpSet2

/-- The op set of the test with one more mark, `em = true` on `[2, 4)` with the OpID
`7@1`. -/
def marksOpSet : OpSet :=
  match marksOpSet3.AddMark marksText 2 4 "em"
      { zeroScalar with Kind := ScalarBoolean, Boolean := true }
      { Counter := 7, Actor := 1 } 1 7 with
  | .ok o => o
  | .error _ => marksOpSet3

end opset

namespace automerge

open model changegraph

/-- The document chunk that `SaveWithOptions` writes first: the encoded changes of
`AllChanges` in a chunk of type `ChunkDocument`. -/
def Document.docChunk (d : Document) (codec : Codec) (deflate : Bool) :
    Except GoError (List Nat) :=
  match codec.marshalDocument d.AllChanges with
  | .error e => .error e
  | .ok payload =>
    storage.EncodeChunk codec.deflateBytes codec.checksum storage.ChunkDocument payload deflate

/-- Every entry of the save cache holds the document chunk of the document as it is. -/
def CacheOK (codec : Codec) (d : Document) : Prop :=
  ∀ (key : Bool × Bool) (bytes : List Nat), GoMap.get? d.saveCache key = some bytes →
    d.docChunk codec key.1 = .ok bytes

/-- A step that leaves the graph, the changes and the save cache alone, or that leaves
the save cache empty. -/
def CacheStep (d d1 : Document) : Prop :=
  (d1.graph = d.graph ∧ d1.changes = d.changes ∧ d1.saveCache = d.saveCache) ∨
    d1.saveCache = []

/-- The documents that the methods of the package make of a new document: `SetActor`,
`Begin`, `CommitWith` (whatever it returns), `Rollback`, `ApplyChanges` and `Merge`
(whatever they return), `SaveWithOptions`, and the assignment of `legacyRaw` in
`ReceiveSyncMessage` and `LoadWithOptions`. -/
inductive History (hasher : ChangeHasher) (codec : Codec) : Document → Prop where
  | new : History hasher codec NewDocument
  | setActor (d d1 : Document) (actor : Nat) : History hasher codec d →
      d.SetActor actor = .ok d1 → History hasher codec d1
  | begin (d d1 : Document) (tx : Transaction) : History hasher codec d →
      d.Begin = .ok (d1, tx) → History hasher codec d1
  | commit (d : Document) (tx : Transaction) (opts : CommitOptions) : History hasher codec d →
      History hasher codec (Transaction.CommitWith hasher d tx opts).doc
  | rollback (d d1 : Document) (tx tx1 : Transaction) : History hasher codec d →
      Transaction.Rollback d tx = .ok (d1, tx1) → History hasher codec d1
  | applyChanges (d : Document) (changes : List Change) (actorMap : Option (GoMap Nat Nat)) :
      History hasher codec d →
      History hasher codec (d.ApplyChangesWithActorMap changes actorMap).doc
  | merge (d other : Document) : History hasher codec d → History hasher codec (d.Merge other).doc
  | save (d : Document) (opts : SaveOptions) : History hasher codec d →
      History hasher codec (d.SaveWithOptions codec opts).2
  | legacy (d : Document) (raw : List Nat) : History hasher codec d →
      History hasher codec { d with legacyRaw := raw }

/-- A document that received the two changes of `outOfOrderBatch` and was saved once
with the default options, so that its save cache holds an entry. -/
def savedChainDoc : Document :=
  ((NewDocument.ApplyChanges (outOfOrderBatch exampleHasherAsc)).doc.SaveWithOptions
    exampleCodec DefaultSaveOptions).2

end automerge

namespace storage

open model

def ChunkCompressedChange : Nat := 3

def ChunkBundle : Nat := 4

def headerLen : Nat := 12

def RustMagic : List Nat := [0x85, 0x6f, 0x4a, 0x83]

/-- The struct `Header`; the field `Type` of the source is named `Typ`. -/
structure Header where
  Version : Nat
  Typ : Nat
  Flags : Nat
  Reserved : Nat
  PayloadLen : Nat
  Checksum : Nat
  deriving DecidableEq, Repr

structure DecodedChunk where
  Header : Header
  Payload : List Nat
  deriving DecidableEq, Repr

/-- The call `binary.BigEndian.Uint32` on a slice of four bytes. -/
def uint32BE (b : List Nat) : Nat :=
  ((b.getD 0 0 * 256 + b.getD 1 0) * 256 + b.getD 2 0) * 256 + b.getD 3 0

def isKnownType (t : Nat) : Bool :=
  t = ChunkDocument || t = ChunkChange || t = ChunkCompressedChange || t = ChunkBundle

/-- The loop of `ParseChunks`; `data` is the slice `data[offset:]` that is left. Every
round takes at least sixteen bytes, so the length of the input is fuel enough. The
function `inflateBytes` (compress/flate) and `crc32.ChecksumIEEE` are parameters. -/
def parseChunksLoop (inflateBytes : List Nat → Except GoError (List Nat))
    (checksum : List Nat → Nat) :
    Nat → List Nat → List DecodedChunk → List DecodedChunk × Option GoError
  | 0, _, chunks => (chunks, some .outOfFuel)
  | fuel + 1, data, chunks =>
    if data.length = 0 then (chunks, none)
    else if data.length < Magic.length + headerLen then (chunks, some .ErrShortHeader)
    else if data.take Magic.length ≠ Magic then (chunks, some .ErrBadMagic)
    else
      let hdrBytes := (data.drop Magic.length).take headerLen
      let rest := data.drop (Magic.length + headerLen)
      let h : Header :=
        { Version := hdrBytes.getD 0 0, Typ := hdrBytes.getD 1 0, Flags := hdrBytes.getD 2 0,
          Reserved := hdrBytes.getD 3 0, PayloadLen := uint32BE ((hdrBytes.drop 4).take 4),
          Checksum := uint32BE ((hdrBytes.drop 8).take 4) }
      if !isKnownType h.Typ then (chunks, some .ErrUnknownChunk)
      else if rest.length < h.PayloadLen then (chunks, some .ErrShortPayload)
      else
        let raw := rest.take h.PayloadLen
        match (if h.Flags &&& flagDeflate ≠ 0 then inflateBytes raw else .ok raw) with
        | .error e => (chunks, some e)
        | .ok payload =>
          if checksum payload % 2 ^ 32 ≠ h.Checksum then (chunks, some .ErrBadChecksum)
          else
            parseChunksLoop inflateBytes checksum fuel (rest.drop h.PayloadLen)
              (chunks ++ [{ Header := h, Payload := payload }])

/-- The function `ParseChunks`: the chunks read so far and the error, if any. -/
def ParseChunks (inflateBytes : List Nat → Except GoError (List Nat))
    (checksum : List Nat → Nat) (data : List Nat) : List DecodedChunk × Option GoError :=
  parseChunksLoop inflateBytes checksum (data.length + 1) data []

end storage

namespace automerge

open model changegraph

def OnPartialError : Nat := 0

def OnPartialIgnore : Nat := 1

def VerificationCheck : Nat := 0

def VerificationDontCheck : Nat := 1

def StringMigrationNone : Nat := 0

structure LoadOptions where
  OnPartialLoad : Nat
  Verification : Nat
  StringMigration : Nat
  deriving DecidableEq, Repr

def DefaultLoadOptions : LoadOptions :=
  { OnPartialLoad := OnPartialError, Verification := VerificationCheck,
    StringMigration := StringMigrationNone }

/-- The libraries behind Load. `unmarshalDocument` and `unmarshalChange` stand for
`json.Unmarshal` followed by `decodeChanges`: the outer error is the one of
`json.Unmarshal`, the inner one the one of `decodeChanges` (a hash that is not
hexadecimal). `inflateBytes` is compress/flate, `checksum` is `crc32.ChecksumIEEE`, and
`parseRustChunks` is the error of `storage.ParseRustChunks` (a panic included), which
rests on crypto/sha256 and compress/flate and is run only on input that `ParseChunks`
refuses. -/
structure Decoder where
  unmarshalChange : List Nat → Except GoError (Except GoError Change)
  unmarshalDocument : List Nat → Except GoError (Except GoError (List Change))
  inflateBytes : List Nat → Except GoError (List Nat)
  checksum : List Nat → Nat
  parseRustChunks : List Nat → Option GoError

/-- The three cases of the loop of `LoadWithOptions` share their last step: apply the
decoded changes; an error is skipped under `OnPartialIgnore` and returned as
`ErrPartialLoad` otherwise, and a panic goes up the stack. The document keeps what
`ApplyChanges` did to it. -/
def loadApply (opts : LoadOptions) (d : Document) (changes : List Change) :
    Except GoError Document :=
  let r := d.ApplyChanges changes
  match r.err with
  | some e =>
    if e.isPanic then .error e
    else if opts.OnPartialLoad = OnPartialIgnore then .ok r.doc else .error .ErrPartialLoad
  | none => .ok r.doc

/-- The loop of `LoadWithOptions` over the chunks. -/
def loadChunks (dec : Decoder) (opts : LoadOptions) :
    List storage.DecodedChunk → Document → Except GoError Document
  | [], d => .ok d
  | ch :: rest, d =>
    if ch.Header.Typ = storage.ChunkDocument then
      match dec.unmarshalDocument ch.Payload with
      | .error e =>
        if opts.OnPartialLoad = OnPartialIgnore then loadChunks dec opts rest d else .error e
      | .ok (.error e) => .error e
      | .ok (.ok changes) =>
        match loadApply opts d changes with
        | .error e => .error e
        | .ok d1 => loadChunks dec opts rest d1
    else if ch.Header.Typ = storage.ChunkChange ∨
        ch.Header.Typ = storage.ChunkCompressedChange then
      match dec.unmarshalChange ch.Payload with
      | .error e =>
        if opts.OnPartialLoad = OnPartialIgnore then loadChunks dec opts rest d else .error e
      | .ok (.error e) => .error e
      | .ok (.ok one) =>
        match loadApply opts d [one] with
        | .error e => .error e
        | .ok d1 => loadChunks dec opts rest d1
    else if ch.Header.Typ = storage.ChunkBundle then
      match dec.unmarshalDocument ch.Payload with
      | .error e =>
        if opts.OnPartialLoad = OnPartialIgnore then loadChunks dec opts rest d else .error e
      | .ok (.error e) => .error e
      | .ok (.ok changes) =>
        match loadApply opts d changes with
        | .error e => .error e
        | .ok d1 => loadChunks dec opts rest d1
    else loadChunks dec opts rest d

/-- The function `LoadWithOptions`. -/
def LoadWithOptions (dec : Decoder) (data : List Nat) (opts : LoadOptions) :
    Except GoError Document :=
  let d := NewDocument
  if data.length = 0 then .ok d
  else
    match storage.ParseChunks dec.inflateBytes dec.checksum data with
    | (_, some err) =>
      if data.length ≥ 4 ∧ data.take 4 = storage.RustMagic then
        match dec.parseRustChunks data with
        | some rerr =>
          if rerr.isPanic then .error rerr
          else if opts.OnPartialLoad = OnPartialIgnore then .ok d else .error rerr
        | none => .ok { d with legacyRaw := data }
      else if opts.OnPartialLoad = OnPartialIgnore then .ok d
      else .error err
    | (chunks, none) =>
      match loadChunks dec opts chunks d with
      | .error e => .error e
      | .ok d1 =>
        if opts.Verification = VerificationCheck then
          match d1.graph.Validate with
          | .error e => .error e
          | .ok _ => .ok d1
        else .ok d1

def Load (dec : Decoder) (data : List Nat) : Except GoError Document :=
  LoadWithOptions dec data DefaultLoadOptions

/-- A stand-in for the libraries behind Save that can be undone: a list of changes is
written as the one byte that gives its place in `table` (and is refused when it is
not in the table), a change as the list that holds it alone; deflating puts the
length in front, and the checksum is the sum of the bytes. -/
def tableCodec (table : List (List Change)) : Codec :=
  { marshalChange := fun c =>
      if [c] ∈ table then .ok [table.indexOf [c]] else .error .errJSON
    marshalDocument := fun cs =>
      if cs ∈ table then .ok [table.indexOf cs] else .error .errJSON
    deflateBytes := fun b => .ok (b.length :: b)
    checksum := fun b => b.sum }

/-- The stand-in that undoes `tableCodec`. Input of the Rust format is refused. -/
def tableDecoder (table : List (List Change)) : Decoder :=
  { unmarshalChange := fun b =>
      match b with
      | [i] =>
        match table[i]? with
        | some [c] => .ok (.ok c)
        | _ => .error .errJSON
      | _ => .error .errJSON
    unmarshalDocument := fun b =>
      match b with
      | [i] =>
        match table[i]? with
        | some cs => .ok (.ok cs)
        | none => .error .errJSON
      | _ => .error .errJSON
    inflateBytes := fun b =>
      match b with
      | n :: rest => if n = rest.length then .ok rest else .error .ErrInflatePayload
      | [] => .error .ErrInflatePayload
    checksum := fun b => b.sum
    parseRustChunks := fun _ => some .ErrRustChunk }

/-- The change of the first commit of actor 2 on a new document: `k = "B"`. -/
def remotePutB : List Change :=
  (commitPut exampleHasherDesc (documentOfActor 2) "k" "B").change.toList

/-- A document with a local commit of actor 1 that puts `k = "A"`, which then
receives the concurrent change of actor 2 that puts `k = "B"`. Under
`exampleHasherDesc` the hash of the local change is above the one of the remote
change. -/
def mixedDoc : Document :=
  ((commitPut exampleHasherDesc NewDocument "k" "A").doc.ApplyChanges remotePutB).doc

/-- The table of the stand-in codec for `mixedDoc`: the list of all its changes. -/
def mixedTable : List (List Change) :=
  [mixedDoc.AllChanges]

/-- The document that `Load` returns for what `Save` wrote of `mixedDoc`, none when
one of the two fails. -/
def mixedLoaded : Option Document :=
  match (mixedDoc.Save (tableCodec mixedTable)).1 with
  | .error _ => none
  | .ok bytes =>
    match Load (tableDecoder mixedTable) bytes with
    | .error _ => none
    | .ok d => some d

end automerge

/-! ## internal/sync: messages -/

namespace sync

open model

def MessageTypeSync : Nat := 0x42

def MessageTypeSyncV2 : Nat := 0x43

def MessageV1 : Nat := 0

def MessageV2 : Nat := 1

/-- The struct `Message`. The slices `Have` and `SupportedCapabilities` are `none` when
they are nil, which `ReceiveSyncMessage` tests. -/
structure Message where
  Version : Nat
  Heads : List ChangeHash
  Have : Option (List Have)
  Need : List ChangeHash
  SupportedCapabilities : Option (List Capability)
  ChangePayload : List Nat
  DocumentPayload : List Nat
  deriving DecidableEq, Repr

/-- The struct `haveDTO`. A hash stands for its hexadecimal string and a word of the
filter for its sixteen hexadecimal digits. -/
structure haveDTO where
  LastSync : List ChangeHash
  Bloom : List Nat
  deriving DecidableEq, Repr

/-- The struct `messageDTO`; a field is `none` when the slice is nil. -/
structure messageDTO where
  Heads : List ChangeHash
  Have : Option (List haveDTO)
  Need : List ChangeHash
  Caps : Option (List Nat)
  Changes : List Nat
  Document : List Nat
  deriving DecidableEq, Repr

/-- The library behind the wire format: `json.Marshal` of a `messageDTO`, and
`json.Unmarshal` into one together with the reading of the hexadecimal strings, whose
errors `DecodeMessage` returns alike. -/
structure Wire where
  marshal : messageDTO → Except GoError (List Nat)
  unmarshal : List Nat → Except GoError messageDTO

/-- The method `Message.Encode`. -/
def Message.Encode (w : Wire) (m : Message) : Except GoError (List Nat) :=
  let haves : List haveDTO :=
    (m.Have.getD []).map (fun h => { LastSync := h.LastSync, Bloom := h.Bloom.Words })
  let caps : List Nat := (m.SupportedCapabilities.getD []).map (fun c => c % 256)
  let d : messageDTO :=
    { Heads := m.Heads, Need := m.Need, Changes := m.ChangePayload,
      Document := m.DocumentPayload,
      Have := if haves.length = 0 then none else some haves,
      Caps := if caps.length = 0 then none else some caps }
  match w.marshal d with
  | .error e => .error e
  | .ok payload =>
    .ok ((if m.Version = MessageV2 then MessageTypeSyncV2 else MessageTypeSync) :: payload)

/-- The function `DecodeMessage`. -/
def DecodeMessage (w : Wire) (input : List Nat) : Except GoError Message :=
  match input with
  | [] => .error .ErrMessageDecode
  | t :: rest =>
    if t ≠ MessageTypeSync ∧ t ≠ MessageTypeSyncV2 then .error .ErrMessageDecode
    else
      let version := if t = MessageTypeSync then MessageV1 else MessageV2
      match w.unmarshal rest with
      | .error e => .error e
      | .ok d =>
        let caps : List Capability := d.Caps.getD []
        let haves : List Have :=
          (d.Have.getD []).map (fun hv => { LastSync := hv.LastSync, Bloom := { Words := hv.Bloom } })
        .ok { Version := version, Heads := d.Heads, Need := d.Need,
              ChangePayload := d.Changes, DocumentPayload := d.Document,
              SupportedCapabilities := if caps.length = 0 then none else some caps,
              Have := if haves.length = 0 then none else some haves }

def State.SupportsV2 (s : State) : Bool :=
  match s.TheirCapabilities with
  | none => false
  | some caps => caps.any (fun c => c = CapabilityMessageV2)

def State.SendDoc (s : State) : Bool :=
  match s.TheirHeads, s.TheirCapabilities with
  | some theirHeads, some _ => if theirHeads.length ≠ 0 then false else s.SupportsV2
  | _, _ => false

end sync

/-! ## automerge: the sync engine -/

namespace automerge

open model changegraph

/-- The libraries behind the sync engine: those of Save and Load, and `json.Marshal`
and `json.Unmarshal` (followed by `decodeChanges`) of a list of changes. -/
structure SyncCodec where
  save : Codec
  load : Decoder
  marshalChanges : List Change → Except GoError (List Nat)
  unmarshalChanges : List Nat → Except GoError (Except GoError (List Change))

/-- The value of `hashes, _ := ...`: nil when the call fails. -/
def hashesOrNil (r : Except GoError (List ChangeHash)) : List ChangeHash :=
  match r with
  | .ok hs => hs
  | .error _ => []

/-- The method `getMissingDeps`. The keys of `missingSet` are ranged over in the order
of the association list; the result is sorted. -/
def Document.getMissingDeps (d : Document) (heads : List ChangeHash) : List ChangeHash :=
  let inQueue : GoMap ChangeHash Unit := d.queue.foldl (fun m c => GoMap.set m c.Hash ()) []
  let missing1 : GoMap ChangeHash Unit :=
    d.queue.foldl (fun m c =>
      c.Deps.foldl (fun m1 dep => if !d.hasChange dep then GoMap.set m1 dep () else m1) m) []
  let missingSet : GoMap ChangeHash Unit :=
    heads.foldl (fun m h => if !d.hasChange h then GoMap.set m h () else m) missing1
  SortChangeHashes ((GoMap.keys missingSet).filter (fun h => !GoMap.contains inQueue h))

def hashesEqual (a b : List ChangeHash) : Bool :=
  if a.length ≠ b.length then false
  else (List.zip a b).all (fun p => decide (p.1 = p.2))

def intersectHashes (a b : List ChangeHash) : List ChangeHash :=
  let set : GoMap ChangeHash Unit := a.foldl (fun m x => GoMap.set m x ()) []
  SortChangeHashes (b.filter (fun y => GoMap.contains set y))

/-- The method `makeHave`. -/
def makeHave (d : Document) (lastSync : List ChangeHash) : sync.Have :=
  let hashes :=
    match d.graph.GetHashesFromHeads lastSync with
    | .error _ => hashesOrNil (d.graph.GetHashesFromHeads d.Heads)
    | .ok hs =>
      if lastSync.length = 0 then hashesOrNil (d.graph.GetHashesFromHeads d.Heads) else hs
  { LastSync := lastSync, Bloom := sync.BloomFromHashes hashes }

/-- The method `getHashesToSend`: of the hashes of the document, in order, those whose
change is stored and that are needed or in none of the filters; sorted. -/
def getHashesToSend (d : Document) (haves : List sync.Have) (need : List ChangeHash) :
    List ChangeHash :=
  match d.graph.GetHashesFromHeads d.Heads with
  | .error _ => []
  | .ok all =>
    SortChangeHashes (all.filter (fun h =>
      GoMap.contains d.changes h &&
        (need.contains h || !haves.any (fun hv => hv.Bloom.ContainsHash h))))

def serializeChangesByHashes (sc : SyncCodec) (d : Document) (hashes : List ChangeHash) :
    Except GoError (List Nat) :=
  sc.marshalChanges (hashes.filterMap (fun h => GoMap.get? d.changes h))

/-- The part of `GenerateSyncMessage` that fills the payload of the message and
chooses `hashesToSend`: the document (whose save cache `Save` may have set), and the
error or the message with the hashes. -/
def selectPayload (sc : SyncCodec) (d : Document) (state : sync.State) (msg : sync.Message) :
    Document × Except GoError (sync.Message × List ChangeHash) :=
  let ourHeads := d.Heads
  if state.SendDoc then
    match d.graph.GetHashesFromHeads ourHeads with
    | .error e => (d, .error e)
    | .ok all =>
      let r := d.Save sc.save
      match r.1 with
      | .error e => (r.2, .error e)
      | .ok docBytes =>
        (r.2, .ok ({ msg with Version := sync.MessageV2, DocumentPayload := docBytes }, all))
  else
    match state.TheirHave, state.TheirNeed with
    | some theirHave, some theirNeed =>
      let hashesToSend := getHashesToSend d theirHave theirNeed
      if hashesToSend.length > 0 then
        let all := hashesOrNil (d.graph.GetHashesFromHeads ourHeads)
        if all.length > 0 ∧ hashesToSend.length > all.length / 3 ∧ state.SupportsV2 = true then
          let r := d.Save sc.save
          match r.1 with
          | .error e => (r.2, .error e)
          | .ok docBytes =>
            (r.2, .ok ({ msg with Version := sync.MessageV2, DocumentPayload := docBytes },
              hashesToSend))
        else
          match serializeChangesByHashes sc d hashesToSend with
          | .error e => (d, .error e)
          | .ok payload => (d, .ok ({ msg with ChangePayload := payload }, hashesToSend))
      else (d, .ok (msg, hashesToSend))
    | _, _ =>
      match d.graph.GetHashesFromHeads ourHeads with
      | .error e => (d, .error e)
      | .ok all =>
        match serializeChangesByHashes sc d all with
        | .error e => (d, .error e)
        | .ok payload => (d, .ok ({ msg with ChangePayload := payload }, all))

/-- What `GenerateSyncMessage` leaves and returns: the document, the state (none when
the pointer is nil), the message (none when nil) and the error. -/
structure GenerateResult where
  doc : Document
  state : Option sync.State
  msg : Option sync.Message
  err : Option GoError
  deriving DecidableEq, Repr

/-- The message as `GenerateSyncMessage` first builds it, before the payload. -/
def baseMessage (d : Document) (st : sync.State) : sync.Message :=
  { Version := sync.MessageV1, Heads := d.Heads,
    Have := some [makeHave d st.SharedHeads],
    Need := d.getMissingDeps (st.TheirHeads.getD []),
    SupportedCapabilities := some [sync.CapabilityMessageV1, sync.CapabilityMessageV2],
    ChangePayload := [], DocumentPayload := [] }

/-- The state after the first lines of `GenerateSyncMessage`: a nil `SentHashes` is
replaced by an empty map. -/
def withSentHashes (st : sync.State) : sync.State :=
  match st.SentHashes with
  | none => { st with SentHashes := some [] }
  | some _ => st

/-- The method `GenerateSyncMessage`. -/
def GenerateSyncMessage (sc : SyncCodec) (d : Document) (state : Option sync.State) :
    GenerateResult :=
  match state with
  | none => { doc := d, state := none, msg := none, err := none }
  | some st0 =>
    let st := withSentHashes st0
    let ourHeads := d.Heads
    match selectPayload sc d st (baseMessage d st) with
    | (d1, .error e) => { doc := d1, state := some st, msg := none, err := some e }
    | (d1, .ok (msg, hashesToSend)) =>
      let headsUnchanged := hashesEqual st.LastSentHeads ourHeads
      let headsEqual :=
        match st.TheirHeads with
        | none => false
        | some th => hashesEqual th ourHeads
      let msgEmpty := decide (msg.ChangePayload.length = 0) &&
        decide (msg.DocumentPayload.length = 0)
      let quiet : GenerateResult := { doc := d1, state := some st, msg := none, err := none }
      let sent : GenerateResult :=
        { doc := d1,
          state := some { st with
            HaveResponded := true, LastSentHeads := ourHeads,
            SentHashes := some (hashesToSend.foldl (fun m h => GoMap.set m h ())
              (st.SentHashes.getD [])),
            InFlight := true },
          msg := some msg, err := none }
      if headsUnchanged && st.HaveResponded then
        if headsEqual && msgEmpty then quiet
        else if st.InFlight then quiet
        else sent
      else sent

/-- What `ReceiveSyncMessage` leaves and returns. -/
structure ReceiveResult where
  doc : Document
  state : Option sync.State
  err : Option GoError
  deriving DecidableEq, Repr

/-- The first part of `ReceiveSyncMessage` on the document: the document payload is
loaded with `OnPartialIgnore` and the changes of the loaded document are applied. -/
def receiveDocument (sc : SyncCodec) (d : Document) (payload : List Nat) : Outcome :=
  if payload.length > 0 then
    match LoadWithOptions sc.load payload
        { OnPartialLoad := OnPartialIgnore, Verification := VerificationCheck,
          StringMigration := StringMigrationNone } with
    | .error e => { doc := d, err := some e }
    | .ok doc =>
      if doc.legacyRaw.length > 0 ∧ doc.changes.length = 0 then
        { doc := { d with legacyRaw := doc.legacyRaw }, err := none }
      else d.ApplyChanges doc.AllChanges
  else { doc := d, err := none }

/-- The second part of `ReceiveSyncMessage` on the document: the change payload is
decoded and applied. -/
def receiveChanges (sc : SyncCodec) (d : Document) (payload : List Nat) : Outcome :=
  if payload.length > 0 then
    match sc.unmarshalChanges payload with
    | .error _ => { doc := d, err := some .ErrSyncDecodeChanges }
    | .ok (.error _) => { doc := d, err := some .ErrSyncDecodeChanges }
    | .ok (.ok changes) => d.ApplyChanges changes
  else { doc := d, err := none }

/-- The method `ReceiveSyncMessage`. -/
def ReceiveSyncMessage (sc : SyncCodec) (d : Document) (state : Option sync.State)
    (msg : sync.Message) : ReceiveResult :=
  match state with
  | none => { doc := d, state := none, err := none }
  | some st0 =>
    let st1 : sync.State :=
      { st0 with
        InFlight := false, TheirHeads := some msg.Heads, TheirNeed := some msg.Need,
        TheirHave := (match msg.Have with
          | some h => some h
          | none => st0.TheirHave),
        TheirCapabilities := (match msg.SupportedCapabilities with
          | some caps => some caps
          | none => st0.TheirCapabilities) }
    let r1 := receiveDocument sc d msg.DocumentPayload
    match r1.err with
    | some e => { doc := r1.doc, state := some st1, err := some e }
    | none =>
      let r2 := receiveChanges sc r1.doc msg.ChangePayload
      match r2.err with
      | some e => { doc := r2.doc, state := some st1, err := some e }
      | none =>
        { doc := r2.doc,
          state := some { st1 with
            SharedHeads := intersectHashes r2.doc.Heads msg.Heads, SentHashes := some [] },
          err := none }

/-- A stand-in for the libraries behind Save that can be undone: a change is written as
its place in `known`, a list of changes as an opening byte and the places of its
changes, so that no output is empty; a change outside `known` is refused. Deflating
puts the length in front, and the checksum is the sum of the bytes. -/
def indexCodec (known : List Change) : Codec :=
  { marshalChange := fun c =>
      if c ∈ known then .ok [known.indexOf c] else .error .errJSON
    marshalDocument := fun cs =>
      if cs.all (fun c => decide (c ∈ known)) then .ok (0x5b :: cs.map known.indexOf)
      else .error .errJSON
    deflateBytes := fun b => .ok (b.length :: b)
    checksum := fun b => b.sum }

/-- The stand-in that undoes `indexCodec`. Input of the Rust format is refused. -/
def indexDecoder (known : List Change) : Decoder :=
  { unmarshalChange := fun b =>
      match b with
      | [i] =>
        match known[i]? with
        | some c => .ok (.ok c)
        | none => .error .errJSON
      | _ => .error .errJSON
    unmarshalDocument := fun b =>
      match b with
      | 0x5b :: rest =>
        if rest.all (fun i => decide (i < known.length)) then
          .ok (.ok (rest.filterMap (fun i => known[i]?)))
        else .error .errJSON
      | _ => .error .errJSON
    inflateBytes := fun b =>
      match b with
      | n :: rest => if n = rest.length then .ok rest else .error .ErrInflatePayload
      | [] => .error .ErrInflatePayload
    checksum := fun b => b.sum
    parseRustChunks := fun _ => some .ErrRustChunk }

/-- The stand-in for the libraries behind the sync engine that goes with `indexCodec`. -/
def indexSyncCodec (known : List Change) : SyncCodec :=
  { save := indexCodec known
    load := indexDecoder known
    marshalChanges := (indexCodec known).marshalDocument
    unmarshalChanges := (indexDecoder known).unmarshalDocument }

/-- A list of numbers with its length in front. -/
def putList (xs : List Nat) : List Nat :=
  xs.length :: xs

/-- The list that `putList` wrote at the head of the input, and the rest. -/
def takeList : List Nat → Option (List Nat × List Nat)
  | [] => none
  | n :: rest => if n ≤ rest.length then some (rest.take n, rest.drop n) else none

/-- The given number of `haveDTO` at the head of the input, and the rest. -/
def takeHaves : Nat → List Nat → Option (List sync.haveDTO × List Nat)
  | 0, rest => some ([], rest)
  | n + 1, rest =>
    match takeList rest with
    | none => none
    | some (lastSync, r1) =>
      match takeList r1 with
      | none => none
      | some (bloom, r2) =>
        match takeHaves n r2 with
        | none => none
        | some (hs, r3) => some ({ LastSync := lastSync, Bloom := bloom } :: hs, r3)

/-- A stand-in for encoding/json on a `messageDTO`: the fields in a row, every list
with its length in front, a nil slice as `0` and another as `1` before it. The
numbers are written as they are. -/
def flatWire : sync.Wire :=
  { marshal := fun d =>
      .ok (putList d.Heads ++ putList d.Need ++
        (match d.Caps with
          | none => [0]
          | some caps => 1 :: putList caps) ++
        (match d.Have with
          | none => [0]
          | some hs => 1 :: hs.length :: hs.flatMap (fun h => putList h.LastSync ++ putList h.Bloom)) ++
        putList d.Changes ++ putList d.Document)
    unmarshal := fun b =>
      match takeList b with
      | none => .error .errJSON
      | some (heads, r1) =>
        match takeList r1 with
        | none => .error .errJSON
        | some (need, r2) =>
          match (match r2 with
            | 0 :: r => some (none, r)
            | 1 :: r => (takeList r).map (fun p => (some p.1, p.2))
            | _ => none : Option (Option (List Nat) × List Nat)) with
          | none => .error .errJSON
          | some (caps, r3) =>
            match (match r3 with
              | 0 :: r => some (none, r)
              | 1 :: n :: r => (takeHaves n r).map (fun p => (some p.1, p.2))
              | _ => none : Option (Option (List sync.haveDTO) × List Nat)) with
            | none => .error .errJSON
            | some (haves, r4) =>
              match takeList r4 with
              | none => .error .errJSON
              | some (changes, r5) =>
                match takeList r5 with
                | some (document, []) =>
                  .ok { Heads := heads, Have := haves, Need := need, Caps := caps,
                        Changes := changes, Document := document }
                | _ => .error .errJSON }

/-- The two documents and the two sync states of a session between two peers. -/
structure Session where
  p1 : Document
  s12 : sync.State
  p2 : Document
  s21 : sync.State
  deriving DecidableEq, Repr

/-- One message from a sender to a receiver: `GenerateSyncMessage` on the sender,
`Message.Encode`, `DecodeMessage`, and `ReceiveSyncMessage` on the receiver. The result
tells whether a message was generated and gives the sender's and the receiver's
document and state. -/
def syncRoundTrip (sc : SyncCodec) (w : sync.Wire) (src : Document) (srcState : sync.State)
    (dst : Document) (dstState : sync.State) :
    Except GoError (Bool × Document × sync.State × Document × sync.State) :=
  let g := GenerateSyncMessage sc src (some srcState)
  match g.err with
  | some e => .error e
  | none =>
    match g.msg with
    | none => .ok (false, g.doc, g.state.getD srcState, dst, dstState)
    | some msg =>
      match msg.Encode w with
      | .error e => .error e
      | .ok enc =>
        match sync.DecodeMessage w enc with
        | .error e => .error e
        | .ok dec =>
          let r := ReceiveSyncMessage sc dst (some dstState) dec
          match r.err with
          | some e => .error e
          | none => .ok (true, g.doc, g.state.getD srcState, r.doc, r.state.getD dstState)

/-- One round of a session: a message from the first peer to the second, then one from
the second to the first; the result tells whether either peer generated a message. -/
def syncRound (sc : SyncCodec) (w : sync.Wire) (s : Session) : Except GoError (Bool × Session) :=
  match syncRoundTrip sc w s.p1 s.s12 s.p2 s.s21 with
  | .error e => .error e
  | .ok (moved1, p1, s12, p2, s21) =>
    match syncRoundTrip sc w p2 s21 p1 s12 with
    | .error e => .error e
    | .ok (moved2, p2a, s21a, p1a, s12a) =>
      .ok (moved1 || moved2, { p1 := p1a, s12 := s12a, p2 := p2a, s21 := s21a })

/-- The session after the given number of rounds. -/
def syncRounds (sc : SyncCodec) (w : sync.Wire) : Nat → Session → Except GoError Session
  | 0, s => .ok s
  | n + 1, s =>
    match syncRound sc w s with
    | .error e => .error e
    | .ok (_, s1) => syncRounds sc w n s1

/-- A stand-in for `computeChangeHash` that puts the hashes of actor 1 between the
first and the second hash of every other actor. -/
def exampleHasherMid : ChangeHasher :=
  fun actor seq _ _ _ _ _ => if actor = 1 then 150 + seq else 100 * seq

/-- One local commit of the given staging calls: `Begin`, the calls, `Commit`. -/
def commitCalls (hasher : ChangeHasher) (d : Document) (calls : List StageCall) :
    Transaction.CommitResult :=
  match d.Begin with
  | .error e => { doc := d, tx := noTransaction, change := none, err := some e }
  | .ok (d1, tx) => Transaction.Commit hasher d1 (tx.calls calls)

/-- The first peer: actor 1 commits the string `"s"` at the root key `c`. -/
def peerOne : Document :=
  (commitCalls exampleHasherMid NewDocument [.put RootObjID "c" (StringValue "s")]).doc

/-- The second peer: actor 2 commits a counter at the root key `c` and then, in two
more commits, increments it twice. -/
def peerTwo : Document :=
  (commitCalls exampleHasherMid
    (commitCalls exampleHasherMid
      (commitCalls exampleHasherMid (documentOfActor 2)
        [.put RootObjID "c" (CounterValue 0)]).doc
      [.increment RootObjID "c" 1]).doc
    [.increment RootObjID "c" 1]).doc

/-- The changes of the two peers. -/
def peerChanges : List Change :=
  peerOne.AllChanges ++ peerTwo.AllChanges

/-- The session of the two peers with new sync states. -/
def peerSession : Session :=
  { p1 := peerOne, s12 := sync.NewState, p2 := peerTwo, s21 := sync.NewState }

/-- The session of the two peers after the given number of rounds; the session as it
was when a round fails. -/
def peerSessionAfter (n : Nat) : Session :=
  match syncRounds (indexSyncCodec peerChanges) flatWire n peerSession with
  | .ok s => s
  | .error _ => peerSession

/-- Whether a round of the session of the two peers generates a message and leaves the
session as it is. -/
def roundKeeps (s : Session) : Bool :=
  match syncRound (indexSyncCodec peerChanges) flatWire s with
  | .ok (m, s1) => m && decide (s1 = s)
  | .error _ => false

/-- A document with one local commit. -/
def gatingDoc : Document :=
  (chainCommit1 exampleHasherAsc).doc

/-- A new sync state of a peer that announced the capability V1 and sent empty `have`
and `need` lists. -/
def gatingState : sync.State :=
  { sync.NewState with
    TheirCapabilities := some [sync.CapabilityMessageV1], TheirNeed := some [],
    TheirHave := some [] }

end automerge

/-! ## Equality of values -/

namespace model

/-- Whether the 64-bit pattern of a `float64` is a NaN: the exponent bits are all ones
and the fraction is not zero. -/
def f64IsNaN (bits : Nat) : Bool :=
  decide (bits / 2 ^ 52 % 2 ^ 11 = 2047) && decide (bits % 2 ^ 52 ≠ 0)

/-- The comparison `==` of two `float64` given by their bit patterns: a NaN is equal to
nothing, the two zeros are equal, and otherwise the patterns decide. -/
def f64Eq (a b : Nat) : Bool :=
  !f64IsNaN a && !f64IsNaN b &&
    (decide (a = b) || (decide (a % 2 ^ 63 = 0) && decide (b % 2 ^ 63 = 0)))

/-- The method `ScalarValue.Equal`. -/
def ScalarValue.Equal (v other : ScalarValue) : Bool :=
  if v.Kind ≠ other.Kind then false
  else if v.Kind = ScalarNull then true
  else if v.Kind = ScalarBytes then decide (v.Bytes = other.Bytes)
  else if v.Kind = ScalarString then decide (v.String = other.String)
  else if v.Kind = ScalarInt then decide (v.Int = other.Int)
  else if v.Kind = ScalarUint then decide (v.Uint = other.Uint)
  else if v.Kind = ScalarF64 then f64Eq v.F64 other.F64
  else if v.Kind = ScalarCounter then decide (v.Counter = other.Counter)
  else if v.Kind = ScalarTimestamp then decide (v.Time = other.Time)
  else if v.Kind = ScalarBoolean then decide (v.Boolean = other.Boolean)
  else if v.Kind = ScalarUnknown then
    decide (v.TypeCode = other.TypeCode) && decide (v.Bytes = other.Bytes)
  else false

/-- The value `F64Value(x)` for the `float64` with the given bit pattern. -/
def F64Value (bits : Nat) : ScalarValue :=
  { zeroScalar with Kind := ScalarF64, F64 := bits }

end model

namespace opset

open model

/-- The method `Value.Equal`. -/
def Value.Equal (v other : Value) : Bool :=
  if v.Kind ≠ other.Kind then false
  else if v.Kind = ValueScalar then v.Scalar.Equal other.Scalar
  else decide (v.Object.ID = other.Object.ID) && decide (v.Object.Typ = other.Object.Typ)

namespace OpSet

/-- The loop of `IterMap` over the keys: a key is kept when `GetMap` finds it. -/
def iterMapLoop (o : OpSet) (obj : ObjID) (cover : Option changegraph.Clock) :
    List GoString → Except GoError (List (GoString × Value))
  | [] => .ok []
  | k :: rest =>
    match o.GetMap obj k cover with
    | .error e => .error e
    | .ok v =>
      match iterMapLoop o obj cover rest with
      | .error e => .error e
      | .ok out =>
        match v with
        | some x => .ok ((k, x) :: out)
        | none => .ok out

/-- The method `IterMap`. -/
def IterMap (o : OpSet) (obj : ObjID) (cover : Option changegraph.Clock) :
    Except GoError (List (GoString × Value)) :=
  match o.KeysMap obj cover with
  | .error e => .error e
  | .ok keys => o.iterMapLoop obj cover keys

end OpSet

end opset

/-! ## automerge: diff -/

namespace automerge

open model changegraph

abbrev PatchKind := Nat

def PatchMapPut : PatchKind := 0
def PatchMapDelete : PatchKind := 1
def PatchTextSplice : PatchKind := 2
def PatchListReplace : PatchKind := 3

/-- The struct `Patch`; a nil pointer is `none`. -/
structure Patch where
  Kind : PatchKind
  ObjID : ObjID
  Key : GoString
  OldValue : Option opset.Value
  NewValue : Option opset.Value
  BeforeText : GoString
  AfterText : GoString
  BeforeList : List opset.Value
  AfterList : List opset.Value
  deriving DecidableEq, Repr

/-- The zero value `Patch{}`. -/
def zeroPatch : Patch :=
  { Kind := 0, ObjID := { Root := false, Op := { Counter := 0, Actor := 0 } }, Key := "",
    OldValue := none, NewValue := none, BeforeText := "", AfterText := "", BeforeList := [],
    AfterList := [] }

def valuesEqual (a b : List opset.Value) : Bool :=
  if a.length ≠ b.length then false
  else (List.zip a b).all (fun p => p.1.Equal p.2)

namespace Document

/-- The method `mapSnapshot`. -/
def mapSnapshot (d : Document) (obj : ObjID) (clk : Clock) :
    Except GoError (GoMap GoString opset.Value) :=
  match d.ops.IterMap obj (some clk) with
  | .error e => .error e
  | .ok items => .ok (items.foldl (fun out item => GoMap.set out item.1 item.2) [])

/-- The loop of `diffMap` over the sorted keys. The recursive call of `diffObjAt` is the
parameter `sub`; `seen` is the set of objects visited so far. -/
def diffKeys (obj : ObjID) (beforeMap afterMap : GoMap GoString opset.Value)
    (recursive : Bool)
    (sub : ObjID → GoMap ObjID Unit → GoMap ObjID Unit × Except GoError (List Patch)) :
    List GoString → GoMap ObjID Unit → List Patch →
      GoMap ObjID Unit × Except GoError (List Patch)
  | [], seen, patches => (seen, .ok patches)
  | k :: rest, seen, patches =>
    let patches1 : List Patch :=
      match GoMap.get? beforeMap k, GoMap.get? afterMap k with
      | some bv, none =>
        patches ++ [{ zeroPatch with Kind := PatchMapDelete, ObjID := obj, Key := k,
                                     OldValue := some bv }]
      | none, some av =>
        patches ++ [{ zeroPatch with Kind := PatchMapPut, ObjID := obj, Key := k,
                                     NewValue := some av }]
      | some bv, some av =>
        if !bv.Equal av then
          patches ++ [{ zeroPatch with Kind := PatchMapPut, ObjID := obj, Key := k,
                                       OldValue := some bv, NewValue := some av }]
        else patches
      | none, none => patches
    match GoMap.get? beforeMap k, GoMap.get? afterMap k with
    | some bv, some av =>
      if recursive = true ∧ bv.Kind = opset.ValueObject ∧ av.Kind = opset.ValueObject ∧
          bv.Object.ID = av.Object.ID then
        match sub bv.Object.ID seen with
        | (seen1, .error e) => (seen1, .error e)
        | (seen1, .ok more) =>
          diffKeys obj beforeMap afterMap recursive sub rest seen1 (patches1 ++ more)
      else diffKeys obj beforeMap afterMap recursive sub rest seen patches1
    | _, _ => diffKeys obj beforeMap afterMap recursive sub rest seen patches1

/-- The keys of `diffMap`: those of the two snapshots, sorted. -/
def diffKeyList (beforeMap afterMap : GoMap GoString opset.Value) : List GoString :=
  let keysSet : GoMap GoString Unit :=
    (GoMap.keys afterMap).foldl (fun s k => GoMap.set s k ())
      ((GoMap.keys beforeMap).foldl (fun s k => GoMap.set s k ()) [])
  (GoMap.keys keysSet).insertionSort (fun a b => ¬ b < a)

/-- The method `diffMap`. -/
def diffMap (d : Document) (obj : ObjID) (before after : Clock) (recursive : Bool)
    (sub : ObjID → GoMap ObjID Unit → GoMap ObjID Unit × Except GoError (List Patch))
    (seen : GoMap ObjID Unit) : GoMap ObjID Unit × Except GoError (List Patch) :=
  match d.mapSnapshot obj before with
  | .error e => (seen, .error e)
  | .ok beforeMap =>
    match d.mapSnapshot obj after with
    | .error e => (seen, .error e)
    | .ok afterMap =>
      diffKeys obj beforeMap afterMap recursive sub (diffKeyList beforeMap afterMap) seen []

/-- The method `diffObjAt`. Every nested call visits an object that is not in `seen`, so
the number of objects is fuel enough. The result is the set `seen` after the call and
what the call returns; a nil slice is the empty list. -/
def diffObjAt (d : Document) (before after : Clock) :
    Nat → ObjID → Bool → GoMap ObjID Unit → GoMap ObjID Unit × Except GoError (List Patch)
  | 0, _, _, seen => (seen, .error .outOfFuel)
  | fuel + 1, obj, recursive, seen =>
    if GoMap.contains seen obj then (seen, .ok [])
    else
      let seen1 := GoMap.set seen obj ()
      match d.ops.ObjectType obj with
      | none => (seen1, .error .ErrDiffUnknownObject)
      | some typ =>
        if typ = opset.ObjMap then
          d.diffMap obj before after recursive
            (fun o s => diffObjAt d before after fuel o true s) seen1
        else if typ = opset.ObjText then
          match d.ops.Text obj (some before) with
          | .error e => (seen1, .error e)
          | .ok beforeText =>
            match d.ops.Text obj (some after) with
            | .error e => (seen1, .error e)
            | .ok afterText =>
              if beforeText = afterText then (seen1, .ok [])
              else
                (seen1, .ok [{ zeroPatch with Kind := PatchTextSplice, ObjID := obj,
                                              BeforeText := beforeText,
                                              AfterText := afterText }])
        else if typ = opset.ObjList then
          match d.ops.ListRange obj 0 (-1) (some before) with
          | .error e => (seen1, .error e)
          | .ok beforeList =>
            match d.ops.ListRange obj 0 (-1) (some after) with
            | .error e => (seen1, .error e)
            | .ok afterList =>
              if valuesEqual beforeList afterList then (seen1, .ok [])
              else
                (seen1, .ok [{ zeroPatch with Kind := PatchListReplace, ObjID := obj,
                                              BeforeList := beforeList,
                                              AfterList := afterList }])
        else (seen1, .error .ErrDiffUnknownObject)

/-- The method `DiffObj`. -/
def DiffObj (d : Document) (obj : ObjID) (beforeHeads afterHeads : List ChangeHash)
    (recursive : Bool) : Except GoError (List Patch) :=
  match d.clockFromHeads beforeHeads with
  | .error e => .error e
  | .ok beforeClock =>
    match d.clockFromHeads afterHeads with
    | .error e => .error e
    | .ok afterClock =>
      (diffObjAt d beforeClock afterClock (d.ops.objects.length + 1) obj recursive []).2

/-- The method `Diff`: the error of `DiffObj` is dropped and nil returned; a panic of
the reads is kept. -/
def Diff (d : Document) (beforeHeads afterHeads : List ChangeHash) :
    Except GoError (List Patch) :=
  match d.DiffObj RootObjID beforeHeads afterHeads true with
  | .ok patches => .ok patches
  | .error e =>
    if e = .panicNilMapWrite ∨ e = .panicIndexOutOfRange ∨ e = .outOfFuel then .error e
    else .ok []

/-- Whether every value that the reads of `diffObjAt` return at the clock is equal to
itself: the values of the map snapshots and of the lists of the objects of the op
set. -/
def selfEqualAt (d : Document) (clk : Clock) : Bool :=
  (GoMap.keys d.ops.objects).all (fun o =>
    (match d.mapSnapshot o clk with
      | .ok m => m.all (fun p => p.2.Equal p.2)
      | .error _ => true) &&
    (match d.ops.ListRange o 0 (-1) (some clk) with
      | .ok l => l.all (fun v => v.Equal v)
      | .error _ => true))

end Document

/-- The patch that the claim names for a key of a map object, given the two snapshots:
a delete with the old value for a key only before, a put with the new value for a key
only after, a put with both for a key on both sides with unequal values, none
otherwise. -/
def expectedPatch (obj : ObjID) (beforeMap afterMap : GoMap GoString opset.Value)
    (k : GoString) : Option Patch :=
  match GoMap.get? beforeMap k, GoMap.get? afterMap k with
  | some bv, none =>
    some { zeroPatch with Kind := PatchMapDelete, ObjID := obj, Key := k, OldValue := some bv }
  | none, some av =>
    some { zeroPatch with Kind := PatchMapPut, ObjID := obj, Key := k, NewValue := some av }
  | some bv, some av =>
    if bv.Equal av then none
    else some { zeroPatch with Kind := PatchMapPut, ObjID := obj, Key := k,
                               OldValue := some bv, NewValue := some av }
  | none, none => none

/-- What the proofs need of the recursive call: the patches it returns are on objects
that were not in `seen`, and `seen` only grows. -/
def SubOK (sub : ObjID → GoMap ObjID Unit → GoMap ObjID Unit × Except GoError (List Patch)) :
    Prop :=
  ∀ o s s1 p, sub o s = (s1, .ok p) →
    (∀ x ∈ p, GoMap.contains s x.ObjID = false) ∧
      (∀ y, GoMap.contains s y = true → GoMap.contains s1 y = true)

/-- The number of objects of the op set that are not in `seen`: the measure that
bounds the depth of `diffObjAt`. -/
def unseen (d : Document) (seen : GoMap ObjID Unit) : Nat :=
  ((GoMap.keys d.ops.objects).filter (fun o => !GoMap.contains seen o)).length

/-- The patches of `historyDoc2` from its first to its second commit: the key `k` goes
from `"v1"` to `"v2"`, the key `n` is new, and the text object at `t` goes from `"ab"` to
`"abc"`. -/
def historyPatches : List Patch :=
  [{ zeroPatch with Kind := PatchMapPut, ObjID := RootObjID, Key := "k",
                    OldValue := some (opset.NewScalarValue (StringValue "v1")),
                    NewValue := some (opset.NewScalarValue (StringValue "v2")) },
   { zeroPatch with Kind := PatchMapPut, ObjID := RootObjID, Key := "n",
                    NewValue := some (opset.NewScalarValue (StringValue "x")) },
   { zeroPatch with Kind := PatchTextSplice,
                    ObjID := { Root := false, Op := { Counter := 2, Actor := 1 } },
                    BeforeText := "ab", AfterText := "abc" }]

/-- A document with one commit that puts a NaN (`0x7ff8000000000000`) at the root key
`x`. -/
def nanDoc : Document :=
  (commitCalls exampleHasherAsc NewDocument
    [.put RootObjID "x" (F64Value 0x7ff8000000000000)]).doc

/-- A document with two commits: the first puts an object of the unknown type 7 at the
root key `o`, the second puts the string `"v"` at the root key `k`. -/
def oddObjectDoc : Document :=
  (commitCalls exampleHasherAsc
    (commitCalls exampleHasherAsc NewDocument [.putObject RootObjID "o" 7]).doc
    [.put RootObjID "k" (StringValue "v")]).doc

end automerge

namespace changegraph

open model

namespace Graph

/-- The method `AddChange` on its pointer receiver, statement by statement: the graph
that the receiver holds when the call returns, and the error returned (`none` for nil).
The three error returns come before the first assignment to a field of the receiver;
reading `g.byHash` and `g.byActor` inserts nothing. -/
def AddChangeOutcome (g : Graph) (m : ChangeMeta) : Graph × Option GoError :=
  if GoMap.contains g.byHash m.Hash then (g, some .ErrChangeExists)
  else
    let wantSeq := (g.actorIndexes m.Actor).length + 1
    if m.Seq ≠ wantSeq then (g, some .ErrInvalidActorSeq)
    else
      let depHash := SortChangeHashes m.Deps
      match resolveDeps g depHash with
      | .error e => (g, some e)
      | .ok depIdx =>
        let n : node :=
          { hash := m.Hash, depIdx := depIdx, depHash := depHash,
            actor := m.Actor, seq := m.Seq, maxOp := m.MaxOp }
        let index := g.nodes.length
        let g1 : Graph := { g with nodes := g.nodes ++ [n] }
        let g2 : Graph := { g1 with byHash := GoMap.set g1.byHash m.Hash index }
        let g3 : Graph :=
          { g2 with byActor := GoMap.set g2.byActor m.Actor (g2.actorIndexes m.Actor ++ [index]) }
        let g4 : Graph := if m.MaxOp > g3.maxOp then { g3 with maxOp := m.MaxOp } else g3
        let g5 : Graph := { g4 with headSet := GoMap.set g4.headSet m.Hash () }
        let g6 : Graph := { g5 with headSet := depHash.foldl GoMap.delete g5.headSet }
        (g6, none)

end Graph

end changegraph

namespace automerge

open model changegraph

/-- The dependencies inside the batch have no cycle: the hashes can be ranked so that
every dependency of a change that names a change of the batch ranks below the change. -/
def Acyclic (batch : List Change) : Prop :=
  ∃ rank : ChangeHash → Nat, ∀ c ∈ batch, ∀ d ∈ c.Deps,
    d ∈ batch.map Change.Hash → rank d < rank c.Hash

/-- Two changes that name each other as dependency. -/
def cyclicBatch : List Change :=
  [ { Hash := 1, Actor := 1, Seq := 1, StartOp := 1, MaxOp := 1, Deps := [2],
      Message := none, Time := none, Operations := [] },
    { Hash := 2, Actor := 2, Seq := 1, StartOp := 1, MaxOp := 1, Deps := [1],
      Message := none, Time := none, Operations := [] } ]

/-- A chain of three changes, the last one first. -/
def chainBatch : List Change :=
  [ { Hash := 30, Actor := 1, Seq := 3, StartOp := 3, MaxOp := 3, Deps := [20],
      Message := none, Time := none, Operations := [] },
    { Hash := 10, Actor := 1, Seq := 1, StartOp := 1, MaxOp := 1, Deps := [],
      Message := none, Time := none, Operations := [] },
    { Hash := 20, Actor := 1, Seq := 2, StartOp := 2, MaxOp := 2, Deps := [10],
      Message := none, Time := none, Operations := [] } ]

end automerge

/-! ## Chunks of the Rust format -/

namespace storage

open model

def RustChunkDocument : Nat := 0

def RustChunkChange : Nat := 1

def RustChunkCompressed : Nat := 2

def RustChunkBundle : Nat := 3

/-- The struct `RustChunk`; the field `Type` of the source is named `Typ`. -/
structure RustChunk where
  Typ : Nat
  Checksum : List Nat
  Payload : List Nat
  deriving DecidableEq, Repr

/-- The loop of `appendULEB` of this package; a `uint64` has at most ten groups of
seven bits, and the fuel is the number of groups that may still follow. -/
def appendULEBLoop : Nat → List Nat → Nat → List Nat
  | 0, dst, _ => dst
  | fuel + 1, dst, v =>
    let b := v &&& 0x7f
    let v := v >>> 7
    if v ≠ 0 then appendULEBLoop fuel (dst ++ [b ||| 0x80]) v
    else dst ++ [b]

def appendULEB (dst : List Nat) (v : Nat) : List Nat :=
  appendULEBLoop 10 dst v

/-- The loop of `readULEB` of this package from the byte with index `i`; the shifted
value is cut to `uint64`. -/
def readULEBLoop : List Nat → Nat → Nat → Nat → Except GoError (Nat × Nat)
  | [], _, _, _ => .error .ErrBadColumnMeta
  | b :: rest, i, out, shift =>
    let out := out ||| ((b &&& 0x7f) <<< shift) % 2 ^ 64
    if b &&& 0x80 = 0 then .ok (out, i + 1)
    else
      let shift := shift + 7
      if shift > 63 then .error .ErrBadColumnMeta
      else readULEBLoop rest (i + 1) out shift

def readULEB (data : List Nat) : Except GoError (Nat × Nat) :=
  readULEBLoop data 0 0 0

/-- The function `rustChecksumMatches`; `sha256` is the digest of crypto/sha256 on the
bytes written to it. -/
def rustChecksumMatches (sha256 : List Nat → List Nat) (chk : List Nat) (typ : Nat)
    (payload : List Nat) : Bool :=
  decide (chk = (sha256 ([typ] ++ appendULEB [] (payload.length % 2 ^ 64) ++ payload)).take 4)

/-- The loop of `ParseRustChunks`; `data` is the slice `data[offset:]` that is left.
Every round takes at least nine bytes, so the length of the input is fuel enough. The
declared length is converted with `int(l)`; the slice expression
`data[offset:offset+int(l)]` panics when that is negative. The function `inflateRust`
(compress/flate) and the digest are parameters. -/
def parseRustChunksLoop (sha256 : List Nat → List Nat)
    (inflateRust : List Nat → Except GoError (List Nat)) :
    Nat → List Nat → List RustChunk → List RustChunk × Option GoError
  | 0, _, out => (out, some .outOfFuel)
  | fuel + 1, data, out =>
    if data.length = 0 then (out, none)
    else if data.length < 9 then (out, some .ErrRustShort)
    else if data.take 4 ≠ RustMagic then (out, some .ErrRustBadMagic)
    else
      let chk := (data.drop 4).take 4
      let typ := (data.drop 8).getD 0 0
      if typ > RustChunkBundle then (out, some .ErrRustChunkType)
      else
        match readULEB (data.drop 9) with
        | .error e => (out, some e)
        | .ok (l, n) =>
          let rest := data.drop (9 + n)
          if (rest.length : Int) < intOfUint64 l then (out, some .ErrRustShort)
          else if intOfUint64 l < 0 then (out, some .panicSliceBounds)
          else
            let payload := rest.take l
            let matched : Except GoError Bool :=
              if typ = RustChunkCompressed then
                match inflateRust payload with
                | .error e => .error e
                | .ok uncompressed =>
                  .ok (rustChecksumMatches sha256 chk RustChunkChange uncompressed)
              else .ok (rustChecksumMatches sha256 chk typ payload)
            match matched with
            | .error e => (out, some e)
            | .ok false => (out, some .ErrRustChecksum)
            | .ok true =>
              parseRustChunksLoop sha256 inflateRust fuel (rest.drop l)
                (out ++ [{ Typ := typ, Checksum := chk, Payload := payload }])

/-- The function `ParseRustChunks`: the chunks read so far and the error, if any. -/
def ParseRustChunks (sha256 : List Nat → List Nat)
    (inflateRust : List Nat → Except GoError (List Nat)) (data : List Nat) :
    List RustChunk × Option GoError :=
  parseRustChunksLoop sha256 inflateRust (data.length + 1) data []

/-- A chunk of the Rust format of type 0 that declares a payload of `2^63` bytes and
holds none: the magic bytes, four checksum bytes, the type, and the length in
ULEB128. -/
def hugeLengthChunk : List Nat :=
  [0x85, 0x6f, 0x4a, 0x83, 0, 0, 0, 0, 0,
   0x80, 0x80, 0x80, 0x80, 0x80, 0x80, 0x80, 0x80, 0x80, 0x01]

/-- A stand-in for the digest of crypto/sha256: thirty-two times the sum of the bytes. -/
def sumDigest (b : List Nat) : List Nat :=
  List.replicate 32 (b.sum % 256)

end storage

namespace automerge

open model changegraph

/-- The stand-in `tableDecoder` with `storage.ParseRustChunks` for the Rust format. -/
def rustDecoder : Decoder :=
  { tableDecoder [] with
    parseRustChunks := fun data =>
      (storage.ParseRustChunks storage.sumDigest (tableDecoder []).inflateBytes data).2 }

end automerge

namespace storage

open model

/-- The body that `EncodeChunk` writes for a payload: the payload, deflated on demand. -/
def bodyOf (deflateBytes : List Nat → Except GoError (List Nat)) (payload : List Nat)
    (deflate : Bool) : Except GoError (List Nat) :=
  if deflate then deflateBytes payload else .ok payload

/-- The concatenation of the outputs of `EncodeChunk` for a list of triples of type,
payload and deflate flag; the first error is returned. -/
def encodeChunks (deflateBytes : List Nat → Except GoError (List Nat))
    (checksum : List Nat → Nat) : List (Nat × List Nat × Bool) → Except GoError (List Nat)
  | [] => .ok []
  | t :: rest =>
    match EncodeChunk deflateBytes checksum t.1 t.2.1 t.2.2 with
    | .error e => .error e
    | .ok out =>
      match encodeChunks deflateBytes checksum rest with
      | .error e => .error e
      | .ok more => .ok (out ++ more)

/-- The header laid down for a triple: version 1, the type, the deflate flag in bit 0,
reserved 0, the length of the body and the checksum of the payload. -/
def headerOf (deflateBytes : List Nat → Except GoError (List Nat))
    (checksum : List Nat → Nat) (t : Nat × List Nat × Bool) : Header :=
  { Version := Version1, Typ := t.1, Flags := if t.2.2 then flagDeflate else 0, Reserved := 0,
    PayloadLen :=
      match bodyOf deflateBytes t.2.1 t.2.2 with
      | .ok body => body.length
      | .error _ => 0
    Checksum := checksum t.2.1 % 2 ^ 32 }

end storage

namespace storage

/-- A payload of `2^32 - 1` zero bytes. -/
def hugePayload : List Nat :=
  List.replicate (2 ^ 32 - 1) 0

/-- A chunk of type `ChunkChange` with the one-byte payload `[0]`, not deflated, whose
stored checksum is 7. -/
def badChecksumChunk : List Nat :=
  Magic ++ [Version1, ChunkChange, 0, 0] ++ putUint32 1 ++ putUint32 7 ++ [0]

/-- The JSON text of a document with one change whose hash is `zz`, which is not
hexadecimal. -/
def badHashJSON : List Nat :=
  [0x7b, 0x22, 0x63, 0x68, 0x61, 0x6e, 0x67, 0x65, 0x73, 0x22, 0x3a, 0x5b, 0x7b, 0x22, 0x68,
   0x61, 0x73, 0x68, 0x22, 0x3a, 0x22, 0x7a, 0x7a, 0x22, 0x7d, 0x5d, 0x7d]

/-- A chunk of type `ChunkDocument` that holds `badHashJSON`, not deflated, with the sum
of the bytes in the checksum field. -/
def badHashChunk : List Nat :=
  Magic ++ [Version1, ChunkDocument, 0, 0] ++ putUint32 badHashJSON.length ++
    putUint32 badHashJSON.sum ++ badHashJSON

end storage

namespace automerge

open model changegraph

/-- The stand-in `tableDecoder` that reads `badHashJSON` as JSON does: the text is
well-formed, and `decodeChanges` refuses the hash. -/
def badHashDecoder : Decoder :=
  { tableDecoder [] with
    unmarshalDocument := fun b =>
      if b = storage.badHashJSON then .ok (.error .errHex) else .error .errJSON }

/-- The options `OnPartialIgnore` with verification. -/
def ignoreOptions : LoadOptions :=
  { OnPartialLoad := OnPartialIgnore, Verification := VerificationCheck,
    StringMigration := StringMigrationNone }

end automerge

/-! ## internal/text: indexes by encoding -/

namespace text

open model

abbrev Encoding := Nat

/-- The encoding in which an index counts runes. -/
def EncodingUTF8 : Encoding := 0

/-- The encoding in which an index counts UTF-16 code units. -/
def EncodingUTF16 : Encoding := 1

def RuneCount (s : GoString) : Int :=
  (s.length : Int)

/-- The length of `utf16.Encode(runes)`: two code units for a rune above `0xFFFF`, one
for every other rune. -/
def utf16Len (runes : List Char) : Nat :=
  runes.foldl (fun n r => if r.toNat > 0xFFFF then n + 2 else n + 1) 0

def UTF16CodeUnitCount (s : GoString) : Int :=
  (utf16Len s.toList : Int)

def RuneIndexToUTF16 (s : GoString) (runeIndex : Int) : Int :=
  if runeIndex ≤ 0 then 0
  else
    let runes := s.toList
    let runeIndex := if runeIndex > (runes.length : Int) then (runes.length : Int) else runeIndex
    (utf16Len (runes.take runeIndex.toNat) : Int)

/-- The loop of `UTF16IndexToRune` from the rune with index `i`. -/
def utf16IndexLoop (utf16Index : Int) : List Char → Nat → Int → Option Int
  | [], _, _ => none
  | r :: rest, i, units =>
    let units := if r.toNat > 0xFFFF then units + 2 else units + 1
    if units ≥ utf16Index then some ((i : Int) + 1)
    else utf16IndexLoop utf16Index rest (i + 1) units

def UTF16IndexToRune (s : GoString) (utf16Index : Int) : Int :=
  if utf16Index ≤ 0 then 0
  else
    match utf16IndexLoop utf16Index s.toList 0 0 with
    | some i => i
    | none => (s.toList.length : Int)

def NormalizeIndexForEncoding (s : GoString) (index : Int) (enc : Encoding) : Int :=
  if index < 0 then 0
  else if enc = EncodingUTF16 then
    let max := UTF16CodeUnitCount s
    if index > max then max else index
  else
    let max := RuneCount s
    if index > max then max else index

end text

/-! ## Cursors -/

namespace opset

open model

namespace OpSet

/-- The method `SequenceElementIDs`: for every entry of the list that has a version, the
OpID of its last version in the order of `OpID.Compare`. The errors of the model of
`materialize` are panics, which go up the stack. -/
def SequenceElementIDs (o : OpSet) (obj : ObjID) (cover : Option changegraph.Clock) :
    Except GoError (List OpID) :=
  match o.materialize cover with
  | .error e => .error e
  | .ok state =>
    match GoMap.get? state obj with
    | none => .ok []
    | some st =>
      if st.typ ≠ ObjList ∧ st.typ ≠ ObjText then .ok []
      else
        .ok (st.l.filterMap
          (fun entry => (sortedVersions entry.versions).getLast?.map VersionedValue.OpID))

end OpSet

/-- The op set holds the text object `obj`, and the elements of its list are the
characters of `elems`, one string of one character each in one version with the given
OpID (what `SpliceText` inserts). -/
def HoldsElems (o : OpSet) (obj : ObjID) (elems : List (OpID × Char)) : Prop :=
  o.ensureType obj [ObjText] = .ok () ∧
  ∃ S st, o.materialize none = .ok S ∧ GoMap.get? S obj = some st ∧ st.typ = ObjText ∧
    st.l.map (fun e => e.versions.map (fun v => (v.OpID, v.Value))) =
      elems.map (fun p => [(p.1, runeValue p.2)])

end opset

namespace automerge

open model changegraph

abbrev CursorSide := Nat

def CursorBefore : CursorSide := 0

def CursorAfter : CursorSide := 1

structure Cursor where
  ObjID : ObjID
  Anchor : OpID
  Side : CursorSide
  FallbackRune : Int
  deriving DecidableEq, Repr

/-- The loop of `resolveTextCursor` from the element with index `i`: the first element
whose id is the anchor decides, and without one the index stays as it was. -/
def resolveLoop (anchor : OpID) (side : CursorSide) : List OpID → Nat → Int → Int
  | [], _, runeIndex => runeIndex
  | id :: rest, i, runeIndex =>
    if id ≠ anchor then resolveLoop anchor side rest (i + 1) runeIndex
    else if side = CursorBefore then (i : Int)
    else (i : Int) + 1

namespace Document

def cursorForText (d : Document) (obj : ObjID) (index : Int) (enc : text.Encoding)
    (cover : Option Clock) : Except GoError Cursor :=
  match d.ops.ObjectType obj with
  | none => .error .errCursorUnknownObject
  | some typ =>
    if typ ≠ opset.ObjText then .error .errCursorWrongObjectType
    else
      match d.ops.Text obj cover with
      | .error e => .error e
      | .ok txt =>
        let norm := text.NormalizeIndexForEncoding txt index enc
        let runeIndex := if enc = text.EncodingUTF16 then text.UTF16IndexToRune txt norm else norm
        match d.ops.SequenceElementIDs obj cover with
        | .error e => .error e
        | .ok ids =>
          if ids.length = 0 then
            .ok { ObjID := obj, Anchor := { Counter := 0, Actor := 0 }, Side := CursorAfter,
                  FallbackRune := 0 }
          else if runeIndex ≤ 0 then
            match ids[0]? with
            | none => .error .panicIndexOutOfRange
            | some a => .ok { ObjID := obj, Anchor := a, Side := CursorBefore, FallbackRune := 0 }
          else if runeIndex ≥ (ids.length : Int) then
            match ids[ids.length - 1]? with
            | none => .error .panicIndexOutOfRange
            | some a =>
              .ok { ObjID := obj, Anchor := a, Side := CursorAfter,
                    FallbackRune := (ids.length : Int) }
          else
            match ids[(runeIndex - 1).toNat]? with
            | none => .error .panicIndexOutOfRange
            | some a =>
              .ok { ObjID := obj, Anchor := a, Side := CursorAfter, FallbackRune := runeIndex }

def resolveTextCursor (d : Document) (c : Cursor) (enc : text.Encoding)
    (cover : Option Clock) : Except GoError Int :=
  match d.ops.ObjectType c.ObjID with
  | none => .error .errCursorUnknownObject
  | some typ =>
    if typ ≠ opset.ObjText then .error .errCursorWrongObjectType
    else
      match d.ops.SequenceElementIDs c.ObjID cover with
      | .error e => .error e
      | .ok ids =>
        let found := resolveLoop c.Anchor c.Side ids 0 c.FallbackRune
        let low := if found < 0 then 0 else found
        let runeIndex := if low > (ids.length : Int) then (ids.length : Int) else low
        if enc = text.EncodingUTF16 then
          match d.ops.Text c.ObjID cover with
          | .error e => .error e
          | .ok txt => .ok (text.RuneIndexToUTF16 txt runeIndex)
        else .ok runeIndex

def CursorForText (d : Document) (obj : ObjID) (index : Int) (enc : text.Encoding) :
    Except GoError Cursor :=
  d.cursorForText obj index enc none

def ResolveTextCursor (d : Document) (c : Cursor) (enc : text.Encoding) :
    Except GoError Int :=
  d.resolveTextCursor c enc none

end Document

/-- The document of `TestTextCursorTracksSequencePositions` after its first commit: a
text object at the root key `text` that holds `ab`. -/
def abDoc : Document :=
  (commitCalls exampleHasherAsc NewDocument
    [.putObject RootObjID "text" opset.ObjText, .spliceText opset.firstObject 0 0 "ab"]).doc

/-- A text object at the root key `text` into which `Insert` puts the string `hello` as
one element. -/
def wordDoc : Document :=
  (commitCalls exampleHasherAsc NewDocument
    [.putObject RootObjID "text" opset.ObjText,
     .insert opset.firstObject 0 (StringValue "hello")]).doc

end automerge

namespace automerge

open model changegraph

/-- The documents reached from `d` by commits of one `SpliceText` call on the text
`obj`, each of which returns a change, leaves the element `anchor` in the text and
leaves the element ids pairwise distinct; the number counts the characters inserted
less the elements deleted before the anchor. -/
inductive Spliced (hasher : ChangeHasher) (obj : ObjID) (anchor : OpID) :
    Document → Document → Int → Prop where
  | start (d : Document) : Spliced hasher obj anchor d d 0
  | step (d d1 : Document) (net : Int) (index deleteCount : Int) (ins : GoString)
      (ids : List OpID) (a : Nat) :
      Spliced hasher obj anchor d d1 net →
      d1.ops.SequenceElementIDs obj none = .ok ids → ids[a]? = some anchor →
      ((a : Int) < index ∨ index + deleteCount ≤ a) →
      (commitCalls hasher d1 [.spliceText obj index deleteCount ins]).change.isSome = true →
      (∀ ids1, (commitCalls hasher d1 [.spliceText obj index deleteCount ins]).doc.ops.SequenceElementIDs
          obj none = .ok ids1 → ids1.Nodup) →
      Spliced hasher obj anchor d
        (commitCalls hasher d1 [.spliceText obj index deleteCount ins]).doc
        (net + if index + deleteCount ≤ a then (ins.length : Int) - deleteCount else 0)

end automerge

/-! ## The bytes that are hashed -/

namespace model

def tagActorID : Nat := 0x01

def tagChangeHash : Nat := 0x02

def tagOpID : Nat := 0x03

def tagObjID : Nat := 0x04

def tagString : Nat := 0x05

def tagBytes : Nat := 0x06

def tagBool : Nat := 0x07

def tagUint64 : Nat := 0x08

def tagInt64 : Nat := 0x09

/-! The methods of `ChangeHasher` write to the SHA-256 state and return nothing; each
is given here as the bytes that it writes, so that a sequence of calls writes the
concatenation. -/

namespace ChangeHasher

def writeTag (tag : Nat) : List Nat :=
  [tag]

/-- The method `writeLen`: the length as a `uint64` in big-endian order. -/
def writeLen (n : Nat) : List Nat :=
  sync.putUint64 (n % 2 ^ 64)

def WriteChangeHash (h : ChangeHash) : List Nat :=
  writeTag tagChangeHash ++ sync.hashBytes h

def WriteUint64 (v : Nat) : List Nat :=
  writeTag tagUint64 ++ sync.putUint64 v

/-- The method `WriteInt64`, which writes `uint64(v)`. -/
def WriteInt64 (v : Int) : List Nat :=
  writeTag tagInt64 ++ sync.putUint64 (v % 2 ^ 64).toNat

def WriteBool (v : Bool) : List Nat :=
  writeTag tagBool ++ [if v then 1 else 0]

def WriteOpID (id : OpID) : List Nat :=
  writeTag tagOpID ++ WriteUint64 id.Counter ++ WriteUint64 id.Actor

def WriteObjID (id : ObjID) : List Nat :=
  writeTag tagObjID ++ WriteBool id.Root ++ (if !id.Root then WriteOpID id.Op else [])

/-- The method `WriteString`; the conversion `[]byte(s)` is the parameter `bytesOf`. -/
def WriteString (bytesOf : GoString → List Nat) (s : GoString) : List Nat :=
  writeTag tagString ++ writeLen (bytesOf s).length ++ bytesOf s

def WriteBytes (v : List Nat) : List Nat :=
  writeTag tagBytes ++ writeLen v.length ++ v

end ChangeHasher

end model

namespace automerge

open model changegraph

/-- The `switch op.Value.Kind` of `computeChangeHash`: the bytes written for the payload
that the kind selects, nothing for a kind outside the enumeration. -/
def hashValue (bytesOf : GoString → List Nat) (v : ScalarValue) : List Nat :=
  if v.Kind = ScalarString then model.ChangeHasher.WriteString bytesOf v.String
  else if v.Kind = ScalarInt then model.ChangeHasher.WriteInt64 v.Int
  else if v.Kind = ScalarUint then model.ChangeHasher.WriteUint64 v.Uint
  else if v.Kind = ScalarCounter then model.ChangeHasher.WriteInt64 v.Counter
  else if v.Kind = ScalarTimestamp then model.ChangeHasher.WriteInt64 v.Time
  else if v.Kind = ScalarBoolean then model.ChangeHasher.WriteBool v.Boolean
  else if v.Kind = ScalarBytes ∨ v.Kind = ScalarUnknown then
    model.ChangeHasher.WriteBytes v.Bytes ++ model.ChangeHasher.WriteUint64 v.TypeCode
  else if v.Kind = ScalarF64 then model.ChangeHasher.WriteUint64 v.F64
  else if v.Kind = ScalarNull then model.ChangeHasher.WriteString bytesOf "null"
  else []

/-- The body of the loop of `computeChangeHash` over the operations. -/
def hashOperation (bytesOf : GoString → List Nat) (op : ChangeOperation) : List Nat :=
  model.ChangeHasher.WriteUint64 op.Kind ++
  model.ChangeHasher.WriteObjID op.ObjID ++
  model.ChangeHasher.WriteObjID op.ChildObjID ++
  model.ChangeHasher.WriteString bytesOf op.Key ++
  model.ChangeHasher.WriteInt64 op.Index ++
  model.ChangeHasher.WriteInt64 op.By ++
  model.ChangeHasher.WriteInt64 op.DeleteCount ++
  model.ChangeHasher.WriteString bytesOf op.InsertText ++
  model.ChangeHasher.WriteInt64 op.Start ++
  model.ChangeHasher.WriteInt64 op.End ++
  model.ChangeHasher.WriteString bytesOf op.MarkName ++
  model.ChangeHasher.WriteUint64 op.ObjType ++
  model.ChangeHasher.WriteOpID op.OpID ++
  model.ChangeHasher.WriteUint64 op.Value.Kind ++
  hashValue bytesOf op.Value

/-- The bytes that `computeChangeHash` writes to the SHA-256 state before it takes the
sum. -/
def computeChangeHashInput (bytesOf : GoString → List Nat) (actor seq startOp maxOp : Nat)
    (deps : List ChangeHash) (opts : CommitOptions) (ops : List ChangeOperation) : List Nat :=
  model.ChangeHasher.WriteString bytesOf "am-change-v1" ++
  model.ChangeHasher.WriteUint64 actor ++
  model.ChangeHasher.WriteUint64 seq ++
  model.ChangeHasher.WriteUint64 startOp ++
  model.ChangeHasher.WriteUint64 maxOp ++
  model.ChangeHasher.WriteUint64 (deps.length % 2 ^ 64) ++
  deps.flatMap model.ChangeHasher.WriteChangeHash ++
  (match opts.Message with
    | some m => model.ChangeHasher.WriteBool true ++ model.ChangeHasher.WriteString bytesOf m
    | none => model.ChangeHasher.WriteBool false) ++
  (match opts.Time with
    | some t => model.ChangeHasher.WriteBool true ++ model.ChangeHasher.WriteInt64 t
    | none => model.ChangeHasher.WriteBool false) ++
  model.ChangeHasher.WriteUint64 (ops.length % 2 ^ 64) ++
  ops.flatMap (hashOperation bytesOf)

/-- The value is a `uint64`. -/
def isUint64 (x : Nat) : Prop :=
  x < 2 ^ 64

/-- The value is an `int64`. -/
def isInt64 (x : Int) : Prop :=
  -(2 : Int) ^ 63 ≤ x ∧ x < (2 : Int) ^ 63

/-- The fields of the OpID have their types: a `uint64` counter and a `uint32` actor. -/
def opIDTyped (id : OpID) : Prop :=
  isUint64 id.Counter ∧ id.Actor < 2 ^ 32

/-- The string has fewer than `2^63` bytes, as every Go string has. -/
def stringTyped (bytesOf : GoString → List Nat) (s : GoString) : Prop :=
  (bytesOf s).length < 2 ^ 63

/-- The fields of the scalar have their types. -/
def scalarTyped (bytesOf : GoString → List Nat) (v : ScalarValue) : Prop :=
  v.Kind < 2 ^ 8 ∧ v.Bytes.length < 2 ^ 63 ∧ stringTyped bytesOf v.String ∧ isInt64 v.Int ∧
  isUint64 v.Uint ∧ isUint64 v.F64 ∧ isInt64 v.Counter ∧ isInt64 v.Time ∧ v.TypeCode < 2 ^ 8

/-- The fields of the operation have their types. -/
def operationTyped (bytesOf : GoString → List Nat) (op : ChangeOperation) : Prop :=
  op.Kind < 2 ^ 8 ∧ opIDTyped op.ObjID.Op ∧ opIDTyped op.ChildObjID.Op ∧
  stringTyped bytesOf op.Key ∧ isInt64 op.Index ∧ scalarTyped bytesOf op.Value ∧
  op.ObjType < 2 ^ 8 ∧ isInt64 op.By ∧ isInt64 op.DeleteCount ∧
  stringTyped bytesOf op.InsertText ∧ isInt64 op.Start ∧ isInt64 op.End ∧
  stringTyped bytesOf op.MarkName ∧ opIDTyped op.OpID

/-- The arguments of `computeChangeHash` have their types. -/
def hashInputTyped (bytesOf : GoString → List Nat) (actor seq startOp maxOp : Nat)
    (deps : List ChangeHash) (opts : CommitOptions) (ops : List ChangeOperation) : Prop :=
  actor < 2 ^ 32 ∧ isUint64 seq ∧ isUint64 startOp ∧ isUint64 maxOp ∧
  deps.length < 2 ^ 63 ∧ (∀ h ∈ deps, h < 2 ^ 256) ∧
  (∀ m, opts.Message = some m → stringTyped bytesOf m) ∧
  (∀ t, opts.Time = some t → isInt64 t) ∧
  ops.length < 2 ^ 63 ∧ ∀ op ∈ ops, operationTyped bytesOf op

/-- Two object ids that the hash does not tell apart: both are the root, or neither is
and they have the same OpID. -/
def objAgrees (a b : ObjID) : Prop :=
  a.Root = b.Root ∧ (a.Root = false → a.Op = b.Op)

/-- Two scalars with the same kind and the same payload for that kind. -/
def valueAgrees (a b : ScalarValue) : Prop :=
  a.Kind = b.Kind ∧
  (a.Kind = ScalarString → a.String = b.String) ∧
  (a.Kind = ScalarInt → a.Int = b.Int) ∧
  (a.Kind = ScalarUint → a.Uint = b.Uint) ∧
  (a.Kind = ScalarCounter → a.Counter = b.Counter) ∧
  (a.Kind = ScalarTimestamp → a.Time = b.Time) ∧
  (a.Kind = ScalarBoolean → a.Boolean = b.Boolean) ∧
  (a.Kind = ScalarBytes ∨ a.Kind = ScalarUnknown →
    a.Bytes = b.Bytes ∧ a.TypeCode = b.TypeCode) ∧
  (a.Kind = ScalarF64 → a.F64 = b.F64)

/-- Two operations that agree on every field that is hashed. -/
def operationAgrees (a b : ChangeOperation) : Prop :=
  a.Kind = b.Kind ∧ objAgrees a.ObjID b.ObjID ∧ objAgrees a.ChildObjID b.ChildObjID ∧
  a.Key = b.Key ∧ a.Index = b.Index ∧ a.By = b.By ∧ a.DeleteCount = b.DeleteCount ∧
  a.InsertText = b.InsertText ∧ a.Start = b.Start ∧ a.End = b.End ∧
  a.MarkName = b.MarkName ∧ a.ObjType = b.ObjType ∧ a.OpID = b.OpID ∧
  valueAgrees a.Value b.Value

/-- The code points of the characters, a one-to-one stand-in for the bytes of a
string. -/
def codePoints (s : GoString) : List Nat :=
  s.toList.map Char.toNat

/-- An object id with the root flag set and an OpID that is not zero. -/
def rootWithOp : ObjID :=
  { Root := true, Op := { Counter := 1, Actor := 1 } }

/-- A put of the string `v` at the key `k` of the object `obj`, with the OpID `1@1`. -/
def putOn (obj : ObjID) : ChangeOperation :=
  { zeroOperation with Kind := OpPut, ObjID := obj, Key := "k", Value := StringValue "v",
                       OpID := { Counter := 1, Actor := 1 } }

end automerge

namespace automerge

open model changegraph

/-- The change with the hash field 50 by which `actor` puts the string `value` at the
root key `k`; it names the change with the hash 10 as its dependency. -/
def queuedTwin (actor : Nat) (value : GoString) : Change :=
  { Hash := 50, Actor := actor, Seq := 1, StartOp := 2, MaxOp := 2, Deps := [10],
    Message := none, Time := none,
    Operations := [{ zeroOperation with Kind := OpPut, ObjID := RootObjID, Key := "k",
                                        Value := StringValue value,
                                        OpID := { Counter := 2, Actor := actor } }] }

/-- The document reached from the new one by two `ApplyChanges` calls, each with one
of two changes that carry the same hash field and wait for the change 10. -/
def twinQueueDocument : Document :=
  ((NewDocument.ApplyChanges [queuedTwin 5 "a"]).doc.ApplyChanges [queuedTwin 6 "b"]).doc

/-- Four changes without dependencies, with the hashes 10, 20, 30 and 40. -/
def rootBatch : List Change :=
  [firstPut 10 1 "w" "1", firstPut 20 2 "x" "2", firstPut 30 3 "y" "3", firstPut 40 4 "z" "4"]

/-- The changes of `rootBatch` in the order 30, 20, 10, 40. -/
def rootBatchMixed : List Change :=
  [firstPut 30 3 "y" "3", firstPut 20 2 "x" "2", firstPut 10 1 "w" "1", firstPut 40 4 "z" "4"]

end automerge

/-! # Theorems -/

/-! ## Lemmas on Go maps -/


namespace GoMap

variable {κ ν : Type} [DecidableEq κ]

theorem get?_filter_ne (m : GoMap κ ν) (k k' : κ) (h : k' ≠ k) :
    get? (m.filter (fun p => !decide (p.1 = k))) k' = get? m k' := by
  induction m with
  | nil => rfl
  | cons p rest ih =>
    obtain ⟨a, b⟩ := p
    by_cases hak : a = k
    · subst hak
      have : a ≠ k' := fun e => h e.symm
      simpa [List.filter, get?, this] using ih
    · by_cases hak' : a = k'
      · subst hak'
        simp [List.filter, get?, hak]
      · simpa [List.filter, get?, hak, hak'] using ih

theorem get?_delete_self (m : GoMap κ ν) (k : κ) : get? (delete m k) k = none := by
  induction m with
  | nil => rfl
  | cons p rest ih =>
    obtain ⟨a, b⟩ := p
    by_cases hak : a = k
    · simpa [delete, List.filter, hak] using ih
    · simpa [delete, List.filter, get?, hak] using ih

theorem get?_delete_ne (m : GoMap κ ν) (k k' : κ) (h : k' ≠ k) :
    get? (delete m k) k' = get? m k' :=
  get?_filter_ne m k k' h

theorem get?_append (m m' : GoMap κ ν) (k : κ) :
    get? (m ++ m') k = (get? m k).orElse (fun _ => get? m' k) := by
  induction m with
  | nil => simp [get?]
  | cons p rest ih =>
    obtain ⟨a, b⟩ := p
    by_cases hak : a = k
    · simp [get?, hak]
    · simpa [get?, hak] using ih

theorem get?_set_self (m : GoMap κ ν) (k : κ) (v : ν) : get? (set m k v) k = some v := by
  simp [set, get?_append, get?_delete_self, get?]

theorem get?_set_ne (m : GoMap κ ν) (k k' : κ) (v : ν) (h : k' ≠ k) :
    get? (set m k v) k' = get? m k' := by
  have hne : ¬ k = k' := fun e => h e.symm
  simp only [set, get?_append, get?_delete_ne m k k' h, get?, hne, if_false]
  cases get? m k' <;> rfl

theorem get?_isSome_iff_mem_keys (m : GoMap κ ν) (k : κ) :
    (get? m k).isSome = true ↔ k ∈ keys m := by
  induction m with
  | nil => simp [get?, keys]
  | cons p rest ih =>
    obtain ⟨a, b⟩ := p
    by_cases hak : a = k
    · simp [get?, keys, hak]
    · have : ¬ k = a := fun e => hak e.symm
      simpa [get?, keys, hak, this] using ih

theorem contains_iff_mem_keys (m : GoMap κ ν) (k : κ) :
    contains m k = true ↔ k ∈ keys m :=
  get?_isSome_iff_mem_keys m k

theorem keys_delete (m : GoMap κ ν) (k : κ) :
    keys (delete m k) = (keys m).filter (fun a => !decide (a = k)) := by
  induction m with
  | nil => rfl
  | cons p rest ih =>
    obtain ⟨a, b⟩ := p
    by_cases hak : a = k
    · simpa [delete, keys, List.filter, hak] using ih
    · simpa [delete, keys, List.filter, hak] using ih

theorem keys_set (m : GoMap κ ν) (k : κ) (v : ν) :
    keys (set m k v) = (keys m).filter (fun a => !decide (a = k)) ++ [k] := by
  rw [← keys_delete]
  simp [set, keys]

theorem nodup_keys_delete (m : GoMap κ ν) (k : κ) (h : (keys m).Nodup) :
    (keys (delete m k)).Nodup := by
  rw [keys_delete]; exact h.filter _

theorem nodup_keys_set (m : GoMap κ ν) (k : κ) (v : ν) (h : (keys m).Nodup) :
    (keys (set m k v)).Nodup := by
  rw [keys_set]
  refine List.Nodup.append (h.filter _) (List.nodup_singleton k) ?_
  intro a ha hk
  simp at ha hk
  exact ha.2 hk

theorem mem_keys_delete (m : GoMap κ ν) (k a : κ) :
    a ∈ keys (delete m k) ↔ a ∈ keys m ∧ a ≠ k := by
  simp [keys_delete]

theorem mem_keys_set (m : GoMap κ ν) (k a : κ) (v : ν) :
    a ∈ keys (set m k v) ↔ (a ∈ keys m ∧ a ≠ k) ∨ a = k := by
  simp [keys_set]

theorem mem_keys_foldl_delete (ks : List κ) (m : GoMap κ ν) (a : κ) :
    a ∈ keys (ks.foldl delete m) ↔ a ∈ keys m ∧ a ∉ ks := by
  induction ks generalizing m with
  | nil => simp
  | cons k rest ih =>
    simp only [List.foldl_cons, ih, mem_keys_delete, List.mem_cons, not_or]
    tauto

theorem nodup_keys_foldl_delete (ks : List κ) (m : GoMap κ ν) (h : (keys m).Nodup) :
    (keys (ks.foldl delete m)).Nodup := by
  induction ks generalizing m with
  | nil => simpa
  | cons k rest ih => exact ih _ (nodup_keys_delete m k h)

end GoMap

/-! ## The change graph -/

namespace changegraph

open model

namespace Graph

theorem hasChange_iff (g : Graph) (h : ChangeHash) :
    g.HasChange h = true ↔ ∃ i, GoMap.get? g.byHash h = some i := by
  simp [HasChange, GoMap.contains, Option.isSome_iff_exists]

theorem resolveDeps_ok (g : Graph) (hs : List ChangeHash) (idxs : List Nat) :
    resolveDeps g hs = .ok idxs ↔
      List.Forall₂ (fun d h => GoMap.get? g.byHash h = some d) idxs hs := by
  induction hs generalizing idxs with
  | nil =>
    cases idxs <;> simp [resolveDeps]
  | cons h rest ih =>
    cases hget : GoMap.get? g.byHash h with
    | none =>
      simp only [resolveDeps, hget]
      constructor
      · intro hh; cases hh
      · intro hh
        cases hh with
        | cons h1 _ => rw [hget] at h1; cases h1
    | some i =>
      cases hrest : resolveDeps g rest with
      | error e =>
        simp only [resolveDeps, hget, hrest]
        constructor
        · intro hh; cases hh
        · intro hh
          cases hh with
          | cons h1 h2 => rw [(ih _).2 h2] at hrest; cases hrest
      | ok l =>
        simp only [resolveDeps, hget, hrest]
        constructor
        · intro hh
          cases hh
          exact List.Forall₂.cons hget ((ih _).1 hrest)
        · intro hh
          cases hh with
          | cons h1 h2 =>
            rw [hget] at h1; cases h1
            rw [(ih _).2 h2] at hrest; cases hrest
            rfl

theorem resolveDeps_error (g : Graph) (hs : List ChangeHash) (e : GoError) :
    resolveDeps g hs = .error e →
      e = .ErrUnknownDependency ∧ ∃ h ∈ hs, g.HasChange h = false := by
  induction hs with
  | nil => intro hh; simp [resolveDeps] at hh
  | cons h rest ih =>
    cases hget : GoMap.get? g.byHash h with
    | none =>
      intro hh
      simp only [resolveDeps, hget] at hh
      cases hh
      exact ⟨rfl, h, List.mem_cons_self _ _, by simp [HasChange, GoMap.contains, hget]⟩
    | some i =>
      cases hrest : resolveDeps g rest with
      | error e' =>
        intro hh
        simp only [resolveDeps, hget, hrest] at hh
        cases hh
        obtain ⟨h1, x, hx, hx'⟩ := ih hrest
        exact ⟨h1, x, List.mem_cons_of_mem _ hx, hx'⟩
      | ok l =>
        intro hh
        simp only [resolveDeps, hget, hrest] at hh
        cases hh

/-- The graph that a successful `AddChange` returns. -/
theorem AddChange_ok (g g' : Graph) (m : ChangeMeta) (h : g.AddChange m = .ok g') :
    g.HasChange m.Hash = false ∧ m.Seq = g.SeqForActor m.Actor + 1 ∧
    ∃ depIdx, resolveDeps g (SortChangeHashes m.Deps) = .ok depIdx ∧
      g' = { nodes := g.nodes ++ [{ hash := m.Hash, depIdx := depIdx,
                                    depHash := SortChangeHashes m.Deps,
                                    actor := m.Actor, seq := m.Seq, maxOp := m.MaxOp }]
             byHash := GoMap.set g.byHash m.Hash g.nodes.length
             byActor := GoMap.set g.byActor m.Actor (g.actorIndexes m.Actor ++ [g.nodes.length])
             maxOp := if m.MaxOp > g.maxOp then m.MaxOp else g.maxOp
             headSet := (SortChangeHashes m.Deps).foldl GoMap.delete
               (GoMap.set g.headSet m.Hash ()) } := by
  unfold AddChange at h
  by_cases h1 : g.HasChange m.Hash = true
  · simp [h1] at h
  · simp only [h1] at h
    by_cases h2 : m.Seq = (g.actorIndexes m.Actor).length + 1
    · simp only [h2, ne_eq, not_true_eq_false, if_false] at h
      cases hr : resolveDeps g (SortChangeHashes m.Deps) with
      | error e => simp [hr] at h
      | ok depIdx =>
        simp only [hr] at h
        injection h with h
        refine ⟨by simpa using h1, h2, depIdx, rfl, ?_⟩
        rw [← h, h2]
    · simp [h2] at h

end Graph

end changegraph

namespace changegraph

open model

namespace Graph

theorem getElem?_snoc {α : Type} (l : List α) (x y : α) (i : Nat) :
    (l ++ [x])[i]? = some y ↔ l[i]? = some y ∨ (i = l.length ∧ x = y) := by
  rw [List.getElem?_append]
  by_cases hi : i < l.length
  · simp only [hi, if_true]
    constructor
    · exact Or.inl
    · rintro (h | ⟨h, -⟩)
      · exact h
      · omega
  · simp only [hi, if_false]
    have hnone : l[i]? = none := List.getElem?_eq_none (by omega)
    by_cases he : i = l.length
    · subst he; simp
    · have : i - l.length ≠ 0 := by omega
      obtain ⟨k, hk⟩ := Nat.exists_eq_succ_of_ne_zero this
      simp [hk, hnone, he]

theorem actorIndexes_set (g : Graph) (a b : Nat) (v : List Nat) :
    (GoMap.get? (GoMap.set g.byActor a v) b).getD [] =
      if b = a then v else g.actorIndexes b := by
  by_cases h : b = a
  · subst h; simp [GoMap.get?_set_self]
  · simp [GoMap.get?_set_ne _ _ _ _ h, h, actorIndexes]

theorem wellFormed_New : WellFormed New := by
  refine ⟨?_, ?_, ?_, ?_, ?_, ?_, ?_⟩ <;>
    simp [New, GoMap.get?, GoMap.keys, HasChange, GoMap.contains, actorIndexes, SeqForActor]

end Graph

open Graph

theorem WellFormed.depHash_known {g : Graph} (wf : WellFormed g) (n : node) (hn : n ∈ g.nodes)
    (h : ChangeHash) (hh : h ∈ n.depHash) : g.HasChange h = true := by
  obtain ⟨i, hi⟩ := List.mem_iff_getElem?.1 hn
  have hf := wf.deps i n hi
  have : ∀ (ds : List Nat) (hs : List ChangeHash),
      List.Forall₂ (fun d h => d < i ∧ ∃ nd : node, g.nodes[d]? = some nd ∧ nd.hash = h) ds hs →
      h ∈ hs → g.HasChange h = true := by
    intro ds hs hfa
    induction hfa with
    | nil => intro hm; cases hm
    | cons hab _ ih =>
      intro hm
      rcases List.mem_cons.1 hm with rfl | hm
      · obtain ⟨-, nd, hnd, hhash⟩ := hab
        exact (hasChange_iff g _).2 ⟨_, (wf.byHash_iff _ _).2 ⟨nd, hnd, hhash⟩⟩
      · exact ih hm
  exact this _ _ hf hh

theorem WellFormed.addChange {g g' : Graph} {m : ChangeMeta} (wf : WellFormed g)
    (hadd : g.AddChange m = .ok g') : WellFormed g' := by
  obtain ⟨hnew, hseq, depIdx, hres, rfl⟩ := AddChange_ok g g' m hadd
  have hres' := (resolveDeps_ok g _ _).1 hres
  have hnoidx : ∀ i, GoMap.get? g.byHash m.Hash ≠ some i := by
    intro i hi
    have := (hasChange_iff g m.Hash).2 ⟨i, hi⟩
    rw [hnew] at this; cases this
  refine ⟨?_, ?_, ?_, ?_, ?_, ?_, ?_⟩
  · -- byHash_iff
    intro h i
    dsimp only
    by_cases hh : h = m.Hash
    · subst hh
      rw [GoMap.get?_set_self]
      constructor
      · intro hi
        injection hi with hi
        subst hi
        exact ⟨_, List.getElem?_concat_length _ _, rfl⟩
      · rintro ⟨n, hn, hhash⟩
        rcases (getElem?_snoc _ _ _ _).1 hn with hn | ⟨hi, -⟩
        · exact absurd ((wf.byHash_iff _ _).2 ⟨n, hn, hhash⟩) (hnoidx i)
        · rw [hi]
    · rw [GoMap.get?_set_ne _ _ _ _ hh, wf.byHash_iff]
      constructor
      · rintro ⟨n, hn, hhash⟩
        exact ⟨n, (getElem?_snoc _ _ _ _).2 (Or.inl hn), hhash⟩
      · rintro ⟨n, hn, hhash⟩
        rcases (getElem?_snoc _ _ _ _).1 hn with hn | ⟨-, hx⟩
        · exact ⟨n, hn, hhash⟩
        · subst hx; exact absurd hhash.symm hh
  · -- deps
    intro i n hn
    dsimp only at hn ⊢
    rcases (getElem?_snoc _ _ _ _).1 hn with hn | ⟨hi, hx⟩
    · refine (wf.deps i n hn).imp ?_
      rintro d h ⟨hd, nd, hnd, hhash⟩
      exact ⟨hd, nd, (getElem?_snoc _ _ _ _).2 (Or.inl hnd), hhash⟩
    · subst hx
      dsimp only
      refine hres'.imp ?_
      intro d h hget
      obtain ⟨nd, hnd, hhash⟩ := (wf.byHash_iff _ _).1 hget
      have hlt : d < g.nodes.length := (List.getElem?_eq_some.1 hnd).1
      exact ⟨by omega, nd, (getElem?_snoc _ _ _ _).2 (Or.inl hnd), hhash⟩
  · -- heads_nodup
    exact GoMap.nodup_keys_foldl_delete _ _ (GoMap.nodup_keys_set _ _ _ wf.heads_nodup)
  · -- heads_iff
    intro h
    dsimp only
    rw [GoMap.mem_keys_foldl_delete, GoMap.mem_keys_set, hasChange_iff]
    dsimp only
    by_cases hh : h = m.Hash
    · subst hh
      simp only [GoMap.get?_set_self, ne_eq, not_true_eq_false, and_false, false_or, true_and,
        List.mem_append, List.mem_singleton, Option.some.injEq, exists_eq']
      constructor
      · intro hnd n hn
        rcases hn with hn | hn
        · intro hmem
          have := wf.depHash_known n hn _ hmem
          rw [hnew] at this; cases this
        · subst hn; exact hnd
      · intro hall
        exact hall _ (Or.inr rfl)
    · rw [GoMap.get?_set_ne _ _ _ _ hh, wf.heads_iff, hasChange_iff]
      simp only [hh, ne_eq, not_false_eq_true, and_true, or_false, List.mem_append,
        List.mem_singleton]
      constructor
      · rintro ⟨⟨hex, hall⟩, hnd⟩
        refine ⟨hex, ?_⟩
        rintro n (hn | hn)
        · exact hall n hn
        · subst hn; exact hnd
      · rintro ⟨hex, hall⟩
        exact ⟨⟨hex, fun n hn => hall n (Or.inl hn)⟩, hall _ (Or.inr rfl)⟩
  · -- actor_lt
    intro a i hi
    simp only [actorIndexes] at hi
    rw [actorIndexes_set] at hi
    simp only [List.length_append, List.length_singleton]
    by_cases ha : a = m.Actor
    · simp only [ha, if_true, List.mem_append, List.mem_singleton] at hi
      rcases hi with hi | hi
      · have := wf.actor_lt _ i hi; omega
      · omega
    · simp only [ha, if_false] at hi
      have := wf.actor_lt _ i hi; omega
  · -- actor_nodes
    intro a
    simp only [actorIndexes]
    rw [actorIndexes_set]
    have hold : ∀ (x : node) (b : Nat), (g.actorIndexes b).filterMap
        (fun i => (g.nodes ++ [x])[i]?) =
        g.nodes.filter (fun n => decide (n.actor = b)) := by
      intro x b
      rw [← wf.actor_nodes b]
      apply List.filterMap_congr
      intro i hi
      exact List.getElem?_append_left (wf.actor_lt b i hi)
    by_cases ha : a = m.Actor
    · subst ha
      simp only [if_true, List.filterMap_append, actorIndexes] at hold ⊢
      rw [hold, List.filter_append]
      simp
    · simp only [ha, if_false, hold, List.filter_append]
      have : ¬ m.Actor = a := fun e => ha e.symm
      simp [this]
  · -- actor_seq
    intro a
    simp only [SeqForActor, actorIndexes]
    rw [actorIndexes_set]
    by_cases ha : a = m.Actor
    · subst ha
      simp only [if_true, List.filter_append, List.map_append, List.length_append,
        List.length_singleton, List.range'_concat]
      rw [wf.actor_seq]
      simp [hseq, SeqForActor, Nat.add_comm, actorIndexes]
    · have : ¬ m.Actor = a := fun e => ha e.symm
      simp only [ha, if_false, List.filter_append, List.map_append]
      rw [wf.actor_seq]
      simp [this, SeqForActor]

theorem Built.wellFormed {g : Graph} (hb : Built g) : WellFormed g := by
  induction hb with
  | new => exact wellFormed_New
  | add g g' m _ hadd ih => exact ih.addChange hadd

end changegraph


namespace changegraph

open model Graph

theorem mem_SortChangeHashes (hs : List ChangeHash) (h : ChangeHash) :
    h ∈ SortChangeHashes hs ↔ h ∈ hs :=
  (List.perm_insertionSort _ hs).mem_iff

theorem sorted_SortChangeHashes (hs : List ChangeHash) :
    List.Sorted (fun a b => a ≤ b) (SortChangeHashes hs) :=
  List.sorted_insertionSort _ hs

theorem SortChangeHashes_perm (hs hs' : List ChangeHash) (hp : hs.Perm hs') :
    SortChangeHashes hs = SortChangeHashes hs' :=
  List.eq_of_perm_of_sorted
    (((List.perm_insertionSort _ hs).trans hp).trans (List.perm_insertionSort _ hs').symm)
    (sorted_SortChangeHashes hs) (sorted_SortChangeHashes hs')

theorem WellFormed.depsForHash {g : Graph} (wf : WellFormed g) (h : ChangeHash)
    (deps : List ChangeHash) :
    g.DepsForHash h = .ok (some deps) ↔ ∃ n ∈ g.nodes, n.hash = h ∧ n.depHash = deps := by
  unfold DepsForHash
  cases hget : GoMap.get? g.byHash h with
  | none =>
    simp only
    constructor
    · intro hh; cases hh
    · rintro ⟨n, hn, hhash, -⟩
      obtain ⟨i, hi⟩ := List.mem_iff_getElem?.1 hn
      rw [(wf.byHash_iff h i).2 ⟨n, hi, hhash⟩] at hget
      cases hget
  | some i =>
    obtain ⟨n, hn, hhash⟩ := (wf.byHash_iff h i).1 hget
    simp only [hn]
    constructor
    · intro hh
      injection hh with hh
      injection hh with hh
      exact ⟨n, List.mem_iff_getElem?.2 ⟨i, hn⟩, hhash, hh⟩
    · rintro ⟨n', hn', hhash', hdeps⟩
      obtain ⟨j, hj⟩ := List.mem_iff_getElem?.1 hn'
      have hij := (wf.byHash_iff h j).2 ⟨n', hj, hhash'⟩
      rw [hget] at hij
      injection hij with hij
      subst hij
      rw [hn] at hj
      injection hj with hj
      subst hj
      rw [hdeps]

theorem resolveDeps_known (g : Graph) (hs : List ChangeHash) (idxs : List Nat)
    (hr : resolveDeps g hs = .ok idxs) (d : ChangeHash) (hd : d ∈ hs) :
    g.HasChange d = true := by
  have hall := (resolveDeps_ok g _ _).1 hr
  have : ∀ (is : List Nat) (hs : List ChangeHash),
      List.Forall₂ (fun i h => GoMap.get? g.byHash h = some i) is hs →
      d ∈ hs → g.HasChange d = true := by
    intro is hs hf
    induction hf with
    | nil => intro hm; cases hm
    | cons hab _ ih =>
      intro hm
      rcases List.mem_cons.1 hm with rfl | hm
      · exact (hasChange_iff g _).2 ⟨_, hab⟩
      · exact ih hm
  exact this _ _ hall hd

theorem AddChange_nodes (g g' : Graph) (m : ChangeMeta) (h : g.AddChange m = .ok g') :
    ∃ n0 : node, g'.nodes = g.nodes ++ [n0] ∧ n0.hash = m.Hash ∧
      n0.depHash = SortChangeHashes m.Deps ∧ n0.actor = m.Actor ∧ n0.seq = m.Seq ∧
      n0.maxOp = m.MaxOp ∧ resolveDeps g (SortChangeHashes m.Deps) = .ok n0.depIdx := by
  obtain ⟨-, -, depIdx, hres, hg'⟩ := AddChange_ok g g' m h
  subst hg'
  exact ⟨_, rfl, rfl, rfl, rfl, rfl, rfl, hres⟩

/-- C7: `AddChange` returns `ErrChangeExists` when the hash is already in the graph,
`ErrInvalidActorSeq` when the hash is new but `Seq` is not `SeqForActor(Actor) + 1`,
`ErrUnknownDependency` when hash and sequence number are fine but some element of
`Deps` is not in the graph, and no error in every other case. -/
theorem AddChange_error_cases (g : Graph) (m : ChangeMeta) :
    (match g.AddChange m with
      | .ok _ => none
      | .error e => some e) =
    if g.HasChange m.Hash = true then some GoError.ErrChangeExists
    else if m.Seq ≠ g.SeqForActor m.Actor + 1 then some GoError.ErrInvalidActorSeq
    else if ∃ d ∈ m.Deps, g.HasChange d = false then some GoError.ErrUnknownDependency
    else none := by
  unfold AddChange
  by_cases h1 : g.HasChange m.Hash = true
  · simp [h1]
  · simp only [h1]
    by_cases h2 : m.Seq = g.SeqForActor m.Actor + 1
    · have h2' : m.Seq = (g.actorIndexes m.Actor).length + 1 := h2
      simp only [h2', ne_eq, not_true_eq_false, if_false, SeqForActor]
      cases hr : resolveDeps g (SortChangeHashes m.Deps) with
      | error e =>
        obtain ⟨he, d, hd, hmiss⟩ := resolveDeps_error g _ e hr
        have hex : ∃ d ∈ m.Deps, g.HasChange d = false :=
          ⟨d, (mem_SortChangeHashes _ _).1 hd, hmiss⟩
        simp only [if_pos hex, he]
        rfl
      | ok depIdx =>
        have hno : ¬ ∃ d ∈ m.Deps, g.HasChange d = false := by
          rintro ⟨d, hd, hmiss⟩
          rw [resolveDeps_known g _ _ hr d ((mem_SortChangeHashes _ _).2 hd)] at hmiss
          cases hmiss
        simp only [if_neg hno]
        rfl
    · have h2' : ¬ m.Seq = (g.actorIndexes m.Actor).length + 1 := h2
      simp [h2, h2', SeqForActor]

/-- C8: in a graph built from `New` by `AddChange` calls, `Heads` is strictly
ascending and holds exactly the hashes of the graph that no change of the graph
lists as a dependency; after a successful `AddChange` the new hash is a head and
none of its dependencies is. -/
theorem Heads_identity (g : Graph) (hb : Built g) :
    List.Sorted (fun a b => a < b) g.Heads ∧
    (∀ h, h ∈ g.Heads ↔
      (g.HasChange h = true ∧
        ∀ h' deps, g.DepsForHash h' = .ok (some deps) → h ∉ deps)) ∧
    (∀ m g', g.AddChange m = .ok g' →
      m.Hash ∈ g'.Heads ∧ ∀ d ∈ m.Deps, d ∉ g'.Heads) := by
  have wf := hb.wellFormed
  have hmem : ∀ (g : Graph), WellFormed g → ∀ h, h ∈ g.Heads ↔
      (g.HasChange h = true ∧ ∀ n ∈ g.nodes, h ∉ n.depHash) := by
    intro g wf h
    rw [← wf.heads_iff]
    exact mem_SortChangeHashes _ _
  refine ⟨?_, ?_, ?_⟩
  · exact (sorted_SortChangeHashes _).lt_of_le
      ((List.perm_insertionSort _ _).nodup_iff.2 wf.heads_nodup)
  · intro h
    rw [hmem g wf]
    constructor
    · rintro ⟨hc, hall⟩
      refine ⟨hc, ?_⟩
      intro h' deps hd
      obtain ⟨n, hn, -, hdeps⟩ := (wf.depsForHash h' deps).1 hd
      rw [← hdeps]
      exact hall n hn
    · rintro ⟨hc, hall⟩
      refine ⟨hc, ?_⟩
      intro n hn
      exact hall n.hash n.depHash ((wf.depsForHash _ _).2 ⟨n, hn, rfl, rfl⟩)
  · intro m g' hadd
    have wf' := wf.addChange hadd
    obtain ⟨hnew, -, -, -, -⟩ := AddChange_ok g g' m hadd
    obtain ⟨n0, hnodes, hhash0, hdeps0, -, -, -, hres⟩ := AddChange_nodes g g' m hadd
    have hn0 : n0 ∈ g'.nodes := by
      rw [hnodes]; exact List.mem_append_right _ (List.mem_singleton_self _)
    constructor
    · rw [hmem g' wf']
      constructor
      · obtain ⟨i, hi⟩ := List.mem_iff_getElem?.1 hn0
        exact (hasChange_iff _ _).2 ⟨i, (wf'.byHash_iff _ _).2 ⟨n0, hi, hhash0⟩⟩
      · intro n hn hmemd
        rw [hnodes] at hn
        have hknown : g.HasChange m.Hash = true := by
          rcases List.mem_append.1 hn with hn | hn
          · exact wf.depHash_known n hn _ hmemd
          · rw [List.mem_singleton] at hn
            subst hn
            rw [hdeps0] at hmemd
            exact resolveDeps_known g _ _ hres _ hmemd
        rw [hnew] at hknown; cases hknown
    · intro d hd hdh
      have := ((hmem g' wf' d).1 hdh).2 n0 hn0
      rw [hdeps0, mem_SortChangeHashes] at this
      exact this hd

end changegraph

namespace changegraph

open model Graph

theorem Graph.Tracks.mono {g : Graph} {L : List Nat} {st : DfsState} {k k' : Nat}
    (h : Tracks g L st k) (hk : k' ≤ k) : Tracks g L st k' :=
  ⟨h.1, h.2.1, fun j hj hlt => h.2.2 j hj (by omega)⟩

theorem Graph.GoodOrder.snoc {g : Graph} {L : List Nat} {j : Nat} (h : GoodOrder g L)
    (hdeps : ∀ d ∈ g.depIdxAt j, d ∈ L) (hnot : j ∉ L) (hlt : j < g.nodes.length) :
    GoodOrder g (L ++ [j]) := by
  obtain ⟨h1, h2, h3⟩ := h
  refine ⟨?_, ?_, ?_⟩
  · intro a x b hsplit d hd
    rcases List.eq_nil_or_concat b with rfl | ⟨b', y, rfl⟩
    · have := List.append_inj' hsplit (by simp)
      obtain ⟨ha, hx⟩ := this
      injection hx with hx
      subst hx; subst ha
      exact hdeps d hd
    · have hsplit' : L ++ [j] = (a ++ x :: b') ++ [y] := by
        rw [hsplit]; simp
      have := List.append_inj' hsplit' rfl
      exact h1 a x b' this.1 d hd
  · refine List.Nodup.append h2 (List.nodup_singleton j) ?_
    intro x hx hx'
    rw [List.mem_singleton] at hx'
    subst hx'
    exact hnot hx
  · intro x hx
    rcases List.mem_append.1 hx with hx | hx
    · exact h3 x hx
    · rw [List.mem_singleton] at hx; subst hx; exact hlt

theorem Graph.GoodOrder.closed {g : Graph} {L : List Nat} (h : GoodOrder g L) (j : Nat) (hj : j ∈ L)
    (d : Nat) (hd : d ∈ g.depIdxAt j) : d ∈ L := by
  obtain ⟨a, b, hab⟩ := List.append_of_mem hj
  have := h.1 a j b hab d hd
  rw [hab]
  exact List.mem_append_left _ this

theorem WellFormed.depIdxAt_lt {g : Graph} (wf : WellFormed g) (j d : Nat)
    (hd : d ∈ g.depIdxAt j) : d < j := by
  unfold depIdxAt at hd
  cases hn : g.nodes[j]? with
  | none => simp [hn] at hd
  | some n =>
    simp only [hn, Option.map_some', Option.getD_some] at hd
    have hf := wf.deps j n hn
    have : ∀ (ds : List Nat) (hs : List ChangeHash),
        List.Forall₂ (fun d h => d < j ∧ ∃ nd : node, g.nodes[d]? = some nd ∧ nd.hash = h)
          ds hs → d ∈ ds → d < j := by
      intro ds hs hfa
      induction hfa with
      | nil => intro hm; cases hm
      | cons hab _ ih =>
        intro hm
        rcases List.mem_cons.1 hm with rfl | hm
        · exact hab.1
        · exact ih hm
    exact this _ _ hf hd

/-- The loop over the dependency indexes inside `dfs`, given the specification of
the recursive calls. -/
theorem dfs_loop {g : Graph} (fuel idx : Nat)
    (ih : ∀ (d : Nat) (st : DfsState) (L : List Nat), d < fuel → d < g.nodes.length →
      Tracks g L st (d + 1) → GoodOrder g L →
      ∃ st' E, dfs g fuel d st = .ok st' ∧ GoodOrder g (L ++ E) ∧ (∀ j ∈ E, j ≤ d) ∧
        st'.out = (L ++ E).map g.hashAt ∧ (∀ j, j ∈ st'.visited ↔ j ∈ st.visited ∨ j ∈ E) ∧
        d ∈ L ++ E ∧ ∀ j ∈ E, g.ReachIdx d j)
    (hfuel : idx ≤ fuel) (hidx : idx ≤ g.nodes.length) :
    ∀ (ds : List Nat) (st : DfsState) (L : List Nat), (∀ d ∈ ds, d < idx) →
      Tracks g L st idx → GoodOrder g L →
      ∃ st' E, ds.foldlM (fun s d => dfs g fuel d s) st = .ok st' ∧ GoodOrder g (L ++ E) ∧
        (∀ j ∈ E, j < idx) ∧ st'.out = (L ++ E).map g.hashAt ∧
        (∀ j, j ∈ st'.visited ↔ j ∈ st.visited ∨ j ∈ E) ∧
        (∀ d ∈ ds, d ∈ L ++ E) ∧ ∀ j ∈ E, ∃ d ∈ ds, g.ReachIdx d j := by
  intro ds
  induction ds with
  | nil =>
    intro st L _ htr hgood
    refine ⟨st, [], rfl, by simpa using hgood, by simp, by simpa using htr.1, by simp, by simp,
      by simp⟩
  | cons d rest ihds =>
    intro st L hlt htr hgood
    have hd : d < idx := hlt d (List.mem_cons_self _ _)
    obtain ⟨st1, E1, hcall, hgood1, hle1, hout1, hvis1, hmem1, hreach1⟩ :=
      ih d st L (by omega) (by omega) (htr.mono (by omega)) hgood
    have htr1 : Tracks g (L ++ E1) st1 idx := by
      refine ⟨hout1, ?_, ?_⟩
      · intro j hj
        rcases List.mem_append.1 hj with hj | hj
        · exact (hvis1 j).2 (Or.inl (htr.2.1 j hj))
        · exact (hvis1 j).2 (Or.inr hj)
      · intro j hj hjlt
        rcases (hvis1 j).1 hj with hj | hj
        · exact List.mem_append_left _ (htr.2.2 j hj hjlt)
        · exact List.mem_append_right _ hj
    obtain ⟨st2, E2, hfold, hgood2, hlt2, hout2, hvis2, hmem2, hreach2⟩ :=
      ihds st1 (L ++ E1) (fun x hx => hlt x (List.mem_cons_of_mem _ hx)) htr1 hgood1
    refine ⟨st2, E1 ++ E2, ?_, ?_, ?_, ?_, ?_, ?_, ?_⟩
    · rw [List.foldlM_cons, hcall]
      exact hfold
    · rw [← List.append_assoc]; exact hgood2
    · intro j hj
      rcases List.mem_append.1 hj with hj | hj
      · have := hle1 j hj; omega
      · exact hlt2 j hj
    · rw [← List.append_assoc]; exact hout2
    · intro j
      rw [hvis2, hvis1, List.mem_append]
      tauto
    · intro x hx
      rw [← List.append_assoc]
      rcases List.mem_cons.1 hx with rfl | hx
      · exact List.mem_append_left _ hmem1
      · exact hmem2 x hx
    · intro j hj
      rcases List.mem_append.1 hj with hj | hj
      · exact ⟨d, List.mem_cons_self _ _, hreach1 j hj⟩
      · obtain ⟨x, hx, hr⟩ := hreach2 j hj
        exact ⟨x, List.mem_cons_of_mem _ hx, hr⟩

/-- The specification of `dfs` on a well-formed graph: with fuel above the index it
returns, having emitted the part `E` of the closure of `idx` that was not yet marked. -/
theorem dfs_spec {g : Graph} (wf : WellFormed g) :
    ∀ (fuel idx : Nat) (st : DfsState) (L : List Nat), idx < fuel → idx < g.nodes.length →
      Tracks g L st (idx + 1) → GoodOrder g L →
      ∃ st' E, dfs g fuel idx st = .ok st' ∧ GoodOrder g (L ++ E) ∧ (∀ j ∈ E, j ≤ idx) ∧
        st'.out = (L ++ E).map g.hashAt ∧ (∀ j, j ∈ st'.visited ↔ j ∈ st.visited ∨ j ∈ E) ∧
        idx ∈ L ++ E ∧ ∀ j ∈ E, g.ReachIdx idx j := by
  intro fuel
  induction fuel with
  | zero => intro idx st L h; omega
  | succ fuel ih =>
    intro idx st L hfuel hidx htr hgood
    by_cases hv : idx ∈ st.visited
    · refine ⟨st, [], by simp [dfs, hv], by simpa using hgood, by simp, by simpa using htr.1,
        by simp, ?_, by simp⟩
      simpa using htr.2.2 idx hv (by omega)
    · obtain ⟨n, hn⟩ : ∃ n, g.nodes[idx]? = some n :=
        ⟨g.nodes[idx], List.getElem?_eq_getElem hidx⟩
      have hdepidx : g.depIdxAt idx = n.depIdx := by simp [depIdxAt, hn]
      have hhash : g.hashAt idx = n.hash := by simp [hashAt, hn]
      have htr0 : Tracks g L { st with visited := idx :: st.visited } idx := by
        refine ⟨htr.1, ?_, ?_⟩
        · intro j hj
          exact List.mem_cons_of_mem _ (htr.2.1 j hj)
        · intro j hj hjlt
          rcases List.mem_cons.1 hj with rfl | hj
          · omega
          · exact htr.2.2 j hj (by omega)
      obtain ⟨st2, E, hfold, hgood2, hlt2, hout2, hvis2, hmem2, hreach2⟩ :=
        dfs_loop fuel idx ih (by omega) (by omega) n.depIdx _ L
          (fun d hd => wf.depIdxAt_lt idx d (by rw [hdepidx]; exact hd)) htr0 hgood
      have hnotL : idx ∉ L ++ E := by
        intro hmem
        rcases List.mem_append.1 hmem with h | h
        · exact hv (htr.2.1 idx h)
        · have := hlt2 idx h; omega
      refine ⟨{ st2 with out := st2.out ++ [n.hash] }, E ++ [idx], ?_, ?_, ?_, ?_, ?_, ?_, ?_⟩
      · simp only [dfs, hv, if_false, hn, hfold]
      · rw [← List.append_assoc]
        exact hgood2.snoc (fun d hd => hmem2 d (by rw [← hdepidx]; exact hd)) hnotL hidx
      · intro j hj
        rcases List.mem_append.1 hj with hj | hj
        · have := hlt2 j hj; omega
        · rw [List.mem_singleton] at hj; omega
      · simp only [hout2, List.map_append, List.map_cons, List.map_nil, hhash,
          List.append_assoc]
      · intro j
        simp only [hvis2, List.mem_cons, List.mem_append, List.mem_singleton]
        tauto
      · simp
      · intro j hj
        rcases List.mem_append.1 hj with hj | hj
        · obtain ⟨d, hd, hr⟩ := hreach2 j hj
          exact Relation.ReflTransGen.head (by rw [hdepidx]; exact hd) hr
        · rw [List.mem_singleton] at hj; subst hj
          exact Relation.ReflTransGen.refl

end changegraph

namespace changegraph

open model Graph

theorem WellFormed.get?_iff_hashAt {g : Graph} (wf : WellFormed g) (h : ChangeHash) (i : Nat) :
    GoMap.get? g.byHash h = some i ↔ i < g.nodes.length ∧ g.hashAt i = h := by
  rw [wf.byHash_iff]
  constructor
  · rintro ⟨n, hn, hh⟩
    exact ⟨(List.getElem?_eq_some.1 hn).1, by simp [hashAt, hn, hh]⟩
  · rintro ⟨hi, hh⟩
    refine ⟨g.nodes[i], List.getElem?_eq_getElem hi, ?_⟩
    simpa [hashAt, List.getElem?_eq_getElem hi] using hh

theorem WellFormed.hashAt_inj {g : Graph} (wf : WellFormed g) (i j : Nat)
    (hi : i < g.nodes.length) (hj : j < g.nodes.length) (h : g.hashAt i = g.hashAt j) :
    i = j := by
  have h1 := (wf.get?_iff_hashAt (g.hashAt i) i).2 ⟨hi, rfl⟩
  have h2 := (wf.get?_iff_hashAt (g.hashAt i) j).2 ⟨hj, h.symm⟩
  rw [h1] at h2
  injection h2

theorem forall₂_hashAt {g : Graph} {i : Nat} :
    ∀ (ds : List Nat) (hs : List ChangeHash),
      List.Forall₂ (fun d h => d < i ∧ ∃ nd : node, g.nodes[d]? = some nd ∧ nd.hash = h) ds hs →
      hs = ds.map g.hashAt := by
  intro ds hs hf
  induction hf with
  | nil => rfl
  | cons hab _ ih =>
    obtain ⟨-, nd, hnd, hh⟩ := hab
    simp [hashAt, hnd, hh, ih]

theorem WellFormed.depHash_eq {g : Graph} (wf : WellFormed g) (j : Nat) (n : node)
    (hn : g.nodes[j]? = some n) : n.depHash = (g.depIdxAt j).map g.hashAt := by
  have := forall₂_hashAt _ _ (wf.deps j n hn)
  simpa [depIdxAt, hn] using this

theorem WellFormed.depsForHash_hashAt {g : Graph} (wf : WellFormed g) (j : Nat)
    (hj : j < g.nodes.length) :
    g.DepsForHash (g.hashAt j) = .ok (some ((g.depIdxAt j).map g.hashAt)) := by
  have hn : g.nodes[j]? = some g.nodes[j] := List.getElem?_eq_getElem hj
  rw [wf.depsForHash]
  exact ⟨g.nodes[j], List.getElem_mem _, by simp [hashAt, hn], wf.depHash_eq j _ hn⟩

theorem WellFormed.depStep_hashAt {g : Graph} (wf : WellFormed g) (j : Nat)
    (hj : j < g.nodes.length) (b : ChangeHash) :
    g.DepStep (g.hashAt j) b ↔ ∃ d ∈ g.depIdxAt j, g.hashAt d = b := by
  unfold DepStep
  rw [wf.depsForHash_hashAt j hj]
  constructor
  · rintro ⟨deps, hd, hb⟩
    injection hd with hd
    injection hd with hd
    subst hd
    simpa using hb
  · rintro ⟨d, hd, hb⟩
    exact ⟨_, rfl, by simpa using ⟨d, hd, hb⟩⟩

theorem WellFormed.reaches_of_reachIdx {g : Graph} (wf : WellFormed g) (i j : Nat)
    (hi : i < g.nodes.length) (h : g.ReachIdx i j) :
    j < g.nodes.length ∧ g.Reaches (g.hashAt i) (g.hashAt j) := by
  induction h with
  | refl => exact ⟨hi, Relation.ReflTransGen.refl⟩
  | tail _ hstep ih =>
    obtain ⟨hlt, hr⟩ := ih
    have := wf.depIdxAt_lt _ _ hstep
    exact ⟨by omega, hr.tail ((wf.depStep_hashAt _ hlt _).2 ⟨_, hstep, rfl⟩)⟩

/-- From an order on indexes to the order on hashes. -/
theorem WellFormed.lift_order {g : Graph} (wf : WellFormed g) (E : List Nat)
    (hgood : g.GoodOrder E) :
    (E.map g.hashAt).Nodup ∧
    (∀ h, h ∈ E.map g.hashAt → ∀ b, g.DepStep h b → b ∈ E.map g.hashAt) ∧
    (∀ a h b, E.map g.hashAt = a ++ h :: b → ∀ deps, g.DepsForHash h = .ok (some deps) →
      ∀ d ∈ deps, d ∈ a) := by
  obtain ⟨h1, h2, h3⟩ := hgood
  refine ⟨?_, ?_, ?_⟩
  · refine (List.nodup_map_iff_inj_on h2).2 ?_
    intro x hx y hy hxy
    exact wf.hashAt_inj x y (h3 x hx) (h3 y hy) hxy
  · intro h hh b hstep
    obtain ⟨j, hj, rfl⟩ := List.mem_map.1 hh
    obtain ⟨d, hd, rfl⟩ := (wf.depStep_hashAt j (h3 j hj) b).1 hstep
    exact List.mem_map.2 ⟨d, Graph.GoodOrder.closed ⟨h1, h2, h3⟩ j hj d hd, rfl⟩
  · intro a h b hsplit deps hdeps d hd
    obtain ⟨Ea, Eb', hE, ha, hb'⟩ := List.map_eq_append_iff.1 hsplit
    obtain ⟨j, Eb, hEb, hj, -⟩ := List.map_eq_cons_iff.1 hb'
    subst hEb
    have hjE : j ∈ E := by rw [hE]; simp
    have hstep : g.DepStep (g.hashAt j) d := ⟨deps, by rw [hj]; exact hdeps, hd⟩
    obtain ⟨x, hx, rfl⟩ := (wf.depStep_hashAt j (h3 j hjE) d).1 hstep
    rw [← ha]
    exact List.mem_map.2 ⟨x, h1 Ea j Eb hE x hx, rfl⟩

theorem dfsHeads_spec {g : Graph} (wf : WellFormed g) (fuel : Nat)
    (hfuel : g.nodes.length ≤ fuel) :
    ∀ (hs : List ChangeHash) (st : DfsState) (L : List Nat),
      (∀ h ∈ hs, g.HasChange h = true) → Tracks g L st g.nodes.length → GoodOrder g L →
      ∃ st' E, dfsHeads g fuel hs st = .ok st' ∧ GoodOrder g (L ++ E) ∧
        st'.out = (L ++ E).map g.hashAt ∧
        (∀ h ∈ hs, h ∈ (L ++ E).map g.hashAt) ∧
        ∀ j ∈ E, ∃ h ∈ hs, g.Reaches h (g.hashAt j) := by
  intro hs
  induction hs with
  | nil =>
    intro st L _ htr hgood
    exact ⟨st, [], rfl, by simpa using hgood, by simpa using htr.1, by simp, by simp⟩
  | cons h rest ih =>
    intro st L hknown htr hgood
    obtain ⟨idx, hidx⟩ := (hasChange_iff g h).1 (hknown h (List.mem_cons_self _ _))
    obtain ⟨hlt, hhash⟩ := (wf.get?_iff_hashAt h idx).1 hidx
    obtain ⟨st1, E1, hcall, hgood1, -, hout1, hvis1, hmem1, hreach1⟩ :=
      dfs_spec wf fuel idx st L (by omega) hlt (htr.mono (by omega)) hgood
    have htr1 : Tracks g (L ++ E1) st1 g.nodes.length := by
      refine ⟨hout1, ?_, ?_⟩
      · intro j hj
        rcases List.mem_append.1 hj with hj | hj
        · exact (hvis1 j).2 (Or.inl (htr.2.1 j hj))
        · exact (hvis1 j).2 (Or.inr hj)
      · intro j hj hjlt
        rcases (hvis1 j).1 hj with hj | hj
        · exact List.mem_append_left _ (htr.2.2 j hj hjlt)
        · exact List.mem_append_right _ hj
    obtain ⟨st2, E2, hrest, hgood2, hout2, hmem2, hreach2⟩ :=
      ih st1 (L ++ E1) (fun x hx => hknown x (List.mem_cons_of_mem _ hx)) htr1 hgood1
    refine ⟨st2, E1 ++ E2, ?_, ?_, ?_, ?_, ?_⟩
    · simp only [dfsHeads, hidx, hcall]
      exact hrest
    · rw [← List.append_assoc]; exact hgood2
    · rw [← List.append_assoc]; exact hout2
    · intro x hx
      rw [← List.append_assoc]
      rcases List.mem_cons.1 hx with rfl | hx
      · rw [List.map_append]
        exact List.mem_append_left _ (List.mem_map.2 ⟨idx, hmem1, hhash⟩)
      · exact hmem2 x hx
    · intro j hj
      rcases List.mem_append.1 hj with hj | hj
      · refine ⟨h, List.mem_cons_self _ _, ?_⟩
        rw [← hhash]
        exact (wf.reaches_of_reachIdx idx j hlt (hreach1 j hj)).2
      · obtain ⟨x, hx, hr⟩ := hreach2 j hj
        exact ⟨x, List.mem_cons_of_mem _ hx, hr⟩

theorem WellFormed.goodOrder_range {g : Graph} (wf : WellFormed g) :
    g.GoodOrder (List.range g.nodes.length) := by
  refine ⟨?_, List.nodup_range _, fun j hj => List.mem_range.1 hj⟩
  intro a j b hsplit d hd
  have hlt := wf.depIdxAt_lt j d hd
  have hpw : (a ++ j :: b).Pairwise (fun x y => x < y) := by
    rw [← hsplit]; exact List.pairwise_lt_range _
  have hja : ∀ x ∈ a, x < j := by
    intro x hx
    exact (List.pairwise_append.1 hpw).2.2 x hx j (List.mem_cons_self _ _)
  have hjb : ∀ x ∈ b, j < x := by
    intro x hx
    exact List.rel_of_pairwise_cons (List.pairwise_append.1 hpw).2.1 hx
  have hjr : j ∈ List.range g.nodes.length := by rw [hsplit]; simp
  have hd' : d ∈ a ++ j :: b := by
    rw [← hsplit]; exact List.mem_range.2 (by have := List.mem_range.1 hjr; omega)
  rcases List.mem_append.1 hd' with h | h
  · exact h
  · rcases List.mem_cons.1 h with h | h
    · omega
    · have := hjb d h; omega

theorem nodes_map_hash (g : Graph) :
    g.nodes.map node.hash = (List.range g.nodes.length).map g.hashAt := by
  apply List.ext_getElem?
  intro i
  by_cases hi : i < g.nodes.length
  · simp [hashAt, List.getElem?_eq_getElem hi, List.getElem?_range hi, hi]
  · have h1 : g.nodes[i]? = none := List.getElem?_eq_none (Nat.le_of_not_lt hi)
    have h2 : (List.range g.nodes.length)[i]? = none :=
      List.getElem?_eq_none (by simpa using Nat.le_of_not_lt hi)
    simp [h1, h2]

end changegraph

namespace changegraph

open model Graph

theorem Built.addChanges {g : Graph} (hb : Built g) (ms : List ChangeMeta) :
    Built (g.addChanges ms) := by
  induction ms generalizing g with
  | nil => exact hb
  | cons m rest ih =>
    unfold Graph.addChanges
    cases h : g.AddChange m with
    | error e => exact ih hb
    | ok g' => exact ih (Built.add g g' m hb h)

theorem exampleGraph_built : Built exampleGraph :=
  Built.new.addChanges exampleMetas

theorem exampleGraph_eq : exampleGraph =
    { nodes := [ { hash := 20, depIdx := [], depHash := [], actor := 1, seq := 1, maxOp := 1 },
                 { hash := 10, depIdx := [0], depHash := [20], actor := 2, seq := 1, maxOp := 2 },
                 { hash := 30, depIdx := [0], depHash := [20], actor := 1, seq := 2, maxOp := 3 } ]
      byHash := [(20, 0), (10, 1), (30, 2)]
      headSet := [(10, ()), (30, ())]
      byActor := [(2, [1]), (1, [0, 2])]
      maxOp := 3 } := by
  decide

theorem GetHashesFromHeads_perm (g : Graph) (heads heads' : List ChangeHash)
    (hp : heads.Perm heads') : g.GetHashesFromHeads heads = g.GetHashesFromHeads heads' := by
  unfold GetHashesFromHeads
  rw [hp.length_eq, SortChangeHashes_perm _ _ hp]

/-- C10: on a graph built by `AddChange` calls and heads that are all in the graph,
`GetHashesFromHeads` returns a list that holds exactly the hashes reachable from the
heads through dependencies (every hash of the graph when no head is given), each
once, with every dependency before the change that depends on it; a permutation of
the heads gives the same list. -/
theorem GetHashesFromHeads_closure (g : Graph) (hb : Built g) (heads : List ChangeHash)
    (hk : ∀ h ∈ heads, g.HasChange h = true) :
    ∃ out, g.GetHashesFromHeads heads = .ok out ∧
      (∀ h, h ∈ out ↔
        (heads = [] ∧ g.HasChange h = true) ∨ ∃ hd ∈ heads, g.Reaches hd h) ∧
      out.Nodup ∧
      (∀ a h b, out = a ++ h :: b → ∀ deps, g.DepsForHash h = .ok (some deps) →
        ∀ d ∈ deps, d ∈ a) ∧
      (∀ heads', heads.Perm heads' → g.GetHashesFromHeads heads' = .ok out) := by
  have wf := hb.wellFormed
  rcases heads with _ | ⟨h0, hrest⟩
  · obtain ⟨hnd, -, hord⟩ := wf.lift_order _ wf.goodOrder_range
    refine ⟨g.nodes.map node.hash, by simp [GetHashesFromHeads], ?_, ?_, ?_, ?_⟩
    · intro h
      rw [nodes_map_hash, hasChange_iff]
      simp only [List.mem_map, List.mem_range, true_and, List.not_mem_nil, false_and,
        exists_false, or_false]
      constructor
      · rintro ⟨i, hi, hh⟩
        exact ⟨i, (wf.get?_iff_hashAt h i).2 ⟨hi, hh⟩⟩
      · rintro ⟨i, hi⟩
        exact ⟨i, (wf.get?_iff_hashAt h i).1 hi⟩
    · rw [nodes_map_hash]; exact hnd
    · rw [nodes_map_hash]; exact hord
    · intro heads' hp
      rw [← GetHashesFromHeads_perm g _ _ hp]
      simp [GetHashesFromHeads]
  · have hknown : ∀ h ∈ SortChangeHashes (h0 :: hrest), g.HasChange h = true :=
      fun h hh => hk h ((mem_SortChangeHashes _ _).1 hh)
    have hinit : Tracks g [] { visited := [], out := [] } g.nodes.length :=
      ⟨rfl, by simp, by simp⟩
    have hgood0 : GoodOrder g [] := ⟨by simp, List.nodup_nil, by simp⟩
    obtain ⟨st, E, hrun, hgood, hout, hmem, hreach⟩ :=
      dfsHeads_spec wf (g.nodes.length + 1) (by omega) _ _ [] hknown hinit hgood0
    simp only [List.nil_append] at hgood hout hmem
    obtain ⟨hnd, hclosed, hord⟩ := wf.lift_order E hgood
    have hany : (SortChangeHashes (h0 :: hrest)).any (fun h => !g.HasChange h) = false := by
      rw [List.any_eq_false]
      intro x hx
      simp [hknown x hx]
    have hres : g.GetHashesFromHeads (h0 :: hrest) = .ok st.out := by
      simp only [GetHashesFromHeads, List.length_cons, Nat.add_one_ne_zero, if_false, hany,
        hrun, Bool.false_eq_true]
    refine ⟨st.out, hres, ?_, ?_, ?_, ?_⟩
    · intro h
      rw [hout]
      constructor
      · intro hh
        obtain ⟨j, hj, rfl⟩ := List.mem_map.1 hh
        obtain ⟨hd, hhd, hr⟩ := hreach j hj
        exact Or.inr ⟨hd, (mem_SortChangeHashes _ _).1 hhd, hr⟩
      · rintro (⟨hnil, -⟩ | ⟨hd, hhd, hr⟩)
        · cases hnil
        · have hstart := hmem hd ((mem_SortChangeHashes _ _).2 hhd)
          induction hr with
          | refl => exact hstart
          | tail _ hstep ih => exact hclosed _ ih _ hstep
    · rw [hout]; exact hnd
    · rw [hout]; exact hord
    · intro heads' hp
      rw [← GetHashesFromHeads_perm g _ _ hp]
      exact hres

/-- Witness for C10 on the example graph with the heads `[30, 10]`. -/
theorem GetHashesFromHeads_closure_witness :
    ∃ out, exampleGraph.GetHashesFromHeads [30, 10] = .ok out ∧
      (∀ h, h ∈ out ↔
        (([30, 10] : List ChangeHash) = [] ∧ exampleGraph.HasChange h = true) ∨
          ∃ hd ∈ ([30, 10] : List ChangeHash), exampleGraph.Reaches hd h) ∧
      out.Nodup ∧
      (∀ a h b, out = a ++ h :: b → ∀ deps, exampleGraph.DepsForHash h = .ok (some deps) →
        ∀ d ∈ deps, d ∈ a) ∧
      (∀ heads', ([30, 10] : List ChangeHash).Perm heads' →
        exampleGraph.GetHashesFromHeads heads' = .ok out) :=
  GetHashesFromHeads_closure exampleGraph exampleGraph_built [30, 10] (by decide)

/-- Witness for C8 on the example graph. -/
theorem Heads_identity_witness :
    List.Sorted (fun a b => a < b) exampleGraph.Heads ∧
    (∀ h, h ∈ exampleGraph.Heads ↔
      (exampleGraph.HasChange h = true ∧
        ∀ h' deps, exampleGraph.DepsForHash h' = .ok (some deps) → h ∉ deps)) ∧
    (∀ m g', exampleGraph.AddChange m = .ok g' →
      m.Hash ∈ g'.Heads ∧ ∀ d ∈ m.Deps, d ∉ g'.Heads) :=
  Heads_identity exampleGraph exampleGraph_built

end changegraph

namespace changegraph

open model Graph

theorem map_eq_filterMap_some {α β : Type} (f : α → Option β) (l : List α)
    (h : ∀ x ∈ l, ∃ y, f x = some y) : l.map f = (l.filterMap f).map some := by
  induction l with
  | nil => rfl
  | cons x rest ih =>
    obtain ⟨y, hy⟩ := h x (List.mem_cons_self _ _)
    have := ih (fun z hz => h z (List.mem_cons_of_mem _ hz))
    simp [List.filterMap_cons, hy, this]

theorem intOfUint64_small (x : Nat) (h : x < 2 ^ 63) : intOfUint64 x = (x : Int) := by
  unfold intOfUint64
  have : x % 2 ^ 64 = x := Nat.mod_eq_of_lt (by omega)
  rw [this, if_pos h]

theorem intOfUint64_large (x : Nat) (h1 : 2 ^ 63 ≤ x) (h2 : x < 2 ^ 64) :
    intOfUint64 x = (x : Int) - 2 ^ 64 := by
  unfold intOfUint64
  have : x % 2 ^ 64 = x := Nat.mod_eq_of_lt h2
  rw [this, if_neg (by omega)]

/-- Actor density: the changes of an actor carry the sequence numbers
`1 .. SeqForActor`, and `HashForActorSeq` finds each of them; for a sequence number
below `2^63` outside that range it reports not-found. -/
theorem actor_density (g : Graph) (hb : Built g) (a : Nat) :
    (g.nodes.filter (fun n => decide (n.actor = a))).map node.seq =
      List.range' 1 (g.SeqForActor a) ∧
    (∀ s, 1 ≤ s → s ≤ g.SeqForActor a → s < 2 ^ 63 →
      ∃ n ∈ g.nodes, n.actor = a ∧ n.seq = s ∧ g.HashForActorSeq a s = .ok (some n.hash)) ∧
    (∀ s, s < 2 ^ 63 → (s = 0 ∨ g.SeqForActor a < s) → g.HashForActorSeq a s = .ok none) := by
  have wf := hb.wellFormed
  refine ⟨wf.actor_seq a, ?_, ?_⟩
  · intro s h1 h2 h3
    have hlen : s - 1 < (g.actorIndexes a).length := by
      unfold SeqForActor at h2; omega
    have hidx : (g.actorIndexes a)[s - 1]? = some (g.actorIndexes a)[s - 1] :=
      List.getElem?_eq_getElem hlen
    have hilt : (g.actorIndexes a)[s - 1] < g.nodes.length :=
      wf.actor_lt a _ (List.getElem_mem _)
    have hnode : g.nodes[(g.actorIndexes a)[s - 1]]? = some g.nodes[(g.actorIndexes a)[s - 1]] :=
      List.getElem?_eq_getElem hilt
    have hmap := map_eq_filterMap_some (fun i => g.nodes[i]?) (g.actorIndexes a)
      (fun i hi => by
        have hlt := wf.actor_lt a i hi
        exact ⟨g.nodes[i], List.getElem?_eq_getElem hlt⟩)
    rw [wf.actor_nodes a] at hmap
    have hk := congrArg (fun l => l[s - 1]?) hmap
    simp only [List.getElem?_map, hidx, Option.map_some', hnode] at hk
    have hfl : (g.nodes.filter (fun n => decide (n.actor = a)))[s - 1]? =
        some g.nodes[(g.actorIndexes a)[s - 1]] := by
      cases hx : (g.nodes.filter (fun n => decide (n.actor = a)))[s - 1]? with
      | none => rw [hx] at hk; cases hk
      | some y => rw [hx] at hk; simp at hk; rw [hk]
    have hmem := List.mem_iff_getElem?.2 ⟨_, hfl⟩
    have hact : g.nodes[(g.actorIndexes a)[s - 1]].actor = a := by
      simpa using (List.mem_filter.1 hmem).2
    have hseq := congrArg (fun l => l[s - 1]?) (wf.actor_seq a)
    simp only [List.getElem?_map, hfl, Option.map_some'] at hseq
    have hr : (List.range' 1 (g.SeqForActor a))[s - 1]? = some (1 + (s - 1)) := by
      have hlt : s - 1 < g.SeqForActor a := hlen
      simp [List.getElem?_range', hlt]
    rw [hr] at hseq
    refine ⟨_, List.getElem_mem hilt, hact, ?_, ?_⟩
    · injection hseq with hseq; omega
    · unfold HashForActorSeq
      have hs0 : s ≠ 0 := by omega
      have hguard : ¬ intOfUint64 s > ((g.actorIndexes a).length : Int) := by
        rw [intOfUint64_small s h3]
        unfold SeqForActor at h2
        omega
      simp only [hs0, if_false, hguard, hidx, hnode]
  · intro s h3 hs
    unfold HashForActorSeq
    rcases hs with rfl | hs
    · simp
    · have hs0 : s ≠ 0 := by omega
      have hguard : intOfUint64 s > ((g.actorIndexes a).length : Int) := by
        rw [intOfUint64_small s h3]
        unfold SeqForActor at hs
        omega
      simp only [hs0, if_false, hguard, if_true]

/-- For a sequence number of `2^63` or more, `int(seq)` is negative, the guard of
`HashForActorSeq` lets it through and the index expression panics. -/
theorem HashForActorSeq_large (g : Graph) (a s : Nat) (hlen : g.nodes.length < 2 ^ 63)
    (hwf : WellFormed g) (h1 : 2 ^ 63 ≤ s) (h2 : s < 2 ^ 64) :
    g.HashForActorSeq a s = .error .panicIndexOutOfRange := by
  have hN : (g.actorIndexes a).length ≤ g.nodes.length := by
    have h := congrArg List.length (hwf.actor_nodes a)
    have hmap := map_eq_filterMap_some (fun i => g.nodes[i]?) (g.actorIndexes a)
      (fun i hi => by
        have hlt := hwf.actor_lt a i hi
        exact ⟨g.nodes[i], List.getElem?_eq_getElem hlt⟩)
    have h' := congrArg List.length hmap
    simp only [List.length_map] at h'
    rw [h', h]
    exact List.length_filter_le _ _
  unfold HashForActorSeq
  have hs0 : s ≠ 0 := by omega
  have hguard : ¬ intOfUint64 s > ((g.actorIndexes a).length : Int) := by
    rw [intOfUint64_large s h1 h2]
    omega
  have hnone : (g.actorIndexes a)[s - 1]? = none := List.getElem?_eq_none (by omega)
  simp only [hs0, if_false, hguard, hnone]

/-- C9 (failing input): on the example graph, where actor 1 has the sequence numbers
1 and 2, `HashForActorSeq(1, 1<<63)` panics with an index out of range instead of
reporting not-found. -/
theorem HashForActorSeq_panics :
    exampleGraph.SeqForActor 1 = 2 ∧
    exampleGraph.HashForActorSeq 1 (2 ^ 63) = .error .panicIndexOutOfRange := by
  rw [exampleGraph_eq]
  exact ⟨rfl, rfl⟩

end changegraph


/-! ## Concurrent puts through the apply engine -/

namespace automerge

open model changegraph

/-- The first local commits of the two actors produce the changes `firstPut`: one
put with the operation id `1@actor`, sequence number 1 and no dependency. -/
theorem commitPut_change :
    (commitPut exampleHasherAsc (documentOfActor 1) "k" "A").change =
      some (firstPut 101 1 "k" "A") ∧
    (commitPut exampleHasherAsc (documentOfActor 2) "k" "B").change =
      some (firstPut 201 2 "k" "B") :=
  ⟨rfl, rfl⟩

/-- C3 (failing input): actor 1 puts `k = "A"` with OpID `1@1` and actor 2 puts
`k = "B"` with OpID `1@2`, both as their first change. A document that applies both
changes keeps one value only, the one of the change applied last: with the hash of
change A below the hash of change B that is `"B"`, with the hashes the other way
round it is `"A"`, and after a merge it is the value of the merged-in change. -/
theorem concurrent_puts_keep_one_value :
    ((NewDocument.ApplyChanges [firstPut 5 1 "k" "A", firstPut 9 2 "k" "B"]).err = none ∧
      stringOf ((NewDocument.ApplyChanges
        [firstPut 5 1 "k" "A", firstPut 9 2 "k" "B"]).doc.GetMap RootObjID "k" none) = some "B" ∧
      stringsOf ((NewDocument.ApplyChanges
        [firstPut 5 1 "k" "A", firstPut 9 2 "k" "B"]).doc.GetAllMap RootObjID "k" none) = ["B"]) ∧
    ((NewDocument.ApplyChanges [firstPut 9 1 "k" "A", firstPut 5 2 "k" "B"]).err = none ∧
      stringOf ((NewDocument.ApplyChanges
        [firstPut 9 1 "k" "A", firstPut 5 2 "k" "B"]).doc.GetMap RootObjID "k" none) = some "A" ∧
      stringsOf ((NewDocument.ApplyChanges
        [firstPut 9 1 "k" "A", firstPut 5 2 "k" "B"]).doc.GetAllMap RootObjID "k" none) = ["A"]) ∧
    (((NewDocument.ApplyChanges [firstPut 5 1 "k" "A"]).doc.Merge
        (NewDocument.ApplyChanges [firstPut 9 2 "k" "B"]).doc).err = none ∧
      stringsOf (((NewDocument.ApplyChanges [firstPut 5 1 "k" "A"]).doc.Merge
        (NewDocument.ApplyChanges [firstPut 9 2 "k" "B"]).doc).doc.GetAllMap
          RootObjID "k" none) = ["B"]) ∧
    stringsOf (((NewDocument.ApplyChanges [firstPut 9 2 "k" "B"]).doc.Merge
        (NewDocument.ApplyChanges [firstPut 5 1 "k" "A"]).doc).doc.GetAllMap
          RootObjID "k" none) = ["A"] := by
  refine ⟨⟨rfl, rfl, rfl⟩, ⟨rfl, rfl, rfl⟩, ⟨rfl, rfl⟩, rfl⟩

/-- C1 (failing input): replicas A and B share a first change; then A commits
`k = "A"` as actor 1 and B commits `k = "B"` as actor 2. After `A.Merge(B)` and
`B.Merge(A)` both have the same heads, but A reads `"B"` at `k` and B reads `"A"`,
whichever of the two changes has the smaller hash. -/
theorem merge_does_not_converge :
    (((replicaA exampleHasherAsc).Merge (replicaB exampleHasherAsc)).err = none ∧
      ((replicaB exampleHasherAsc).Merge (replicaA exampleHasherAsc)).err = none ∧
      ((replicaA exampleHasherAsc).Merge (replicaB exampleHasherAsc)).doc.Heads =
        ((replicaB exampleHasherAsc).Merge (replicaA exampleHasherAsc)).doc.Heads ∧
      stringOf (((replicaA exampleHasherAsc).Merge (replicaB exampleHasherAsc)).doc.GetMap
        RootObjID "k" none) = some "B" ∧
      stringOf (((replicaB exampleHasherAsc).Merge (replicaA exampleHasherAsc)).doc.GetMap
        RootObjID "k" none) = some "A") ∧
    (((replicaA exampleHasherDesc).Merge (replicaB exampleHasherDesc)).err = none ∧
      ((replicaB exampleHasherDesc).Merge (replicaA exampleHasherDesc)).err = none ∧
      ((replicaA exampleHasherDesc).Merge (replicaB exampleHasherDesc)).doc.Heads =
        ((replicaB exampleHasherDesc).Merge (replicaA exampleHasherDesc)).doc.Heads ∧
      stringOf (((replicaA exampleHasherDesc).Merge (replicaB exampleHasherDesc)).doc.GetMap
        RootObjID "k" none) = some "B" ∧
      stringOf (((replicaB exampleHasherDesc).Merge (replicaA exampleHasherDesc)).doc.GetMap
        RootObjID "k" none) = some "A") := by
  refine ⟨⟨rfl, rfl, rfl, rfl, rfl⟩, ⟨rfl, rfl, rfl, rfl, rfl⟩⟩

end automerge

/-! ## Duplicate sequence numbers -/

namespace changegraph

open model Graph

/-- In a well-formed graph `HashForActorSeq` returns the hash of the node itself for
the actor and sequence number of every node (below `2^63`). -/
theorem WellFormed.hashForActorSeq_node {g : Graph} (wf : WellFormed g) (n : node)
    (hn : n ∈ g.nodes) (hlen : g.nodes.length < 2 ^ 63) :
    g.HashForActorSeq n.actor n.seq = .ok (some n.hash) := by
  have hmemf : n ∈ g.nodes.filter (fun x => decide (x.actor = n.actor)) :=
    List.mem_filter.2 ⟨hn, by simp⟩
  obtain ⟨k, hk⟩ := List.mem_iff_getElem?.1 hmemf
  have hseq := congrArg (fun l => l[k]?) (wf.actor_seq n.actor)
  simp only [List.getElem?_map, hk, Option.map_some'] at hseq
  have hklt : k < g.SeqForActor n.actor := by
    by_contra hcon
    rw [List.getElem?_eq_none (by simpa using Nat.le_of_not_lt hcon)] at hseq
    cases hseq
  rw [List.getElem?_range' 1 1 hklt] at hseq
  injection hseq with hseq
  have hsk : n.seq - 1 = k := by omega
  -- the index list and the filtered nodes agree position by position
  have hmap := map_eq_filterMap_some (fun i => g.nodes[i]?) (g.actorIndexes n.actor)
    (fun i hi => by
      have hlt := wf.actor_lt n.actor i hi
      exact ⟨g.nodes[i], List.getElem?_eq_getElem hlt⟩)
  rw [wf.actor_nodes n.actor] at hmap
  have hkk := congrArg (fun l => l[k]?) hmap
  simp only [List.getElem?_map, hk, Option.map_some'] at hkk
  have hklt' : k < (g.actorIndexes n.actor).length := hklt
  have hidx : (g.actorIndexes n.actor)[k]? = some (g.actorIndexes n.actor)[k] :=
    List.getElem?_eq_getElem hklt'
  rw [hidx] at hkk
  simp only [Option.map_some', Option.some.injEq] at hkk
  have hNle : (g.actorIndexes n.actor).length ≤ g.nodes.length := by
    have h := congrArg List.length hmap
    simp only [List.length_map] at h
    rw [h]
    exact List.length_filter_le _ _
  unfold HashForActorSeq
  have hs0 : n.seq ≠ 0 := by omega
  have hguard : ¬ intOfUint64 n.seq > ((g.actorIndexes n.actor).length : Int) := by
    rw [intOfUint64_small n.seq (by omega)]
    omega
  simp only [hs0, if_false, hguard, hsk, hidx, hkk]

end changegraph

namespace automerge

open model changegraph

/-- The graph of a document built by applying one first change to the new document. -/
theorem built_after_first_put :
    Built (NewDocument.ApplyChanges [firstPut 5 1 "k" "A"]).doc.graph :=
  Built.new.addChanges [{ Hash := 5, Deps := [], Actor := 1, Seq := 1, MaxOp := 1 }]

/-- C6 (amended): when the graph of a document, built by `AddChange` calls, holds a
change `n`, applying one change with the actor and sequence number of `n` and a
hash that differs from the hash of `n` and is not in the graph returns
`ErrDuplicateSeqNumber` and leaves the document as it was, so that the hash is still
not in the graph. -/
theorem ApplyChanges_duplicate_seq (d : Document) (hb : Built d.graph)
    (hlen : d.graph.nodes.length < 2 ^ 63) (n : node) (hn : n ∈ d.graph.nodes)
    (c : Change) (ha : c.Actor = n.actor) (hs : c.Seq = n.seq) (hh : c.Hash ≠ n.hash)
    (hnew : d.hasChange c.Hash = false) :
    d.ApplyChanges [c] = { doc := d, err := some .ErrDuplicateSeqNumber } ∧
    (d.ApplyChanges [c]).doc.hasChange c.Hash = false := by
  have hlook := hb.wellFormed.hashForActorSeq_node n hn hlen
  have hne : ¬ n.hash = c.Hash := fun e => hh e.symm
  have hrun : d.ApplyChanges [c] = { doc := d, err := some .ErrDuplicateSeqNumber } := by
    simp only [Document.ApplyChanges, Document.ApplyChangesWithActorMap, intakeLoop,
      remapChangeActors, hnew, ha, hs, hlook, ne_eq, hne, not_false_eq_true, if_true,
      Bool.false_eq_true, if_false]
  exact ⟨hrun, by rw [hrun]; exact hnew⟩

/-- Witness for C6: the document holds the first change of actor 1 with the hash 5;
another first change of actor 1 with the hash 7 is refused. -/
theorem ApplyChanges_duplicate_seq_witness :
    (NewDocument.ApplyChanges [firstPut 5 1 "k" "A"]).doc.ApplyChanges [firstPut 7 1 "k" "Z"] =
      { doc := (NewDocument.ApplyChanges [firstPut 5 1 "k" "A"]).doc,
        err := some .ErrDuplicateSeqNumber } ∧
    ((NewDocument.ApplyChanges [firstPut 5 1 "k" "A"]).doc.ApplyChanges
      [firstPut 7 1 "k" "Z"]).doc.hasChange (firstPut 7 1 "k" "Z").Hash = false :=
  ApplyChanges_duplicate_seq (NewDocument.ApplyChanges [firstPut 5 1 "k" "A"]).doc
    built_after_first_put (by decide)
    { hash := 5, depIdx := [], depHash := [], actor := 1, seq := 1, maxOp := 1 }
    (List.mem_singleton.2 rfl) (firstPut 7 1 "k" "Z") rfl rfl (by decide) rfl

/-- C6 (counterexample): the graph holds the first change of actor 1 with the hash 5
and the first change of actor 2 with the hash 9. A change with the actor and
sequence number of the former and the hash 9 is dropped as already present:
`ApplyChanges` returns no error. -/
theorem ApplyChanges_duplicate_seq_known_hash :
    (∃ n ∈ (NewDocument.ApplyChanges
          [firstPut 5 1 "k" "A", firstPut 9 2 "k" "B"]).doc.graph.nodes,
        n.actor = (firstPut 9 1 "k" "Z").Actor ∧ n.seq = (firstPut 9 1 "k" "Z").Seq ∧
        n.hash ≠ (firstPut 9 1 "k" "Z").Hash) ∧
    ((NewDocument.ApplyChanges [firstPut 5 1 "k" "A", firstPut 9 2 "k" "B"]).doc.ApplyChanges
      [firstPut 9 1 "k" "Z"]).err = none :=
  ⟨⟨{ hash := 5, depIdx := [], depHash := [], actor := 1, seq := 1, maxOp := 1 },
      List.mem_cons_self _ _, rfl, rfl, by decide⟩, rfl⟩

end automerge

/-! ## The op set: last writer wins -/

namespace opset

open model

theorem compare_le_iff (a b : OpID) :
    a.Compare b ≤ 0 ↔ a.Counter < b.Counter ∨ (a.Counter = b.Counter ∧ a.Actor ≤ b.Actor) := by
  unfold OpID.Compare
  split_ifs <;> constructor <;> intro h <;> omega

theorem versionLE_total (a b : VersionedValue) : versionLE a b ∨ versionLE b a := by
  unfold versionLE
  rw [compare_le_iff, compare_le_iff]
  omega

theorem versionLE_trans (a b c : VersionedValue) (h1 : versionLE a b) (h2 : versionLE b c) :
    versionLE a c := by
  unfold versionLE at *
  rw [compare_le_iff] at *
  omega

instance versionLE_isTotal : IsTotal VersionedValue (fun a b => a.OpID.Compare b.OpID ≤ 0) :=
  ⟨versionLE_total⟩

instance versionLE_isTrans : IsTrans VersionedValue (fun a b => a.OpID.Compare b.OpID ≤ 0) :=
  ⟨versionLE_trans⟩

theorem sortedVersions_perm (vs : List VersionedValue) : (sortedVersions vs).Perm vs :=
  List.perm_insertionSort _ vs

theorem sortedVersions_sorted (vs : List VersionedValue) :
    List.Sorted (fun a b => a.OpID.Compare b.OpID ≤ 0) (sortedVersions vs) :=
  List.sorted_insertionSort _ vs

/-- The last element of a sorted list is above every element. -/
theorem sorted_getLast_max (l : List VersionedValue)
    (hs : List.Sorted (fun a b => a.OpID.Compare b.OpID ≤ 0) l) (v : VersionedValue)
    (hv : l.getLast? = some v) : ∀ w ∈ l, w.OpID.Compare v.OpID ≤ 0 := by
  intro w hw
  rcases List.eq_nil_or_concat l with rfl | ⟨init, x, rfl⟩
  · cases hw
  · rw [List.concat_eq_append] at hs hv hw
    rw [List.getLast?_concat] at hv
    injection hv with hv
    subst hv
    rcases List.mem_append.1 hw with h | h
    · exact (List.pairwise_append.1 hs).2.2 w h x (List.mem_singleton_self _)
    · rw [List.mem_singleton] at h
      subst h
      rcases versionLE_total w w with h | h <;> exact h

end opset

namespace opset

open model

theorem applyRecordToCurrent_objects (o : OpSet) (op : opRecord) :
    (applyRecordToCurrent o op).objects = o.objects ∧ (applyRecordToCurrent o op).ops = o.ops := by
  unfold applyRecordToCurrent
  split
  · exact ⟨rfl, rfl⟩
  · split
    · exact ⟨rfl, rfl⟩
    · split_ifs
      · exact ⟨rfl, rfl⟩
      · split <;> exact ⟨rfl, rfl⟩
      · exact ⟨rfl, rfl⟩

theorem record_objects (o : OpSet) (rec : opRecord) : (o.record rec).objects = o.objects :=
  (applyRecordToCurrent_objects _ rec).1

theorem record_ops (o : OpSet) (rec : opRecord) : (o.record rec).ops = o.ops ++ [rec] :=
  (applyRecordToCurrent_objects _ rec).2

theorem ensureType_ok (o : OpSet) (obj : ObjID) (want : List ObjType)
    (h : o.ensureType obj want = .ok ()) :
    ∃ st, GoMap.get? o.objects obj = some st ∧ st.typ ∈ want := by
  unfold OpSet.ensureType at h
  cases hget : GoMap.get? o.objects obj with
  | none => simp [hget] at h
  | some st =>
    simp only [hget] at h
    by_cases hw : st.typ ∈ want
    · exact ⟨st, rfl, hw⟩
    · simp [hw] at h

theorem Typed.record {o : OpSet} (ht : Typed o) (rec : opRecord)
    (hput : rec.kind = opMapPut →
      ∃ st, GoMap.get? o.objects rec.obj = some st ∧ st.typ = ObjMap) :
    Typed (o.record rec) := by
  refine ⟨?_, ?_⟩
  · rw [record_objects]; exact ht.1
  · rw [record_objects, record_ops]
    intro r hr hk
    rcases List.mem_append.1 hr with hr | hr
    · exact ht.2 r hr hk
    · rw [List.mem_singleton] at hr
      subst hr
      exact hput hk

theorem typed_New : Typed New := by
  refine ⟨?_, ?_⟩
  · intro id st h
    simp only [New, GoMap.get?] at h
    split_ifs at h
    injection h with h
    subst h
    simp
  · intro r hr
    cases hr

theorem Typed.createObject {o : OpSet} (ht : Typed o) (id : ObjID) (typ : ObjType) :
    Typed (o.CreateObject id typ) := by
  unfold OpSet.CreateObject
  cases hget : GoMap.get? o.objects id with
  | some st => exact ht
  | none =>
    refine ⟨?_, ?_⟩
    · intro id' st' h
      dsimp only at h
      by_cases hid : id' = id
      · subst hid
        rw [GoMap.get?_set_self] at h
        injection h with h
        subst h
        by_cases ht' : typ = ObjMap <;> simp [ht']
      · rw [GoMap.get?_set_ne _ _ _ _ hid] at h
        exact ht.1 id' st' h
    · intro r hr hk
      obtain ⟨st, hst, htyp⟩ := ht.2 r hr hk
      have hne : r.obj ≠ id := by
        intro e
        rw [e, hget] at hst
        cases hst
      exact ⟨st, by dsimp only; rw [GoMap.get?_set_ne _ _ _ _ hne]; exact hst, htyp⟩

theorem Typed.putMap {o o' : OpSet} (ht : Typed o) (obj : ObjID) (key : GoString)
    (value : Value) (id : OpID) (actor seq : Nat)
    (h : o.PutMap obj key value id actor seq = .ok o') : Typed o' := by
  unfold OpSet.PutMap at h
  cases he : o.ensureType obj [ObjMap] with
  | error e => simp [he] at h
  | ok u =>
    obtain ⟨st, hst, htyp⟩ := ensureType_ok o obj _ he
    simp only [he, OpSet.visibleMapVersionIDs] at h
    injection h with h
    subst h
    exact ht.record _ (fun _ => ⟨st, hst, by simpa using htyp⟩)

theorem Typed.putMapRaw {o o' : OpSet} (ht : Typed o) (obj : ObjID) (key : GoString)
    (value : Value) (id : OpID) (actor seq : Nat) (pred : List OpID)
    (h : o.PutMapRaw obj key value id actor seq pred = .ok o') : Typed o' := by
  unfold OpSet.PutMapRaw at h
  cases he : o.ensureType obj [ObjMap] with
  | error e => simp [he] at h
  | ok u =>
    obtain ⟨st, hst, htyp⟩ := ensureType_ok o obj _ he
    simp only [he] at h
    injection h with h
    subst h
    exact ht.record _ (fun _ => ⟨st, hst, by simpa using htyp⟩)

theorem Typed.deleteMap {o o' : OpSet} (ht : Typed o) (obj : ObjID) (key : GoString)
    (id : OpID) (actor seq : Nat)
    (h : o.DeleteMap obj key id actor seq = .ok o') : Typed o' := by
  unfold OpSet.DeleteMap at h
  cases he : o.ensureType obj [ObjMap] with
  | error e => simp [he] at h
  | ok u =>
    simp only [he, OpSet.visibleMapVersionIDs] at h
    injection h with h
    subst h
    exact ht.record _ (fun hk => by simp [zeroRecord, opMapDelete, opMapPut] at hk)

theorem Typed.insertList {o o' : OpSet} (ht : Typed o) (obj : ObjID) (index : Int)
    (value : Value) (id : OpID) (actor seq : Nat)
    (h : o.InsertList obj index value id actor seq = .ok o') : Typed o' := by
  unfold OpSet.InsertList at h
  cases he : o.ensureType obj [ObjList, ObjText] with
  | error e => simp [he] at h
  | ok u =>
    simp only [he] at h
    split_ifs at h
    injection h with h
    subst h
    exact ht.record _ (fun hk => by simp [zeroRecord, opListInsert, opMapPut] at hk)

theorem Typed.setListRaw {o o' : OpSet} (ht : Typed o) (obj : ObjID) (index : Int)
    (value : Value) (id : OpID) (actor seq : Nat) (pred : List OpID)
    (h : o.SetListRaw obj index value id actor seq pred = .ok o') : Typed o' := by
  unfold OpSet.SetListRaw at h
  cases he : o.ensureType obj [ObjList, ObjText] with
  | error e => simp [he] at h
  | ok u =>
    simp only [he] at h
    split_ifs at h
    injection h with h
    subst h
    exact ht.record _ (fun hk => by simp [zeroRecord, opListSet, opMapPut] at hk)

theorem Typed.setList {o o' : OpSet} (ht : Typed o) (obj : ObjID) (index : Int)
    (value : Value) (id : OpID) (actor seq : Nat)
    (h : o.SetList obj index value id actor seq = .ok o') : Typed o' := by
  unfold OpSet.SetList at h
  cases he : o.ensureType obj [ObjList, ObjText] with
  | error e => simp [he] at h
  | ok u =>
    simp only [he] at h
    split_ifs at h
    cases hv : o.visibleListVersionIDs obj index none with
    | error e => simp [hv] at h
    | ok pred =>
      simp only [hv] at h
      injection h with h
      subst h
      exact ht.record _ (fun hk => by simp [zeroRecord, opListSet, opMapPut] at hk)

theorem Typed.deleteList {o o' : OpSet} (ht : Typed o) (obj : ObjID) (index : Int)
    (id : OpID) (actor seq : Nat)
    (h : o.DeleteList obj index id actor seq = .ok o') : Typed o' := by
  unfold OpSet.DeleteList at h
  cases he : o.ensureType obj [ObjList, ObjText] with
  | error e => simp [he] at h
  | ok u =>
    simp only [he] at h
    split_ifs at h
    injection h with h
    subst h
    exact ht.record _ (fun hk => by simp [zeroRecord, opListDelete, opMapPut] at hk)

theorem Typed.addMark {o o' : OpSet} (ht : Typed o) (obj : ObjID) (start stop : Int)
    (name : GoString) (value : ScalarValue) (id : OpID) (actor seq : Nat)
    (h : o.AddMark obj start stop name value id actor seq = .ok o') : Typed o' := by
  unfold OpSet.AddMark at h
  cases he : o.ensureType obj [ObjText] with
  | error e => simp [he] at h
  | ok u =>
    simp only [he] at h
    split_ifs at h
    injection h with h
    subst h
    exact ht.record _ (fun hk => by simp [zeroRecord, opMark, opMapPut] at hk)

theorem Typed.incrementMapCounter {o o' : OpSet} (ht : Typed o) (obj : ObjID)
    (key : GoString) (by_ : int64) (id : OpID) (actor seq : Nat)
    (h : o.IncrementMapCounter obj key by_ id actor seq = .ok o') : Typed o' := by
  unfold OpSet.IncrementMapCounter at h
  cases hg : o.GetMap obj key none with
  | error e => simp [hg] at h
  | ok r =>
    cases r with
    | none => simp [hg] at h
    | some current =>
      simp only [hg] at h
      split_ifs at h
      exact ht.putMap _ _ _ _ _ _ h

theorem Typed.spliceDeletes (obj : ObjID) (index : Int) (actor : Nat) :
    ∀ (n : Nat) (o : OpSet) (seq : Nat) (o' : OpSet) (seq' : Nat), Typed o →
      OpSet.spliceDeletes obj index actor n o seq = .ok (o', seq') → Typed o' := by
  intro n
  induction n with
  | zero =>
    intro o seq o' seq' ht h
    simp only [OpSet.spliceDeletes] at h
    injection h with h
    injection h with h1 h2
    subst h1
    exact ht
  | succ n ih =>
    intro o seq o' seq' ht h
    unfold OpSet.spliceDeletes at h
    dsimp only at h
    split at h
    · cases h
    · rename_i o1 hd
      exact ih o1 _ o' seq' (ht.deleteList _ _ _ _ _ hd) h

theorem Typed.spliceInserts (obj : ObjID) (actor : Nat) :
    ∀ (rs : List Char) (o : OpSet) (index : Int) (seq : Nat) (o' : OpSet) (seq' : Nat),
      Typed o → OpSet.spliceInserts obj actor rs o index seq = .ok (o', seq') → Typed o' := by
  intro rs
  induction rs with
  | nil =>
    intro o index seq o' seq' ht h
    simp only [OpSet.spliceInserts] at h
    injection h with h
    injection h with h1 h2
    subst h1
    exact ht
  | cons r rest ih =>
    intro o index seq o' seq' ht h
    unfold OpSet.spliceInserts at h
    dsimp only at h
    split at h
    · cases h
    · rename_i o1 hd
      exact ih o1 (index + 1) _ o' seq' (ht.insertList _ _ _ _ _ _ hd) h

theorem Typed.spliceText {o o' : OpSet} (ht : Typed o) (obj : ObjID) (index deleteCount : Int)
    (insert : GoString) (actor startSeq seq : Nat)
    (h : o.SpliceText obj index deleteCount insert actor startSeq = .ok (o', seq)) :
    Typed o' := by
  unfold OpSet.SpliceText at h
  cases he : o.ensureType obj [ObjText] with
  | error e => simp [he] at h
  | ok u =>
    simp only [he] at h
    split_ifs at h
    cases hd : OpSet.spliceDeletes obj index actor deleteCount.toNat o startSeq with
    | error e => simp [hd] at h
    | ok p =>
      obtain ⟨o1, seq1⟩ := p
      simp only [hd] at h
      exact Typed.spliceInserts obj actor _ o1 index seq1 o' seq
        (Typed.spliceDeletes obj index actor _ o startSeq o1 seq1 ht hd) h

theorem Reachable.typed {o : OpSet} (hr : Reachable o) : Typed o := by
  induction hr with
  | new => exact typed_New
  | createObject o id typ _ ih => exact ih.createObject id typ
  | putMap o o' obj key value id actor seq _ h ih => exact ih.putMap _ _ _ _ _ _ h
  | putMapRaw o o' obj key value id actor seq pred _ h ih => exact ih.putMapRaw _ _ _ _ _ _ _ h
  | deleteMap o o' obj key id actor seq _ h ih => exact ih.deleteMap _ _ _ _ _ h
  | insertList o o' obj index value id actor seq _ h ih => exact ih.insertList _ _ _ _ _ _ h
  | setList o o' obj index value id actor seq _ h ih => exact ih.setList _ _ _ _ _ _ h
  | setListRaw o o' obj index value id actor seq pred _ h ih =>
    exact ih.setListRaw _ _ _ _ _ _ _ h
  | deleteList o o' obj index id actor seq _ h ih => exact ih.deleteList _ _ _ _ _ h
  | incrementMapCounter o o' obj key by_ id actor seq _ h ih =>
    exact ih.incrementMapCounter _ _ _ _ _ _ h
  | spliceText o o' obj index deleteCount insert actor startSeq seq _ h ih =>
    exact ih.spliceText _ _ _ _ _ _ _ h
  | addMark o o' obj start stop name value id actor seq _ h ih =>
    exact ih.addMark _ _ _ _ _ _ _ _ h

end opset

namespace opset

open model

theorem entryVersions_set (mm : GoMap GoString listEntry) (k key : GoString) (e : listEntry) :
    entryVersions (some (GoMap.set mm k e)) key =
      if k = key then e.versions else entryVersions (some mm) key := by
  unfold entryVersions
  by_cases h : k = key
  · subst h
    simp [GoMap.get?_set_self]
  · have h' : key ≠ k := fun e => h e.symm
    simp [GoMap.get?_set_ne _ _ _ _ h', h]

theorem removePreds_nil (pred : List OpID) : removePreds [] pred = [] := by
  unfold removePreds
  split_ifs <;> rfl

theorem removePreds_eq_filter (vs : List VersionedValue) (pred : List OpID) :
    removePreds vs pred = vs.filter (fun v => !decide (v.OpID ∈ pred)) := by
  unfold removePreds
  split_ifs with h
  · have : pred = [] := List.length_eq_zero.1 h
    subst this
    simp
  · rfl

/-- The effect of `applyRecord` on one object: it fails only for a put on a nil
map, keeps the map nil or non-nil, and changes the versions of a key as a put or
delete on that key prescribes. -/
theorem applyRecordObj_spec (ost : objectState) (op : opRecord)
    (hput : op.kind = opMapPut → ost.m.isSome = true) :
    ∃ ost', applyRecordObj ost op = .ok ost' ∧ ost'.m.isSome = ost.m.isSome ∧
      ∀ key, entryVersions ost'.m key =
        if op.key = key ∧ (op.kind = opMapPut ∨ op.kind = opMapDelete) then
          (if op.kind = opMapPut then
            removePreds (entryVersions ost.m key) op.pred ++ [versionOf op]
           else removePreds (entryVersions ost.m key) op.pred)
        else entryVersions ost.m key := by
  unfold applyRecordObj
  by_cases h0 : op.kind = opMapPut
  · simp only [h0, if_true]
    cases hm : ost.m with
    | none => have := hput h0; rw [hm] at this; cases this
    | some mm =>
      refine ⟨_, rfl, rfl, ?_⟩
      intro key
      dsimp only
      rw [entryVersions_set]
      by_cases hk : op.key = key
      · subst hk; simp
      · simp [hk]
  · simp only [h0, if_false]
    by_cases h1 : op.kind = opMapDelete
    · simp only [h1, if_true]
      cases hm : ost.m with
      | none =>
        refine ⟨_, rfl, by rw [hm], ?_⟩
        intro key
        simp [hm, entryVersions, removePreds_nil]
      | some mm =>
        dsimp only
        cases hg : GoMap.get? mm op.key with
        | none =>
          refine ⟨_, rfl, by rw [hm], ?_⟩
          intro key
          by_cases hk : op.key = key
          · subst hk
            simp [hm, entryVersions, hg, removePreds_nil]
          · simp [hk, hm]
        | some e =>
          refine ⟨_, rfl, rfl, ?_⟩
          intro key
          dsimp only
          rw [entryVersions_set]
          by_cases hk : op.key = key
          · subst hk
            simp [entryVersions, hg, opMapDelete, opMapPut]
          · simp [hk]
    · simp only [h1, if_false]
      have hno : ∀ key, ¬ (op.key = key ∧ (op.kind = opMapPut ∨ op.kind = opMapDelete)) := by
        intro key hh
        rcases hh.2 with h | h
        · exact h0 h
        · exact h1 h
      by_cases h2 : op.kind = opListInsert
      · simp only [h2, if_true]
        split_ifs
        · exact ⟨_, rfl, rfl, fun key => by simp⟩
        · exact ⟨_, rfl, rfl, fun key => by simp⟩
      · simp only [h2, if_false]
        by_cases h3 : op.kind = opListSet
        · simp only [h3, if_true]
          split_ifs with hr
          · exact ⟨_, rfl, rfl, fun key => by simp⟩
          · have hlt : op.index.toNat < ost.l.length := by omega
            rw [List.getElem?_eq_getElem hlt]
            exact ⟨_, rfl, rfl, fun key => by simp⟩
        · simp only [h3, if_false]
          by_cases h4 : op.kind = opListDelete
          · simp only [h4, if_true]
            split_ifs
            · exact ⟨_, rfl, rfl, fun key => by simp⟩
            · exact ⟨_, rfl, rfl, fun key => by simp⟩
          · simp only [h4, if_false]
            by_cases h5 : op.kind = opMark
            · simp only [h5, if_true]
              exact ⟨_, rfl, rfl, fun key => by simp⟩
            · simp only [h5, if_false]
              exact ⟨_, rfl, rfl, fun key => by simp⟩

theorem touches_eq (cover : Option changegraph.Clock) (obj : ObjID) (key : GoString)
    (r : opRecord) :
    touches cover obj key r = true ↔
      covered cover r = true ∧ r.obj = obj ∧ r.key = key ∧
        (r.kind = opMapPut ∨ r.kind = opMapDelete) := by
  simp [touches, and_assoc]

/-- One replayed record acts on the versions of every key of every object as
`stepVersions` says. -/
theorem applyRecord_spec (cover : Option changegraph.Clock) (S : GoMap ObjID objectState)
    (op : opRecord) (hcov : covered cover op = true)
    (hput : op.kind = opMapPut → ∀ st, GoMap.get? S op.obj = some st → st.m.isSome = true) :
    ∃ S', applyRecord S op = .ok S' ∧
      ∀ obj st, GoMap.get? S obj = some st →
        ∃ st', GoMap.get? S' obj = some st' ∧ st'.m.isSome = st.m.isSome ∧
          ∀ key, entryVersions st'.m key = stepVersions cover obj key (entryVersions st.m key) op := by
  unfold applyRecord
  cases hget : GoMap.get? S op.obj with
  | none =>
    refine ⟨S, rfl, ?_⟩
    intro obj st hst
    refine ⟨st, hst, rfl, ?_⟩
    intro key
    have hne : ¬ touches cover obj key op = true := by
      rw [touches_eq]
      rintro ⟨-, ho, -, -⟩
      rw [ho, hst] at hget
      cases hget
    simp [stepVersions, hne]
  | some ost =>
    obtain ⟨ost', hok, hsome, hver⟩ := applyRecordObj_spec ost op (fun hk => hput hk ost hget)
    simp only [hok]
    refine ⟨_, rfl, ?_⟩
    intro obj st hst
    by_cases ho : obj = op.obj
    · subst ho
      rw [hget] at hst
      injection hst with hst
      subst hst
      refine ⟨ost', GoMap.get?_set_self _ _ _, hsome, ?_⟩
      intro key
      rw [hver key]
      unfold stepVersions
      by_cases hc : op.key = key ∧ (op.kind = opMapPut ∨ op.kind = opMapDelete)
      · have ht : touches cover op.obj key op = true :=
          (touches_eq _ _ _ _).2 ⟨hcov, rfl, hc.1, hc.2⟩
        rw [if_pos hc, if_pos ht]
      · have ht : ¬ touches cover op.obj key op = true := by
          rw [touches_eq]
          rintro ⟨-, -, h1, h2⟩
          exact hc ⟨h1, h2⟩
        rw [if_neg hc, if_neg ht]
    · refine ⟨st, by rw [GoMap.get?_set_ne _ _ _ _ ho]; exact hst, rfl, ?_⟩
      intro key
      have hne : ¬ touches cover obj key op = true := by
        rw [touches_eq]
        rintro ⟨-, h, -, -⟩
        exact ho h.symm
      simp [stepVersions, hne]

theorem stepVersions_not_covered (cover : Option changegraph.Clock) (obj : ObjID)
    (key : GoString) (vs : List VersionedValue) (op : opRecord)
    (h : covered cover op = false) : stepVersions cover obj key vs op = vs := by
  have hne : ¬ touches cover obj key op = true := by
    rw [touches_eq]
    rintro ⟨h', -⟩
    rw [h] at h'
    cases h'
  simp [stepVersions, hne]

theorem replay_cons (cover : Option changegraph.Clock) (op : opRecord) (rest : List opRecord)
    (S : GoMap ObjID objectState) :
    replay cover (op :: rest) S =
      if covered cover op = true then
        (match applyRecord S op with
          | .error e => .error e
          | .ok S' => replay cover rest S')
      else replay cover rest S := by
  cases cover with
  | none => simp only [replay, covered, if_true]
  | some clk =>
    by_cases h : clk.Covers op.actor op.seq = true
    · simp only [replay, covered, h, if_true]
    · simp [replay, covered, h]

/-- The replay loop of `materialize` succeeds when no put hits a nil map, and
folds `stepVersions` over the log for every key of every object. -/
theorem replay_spec (cover : Option changegraph.Clock) :
    ∀ (ops : List opRecord) (S : GoMap ObjID objectState), PutsOnMaps S ops →
      ∃ S', replay cover ops S = .ok S' ∧
        ∀ obj st, GoMap.get? S obj = some st →
          ∃ st', GoMap.get? S' obj = some st' ∧ st'.m.isSome = st.m.isSome ∧
            ∀ key, entryVersions st'.m key =
              ops.foldl (stepVersions cover obj key) (entryVersions st.m key) := by
  intro ops
  induction ops with
  | nil =>
    intro S _
    exact ⟨S, rfl, fun obj st hst => ⟨st, hst, rfl, fun key => rfl⟩⟩
  | cons op rest ih =>
    intro S hP
    rw [replay_cons]
    by_cases hcov : covered cover op = true
    · simp only [hcov, if_true]
      obtain ⟨S1, hok, hS1⟩ := applyRecord_spec cover S op hcov
        (fun hk st hst => hP op (List.mem_cons_self _ _) hk st hst)
      have hP1 : PutsOnMaps S1 rest := by
        intro r hr hk st1 hst1
        cases hg : GoMap.get? S r.obj with
        | none =>
          -- an object absent before stays absent: `applyRecord` only rewrites present keys
          exfalso
          unfold applyRecord at hok
          cases hgo : GoMap.get? S op.obj with
          | none =>
            simp only [hgo] at hok
            injection hok with hok
            subst hok
            rw [hg] at hst1
            cases hst1
          | some ost =>
            simp only [hgo] at hok
            cases hao : applyRecordObj ost op with
            | error e => simp [hao] at hok
            | ok ost' =>
              simp only [hao] at hok
              injection hok with hok
              subst hok
              have hne : r.obj ≠ op.obj := by
                intro e
                rw [e, hgo] at hg
                cases hg
              rw [GoMap.get?_set_ne _ _ _ _ hne, hg] at hst1
              cases hst1
        | some st =>
          obtain ⟨st', hst', hsome, -⟩ := hS1 r.obj st hg
          rw [hst1] at hst'
          injection hst' with hst'
          subst hst'
          rw [hsome]
          exact hP r (List.mem_cons_of_mem _ hr) hk st hg
      obtain ⟨S2, hok2, hS2⟩ := ih S1 hP1
      refine ⟨S2, by rw [hok]; exact hok2, ?_⟩
      intro obj st hst
      obtain ⟨st1, hst1, hsome1, hver1⟩ := hS1 obj st hst
      obtain ⟨st2, hst2, hsome2, hver2⟩ := hS2 obj st1 hst1
      refine ⟨st2, hst2, by rw [hsome2, hsome1], ?_⟩
      intro key
      rw [hver2 key, hver1 key, List.foldl_cons]
    · have hcov' : covered cover op = false := by simpa using hcov
      simp only [hcov, if_false]
      obtain ⟨S2, hok2, hS2⟩ := ih S (fun r hr => hP r (List.mem_cons_of_mem _ hr))
      refine ⟨S2, hok2, ?_⟩
      intro obj st hst
      obtain ⟨st2, hst2, hsome2, hver2⟩ := hS2 obj st hst
      refine ⟨st2, hst2, hsome2, ?_⟩
      intro key
      rw [hver2 key, List.foldl_cons, stepVersions_not_covered _ _ _ _ _ hcov']

theorem survivesIn_cons (cover : Option changegraph.Clock) (obj : ObjID) (key : GoString)
    (r : opRecord) (rest : List opRecord) (id : OpID) :
    survivesIn cover obj key (r :: rest) id =
      (!(touches cover obj key r && decide (id ∈ r.pred)) && survivesIn cover obj key rest id) := by
  simp [survivesIn]

/-- Folding `stepVersions` over a log keeps the versions that survive the log and
appends the survivors of the log itself. -/
theorem foldl_stepVersions (cover : Option changegraph.Clock) (obj : ObjID) (key : GoString) :
    ∀ (ops : List opRecord) (vs : List VersionedValue),
      ops.foldl (stepVersions cover obj key) vs =
        vs.filter (fun v => survivesIn cover obj key ops v.OpID) ++
          survivors cover obj key ops := by
  intro ops
  induction ops with
  | nil => intro vs; simp [survivesIn, survivors]
  | cons r rest ih =>
    intro vs
    rw [List.foldl_cons, ih]
    by_cases ht : touches cover obj key r = true
    · by_cases hp : r.kind = opMapPut
      · simp only [stepVersions, ht, hp, if_true, removePreds_eq_filter, List.filter_append,
          List.filter_filter, survivors, survivesIn_cons, Bool.true_and, decide_True]
        by_cases hs : survivesIn cover obj key rest r.id = true
        · simp [hs, versionOf, Bool.and_comm]
        · simp [hs, versionOf, Bool.and_comm]
      · simp only [stepVersions, ht, hp, if_true, if_false, removePreds_eq_filter,
          List.filter_filter, survivors, survivesIn_cons, Bool.true_and, decide_False,
          Bool.false_and, Bool.false_eq_true]
        simp [Bool.and_comm]
    · have ht' : touches cover obj key r = false := by simpa using ht
      simp [stepVersions, ht', survivors, survivesIn_cons]

end opset

namespace opset

open model

theorem freshState_get (objects : GoMap ObjID objectState) (id : ObjID) :
    GoMap.get? (freshState objects) id =
      (GoMap.get? objects id).map (fun st =>
        if st.typ = ObjMap then
          ({ typ := st.typ, m := some [], l := [], mk := [] } : objectState)
        else { typ := st.typ, m := none, l := [], mk := [] }) := by
  induction objects with
  | nil => rfl
  | cons p rest ih =>
    obtain ⟨k, st⟩ := p
    by_cases hk : k = id
    · simp [freshState, GoMap.get?, hk]
    · have := ih
      simp only [freshState] at this
      simp [freshState, GoMap.get?, hk, this]

theorem Typed.putsOnMaps {o : OpSet} (ht : Typed o) : PutsOnMaps (freshState o.objects) o.ops := by
  intro r hr hk st hst
  obtain ⟨st0, hst0, htyp⟩ := ht.2 r hr hk
  rw [freshState_get, hst0] at hst
  simp only [Option.map_some', htyp, if_true, Option.some.injEq] at hst
  rw [← hst]
  rfl

/-- The versions that `materialize` leaves at a key of a map object are the
survivors of the log. -/
theorem materialize_entry {o : OpSet} (ht : Typed o) (obj : ObjID)
    (hm : o.ObjectType obj = some ObjMap) (cover : Option changegraph.Clock) :
    ∃ state st, o.materialize cover = .ok state ∧ GoMap.get? state obj = some st ∧
      ∀ key, entryVersions st.m key = survivors cover obj key o.ops := by
  obtain ⟨S', hok, hS'⟩ := replay_spec cover o.ops (freshState o.objects) ht.putsOnMaps
  unfold OpSet.ObjectType at hm
  cases hget : GoMap.get? o.objects obj with
  | none => rw [hget] at hm; cases hm
  | some st0 =>
    rw [hget] at hm
    simp only [Option.map_some', Option.some.injEq] at hm
    have hfresh : GoMap.get? (freshState o.objects) obj =
        some { typ := st0.typ, m := some [], l := [], mk := [] } := by
      rw [freshState_get, hget]
      simp [hm]
    obtain ⟨st', hst', -, hver⟩ := hS' obj _ hfresh
    refine ⟨S', st', hok, hst', ?_⟩
    intro key
    rw [hver key, foldl_stepVersions]
    simp [entryVersions, GoMap.get?]

/-- C4: on an op set reachable from `New` by `CreateObject` and the write
operations, for every map object, key and optional clock, `GetAllMap` returns the
values of the surviving versions of the key in ascending OpID order, `GetMap`
returns the value of a surviving version whose OpID is greatest (counter first,
then actor) and reports absent exactly when no version survives; and two
`PutMapRaw` calls on a new op set with empty pred and the OpIDs `1@1` and `1@2`
leave both values in `GetAllMap`, the `1@2` value being the one `GetMap` returns. -/
theorem last_writer_wins (o : OpSet) (hr : Reachable o) (obj : ObjID)
    (hm : o.ObjectType obj = some ObjMap) (key : GoString)
    (cover : Option changegraph.Clock) :
    (∃ vs : List VersionedValue,
      vs.Perm (survivors cover obj key o.ops) ∧
      List.Sorted (fun a b => a.OpID.Compare b.OpID ≤ 0) vs ∧
      o.GetAllMap obj key cover = .ok (vs.map VersionedValue.Value) ∧
      o.GetMap obj key cover = .ok (vs.getLast?.map VersionedValue.Value) ∧
      (∀ v, vs.getLast? = some v →
        v ∈ survivors cover obj key o.ops ∧
        ∀ w ∈ survivors cover obj key o.ops, w.OpID.Compare v.OpID ≤ 0) ∧
      (o.GetMap obj key cover = .ok none ↔ survivors cover obj key o.ops = [])) ∧
    (∀ (k : GoString) (a b : Value),
      ∃ o1 o2, New.PutMapRaw RootObjID k a { Counter := 1, Actor := 1 } 1 1 [] = .ok o1 ∧
        o1.PutMapRaw RootObjID k b { Counter := 1, Actor := 2 } 2 1 [] = .ok o2 ∧
        o2.GetAllMap RootObjID k none = .ok [a, b] ∧
        o2.GetMap RootObjID k none = .ok (some b)) := by
  constructor
  · obtain ⟨state, st, hmat, hst, hver⟩ := materialize_entry hr.typed obj hm cover
    have hperm := sortedVersions_perm (survivors cover obj key o.ops)
    have hsorted := sortedVersions_sorted (survivors cover obj key o.ops)
    refine ⟨sortedVersions (survivors cover obj key o.ops), hperm, hsorted, ?_, ?_, ?_, ?_⟩
    · simp only [OpSet.GetAllMap, hmat, hst, hver]
    · simp only [OpSet.GetMap, hmat, hst, hver]
    · intro v hv
      have hvmem : v ∈ sortedVersions (survivors cover obj key o.ops) :=
        List.mem_of_mem_getLast? hv
      refine ⟨hperm.mem_iff.1 hvmem, ?_⟩
      intro w hw
      exact sorted_getLast_max _ hsorted v hv w (hperm.mem_iff.2 hw)
    · simp only [OpSet.GetMap, hmat, hst, hver, Except.ok.injEq, Option.map_eq_none',
        List.getLast?_eq_none_iff]
      constructor
      · intro h
        exact List.Perm.eq_nil (h ▸ hperm.symm)
      · intro h
        rw [h]
        rfl
  · intro k a b
    refine ⟨_, _, rfl, rfl, ?_, ?_⟩
    · simp [OpSet.GetAllMap, OpSet.materialize, OpSet.record, applyRecordToCurrent, New,
        replay, applyRecord, applyRecordObj, freshState, GoMap.get?, GoMap.set, GoMap.delete,
        zeroRecord, opMapPut, ObjMap, entryVersions, removePreds, versionOf, sortedVersions,
        OpID.Compare, RootObjID]
    · simp [OpSet.GetMap, OpSet.materialize, OpSet.record, applyRecordToCurrent, New,
        replay, applyRecord, applyRecordObj, freshState, GoMap.get?, GoMap.set, GoMap.delete,
        zeroRecord, opMapPut, ObjMap, entryVersions, removePreds, versionOf, sortedVersions,
        OpID.Compare, RootObjID]

end opset

namespace opset

open model

theorem exampleOpSet_reachable : Reachable exampleOpSet :=
  Reachable.putMapRaw _ _ RootObjID "name" (NewScalarValue (StringValue "ally"))
    { Counter := 1, Actor := 2 } 2 1 []
    (Reachable.putMapRaw _ _ RootObjID "name" (NewScalarValue (StringValue "alice"))
      { Counter := 1, Actor := 1 } 1 1 [] Reachable.new rfl) rfl

/-- Witness for C4 on the op set of `TestMapConflictsGetAll`. -/
theorem last_writer_wins_witness :
    (∃ vs : List VersionedValue,
      vs.Perm (survivors none RootObjID "name" exampleOpSet.ops) ∧
      List.Sorted (fun a b => a.OpID.Compare b.OpID ≤ 0) vs ∧
      exampleOpSet.GetAllMap RootObjID "name" none = .ok (vs.map VersionedValue.Value) ∧
      exampleOpSet.GetMap RootObjID "name" none = .ok (vs.getLast?.map VersionedValue.Value) ∧
      (∀ v, vs.getLast? = some v →
        v ∈ survivors none RootObjID "name" exampleOpSet.ops ∧
        ∀ w ∈ survivors none RootObjID "name" exampleOpSet.ops, w.OpID.Compare v.OpID ≤ 0) ∧
      (exampleOpSet.GetMap RootObjID "name" none = .ok none ↔
        survivors none RootObjID "name" exampleOpSet.ops = [])) ∧
    (∀ (k : GoString) (a b : Value),
      ∃ o1 o2, New.PutMapRaw RootObjID k a { Counter := 1, Actor := 1 } 1 1 [] = .ok o1 ∧
        o1.PutMapRaw RootObjID k b { Counter := 1, Actor := 2 } 2 1 [] = .ok o2 ∧
        o2.GetAllMap RootObjID k none = .ok [a, b] ∧
        o2.GetMap RootObjID k none = .ok (some b)) :=
  last_writer_wins exampleOpSet exampleOpSet_reachable RootObjID rfl "name" none

end opset

/-! ## The heap keeps its items -/

namespace automerge

open model changegraph

theorem swapItems_perm (items items' : List Nat) (i j : Nat)
    (h : swapItems items i j = .ok items') : items'.Perm items := by
  unfold swapItems at h
  cases hi : items[i]? with
  | none => simp [hi] at h
  | some a =>
    cases hj : items[j]? with
    | none => simp [hi, hj] at h
    | some b =>
      simp only [hi, hj] at h
      injection h with h
      subst h
      obtain ⟨hil, hia⟩ := List.getElem?_eq_some.1 hi
      obtain ⟨hjl, hjb⟩ := List.getElem?_eq_some.1 hj
      rw [List.perm_iff_count]
      intro x
      have hjl' : j < (items.set i b).length := by simpa using hjl
      rw [List.count_set _ _ _ _ hjl', List.count_set _ _ _ _ hil]
      have hget : (items.set i b)[j] = b := by
        rw [List.getElem_set]
        split_ifs
        · rfl
        · exact hjb
      rw [hget, hia]
      have hbound : (if (a == x) = true then 1 else 0) ≤ items.count x := by
        by_cases hax : a = x
        · subst hax
          have : a ∈ items := hia ▸ List.getElem_mem hil
          simpa using List.count_pos_iff.2 this
        · simp [hax]
      omega

theorem siftUp_perm (batch : List Change) :
    ∀ (fuel : Nat) (items : List Nat) (i : Nat) (items' : List Nat),
      siftUp batch fuel items i = .ok items' → items'.Perm items := by
  intro fuel
  induction fuel with
  | zero => intro items i items' h; simp [siftUp] at h
  | succ fuel ih =>
    intro items i items' h
    unfold siftUp at h
    by_cases hi : i > 0
    · simp only [hi, if_true] at h
      cases hl : lessPos batch items i ((i - 1) / 2) with
      | error e => simp [hl] at h
      | ok b =>
        cases b with
        | false =>
          simp only [hl] at h
          injection h with h
          subst h
          exact List.Perm.refl _
        | true =>
          simp only [hl] at h
          cases hs : swapItems items i ((i - 1) / 2) with
          | error e => simp [hs] at h
          | ok items1 =>
            simp only [hs] at h
            exact (ih items1 _ items' h).trans (swapItems_perm _ _ _ _ hs)
    · simp only [hi, if_false] at h
      injection h with h
      subst h
      exact List.Perm.refl _

theorem heapPush_perm (batch : List Change) (items : List Nat) (v : Nat) (items' : List Nat)
    (h : heapPush batch items v = .ok items') : items'.Perm (items ++ [v]) :=
  siftUp_perm batch _ _ _ _ h

theorem siftDown_perm (batch : List Change) :
    ∀ (fuel : Nat) (items : List Nat) (i : Nat) (items' : List Nat),
      siftDown batch fuel items i = .ok items' → items'.Perm items := by
  intro fuel
  induction fuel with
  | zero => intro items i items' h; simp [siftDown] at h
  | succ fuel ih =>
    intro items i items' h
    unfold siftDown at h
    dsimp only at h
    have key : ∀ smallest : Nat,
        (if smallest = i then Except.ok items
         else
           match swapItems items i smallest with
           | .error e => .error e
           | .ok items1 => siftDown batch fuel items1 smallest) = .ok items' →
        items'.Perm items := by
      intro s hs
      by_cases he : s = i
      · simp only [he, if_true] at hs
        injection hs with hs
        subst hs
        exact List.Perm.refl _
      · simp only [he, if_false] at hs
        cases hw : swapItems items i s with
        | error e => simp [hw] at hs
        | ok items1 =>
          simp only [hw] at hs
          exact (ih items1 _ items' hs).trans (swapItems_perm _ _ _ _ hw)
    split at h
    · cases h
    · split at h
      · cases h
      · exact key _ h

theorem heapPop_perm (batch : List Change) (items : List Nat) (x : Nat) (items' : List Nat)
    (h : heapPop batch items = .ok (x, items')) : items.Perm (x :: items') := by
  unfold heapPop at h
  cases h0 : items[0]? with
  | none => simp [h0] at h
  | some a =>
    cases hl : items.getLast? with
    | none => simp [h0, hl] at h
    | some b =>
      simp only [h0, hl] at h
      have hsplit : items.dropLast ++ [b] = items :=
        List.dropLast_append_getLast? b (by rw [hl]; exact rfl)
      by_cases hlen : items.dropLast.length = 0
      · rw [if_pos hlen] at h
        injection h with h
        injection h with h1 h2
        subst h1 h2
        have hnil : items.dropLast = [] := List.length_eq_zero.1 hlen
        rw [hnil] at hsplit ⊢
        rw [← hsplit] at h0
        simp at h0
        rw [← hsplit, h0]
        simp
      · rw [if_neg hlen] at h
        split at h
        · cases h
        · rename_i items2 hs
          injection h with h
          injection h with h1 h2
          subst h1 h2
          have hp := siftDown_perm _ _ _ _ _ hs
          -- the first item of the shortened slice is the popped one
          cases hd : items.dropLast with
          | nil => rw [hd] at hlen; simp at hlen
          | cons y rest =>
            rw [hd] at hsplit hp
            rw [← hsplit] at h0
            simp only [List.cons_append, List.getElem?_cons_zero, Option.some.injEq] at h0
            subst h0
            simp only [List.set_cons_zero] at hp
            rw [← hsplit]
            simp only [List.cons_append]
            exact List.Perm.cons _ ((List.perm_append_singleton b rest).trans hp.symm)

end automerge

/-! ## The order of a batch covers the batch -/

namespace automerge

open model changegraph

theorem releaseDependents_inv (batch : List Change) (n : Nat) :
    ∀ (deps : List Nat) (st st' : TopoState), TopoInv n st →
      releaseDependents batch deps st = .ok st' → TopoInv n st' ∧ st'.out = st.out := by
  intro deps
  induction deps with
  | nil =>
    intro st st' hinv h
    simp only [releaseDependents] at h
    injection h with h
    subst h
    exact ⟨hinv, rfl⟩
  | cons dep rest ih =>
    intro st st' hinv h
    obtain ⟨hnd, hlen, hcnt⟩ := hinv
    unfold releaseDependents at h
    cases hk : st.depsCount[dep]? with
    | none => simp [hk] at h
    | some k =>
      simp only [hk] at h
      have hdep : dep < st.depsCount.length := (List.getElem?_eq_some.1 hk).1
      have hcount' : ∀ (i : Nat) (v : Int),
          (∃ k', st.depsCount[i]? = some k' ∧ k' ≤ 0) → v ≤ 0 ∨ i ≠ dep →
          ∃ k', (st.depsCount.set dep v)[i]? = some k' ∧ k' ≤ 0 := by
        intro i v ⟨k', hk', hle⟩ hv
        by_cases hi : dep = i
        · subst hi
          refine ⟨v, by simp [List.getElem?_set, hdep], ?_⟩
          rcases hv with hv | hv
          · exact hv
          · exact absurd rfl hv
        · exact ⟨k', by rw [List.getElem?_set_ne hi]; exact hk', hle⟩
      by_cases hz : k - 1 = 0
      · simp only [hz, if_true] at h
        cases hp : heapPush batch st.items dep with
        | error e => simp [hp] at h
        | ok items1 =>
          simp only [hp] at h
          have hperm := heapPush_perm _ _ _ _ hp
          have hnot : dep ∉ st.out ++ st.items := by
            intro hm
            obtain ⟨k', hk', hle⟩ := hcnt dep hm
            rw [hk] at hk'
            injection hk' with hk'
            omega
          have hperm2 : (st.out ++ items1).Perm ((st.out ++ st.items) ++ [dep]) := by
            rw [List.append_assoc]
            exact List.Perm.append_left _ hperm
          have hinv1 : TopoInv n { st with depsCount := st.depsCount.set dep 0, items := items1 } := by
            refine ⟨?_, by simpa using hlen, ?_⟩
            · refine hperm2.nodup_iff.2 ?_
              refine List.Nodup.append hnd (List.nodup_singleton _) ?_
              intro x hx hx'
              rw [List.mem_singleton] at hx'
              subst hx'
              exact hnot hx
            · intro i hi
              have hi' := hperm2.mem_iff.1 hi
              rcases List.mem_append.1 hi' with hi' | hi'
              · exact hcount' i 0 (hcnt i hi') (Or.inl (le_refl _))
              · rw [List.mem_singleton] at hi'
                subst hi'
                exact ⟨0, by simp [List.getElem?_set, hdep], le_refl _⟩
          obtain ⟨hfin, hout⟩ := ih _ st' hinv1 h
          exact ⟨hfin, hout⟩
      · simp only [hz, if_false] at h
        have hinv1 : TopoInv n { st with depsCount := st.depsCount.set dep (k - 1) } := by
          refine ⟨hnd, by simpa using hlen, ?_⟩
          intro i hi
          by_cases hid : i = dep
          · subst hid
            obtain ⟨k', hk', hle⟩ := hcnt i hi
            rw [hk] at hk'
            injection hk' with hk'
            exact ⟨k - 1, by simp [List.getElem?_set, hdep], by omega⟩
          · exact hcount' i (k - 1) (hcnt i hi) (Or.inr hid)
        obtain ⟨hfin, hout⟩ := ih _ st' hinv1 h
        exact ⟨hfin, hout⟩

theorem topoLoop_inv (batch : List Change) (dependents : GoMap Nat (List Nat)) (n : Nat) :
    ∀ (fuel : Nat) (st st' : TopoState), TopoInv n st →
      topoLoop batch dependents fuel st = .ok st' → TopoInv n st' := by
  intro fuel
  induction fuel with
  | zero => intro st st' _ h; simp [topoLoop] at h
  | succ fuel ih =>
    intro st st' hinv h
    unfold topoLoop at h
    by_cases hpos : st.items.length > 0
    · simp only [hpos, if_true] at h
      cases hp : heapPop batch st.items with
      | error e => simp [hp] at h
      | ok r =>
        obtain ⟨i, items1⟩ := r
        simp only [hp] at h
        have hperm := heapPop_perm _ _ _ _ hp
        have hperm2 : ((st.out ++ [i]) ++ items1).Perm (st.out ++ st.items) := by
          rw [List.append_assoc]
          exact List.Perm.append_left _ hperm.symm
        have hinv1 : TopoInv n { st with items := items1, out := st.out ++ [i] } := by
          obtain ⟨hnd, hlen, hcnt⟩ := hinv
          refine ⟨hperm2.nodup_iff.2 hnd, hlen, ?_⟩
          intro x hx
          exact hcnt x (hperm2.mem_iff.1 hx)
        cases hr : releaseDependents batch ((GoMap.get? dependents i).getD [])
            { st with items := items1, out := st.out ++ [i] } with
        | error e => simp [hr] at h
        | ok st1 =>
          simp only [hr] at h
          exact ih st1 st' (releaseDependents_inv batch n _ _ _ hinv1 hr).1 h
    · simp only [hpos, if_false] at h
      injection h with h
      subst h
      exact hinv

theorem pushInitial_perm (batch : List Change) (counts : List Int) :
    ∀ (is items items' : List Nat), pushInitial batch counts is items = .ok items' →
      items'.Perm (items ++ is.filter (fun i => decide (counts[i]? = some 0))) := by
  intro is
  induction is with
  | nil =>
    intro items items' h
    simp only [pushInitial] at h
    injection h with h
    subst h
    simp
  | cons i rest ih =>
    intro items items' h
    unfold pushInitial at h
    by_cases hz : counts[i]? = some 0
    · simp only [hz, if_true] at h
      cases hp : heapPush batch items i with
      | error e => simp [hp] at h
      | ok items1 =>
        simp only [hp] at h
        have h1 := ih items1 items' h
        have h2 := heapPush_perm _ _ _ _ hp
        simp only [List.filter_cons, hz, decide_True, if_true]
        refine h1.trans ?_
        have : (items ++ i :: rest.filter (fun i => decide (counts[i]? = some 0))) =
            (items ++ [i]) ++ rest.filter (fun i => decide (counts[i]? = some 0)) := by simp
        rw [this]
        exact List.Perm.append_right _ h2
    · simp only [hz, if_false] at h
      have h1 := ih items items' h
      simpa [List.filter_cons, hz] using h1

theorem countDeps_length (byHash : GoMap ChangeHash Nat) (i : Nat) :
    ∀ (deps : List ChangeHash) (t : TopoTables),
      (countDeps byHash i deps t).depsCount.length = t.depsCount.length := by
  intro deps
  induction deps with
  | nil => intro t; rfl
  | cons dep rest ih =>
    intro t
    unfold countDeps
    cases GoMap.get? byHash dep with
    | none => exact ih t
    | some j =>
      simp only
      rw [ih]
      simp

theorem countAll_length (byHash : GoMap ChangeHash Nat) :
    ∀ (cs : List Change) (i : Nat) (t : TopoTables),
      (countAll byHash cs i t).depsCount.length = t.depsCount.length := by
  intro cs
  induction cs with
  | nil => intro i t; rfl
  | cons c rest ih =>
    intro i t
    unfold countAll
    rw [ih, countDeps_length]

/-- A duplicate-free list of `n` numbers below `n` holds every number below `n`. -/
theorem mem_of_nodup_of_length (l : List Nat) (n : Nat) (hnd : l.Nodup)
    (hlt : ∀ i ∈ l, i < n) (hlen : l.length = n) : ∀ i, i < n → i ∈ l := by
  have hsub : l ⊆ List.range n := fun i hi => List.mem_range.2 (hlt i hi)
  have hsp : l.Subperm (List.range n) := List.subperm_of_subset hnd hsub
  have hperm : l.Perm (List.range n) :=
    hsp.perm_of_length_le (by simp [hlen])
  intro i hi
  exact hperm.mem_iff.2 (List.mem_range.2 hi)

/-- The order that `orderChangeIndicesTopologically` returns holds every index of
the batch. -/
theorem order_covers (batch : List Change) (order : List Nat)
    (h : orderChangeIndicesTopologically batch = .ok order) :
    ∀ i, i < batch.length → i ∈ order := by
  unfold orderChangeIndicesTopologically at h
  by_cases hsmall : batch.length ≤ 1
  · simp only [hsmall, if_true] at h
    injection h with h
    subst h
    intro i hi
    exact List.mem_range.2 hi
  · simp only [hsmall, if_false] at h
    split at h
    · cases h
    · rename_i items hpush
      split at h
      · cases h
      · rename_i st hloop
        by_cases hlen : st.out.length ≠ batch.length
        · rw [if_pos hlen] at h
          injection h with h
          subst h
          intro i hi
          exact (List.perm_insertionSort _ _).mem_iff.2 (List.mem_range.2 hi)
        · rw [if_neg hlen] at h
          injection h with h
          subst h
          have hlen' : st.out.length = batch.length := by simpa using hlen
          have hcl := countAll_length (indexByHash batch 0 []) batch 0
            { depsCount := List.replicate batch.length 0, dependents := [] }
          simp only [List.length_replicate] at hcl
          have hperm := pushInitial_perm _ _ _ _ _ hpush
          simp only [List.nil_append] at hperm
          have hinv0 : TopoInv batch.length
              { depsCount := (countAll (indexByHash batch 0 []) batch 0
                  { depsCount := List.replicate batch.length 0, dependents := [] }).depsCount,
                items := items, out := [] } := by
            refine ⟨?_, hcl, ?_⟩
            · simp only [List.nil_append]
              exact hperm.nodup_iff.2 ((List.nodup_range _).filter _)
            · intro i hi
              simp only [List.nil_append] at hi
              have := hperm.mem_iff.1 hi
              have hz := (List.mem_filter.1 this).2
              exact ⟨0, by simpa using hz, le_refl _⟩
          obtain ⟨hnd, hl, hcnt⟩ := topoLoop_inv _ _ _ _ _ _ hinv0 hloop
          refine mem_of_nodup_of_length st.out batch.length
            (List.Nodup.of_append_left hnd) ?_ hlen'
          intro i hi
          obtain ⟨k, hk, -⟩ := hcnt i (List.mem_append_left _ hi)
          rw [← hl]
          exact (List.getElem?_eq_some.1 hk).1

end automerge

/-! ## Causal queueing -/

namespace changegraph

open model Graph

theorem hasChange_addChange (g g' : Graph) (m : ChangeMeta) (h : g.AddChange m = .ok g')
    (x : ChangeHash) : g'.HasChange x = true ↔ g.HasChange x = true ∨ x = m.Hash := by
  obtain ⟨-, -, depIdx, -, rfl⟩ := AddChange_ok g g' m h
  rw [hasChange_iff, hasChange_iff]
  dsimp only
  by_cases hx : x = m.Hash
  · subst hx
    simp [GoMap.get?_set_self]
  · rw [GoMap.get?_set_ne _ _ _ _ hx]
    simp [hx]

theorem WellFormed.hashForActorSeq_known {g : Graph} (wf : WellFormed g) (a s : Nat)
    (h : ChangeHash) (hh : g.HashForActorSeq a s = .ok (some h)) : g.HasChange h = true := by
  unfold HashForActorSeq at hh
  by_cases hs : s = 0
  · simp [hs] at hh
  · simp only [hs, if_false] at hh
    by_cases hg : intOfUint64 s > ((g.actorIndexes a).length : Int)
    · simp [hg] at hh
    · simp only [hg, if_false] at hh
      split at hh
      · cases hh
      · split at hh
        · cases hh
        · rename_i n hn
          injection hh with hh
          injection hh with hh
          subst hh
          exact (hasChange_iff g _).2 ⟨_, (wf.byHash_iff _ _).2 ⟨n, hn, rfl⟩⟩

end changegraph

namespace automerge

open model changegraph

theorem applyOneChange_spec (d : Document) (c : Change) :
    (d.applyOneChange c).doc.queue = d.queue ∧
    ((d.applyOneChange c).err = none →
      ∀ x, (d.applyOneChange c).doc.hasChange x = true ↔ d.hasChange x = true ∨ x = c.Hash) := by
  unfold Document.applyOneChange
  split
  · exact ⟨rfl, fun h => by cases h⟩
  · split
    · exact ⟨rfl, fun h => by cases h⟩
    · rename_i g hadd
      refine ⟨rfl, fun _ x => ?_⟩
      exact hasChange_addChange _ _ _ hadd x

/-- A run of the third loop without error leaves the queue alone, adds only hashes
of the batch to the graph, and leaves every change whose index is in the order in
the graph. -/
theorem applyLoop_spec (batch : List Change) :
    ∀ (order : List Nat) (d : Document), (applyLoop batch order d).err = none →
      (applyLoop batch order d).doc.queue = d.queue ∧
      (∀ x, d.hasChange x = true → (applyLoop batch order d).doc.hasChange x = true) ∧
      (∀ x, (applyLoop batch order d).doc.hasChange x = true →
        d.hasChange x = true ∨ ∃ c ∈ batch, c.Hash = x) ∧
      (∀ idx ∈ order, ∃ c, batch[idx]? = some c ∧
        (applyLoop batch order d).doc.hasChange c.Hash = true) := by
  intro order
  induction order with
  | nil =>
    intro d _
    exact ⟨rfl, fun x hx => hx, fun x hx => Or.inl hx, fun idx hidx => by cases hidx⟩
  | cons idx rest ih =>
    intro d herr
    unfold applyLoop at herr ⊢
    cases hb : batch[idx]? with
    | none => simp [hb] at herr
    | some c =>
      simp only [hb] at herr ⊢
      by_cases hhas : d.hasChange c.Hash = true
      · simp only [hhas, if_true] at herr ⊢
        obtain ⟨h1, h2, h3, h4⟩ := ih d herr
        refine ⟨h1, h2, h3, ?_⟩
        intro i hi
        rcases List.mem_cons.1 hi with rfl | hi
        · exact ⟨c, hb, h2 _ hhas⟩
        · exact h4 i hi
      · have hhas' : d.hasChange c.Hash = false := by simpa using hhas
        simp only [hhas', Bool.false_eq_true, if_false] at herr ⊢
        obtain ⟨hq, hadd⟩ := applyOneChange_spec d c
        cases hres : d.applyOneChange c with
        | mk d1 e1 =>
          rw [hres] at hq hadd herr
          cases e1 with
          | some e => simp at herr
          | none =>
            simp only at herr hq hadd ⊢
            have hadd' := hadd trivial
            obtain ⟨h1, h2, h3, h4⟩ := ih d1 herr
            refine ⟨h1.trans hq, ?_, ?_, ?_⟩
            · intro x hx
              exact h2 x ((hadd' x).2 (Or.inl hx))
            · intro x hx
              rcases h3 x hx with h | h
              · rcases (hadd' x).1 h with h | h
                · exact Or.inl h
                · exact Or.inr ⟨c, List.mem_iff_getElem?.2 ⟨_, hb⟩, h.symm⟩
              · exact Or.inr h
            · intro i hi
              rcases List.mem_cons.1 hi with rfl | hi
              · exact ⟨c, hb, h2 _ ((hadd' _).2 (Or.inr rfl))⟩
              · exact h4 i hi

end automerge

namespace automerge

open model changegraph

theorem contains_set_unit (m : GoMap ChangeHash Unit) (k h : ChangeHash) :
    GoMap.contains (GoMap.set m k ()) h = true ↔ GoMap.contains m h = true ∨ h = k := by
  unfold GoMap.contains
  by_cases hk : h = k
  · subst hk
    simp [GoMap.get?_set_self]
  · rw [GoMap.get?_set_ne _ _ _ _ hk]
    simp [hk]

theorem ReadyIsBatch.push {st : Intake} (h : ReadyIsBatch st) (c : Change) (d : Document) :
    ReadyIsBatch { doc := d, batch := st.batch ++ [c], ready := GoMap.set st.ready c.Hash () } := by
  intro x
  dsimp only
  rw [contains_set_unit, h x]
  constructor
  · rintro (⟨c', hc', rfl⟩ | rfl)
    · exact ⟨c', List.mem_append_left _ hc', rfl⟩
    · exact ⟨c, List.mem_append_right _ (List.mem_singleton_self _), rfl⟩
  · rintro ⟨c', hc', rfl⟩
    rcases List.mem_append.1 hc' with hc' | hc'
    · exact Or.inl ⟨c', hc', rfl⟩
    · rw [List.mem_singleton] at hc'
      subst hc'
      exact Or.inr rfl

/-- The first loop, when it ends without error: the graph is untouched, and every
change of the input was already in the graph, or is in the batch, or is queued. -/
theorem intakeLoop_spec :
    ∀ (changes : List Change) (st st' : Intake), WellFormed st.doc.graph → ReadyIsBatch st →
      intakeLoop none changes st = (st', none) →
      st'.doc.graph = st.doc.graph ∧ ReadyIsBatch st' ∧
      (∀ c ∈ changes, st.doc.hasChange c.Hash = true ∨ c ∈ st'.batch ∨ c ∈ st'.doc.queue) ∧
      (∀ c ∈ st.batch, c ∈ st'.batch) ∧ (∀ c ∈ st.doc.queue, c ∈ st'.doc.queue) := by
  intro changes
  induction changes with
  | nil =>
    intro st st' _ hr h
    simp only [intakeLoop, Prod.mk.injEq, and_true] at h
    subst h
    exact ⟨rfl, hr, fun c hc => absurd hc (List.not_mem_nil c), fun c hc => hc,
      fun c hc => hc⟩
  | cons c rest ih =>
    intro st st' wf hr h
    unfold intakeLoop at h
    simp only [remapChangeActors] at h
    by_cases hhas : st.doc.hasChange c.Hash = true
    · simp only [hhas, if_true] at h
      obtain ⟨h1, h2, h3, h4, h5⟩ := ih st st' wf hr h
      refine ⟨h1, h2, ?_, h4, h5⟩
      intro x hx
      rcases List.mem_cons.1 hx with rfl | hx
      · exact Or.inl hhas
      · exact h3 x hx
    · have hhas' : st.doc.hasChange c.Hash = false := by simpa using hhas
      simp only [hhas', Bool.false_eq_true, if_false] at h
      cases hlook : st.doc.graph.HashForActorSeq c.Actor c.Seq with
      | error e => simp [hlook] at h
      | ok r =>
        cases r with
        | some existing =>
          simp only [hlook] at h
          by_cases hex : existing = c.Hash
          · exfalso
            have := wf.hashForActorSeq_known _ _ _ hlook
            rw [hex] at this
            unfold Document.hasChange at hhas'
            rw [hhas'] at this
            cases this
          · simp [hex] at h
        | none =>
          simp only [hlook] at h
          by_cases hready : st.doc.isCausallyReady c st.ready = true
          · simp only [hready, if_true] at h
            obtain ⟨h1, h2, h3, h4, h5⟩ :=
              ih { st with batch := st.batch ++ [c], ready := GoMap.set st.ready c.Hash () } st'
                wf (hr.push c st.doc) h
            refine ⟨h1, h2, ?_, ?_, h5⟩
            · intro x hx
              rcases List.mem_cons.1 hx with rfl | hx
              · exact Or.inr (Or.inl (h4 x (List.mem_append_right _ (List.mem_singleton_self _))))
              · exact h3 x hx
            · intro x hx
              exact h4 x (List.mem_append_left _ hx)
          · have hready' : st.doc.isCausallyReady c st.ready = false := by simpa using hready
            simp only [hready', Bool.false_eq_true, if_false] at h
            obtain ⟨h1, h2, h3, h4, h5⟩ :=
              ih { st with doc := { st.doc with queue := st.doc.queue ++ [c] } } st' wf hr h
            refine ⟨h1, h2, ?_, h4, ?_⟩
            · intro x hx
              rcases List.mem_cons.1 hx with rfl | hx
              · exact Or.inr (Or.inr (h5 x (List.mem_append_right _ (List.mem_singleton_self _))))
              · exact h3 x hx
            · intro x hx
              exact h5 x (List.mem_append_left _ hx)

theorem firstReady_none (d : Document) (ready : GoMap ChangeHash Unit) :
    ∀ (l : List Change) (off : Nat), Document.firstReady d ready l off = none →
      ∀ q ∈ l, d.isCausallyReady q ready = false := by
  intro l
  induction l with
  | nil => intro off _ q hq; cases hq
  | cons c rest ih =>
    intro off h q hq
    unfold Document.firstReady at h
    by_cases hc : d.isCausallyReady c ready = true
    · simp [hc] at h
    · simp only [hc, if_false] at h
      rcases List.mem_cons.1 hq with rfl | hq
      · simpa using hc
      · exact ih _ h q hq

theorem firstReady_some (d : Document) (ready : GoMap ChangeHash Unit) :
    ∀ (l : List Change) (off i : Nat), Document.firstReady d ready l off = some i →
      off ≤ i ∧ ∃ c, l[i - off]? = some c ∧ d.isCausallyReady c ready = true := by
  intro l
  induction l with
  | nil => intro off i h; simp [Document.firstReady] at h
  | cons c rest ih =>
    intro off i h
    unfold Document.firstReady at h
    by_cases hc : d.isCausallyReady c ready = true
    · simp only [hc, if_true] at h
      injection h with h
      subst h
      exact ⟨le_refl _, c, by simp, hc⟩
    · simp only [hc, if_false] at h
      obtain ⟨hle, c', hc', hr⟩ := ih _ _ h
      refine ⟨by omega, c', ?_, hr⟩
      have : i - off = (i - (off + 1)) + 1 := by omega
      rw [this]
      simpa using hc'

theorem popNext_none (d : Document) (ready : GoMap ChangeHash Unit)
    (h : d.popNextCausallyReady ready = none) :
    ∀ q ∈ d.queue, d.isCausallyReady q ready = false := by
  unfold Document.popNextCausallyReady at h
  cases hf : Document.firstReady d ready d.queue 0 with
  | none => exact firstReady_none d ready _ _ hf
  | some i =>
    exfalso
    obtain ⟨-, c, hc, -⟩ := firstReady_some d ready _ _ _ hf
    simp only [Nat.sub_zero] at hc
    have hne : d.queue ≠ [] := by
      intro e
      rw [e] at hc
      simp at hc
    obtain ⟨lastC, hlast⟩ : ∃ x, d.queue.getLast? = some x :=
      ⟨d.queue.getLast hne, List.getLast?_eq_getLast _ hne⟩
    simp [hf, hc, hlast] at h

theorem popNext_some (d d1 : Document) (ready : GoMap ChangeHash Unit) (c : Change)
    (h : d.popNextCausallyReady ready = some (c, d1)) :
    d1.graph = d.graph ∧ d.isCausallyReady c ready = true ∧
    (∀ x ∈ d.queue, x = c ∨ x ∈ d1.queue) ∧ d1.queue.length + 1 = d.queue.length := by
  unfold Document.popNextCausallyReady at h
  cases hf : Document.firstReady d ready d.queue 0 with
  | none => simp [hf] at h
  | some i =>
    obtain ⟨-, c', hc', hr⟩ := firstReady_some d ready _ _ _ hf
    simp only [Nat.sub_zero] at hc'
    simp only [hf, hc'] at h
    cases hl : d.queue.getLast? with
    | none => simp [hl] at h
    | some lastC =>
      simp only [hl, Option.some.injEq, Prod.mk.injEq] at h
      obtain ⟨h1, h2⟩ := h
      subst h1 h2
      have hilt : i < d.queue.length := (List.getElem?_eq_some.1 hc').1
      refine ⟨rfl, hr, ?_, ?_⟩
      · intro x hx
        obtain ⟨j, hj⟩ := List.mem_iff_getElem?.1 hx
        have hjlt : j < d.queue.length := (List.getElem?_eq_some.1 hj).1
        by_cases hji : j = i
        · subst hji
          rw [hc'] at hj
          injection hj with hj
          exact Or.inl hj.symm
        · right
          dsimp only
          rw [List.getLast?_eq_getElem?] at hl
          by_cases hjl : j = d.queue.length - 1
          · -- the last item was moved to position `i`
            subst hjl
            rw [hl] at hj
            injection hj with hj
            subst hj
            refine List.mem_iff_getElem?.2 ⟨i, ?_⟩
            rw [List.getElem?_dropLast, List.length_set, if_pos (by omega), List.getElem?_set]
            simp [hilt]
          · refine List.mem_iff_getElem?.2 ⟨j, ?_⟩
            rw [List.getElem?_dropLast, List.length_set, if_pos (by omega), List.getElem?_set]
            have : ¬ i = j := fun e => hji e.symm
            simp [this, hj]
      · dsimp only
        rw [List.length_dropLast, List.length_set]
        omega

/-- The second loop, when it returns: the graph is untouched, every change that was
queued is now in the batch or still queued, and no queued change is ready. -/
theorem drainLoop_spec :
    ∀ (fuel : Nat) (st st' : Intake), ReadyIsBatch st → drainLoop fuel st = .ok st' →
      st'.doc.graph = st.doc.graph ∧ ReadyIsBatch st' ∧
      (∀ c ∈ st.doc.queue, c ∈ st'.batch ∨ c ∈ st'.doc.queue) ∧
      (∀ c ∈ st.batch, c ∈ st'.batch) ∧
      (∀ q ∈ st'.doc.queue, st'.doc.isCausallyReady q st'.ready = false) := by
  intro fuel
  induction fuel with
  | zero => intro st st' _ h; simp [drainLoop] at h
  | succ fuel ih =>
    intro st st' hr h
    unfold drainLoop at h
    cases hp : st.doc.popNextCausallyReady st.ready with
    | none =>
      simp only [hp] at h
      injection h with h
      subst h
      exact ⟨rfl, hr, fun c hc => Or.inr hc, fun c hc => hc, popNext_none _ _ hp⟩
    | some r =>
      obtain ⟨next, d1⟩ := r
      simp only [hp] at h
      obtain ⟨hg, -, hmem, -⟩ := popNext_some _ _ _ _ hp
      obtain ⟨h1, h2, h3, h4, h5⟩ := ih _ st' (hr.push next d1) h
      refine ⟨h1.trans hg, h2, ?_, ?_, h5⟩
      · intro c hc
        rcases hmem c hc with rfl | hc
        · exact Or.inl (h4 c (List.mem_append_right _ (List.mem_singleton_self _)))
        · exact h3 c hc
      · intro c hc
        exact h4 c (List.mem_append_left _ hc)

/-- The second loop does not run out of fuel when the fuel exceeds the length of
the queue. -/
theorem drainLoop_total :
    ∀ (fuel : Nat) (st : Intake), st.doc.queue.length < fuel →
      ∃ st', drainLoop fuel st = .ok st' := by
  intro fuel
  induction fuel with
  | zero => intro st h; omega
  | succ fuel ih =>
    intro st hlen
    unfold drainLoop
    cases hp : st.doc.popNextCausallyReady st.ready with
    | none => exact ⟨st, rfl⟩
    | some r =>
      obtain ⟨next, d1⟩ := r
      obtain ⟨-, -, -, hl⟩ := popNext_some _ _ _ _ hp
      exact ih _ (by dsimp only; omega)

end automerge

namespace automerge

open model changegraph

/-- The stages of a call of `ApplyChanges` that returns no error. -/
theorem ApplyChanges_stages (d : Document) (changes : List Change)
    (hok : (d.ApplyChanges changes).err = none) :
    ∃ st st1 order,
      intakeLoop none changes { doc := d, ready := [], batch := [] } = (st, none) ∧
      drainLoop (st.doc.queue.length + 1) st = .ok st1 ∧
      orderChangeIndicesTopologically st1.batch = .ok order ∧
      d.ApplyChanges changes = applyLoop st1.batch order st1.doc := by
  unfold Document.ApplyChanges Document.ApplyChangesWithActorMap at hok ⊢
  cases h1 : intakeLoop none changes { doc := d, ready := [], batch := [] } with
  | mk st e =>
    cases e with
    | some e => simp [h1] at hok
    | none =>
      simp only [h1] at hok ⊢
      cases h2 : drainLoop (st.doc.queue.length + 1) st with
      | error e => simp [h2] at hok
      | ok st1 =>
        simp only [h2] at hok ⊢
        cases h3 : orderChangeIndicesTopologically st1.batch with
        | error e => simp [h3] at hok
        | ok order => exact ⟨st, st1, order, rfl, h2, h3, rfl⟩

theorem isCausallyReady_false (d : Document) (c : Change) (ready : GoMap ChangeHash Unit)
    (h : d.isCausallyReady c ready = false) :
    ∃ dep ∈ c.Deps, d.hasChange dep = false ∧ GoMap.contains ready dep = false := by
  unfold Document.isCausallyReady at h
  obtain ⟨dep, hdep, hx⟩ := List.all_eq_false.1 h
  refine ⟨dep, hdep, ?_⟩
  simpa using hx

end automerge

/-! ## The heap returns the smallest hash -/

namespace automerge

open model changegraph

theorem hashOfIndex_ok (batch : List Change) (x : Nat) (h : x < batch.length) :
    hashOfIndex batch x = .ok (keyOf batch x) := by
  unfold hashOfIndex keyOf
  rw [List.getElem?_eq_getElem h]
  rfl

theorem lessPos_ok (batch : List Change) (items : List Nat) (i j : Nat)
    (hv : ValidItems batch.length items) (hi : i < items.length) (hj : j < items.length) :
    lessPos batch items i j = .ok (decide (keyAt batch items i < keyAt batch items j)) := by
  unfold lessPos keyAt
  rw [List.getElem?_eq_getElem hi, List.getElem?_eq_getElem hj]
  simp only [Option.getD_some]
  rw [hashOfIndex_ok batch _ (hv _ (List.getElem_mem hi)),
    hashOfIndex_ok batch _ (hv _ (List.getElem_mem hj))]

theorem swapItems_ok (batch : List Change) (items : List Nat) (i j : Nat)
    (hi : i < items.length) (hj : j < items.length) :
    ∃ items', swapItems items i j = .ok items' ∧ items'.length = items.length ∧
      ∀ k, keyAt batch items' k =
        if k = j then keyAt batch items i
        else if k = i then keyAt batch items j else keyAt batch items k := by
  have ha : items[i]? = some items[i] := List.getElem?_eq_getElem hi
  have hb : items[j]? = some items[j] := List.getElem?_eq_getElem hj
  refine ⟨(items.set i items[j]).set j items[i], ?_, by simp, ?_⟩
  · simp [swapItems, ha, hb]
  · intro k
    unfold keyAt
    by_cases hkj : k = j
    · subst hkj
      simp [List.getElem?_set, hj, ha]
    · by_cases hki : k = i
      · subst hki
        simp [List.getElem?_set, hkj, Ne.symm hkj, hi, hb]
      · simp [List.getElem?_set, hkj, hki, Ne.symm hkj, Ne.symm hki]

theorem validItems_perm (n : Nat) (items items' : List Nat) (h : items'.Perm items)
    (hv : ValidItems n items) : ValidItems n items' :=
  fun x hx => hv x (h.mem_iff.1 hx)

theorem siftUp_spec (batch : List Change) :
    ∀ (fuel : Nat) (items : List Nat) (i : Nat), i < fuel → i < items.length →
      ValidItems batch.length items → HeapUp batch items i →
      ∃ items', siftUp batch fuel items i = .ok items' ∧ IsHeap batch items' := by
  intro fuel
  induction fuel with
  | zero => intro items i h; omega
  | succ fuel ih =>
    intro items i hfuel hi hv hup
    unfold siftUp
    by_cases hi0 : i > 0
    · simp only [hi0, if_true]
      have hp : (i - 1) / 2 < items.length := by omega
      rw [lessPos_ok batch items i _ hv hi hp]
      by_cases hlt : keyAt batch items i < keyAt batch items ((i - 1) / 2)
      · simp only [hlt, decide_True]
        obtain ⟨items1, hsw, hlen, hkey⟩ := swapItems_ok batch items i ((i - 1) / 2) hi hp
        simp only [hsw]
        have hv1 : ValidItems batch.length items1 :=
          validItems_perm _ _ _ (swapItems_perm _ _ _ _ hsw) hv
        apply ih items1 ((i - 1) / 2) (by omega) (by omega) hv1
        constructor
        · intro k hk0 hkl hkp
          rw [hlen] at hkl
          rw [hkey k, hkey ((k - 1) / 2), if_neg hkp]
          by_cases hki : k = i
          · rw [if_pos hki, hki, if_pos rfl]
            omega
          · rw [if_neg hki]
            by_cases hpk : (k - 1) / 2 = (i - 1) / 2
            · rw [if_pos hpk]
              have c1 := hup.1 k hk0 hkl hki
              rw [hpk] at c1
              omega
            · rw [if_neg hpk]
              by_cases hpi : (k - 1) / 2 = i
              · rw [if_pos hpi]
                exact hup.2 k hk0 hkl hpi hi0
              · rw [if_neg hpi]
                exact hup.1 k hk0 hkl hki
        · intro k hk0 hkl hkp hp0
          rw [hlen] at hkl
          rw [hkey k, hkey (((i - 1) / 2 - 1) / 2)]
          have h1 : ((i - 1) / 2 - 1) / 2 ≠ (i - 1) / 2 := by omega
          have h2 : ((i - 1) / 2 - 1) / 2 ≠ i := by omega
          have h3 : k ≠ (i - 1) / 2 := by omega
          rw [if_neg h1, if_neg h2, if_neg h3]
          have hpar := hup.1 ((i - 1) / 2) hp0 hp (by omega)
          by_cases hki : k = i
          · rw [if_pos hki]
            exact hpar
          · rw [if_neg hki]
            have c := hup.1 k hk0 hkl hki
            rw [hkp] at c
            omega
      · simp only [hlt, decide_False]
        refine ⟨items, rfl, ?_⟩
        intro k hk0 hkl
        have c1 := hup.1 k hk0 hkl
        by_cases hki : k = i
        · rw [hki]
          omega
        · exact c1 hki
    · simp only [hi0, if_false]
      refine ⟨items, rfl, ?_⟩
      intro k hk0 hkl
      exact hup.1 k hk0 hkl (by omega)

theorem keyAt_append_left (batch : List Change) (items : List Nat) (v k : Nat)
    (h : k < items.length) : keyAt batch (items ++ [v]) k = keyAt batch items k := by
  unfold keyAt
  rw [List.getElem?_append_left h]

/-- Pushing on a heap gives a heap with the new item. -/
theorem heapPush_spec (batch : List Change) (items : List Nat) (v : Nat)
    (hv : ValidItems batch.length items) (hvv : v < batch.length)
    (hh : IsHeap batch items) :
    ∃ items', heapPush batch items v = .ok items' ∧ IsHeap batch items' ∧
      items'.Perm (items ++ [v]) ∧ ValidItems batch.length items' := by
  have hv1 : ValidItems batch.length (items ++ [v]) := by
    intro x hx
    rcases List.mem_append.1 hx with h | h
    · exact hv x h
    · simp at h; omega
  have hup : HeapUp batch (items ++ [v]) ((items ++ [v]).length - 1) := by
    constructor
    · intro k hk0 hkl hkn
      simp only [List.length_append, List.length_singleton] at hkl hkn
      rw [keyAt_append_left _ _ _ _ (by omega), keyAt_append_left _ _ _ _ (by omega)]
      exact hh k hk0 (by omega)
    · intro k hk0 hkl hkp
      simp only [List.length_append, List.length_singleton] at hkl hkp
      omega
  obtain ⟨items', hok, hheap⟩ := siftUp_spec batch ((items ++ [v]).length + 1) (items ++ [v])
    ((items ++ [v]).length - 1) (by omega) (by simp) hv1 hup
  have hperm := heapPush_perm batch items v items' hok
  exact ⟨items', hok, hheap, hperm, validItems_perm _ _ _ hperm hv1⟩

theorem siftDown_spec (batch : List Change) :
    ∀ (fuel : Nat) (items : List Nat) (i : Nat), items.length < fuel + i → i < items.length →
      ValidItems batch.length items → HeapDown batch items i →
      ∃ items', siftDown batch fuel items i = .ok items' ∧ IsHeap batch items' := by
  intro fuel
  induction fuel with
  | zero => intro items i h h'; omega
  | succ fuel ih =>
    intro items i hfuel hi hv hdown
    unfold siftDown
    simp only
    have hb1 : (if 2 * i + 1 < items.length then lessPos batch items (2 * i + 1) i
        else .ok false) = .ok (decide (2 * i + 1 < items.length ∧
          keyAt batch items (2 * i + 1) < keyAt batch items i)) := by
      by_cases hl : 2 * i + 1 < items.length
      · rw [if_pos hl, lessPos_ok batch items _ _ hv hl hi]
        simp [hl]
      · simp [hl]
    rw [hb1]
    simp only
    generalize hs1 : (if decide (2 * i + 1 < items.length ∧
          keyAt batch items (2 * i + 1) < keyAt batch items i) = true then 2 * i + 1 else i) = s1
    have hs1l : s1 < items.length := by
      rw [← hs1]; split_ifs with h
      · simp at h; exact h.1
      · exact hi
    have hb2 : (if 2 * i + 1 + 1 < items.length then lessPos batch items (2 * i + 1 + 1) s1
        else .ok false) = .ok (decide (2 * i + 1 + 1 < items.length ∧
          keyAt batch items (2 * i + 1 + 1) < keyAt batch items s1)) := by
      by_cases hr : 2 * i + 1 + 1 < items.length
      · rw [if_pos hr, lessPos_ok batch items _ _ hv hr hs1l]
        simp [hr]
      · simp [hr]
    rw [hb2]
    simp only
    generalize hs : (if decide (2 * i + 1 + 1 < items.length ∧
          keyAt batch items (2 * i + 1 + 1) < keyAt batch items s1) = true
          then 2 * i + 1 + 1 else s1) = s
    -- the facts on the chosen position
    have hfacts : s < items.length ∧ (s = i ∨ s = 2 * i + 1 ∨ s = 2 * i + 2) ∧
        keyAt batch items s ≤ keyAt batch items i ∧
        (2 * i + 1 < items.length → keyAt batch items s ≤ keyAt batch items (2 * i + 1)) ∧
        (2 * i + 2 < items.length → keyAt batch items s ≤ keyAt batch items (2 * i + 2)) ∧
        (s ≠ i → keyAt batch items s < keyAt batch items i) := by
      subst hs hs1
      have e : 2 * i + 2 = 2 * i + 1 + 1 := rfl
      rw [e]
      by_cases h1 : 2 * i + 1 < items.length ∧
          keyAt batch items (2 * i + 1) < keyAt batch items i
      · rw [if_pos (decide_eq_true h1)]
        by_cases h2 : 2 * i + 1 + 1 < items.length ∧
            keyAt batch items (2 * i + 1 + 1) < keyAt batch items (2 * i + 1)
        · rw [if_pos (decide_eq_true h2)]
          exact ⟨h2.1, Or.inr (Or.inr rfl), by omega, fun _ => by omega, fun _ => le_refl _,
            fun _ => by omega⟩
        · rw [if_neg (fun h => h2 (of_decide_eq_true h))]
          refine ⟨h1.1, Or.inr (Or.inl rfl), by omega, fun _ => le_refl _, fun hr => ?_,
            fun _ => h1.2⟩
          have : ¬ keyAt batch items (2 * i + 1 + 1) < keyAt batch items (2 * i + 1) :=
            fun hc => h2 ⟨hr, hc⟩
          omega
      · rw [if_neg (fun h => h1 (of_decide_eq_true h))]
        by_cases h2 : 2 * i + 1 + 1 < items.length ∧
            keyAt batch items (2 * i + 1 + 1) < keyAt batch items i
        · rw [if_pos (decide_eq_true h2)]
          refine ⟨h2.1, Or.inr (Or.inr rfl), by omega, fun hl => ?_, fun _ => le_refl _,
            fun _ => h2.2⟩
          have : ¬ keyAt batch items (2 * i + 1) < keyAt batch items i :=
            fun hc => h1 ⟨hl, hc⟩
          omega
        · rw [if_neg (fun h => h2 (of_decide_eq_true h))]
          refine ⟨hi, Or.inl rfl, le_refl _, fun hl => ?_, fun hr => ?_, fun hc => absurd rfl hc⟩
          · have : ¬ keyAt batch items (2 * i + 1) < keyAt batch items i :=
              fun hc => h1 ⟨hl, hc⟩
            omega
          · have : ¬ keyAt batch items (2 * i + 1 + 1) < keyAt batch items i :=
              fun hc => h2 ⟨hr, hc⟩
            omega
    obtain ⟨hsl, hscase, hsi, hsleft, hsright, hslt⟩ := hfacts
    by_cases hsi' : s = i
    · simp only [if_pos hsi']
      refine ⟨items, rfl, ?_⟩
      intro k hk0 hkl
      by_cases hkp : (k - 1) / 2 = i
      · rw [hkp]
        have hk : k = 2 * i + 1 ∨ k = 2 * i + 2 := by omega
        rcases hk with hk | hk
        · subst hk
          have := hsleft hkl
          rw [hsi'] at this
          exact this
        · subst hk
          have := hsright hkl
          rw [hsi'] at this
          exact this
      · exact hdown.1 k hk0 hkl hkp
    · simp only [if_neg hsi']
      obtain ⟨items1, hsw, hlen, hkey⟩ := swapItems_ok batch items i s hi hsl
      simp only [hsw]
      have hv1 : ValidItems batch.length items1 :=
        validItems_perm _ _ _ (swapItems_perm _ _ _ _ hsw) hv
      have hsgt : i < s := by omega
      have hsp : (s - 1) / 2 = i := by omega
      apply ih items1 s (by omega) (by omega) hv1
      have c0 := hslt hsi'
      constructor
      · intro k hk0 hkl hkp
        rw [hlen] at hkl
        rw [hkey k, hkey ((k - 1) / 2), if_neg hkp]
        by_cases hks : k = s
        · rw [if_pos hks, hks, hsp, if_pos rfl]
          omega
        · rw [if_neg hks]
          by_cases hki : k = i
          · have hne : (k - 1) / 2 ≠ i := by omega
            rw [if_pos hki, if_neg hne]
            have c2 := hdown.2 s (by omega) hsl hsp (by omega)
            have c1 := hdown.1 k hk0 hkl hne
            rw [hki] at c1 ⊢
            exact c2
          · rw [if_neg hki]
            by_cases hpi : (k - 1) / 2 = i
            · rw [if_pos hpi]
              have hk : k = 2 * i + 1 ∨ k = 2 * i + 2 := by omega
              rcases hk with hk | hk
              · rw [hk]; exact hsleft (hk ▸ hkl)
              · rw [hk]; exact hsright (hk ▸ hkl)
            · rw [if_neg hpi]
              exact hdown.1 k hk0 hkl hpi
      · intro k hk0 hkl hkp hs0
        rw [hlen] at hkl
        rw [hkey k, hkey ((s - 1) / 2)]
        have h1 : k ≠ s := by omega
        have h2 : k ≠ i := by omega
        have h3 : (s - 1) / 2 ≠ s := by omega
        rw [if_neg h1, if_neg h2, if_neg h3, if_pos hsp]
        have c := hdown.1 k hk0 hkl (by omega)
        rw [hkp] at c
        exact c

theorem IsHeap.root_le (batch : List Change) (items : List Nat) (hh : IsHeap batch items) :
    ∀ k, k < items.length → keyAt batch items 0 ≤ keyAt batch items k := by
  intro k
  induction k using Nat.strong_induction_on with
  | _ k ih =>
    intro hk
    by_cases hk0 : k = 0
    · rw [hk0]
    · have h1 := hh k (by omega) hk
      have h2 := ih ((k - 1) / 2) (by omega) (by omega)
      omega

theorem keyAt_of_getElem? (batch : List Change) (items : List Nat) (k x : Nat)
    (h : items[k]? = some x) : keyAt batch items k = keyOf batch x := by
  unfold keyAt
  rw [h]
  rfl

/-- Popping from a heap returns an item with the smallest hash and leaves a heap. -/
theorem heapPop_spec (batch : List Change) (items : List Nat)
    (hv : ValidItems batch.length items) (hh : IsHeap batch items) (hne : 0 < items.length) :
    ∃ x items', heapPop batch items = .ok (x, items') ∧ IsHeap batch items' ∧
      items.Perm (x :: items') ∧ ValidItems batch.length items' ∧
      ∀ y ∈ items, keyOf batch x ≤ keyOf batch y := by
  have h0 : items[0]? = some items[0] := List.getElem?_eq_getElem hne
  have hmin : ∀ y ∈ items, keyOf batch items[0] ≤ keyOf batch y := by
    intro y hy
    obtain ⟨k, hk⟩ := List.mem_iff_getElem?.1 hy
    have hkl : k < items.length := (List.getElem?_eq_some.1 hk).1
    have := IsHeap.root_le batch items hh k hkl
    rw [keyAt_of_getElem? batch items 0 _ h0, keyAt_of_getElem? batch items k y hk] at this
    exact this
  obtain ⟨lastItem, hlast⟩ : ∃ l, items.getLast? = some l := by
    cases hl : items.getLast? with
    | some l => exact ⟨l, rfl⟩
    | none =>
      rw [List.getLast?_eq_none_iff] at hl
      rw [hl] at hne
      simp at hne
  have hfin : ∀ items', heapPop batch items = .ok (items[0], items') → IsHeap batch items' →
      ∃ x items', heapPop batch items = .ok (x, items') ∧ IsHeap batch items' ∧
        items.Perm (x :: items') ∧ ValidItems batch.length items' ∧
        ∀ y ∈ items, keyOf batch x ≤ keyOf batch y := by
    intro items' hok hheap
    have hperm := heapPop_perm batch items _ items' hok
    refine ⟨items[0], items', hok, hheap, hperm, ?_, hmin⟩
    intro y hy
    exact hv y (hperm.mem_iff.2 (List.mem_cons_of_mem _ hy))
  by_cases hlen : items.dropLast.length = 0
  · apply hfin items.dropLast
    · unfold heapPop
      simp only [h0, hlast, hlen, if_true]
    · intro k hk0 hkl
      omega
  · have hlen1 : items.dropLast.length = items.length - 1 := by simp
    have hvs : ValidItems batch.length (items.dropLast.set 0 lastItem) := by
      intro y hy
      rcases List.mem_or_eq_of_mem_set hy with h | h
      · exact hv y (List.dropLast_subset items h)
      · rw [h]
        exact hv _ (List.mem_of_mem_getLast? hlast)
    have hkey : ∀ k, 0 < k → k < items.length - 1 →
        keyAt batch (items.dropLast.set 0 lastItem) k = keyAt batch items k := by
      intro k hk0 hkl
      unfold keyAt
      have : (items.dropLast.set 0 lastItem)[k]? = items[k]? := by
        rw [List.getElem?_set_ne (by omega), List.dropLast_eq_take, List.getElem?_take_of_lt hkl]
      rw [this]
    have hdown : HeapDown batch (items.dropLast.set 0 lastItem) 0 := by
      constructor
      · intro k hk0 hkl hkp
        simp only [List.length_set, hlen1] at hkl
        rw [hkey k hk0 hkl, hkey ((k - 1) / 2) (by omega) (by omega)]
        exact hh k hk0 (by omega)
      · intro k _ _ _ h
        omega
    obtain ⟨items2, hok, hheap⟩ := siftDown_spec batch (items.dropLast.length + 1)
      (items.dropLast.set 0 lastItem) 0 (by simp) (by simp; omega) hvs hdown
    apply hfin items2
    · unfold heapPop
      simp only [h0, hlast, hlen, if_false, hok]
    · exact hheap

end automerge

/-! ## The tables of the topological order -/

namespace automerge

open model changegraph

theorem indexByHash_absent :
    ∀ (cs : List Change) (i : Nat) (m : GoMap ChangeHash Nat) (h : ChangeHash),
      h ∉ cs.map Change.Hash → GoMap.get? (indexByHash cs i m) h = GoMap.get? m h := by
  intro cs
  induction cs with
  | nil => intro i m h _; rfl
  | cons c rest ih =>
    intro i m h hn
    simp only [List.map_cons, List.mem_cons, not_or] at hn
    unfold indexByHash
    rw [ih _ _ _ hn.2, GoMap.get?_set_ne _ _ _ _ hn.1]

theorem indexByHash_present :
    ∀ (cs : List Change) (i : Nat) (m : GoMap ChangeHash Nat) (k : Nat) (c : Change),
      (cs.map Change.Hash).Nodup → cs[k]? = some c →
      GoMap.get? (indexByHash cs i m) c.Hash = some (i + k) := by
  intro cs
  induction cs with
  | nil => intro i m k c _ h; simp at h
  | cons c0 rest ih =>
    intro i m k c hnd h
    simp only [List.map_cons, List.nodup_cons] at hnd
    unfold indexByHash
    cases k with
    | zero =>
      simp only [List.getElem?_cons_zero, Option.some.injEq] at h
      subst h
      rw [indexByHash_absent _ _ _ _ hnd.1, GoMap.get?_set_self]
      rfl
    | succ k =>
      simp only [List.getElem?_cons_succ] at h
      rw [ih (i + 1) _ k c hnd.2 h]
      congr 1
      omega

theorem byHash_some_iff (batch : List Change) (hnd : (batch.map Change.Hash).Nodup)
    (d : ChangeHash) (j : Nat) :
    GoMap.get? (indexByHash batch 0 []) d = some j ↔ ∃ c, batch[j]? = some c ∧ c.Hash = d := by
  constructor
  · intro h
    by_cases hd : d ∈ batch.map Change.Hash
    · obtain ⟨c, hc, hcd⟩ := List.mem_map.1 hd
      obtain ⟨k, hk⟩ := List.mem_iff_getElem?.1 hc
      have := indexByHash_present batch 0 [] k c hnd hk
      rw [hcd, h] at this
      simp only [Option.some.injEq, zero_add] at this
      subst this
      exact ⟨c, hk, hcd⟩
    · rw [indexByHash_absent _ _ _ _ hd] at h
      cases h
  · rintro ⟨c, hc, hcd⟩
    have := indexByHash_present batch 0 [] j c hnd hc
    rw [hcd] at this
    simpa using this

theorem byHash_isSome_iff (batch : List Change) (hnd : (batch.map Change.Hash).Nodup)
    (d : ChangeHash) :
    (GoMap.get? (indexByHash batch 0 []) d).isSome = true ↔ d ∈ batch.map Change.Hash := by
  constructor
  · intro h
    by_contra hd
    rw [indexByHash_absent _ _ _ _ hd] at h
    cases h
  · intro hd
    obtain ⟨c, hc, hcd⟩ := List.mem_map.1 hd
    obtain ⟨k, hk⟩ := List.mem_iff_getElem?.1 hc
    have := indexByHash_present batch 0 [] k c hnd hk
    rw [hcd] at this
    rw [this]
    rfl

theorem dependentsOf_set (m : GoMap Nat (List Nat)) (j0 j : Nat) (v : List Nat) :
    dependentsOf (GoMap.set m j0 v) j = if j = j0 then v else dependentsOf m j := by
  unfold dependentsOf
  by_cases h : j = j0
  · subst h
    rw [GoMap.get?_set_self, if_pos rfl]
    rfl
  · rw [GoMap.get?_set_ne _ _ _ _ h, if_neg h]

theorem countDeps_spec (byHash : GoMap ChangeHash Nat) (i : Nat) :
    ∀ (deps : List ChangeHash) (t : TopoTables),
      (∀ k, (countDeps byHash i deps t).depsCount[k]? =
        if k = i then (t.depsCount[k]?).map
          (fun c => c + ((deps.countP (fun d => (GoMap.get? byHash d).isSome) : Nat) : Int))
        else t.depsCount[k]?) ∧
      (∀ j, dependentsOf (countDeps byHash i deps t).dependents j =
        dependentsOf t.dependents j ++
          List.replicate (deps.countP (fun d => decide (GoMap.get? byHash d = some j))) i) := by
  intro deps
  induction deps with
  | nil =>
    intro t
    constructor
    · intro k
      simp only [countDeps, List.countP_nil, Nat.cast_zero, add_zero]
      split_ifs
      · cases t.depsCount[k]? <;> rfl
      · rfl
    · intro j
      simp [countDeps]
  | cons dep rest ih =>
    intro t
    unfold countDeps
    cases hget : GoMap.get? byHash dep with
    | none =>
      simp only
      obtain ⟨h1, h2⟩ := ih t
      constructor
      · intro k
        rw [h1 k]
        simp [List.countP_cons, hget]
      · intro j
        rw [h2 j]
        simp [List.countP_cons, hget]
    | some j0 =>
      simp only
      obtain ⟨h1, h2⟩ := ih
        { depsCount := t.depsCount.modify (fun n => n + 1) i
          dependents := GoMap.set t.dependents j0 (dependentsOf t.dependents j0 ++ [i]) }
      constructor
      · intro k
        have := h1 k
        simp only [dependentsOf] at this
        rw [this]
        by_cases hk : k = i
        · subst hk
          simp only [if_true, List.getElem?_modify, List.countP_cons, hget, Option.isSome_some,
            if_true]
          cases t.depsCount[k]? with
          | none => rfl
          | some c =>
            simp only [Option.map_some', Functor.map, Option.map]
            congr 1
            push_cast
            ring
        · simp only [if_neg hk, List.getElem?_modify, if_neg (Ne.symm hk)]
          cases t.depsCount[k]? <;> rfl
      · intro j
        have := h2 j
        simp only [dependentsOf] at this
        unfold dependentsOf
        rw [this]
        have e := dependentsOf_set t.dependents j0 j (dependentsOf t.dependents j0 ++ [i])
        simp only [dependentsOf] at e
        rw [e]
        by_cases hj : j = j0
        · subst hj
          simp [List.countP_cons, hget, List.replicate_succ]
        · have hne : ¬ (j0 = j) := fun h => hj h.symm
          simp [List.countP_cons, hget, hj, hne]

theorem depsAt_cons_zero (c : Change) (rest : List Change) :
    depsAt (c :: rest) 0 = c.Deps := by
  simp [depsAt]

theorem depsAt_cons_succ (c : Change) (rest : List Change) (k : Nat) :
    depsAt (c :: rest) (k + 1) = depsAt rest k := by
  simp [depsAt]

theorem countAll_spec (byHash : GoMap ChangeHash Nat) :
    ∀ (cs : List Change) (i0 : Nat) (t : TopoTables),
      (∀ k, (countAll byHash cs i0 t).depsCount[k]? =
        if i0 ≤ k ∧ k < i0 + cs.length then (t.depsCount[k]?).map
          (fun c => c + (((depsAt cs (k - i0)).countP
            (fun d => (GoMap.get? byHash d).isSome) : Nat) : Int))
        else t.depsCount[k]?) ∧
      (∀ j x, (dependentsOf (countAll byHash cs i0 t).dependents j).count x =
        (dependentsOf t.dependents j).count x +
          if i0 ≤ x ∧ x < i0 + cs.length then
            (depsAt cs (x - i0)).countP (fun d => decide (GoMap.get? byHash d = some j))
          else 0) := by
  intro cs
  induction cs with
  | nil =>
    intro i0 t
    constructor
    · intro k
      have : ¬ (i0 ≤ k ∧ k < i0 + ([] : List Change).length) := by simp
      rw [if_neg this]
      rfl
    · intro j x
      have : ¬ (i0 ≤ x ∧ x < i0 + ([] : List Change).length) := by simp
      rw [if_neg this]
      rfl
  | cons c rest ih =>
    intro i0 t
    unfold countAll
    obtain ⟨h1, h2⟩ := ih (i0 + 1) (countDeps byHash i0 c.Deps t)
    obtain ⟨g1, g2⟩ := countDeps_spec byHash i0 c.Deps t
    constructor
    · intro k
      rw [h1 k, g1 k]
      simp only [List.length_cons]
      by_cases hk0 : k = i0
      · subst hk0
        have e1 : ¬ (k + 1 ≤ k ∧ k < k + 1 + rest.length) := by omega
        have e2 : k ≤ k ∧ k < k + (rest.length + 1) := by omega
        rw [if_neg e1, if_pos rfl, if_pos e2, Nat.sub_self, depsAt_cons_zero]
      · rw [if_neg hk0]
        by_cases hk : i0 + 1 ≤ k ∧ k < i0 + 1 + rest.length
        · have e2 : i0 ≤ k ∧ k < i0 + (rest.length + 1) := by omega
          have e3 : k - i0 = (k - (i0 + 1)) + 1 := by omega
          rw [if_pos hk, if_pos e2, e3, depsAt_cons_succ]
        · have e2 : ¬ (i0 ≤ k ∧ k < i0 + (rest.length + 1)) := by omega
          rw [if_neg hk, if_neg e2]
    · intro j x
      rw [h2 j x, g2 j, List.count_append, List.count_replicate]
      simp only [List.length_cons]
      by_cases hx0 : x = i0
      · subst hx0
        have e1 : ¬ (x + 1 ≤ x ∧ x < x + 1 + rest.length) := by omega
        have e2 : x ≤ x ∧ x < x + (rest.length + 1) := by omega
        rw [if_neg e1, if_pos e2, Nat.sub_self, depsAt_cons_zero]
        simp
      · have hne : ¬ ((i0 == x) = true) := by simpa using fun h => hx0 h.symm
        rw [if_neg hne]
        by_cases hx : i0 + 1 ≤ x ∧ x < i0 + 1 + rest.length
        · have e2 : i0 ≤ x ∧ x < i0 + (rest.length + 1) := by omega
          have e3 : x - i0 = (x - (i0 + 1)) + 1 := by omega
          rw [if_pos hx, if_pos e2, e3, depsAt_cons_succ]
          omega
        · have e2 : ¬ (i0 ≤ x ∧ x < i0 + (rest.length + 1)) := by omega
          rw [if_neg hx, if_neg e2]

theorem keyOf_eq_of_getElem? (batch : List Change) (j : Nat) (c : Change)
    (h : batch[j]? = some c) : keyOf batch j = c.Hash := by
  unfold keyOf
  rw [h]
  rfl

/-- The tables that `orderChangeIndicesTopologically` builds for a batch whose
hashes are distinct. -/
theorem tables_spec (batch : List Change) (hnd : (batch.map Change.Hash).Nodup) :
    (countAll (indexByHash batch 0 []) batch 0
      { depsCount := List.replicate batch.length 0, dependents := [] }).depsCount.length =
        batch.length ∧
    (∀ i, i < batch.length →
      (countAll (indexByHash batch 0 []) batch 0
        { depsCount := List.replicate batch.length 0, dependents := [] }).depsCount[i]? =
        some ((pending batch [] (depsAt batch i) : Nat) : Int)) ∧
    DepTable batch (countAll (indexByHash batch 0 []) batch 0
      { depsCount := List.replicate batch.length 0, dependents := [] }).dependents := by
  obtain ⟨h1, h2⟩ := countAll_spec (indexByHash batch 0 []) batch 0
    { depsCount := List.replicate batch.length 0, dependents := [] }
  refine ⟨by rw [countAll_length]; simp, ?_, ?_⟩
  · intro i hi
    rw [h1 i]
    have e : 0 ≤ i ∧ i < 0 + batch.length := by omega
    rw [if_pos e]
    simp only [List.getElem?_replicate, hi, if_true, Option.map_some', zero_add, Nat.sub_zero]
    congr 2
    unfold pending
    apply List.countP_congr
    intro d _
    simp only [List.not_mem_nil, decide_False, Bool.not_false, Bool.and_true,
      decide_eq_true_eq]
    exact byHash_isSome_iff batch hnd d
  · intro j hj
    have hcount : ∀ x, (dependentsOf (countAll (indexByHash batch 0 []) batch 0
        { depsCount := List.replicate batch.length 0, dependents := [] }).dependents j).count x =
        if x < batch.length then
          (depsAt batch x).countP
            (fun d => decide (GoMap.get? (indexByHash batch 0 []) d = some j))
        else 0 := by
      intro x
      rw [h2 j x]
      have : dependentsOf ([] : GoMap Nat (List Nat)) j = [] := rfl
      simp only [this, List.count_nil, zero_add, Nat.sub_zero]
      by_cases hx : x < batch.length
      · rw [if_pos ⟨Nat.zero_le _, hx⟩, if_pos hx]
      · rw [if_neg (fun h => hx h.2), if_neg hx]
    constructor
    · intro x hx
      by_contra hlt
      have := hcount x
      rw [if_neg hlt] at this
      exact absurd (List.count_pos_iff.2 hx) (by omega)
    · intro i hi
      rw [hcount i, if_pos hi]
      rw [List.count_eq_countP]
      apply List.countP_congr
      intro d _
      have hjc : batch[j]? = some batch[j] := List.getElem?_eq_getElem hj
      simp only [decide_eq_true_eq, beq_iff_eq]
      rw [byHash_some_iff batch hnd d j, keyOf_eq_of_getElem? batch j _ hjc]
      constructor
      · rintro ⟨c, hc, hcd⟩
        rw [hjc] at hc
        injection hc with hc
        rw [hc, hcd]
      · intro h
        exact ⟨batch[j], hjc, h.symm⟩

end automerge

/-! ## The main loop emits the smallest ready hash -/

namespace automerge

open model changegraph

theorem pending_eq_zero_iff (batch : List Change) (E deps : List ChangeHash) :
    pending batch E deps = 0 ↔ ∀ d ∈ deps, d ∈ batch.map Change.Hash → d ∈ E := by
  unfold pending
  rw [List.countP_eq_zero]
  constructor
  · intro h d hd hb
    have := h d hd
    simp only [Bool.and_eq_true, decide_eq_true_eq, Bool.not_eq_true', decide_eq_false_iff_not,
      not_and, not_not] at this
    exact this hb
  · intro h d hd
    simp only [Bool.and_eq_true, decide_eq_true_eq, Bool.not_eq_true', decide_eq_false_iff_not,
      not_and, not_not]
    exact h d hd

theorem pending_snoc (batch : List Change) (E : List ChangeHash) (h : ChangeHash)
    (hb : h ∈ batch.map Change.Hash) (hE : h ∉ E) :
    ∀ deps : List ChangeHash,
      pending batch (E ++ [h]) deps + deps.count h = pending batch E deps := by
  intro deps
  induction deps with
  | nil => rfl
  | cons d rest ih =>
    unfold pending at ih ⊢
    rw [List.countP_cons, List.countP_cons, List.count_cons]
    obtain ⟨A, hA⟩ : ∃ A, A = List.countP
      (fun d => decide (d ∈ batch.map Change.Hash) && !decide (d ∈ E ++ [h])) rest := ⟨_, rfl⟩
    obtain ⟨B, hB⟩ : ∃ B, B = List.countP
      (fun d => decide (d ∈ batch.map Change.Hash) && !decide (d ∈ E)) rest := ⟨_, rfl⟩
    obtain ⟨C, hC⟩ : ∃ C, C = List.count h rest := ⟨_, rfl⟩
    rw [← hA, ← hB, ← hC] at ih ⊢
    by_cases hd : d = h
    · subst hd
      simp only [hb, hE, List.mem_append, List.mem_singleton, or_true, decide_True,
        decide_False, Bool.not_true, Bool.and_false, Bool.not_false, Bool.and_true,
        Bool.false_eq_true, if_false, if_true, beq_self_eq_true]
      omega
    · have hne : ¬ ((d == h) = true) := by simpa using hd
      simp only [List.mem_append, List.mem_singleton, hd, or_false, hne, if_false,
        Bool.false_eq_true]
      omega

theorem keyOf_eq_getElem (batch : List Change) (i : Nat) (hi : i < batch.length) :
    keyOf batch i = batch[i].Hash := by
  unfold keyOf
  rw [List.getElem?_eq_getElem hi]
  rfl

theorem keyOf_mem (batch : List Change) (i : Nat) (hi : i < batch.length) :
    keyOf batch i ∈ batch.map Change.Hash := by
  rw [keyOf_eq_getElem batch i hi]
  exact List.mem_map.2 ⟨batch[i], List.getElem_mem hi, rfl⟩

theorem keyOf_inj (batch : List Change) (hnd : (batch.map Change.Hash).Nodup) (i j : Nat)
    (hi : i < batch.length) (hj : j < batch.length) (h : keyOf batch i = keyOf batch j) :
    i = j := by
  rw [keyOf_eq_getElem batch i hi, keyOf_eq_getElem batch j hj] at h
  have hi' : i < (batch.map Change.Hash).length := by simpa using hi
  have hj' : j < (batch.map Change.Hash).length := by simpa using hj
  have : (batch.map Change.Hash)[i] = (batch.map Change.Hash)[j] := by
    simpa using h
  exact (List.Nodup.getElem_inj_iff hnd).1 this

theorem keyOf_not_mem_map (batch : List Change) (hnd : (batch.map Change.Hash).Nodup)
    (out : List Nat) (hv : ValidItems batch.length out) (x : Nat) (hx : x < batch.length)
    (hn : x ∉ out) : keyOf batch x ∉ out.map (keyOf batch) := by
  intro h
  obtain ⟨y, hy, hxy⟩ := List.mem_map.1 h
  have := keyOf_inj batch hnd y x (hv y hy) hx hxy
  subst this
  exact hn hy

theorem depsAt_eq_getElem (batch : List Change) (i : Nat) (hi : i < batch.length) :
    depsAt batch i = batch[i].Deps := by
  unfold depsAt
  rw [List.getElem?_eq_getElem hi]
  rfl

theorem greedyPre_snoc (batch : List Change) :
    ∀ (hs E : List ChangeHash) (h : ChangeHash), GreedyPre batch E hs →
      IsNext batch (E ++ hs) h → GreedyPre batch E (hs ++ [h]) := by
  intro hs
  induction hs with
  | nil =>
    intro E h _ hn
    simp only [List.append_nil] at hn
    exact ⟨hn, trivial⟩
  | cons a t ih =>
    intro E h hg hn
    obtain ⟨h1, h2⟩ := hg
    refine ⟨h1, ih (E ++ [a]) h h2 ?_⟩
    simpa using hn

theorem greedyPre_maximal (batch : List Change) :
    ∀ (hs E : List ChangeHash), GreedyPre batch E hs →
      (∀ c, ¬ HReady batch (E ++ hs) c) → GreedyFrom batch E hs := by
  intro hs
  induction hs with
  | nil =>
    intro E _ hm
    simpa [GreedyFrom] using hm
  | cons a t ih =>
    intro E hg hm
    obtain ⟨h1, h2⟩ := hg
    refine ⟨h1, ih (E ++ [a]) h2 ?_⟩
    simpa using hm

theorem greedyFrom_unique (batch : List Change) :
    ∀ (hs1 hs2 E : List ChangeHash), GreedyFrom batch E hs1 → GreedyFrom batch E hs2 →
      hs1 = hs2 := by
  intro hs1
  induction hs1 with
  | nil =>
    intro hs2 E h1 h2
    cases hs2 with
    | nil => rfl
    | cons b t =>
      obtain ⟨⟨⟨c, hc, _⟩, _⟩, _⟩ := h2
      exact absurd hc (h1 c)
  | cons a t ih =>
    intro hs2 E h1 h2
    cases hs2 with
    | nil =>
      obtain ⟨⟨⟨c, hc, _⟩, _⟩, _⟩ := h1
      exact absurd hc (h2 c)
    | cons b t2 =>
      obtain ⟨⟨⟨ca, hca, hcae⟩, hamin⟩, hta⟩ := h1
      obtain ⟨⟨⟨cb, hcb, hcbe⟩, hbmin⟩, htb⟩ := h2
      have hab : a = b := by
        have h1 := hamin cb hcb
        have h2 := hbmin ca hca
        rw [hcbe] at h1
        rw [hcae] at h2
        exact Nat.le_antisymm h1 h2
      subst hab
      rw [ih t2 (E ++ [a]) hta htb]

theorem hReady_perm (batch1 batch2 : List Change) (hp : batch1.Perm batch2)
    (E : List ChangeHash) (c : Change) (h : HReady batch1 E c) : HReady batch2 E c := by
  obtain ⟨h1, h2, h3⟩ := h
  refine ⟨hp.mem_iff.1 h1, h2, fun d hd hb => h3 d hd ?_⟩
  exact (hp.map Change.Hash).mem_iff.2 hb

theorem isNext_perm (batch1 batch2 : List Change) (hp : batch1.Perm batch2)
    (E : List ChangeHash) (h : ChangeHash) (hn : IsNext batch1 E h) : IsNext batch2 E h := by
  obtain ⟨⟨c, hc, hce⟩, hmin⟩ := hn
  exact ⟨⟨c, hReady_perm _ _ hp E c hc, hce⟩,
    fun c' hc' => hmin c' (hReady_perm _ _ hp.symm E c' hc')⟩

theorem greedyFrom_perm (batch1 batch2 : List Change) (hp : batch1.Perm batch2) :
    ∀ (hs E : List ChangeHash), GreedyFrom batch1 E hs → GreedyFrom batch2 E hs := by
  intro hs
  induction hs with
  | nil =>
    intro E h c hc
    exact h c (hReady_perm _ _ hp.symm E c hc)
  | cons a t ih =>
    intro E h
    exact ⟨isNext_perm _ _ hp E a h.1, ih (E ++ [a]) h.2⟩

/-- The inner loop over `dependents[i]` returns, and its counts and heap are those
of the entries taken together. -/
theorem release_spec (batch : List Change) (emitted : List ChangeHash) (popped out L : List Nat)
    (hLv : ∀ x ∈ L, x < batch.length)
    (hLc : ∀ i, i < batch.length → L.count i ≤ pending batch emitted (depsAt batch i))
    (hpop : ∀ i ∈ popped, pending batch emitted (depsAt batch i) = 0)
    (hout : ∀ i ∈ out, pending batch emitted (depsAt batch i) = 0) :
    ∀ (rest done : List Nat) (st : TopoState), done ++ rest = L →
      ReleaseInv batch emitted popped out done st →
      ∃ st', releaseDependents batch rest st = .ok st' ∧
        ReleaseInv batch emitted popped out L st' := by
  intro rest
  induction rest with
  | nil =>
    intro done st hL hinv
    rw [List.append_nil] at hL
    subst hL
    exact ⟨st, rfl, hinv⟩
  | cons dep rest ih =>
    intro done st hL hinv
    have hdepL : dep ∈ L := by rw [← hL]; simp
    have hdn := hLv dep hdepL
    have hcnt : done.count dep + 1 ≤ L.count dep := by
      rw [← hL]
      simp [List.count_append, List.count_cons]
    have hp := hLc dep hdn
    have hget := hinv.counts dep hdn
    have hL' : (done ++ [dep]) ++ rest = L := by rw [List.append_assoc]; exact hL
    have hcounts : ∀ i, i < batch.length →
        (st.depsCount.set dep
          (((pending batch emitted (depsAt batch dep) : Nat) : Int) -
            ((done.count dep : Nat) : Int) - 1))[i]? =
        some (((pending batch emitted (depsAt batch i) : Nat) : Int) -
          (((done ++ [dep]).count i : Nat) : Int)) := by
      intro i hi
      rw [List.getElem?_set]
      by_cases hdi : dep = i
      · subst hdi
        have hl : dep < st.depsCount.length := by rw [hinv.length]; exact hi
        rw [if_pos rfl, if_pos hl]
        simp only [List.count_append, List.count_singleton_self, Nat.cast_add, Nat.cast_one]
        congr 1
        ring
      · rw [if_neg hdi, hinv.counts i hi]
        have : List.count i [dep] = 0 := by
          rw [List.count_eq_zero]
          simpa using fun h => hdi h.symm
        simp [List.count_append, this]
    have hnotout : dep ∉ st.out := by
      rw [hinv.out_eq]
      intro h
      have := hout dep h
      omega
    have hnotitems : dep ∉ st.items := by
      intro h
      rcases (hinv.items_iff dep hdn).1 h with h1 | ⟨_, h2⟩
      · have := hpop dep h1
        omega
      · omega
    unfold releaseDependents
    rw [hget]
    simp only
    by_cases hz : ((pending batch emitted (depsAt batch dep) : Nat) : Int) -
        ((done.count dep : Nat) : Int) - 1 = 0
    · rw [if_pos hz]
      obtain ⟨items1, hpush, hheap1, hperm1, hvalid1⟩ :=
        heapPush_spec batch st.items dep hinv.validItems hdn hinv.heap
      rw [hpush]
      simp only
      apply ih (done ++ [dep]) _ hL'
      constructor
      · exact hinv.out_eq
      · exact hvalid1
      · have hnd : (st.out ++ (st.items ++ [dep])).Nodup := by
          rw [← List.append_assoc]
          apply List.Nodup.append hinv.nodup (List.nodup_singleton dep)
          intro x hx hx'
          simp only [List.mem_singleton] at hx'
          subst hx'
          rcases List.mem_append.1 hx with h | h
          · exact hnotout h
          · exact hnotitems h
        exact (List.Perm.nodup_iff (List.Perm.append_left st.out hperm1)).2 hnd
      · exact hheap1
      · simp [hinv.length]
      · exact hcounts
      · intro i hi
        simp only
        rw [hperm1.mem_iff]
        simp only [List.mem_append, List.mem_singleton, List.count_append]
        by_cases hid : i = dep
        · subst hid
          simp only [or_true, true_and, List.count_singleton_self, true_iff]
          right
          omega
        · have : List.count i [dep] = 0 := by
            rw [List.count_eq_zero]
            simpa using hid
          simp only [hid, or_false, this, add_zero]
          exact hinv.items_iff i hi
    · rw [if_neg hz]
      apply ih (done ++ [dep]) _ hL'
      constructor
      · exact hinv.out_eq
      · exact hinv.validItems
      · exact hinv.nodup
      · exact hinv.heap
      · simp [hinv.length]
      · exact hcounts
      · intro i hi
        simp only [List.mem_append, List.mem_singleton, List.count_append]
        by_cases hid : i = dep
        · subst hid
          simp only [or_true, true_and, List.count_singleton_self]
          constructor
          · intro h
            exact absurd h hnotitems
          · rintro (h | h)
            · have := hpop i h
              omega
            · exfalso
              omega
        · have : List.count i [dep] = 0 := by
            rw [List.count_eq_zero]
            simpa using hid
          simp only [hid, or_false, this, add_zero]
          exact hinv.items_iff i hi

theorem HReady_iff_items (batch : List Change) (hnd : (batch.map Change.Hash).Nodup)
    (st : TopoState) (hs : TopoSem batch st) (c : Change) :
    HReady batch (st.out.map (keyOf batch)) c ↔ ∃ i ∈ st.items, batch[i]? = some c := by
  constructor
  · rintro ⟨hc, hne, hdeps⟩
    obtain ⟨i, hi⟩ := List.mem_iff_getElem?.1 hc
    have hil : i < batch.length := (List.getElem?_eq_some.1 hi).1
    have hkey : keyOf batch i = c.Hash := keyOf_eq_of_getElem? batch i c hi
    have hd : depsAt batch i = c.Deps := by
      unfold depsAt
      rw [hi]
      rfl
    refine ⟨i, (hs.items_iff i hil).2 ⟨?_, ?_⟩, hi⟩
    · intro hio
      apply hne
      rw [← hkey]
      exact List.mem_map.2 ⟨i, hio, rfl⟩
    · rw [pending_eq_zero_iff, hd]
      exact hdeps
  · rintro ⟨i, hi, hic⟩
    have hil : i < batch.length := hs.validItems i hi
    have hkey : keyOf batch i = c.Hash := keyOf_eq_of_getElem? batch i c hic
    have hd : depsAt batch i = c.Deps := by
      unfold depsAt
      rw [hic]
      rfl
    obtain ⟨hno, hp⟩ := (hs.items_iff i hil).1 hi
    refine ⟨List.mem_iff_getElem?.2 ⟨i, hic⟩, ?_, ?_⟩
    · rw [← hkey]
      exact keyOf_not_mem_map batch hnd st.out hs.validOut i hil hno
    · rw [pending_eq_zero_iff, hd] at hp
      exact hp

/-- One round of the main loop: the index with the smallest hash leaves the heap and
the invariant holds again. -/
theorem topoStep_spec (batch : List Change) (hnd : (batch.map Change.Hash).Nodup)
    (dependents : GoMap Nat (List Nat)) (hdt : DepTable batch dependents)
    (st : TopoState) (hs : TopoSem batch st) (hne : 0 < st.items.length) :
    ∃ x items1 st1, heapPop batch st.items = .ok (x, items1) ∧
      releaseDependents batch (dependentsOf dependents x)
        { st with items := items1, out := st.out ++ [x] } = .ok st1 ∧
      TopoSem batch st1 ∧ st1.out = st.out ++ [x] := by
  obtain ⟨x, items1, hpop, hheap1, hperm, hvalid1, hmin⟩ :=
    heapPop_spec batch st.items hs.validItems hs.heap hne
  have hxi : x ∈ st.items := hperm.mem_iff.2 (List.mem_cons_self x items1)
  have hxn : x < batch.length := hs.validItems x hxi
  obtain ⟨hxo, hxp⟩ := (hs.items_iff x hxn).1 hxi
  have hxE : keyOf batch x ∉ st.out.map (keyOf batch) :=
    keyOf_not_mem_map batch hnd st.out hs.validOut x hxn hxo
  have hxH : keyOf batch x ∈ batch.map Change.Hash := keyOf_mem batch x hxn
  obtain ⟨hLv, hLcount⟩ := hdt x hxn
  have hsnoc := pending_snoc batch (st.out.map (keyOf batch)) (keyOf batch x) hxH hxE
  have hLc : ∀ i, i < batch.length → (dependentsOf dependents x).count i ≤
      pending batch (st.out.map (keyOf batch)) (depsAt batch i) := by
    intro i hi
    rw [hLcount i hi]
    have := hsnoc (depsAt batch i)
    omega
  have hitems_nd : (x :: items1).Nodup :=
    (List.Perm.nodup_iff hperm).1 (List.Nodup.of_append_right hs.nodup)
  have hpop' : ∀ i ∈ items1, pending batch (st.out.map (keyOf batch)) (depsAt batch i) = 0 := by
    intro i hi
    have hii : i ∈ st.items := hperm.mem_iff.2 (List.mem_cons_of_mem x hi)
    exact ((hs.items_iff i (hs.validItems i hii)).1 hii).2
  have hout' : ∀ i ∈ st.out ++ [x],
      pending batch (st.out.map (keyOf batch)) (depsAt batch i) = 0 := by
    intro i hi
    rcases List.mem_append.1 hi with h | h
    · exact hs.out_done i h
    · simp only [List.mem_singleton] at h
      rw [h]
      exact hxp
  have hnd0 : ((st.out ++ [x]) ++ items1).Nodup := by
    rw [List.append_assoc]
    exact (List.Perm.nodup_iff (List.Perm.append_left st.out hperm)).1 hs.nodup
  have inv0 : ReleaseInv batch (st.out.map (keyOf batch)) items1 (st.out ++ [x]) []
      { st with items := items1, out := st.out ++ [x] } := by
    constructor
    · rfl
    · exact hvalid1
    · exact hnd0
    · exact hheap1
    · exact hs.length
    · intro i hi
      simp only [List.count_nil, Nat.cast_zero, sub_zero]
      exact hs.counts i hi
    · intro i _
      simp
  obtain ⟨st1, hrel, hinv⟩ := release_spec batch (st.out.map (keyOf batch)) items1
    (st.out ++ [x]) (dependentsOf dependents x) hLv hLc hpop' hout'
    (dependentsOf dependents x) [] _ rfl inv0
  refine ⟨x, items1, st1, hpop, hrel, ?_, hinv.out_eq⟩
  have hmap : st1.out.map (keyOf batch) = st.out.map (keyOf batch) ++ [keyOf batch x] := by
    rw [hinv.out_eq]
    simp
  have hpend : ∀ i, i < batch.length →
      pending batch (st1.out.map (keyOf batch)) (depsAt batch i) +
        (dependentsOf dependents x).count i =
      pending batch (st.out.map (keyOf batch)) (depsAt batch i) := by
    intro i hi
    rw [hmap, hLcount i hi]
    exact hsnoc (depsAt batch i)
  constructor
  · exact hinv.validItems
  · rw [hinv.out_eq]
    intro i hi
    rcases List.mem_append.1 hi with h | h
    · exact hs.validOut i h
    · simp only [List.mem_singleton] at h
      rw [h]
      exact hxn
  · exact hinv.nodup
  · exact hinv.heap
  · exact hinv.length
  · intro i hi
    rw [hinv.counts i hi]
    have := hpend i hi
    congr 1
    omega
  · intro i hi
    rw [hinv.items_iff i hi, hinv.out_eq]
    have hp := hpend i hi
    rw [hinv.out_eq] at hp
    simp only [List.mem_append, List.mem_singleton, not_or]
    constructor
    · rintro (h | ⟨hL, heq⟩)
      · have hii : i ∈ st.items := hperm.mem_iff.2 (List.mem_cons_of_mem x h)
        obtain ⟨h1, h2⟩ := (hs.items_iff i hi).1 hii
        refine ⟨⟨h1, ?_⟩, by omega⟩
        intro hix
        subst hix
        exact (List.nodup_cons.1 hitems_nd).1 h
      · have hpos : 0 < (dependentsOf dependents x).count i := List.count_pos_iff.2 hL
        refine ⟨⟨?_, ?_⟩, by omega⟩
        · intro hio
          have := hs.out_done i hio
          omega
        · intro hix
          subst hix
          omega
    · rintro ⟨⟨h1, h2⟩, h3⟩
      by_cases hc0 : (dependentsOf dependents x).count i = 0
      · left
        have hii : i ∈ st.items := (hs.items_iff i hi).2 ⟨h1, by omega⟩
        rcases List.mem_cons.1 (hperm.mem_iff.1 hii) with h | h
        · exact absurd h h2
        · exact h
      · right
        exact ⟨List.count_pos_iff.1 (by omega), by omega⟩
  · intro i hi
    rw [hinv.out_eq] at hi
    have hil : i < batch.length := by
      rcases List.mem_append.1 hi with h | h
      · exact hs.validOut i h
      · simp only [List.mem_singleton] at h
        rw [h]
        exact hxn
    have := hpend i hil
    have := hout' i hi
    omega
  · rw [hmap]
    apply greedyPre_snoc batch _ [] _ hs.greedy
    rw [List.nil_append]
    constructor
    · refine ⟨batch[x], ?_, (keyOf_eq_getElem batch x hxn).symm⟩
      exact (HReady_iff_items batch hnd st hs _).2 ⟨x, hxi, List.getElem?_eq_getElem hxn⟩
    · intro c hc
      obtain ⟨i, hi, hic⟩ := (HReady_iff_items batch hnd st hs c).1 hc
      have := hmin i hi
      rw [keyOf_eq_of_getElem? batch i c hic] at this
      exact this

theorem length_le_of_nodup_valid (n : Nat) (l : List Nat) (hnd : l.Nodup)
    (hv : ValidItems n l) : l.length ≤ n := by
  have hsub : l ⊆ List.range n := fun i hi => List.mem_range.2 (hv i hi)
  have := (List.subperm_of_subset hnd hsub).length_le
  simpa using this

/-- The main loop returns: every round emits one index, and no index twice. -/
theorem topoLoop_sem (batch : List Change) (hnd : (batch.map Change.Hash).Nodup)
    (dependents : GoMap Nat (List Nat)) (hdt : DepTable batch dependents) :
    ∀ (fuel : Nat) (st : TopoState), TopoSem batch st →
      batch.length < fuel + st.out.length →
      ∃ st', topoLoop batch dependents fuel st = .ok st' ∧ TopoSem batch st' ∧
        st'.items = [] := by
  intro fuel
  induction fuel with
  | zero =>
    intro st hs hf
    have := length_le_of_nodup_valid batch.length st.out
      (List.Nodup.of_append_left hs.nodup) hs.validOut
    omega
  | succ fuel ih =>
    intro st hs hf
    unfold topoLoop
    by_cases hne : st.items.length > 0
    · rw [if_pos hne]
      obtain ⟨x, items1, st1, hpop, hrel, hs1, hout⟩ :=
        topoStep_spec batch hnd dependents hdt st hs hne
      rw [hpop]
      simp only
      unfold dependentsOf at hrel
      rw [hrel]
      simp only
      apply ih st1 hs1
      rw [hout]
      simp only [List.length_append, List.length_singleton]
      have := length_le_of_nodup_valid batch.length (st.out ++ st.items) hs.nodup
        (fun i hi => by
          rcases List.mem_append.1 hi with h | h
          · exact hs.validOut i h
          · exact hs.validItems i h)
      simp only [List.length_append] at this
      omega
    · rw [if_neg hne]
      refine ⟨st, rfl, hs, ?_⟩
      exact List.length_eq_zero.1 (by omega)

theorem pushInitial_spec (batch : List Change) (counts : List Int) :
    ∀ (is items : List Nat), ValidItems batch.length is → ValidItems batch.length items →
      IsHeap batch items →
      ∃ items', pushInitial batch counts is items = .ok items' ∧ IsHeap batch items' ∧
        ValidItems batch.length items' := by
  intro is
  induction is with
  | nil =>
    intro items _ hv hh
    exact ⟨items, rfl, hh, hv⟩
  | cons i rest ih =>
    intro items hvi hv hh
    have hi : i < batch.length := hvi i (List.mem_cons_self i rest)
    have hrest : ValidItems batch.length rest := fun x hx => hvi x (List.mem_cons_of_mem i hx)
    unfold pushInitial
    by_cases hz : counts[i]? = some 0
    · rw [if_pos hz]
      obtain ⟨items1, hpush, hheap1, _, hvalid1⟩ := heapPush_spec batch items i hv hi hh
      rw [hpush]
      exact ih items1 hrest hvalid1 hheap1
    · rw [if_neg hz]
      exact ih items hrest hv hh

theorem range_map_keyOf (batch : List Change) :
    (List.range batch.length).map (keyOf batch) = batch.map Change.Hash := by
  apply List.ext_getElem
  · simp
  · intro i h1 h2
    simp only [List.getElem_map, List.getElem_range]
    exact keyOf_eq_getElem batch i (by simpa using h2)

theorem fallbackOrder_perm (batch : List Change) :
    (fallbackOrder batch).Perm (List.range batch.length) :=
  List.perm_insertionSort _ _

theorem fallbackOrder_sorted (batch : List Change) :
    ((fallbackOrder batch).map (keyOf batch)).Sorted (fun a b => a ≤ b) := by
  haveI : IsTotal Nat (fun a b => keyOf batch a ≤ keyOf batch b) :=
    ⟨fun a b => Nat.le_total _ _⟩
  haveI : IsTrans Nat (fun a b => keyOf batch a ≤ keyOf batch b) :=
    ⟨fun a b c h1 h2 => Nat.le_trans h1 h2⟩
  have h := List.sorted_insertionSort (fun a b => keyOf batch a ≤ keyOf batch b)
    (List.range batch.length)
  unfold List.Sorted at h ⊢
  rw [List.pairwise_map]
  exact h

/-- The function `orderChangeIndicesTopologically` returns on a batch with distinct
hashes, and the hashes in its order are those of the order on hashes. -/
theorem order_spec (batch : List Change) (hnd : (batch.map Change.Hash).Nodup)
    (hlen : ¬ batch.length ≤ 1) :
    ∃ order, orderChangeIndicesTopologically batch = .ok order ∧
      ValidItems batch.length order ∧ OrderSpec batch (order.map (keyOf batch)) := by
  obtain ⟨hTlen, hTcounts, hdt⟩ := tables_spec batch hnd
  have hvr : ValidItems batch.length (List.range batch.length) :=
    fun x hx => List.mem_range.1 hx
  obtain ⟨items, hpush, hheap, hvalid⟩ := pushInitial_spec batch
    (countAll (indexByHash batch 0 []) batch 0
      { depsCount := List.replicate batch.length 0, dependents := [] }).depsCount
    (List.range batch.length) [] hvr (fun x hx => absurd hx (List.not_mem_nil x))
    (fun k _ hk => absurd hk (by simp))
  have hperm := pushInitial_perm batch _ _ _ _ hpush
  rw [List.nil_append] at hperm
  have hs0 : TopoSem batch
      { depsCount := (countAll (indexByHash batch 0 []) batch 0
          { depsCount := List.replicate batch.length 0, dependents := [] }).depsCount,
        items := items, out := [] } := by
    constructor
    · exact hvalid
    · exact fun x hx => absurd hx (List.not_mem_nil x)
    · rw [List.nil_append]
      exact (List.Perm.nodup_iff hperm).2 (List.Nodup.filter _ (List.nodup_range _))
    · exact hheap
    · exact hTlen
    · intro i hi
      exact hTcounts i hi
    · intro i hi
      simp only [List.map_nil, List.not_mem_nil, not_false_eq_true, true_and]
      rw [hperm.mem_iff, List.mem_filter, List.mem_range, hTcounts i hi]
      simp only [hi, true_and, decide_eq_true_eq, Option.some.injEq]
      exact Int.natCast_eq_zero
    · exact fun x hx => absurd hx (List.not_mem_nil x)
    · trivial
  obtain ⟨st', hloop, hs', hempty⟩ := topoLoop_sem batch hnd _ hdt (batch.length + 1) _ hs0
    (by simp)
  have hgreedy : GreedyFrom batch [] (st'.out.map (keyOf batch)) := by
    apply greedyPre_maximal batch _ [] hs'.greedy
    intro c hc
    rw [List.nil_append] at hc
    obtain ⟨i, hi, _⟩ := (HReady_iff_items batch hnd st' hs' c).1 hc
    rw [hempty] at hi
    exact absurd hi (List.not_mem_nil i)
  unfold orderChangeIndicesTopologically
  rw [if_neg hlen]
  simp only [hpush, hloop]
  by_cases hl : st'.out.length ≠ batch.length
  · rw [if_pos hl]
    refine ⟨fallbackOrder batch, rfl, ?_, Or.inr ⟨⟨_, hgreedy, by simpa using hl⟩,
      fallbackOrder_sorted batch, ?_⟩⟩
    · exact fun x hx => List.mem_range.1 ((fallbackOrder_perm batch).mem_iff.1 hx)
    · rw [← range_map_keyOf]
      exact (fallbackOrder_perm batch).map _
  · rw [if_neg hl]
    exact ⟨st'.out, rfl, hs'.validOut, Or.inl ⟨hgreedy, by simpa using hl⟩⟩

/-- The order on hashes is that of the batch as a set: two batches with the same
changes have the same order. -/
theorem orderSpec_unique (batch1 batch2 : List Change) (hp : batch1.Perm batch2)
    (hs1 hs2 : List ChangeHash) (h1 : OrderSpec batch1 hs1) (h2 : OrderSpec batch2 hs2) :
    hs1 = hs2 := by
  have hlen : batch1.length = batch2.length := hp.length_eq
  rcases h1 with ⟨g1, l1⟩ | ⟨⟨hs1', g1, l1⟩, s1, p1⟩
  · have g1' := greedyFrom_perm _ _ hp _ _ g1
    rcases h2 with ⟨g2, _⟩ | ⟨⟨hs2', g2, l2⟩, _, _⟩
    · exact greedyFrom_unique batch2 _ _ [] g1' g2
    · have := greedyFrom_unique batch2 _ _ [] g1' g2
      rw [← this, l1, hlen] at l2
      exact absurd rfl l2
  · have g1' := greedyFrom_perm _ _ hp _ _ g1
    rcases h2 with ⟨g2, l2⟩ | ⟨_, s2, p2⟩
    · have := greedyFrom_unique batch2 _ _ [] g1' g2
      rw [this, l2, hlen] at l1
      exact absurd rfl l1
    · have hperm : hs1.Perm hs2 := p1.trans ((hp.map Change.Hash).trans p2.symm)
      haveI : IsAntisymm Nat (fun a b => a ≤ b) := ⟨fun a b h1 h2 => Nat.le_antisymm h1 h2⟩
      exact List.eq_of_perm_of_sorted hperm s1 s2

end automerge

/-! ## The order in which a batch is applied depends on its changes only -/

namespace automerge

open model changegraph

theorem applyOneChange_withQueue (d : Document) (q : List Change) (c : Change) :
    (d.withQueue q).applyOneChange c = (d.applyOneChange c).withQueue q := by
  unfold Document.applyOneChange Document.withQueue Outcome.withQueue Document.withQueue
  simp only
  split
  · rfl
  · split
    · rfl
    · rfl

theorem hasChange_withQueue (d : Document) (q : List Change) (h : ChangeHash) :
    (d.withQueue q).hasChange h = d.hasChange h := rfl

theorem applyLoop_withQueue (batch : List Change) (q : List Change) :
    ∀ (order : List Nat) (d : Document),
      applyLoop batch order (d.withQueue q) = (applyLoop batch order d).withQueue q := by
  intro order
  induction order with
  | nil => intro d; rfl
  | cons idx rest ih =>
    intro d
    unfold applyLoop
    cases batch[idx]? with
    | none => rfl
    | some c =>
      simp only [hasChange_withQueue]
      by_cases hh : d.hasChange c.Hash = true
      · rw [if_pos hh, if_pos hh]
        exact ih d
      · rw [if_neg hh, if_neg hh, applyOneChange_withQueue]
        cases hr : d.applyOneChange c with
        | mk d1 e =>
          cases e with
          | some e => rfl
          | none =>
            simp only [Outcome.withQueue]
            exact ih d1

theorem applyLoop_congr (batch1 batch2 : List Change) :
    ∀ (o1 o2 : List Nat) (d : Document),
      o1.map (fun i => batch1[i]?) = o2.map (fun i => batch2[i]?) →
      applyLoop batch1 o1 d = applyLoop batch2 o2 d := by
  intro o1
  induction o1 with
  | nil =>
    intro o2 d h
    cases o2 with
    | nil => rfl
    | cons b t => simp at h
  | cons a t ih =>
    intro o2 d h
    cases o2 with
    | nil => simp at h
    | cons b t2 =>
      simp only [List.map_cons, List.cons.injEq] at h
      obtain ⟨hab, ht⟩ := h
      unfold applyLoop
      rw [hab]
      cases batch2[b]? with
      | none => rfl
      | some c =>
        simp only
        by_cases hh : d.hasChange c.Hash = true
        · rw [if_pos hh, if_pos hh]
          exact ih t2 d ht
        · rw [if_neg hh, if_neg hh]
          cases hr : d.applyOneChange c with
          | mk d1 e =>
            cases e with
            | some e => rfl
            | none => exact ih t2 d1 ht

theorem perm_eq_of_length_le_one (l1 l2 : List Change) (hp : l1.Perm l2)
    (h : l1.length ≤ 1) : l1 = l2 := by
  cases l1 with
  | nil => exact (List.nil_perm.1 hp).symm
  | cons a t =>
    cases t with
    | nil => exact List.singleton_perm.1 hp
    | cons b t => simp at h

/-- Two batches that hold the same changes, with distinct hashes, are applied in the
same order. -/
theorem order_canonical (batch1 batch2 : List Change) (hp : batch1.Perm batch2)
    (hnd : (batch1.map Change.Hash).Nodup) :
    ∃ o1 o2, orderChangeIndicesTopologically batch1 = .ok o1 ∧
      orderChangeIndicesTopologically batch2 = .ok o2 ∧
      o1.map (fun i => batch1[i]?) = o2.map (fun i => batch2[i]?) := by
  by_cases hlen : batch1.length ≤ 1
  · have := perm_eq_of_length_le_one batch1 batch2 hp hlen
    subst this
    refine ⟨List.range batch1.length, List.range batch1.length, ?_, ?_, rfl⟩
    · unfold orderChangeIndicesTopologically
      rw [if_pos hlen]
    · unfold orderChangeIndicesTopologically
      rw [if_pos hlen]
  · have hnd2 : (batch2.map Change.Hash).Nodup :=
      (List.Perm.nodup_iff (hp.map Change.Hash)).1 hnd
    have hlen2 : ¬ batch2.length ≤ 1 := by rw [← hp.length_eq]; exact hlen
    obtain ⟨o1, hok1, hv1, hs1⟩ := order_spec batch1 hnd hlen
    obtain ⟨o2, hok2, hv2, hs2⟩ := order_spec batch2 hnd2 hlen2
    refine ⟨o1, o2, hok1, hok2, ?_⟩
    have hkeys := orderSpec_unique batch1 batch2 hp _ _ hs1 hs2
    apply List.ext_getElem?
    intro k
    have hk := congrArg (fun l => l[k]?) hkeys
    simp only [List.getElem?_map] at hk ⊢
    cases h1 : o1[k]? with
    | none =>
      cases h2 : o2[k]? with
      | none => rfl
      | some i2 => rw [h1, h2] at hk; simp at hk
    | some i1 =>
      cases h2 : o2[k]? with
      | none => rw [h1, h2] at hk; simp at hk
      | some i2 =>
        rw [h1, h2] at hk
        simp only [Option.map_some', Option.some.injEq] at hk ⊢
        have hi1 : i1 < batch1.length := hv1 i1 (List.mem_iff_getElem?.2 ⟨k, h1⟩)
        have hi2 : i2 < batch2.length := hv2 i2 (List.mem_iff_getElem?.2 ⟨k, h2⟩)
        rw [List.getElem?_eq_getElem hi1, List.getElem?_eq_getElem hi2]
        congr 1
        rw [keyOf_eq_getElem batch1 i1 hi1, keyOf_eq_getElem batch2 i2 hi2] at hk
        have hm1 : batch1[i1] ∈ batch1 := List.getElem_mem hi1
        have hm2 : batch2[i2] ∈ batch1 := hp.mem_iff.2 (List.getElem_mem hi2)
        exact List.inj_on_of_nodup_map hnd hm1 hm2 hk

end automerge

/-! ## The batch of a call holds the changes that can be applied -/

namespace automerge

open model changegraph

theorem intakeLoop_cons (c : Change) (rest : List Change) (st : Intake) :
    (intakeFails st.doc.graph c = true →
      ∃ e, intakeLoop none (c :: rest) st = (st, some e)) ∧
    (intakeFails st.doc.graph c = false → intakeKeeps st.doc.graph c = false →
      intakeLoop none (c :: rest) st = intakeLoop none rest st) ∧
    (intakeFails st.doc.graph c = false → intakeKeeps st.doc.graph c = true →
      intakeLoop none (c :: rest) st =
        if st.doc.isCausallyReady c st.ready then
          intakeLoop none rest
            { st with batch := st.batch ++ [c], ready := GoMap.set st.ready c.Hash () }
        else
          intakeLoop none rest
            { st with doc := st.doc.withQueue (st.doc.queue ++ [c]) }) := by
  unfold intakeFails intakeKeeps
  rw [intakeLoop]
  simp only [remapChangeActors, Document.hasChange, Document.withQueue]
  cases hh : st.doc.graph.HasChange c.Hash with
  | true => simp
  | false =>
    cases hl : st.doc.graph.HashForActorSeq c.Actor c.Seq with
    | error e => simp
    | ok r =>
      cases r with
      | none => simp
      | some existing =>
        by_cases he : existing = c.Hash
        · simp [he]
        · simp [he]

theorem intake_doc :
    ∀ (changes : List Change) (st : Intake),
      (intakeLoop none changes st).1.doc =
        st.doc.withQueue (intakeLoop none changes st).1.doc.queue ∧
      (intakeLoop none changes st).1.doc.graph = st.doc.graph := by
  intro changes
  induction changes with
  | nil => intro st; exact ⟨rfl, rfl⟩
  | cons c rest ih =>
    intro st
    obtain ⟨h1, h2, h3⟩ := intakeLoop_cons c rest st
    cases hf : intakeFails st.doc.graph c with
    | true =>
      obtain ⟨e, he⟩ := h1 hf
      rw [he]
      exact ⟨rfl, rfl⟩
    | false =>
      cases hk : intakeKeeps st.doc.graph c with
      | false =>
        rw [h2 hf hk]
        exact ih st
      | true =>
        rw [h3 hf hk]
        split
        · exact ih _
        · obtain ⟨e1, e2⟩ := ih { st with doc := st.doc.withQueue (st.doc.queue ++ [c]) }
          exact ⟨e1, e2⟩

theorem intake_err_iff :
    ∀ (changes : List Change) (st : Intake),
      (intakeLoop none changes st).2 = none ↔
        ∀ c ∈ changes, intakeFails st.doc.graph c = false := by
  intro changes
  induction changes with
  | nil => intro st; simp [intakeLoop]
  | cons c rest ih =>
    intro st
    obtain ⟨h1, h2, h3⟩ := intakeLoop_cons c rest st
    cases hf : intakeFails st.doc.graph c with
    | true =>
      obtain ⟨e, he⟩ := h1 hf
      rw [he]
      simp [hf]
    | false =>
      simp only [List.mem_cons, forall_eq_or_imp, hf, true_and]
      cases hk : intakeKeeps st.doc.graph c with
      | false =>
        rw [h2 hf hk]
        exact ih st
      | true =>
        rw [h3 hf hk]
        split
        · exact ih _
        · exact ih { st with doc := st.doc.withQueue (st.doc.queue ++ [c]) }

theorem isCausallyReady_iff (d : Document) (c : Change) (ready : GoMap ChangeHash Unit) :
    d.isCausallyReady c ready = true ↔
      ∀ dep ∈ c.Deps, d.graph.HasChange dep = true ∨ GoMap.contains ready dep = true := by
  unfold Document.isCausallyReady Document.hasChange
  simp [List.all_eq_true]

/-- The first loop, when it does not stop: the batch and the queue receive the kept
changes, and every change of the batch can be applied. -/
theorem intake_ok (g : Graph) (S : List Change) :
    ∀ (changes : List Change) (st : Intake), st.doc.graph = g →
      (intakeLoop none changes st).2 = none →
      ((intakeLoop none changes st).1.batch ++ (intakeLoop none changes st).1.doc.queue).Perm
        (st.batch ++ st.doc.queue ++ changes.filter (intakeKeeps g)) ∧
      (ReadyIsBatch st → ReadyIsBatch (intakeLoop none changes st).1) ∧
      (ReadyIsBatch st → (∀ c ∈ changes, intakeKeeps g c = true → c ∈ S) →
        (∀ c ∈ st.batch, Admitted g S c.Hash) →
        ∀ c ∈ (intakeLoop none changes st).1.batch, Admitted g S c.Hash) := by
  intro changes
  induction changes with
  | nil =>
    intro st _ _
    simp only [intakeLoop, List.filter_nil, List.append_nil]
    exact ⟨List.Perm.refl _, fun h => h, fun _ _ h => h⟩
  | cons c rest ih =>
    intro st hg herr
    subst hg
    obtain ⟨h1, h2, h3⟩ := intakeLoop_cons c rest st
    cases hf : intakeFails st.doc.graph c with
    | true =>
      obtain ⟨e, he⟩ := h1 hf
      rw [he] at herr
      cases herr
    | false =>
      cases hk : intakeKeeps st.doc.graph c with
      | false =>
        rw [h2 hf hk] at herr ⊢
        obtain ⟨p1, p2, p3⟩ := ih st rfl herr
        refine ⟨?_, p2, ?_⟩
        · rw [List.filter_cons, hk]
          exact p1
        · intro hr hS hb
          exact p3 hr (fun x hx => hS x (List.mem_cons_of_mem c hx)) hb
      | true =>
        rw [h3 hf hk] at herr ⊢
        by_cases hready : st.doc.isCausallyReady c st.ready = true
        · rw [if_pos hready] at herr ⊢
          obtain ⟨p1, p2, p3⟩ := ih
            { st with batch := st.batch ++ [c], ready := GoMap.set st.ready c.Hash () } rfl herr
          refine ⟨?_, ?_, ?_⟩
          · refine p1.trans ?_
            rw [List.filter_cons, hk]
            simp only [if_true]
            rw [List.perm_iff_count]
            intro x
            simp only [List.count_append, List.count_cons, List.count_nil]
            omega
          · intro hr
            exact p2 (ReadyIsBatch.push hr c st.doc)
          · intro hr hS hb
            apply p3 (ReadyIsBatch.push hr c st.doc)
              (fun x hx => hS x (List.mem_cons_of_mem c hx))
            intro x hx
            rcases List.mem_append.1 hx with hx | hx
            · exact hb x hx
            · simp only [List.mem_singleton] at hx
              subst hx
              apply Admitted.intro x (hS x (List.mem_cons_self x rest) hk)
              intro dep hdep hno
              rcases (isCausallyReady_iff _ _ _).1 hready dep hdep with h | h
              · rw [hno] at h
                cases h
              · obtain ⟨c', hc', hce⟩ := (hr dep).1 h
                rw [← hce]
                exact hb c' hc'
        · rw [if_neg hready] at herr ⊢
          obtain ⟨p1, p2, p3⟩ := ih
            { st with doc := st.doc.withQueue (st.doc.queue ++ [c]) } rfl herr
          refine ⟨?_, ?_, ?_⟩
          · refine p1.trans ?_
            rw [List.filter_cons, hk]
            simp only [if_true, Document.withQueue]
            rw [List.perm_iff_count]
            intro x
            simp only [List.count_append, List.count_cons, List.count_nil]
            omega
          · intro hr
            exact p2 hr
          · intro hr hS hb
            exact p3 hr (fun x hx => hS x (List.mem_cons_of_mem c hx)) hb

theorem swapRemove_perm (l : List Change) (i : Nat) (c lastC : Change)
    (hi : l[i]? = some c) (hl : l.getLast? = some lastC) :
    l.Perm (c :: (l.set i lastC).dropLast) := by
  obtain ⟨hil, hic⟩ := List.getElem?_eq_some.1 hi
  have hlast : (l.set i lastC).getLast? = some lastC := by
    rw [List.getLast?_eq_getElem?] at hl ⊢
    rw [List.length_set, List.getElem?_set]
    by_cases h : i = l.length - 1
    · rw [if_pos h, if_pos hil]
    · rw [if_neg h]
      exact hl
  have hsplit : (l.set i lastC).dropLast ++ [lastC] = l.set i lastC :=
    List.dropLast_append_getLast? lastC hlast
  have h1 : (c :: l.set i lastC).Perm (lastC :: l) := by
    rw [List.perm_iff_count]
    intro x
    rw [List.count_cons, List.count_cons, List.count_set _ _ _ _ hil, hic]
    have hbound : (if (c == x) = true then 1 else 0) ≤ l.count x := by
      by_cases hcx : c = x
      · subst hcx
        have : c ∈ l := hic ▸ List.getElem_mem hil
        simpa using List.count_pos_iff.2 this
      · simp [hcx]
    omega
  have h2 : (c :: l.set i lastC).Perm (lastC :: c :: (l.set i lastC).dropLast) := by
    rw [← hsplit]
    rw [List.perm_iff_count]
    intro x
    simp only [List.count_cons, List.count_append, List.count_nil, List.dropLast_append_of_ne_nil,
      List.dropLast_concat]
    omega
  exact List.Perm.cons_inv (h1.symm.trans h2)

theorem popNext_perm (d d1 : Document) (ready : GoMap ChangeHash Unit) (c : Change)
    (h : d.popNextCausallyReady ready = some (c, d1)) :
    d.queue.Perm (c :: d1.queue) ∧ d1 = d.withQueue d1.queue ∧
      d.isCausallyReady c ready = true := by
  unfold Document.popNextCausallyReady at h
  cases hf : Document.firstReady d ready d.queue 0 with
  | none => simp [hf] at h
  | some i =>
    obtain ⟨-, c', hc', hr⟩ := firstReady_some d ready _ _ _ hf
    simp only [Nat.sub_zero] at hc'
    simp only [hf, hc'] at h
    cases hl : d.queue.getLast? with
    | none => simp [hl] at h
    | some lastC =>
      simp only [hl, Option.some.injEq, Prod.mk.injEq] at h
      obtain ⟨h1, h2⟩ := h
      subst h1 h2
      exact ⟨swapRemove_perm d.queue i c' lastC hc' hl, rfl, hr⟩

/-- The second loop: the changes move from the queue to the batch until no queued
change is ready, and every change of the batch can be applied. -/
theorem drain_sem (g : Graph) (S : List Change) :
    ∀ (fuel : Nat) (st st' : Intake), drainLoop fuel st = .ok st' → st.doc.graph = g →
      ReadyIsBatch st →
      st'.doc = st.doc.withQueue st'.doc.queue ∧
      (st'.batch ++ st'.doc.queue).Perm (st.batch ++ st.doc.queue) ∧
      ReadyIsBatch st' ∧
      (∀ q ∈ st'.doc.queue, st'.doc.isCausallyReady q st'.ready = false) ∧
      ((∀ c ∈ st.doc.queue, c ∈ S) → (∀ c ∈ st.batch, Admitted g S c.Hash) →
        ∀ c ∈ st'.batch, Admitted g S c.Hash) := by
  intro fuel
  induction fuel with
  | zero => intro st st' h; simp [drainLoop] at h
  | succ fuel ih =>
    intro st st' h hg hr
    unfold drainLoop at h
    cases hp : st.doc.popNextCausallyReady st.ready with
    | none =>
      simp only [hp] at h
      injection h with h
      subst h
      exact ⟨rfl, List.Perm.refl _, hr, popNext_none _ _ hp, fun _ hb => hb⟩
    | some r =>
      obtain ⟨next, d1⟩ := r
      simp only [hp] at h
      obtain ⟨hperm, hd1, hready⟩ := popNext_perm _ _ _ _ hp
      have hg1 : d1.graph = g := by rw [hd1]; exact hg
      obtain ⟨q1, q2, q3, q4, q5⟩ := ih _ st' h hg1 (ReadyIsBatch.push hr next d1)
      refine ⟨?_, ?_, q3, q4, ?_⟩
      · rw [q1]
        simp only
        rw [hd1]
        rfl
      · refine q2.trans ?_
        simp only
        rw [List.perm_iff_count] at hperm ⊢
        intro x
        have := hperm x
        simp only [List.count_append, List.count_cons, List.count_nil] at this ⊢
        omega
      · intro hS hb
        apply q5
        · intro x hx
          exact hS x (hperm.mem_iff.2 (List.mem_cons_of_mem next hx))
        · intro x hx
          rcases List.mem_append.1 hx with hx | hx
          · exact hb x hx
          · simp only [List.mem_singleton] at hx
            subst hx
            apply Admitted.intro x (hS x (hperm.mem_iff.2 (List.mem_cons_self x d1.queue)))
            intro dep hdep hno
            rcases (isCausallyReady_iff _ _ _).1 hready dep hdep with h | h
            · rw [hg, hno] at h
              cases h
            · obtain ⟨c', hc', hce⟩ := (hr dep).1 h
              rw [← hce]
              exact hb c' hc'

theorem admitted_mono (g : Graph) (S S' : List Change) (hsub : ∀ c ∈ S, c ∈ S')
    (h : ChangeHash) (ha : Admitted g S h) : Admitted g S' h := by
  induction ha with
  | intro c hc _ ih => exact Admitted.intro c (hsub c hc) ih

/-- The batch after the first two loops holds the changes that can be applied, and
the queue the others. -/
theorem batch_iff (d : Document) (S B Q : List Change) (ready : GoMap ChangeHash Unit)
    (hperm : (B ++ Q).Perm S) (hnd : (S.map Change.Hash).Nodup)
    (hadm : ∀ c ∈ B, Admitted d.graph S c.Hash)
    (hready : ∀ h, GoMap.contains ready h = true ↔ ∃ c ∈ B, c.Hash = h)
    (hstuck : ∀ q ∈ Q, d.isCausallyReady q ready = false) :
    ∀ c, c ∈ B ↔ c ∈ S ∧ Admitted d.graph S c.Hash := by
  have hall : ∀ h, Admitted d.graph S h → ∃ c ∈ B, c.Hash = h := by
    intro h ha
    induction ha with
    | intro c hc _ ih =>
      rcases List.mem_append.1 (hperm.mem_iff.2 hc) with hB | hQ
      · exact ⟨c, hB, rfl⟩
      · exfalso
        have hst := hstuck c hQ
        have : d.isCausallyReady c ready = true := by
          rw [isCausallyReady_iff]
          intro dep hdep
          cases hh : d.graph.HasChange dep with
          | true => exact Or.inl rfl
          | false => exact Or.inr ((hready dep).2 (ih dep hdep hh))
        rw [this] at hst
        cases hst
  intro c
  constructor
  · intro hc
    exact ⟨hperm.mem_iff.1 (List.mem_append_left Q hc), hadm c hc⟩
  · rintro ⟨hc, ha⟩
    obtain ⟨c', hc', hce⟩ := hall c.Hash ha
    have hc'S : c' ∈ S := hperm.mem_iff.1 (List.mem_append_left Q hc')
    have := List.inj_on_of_nodup_map hnd hc'S hc hce
    rw [← this]
    exact hc'

/-- Two runs of the first two loops on the same changes in another order end with
the same batch and the same queue, up to the order. -/
theorem batches_perm (d : Document) (S1 S2 B1 Q1 B2 Q2 : List Change)
    (ready1 ready2 : GoMap ChangeHash Unit)
    (hS : S1.Perm S2) (hnd : (S1.map Change.Hash).Nodup)
    (hperm1 : (B1 ++ Q1).Perm S1) (hperm2 : (B2 ++ Q2).Perm S2)
    (hadm1 : ∀ c ∈ B1, Admitted d.graph S1 c.Hash)
    (hadm2 : ∀ c ∈ B2, Admitted d.graph S2 c.Hash)
    (hready1 : ∀ h, GoMap.contains ready1 h = true ↔ ∃ c ∈ B1, c.Hash = h)
    (hready2 : ∀ h, GoMap.contains ready2 h = true ↔ ∃ c ∈ B2, c.Hash = h)
    (hstuck1 : ∀ q ∈ Q1, d.isCausallyReady q ready1 = false)
    (hstuck2 : ∀ q ∈ Q2, d.isCausallyReady q ready2 = false) :
    B1.Perm B2 ∧ Q1.Perm Q2 ∧ (B1.map Change.Hash).Nodup := by
  have hnd2 : (S2.map Change.Hash).Nodup := (List.Perm.nodup_iff (hS.map _)).1 hnd
  have hb1 := batch_iff d S1 B1 Q1 ready1 hperm1 hnd hadm1 hready1 hstuck1
  have hb2 := batch_iff d S2 B2 Q2 ready2 hperm2 hnd2 hadm2 hready2 hstuck2
  have hn1 : (B1 ++ Q1).Nodup := (List.Perm.nodup_iff hperm1).2 (List.Nodup.of_map _ hnd)
  have hn2 : (B2 ++ Q2).Nodup := (List.Perm.nodup_iff hperm2).2 (List.Nodup.of_map _ hnd2)
  have hB : ∀ c, c ∈ B1 ↔ c ∈ B2 := by
    intro c
    rw [hb1 c, hb2 c, hS.mem_iff]
    constructor
    · rintro ⟨h1, h2⟩
      exact ⟨h1, admitted_mono _ _ _ (fun x hx => hS.mem_iff.1 hx) _ h2⟩
    · rintro ⟨h1, h2⟩
      exact ⟨h1, admitted_mono _ _ _ (fun x hx => hS.mem_iff.2 hx) _ h2⟩
  have hQ : ∀ c, c ∈ Q1 ↔ c ∈ Q2 := by
    intro c
    have d1 := List.disjoint_of_nodup_append hn1
    have d2 := List.disjoint_of_nodup_append hn2
    constructor
    · intro hc
      have hcS : c ∈ S2 := hS.mem_iff.1 (hperm1.mem_iff.1 (List.mem_append_right B1 hc))
      rcases List.mem_append.1 (hperm2.mem_iff.2 hcS) with h | h
      · exact absurd hc (fun hq => d1 ((hB c).2 h) hq)
      · exact h
    · intro hc
      have hcS : c ∈ S1 := hS.mem_iff.2 (hperm2.mem_iff.1 (List.mem_append_right B2 hc))
      rcases List.mem_append.1 (hperm1.mem_iff.2 hcS) with h | h
      · exact absurd hc (fun hq => d2 ((hB c).1 h) hq)
      · exact h
  refine ⟨(List.perm_ext_iff_of_nodup (List.Nodup.of_append_left hn1)
      (List.Nodup.of_append_left hn2)).2 hB,
    (List.perm_ext_iff_of_nodup (List.Nodup.of_append_right hn1)
      (List.Nodup.of_append_right hn2)).2 hQ, ?_⟩
  have : ((B1 ++ Q1).map Change.Hash).Nodup :=
    (List.Perm.nodup_iff (hperm1.map _)).2 hnd
  rw [List.map_append] at this
  exact List.Nodup.of_append_left this

end automerge

/-! ## ApplyChanges on the same changes in another order -/

namespace automerge

open model changegraph

theorem ApplyChanges_of_intake_fail (d : Document) (cs : List Change) (e : GoError)
    (h : (intakeLoop none cs { doc := d, ready := [], batch := [] }).2 = some e) :
    d.ApplyChanges cs =
      { doc := (intakeLoop none cs { doc := d, ready := [], batch := [] }).1.doc,
        err := some e } := by
  unfold Document.ApplyChanges Document.ApplyChangesWithActorMap
  cases hi : intakeLoop none cs { doc := d, ready := [], batch := [] } with
  | mk st e' =>
    rw [hi] at h
    simp only at h
    subst h
    rfl

theorem ApplyChanges_of_intake_ok (d : Document) (cs : List Change) (st' : Intake)
    (o : List Nat)
    (h : (intakeLoop none cs { doc := d, ready := [], batch := [] }).2 = none)
    (hd : drainLoop ((intakeLoop none cs { doc := d, ready := [], batch := [] }).1.doc.queue.length
      + 1) (intakeLoop none cs { doc := d, ready := [], batch := [] }).1 = .ok st')
    (ho : orderChangeIndicesTopologically st'.batch = .ok o) :
    d.ApplyChanges cs = applyLoop st'.batch o st'.doc := by
  unfold Document.ApplyChanges Document.ApplyChangesWithActorMap
  cases hi : intakeLoop none cs { doc := d, ready := [], batch := [] } with
  | mk st e' =>
    rw [hi] at h hd
    simp only at h hd
    subst h
    simp only [hd, ho]

theorem readyIsBatch_init (d : Document) :
    ReadyIsBatch { doc := d, ready := [], batch := [] } := by
  intro h
  simp [GoMap.contains, GoMap.get?]

/-- The first two loops of a call that does not stop in the first loop. -/
theorem intake_drain (d : Document) (cs : List Change)
    (hok : ∀ c ∈ cs, intakeFails d.graph c = false) :
    ∃ st', (intakeLoop none cs { doc := d, ready := [], batch := [] }).2 = none ∧
      drainLoop ((intakeLoop none cs { doc := d, ready := [], batch := [] }).1.doc.queue.length
        + 1) (intakeLoop none cs { doc := d, ready := [], batch := [] }).1 = .ok st' ∧
      st'.doc = d.withQueue st'.doc.queue ∧
      (st'.batch ++ st'.doc.queue).Perm (d.queue ++ cs.filter (intakeKeeps d.graph)) ∧
      (∀ c ∈ st'.batch, Admitted d.graph (d.queue ++ cs.filter (intakeKeeps d.graph)) c.Hash) ∧
      (∀ h, GoMap.contains st'.ready h = true ↔ ∃ c ∈ st'.batch, c.Hash = h) ∧
      (∀ q ∈ st'.doc.queue, d.isCausallyReady q st'.ready = false) := by
  have herr := (intake_err_iff cs { doc := d, ready := [], batch := [] }).2 hok
  obtain ⟨hdoc, hgraph⟩ := intake_doc cs { doc := d, ready := [], batch := [] }
  obtain ⟨p1, p2, p3⟩ := intake_ok d.graph (d.queue ++ cs.filter (intakeKeeps d.graph)) cs
    { doc := d, ready := [], batch := [] } rfl herr
  simp only [List.nil_append] at p1
  have hr := p2 (readyIsBatch_init d)
  have hadm := p3 (readyIsBatch_init d)
    (fun c hc hk => List.mem_append_right _ (List.mem_filter.2 ⟨hc, hk⟩))
    (fun c hc => absurd hc (List.not_mem_nil c))
  obtain ⟨st', hdrain⟩ := drainLoop_total
    ((intakeLoop none cs { doc := d, ready := [], batch := [] }).1.doc.queue.length + 1)
    (intakeLoop none cs { doc := d, ready := [], batch := [] }).1 (by omega)
  obtain ⟨q1, q2, q3, q4, q5⟩ := drain_sem d.graph (d.queue ++ cs.filter (intakeKeeps d.graph))
    _ _ st' hdrain hgraph hr
  refine ⟨st', herr, hdrain, ?_, q2.trans p1, ?_, q3, ?_⟩
  · rw [q1, hdoc]
    rfl
  · apply q5 _ hadm
    intro c hc
    exact p1.mem_iff.1 (List.mem_append_right _ hc)
  · intro q hq
    have := q4 q hq
    rw [q1, hdoc] at this
    exact this

/-- The outcome of ApplyChanges on the same changes in another order differs in the
pending queue only. -/
theorem ApplyChanges_perm_core (d : Document) (cs1 cs2 : List Change) (hp : cs1.Perm cs2)
    (hnd : ((d.queue ++ cs1).map Change.Hash).Nodup) :
    (d.ApplyChanges cs2).doc =
      (d.ApplyChanges cs1).doc.withQueue (d.ApplyChanges cs2).doc.queue ∧
    ((d.ApplyChanges cs1).err = none ↔ (d.ApplyChanges cs2).err = none) ∧
    ((d.ApplyChanges cs1).err = none →
      (d.ApplyChanges cs1).doc.queue.Perm (d.ApplyChanges cs2).doc.queue) := by
  by_cases hfail : ∀ c ∈ cs1, intakeFails d.graph c = false
  · have hfail2 : ∀ c ∈ cs2, intakeFails d.graph c = false :=
      fun c hc => hfail c (hp.mem_iff.2 hc)
    obtain ⟨st1, he1, hd1, hdoc1, hperm1, hadm1, hready1, hstuck1⟩ := intake_drain d cs1 hfail
    obtain ⟨st2, he2, hd2, hdoc2, hperm2, hadm2, hready2, hstuck2⟩ := intake_drain d cs2 hfail2
    have hS : (d.queue ++ cs1.filter (intakeKeeps d.graph)).Perm
        (d.queue ++ cs2.filter (intakeKeeps d.graph)) :=
      List.Perm.append_left _ (hp.filter _)
    have hndS : ((d.queue ++ cs1.filter (intakeKeeps d.graph)).map Change.Hash).Nodup := by
      apply List.Nodup.sublist _ hnd
      apply List.Sublist.map
      exact List.Sublist.append_left (List.filter_sublist _) _
    obtain ⟨hB, hQ, hndB⟩ := batches_perm d _ _ st1.batch st1.doc.queue st2.batch st2.doc.queue
      st1.ready st2.ready hS hndS hperm1 hperm2 hadm1 hadm2 hready1 hready2 hstuck1 hstuck2
    obtain ⟨o1, o2, ho1, ho2, hseq⟩ := order_canonical st1.batch st2.batch hB hndB
    have e1 := ApplyChanges_of_intake_ok d cs1 st1 o1 he1 hd1 ho1
    have e2 := ApplyChanges_of_intake_ok d cs2 st2 o2 he2 hd2 ho2
    rw [hdoc1, applyLoop_withQueue] at e1
    rw [hdoc2, applyLoop_withQueue, ← applyLoop_congr st1.batch st2.batch o1 o2 d hseq] at e2
    rw [e1, e2]
    exact ⟨rfl, Iff.rfl, fun _ => hQ⟩
  · have hfail2 : ¬ ∀ c ∈ cs2, intakeFails d.graph c = false :=
      fun h => hfail (fun c hc => h c (hp.mem_iff.1 hc))
    rw [← intake_err_iff cs1 { doc := d, ready := [], batch := [] }] at hfail
    rw [← intake_err_iff cs2 { doc := d, ready := [], batch := [] }] at hfail2
    obtain ⟨e1, he1⟩ := Option.ne_none_iff_exists'.1 hfail
    obtain ⟨e2, he2⟩ := Option.ne_none_iff_exists'.1 hfail2
    rw [ApplyChanges_of_intake_fail d cs1 e1 he1, ApplyChanges_of_intake_fail d cs2 e2 he2]
    refine ⟨?_, ?_, ?_⟩
    · simp only
      rw [(intake_doc cs2 _).1, (intake_doc cs1 _).1]
      rfl
    · simp
    · intro h
      cases h

theorem AllChanges_withQueue (d : Document) (q : List Change) :
    (d.withQueue q).AllChanges = d.AllChanges := rfl

/-- The bytes of a Save without the orphans depend on the pending queue only through
its being empty. -/
theorem SaveWithOptions_withQueue (d : Document) (q : List Change) (codec : Codec)
    (opts : SaveOptions) (hopt : opts.RetainOrphans = false)
    (hlen : q.length = d.queue.length) :
    ((d.withQueue q).SaveWithOptions codec opts).1 = (d.SaveWithOptions codec opts).1 := by
  unfold Document.SaveWithOptions
  have e1 : (d.withQueue q).queue = q := rfl
  have e2 : (d.withQueue q).legacyRaw = d.legacyRaw := rfl
  have e3 : (d.withQueue q).changes = d.changes := rfl
  have e4 : (d.withQueue q).saveCache = d.saveCache := rfl
  simp only [AllChanges_withQueue, hopt, e1, e2, e3, e4, hlen, Bool.false_eq_true, if_false]
  split_ifs <;> (repeat' split) <;> rfl

end automerge

namespace automerge

open model changegraph

/-- C2 (amended): for every document whose pending queue holds changes with pairwise
distinct hashes and every two orders of the same changes, whose hashes are distinct
from each other and from those of the changes in the pending queue, one ApplyChanges
call on each order, from the same document, gives the same heads, the same op set and
so the same value at every key of the root, and both calls fail or none; when the call
returns no error the pending queues hold the same changes, and the Save output is the
same if no change is left pending or the orphans are not retained. -/
theorem ApplyChanges_permutation (d : Document) (cs1 cs2 : List Change) (hp : cs1.Perm cs2)
    (hnd : ((d.queue ++ cs1).map Change.Hash).Nodup) :
    ((d.ApplyChanges cs1).err = none ↔ (d.ApplyChanges cs2).err = none) ∧
    (d.ApplyChanges cs1).doc.Heads = (d.ApplyChanges cs2).doc.Heads ∧
    (d.ApplyChanges cs1).doc.ops = (d.ApplyChanges cs2).doc.ops ∧
    (∀ key cover, (d.ApplyChanges cs1).doc.GetMap RootObjID key cover =
      (d.ApplyChanges cs2).doc.GetMap RootObjID key cover) ∧
    ((d.ApplyChanges cs1).err = none →
      (d.ApplyChanges cs1).doc.queue.Perm (d.ApplyChanges cs2).doc.queue ∧
      ∀ (codec : Codec) (opts : SaveOptions),
        (d.ApplyChanges cs1).doc.queue = [] ∨ opts.RetainOrphans = false →
        ((d.ApplyChanges cs1).doc.SaveWithOptions codec opts).1 =
          ((d.ApplyChanges cs2).doc.SaveWithOptions codec opts).1) := by
  obtain ⟨hdoc, herr, hq⟩ := ApplyChanges_perm_core d cs1 cs2 hp hnd
  have hheads : (d.ApplyChanges cs1).doc.Heads = (d.ApplyChanges cs2).doc.Heads := by
    have := congrArg Document.Heads hdoc
    exact this.symm
  have hops : (d.ApplyChanges cs1).doc.ops = (d.ApplyChanges cs2).doc.ops := by
    have := congrArg Document.ops hdoc
    exact this.symm
  refine ⟨herr, hheads, hops, ?_, ?_⟩
  · intro key cover
    unfold Document.GetMap
    rw [hops]
  · intro hok
    have hperm := hq hok
    refine ⟨hperm, ?_⟩
    intro codec opts hcase
    rcases hcase with h0 | hopt
    · have h2 : (d.ApplyChanges cs2).doc.queue = [] := by
        rw [h0] at hperm
        exact List.nil_perm.1 hperm
      have : (d.ApplyChanges cs2).doc = (d.ApplyChanges cs1).doc := by
        rw [hdoc, h2, ← h0]
        rfl
      rw [this]
    · rw [hdoc]
      exact (SaveWithOptions_withQueue _ _ codec opts hopt hperm.length_eq.symm).symm

/-- Witness for C2: the first two changes of the chain and the same changes in the
opposite order, applied to the new document. -/
theorem ApplyChanges_permutation_witness :
    (outOfOrderBatch exampleHasherAsc).Perm (outOfOrderBatch exampleHasherAsc).reverse ∧
    ((NewDocument.queue ++ outOfOrderBatch exampleHasherAsc).map Change.Hash).Nodup ∧
    (((NewDocument.ApplyChanges (outOfOrderBatch exampleHasherAsc)).err = none ↔
      (NewDocument.ApplyChanges (outOfOrderBatch exampleHasherAsc).reverse).err = none) ∧
    (NewDocument.ApplyChanges (outOfOrderBatch exampleHasherAsc)).doc.Heads =
      (NewDocument.ApplyChanges (outOfOrderBatch exampleHasherAsc).reverse).doc.Heads ∧
    (NewDocument.ApplyChanges (outOfOrderBatch exampleHasherAsc)).doc.ops =
      (NewDocument.ApplyChanges (outOfOrderBatch exampleHasherAsc).reverse).doc.ops ∧
    (∀ key cover,
      (NewDocument.ApplyChanges (outOfOrderBatch exampleHasherAsc)).doc.GetMap RootObjID key
        cover =
      (NewDocument.ApplyChanges (outOfOrderBatch exampleHasherAsc).reverse).doc.GetMap
        RootObjID key cover) ∧
    ((NewDocument.ApplyChanges (outOfOrderBatch exampleHasherAsc)).err = none →
      (NewDocument.ApplyChanges (outOfOrderBatch exampleHasherAsc)).doc.queue.Perm
        (NewDocument.ApplyChanges (outOfOrderBatch exampleHasherAsc).reverse).doc.queue ∧
      ∀ (codec : Codec) (opts : SaveOptions),
        (NewDocument.ApplyChanges (outOfOrderBatch exampleHasherAsc)).doc.queue = [] ∨
          opts.RetainOrphans = false →
        ((NewDocument.ApplyChanges (outOfOrderBatch exampleHasherAsc)).doc.SaveWithOptions
          codec opts).1 =
          ((NewDocument.ApplyChanges (outOfOrderBatch exampleHasherAsc).reverse).doc.SaveWithOptions
            codec opts).1)) :=
  ⟨(List.reverse_perm _).symm, by decide,
    ApplyChanges_permutation NewDocument (outOfOrderBatch exampleHasherAsc)
      (outOfOrderBatch exampleHasherAsc).reverse (List.reverse_perm _).symm (by decide)⟩

/-- C2 (counterexample): the last two changes of a chain of three, without the first
one, are applied to a new document in both orders. Both calls return no error and
leave the two changes in the pending queue, in the order of their arrival; Save
writes the queued changes in that order, so the two Save outputs differ. And two
changes that carry the same hash leave the value of the one that comes first; when two
such changes wait in the pending queue, the order of a batch of four other changes,
with hashes distinct from each other and from theirs, decides which of the two is
applied. -/
theorem ApplyChanges_permutation_save_differs :
    (orphanBatch exampleHasherAsc).Perm (orphanBatch exampleHasherAsc).reverse ∧
    (orphanBatch exampleHasherAsc).map Change.Hash = [103, 102] ∧
    (NewDocument.ApplyChanges (orphanBatch exampleHasherAsc)).err = none ∧
    (NewDocument.ApplyChanges (orphanBatch exampleHasherAsc).reverse).err = none ∧
    (NewDocument.ApplyChanges (orphanBatch exampleHasherAsc)).doc.queue.map Change.Hash =
      [103, 102] ∧
    (NewDocument.ApplyChanges (orphanBatch exampleHasherAsc).reverse).doc.queue.map
      Change.Hash = [102, 103] ∧
    savedBytes ((NewDocument.ApplyChanges (orphanBatch exampleHasherAsc)).doc.Save
        exampleCodec) ≠
      savedBytes ((NewDocument.ApplyChanges (orphanBatch exampleHasherAsc).reverse).doc.Save
        exampleCodec) ∧
    twinBatch.Perm twinBatch.reverse ∧
    (NewDocument.ApplyChanges twinBatch).err = none ∧
    (NewDocument.ApplyChanges twinBatch.reverse).err = none ∧
    stringOf ((NewDocument.ApplyChanges twinBatch).doc.GetMap RootObjID "k" none) =
      some "a" ∧
    stringOf ((NewDocument.ApplyChanges twinBatch.reverse).doc.GetMap RootObjID "k" none) =
      some "b" ∧
    twinQueueDocument.queue.map Change.Hash = [50, 50] ∧
    rootBatch.map Change.Hash = [10, 20, 30, 40] ∧
    rootBatch.Perm rootBatchMixed ∧
    (twinQueueDocument.ApplyChanges rootBatch).err = none ∧
    (twinQueueDocument.ApplyChanges rootBatchMixed).err = none ∧
    stringOf ((twinQueueDocument.ApplyChanges rootBatch).doc.GetMap RootObjID "k" none) =
      some "b" ∧
    stringOf ((twinQueueDocument.ApplyChanges rootBatchMixed).doc.GetMap RootObjID "k" none) =
      some "a" := by
  refine ⟨(List.reverse_perm _).symm, rfl, rfl, rfl, rfl, rfl, ?_, (List.reverse_perm _).symm,
    rfl, rfl, rfl, rfl, rfl, rfl, by decide, rfl, rfl, rfl, rfl⟩
  have h1 : savedBytes ((NewDocument.ApplyChanges (orphanBatch exampleHasherAsc)).doc.Save
      exampleCodec) =
      some [65, 77, 71, 54, 1, 1, 1, 0, 0, 0, 0, 0, 0, 0, 0, 0,
        65, 77, 71, 54, 1, 2, 1, 0, 0, 0, 0, 3, 0, 0, 0, 107, 103, 1, 3,
        65, 77, 71, 54, 1, 2, 1, 0, 0, 0, 0, 3, 0, 0, 0, 105, 102, 1, 2] := rfl
  have h2 : savedBytes ((NewDocument.ApplyChanges
      (orphanBatch exampleHasherAsc).reverse).doc.Save exampleCodec) =
      some [65, 77, 71, 54, 1, 1, 1, 0, 0, 0, 0, 0, 0, 0, 0, 0,
        65, 77, 71, 54, 1, 2, 1, 0, 0, 0, 0, 3, 0, 0, 0, 105, 102, 1, 2,
        65, 77, 71, 54, 1, 2, 1, 0, 0, 0, 0, 3, 0, 0, 0, 107, 103, 1, 3] := rfl
  rw [h1, h2]
  decide

end automerge

/-! ## The loops of the topological order return -/

namespace automerge

open model changegraph

theorem siftUp_total (batch : List Change) :
    ∀ (fuel : Nat) (items : List Nat) (i : Nat), i < fuel → i < items.length →
      ValidItems batch.length items →
      ∃ items', siftUp batch fuel items i = .ok items' := by
  intro fuel
  induction fuel with
  | zero => intro items i h; omega
  | succ fuel ih =>
    intro items i hfuel hi hv
    unfold siftUp
    by_cases hi0 : i > 0
    · simp only [hi0, if_true]
      have hp : (i - 1) / 2 < items.length := by omega
      rw [lessPos_ok batch items i _ hv hi hp]
      by_cases hlt : keyAt batch items i < keyAt batch items ((i - 1) / 2)
      · simp only [hlt, decide_True]
        obtain ⟨items1, hsw, hlen, -⟩ := swapItems_ok batch items i ((i - 1) / 2) hi hp
        simp only [hsw]
        exact ih items1 ((i - 1) / 2) (by omega) (by omega)
          (validItems_perm _ _ _ (swapItems_perm _ _ _ _ hsw) hv)
      · simp only [hlt, decide_False]
        exact ⟨items, rfl⟩
    · simp only [hi0, if_false]
      exact ⟨items, rfl⟩

theorem heapPush_total (batch : List Change) (items : List Nat) (v : Nat)
    (hv : ValidItems batch.length items) (hvv : v < batch.length) :
    ∃ items', heapPush batch items v = .ok items' ∧ ValidItems batch.length items' := by
  have hv1 : ValidItems batch.length (items ++ [v]) := by
    intro x hx
    rcases List.mem_append.1 hx with h | h
    · exact hv x h
    · simp at h; omega
  obtain ⟨items', hok⟩ := siftUp_total batch ((items ++ [v]).length + 1) (items ++ [v])
    ((items ++ [v]).length - 1) (by omega) (by simp) hv1
  exact ⟨items', hok, validItems_perm _ _ _ (heapPush_perm batch items v items' hok) hv1⟩

theorem siftDown_total (batch : List Change) :
    ∀ (fuel : Nat) (items : List Nat) (i : Nat), items.length < fuel + i → i < items.length →
      ValidItems batch.length items →
      ∃ items', siftDown batch fuel items i = .ok items' := by
  intro fuel
  induction fuel with
  | zero => intro items i h h'; omega
  | succ fuel ih =>
    intro items i hfuel hi hv
    unfold siftDown
    simp only
    have hb1 : (if 2 * i + 1 < items.length then lessPos batch items (2 * i + 1) i
        else .ok false) = .ok (decide (2 * i + 1 < items.length ∧
          keyAt batch items (2 * i + 1) < keyAt batch items i)) := by
      by_cases hl : 2 * i + 1 < items.length
      · rw [if_pos hl, lessPos_ok batch items _ _ hv hl hi]
        simp [hl]
      · simp [hl]
    rw [hb1]
    simp only
    generalize hs1 : (if decide (2 * i + 1 < items.length ∧
          keyAt batch items (2 * i + 1) < keyAt batch items i) = true then 2 * i + 1 else i) = s1
    have hs1l : s1 < items.length ∧ i ≤ s1 := by
      rw [← hs1]; split_ifs with h
      · simp at h; exact ⟨h.1, by omega⟩
      · exact ⟨hi, le_refl _⟩
    have hb2 : (if 2 * i + 1 + 1 < items.length then lessPos batch items (2 * i + 1 + 1) s1
        else .ok false) = .ok (decide (2 * i + 1 + 1 < items.length ∧
          keyAt batch items (2 * i + 1 + 1) < keyAt batch items s1)) := by
      by_cases hr : 2 * i + 1 + 1 < items.length
      · rw [if_pos hr, lessPos_ok batch items _ _ hv hr hs1l.1]
        simp [hr]
      · simp [hr]
    rw [hb2]
    simp only
    generalize hs : (if decide (2 * i + 1 + 1 < items.length ∧
          keyAt batch items (2 * i + 1 + 1) < keyAt batch items s1) = true
          then 2 * i + 1 + 1 else s1) = s
    have hsl : s < items.length ∧ i ≤ s := by
      rw [← hs]; split_ifs with h
      · simp at h; exact ⟨h.1, by omega⟩
      · exact hs1l
    by_cases hsi : s = i
    · rw [if_pos hsi]
      exact ⟨items, rfl⟩
    · rw [if_neg hsi]
      obtain ⟨items1, hsw, hlen, -⟩ := swapItems_ok batch items i s hi hsl.1
      simp only [hsw]
      exact ih items1 s (by omega) (by omega)
        (validItems_perm _ _ _ (swapItems_perm _ _ _ _ hsw) hv)

theorem heapPop_total (batch : List Change) (items : List Nat)
    (hv : ValidItems batch.length items) (hne : 0 < items.length) :
    ∃ x items', heapPop batch items = .ok (x, items') := by
  have h0 : items[0]? = some items[0] := List.getElem?_eq_getElem hne
  obtain ⟨lastItem, hlast⟩ : ∃ l, items.getLast? = some l := by
    cases hl : items.getLast? with
    | some l => exact ⟨l, rfl⟩
    | none =>
      rw [List.getLast?_eq_none_iff] at hl
      rw [hl] at hne
      simp at hne
  unfold heapPop
  simp only [h0, hlast]
  by_cases hlen : items.dropLast.length = 0
  · rw [if_pos hlen]
    exact ⟨_, _, rfl⟩
  · rw [if_neg hlen]
    have hvs : ValidItems batch.length (items.dropLast.set 0 lastItem) := by
      intro y hy
      rcases List.mem_or_eq_of_mem_set hy with h | h
      · exact hv y (List.dropLast_subset items h)
      · rw [h]
        exact hv _ (List.mem_of_mem_getLast? hlast)
    have hpos : 0 < (items.dropLast.set 0 lastItem).length := by
      rw [List.length_set]
      omega
    obtain ⟨items2, hok⟩ := siftDown_total batch (items.dropLast.length + 1)
      (items.dropLast.set 0 lastItem) 0 (by simp) hpos hvs
    rw [hok]
    exact ⟨_, _, rfl⟩

theorem pushInitial_total (batch : List Change) (counts : List Int) :
    ∀ (is items : List Nat), ValidItems batch.length is → ValidItems batch.length items →
      ∃ items', pushInitial batch counts is items = .ok items' ∧
        ValidItems batch.length items' := by
  intro is
  induction is with
  | nil =>
    intro items _ hv
    exact ⟨items, rfl, hv⟩
  | cons i rest ih =>
    intro items hvi hv
    have hi : i < batch.length := hvi i (List.mem_cons_self i rest)
    have hrest : ValidItems batch.length rest := fun x hx => hvi x (List.mem_cons_of_mem i hx)
    unfold pushInitial
    by_cases hz : counts[i]? = some 0
    · rw [if_pos hz]
      obtain ⟨items1, hpush, hvalid1⟩ := heapPush_total batch items i hv hi
      rw [hpush]
      exact ih items1 hrest hvalid1
    · rw [if_neg hz]
      exact ih items hrest hv

theorem releaseDependents_total (batch : List Change) :
    ∀ (deps : List Nat) (st : TopoState), (∀ x ∈ deps, x < batch.length) →
      st.depsCount.length = batch.length → ValidItems batch.length st.items →
      ∃ st', releaseDependents batch deps st = .ok st' ∧
        ValidItems batch.length st'.items := by
  intro deps
  induction deps with
  | nil =>
    intro st _ _ hv
    exact ⟨st, rfl, hv⟩
  | cons dep rest ih =>
    intro st hd hl hv
    have hdep : dep < st.depsCount.length := by
      rw [hl]
      exact hd dep (List.mem_cons_self dep rest)
    have hrest : ∀ x ∈ rest, x < batch.length := fun x hx => hd x (List.mem_cons_of_mem dep hx)
    unfold releaseDependents
    rw [List.getElem?_eq_getElem hdep]
    simp only
    by_cases hz : st.depsCount[dep] - 1 = 0
    · rw [if_pos hz]
      obtain ⟨items1, hpush, hvalid1⟩ := heapPush_total batch st.items dep hv
        (hd dep (List.mem_cons_self dep rest))
      rw [hpush]
      exact ih _ hrest (by simp [hl]) hvalid1
    · rw [if_neg hz]
      exact ih _ hrest (by simp [hl]) hv

theorem topoLoop_total (batch : List Change) (dependents : GoMap Nat (List Nat))
    (hdep : ∀ j, ∀ x ∈ dependentsOf dependents j, x < batch.length) :
    ∀ (fuel : Nat) (st : TopoState), TopoInv batch.length st →
      batch.length < fuel + st.out.length →
      ∃ st', topoLoop batch dependents fuel st = .ok st' := by
  have hvalid : ∀ st : TopoState, TopoInv batch.length st →
      ValidItems batch.length (st.out ++ st.items) := by
    intro st hinv i hi
    obtain ⟨k, hk, -⟩ := hinv.2.2 i hi
    rw [← hinv.2.1]
    exact (List.getElem?_eq_some.1 hk).1
  intro fuel
  induction fuel with
  | zero =>
    intro st hinv hf
    have := length_le_of_nodup_valid batch.length (st.out ++ st.items) hinv.1 (hvalid st hinv)
    simp only [List.length_append] at this
    omega
  | succ fuel ih =>
    intro st hinv hf
    unfold topoLoop
    by_cases hne : st.items.length > 0
    · rw [if_pos hne]
      have hvi : ValidItems batch.length st.items :=
        fun i hi => hvalid st hinv i (List.mem_append_right _ hi)
      obtain ⟨x, items1, hpop⟩ := heapPop_total batch st.items hvi hne
      rw [hpop]
      simp only
      have hperm := heapPop_perm _ _ _ _ hpop
      have hperm2 : ((st.out ++ [x]) ++ items1).Perm (st.out ++ st.items) := by
        rw [List.append_assoc]
        exact List.Perm.append_left _ hperm.symm
      have hinv1 : TopoInv batch.length { st with items := items1, out := st.out ++ [x] } := by
        obtain ⟨hnd, hlen, hcnt⟩ := hinv
        refine ⟨hperm2.nodup_iff.2 hnd, hlen, ?_⟩
        intro y hy
        exact hcnt y (hperm2.mem_iff.1 hy)
      have hvi1 : ValidItems batch.length items1 :=
        fun i hi => hvi i (hperm.mem_iff.2 (List.mem_cons_of_mem x hi))
      obtain ⟨st1, hrel, -⟩ := releaseDependents_total batch
        ((GoMap.get? dependents x).getD []) { st with items := items1, out := st.out ++ [x] }
        (hdep x) hinv.2.1 hvi1
      rw [hrel]
      simp only
      obtain ⟨hinv2, hout⟩ := releaseDependents_inv batch batch.length _ _ _ hinv1 hrel
      apply ih st1 hinv2
      rw [hout]
      simp only [List.length_append, List.length_singleton]
      have := length_le_of_nodup_valid batch.length (st.out ++ st.items) hinv.1 (hvalid st hinv)
      simp only [List.length_append] at this
      omega
    · rw [if_neg hne]
      exact ⟨st, rfl⟩

/-- The function `orderChangeIndicesTopologically` returns on every batch: the
bounds of its loops are never reached and no index is out of range. -/
theorem order_total (batch : List Change) :
    ∃ order, orderChangeIndicesTopologically batch = .ok order := by
  unfold orderChangeIndicesTopologically
  by_cases hsmall : batch.length ≤ 1
  · rw [if_pos hsmall]
    exact ⟨_, rfl⟩
  · rw [if_neg hsmall]
    simp only
    obtain ⟨-, h2⟩ := countAll_spec (indexByHash batch 0 []) batch 0
      { depsCount := List.replicate batch.length 0, dependents := [] }
    have hdep : ∀ j, ∀ x ∈ dependentsOf (countAll (indexByHash batch 0 []) batch 0
        { depsCount := List.replicate batch.length 0, dependents := [] }).dependents j,
        x < batch.length := by
      intro j x hx
      by_contra hlt
      have := h2 j x
      have hnil : dependentsOf ([] : GoMap Nat (List Nat)) j = [] := rfl
      simp only [hnil, List.count_nil, zero_add] at this
      rw [if_neg (fun h => hlt (by omega))] at this
      exact absurd (List.count_pos_iff.2 hx) (by omega)
    have hvr : ValidItems batch.length (List.range batch.length) :=
      fun x hx => List.mem_range.1 hx
    obtain ⟨items, hpush, hvalid⟩ := pushInitial_total batch
      (countAll (indexByHash batch 0 []) batch 0
        { depsCount := List.replicate batch.length 0, dependents := [] }).depsCount
      (List.range batch.length) [] hvr (fun x hx => absurd hx (List.not_mem_nil x))
    rw [hpush]
    simp only
    have hcl := countAll_length (indexByHash batch 0 []) batch 0
      { depsCount := List.replicate batch.length 0, dependents := [] }
    simp only [List.length_replicate] at hcl
    have hperm := pushInitial_perm _ _ _ _ _ hpush
    simp only [List.nil_append] at hperm
    have hinv0 : TopoInv batch.length
        { depsCount := (countAll (indexByHash batch 0 []) batch 0
            { depsCount := List.replicate batch.length 0, dependents := [] }).depsCount,
          items := items, out := [] } := by
      refine ⟨?_, hcl, ?_⟩
      · simp only [List.nil_append]
        exact hperm.nodup_iff.2 ((List.nodup_range _).filter _)
      · intro i hi
        simp only [List.nil_append] at hi
        have := hperm.mem_iff.1 hi
        have hz := (List.mem_filter.1 this).2
        exact ⟨0, by simpa using hz, le_refl _⟩
    obtain ⟨st', hloop⟩ := topoLoop_total batch _ hdep (batch.length + 1) _ hinv0 (by simp)
    rw [hloop]
    simp only
    split_ifs
    · exact ⟨_, rfl⟩
    · exact ⟨_, rfl⟩

end automerge

/-! ## Causal queueing reaches a fixpoint -/

namespace automerge

open model changegraph

/-- C5 (amended): after a call of `ApplyChanges` that returns no error, on a
document whose graph was built by `AddChange`, every change of the input whose
dependencies are all in the graph after the call is in the graph, whatever its
position in the input, and every change left in the pending queue has a dependency
that is not in the graph. For the first two changes of a chain, given with the
dependent one first, the call leaves the queue empty, the hash of the second as
the only head, and the value written by the second visible. The loop that drains
the pending queue and the ordering of the batch return on every input, within the
bounds given to them. -/
theorem ApplyChanges_fixpoint (d : Document) (hb : Built d.graph) (changes : List Change)
    (hok : (d.ApplyChanges changes).err = none) :
    (∀ c ∈ changes, (∀ dep ∈ c.Deps, (d.ApplyChanges changes).doc.hasChange dep = true) →
      (d.ApplyChanges changes).doc.hasChange c.Hash = true) ∧
    (∀ q ∈ (d.ApplyChanges changes).doc.queue,
      ∃ dep ∈ q.Deps, (d.ApplyChanges changes).doc.hasChange dep = false) ∧
    ((outOfOrderBatch exampleHasherAsc).map Change.Deps = [[101], []] ∧
      (outOfOrderBatch exampleHasherAsc).map Change.Hash = [102, 101] ∧
      (NewDocument.ApplyChanges (outOfOrderBatch exampleHasherAsc)).err = none ∧
      (NewDocument.ApplyChanges (outOfOrderBatch exampleHasherAsc)).doc.queue = [] ∧
      (NewDocument.ApplyChanges (outOfOrderBatch exampleHasherAsc)).doc.Heads = [102] ∧
      stringOf ((NewDocument.ApplyChanges (outOfOrderBatch exampleHasherAsc)).doc.GetMap
        RootObjID "k" none) = some "v2") ∧
    ((∀ st : Intake, ∃ st1, drainLoop (st.doc.queue.length + 1) st = .ok st1) ∧
      ∀ batch : List Change, ∃ order, orderChangeIndicesTopologically batch = .ok order) := by
  obtain ⟨st, st1, order, hin, hdr, hord, hrun⟩ := ApplyChanges_stages d changes hok
  rw [hrun] at hok ⊢
  have hr0 : ReadyIsBatch { doc := d, ready := [], batch := [] } := by
    intro h
    simp [GoMap.contains, GoMap.get?]
  obtain ⟨hg1, hr1, hin3, -, -⟩ := intakeLoop_spec changes _ st hb.wellFormed hr0 hin
  obtain ⟨hg2, hr2, hdr3, hdr4, hdr5⟩ := drainLoop_spec _ st st1 hr1 hdr
  obtain ⟨hq, hmono, hnew, hcov⟩ := applyLoop_spec st1.batch order st1.doc hok
  have hgraph : st1.doc.graph = d.graph := hg2.trans hg1
  have hsame : ∀ x, st1.doc.hasChange x = d.hasChange x := by
    intro x
    unfold Document.hasChange
    rw [hgraph]
  have hbatch : ∀ c ∈ st1.batch, (applyLoop st1.batch order st1.doc).doc.hasChange c.Hash = true := by
    intro c hc
    obtain ⟨i, hi⟩ := List.mem_iff_getElem?.1 hc
    have hilt : i < st1.batch.length := (List.getElem?_eq_some.1 hi).1
    obtain ⟨c', hc', hhas⟩ := hcov i (order_covers _ _ hord i hilt)
    rw [hi] at hc'
    injection hc' with hc'
    subst hc'
    exact hhas
  have hqueue : ∀ q ∈ (applyLoop st1.batch order st1.doc).doc.queue,
      ∃ dep ∈ q.Deps, (applyLoop st1.batch order st1.doc).doc.hasChange dep = false := by
    intro q hqm
    rw [hq] at hqm
    obtain ⟨dep, hdep, hno, hnr⟩ := isCausallyReady_false _ _ _ (hdr5 q hqm)
    refine ⟨dep, hdep, ?_⟩
    by_contra hcon
    have hyes : (applyLoop st1.batch order st1.doc).doc.hasChange dep = true := by
      simpa using hcon
    rcases hnew dep hyes with h | ⟨c, hc, hch⟩
    · rw [hno] at h; cases h
    · have := (hr2 dep).2 ⟨c, hc, hch⟩
      rw [hnr] at this
      cases this
  refine ⟨?_, hqueue, ⟨rfl, rfl, rfl, rfl, rfl, rfl⟩,
    fun st => drainLoop_total _ st (Nat.lt_succ_self _), order_total⟩
  intro c hc hdeps
  rcases hin3 c hc with h | h | h
  · exact hmono _ (by rw [hsame]; exact h)
  · exact hbatch c (hdr4 c h)
  · rcases hdr3 c h with h | h
    · exact hbatch c h
    · exfalso
      obtain ⟨dep, hdep, hno⟩ := hqueue c (by rw [hq]; exact h)
      rw [hdeps dep hdep] at hno
      cases hno

/-- Witness for C5: the out-of-order batch applied to the new document. -/
theorem ApplyChanges_fixpoint_witness :
    (∀ c ∈ outOfOrderBatch exampleHasherAsc,
      (∀ dep ∈ c.Deps,
        (NewDocument.ApplyChanges (outOfOrderBatch exampleHasherAsc)).doc.hasChange dep = true) →
      (NewDocument.ApplyChanges (outOfOrderBatch exampleHasherAsc)).doc.hasChange c.Hash = true) ∧
    (∀ q ∈ (NewDocument.ApplyChanges (outOfOrderBatch exampleHasherAsc)).doc.queue,
      ∃ dep ∈ q.Deps,
        (NewDocument.ApplyChanges (outOfOrderBatch exampleHasherAsc)).doc.hasChange dep = false) ∧
    ((outOfOrderBatch exampleHasherAsc).map Change.Deps = [[101], []] ∧
      (outOfOrderBatch exampleHasherAsc).map Change.Hash = [102, 101] ∧
      (NewDocument.ApplyChanges (outOfOrderBatch exampleHasherAsc)).err = none ∧
      (NewDocument.ApplyChanges (outOfOrderBatch exampleHasherAsc)).doc.queue = [] ∧
      (NewDocument.ApplyChanges (outOfOrderBatch exampleHasherAsc)).doc.Heads = [102] ∧
      stringOf ((NewDocument.ApplyChanges (outOfOrderBatch exampleHasherAsc)).doc.GetMap
        RootObjID "k" none) = some "v2") ∧
    ((∀ st : Intake, ∃ st1, drainLoop (st.doc.queue.length + 1) st = .ok st1) ∧
      ∀ batch : List Change, ∃ order, orderChangeIndicesTopologically batch = .ok order) :=
  ApplyChanges_fixpoint NewDocument Built.new (outOfOrderBatch exampleHasherAsc) rfl

/-- C5 (counterexample): the last two changes of a chain of three are applied to a
new document, the dependent one first, without the first change of the chain. The
call returns no error; the only dependency of the third change is the second
change, which is in the batch, and yet the third change has not been applied: both
stay in the pending queue. -/
theorem ApplyChanges_dependency_in_batch_not_applied :
    (orphanBatch exampleHasherAsc).map Change.Hash = [103, 102] ∧
    (orphanBatch exampleHasherAsc).map Change.Deps = [[102], [101]] ∧
    (NewDocument.ApplyChanges (orphanBatch exampleHasherAsc)).err = none ∧
    (∃ c ∈ orphanBatch exampleHasherAsc,
      (∀ dep ∈ c.Deps, NewDocument.hasChange dep = true ∨
        dep ∈ (orphanBatch exampleHasherAsc).map Change.Hash ∨
        dep ∈ NewDocument.queue.map Change.Hash) ∧
      (NewDocument.ApplyChanges (orphanBatch exampleHasherAsc)).doc.hasChange c.Hash = false) ∧
    (NewDocument.ApplyChanges (orphanBatch exampleHasherAsc)).doc.queue.map Change.Hash =
      [103, 102] := by
  have hc : ∃ c rest, orphanBatch exampleHasherAsc = c :: rest ∧ c.Deps = [102] ∧
      c.Hash = 103 := ⟨_, _, rfl, rfl, rfl⟩
  obtain ⟨c, rest, hcons, hdeps, hhash⟩ := hc
  refine ⟨rfl, rfl, rfl, ⟨c, ?_, ?_, ?_⟩, rfl⟩
  · rw [hcons]
    exact List.mem_cons_self c rest
  · intro dep hdep
    rw [hdeps] at hdep
    have : dep = 102 := by simpa using hdep
    subst this
    exact Or.inr (Or.inl (by decide))
  · rw [hhash]
    rfl

end automerge

/-! ## The clock of a set of heads -/

namespace changegraph

open model Graph

/-- The hashes that `GetHashesFromHeads` returns on a built graph. -/
theorem getHashesFromHeads_mem (g : Graph) (hb : Built g) (heads : List ChangeHash)
    (hk : ∀ h ∈ heads, g.HasChange h = true) :
    ∃ out, g.GetHashesFromHeads heads = .ok out ∧
      ∀ h, h ∈ out ↔
        (heads = [] ∧ g.HasChange h = true) ∨ ∃ hd ∈ heads, g.Reaches hd h := by
  have wf := hb.wellFormed
  rcases heads with _ | ⟨h0, hrest⟩
  · refine ⟨g.nodes.map node.hash, by simp [GetHashesFromHeads], ?_⟩
    intro h
    rw [nodes_map_hash, hasChange_iff]
    simp only [List.mem_map, List.mem_range, true_and, List.not_mem_nil, false_and,
      exists_false, or_false]
    constructor
    · rintro ⟨i, hi, hh⟩
      exact ⟨i, (wf.get?_iff_hashAt h i).2 ⟨hi, hh⟩⟩
    · rintro ⟨i, hi⟩
      exact ⟨i, (wf.get?_iff_hashAt h i).1 hi⟩
  · have hknown : ∀ h ∈ SortChangeHashes (h0 :: hrest), g.HasChange h = true :=
      fun h hh => hk h ((mem_SortChangeHashes _ _).1 hh)
    have hinit : Tracks g [] { visited := [], out := [] } g.nodes.length :=
      ⟨rfl, by simp, by simp⟩
    have hgood0 : GoodOrder g [] := ⟨by simp, List.nodup_nil, by simp⟩
    obtain ⟨st, E, hrun, hgood, hout, hmem, hreach⟩ :=
      dfsHeads_spec wf (g.nodes.length + 1) (by omega) _ _ [] hknown hinit hgood0
    simp only [List.nil_append] at hgood hout hmem
    obtain ⟨-, hclosed, -⟩ := wf.lift_order E hgood
    have hany : (SortChangeHashes (h0 :: hrest)).any (fun h => !g.HasChange h) = false := by
      rw [List.any_eq_false]
      intro x hx
      simp [hknown x hx]
    have hres : g.GetHashesFromHeads (h0 :: hrest) = .ok st.out := by
      simp only [GetHashesFromHeads, List.length_cons, Nat.add_one_ne_zero, if_false, hany,
        hrun, Bool.false_eq_true]
    refine ⟨st.out, hres, ?_⟩
    intro h
    rw [hout]
    constructor
    · intro hh
      obtain ⟨j, hj, rfl⟩ := List.mem_map.1 hh
      obtain ⟨hd, hhd, hr⟩ := hreach j hj
      exact Or.inr ⟨hd, (mem_SortChangeHashes _ _).1 hhd, hr⟩
    · rintro (⟨hnil, -⟩ | ⟨hd, hhd, hr⟩)
      · cases hnil
      · have hstart := hmem hd ((mem_SortChangeHashes _ _).2 hhd)
        induction hr with
        | refl => exact hstart
        | tail _ hstep ih => exact hclosed _ ih _ hstep

theorem maxSeq_observe (c : Clock) (a b s : Nat) :
    (c.Observe b s).MaxSeq a = if a = b then max (c.MaxSeq a) s else c.MaxSeq a := by
  unfold Clock.Observe
  by_cases hs : s > c.MaxSeq b
  · rw [if_pos hs]
    unfold Clock.MaxSeq
    by_cases hab : a = b
    · subst hab
      rw [GoMap.get?_set_self, if_pos rfl]
      unfold Clock.MaxSeq at hs
      simp only [Option.getD_some]
      omega
    · rw [GoMap.get?_set_ne _ _ _ _ hab, if_neg hab]
  · rw [if_neg hs]
    by_cases hab : a = b
    · subst hab
      rw [if_pos rfl]
      omega
    · rw [if_neg hab]

/-- A node is determined by its hash. -/
theorem WellFormed.node_of_hash {g : Graph} (wf : WellFormed g) (n n' : node)
    (hn : n ∈ g.nodes) (hn' : n' ∈ g.nodes) (h : n.hash = n'.hash) : n = n' := by
  obtain ⟨i, hi⟩ := List.mem_iff_getElem?.1 hn
  obtain ⟨j, hj⟩ := List.mem_iff_getElem?.1 hn'
  have h1 := (wf.byHash_iff n.hash i).2 ⟨n, hi, rfl⟩
  have h2 := (wf.byHash_iff n.hash j).2 ⟨n', hj, h.symm⟩
  rw [h1] at h2
  injection h2 with h2
  subst h2
  rw [hi] at hj
  injection hj

/-- The clock after the loop holds, for every actor, the greatest of its earlier
value and the `MaxOp` of the changes of the actor among the hashes. -/
theorem clockLoop_spec (g : Graph) (wf : WellFormed g) :
    ∀ (hs : List ChangeHash) (clk : Clock), (∀ h ∈ hs, g.HasChange h = true) →
      ∃ clk', g.clockLoop hs clk = .ok clk' ∧ ∀ a,
        clk.MaxSeq a ≤ clk'.MaxSeq a ∧
        (∀ n ∈ g.nodes, n.actor = a → n.hash ∈ hs → n.maxOp ≤ clk'.MaxSeq a) ∧
        (clk'.MaxSeq a = clk.MaxSeq a ∨
          ∃ n ∈ g.nodes, n.actor = a ∧ n.hash ∈ hs ∧ n.maxOp = clk'.MaxSeq a) := by
  intro hs
  induction hs with
  | nil =>
    intro clk _
    refine ⟨clk, rfl, fun a => ⟨le_refl _, ?_, Or.inl rfl⟩⟩
    intro n _ _ hm
    cases hm
  | cons h rest ih =>
    intro clk hk
    obtain ⟨i, hi⟩ := (hasChange_iff g h).1 (hk h (List.mem_cons_self h rest))
    obtain ⟨n0, hn0, hh0⟩ := (wf.byHash_iff h i).1 hi
    have hn0m : n0 ∈ g.nodes := List.mem_iff_getElem?.2 ⟨i, hn0⟩
    obtain ⟨clk', hrun, hspec⟩ := ih (clk.Observe n0.actor n0.maxOp)
      (fun x hx => hk x (List.mem_cons_of_mem h hx))
    refine ⟨clk', ?_, ?_⟩
    · unfold clockLoop
      simp only [hi, Option.getD_some, hn0]
      exact hrun
    · intro a
      obtain ⟨h1, h2, h3⟩ := hspec a
      have hobs := maxSeq_observe clk a n0.actor n0.maxOp
      refine ⟨?_, ?_, ?_⟩
      · by_cases hab : a = n0.actor
        · rw [if_pos hab] at hobs
          omega
        · rw [if_neg hab] at hobs
          omega
      · intro n hn ha hm
        rcases List.mem_cons.1 hm with hm | hm
        · have : n = n0 := wf.node_of_hash n n0 hn hn0m (by rw [hm, hh0])
          subst this
          rw [if_pos ha.symm] at hobs
          omega
        · exact h2 n hn ha hm
      · rcases h3 with h3 | ⟨n, hn, ha, hm, hv⟩
        · by_cases hab : a = n0.actor
          · rw [if_pos hab] at hobs
            by_cases hle : n0.maxOp ≤ clk.MaxSeq a
            · left
              omega
            · right
              refine ⟨n0, hn0m, hab.symm, ?_, by omega⟩
              rw [hh0]
              exact List.mem_cons_self h rest
          · rw [if_neg hab] at hobs
            left
            omega
        · exact Or.inr ⟨n, hn, ha, List.mem_cons_of_mem h hm, hv⟩

/-- Every change of a well-formed graph is reachable from a head. -/
theorem WellFormed.heads_reach {g : Graph} (wf : WellFormed g) :
    ∀ (k i : Nat), i < g.nodes.length → g.nodes.length - i ≤ k →
      ∃ hd ∈ GoMap.keys g.headSet, g.Reaches hd (g.hashAt i) := by
  intro k
  induction k with
  | zero =>
    intro i hi hk
    omega
  | succ k ih =>
    intro i hi hk
    by_cases href : ∀ n ∈ g.nodes, g.hashAt i ∉ n.depHash
    · refine ⟨g.hashAt i, (wf.heads_iff _).2 ⟨?_, href⟩, Relation.ReflTransGen.refl⟩
      exact (hasChange_iff g _).2 ⟨i, (wf.get?_iff_hashAt _ i).2 ⟨hi, rfl⟩⟩
    · push_neg at href
      obtain ⟨n, hn, hdep⟩ := href
      obtain ⟨j, hj⟩ := List.mem_iff_getElem?.1 hn
      have hjlt : j < g.nodes.length := (List.getElem?_eq_some.1 hj).1
      rw [wf.depHash_eq j n hj] at hdep
      obtain ⟨d, hd, hdh⟩ := List.mem_map.1 hdep
      have hdj : d < j := wf.depIdxAt_lt j d hd
      have hdi : d = i := wf.hashAt_inj d i (by omega) hi hdh
      subst hdi
      obtain ⟨hd0, hhd0, hr⟩ := ih j hjlt (by omega)
      exact ⟨hd0, hhd0, hr.tail ((wf.depStep_hashAt j hjlt _).2 ⟨d, hd, rfl⟩)⟩

theorem getElem?_filterMap_total {α β : Type} (f : α → Option β) :
    ∀ (L : List α) (k : Nat), (∀ x ∈ L, ∃ y, f x = some y) →
      (L.filterMap f)[k]? = (L[k]?).bind f := by
  intro L
  induction L with
  | nil => intro k _; simp
  | cons x rest ih =>
    intro k hall
    obtain ⟨y, hy⟩ := hall x (List.mem_cons_self x rest)
    rw [List.filterMap_cons_some hy]
    cases k with
    | zero => simp [hy]
    | succ k =>
      simp only [List.getElem?_cons_succ]
      exact ih k (fun z hz => hall z (List.mem_cons_of_mem x hz))

/-- On a well-formed graph `MaxOpForActor` returns zero for an actor without a change
and else the `MaxOp` of the change of the actor with the greatest sequence number. -/
theorem WellFormed.maxOpForActor {g : Graph} (wf : WellFormed g) (a : Nat) :
    (g.MaxOpForActor a = .ok 0 ∧ ∀ n ∈ g.nodes, n.actor ≠ a) ∨
    ∃ n ∈ g.nodes, n.actor = a ∧ g.MaxOpForActor a = .ok n.maxOp ∧
      ∀ n' ∈ g.nodes, n'.actor = a → n'.seq ≤ n.seq := by
  have hnodes := wf.actor_nodes a
  have hseq := wf.actor_seq a
  have hlen : (g.nodes.filter (fun n => decide (n.actor = a))).length =
      (g.actorIndexes a).length := by
    have := congrArg List.length hseq
    simpa [SeqForActor] using this
  by_cases h0 : (g.actorIndexes a).length = 0
  · left
    refine ⟨by simp [MaxOpForActor, h0], ?_⟩
    intro n hn ha
    have : n ∈ g.nodes.filter (fun n => decide (n.actor = a)) :=
      List.mem_filter.2 ⟨hn, by simp [ha]⟩
    rw [h0] at hlen
    rw [List.length_eq_zero.1 hlen] at this
    cases this
  · right
    have hall : ∀ i ∈ g.actorIndexes a, ∃ y, g.nodes[i]? = some y := by
      intro i hi
      exact ⟨_, List.getElem?_eq_getElem (wf.actor_lt a i hi)⟩
    have hk := getElem?_filterMap_total (fun i => g.nodes[i]?) (g.actorIndexes a)
      ((g.actorIndexes a).length - 1) hall
    rw [hnodes] at hk
    obtain ⟨i, hi⟩ : ∃ i, (g.actorIndexes a)[(g.actorIndexes a).length - 1]? = some i :=
      ⟨_, List.getElem?_eq_getElem (by omega)⟩
    rw [hi, Option.some_bind] at hk
    obtain ⟨n, hn⟩ := hall i (List.mem_iff_getElem?.2 ⟨_, hi⟩)
    rw [hn] at hk
    have hnf : n ∈ g.nodes.filter (fun n => decide (n.actor = a)) :=
      List.mem_iff_getElem?.2 ⟨_, hk⟩
    obtain ⟨hnm, hna⟩ := List.mem_filter.1 hnf
    have hna : n.actor = a := of_decide_eq_true hna
    have hs := congrArg (fun l => l[(g.actorIndexes a).length - 1]?) hseq
    simp only [List.getElem?_map, hk, Option.map_some', SeqForActor] at hs
    rw [List.getElem?_range' _ _ (by omega)] at hs
    injection hs with hs
    refine ⟨n, hnm, hna, ?_, ?_⟩
    · simp only [MaxOpForActor, h0, if_false, hi, hn]
    · intro n' hn' ha'
      have hmem : n'.seq ∈ (g.nodes.filter (fun n => decide (n.actor = a))).map node.seq :=
        List.mem_map.2 ⟨n', List.mem_filter.2 ⟨hn', by simp [ha']⟩, rfl⟩
      rw [hseq, List.mem_range'_1] at hmem
      simp only [SeqForActor] at hmem
      omega

/-- C11 (as amended): on a graph built by `AddChange` calls `ClockForHeads` succeeds
for known heads and its clock holds, for every actor, the greatest `MaxOp` over the
changes of the actor that are reachable from the heads, where an empty list of heads
stands for all changes of the graph (zero when there is no such change); `Covers a n`
holds exactly when `n` is at most that value; at `heads = Heads()` the value is the
greatest `MaxOp` over all changes of the actor, which is at least `MaxOpForActor a` and
equal to it when the `MaxOp` of the actor does not decrease with the sequence number. -/
theorem ClockForHeads_spec (g : Graph) (hb : Built g) (heads : List ChangeHash)
    (hk : ∀ h ∈ heads, g.HasChange h = true) :
    ∃ clk, g.ClockForHeads heads = .ok clk ∧
      (∀ a, g.IsMaxOpOf a (fun h => heads = [] ∨ ∃ hd ∈ heads, g.Reaches hd h)
        (clk.MaxSeq a)) ∧
      (∀ a n, clk.Covers a n = true ↔ n ≤ clk.MaxSeq a) ∧
      (heads = g.Heads → ∀ a, g.IsMaxOpOf a (fun _ => True) (clk.MaxSeq a) ∧
        ∃ m, g.MaxOpForActor a = .ok m ∧ m ≤ clk.MaxSeq a ∧
          ((∀ n ∈ g.nodes, ∀ n' ∈ g.nodes, n.actor = a → n'.actor = a → n.seq ≤ n'.seq →
              n.maxOp ≤ n'.maxOp) → m = clk.MaxSeq a)) := by
  have wf := hb.wellFormed
  obtain ⟨out, hout, hmem⟩ := getHashesFromHeads_mem g hb heads hk
  have hknown : ∀ h ∈ out, g.HasChange h = true := by
    intro h hh
    rcases (hmem h).1 hh with ⟨-, hc⟩ | ⟨hd, hhd, hr⟩
    · exact hc
    · have hstart := hk hd hhd
      clear hhd
      induction hr with
      | refl => exact hstart
      | tail _ hstep ih =>
        obtain ⟨deps, hdeps, hb'⟩ := hstep
        rw [wf.depsForHash] at hdeps
        obtain ⟨n, hn, -, hd'⟩ := hdeps
        exact wf.depHash_known n hn _ (hd' ▸ hb')
  obtain ⟨clk, hrun, hspec⟩ := clockLoop_spec g wf out NewClock hknown
  have hzero : ∀ a, NewClock.MaxSeq a = 0 := fun a => rfl
  have hin : ∀ n ∈ g.nodes, (n.hash ∈ out ↔ (heads = [] ∨ ∃ hd ∈ heads, g.Reaches hd n.hash)) := by
    intro n hn
    rw [hmem]
    have hc : g.HasChange n.hash = true := by
      obtain ⟨i, hi⟩ := List.mem_iff_getElem?.1 hn
      exact (hasChange_iff g _).2 ⟨i, (wf.byHash_iff _ i).2 ⟨n, hi, rfl⟩⟩
    simp [hc]
  have hmain : ∀ a, g.IsMaxOpOf a (fun h => heads = [] ∨ ∃ hd ∈ heads, g.Reaches hd h)
      (clk.MaxSeq a) := by
    intro a
    obtain ⟨-, h2, h3⟩ := hspec a
    refine ⟨fun n hn ha hp => h2 n hn ha ((hin n hn).2 hp), ?_⟩
    rcases h3 with h3 | ⟨n, hn, ha, hm, hv⟩
    · left
      rw [h3, hzero]
    · exact Or.inr ⟨n, hn, ha, (hin n hn).1 hm, hv⟩
  refine ⟨clk, ?_, hmain, ?_, ?_⟩
  · simp only [ClockForHeads, hout]
    exact hrun
  · intro a n
    simp [Clock.Covers]
  · intro hheads a
    have hall : ∀ n ∈ g.nodes, heads = [] ∨ ∃ hd ∈ heads, g.Reaches hd n.hash := by
      intro n hn
      by_cases hnil : heads = []
      · exact Or.inl hnil
      · right
        obtain ⟨i, hi⟩ := List.mem_iff_getElem?.1 hn
        have hilt : i < g.nodes.length := (List.getElem?_eq_some.1 hi).1
        obtain ⟨hd, hhd, hr⟩ := wf.heads_reach (g.nodes.length - i) i hilt (le_refl _)
        have hh : g.hashAt i = n.hash := by simp [hashAt, hi]
        rw [hh] at hr
        refine ⟨hd, ?_, hr⟩
        rw [hheads]
        exact (mem_SortChangeHashes _ _).2 hhd
    obtain ⟨hub, hex⟩ := hmain a
    have hmax : g.IsMaxOpOf a (fun _ => True) (clk.MaxSeq a) := by
      refine ⟨fun n hn ha _ => hub n hn ha (hall n hn), ?_⟩
      rcases hex with h0 | ⟨n, hn, ha, -, hv⟩
      · exact Or.inl h0
      · exact Or.inr ⟨n, hn, ha, trivial, hv⟩
    refine ⟨hmax, ?_⟩
    rcases wf.maxOpForActor a with ⟨hm0, hno⟩ | ⟨n, hn, ha, hm, hlast⟩
    · refine ⟨0, hm0, Nat.zero_le _, ?_⟩
      intro _
      rcases hmax.2 with h0 | ⟨n, hn, ha, -, -⟩
      · exact h0.symm
      · exact absurd ha (hno n hn)
    · refine ⟨n.maxOp, hm, hmax.1 n hn ha trivial, ?_⟩
      intro hmono
      rcases hmax.2 with h0 | ⟨n', hn', ha', -, hv⟩
      · have := hmax.1 n hn ha trivial
        omega
      · have h1 := hmono n' hn' n hn ha' ha (hlast n' hn' ha')
        have h2 := hmax.1 n hn ha trivial
        omega

theorem decreasingGraph_built : Built decreasingGraph :=
  Built.new.addChanges decreasingMetas

theorem ClockForHeads_spec_witness :
    (∀ h ∈ [30, 10], exampleGraph.HasChange h = true) ∧
    ∃ clk, exampleGraph.ClockForHeads [30, 10] = .ok clk ∧
      (∀ a, exampleGraph.IsMaxOpOf a
        (fun h => [30, 10] = ([] : List ChangeHash) ∨ ∃ hd ∈ [30, 10], exampleGraph.Reaches hd h)
        (clk.MaxSeq a)) ∧
      (∀ a n, clk.Covers a n = true ↔ n ≤ clk.MaxSeq a) ∧
      ([30, 10] = exampleGraph.Heads → ∀ a, exampleGraph.IsMaxOpOf a (fun _ => True) (clk.MaxSeq a) ∧
        ∃ m, exampleGraph.MaxOpForActor a = .ok m ∧ m ≤ clk.MaxSeq a ∧
          ((∀ n ∈ exampleGraph.nodes, ∀ n' ∈ exampleGraph.nodes, n.actor = a → n'.actor = a →
              n.seq ≤ n'.seq → n.maxOp ≤ n'.maxOp) → m = clk.MaxSeq a)) :=
  ⟨by decide, ClockForHeads_spec exampleGraph exampleGraph_built [30, 10] (by decide)⟩

/-- C11 (counterexample): with an empty list of heads no change is reachable from a
head, yet the clock of `exampleGraph` holds 3 for actor 1; and on a graph in which the
second change of actor 1 carries the smaller `MaxOp`, the clock at `Heads()` holds 5 for
actor 1 while `MaxOpForActor 1` is 3. -/
theorem ClockForHeads_empty_heads_and_last_change :
    (Built exampleGraph ∧
      (∀ h ∈ ([] : List ChangeHash), exampleGraph.HasChange h = true) ∧
      (∃ clk, exampleGraph.ClockForHeads [] = .ok clk ∧ clk.MaxSeq 1 = 3) ∧
      ¬ ∃ n ∈ exampleGraph.nodes, ∃ hd ∈ ([] : List ChangeHash),
          exampleGraph.Reaches hd n.hash) ∧
    (Built decreasingGraph ∧
      (∃ clk, decreasingGraph.ClockForHeads decreasingGraph.Heads = .ok clk ∧
        clk.MaxSeq 1 = 5) ∧
      decreasingGraph.MaxOpForActor 1 = .ok 3) := by
  refine ⟨⟨exampleGraph_built, by simp, ⟨_, rfl, rfl⟩, by simp⟩,
    decreasingGraph_built, ⟨_, rfl, rfl⟩, rfl⟩

end changegraph

/-! ## Validate -/

namespace GoMap

variable {κ ν : Type} [DecidableEq κ]

theorem delete_of_get?_none (m : GoMap κ ν) (k : κ) (h : get? m k = none) :
    delete m k = m := by
  induction m with
  | nil => rfl
  | cons p rest ih =>
    obtain ⟨a, b⟩ := p
    by_cases hak : a = k
    · simp [get?, hak] at h
    · simp only [get?, hak, if_false] at h
      have := ih h
      simp only [delete] at this ⊢
      simp [List.filter, hak, this]

theorem mem_set_iff (m : GoMap κ ν) (k : κ) (v : ν) (p : κ × ν) :
    p ∈ set m k v ↔ (p ∈ m ∧ p.1 ≠ k) ∨ p = (k, v) := by
  simp [set, delete]

end GoMap

theorem GoMap.length_keys {κ ν : Type} (m : GoMap κ ν) : (GoMap.keys m).length = m.length := by
  simp [GoMap.keys]

namespace changegraph

open model Graph

theorem counted_New : Counted New :=
  ⟨rfl, rfl, by intro p hp; cases hp⟩

theorem Counted.after_addChange {g g' : Graph} {m : ChangeMeta} (hc : Counted g)
    (hadd : g.AddChange m = .ok g') : Counted g' := by
  obtain ⟨hnew, -, depIdx, -, rfl⟩ := AddChange_ok g g' m hadd
  have hnone : GoMap.get? g.byHash m.Hash = none := by
    cases hg : GoMap.get? g.byHash m.Hash with
    | none => rfl
    | some i =>
      have := (hasChange_iff g m.Hash).2 ⟨i, hg⟩
      rw [hnew] at this
      cases this
  refine ⟨?_, ?_, ?_⟩
  · simp only [GoMap.set, GoMap.delete_of_get?_none _ _ hnone, List.length_append,
      List.length_singleton, hc.byHash_length]
  · simp only [List.foldl_append, List.foldl_cons, List.foldl_nil, ← hc.maxOp_eq]
  · intro p hp
    dsimp only at hp ⊢
    rcases (GoMap.mem_set_iff _ _ _ _).1 hp with ⟨hp, hne⟩ | hp
    · rw [GoMap.get?_set_ne _ _ _ _ hne]
      exact hc.byActor_get p hp
    · subst hp
      exact GoMap.get?_set_self _ _ _

theorem Built.counted {g : Graph} (hb : Built g) : Counted g := by
  induction hb with
  | new => exact counted_New
  | add g g' m _ hadd ih => exact ih.after_addChange hadd

theorem validateDeps_ok (g : Graph) (depHash : List ChangeHash) (bound : Nat)
    (hbound : bound ≤ g.nodes.length) :
    ∀ (ds : List Nat) (i : Nat) (ch : GoMap ChangeHash Unit),
      List.Forall₂ (fun d h => d < bound ∧ ∃ nd : node, g.nodes[d]? = some nd ∧ nd.hash = h)
        ds (depHash.drop i) →
      validateDeps g depHash ds i ch = .ok ((depHash.drop i).foldl GoMap.delete ch) := by
  intro ds
  induction ds with
  | nil =>
    intro i ch hf
    cases hdrop : depHash.drop i with
    | nil => rfl
    | cons h tl => rw [hdrop] at hf; cases hf
  | cons d rest ih =>
    intro i ch hf
    cases hdrop : depHash.drop i with
    | nil => rw [hdrop] at hf; cases hf
    | cons h tl =>
      rw [hdrop] at hf
      cases hf with
      | cons hhead htail =>
        obtain ⟨hd, nd, hnd, hh⟩ := hhead
        have hi : depHash[i]? = some h := by
          have := congrArg (fun l => l[0]?) hdrop
          simpa using this
        have htl : depHash.drop (i + 1) = tl := by
          have := congrArg (fun l => l.drop 1) hdrop
          simpa [List.drop_drop, Nat.add_comm] using this
        unfold validateDeps
        have hlt : ¬ d ≥ g.nodes.length := by omega
        simp only [hlt, if_false, hnd, hi, hh, ne_eq, not_true_eq_false]
        rw [ih (i + 1) (GoMap.delete ch h) (htl ▸ htail), htl]
        rfl

theorem validateNodes_ok (g : Graph) (wf : WellFormed g) :
    ∀ (rest : List node) (idx lm : Nat) (ch : GoMap ChangeHash Unit),
      (∀ k n, rest[k]? = some n → g.nodes[idx + k]? = some n) →
      validateNodes g rest idx lm ch =
        .ok (rest.foldl (fun m n => if n.maxOp > m then n.maxOp else m) lm,
             (rest.flatMap node.depHash).foldl GoMap.delete ch) := by
  intro rest
  induction rest with
  | nil => intro idx lm ch _; rfl
  | cons n rest ih =>
    intro idx lm ch hidx
    have hn : g.nodes[idx]? = some n := by simpa using hidx 0 n (by simp)
    have hlt : idx < g.nodes.length := (List.getElem?_eq_some.1 hn).1
    have hget : GoMap.get? g.byHash n.hash = some idx := (wf.byHash_iff _ _).2 ⟨n, hn, rfl⟩
    have hf := wf.deps idx n hn
    have hlen : n.depIdx.length = n.depHash.length := hf.length_eq
    have hdeps := validateDeps_ok g n.depHash idx (by omega) n.depIdx 0 ch (by simpa using hf)
    unfold validateNodes
    simp only [hget, ne_eq, not_true_eq_false, if_false, hlen, hdeps, List.drop_zero]
    rw [ih (idx + 1) _ _ (fun k n' hk => by
      have := hidx (k + 1) n' (by simpa using hk)
      rw [← this]; congr 1; omega)]
    simp [List.flatMap_cons, List.foldl_append]

theorem mem_keys_foldl_set (ns : List node) (ch : GoMap ChangeHash Unit) (h : ChangeHash) :
    h ∈ GoMap.keys (ns.foldl (fun ch n => GoMap.set ch n.hash ()) ch) ↔
      h ∈ GoMap.keys ch ∨ ∃ n ∈ ns, n.hash = h := by
  induction ns generalizing ch with
  | nil => simp
  | cons n rest ih =>
    simp only [List.foldl_cons, ih, GoMap.mem_keys_set, List.mem_cons, exists_eq_or_imp]
    by_cases hh : h = n.hash
    · simp [hh]
    · have : ¬ n.hash = h := fun e => hh e.symm
      simp [hh, this]

theorem nodup_keys_foldl_set (ns : List node) (ch : GoMap ChangeHash Unit)
    (hnd : (GoMap.keys ch).Nodup) :
    (GoMap.keys (ns.foldl (fun ch n => GoMap.set ch n.hash ()) ch)).Nodup := by
  induction ns generalizing ch with
  | nil => simpa
  | cons n rest ih => exact ih _ (GoMap.nodup_keys_set ch n.hash () hnd)

theorem validateActor_ok (g : Graph) (a : Nat) :
    ∀ (rest : List Nat) (i : Nat),
      (∀ k idx, rest[k]? = some idx →
        ∃ n, g.nodes[idx]? = some n ∧ n.actor = a ∧ n.seq = i + k + 1) →
      validateActor g a rest i = .ok () := by
  intro rest
  induction rest with
  | nil => intro i _; rfl
  | cons idx rest ih =>
    intro i h
    obtain ⟨n, hn, ha, hs⟩ := h 0 idx (by simp)
    unfold validateActor
    simp only [hn, ha, hs, ne_eq, not_true_eq_false, if_false, Nat.add_zero]
    exact ih (i + 1) (fun k idx' hk => by
      obtain ⟨n', hn', ha', hs'⟩ := h (k + 1) idx' (by simpa using hk)
      exact ⟨n', hn', ha', by omega⟩)

theorem WellFormed.actorIndexes_node {g : Graph} (wf : WellFormed g) (a k idx : Nat)
    (hk : (g.actorIndexes a)[k]? = some idx) :
    ∃ n, g.nodes[idx]? = some n ∧ n.actor = a ∧ n.seq = k + 1 := by
  have hall : ∀ i ∈ g.actorIndexes a, ∃ y, g.nodes[i]? = some y := by
    intro i hi
    exact ⟨_, List.getElem?_eq_getElem (wf.actor_lt a i hi)⟩
  have hfm := getElem?_filterMap_total (fun i => g.nodes[i]?) (g.actorIndexes a) k hall
  rw [wf.actor_nodes a, hk, Option.some_bind] at hfm
  obtain ⟨n, hn⟩ := hall idx (List.mem_iff_getElem?.2 ⟨k, hk⟩)
  rw [hn] at hfm
  have hmem : n ∈ g.nodes.filter (fun n => decide (n.actor = a)) :=
    List.mem_iff_getElem?.2 ⟨k, hfm⟩
  have hklt : k < (g.actorIndexes a).length := (List.getElem?_eq_some.1 hk).1
  have hs := congrArg (fun l => l[k]?) (wf.actor_seq a)
  simp only [List.getElem?_map, hfm, Option.map_some', SeqForActor] at hs
  rw [List.getElem?_range' _ _ hklt] at hs
  injection hs with hs
  exact ⟨n, hn, of_decide_eq_true (List.mem_filter.1 hmem).2, by omega⟩

theorem validateActors_ok (g : Graph) (wf : WellFormed g) :
    ∀ (rest : List (Nat × List Nat)),
      (∀ p ∈ rest, GoMap.get? g.byActor p.1 = some p.2) →
      validateActors g rest = .ok () := by
  intro rest
  induction rest with
  | nil => intro _; rfl
  | cons p rest ih =>
    intro h
    obtain ⟨a, idxs⟩ := p
    have hp := h (a, idxs) (List.mem_cons_self _ _)
    have hidx : g.actorIndexes a = idxs := by simp [actorIndexes, hp]
    unfold validateActors
    rw [validateActor_ok g a idxs 0 (fun k idx hk => by
      obtain ⟨n, hn, ha, hs⟩ := wf.actorIndexes_node a k idx (hidx ▸ hk)
      exact ⟨n, hn, ha, by omega⟩)]
    exact ih (fun q hq => h q (List.mem_cons_of_mem _ hq))

/-- On a well-formed graph that is counted `Validate` returns nil. -/
theorem validate_of_invariants (g : Graph) (wf : WellFormed g) (hc : Counted g) :
    g.Validate = .ok () := by
  have hnodes := validateNodes_ok g wf g.nodes 0 0
    (g.nodes.foldl (fun ch n => GoMap.set ch n.hash ()) [])
    (fun k n hk => by simpa using hk)
  have hmem : ∀ h, h ∈ GoMap.keys ((g.nodes.flatMap node.depHash).foldl GoMap.delete
      (g.nodes.foldl (fun ch n => GoMap.set ch n.hash ()) [])) ↔
      h ∈ GoMap.keys g.headSet := by
    intro h
    rw [GoMap.mem_keys_foldl_delete, mem_keys_foldl_set, wf.heads_iff, hasChange_iff]
    simp only [GoMap.keys, List.map_nil, List.not_mem_nil, false_or, List.mem_flatMap,
      not_exists, not_and]
    constructor
    · rintro ⟨⟨n, hn, hh⟩, hno⟩
      obtain ⟨i, hi⟩ := List.mem_iff_getElem?.1 hn
      exact ⟨⟨i, (wf.byHash_iff _ _).2 ⟨n, hi, hh⟩⟩, hno⟩
    · rintro ⟨⟨i, hi⟩, hno⟩
      obtain ⟨n, hn, hh⟩ := (wf.byHash_iff _ _).1 hi
      exact ⟨⟨n, List.mem_iff_getElem?.2 ⟨i, hn⟩, hh⟩, hno⟩
  have hnd := GoMap.nodup_keys_foldl_delete (g.nodes.flatMap node.depHash) _
    (nodup_keys_foldl_set g.nodes [] (by simp [GoMap.keys]))
  have hperm := (List.perm_ext_iff_of_nodup hnd wf.heads_nodup).2 hmem
  have hlen := hperm.length_eq
  rw [GoMap.length_keys, GoMap.length_keys] at hlen
  have hany : (GoMap.keys ((g.nodes.flatMap node.depHash).foldl GoMap.delete
      (g.nodes.foldl (fun ch n => GoMap.set ch n.hash ()) []))).any
      (fun h => !GoMap.contains g.headSet h) = false := by
    rw [List.any_eq_false]
    intro h hh
    have := (GoMap.contains_iff_mem_keys g.headSet h).2 ((hmem h).1 hh)
    simp [this]
  unfold Validate
  simp only [hc.byHash_length, ne_eq, not_true_eq_false, if_false, hnodes, ← hc.maxOp_eq,
    hlen, hany, Bool.false_eq_true]
  exact validateActors_ok g wf g.byActor hc.byActor_get

/-- C12: `Validate` returns nil on every graph obtained from `New()` by a sequence of
`AddChange` calls, successful or failed; on such a graph the node count equals the size
of the hash map, every dependency index points at an earlier node with the recorded
dependency hash, `maxOp` is the greatest node `MaxOp`, the head set holds exactly the
hashes not referenced as a dependency, and the changes of each actor carry the sequence
numbers 1..N. -/
theorem Validate_ok (ms : List ChangeMeta) :
    (New.addChanges ms).Validate = .ok () ∧
    (New.addChanges ms).nodes.length = (New.addChanges ms).byHash.length ∧
    (∀ (i : Nat) (n : node), (New.addChanges ms).nodes[i]? = some n →
      List.Forall₂ (fun d h => d < i ∧
        ∃ nd : node, (New.addChanges ms).nodes[d]? = some nd ∧ nd.hash = h)
        n.depIdx n.depHash) ∧
    (New.addChanges ms).MaxOp =
      (New.addChanges ms).nodes.foldl (fun m n => if n.maxOp > m then n.maxOp else m) 0 ∧
    (∀ h, h ∈ (New.addChanges ms).Heads ↔
      ((New.addChanges ms).HasChange h = true ∧
        ∀ n ∈ (New.addChanges ms).nodes, h ∉ n.depHash)) ∧
    (∀ a, ((New.addChanges ms).nodes.filter (fun n => decide (n.actor = a))).map node.seq =
      List.range' 1 ((New.addChanges ms).SeqForActor a)) := by
  have hb : Built (New.addChanges ms) := Built.new.addChanges ms
  have wf := hb.wellFormed
  have hc := hb.counted
  refine ⟨validate_of_invariants _ wf hc, hc.byHash_length.symm, wf.deps, hc.maxOp_eq, ?_,
    wf.actor_seq⟩
  intro h
  rw [Heads, mem_SortChangeHashes]
  exact wf.heads_iff h

end changegraph

/-! ## Transactions: op ids at commit -/

namespace automerge

open model changegraph

theorem Begin_ok (d0 d1 : Document) (tx0 : Transaction) (h : d0.Begin = .ok (d1, tx0)) :
    d0.openTx = false ∧ d1 = { d0 with openTx := true } ∧ tx0.closed = false ∧
    tx0.ops = [] ∧ tx0.openMk = [] ∧ tx0.cp.actor = d0.actor ∧
    tx0.cp.startOp = (d0.graph.MaxOp + 1) % 2 ^ 64 ∧
    tx0.cp.seq = d0.graph.SeqForActor d0.actor + 1 := by
  unfold Document.Begin at h
  by_cases ho : d0.openTx = true
  · simp [ho] at h
  · simp only [ho, Bool.false_eq_true, if_false] at h
    unfold Document.newTransaction at h
    cases hd : d0.dependenciesForActorSeq d0.actor (d0.graph.SeqForActor d0.actor + 1) with
    | error e => simp [hd] at h
    | ok deps =>
      simp only [hd] at h
      injection h with h
      injection h with h1 h2
      subst h1 h2
      exact ⟨by simpa using ho, rfl, rfl, rfl, rfl, rfl, rfl, rfl⟩

/-- A staging call keeps the checkpoint, the closed flag and the open marks, and it
appends at most one mutation, which is staged. -/
theorem call_spec (tx : Transaction) (c : StageCall) (hc : c.typed = true) :
    (tx.call c).tx.cp = tx.cp ∧ (tx.call c).tx.closed = tx.closed ∧
    (tx.call c).tx.openMk = tx.openMk ∧
    ((tx.call c).tx.ops = tx.ops ∨
      ∃ m, (tx.call c).tx.ops = tx.ops ++ [m] ∧ m.Staged) := by
  cases c with
  | put obj key value =>
    by_cases hcl : tx.closed = true
    · simp [Transaction.call, Transaction.afterCall, Transaction.Put, Transaction.stage, hcl]
    · simp [Transaction.call, Transaction.afterCall, Transaction.Put, Transaction.stage, hcl,
        txMutation.Staged]
  | putObject obj key typ =>
    by_cases hcl : tx.closed = true
    · simp [Transaction.call, Transaction.afterObjectCall, Transaction.PutObject,
        Transaction.stage, hcl]
    · simp [Transaction.call, Transaction.afterObjectCall, Transaction.PutObject,
        Transaction.stage, hcl, txMutation.Staged]
  | insert obj index value =>
    by_cases hcl : tx.closed = true
    · simp [Transaction.call, Transaction.afterCall, Transaction.Insert, Transaction.stage, hcl]
    · simp [Transaction.call, Transaction.afterCall, Transaction.Insert, Transaction.stage, hcl,
        txMutation.Staged]
  | insertObject obj index typ =>
    by_cases hcl : tx.closed = true
    · simp [Transaction.call, Transaction.afterObjectCall, Transaction.InsertObject,
        Transaction.stage, hcl]
    · simp [Transaction.call, Transaction.afterObjectCall, Transaction.InsertObject,
        Transaction.stage, hcl, txMutation.Staged]
  | deleteMap obj key =>
    by_cases hcl : tx.closed = true
    · simp [Transaction.call, Transaction.afterCall, Transaction.DeleteMap, Transaction.stage,
        hcl]
    · simp [Transaction.call, Transaction.afterCall, Transaction.DeleteMap, Transaction.stage,
        hcl, txMutation.Staged]
  | deleteList obj index =>
    by_cases hcl : tx.closed = true
    · simp [Transaction.call, Transaction.afterCall, Transaction.DeleteList, Transaction.stage,
        hcl]
    · simp [Transaction.call, Transaction.afterCall, Transaction.DeleteList, Transaction.stage,
        hcl, txMutation.Staged]
  | increment obj key by_ =>
    by_cases hcl : tx.closed = true
    · simp [Transaction.call, Transaction.afterCall, Transaction.Increment, Transaction.stage,
        hcl]
    · simp [Transaction.call, Transaction.afterCall, Transaction.Increment, Transaction.stage,
        hcl, txMutation.Staged]
  | spliceText obj index deleteCount insert =>
    simp only [StageCall.typed, Bool.and_eq_true, decide_eq_true_eq] at hc
    by_cases hcl : tx.closed = true
    · simp [Transaction.call, Transaction.afterCall, Transaction.SpliceText, hcl]
    · by_cases hz : deleteCount = 0 ∧ insert = ""
      · simp [Transaction.call, Transaction.afterCall, Transaction.SpliceText, hcl, hz]
      · have hcall : tx.call (.spliceText obj index deleteCount insert) =
            { tx := { tx with ops := tx.ops ++
                        [.spliceTextMutation obj index deleteCount insert] },
              err := none, obj := none } := by
          simp only [Transaction.call, Transaction.afterCall, Transaction.SpliceText, hcl,
            Bool.false_eq_true, if_false, hz]
        rw [hcall]
        exact ⟨rfl, rfl, rfl, Or.inr ⟨_, rfl, hz, hc.1.2, hc.2⟩⟩
  | mark obj start stop name value =>
    by_cases hcl : tx.closed = true
    · simp [Transaction.call, Transaction.afterCall, Transaction.Mark, hcl]
    · by_cases hr : start < 0 ∨ stop < start
      · simp [Transaction.call, Transaction.afterCall, Transaction.Mark, hcl, hr]
      · have hcall : tx.call (.mark obj start stop name value) =
            { tx := { tx with ops := tx.ops ++ [.markMutation obj start stop name value] },
              err := none, obj := none } := by
          simp only [Transaction.call, Transaction.afterCall, Transaction.Mark, hcl,
            Bool.false_eq_true, if_false, hr]
        rw [hcall]
        exact ⟨rfl, rfl, rfl, Or.inr ⟨_, rfl, trivial⟩⟩

theorem calls_spec (cs : List StageCall) :
    ∀ (tx : Transaction), (∀ c ∈ cs, c.typed = true) → (∀ m ∈ tx.ops, m.Staged) →
      (tx.calls cs).cp = tx.cp ∧ (tx.calls cs).closed = tx.closed ∧
      (tx.calls cs).openMk = tx.openMk ∧ ∀ m ∈ (tx.calls cs).ops, m.Staged := by
  induction cs with
  | nil => intro tx _ hs; exact ⟨rfl, rfl, rfl, hs⟩
  | cons c rest ih =>
    intro tx ht hs
    obtain ⟨h1, h2, h3, h4⟩ := call_spec tx c (ht c (List.mem_cons_self c rest))
    have hs1 : ∀ m ∈ (tx.call c).tx.ops, m.Staged := by
      rcases h4 with h4 | ⟨m0, h4, hm0⟩
      · rw [h4]; exact hs
      · rw [h4]
        intro m hm
        rcases List.mem_append.1 hm with hm | hm
        · exact hs m hm
        · rw [List.mem_singleton.1 hm]; exact hm0
    obtain ⟨i1, i2, i3, i4⟩ := ih (tx.call c).tx
      (fun c' hc' => ht c' (List.mem_cons_of_mem c hc')) hs1
    exact ⟨i1.trans h1, i2.trans h2, i3.trans h3, i4⟩

/-- What a call of `CommitWith` that returns a change has done. -/
theorem CommitWith_change (hasher : ChangeHasher) (d : Document) (tx : Transaction)
    (opts : CommitOptions) (c : Change)
    (h : (Transaction.CommitWith hasher d tx opts).change = some c) :
    tx.closed = false ∧ tx.openMk = [] ∧ tx.ops ≠ [] ∧
    ∃ ops1 changeOps offset g,
      Transaction.commitLoop tx.cp tx.ops d.ops [] 0 = (ops1, changeOps, offset, none) ∧
      offset ≠ 0 ∧
      d.graph.AddChange { Hash := c.Hash, Deps := tx.cp.deps, Actor := tx.cp.actor,
                          Seq := tx.cp.seq, MaxOp := c.MaxOp } = .ok g ∧
      c = { Hash := hasher tx.cp.actor tx.cp.seq tx.cp.startOp
                      ((tx.cp.startOp + offset + (2 ^ 64 - 1)) % 2 ^ 64) tx.cp.deps opts changeOps,
            Actor := tx.cp.actor, Seq := tx.cp.seq, StartOp := tx.cp.startOp,
            MaxOp := (tx.cp.startOp + offset + (2 ^ 64 - 1)) % 2 ^ 64, Deps := tx.cp.deps,
            Message := opts.Message, Time := opts.Time, Operations := changeOps } ∧
      (Transaction.CommitWith hasher d tx opts).err = none ∧
      (Transaction.CommitWith hasher d tx opts).doc.ops = ops1 ∧
      (Transaction.CommitWith hasher d tx opts).doc.graph = g ∧
      (Transaction.CommitWith hasher d tx opts).tx.closed = true := by
  obtain ⟨r, hr⟩ : ∃ r, Transaction.CommitWith hasher d tx opts = r := ⟨_, rfl⟩
  rw [hr] at h ⊢
  unfold Transaction.CommitWith at hr
  split at hr
  · subst hr; cases h
  rename_i hcl
  split at hr
  · subst hr; cases h
  rename_i hmk
  split at hr
  · subst hr; cases h
  rename_i hops
  split at hr
  · subst hr; cases h
  rename_i ops1 changeOps offset hloop
  split at hr
  · subst hr; cases h
  rename_i hoff
  dsimp only at hr
  split at hr
  · subst hr; cases h
  rename_i g hadd
  subst hr
  injection h with h
  subst h
  refine ⟨by simpa using hcl, ?_, ?_, ops1, changeOps, offset, g, hloop, hoff, hadd, rfl, rfl,
    rfl, rfl, rfl⟩
  · exact List.length_eq_zero.1 (by omega)
  · intro hnil
    exact hops (by rw [hnil]; rfl)

/-- The loop of `CommitWith`, when it meets no error, has applied every mutation and
built the operations of `assignOps`. -/
theorem commitLoop_ok (cp : txCheckpoint) :
    ∀ (ms : List txMutation) (o : opset.OpSet) (cops : List ChangeOperation) (off : Nat)
      (o1 : opset.OpSet) (cops1 : List ChangeOperation) (off1 : Nat), off < 2 ^ 64 →
      Transaction.commitLoop cp ms o cops off = (o1, cops1, off1, none) →
      cops1 = cops ++ assignOps cp ms off ∧ off1 = (off + countSum ms) % 2 ^ 64 ∧
      ∀ m ∈ ms, ∀ obj index deleteCount text,
        m = txMutation.spliceTextMutation obj index deleteCount text → 0 ≤ deleteCount := by
  intro ms
  induction ms with
  | nil =>
    intro o cops off o1 cops1 off1 hoff h
    simp only [Transaction.commitLoop, Prod.mk.injEq] at h
    obtain ⟨-, h2, h3, -⟩ := h
    refine ⟨by simp [assignOps, h2], ?_, by simp⟩
    simp only [countSum, List.map_nil, List.sum_nil, Nat.add_zero]
    rw [Nat.mod_eq_of_lt hoff]
    exact h3.symm
  | cons m rest ih =>
    intro o cops off o1 cops1 off1 hoff h
    unfold Transaction.commitLoop at h
    dsimp only at h
    split at h
    · simp at h
    · rename_i ops1 happly
      obtain ⟨h1, h2, h3⟩ := ih _ _ _ _ _ _ (Nat.mod_lt _ (by norm_num)) h
      refine ⟨?_, ?_, ?_⟩
      · rw [h1, List.append_assoc]
        rfl
      · rw [h2]
        simp only [countSum, List.map_cons, List.sum_cons]
        omega
      · intro m' hm' obj index deleteCount text heq
        rcases List.mem_cons.1 hm' with hm' | hm'
        · subst hm'
          subst heq
          simp only [txMutation.apply] at happly
          by_contra hneg
          have hlt : deleteCount < 0 := by omega
          unfold opset.OpSet.SpliceText at happly
          cases het : o.ensureType obj [opset.ObjText] with
          | error e => simp [het] at happly
          | ok u => simp [het, hlt] at happly
        · exact h3 m' hm' obj index deleteCount text heq

theorem assignOps_length (cp : txCheckpoint) :
    ∀ (ms : List txMutation) (off : Nat), (assignOps cp ms off).length = ms.length := by
  intro ms
  induction ms with
  | nil => intro off; rfl
  | cons m rest ih => intro off; simp [assignOps, ih]

theorem assignOps_getElem? (cp : txCheckpoint) :
    ∀ (ms : List txMutation) (off i : Nat),
      (assignOps cp ms off)[i]? = (ms[i]?).map (fun m =>
        m.toChangeOp { Counter := (cp.startOp + off + countSum (ms.take i)) % 2 ^ 64,
                       Actor := cp.actor }) := by
  intro ms
  induction ms with
  | nil => intro off i; simp [assignOps]
  | cons m rest ih =>
    intro off i
    cases i with
    | zero => simp [assignOps, countSum]
    | succ i =>
      simp only [assignOps, List.getElem?_cons_succ, ih, List.take_succ_cons]
      have : (cp.startOp + (off + m.opCount) % 2 ^ 64 + countSum (List.take i rest)) % 2 ^ 64 =
          (cp.startOp + off + countSum (m :: List.take i rest)) % 2 ^ 64 := by
        simp only [countSum, List.map_cons, List.sum_cons]
        omega
      rw [this]

theorem toChangeOp_OpID (m : txMutation) (opid : OpID) : (m.toChangeOp opid).OpID = opid := by
  cases m <;> rfl

/-- The op count of a staged mutation that was applied: one, and for a splice the
number of deletions plus the number of characters, which is at least one. -/
theorem opCount_staged (m : txMutation) (hs : m.Staged)
    (hnn : ∀ obj index deleteCount text,
      m = txMutation.spliceTextMutation obj index deleteCount text → 0 ≤ deleteCount) :
    1 ≤ m.opCount ∧
    m.opCount = m.specCount := by
  cases m with
  | spliceTextMutation obj index deleteCount text =>
    obtain ⟨hz, hr, hl⟩ := hs
    have h0 := hnn obj index deleteCount text rfl
    simp only [isGoInt, Bool.and_eq_true, decide_eq_true_eq] at hr
    have hcount : txMutation.opCount (.spliceTextMutation obj index deleteCount text) =
        deleteCount.toNat + text.length := by
      simp only [txMutation.opCount]
      have hlt : deleteCount + (text.length : Int) < 2 ^ 64 := by
        have : (text.length : Int) < 2 ^ 63 := by exact_mod_cast hl
        omega
      rw [Int.emod_eq_of_lt (by omega) hlt]
      omega
    refine ⟨?_, hcount⟩
    rw [hcount]
    by_contra hlt
    have h1 : deleteCount = 0 := by omega
    have h2 : text.length = 0 := by omega
    apply hz
    refine ⟨h1, ?_⟩
    have : text.data = [] := List.length_eq_zero.1 h2
    exact String.ext this
  | _ => exact ⟨le_refl _, rfl⟩

theorem countSum_take_lt (ms : List txMutation) (hpos : ∀ m ∈ ms, 1 ≤ m.opCount) :
    ∀ i, i < ms.length → countSum (ms.take i) + 1 ≤ countSum ms ∧ i ≤ countSum (ms.take i) := by
  induction ms with
  | nil => intro i hi; simp at hi
  | cons m rest ih =>
    intro i hi
    have hm := hpos m (List.mem_cons_self m rest)
    cases i with
    | zero =>
      simp only [List.take_zero, countSum, List.map_nil, List.sum_nil, List.map_cons,
        List.sum_cons]
      omega
    | succ i =>
      have := ih (fun x hx => hpos x (List.mem_cons_of_mem m hx)) i (by simpa using hi)
      simp only [countSum, List.take_succ_cons, List.map_cons, List.sum_cons] at this ⊢
      omega

theorem length_le_countSum (ms : List txMutation) (hpos : ∀ m ∈ ms, 1 ≤ m.opCount) :
    ms.length ≤ countSum ms := by
  induction ms with
  | nil => simp [countSum]
  | cons m rest ih =>
    have hm := hpos m (List.mem_cons_self m rest)
    have := ih (fun x hx => hpos x (List.mem_cons_of_mem m hx))
    simp only [countSum, List.map_cons, List.sum_cons, List.length_cons] at this ⊢
    omega

/-- C13 (as amended): for every call of `CommitWith` that returns a change, on a
transaction obtained from `Begin` by staging calls, the change has
`StartOp = (graph MaxOp at Begin) + 1` and the actor of the document, its i-th operation
is built from the i-th staged mutation with `OpID (StartOp + sum of the op counts of
the operations before it, actor)`, the op count being 1 except `deleteCount` plus the
number of characters for a text splice (at least 1 in either case), and
`MaxOp = StartOp + (sum of all op counts) - 1`, all sums taken in `uint64`; when the
sum `(graph MaxOp at Begin) + (sum of all op counts)` stays below `2^64` these are
equalities of numbers and `MaxOp ≥ StartOp + len(Operations) - 1`. -/
theorem CommitWith_op_ids (hasher : ChangeHasher) (d0 d1 d : Document) (tx0 : Transaction)
    (cs : List StageCall) (opts : CommitOptions) (c : Change)
    (hbegin : d0.Begin = .ok (d1, tx0))
    (htyped : ∀ call ∈ cs, call.typed = true)
    (hcommit : (Transaction.CommitWith hasher d (tx0.calls cs) opts).change = some c) :
    (Transaction.CommitWith hasher d (tx0.calls cs) opts).err = none ∧
    c.StartOp = (d0.graph.MaxOp + 1) % 2 ^ 64 ∧ c.Actor = d0.actor ∧
    c.Operations.length = (tx0.calls cs).ops.length ∧
    (∀ (i : Nat) (m : txMutation), (tx0.calls cs).ops[i]? = some m →
      ∃ op, c.Operations[i]? = some op ∧ op = m.toChangeOp op.OpID ∧
        op.OpID = { Counter := (c.StartOp + countSum ((tx0.calls cs).ops.take i)) % 2 ^ 64,
                    Actor := d0.actor }) ∧
    (∀ m ∈ (tx0.calls cs).ops, 1 ≤ m.opCount ∧
      m.opCount = m.specCount) ∧
    c.MaxOp = (c.StartOp + countSum (tx0.calls cs).ops + (2 ^ 64 - 1)) % 2 ^ 64 ∧
    (d0.graph.MaxOp + countSum (tx0.calls cs).ops < 2 ^ 64 →
      c.StartOp = d0.graph.MaxOp + 1 ∧
      (∀ (i : Nat) (op : ChangeOperation), c.Operations[i]? = some op →
        op.OpID = { Counter := c.StartOp + countSum ((tx0.calls cs).ops.take i),
                    Actor := d0.actor }) ∧
      c.MaxOp = c.StartOp + countSum (tx0.calls cs).ops - 1 ∧
      c.MaxOp ≥ c.StartOp + c.Operations.length - 1) := by
  obtain ⟨-, -, -, hops0, -, hactor, hstart, -⟩ := Begin_ok d0 d1 tx0 hbegin
  obtain ⟨hcp, -, -, hstaged⟩ := calls_spec cs tx0 htyped (by rw [hops0]; simp)
  obtain ⟨-, -, hne, ops1, changeOps, offset, g, hloop, hoff, -, hc, herr, -, -, -⟩ :=
    CommitWith_change hasher d (tx0.calls cs) opts c hcommit
  obtain ⟨hcops, hoffset, hnn⟩ := commitLoop_ok _ _ _ _ _ _ _ _ (by norm_num) hloop
  rw [hcp] at hcops hc
  simp only [List.nil_append] at hcops
  have hcount : ∀ m ∈ (tx0.calls cs).ops, 1 ≤ m.opCount ∧
      m.opCount = m.specCount :=
    fun m hm => opCount_staged m (hstaged m hm) (hnn m hm)
  have hpos : ∀ m ∈ (tx0.calls cs).ops, 1 ≤ m.opCount := fun m hm => (hcount m hm).1
  have hStart : c.StartOp = tx0.cp.startOp := by rw [hc]
  have hOps : c.Operations = assignOps tx0.cp (tx0.calls cs).ops 0 := by rw [hc, hcops]
  have hMax : c.MaxOp = (tx0.cp.startOp + offset + (2 ^ 64 - 1)) % 2 ^ 64 := by rw [hc]
  have hlen : c.Operations.length = (tx0.calls cs).ops.length := by
    rw [hOps, assignOps_length]
  have hget : ∀ (i : Nat) (m : txMutation), (tx0.calls cs).ops[i]? = some m →
      ∃ op, c.Operations[i]? = some op ∧ op = m.toChangeOp op.OpID ∧
        op.OpID = { Counter := (c.StartOp + countSum ((tx0.calls cs).ops.take i)) % 2 ^ 64,
                    Actor := d0.actor } := by
    intro i m hm
    refine ⟨m.toChangeOp { Counter := (tx0.cp.startOp + 0 +
        countSum ((tx0.calls cs).ops.take i)) % 2 ^ 64, Actor := tx0.cp.actor }, ?_, ?_, ?_⟩
    · rw [hOps, assignOps_getElem?, hm]
      rfl
    · rw [toChangeOp_OpID]
    · rw [toChangeOp_OpID, hStart, hactor, Nat.add_zero]
  have hmaxmod : c.MaxOp =
      (c.StartOp + countSum (tx0.calls cs).ops + (2 ^ 64 - 1)) % 2 ^ 64 := by
    rw [hMax, hStart, hoffset]
    omega
  refine ⟨herr, by rw [hStart, hstart], by rw [hc, hactor], hlen, hget, hcount, hmaxmod, ?_⟩
  intro hno
  have hlenpos : 0 < (tx0.calls cs).ops.length := List.length_pos.2 hne
  have hlesum := length_le_countSum _ hpos
  have hS : c.StartOp = d0.graph.MaxOp + 1 := by
    rw [hStart, hstart]
    exact Nat.mod_eq_of_lt (by omega)
  refine ⟨hS, ?_, ?_, ?_⟩
  · intro i op hop
    have hi : i < (tx0.calls cs).ops.length := by
      rw [← hlen]
      exact (List.getElem?_eq_some.1 hop).1
    obtain ⟨op', hop', -, hid⟩ := hget i _ (List.getElem?_eq_getElem hi)
    rw [hop] at hop'
    injection hop' with hop'
    subst hop'
    rw [hid]
    have := (countSum_take_lt _ hpos i hi).1
    congr 1
    exact Nat.mod_eq_of_lt (by omega)
  · rw [hmaxmod]
    omega
  · rw [hmaxmod, hlen]
    omega

theorem CommitWith_op_ids_witness :
    (Transaction.CommitWith exampleHasherAsc { NewDocument with openTx := true }
      (firstTransaction.calls textCalls) { Message := none, Time := none }).err = none ∧
    textChange.StartOp = (NewDocument.graph.MaxOp + 1) % 2 ^ 64 ∧
    textChange.Actor = NewDocument.actor ∧
    textChange.Operations.length = (firstTransaction.calls textCalls).ops.length ∧
    (∀ (i : Nat) (m : txMutation), (firstTransaction.calls textCalls).ops[i]? = some m →
      ∃ op, textChange.Operations[i]? = some op ∧ op = m.toChangeOp op.OpID ∧
        op.OpID =
          { Counter := (textChange.StartOp +
              countSum ((firstTransaction.calls textCalls).ops.take i)) % 2 ^ 64,
            Actor := NewDocument.actor }) ∧
    (∀ m ∈ (firstTransaction.calls textCalls).ops, 1 ≤ m.opCount ∧
      m.opCount = m.specCount) ∧
    textChange.MaxOp =
      (textChange.StartOp + countSum (firstTransaction.calls textCalls).ops +
        (2 ^ 64 - 1)) % 2 ^ 64 ∧
    (NewDocument.graph.MaxOp + countSum (firstTransaction.calls textCalls).ops < 2 ^ 64 →
      textChange.StartOp = NewDocument.graph.MaxOp + 1 ∧
      (∀ (i : Nat) (op : ChangeOperation), textChange.Operations[i]? = some op →
        op.OpID =
          { Counter := textChange.StartOp +
              countSum ((firstTransaction.calls textCalls).ops.take i),
            Actor := NewDocument.actor }) ∧
      textChange.MaxOp =
        textChange.StartOp + countSum (firstTransaction.calls textCalls).ops - 1 ∧
      textChange.MaxOp ≥ textChange.StartOp + textChange.Operations.length - 1) :=
  CommitWith_op_ids exampleHasherAsc NewDocument { NewDocument with openTx := true }
    { NewDocument with openTx := true } firstTransaction textCalls
    { Message := none, Time := none } textChange rfl (by decide) rfl

/-- C13 (counterexample): after a remote change with `MaxOp = 2^64 - 3` the local
transaction starts at `StartOp = 2^64 - 2`; the commit of a `PutObject` and of a splice
that inserts three characters succeeds and returns a change with two operations and
`MaxOp = 1`, which is below `StartOp + len(Operations) - 1`, as a number and in
`uint64`. -/
theorem CommitWith_op_ids_wrap_around :
    (NewDocument.ApplyChanges [farChange]).err = none ∧
    (farCommit exampleHasherAsc).err = none ∧
    ∃ c, (farCommit exampleHasherAsc).change = some c ∧
      c.StartOp = 2 ^ 64 - 2 ∧ c.Operations.length = 2 ∧ c.MaxOp = 1 ∧
      ¬ (c.MaxOp ≥ c.StartOp + c.Operations.length - 1) ∧
      ¬ (c.MaxOp ≥ (c.StartOp + c.Operations.length + (2 ^ 64 - 1)) % 2 ^ 64) :=
  ⟨rfl, rfl, _, rfl, rfl, rfl, by decide, by decide⟩

end automerge

/-! ## Transactions: failed commit and rollback -/

namespace automerge

open model changegraph

/-- C14 (the code at the failing input): on a new document, a transaction stages
`Put(root, "a", "1")` and a put on an object that does not exist. `Commit` returns
`ErrUnknownObject`; heads and stored changes are as before, the transaction is still open,
but `GetMap(root, "a")`, which found nothing before the call, now returns `"1"`, and the
op set holds the record of the first put. -/
theorem CommitWith_not_atomic (hasher : ChangeHasher) :
    NewDocument.Begin = .ok ({ NewDocument with openTx := true }, firstTransaction) ∧
    (halfCommit hasher).err = some .ErrUnknownObject ∧
    (halfCommit hasher).change = none ∧
    (halfCommit hasher).doc.Heads = NewDocument.Heads ∧
    (halfCommit hasher).doc.changes = NewDocument.changes ∧
    (halfCommit hasher).tx.closed = false ∧
    stringOf (({ NewDocument with openTx := true } : Document).GetMap RootObjID "a" none) = none ∧
    stringOf ((halfCommit hasher).doc.GetMap RootObjID "a" none) = some "1" ∧
    (halfCommit hasher).doc.ops.ops.length = 1 ∧
    (halfCommit hasher).doc ≠ { NewDocument with openTx := true } := by
  refine ⟨rfl, rfl, rfl, rfl, rfl, rfl, rfl, rfl, rfl, ?_⟩
  intro h
  have h1 : (halfCommit hasher).doc.ops.ops.length = 1 := rfl
  rw [h] at h1
  exact absurd h1 (by decide)

/-- A staging call leaves the checkpoint, the closed flag and the open marks alone. -/
theorem call_frame (tx : Transaction) (c : StageCall) :
    (tx.call c).tx.cp = tx.cp ∧ (tx.call c).tx.closed = tx.closed ∧
    (tx.call c).tx.openMk = tx.openMk := by
  cases c with
  | spliceText obj index deleteCount insert =>
    by_cases hcl : tx.closed = true
    · simp [Transaction.call, Transaction.afterCall, Transaction.SpliceText, hcl]
    · by_cases hz : deleteCount = 0 ∧ insert = ""
      · simp [Transaction.call, Transaction.afterCall, Transaction.SpliceText, hcl, hz]
      · have hcall : tx.call (.spliceText obj index deleteCount insert) =
            { tx := { tx with ops := tx.ops ++
                        [.spliceTextMutation obj index deleteCount insert] },
              err := none, obj := none } := by
          simp only [Transaction.call, Transaction.afterCall, Transaction.SpliceText, hcl,
            Bool.false_eq_true, if_false, hz]
        rw [hcall]
        exact ⟨rfl, rfl, rfl⟩
  | mark obj start stop name value =>
    by_cases hcl : tx.closed = true
    · simp [Transaction.call, Transaction.afterCall, Transaction.Mark, hcl]
    · by_cases hr : start < 0 ∨ stop < start
      · simp [Transaction.call, Transaction.afterCall, Transaction.Mark, hcl, hr]
      · have hcall : tx.call (.mark obj start stop name value) =
            { tx := { tx with ops := tx.ops ++ [.markMutation obj start stop name value] },
              err := none, obj := none } := by
          simp only [Transaction.call, Transaction.afterCall, Transaction.Mark, hcl,
            Bool.false_eq_true, if_false, hr]
        rw [hcall]
        exact ⟨rfl, rfl, rfl⟩
  | _ =>
    by_cases hcl : tx.closed = true <;>
    simp [Transaction.call, Transaction.afterCall, Transaction.afterObjectCall,
      Transaction.Put, Transaction.PutObject, Transaction.Insert, Transaction.InsertObject,
      Transaction.DeleteMap, Transaction.DeleteList, Transaction.Increment,
      Transaction.stage, hcl]

theorem calls_frame (cs : List StageCall) :
    ∀ (tx : Transaction), (tx.calls cs).cp = tx.cp ∧ (tx.calls cs).closed = tx.closed ∧
      (tx.calls cs).openMk = tx.openMk := by
  induction cs with
  | nil => intro tx; exact ⟨rfl, rfl, rfl⟩
  | cons c rest ih =>
    intro tx
    obtain ⟨h1, h2, h3⟩ := call_frame tx c
    obtain ⟨i1, i2, i3⟩ := ih (tx.call c).tx
    exact ⟨i1.trans h1, i2.trans h2, i3.trans h3⟩

/-- Every staging call on a closed transaction returns `ErrTransactionClosed` and
leaves the transaction as it is. -/
theorem call_closed (tx : Transaction) (hcl : tx.closed = true) (c : StageCall) :
    (tx.call c).err = some .ErrTransactionClosed ∧ (tx.call c).tx = tx := by
  cases c <;>
  simp [Transaction.call, Transaction.afterCall, Transaction.afterObjectCall,
    Transaction.Put, Transaction.PutObject, Transaction.Insert, Transaction.InsertObject,
    Transaction.DeleteMap, Transaction.DeleteList, Transaction.Increment,
    Transaction.SpliceText, Transaction.Mark, Transaction.stage, hcl]

/-- C15: after `Begin`, any sequence of staging calls and `Rollback`, the document is the
one before `Begin`: same heads, same stored changes, same result of every read; while the
calls are staged the document differs from it only in having an open transaction. The
transaction is closed: every further staging call, `Commit` and `Rollback` on it return
`ErrTransactionClosed`; and a new `Begin` succeeds on the document. -/
theorem Rollback_restores (d0 d1 : Document) (tx0 : Transaction) (cs : List StageCall)
    (hbegin : d0.Begin = .ok (d1, tx0)) :
    d1 = { d0 with openTx := true } ∧
    ∃ d2 tx2, Transaction.Rollback d1 (tx0.calls cs) = .ok (d2, tx2) ∧
      d2 = d0 ∧ d2.Heads = d0.Heads ∧ d2.changes = d0.changes ∧
      (∀ obj key cover, d2.GetMap obj key cover = d0.GetMap obj key cover) ∧
      (∀ obj cover, d2.Text obj cover = d0.Text obj cover) ∧
      tx2.closed = true ∧
      (∀ call, (tx2.call call).err = some .ErrTransactionClosed ∧ (tx2.call call).tx = tx2) ∧
      (∀ hasher opts, (Transaction.CommitWith hasher d2 tx2 opts).err =
        some .ErrTransactionClosed ∧ (Transaction.CommitWith hasher d2 tx2 opts).doc = d2) ∧
      Transaction.Rollback d2 tx2 = .error .ErrTransactionClosed ∧
      ∃ d3 tx3, d2.Begin = .ok (d3, tx3) := by
  obtain ⟨hopen, hd1, hcl, -, -, -, -, -⟩ := Begin_ok d0 d1 tx0 hbegin
  obtain ⟨-, hclosed, -⟩ := calls_frame cs tx0
  rw [hcl] at hclosed
  have hd2 : ({ d1 with openTx := false } : Document) = d0 := by
    rw [hd1]
    cases d0
    simp only at hopen
    subst hopen
    rfl
  refine ⟨hd1, { d1 with openTx := false },
    { tx0.calls cs with ops := [], openMk := [], closed := true }, ?_, hd2, ?_⟩
  · simp [Transaction.Rollback, hclosed]
  rw [hd2]
  refine ⟨rfl, rfl, fun _ _ _ => rfl, fun _ _ => rfl, rfl, ?_, ?_, ?_, d1, tx0, hbegin⟩
  · intro call
    exact call_closed _ rfl call
  · intro hasher opts
    simp [Transaction.CommitWith]
  · simp [Transaction.Rollback]

theorem Rollback_restores_witness :
    ({ NewDocument with openTx := true } : Document) = { NewDocument with openTx := true } ∧
    ∃ d2 tx2, Transaction.Rollback { NewDocument with openTx := true }
        (firstTransaction.calls textCalls) = .ok (d2, tx2) ∧
      d2 = NewDocument ∧ d2.Heads = NewDocument.Heads ∧ d2.changes = NewDocument.changes ∧
      (∀ obj key cover, d2.GetMap obj key cover = NewDocument.GetMap obj key cover) ∧
      (∀ obj cover, d2.Text obj cover = NewDocument.Text obj cover) ∧
      tx2.closed = true ∧
      (∀ call, (tx2.call call).err = some .ErrTransactionClosed ∧ (tx2.call call).tx = tx2) ∧
      (∀ hasher opts, (Transaction.CommitWith hasher d2 tx2 opts).err =
        some .ErrTransactionClosed ∧ (Transaction.CommitWith hasher d2 tx2 opts).doc = d2) ∧
      Transaction.Rollback d2 tx2 = .error .ErrTransactionClosed ∧
      ∃ d3 tx3, d2.Begin = .ok (d3, tx3) :=
  Rollback_restores NewDocument { NewDocument with openTx := true } firstTransaction textCalls
    rfl

end automerge

/-! ## The op set: what a write operation appends -/

namespace opset

open model

theorem foldl_record_objects (recs : List opRecord) :
    ∀ (o : OpSet), (recs.foldl OpSet.record o).objects = o.objects ∧
      (recs.foldl OpSet.record o).ops = o.ops ++ recs := by
  induction recs with
  | nil => intro o; simp
  | cons r rest ih =>
    intro o
    obtain ⟨h1, h2⟩ := ih (o.record r)
    rw [List.foldl_cons, h1, h2, record_objects, record_ops]
    simp

theorem ensureType_contains (o : OpSet) (obj : ObjID) (want : List ObjType)
    (h : o.ensureType obj want = .ok ()) : GoMap.contains o.objects obj = true := by
  obtain ⟨st, hst, -⟩ := ensureType_ok o obj want h
  simp [GoMap.contains, hst]

theorem PutMap_ok (o o' : OpSet) (obj : ObjID) (key : GoString) (value : Value) (id : OpID)
    (actor seq : Nat) (h : o.PutMap obj key value id actor seq = .ok o') :
    o.ensureType obj [ObjMap] = .ok () ∧
    o' = o.record { zeroRecord with
      kind := opMapPut, obj := obj, key := key, value := value, id := id, actor := actor,
      seq := seq, pred := (sortedVersions (o.currentMapEntry obj key)).map VersionedValue.OpID } := by
  unfold OpSet.PutMap at h
  cases he : o.ensureType obj [ObjMap] with
  | error e => simp [he] at h
  | ok u =>
    simp only [he, OpSet.visibleMapVersionIDs] at h
    injection h with h
    exact ⟨rfl, h.symm⟩

theorem DeleteMap_ok (o o' : OpSet) (obj : ObjID) (key : GoString) (id : OpID)
    (actor seq : Nat) (h : o.DeleteMap obj key id actor seq = .ok o') :
    o.ensureType obj [ObjMap] = .ok () ∧
    o' = o.record { zeroRecord with
      kind := opMapDelete, obj := obj, key := key, id := id, actor := actor,
      seq := seq, pred := (sortedVersions (o.currentMapEntry obj key)).map VersionedValue.OpID } := by
  unfold OpSet.DeleteMap at h
  cases he : o.ensureType obj [ObjMap] with
  | error e => simp [he] at h
  | ok u =>
    simp only [he, OpSet.visibleMapVersionIDs] at h
    injection h with h
    exact ⟨rfl, h.symm⟩

theorem InsertList_ok (o o' : OpSet) (obj : ObjID) (index : Int) (value : Value) (id : OpID)
    (actor seq : Nat) (h : o.InsertList obj index value id actor seq = .ok o') :
    o.ensureType obj [ObjList, ObjText] = .ok () ∧ 0 ≤ index ∧
    o' = o.record { zeroRecord with
      kind := opListInsert, obj := obj, index := index, value := value, id := id,
      actor := actor, seq := seq } := by
  unfold OpSet.InsertList at h
  cases he : o.ensureType obj [ObjList, ObjText] with
  | error e => simp [he] at h
  | ok u =>
    simp only [he] at h
    by_cases hi : index < 0
    · simp [hi] at h
    · simp only [hi, if_false] at h
      injection h with h
      exact ⟨rfl, by omega, h.symm⟩

theorem DeleteList_ok (o o' : OpSet) (obj : ObjID) (index : Int) (id : OpID)
    (actor seq : Nat) (h : o.DeleteList obj index id actor seq = .ok o') :
    o.ensureType obj [ObjList, ObjText] = .ok () ∧ 0 ≤ index ∧
    o' = o.record { zeroRecord with
      kind := opListDelete, obj := obj, index := index, id := id, actor := actor,
      seq := seq } := by
  unfold OpSet.DeleteList at h
  cases he : o.ensureType obj [ObjList, ObjText] with
  | error e => simp [he] at h
  | ok u =>
    simp only [he] at h
    by_cases hi : index < 0
    · simp [hi] at h
    · simp only [hi, if_false] at h
      injection h with h
      exact ⟨rfl, by omega, h.symm⟩

theorem AddMark_ok (o o' : OpSet) (obj : ObjID) (start stop : Int) (name : GoString)
    (value : ScalarValue) (id : OpID) (actor seq : Nat)
    (h : o.AddMark obj start stop name value id actor seq = .ok o') :
    o.ensureType obj [ObjText] = .ok () ∧ 0 ≤ start ∧ start ≤ stop ∧
    o' = o.record { zeroRecord with
      kind := opMark, id := id, actor := actor, seq := seq, obj := obj, start := start,
      stop := stop, name := name, value := NewScalarValue value } := by
  unfold OpSet.AddMark at h
  cases he : o.ensureType obj [ObjText] with
  | error e => simp [he] at h
  | ok u =>
    simp only [he] at h
    by_cases hi : start < 0 ∨ stop < start
    · simp [hi] at h
    · simp only [hi, if_false] at h
      injection h with h
      exact ⟨rfl, by omega, by omega, h.symm⟩

theorem IncrementMapCounter_ok (o o' : OpSet) (obj : ObjID) (key : GoString) (by_ : int64)
    (id : OpID) (actor seq : Nat)
    (h : o.IncrementMapCounter obj key by_ id actor seq = .ok o') :
    ∃ current, o.GetMap obj key none = .ok (some current) ∧
      current.Kind = ValueScalar ∧ current.Scalar.Kind = ScalarCounter ∧
      o.PutMap obj key (NewScalarValue (CounterValue (wrapInt64 (current.Scalar.Counter + by_))))
        id actor seq = .ok o' := by
  unfold OpSet.IncrementMapCounter at h
  cases hg : o.GetMap obj key none with
  | error e => simp [hg] at h
  | ok r =>
    cases r with
    | none => simp [hg] at h
    | some current =>
      simp only [hg] at h
      by_cases hc : current.Kind ≠ ValueScalar ∨ current.Scalar.Kind ≠ ScalarCounter
      · simp [hc] at h
      · rw [if_neg hc] at h
        push_neg at hc
        exact ⟨current, rfl, hc.1, hc.2, h⟩

theorem ensureType_record (o : OpSet) (rec : opRecord) (obj : ObjID) (want : List ObjType) :
    (o.record rec).ensureType obj want = o.ensureType obj want := by
  unfold OpSet.ensureType
  rw [record_objects]

/-- The first loop of `SpliceText` on a list or text object never fails: it appends
`n` delete records with the sequence numbers following `seq`. -/
theorem spliceDeletes_ok (obj : ObjID) (index : Int) (actor : Nat) (hidx : 0 ≤ index) :
    ∀ (n : Nat) (o : OpSet) (seq : Nat), seq < 2 ^ 64 →
      o.ensureType obj [ObjList, ObjText] = .ok () →
      ∃ recs : List opRecord, OpSet.spliceDeletes obj index actor n o seq =
          .ok (recs.foldl OpSet.record o, (seq + n) % 2 ^ 64) ∧
        recs.length = n ∧
        ∀ (k : Nat) (r : opRecord), recs[k]? = some r → r.obj = obj ∧ r.actor = actor ∧
          r.seq = (seq + k + 1) % 2 ^ 64 ∧ r.kind = opListDelete ∧ r.index = index := by
  intro n
  induction n with
  | zero =>
    intro o seq hseq _
    refine ⟨[], ?_, rfl, by simp⟩
    simp only [OpSet.spliceDeletes, List.foldl_nil, Nat.add_zero, Nat.mod_eq_of_lt hseq]
  | succ n ih =>
    intro o seq hseq he
    have hi : ¬ index < 0 := by omega
    obtain ⟨rec, hrec⟩ : ∃ rec : opRecord, rec = { zeroRecord with
          kind := opListDelete, obj := obj, index := index,
          id := { Counter := (seq + 1) % 2 ^ 64, Actor := actor }, actor := actor,
          seq := (seq + 1) % 2 ^ 64 } := ⟨_, rfl⟩
    have hdel : o.DeleteList obj index { Counter := (seq + 1) % 2 ^ 64, Actor := actor } actor
        ((seq + 1) % 2 ^ 64) = .ok (o.record rec) := by
      unfold OpSet.DeleteList
      simp only [he, hi, if_false, hrec]
    obtain ⟨recs, hrun, hlen, hrecs⟩ := ih (o.record rec) ((seq + 1) % 2 ^ 64)
      (Nat.mod_lt _ (by norm_num)) (by rw [ensureType_record]; exact he)
    refine ⟨rec :: recs, ?_, by simp [hlen], ?_⟩
    · unfold OpSet.spliceDeletes
      dsimp only
      rw [hdel]
      dsimp only
      rw [hrun, List.foldl_cons]
      congr 2
      omega
    · intro k r hk
      cases k with
      | zero =>
        simp only [List.getElem?_cons_zero, Option.some.injEq] at hk
        subst hk
        subst hrec
        exact ⟨rfl, rfl, rfl, rfl, rfl⟩
      | succ k =>
        simp only [List.getElem?_cons_succ] at hk
        obtain ⟨h1, h2, h3, h4, h5⟩ := hrecs k r hk
        refine ⟨h1, h2, ?_, h4, h5⟩
        rw [h3]
        omega

/-- The second loop of `SpliceText` never fails either: one insert record per
character, at the indexes following `index`. -/
theorem spliceInserts_ok (obj : ObjID) (actor : Nat) :
    ∀ (rs : List Char) (o : OpSet) (index : Int) (seq : Nat), 0 ≤ index → seq < 2 ^ 64 →
      o.ensureType obj [ObjList, ObjText] = .ok () →
      ∃ recs : List opRecord, OpSet.spliceInserts obj actor rs o index seq =
          .ok (recs.foldl OpSet.record o, (seq + rs.length) % 2 ^ 64) ∧
        recs.length = rs.length ∧
        ∀ (k : Nat) (r : opRecord), recs[k]? = some r → r.obj = obj ∧ r.actor = actor ∧
          r.seq = (seq + k + 1) % 2 ^ 64 ∧ r.kind = opListInsert ∧ r.index = index + k := by
  intro rs
  induction rs with
  | nil =>
    intro o index seq _ hseq _
    refine ⟨[], ?_, rfl, by simp⟩
    simp only [OpSet.spliceInserts, List.foldl_nil, List.length_nil, Nat.add_zero,
      Nat.mod_eq_of_lt hseq]
  | cons c rest ih =>
    intro o index seq hidx hseq he
    have hi : ¬ index < 0 := by omega
    obtain ⟨rec, hrec⟩ : ∃ rec : opRecord, rec = { zeroRecord with
          kind := opListInsert, obj := obj, index := index,
          value := NewScalarValue (StringValue (String.singleton c)),
          id := { Counter := (seq + 1) % 2 ^ 64, Actor := actor }, actor := actor,
          seq := (seq + 1) % 2 ^ 64 } := ⟨_, rfl⟩
    have hins : o.InsertList obj index (NewScalarValue (StringValue (String.singleton c)))
        { Counter := (seq + 1) % 2 ^ 64, Actor := actor } actor ((seq + 1) % 2 ^ 64) =
        .ok (o.record rec) := by
      unfold OpSet.InsertList
      simp only [he, hi, if_false, hrec]
    obtain ⟨recs, hrun, hlen, hrecs⟩ := ih (o.record rec) (index + 1) ((seq + 1) % 2 ^ 64)
      (by omega) (Nat.mod_lt _ (by norm_num)) (by rw [ensureType_record]; exact he)
    refine ⟨rec :: recs, ?_, by simp [hlen], ?_⟩
    · unfold OpSet.spliceInserts
      dsimp only
      rw [hins]
      dsimp only
      rw [hrun, List.foldl_cons]
      congr 2
      simp only [List.length_cons]
      omega
    · intro k r hk
      cases k with
      | zero =>
        simp only [List.getElem?_cons_zero, Option.some.injEq] at hk
        subst hk
        subst hrec
        exact ⟨rfl, rfl, rfl, rfl, by simp⟩
      | succ k =>
        simp only [List.getElem?_cons_succ] at hk
        obtain ⟨h1, h2, h3, h4, h5⟩ := hrecs k r hk
        refine ⟨h1, h2, ?_, h4, ?_⟩
        · rw [h3]
          omega
        · rw [h5]
          push_cast
          omega

theorem ensureType_mono (o : OpSet) (obj : ObjID) (want want' : List ObjType)
    (hsub : ∀ t ∈ want, t ∈ want') (h : o.ensureType obj want = .ok ()) :
    o.ensureType obj want' = .ok () := by
  obtain ⟨st, hst, hw⟩ := ensureType_ok o obj want h
  unfold OpSet.ensureType
  simp [hst, hsub _ hw]

/-- `SpliceText` fails only at its two guards; when it passes them it appends
`deleteCount` delete records at `index` and one insert record per character. -/
theorem SpliceText_spec (o : OpSet) (obj : ObjID) (index deleteCount : Int) (text : GoString)
    (actor startSeq : Nat) (hseq : startSeq < 2 ^ 64) :
    (o.ensureType obj [ObjText] ≠ .ok () →
      o.SpliceText obj index deleteCount text actor startSeq =
        (o.ensureType obj [ObjText]).map (fun _ => (o, startSeq))) ∧
    (o.ensureType obj [ObjText] = .ok () → (index < 0 ∨ deleteCount < 0) →
      o.SpliceText obj index deleteCount text actor startSeq = .error .ErrInvalidIndex) ∧
    (o.ensureType obj [ObjText] = .ok () → 0 ≤ index → 0 ≤ deleteCount →
      ∃ recs : List opRecord, o.SpliceText obj index deleteCount text actor startSeq =
          .ok (recs.foldl OpSet.record o,
               (startSeq + (deleteCount.toNat + text.length)) % 2 ^ 64) ∧
        recs.length = deleteCount.toNat + text.length ∧
        ∀ (k : Nat) (r : opRecord), recs[k]? = some r → r.obj = obj ∧ r.actor = actor ∧
          r.seq = (startSeq + k + 1) % 2 ^ 64 ∧
          (if k < deleteCount.toNat then r.kind = opListDelete ∧ r.index = index
           else r.kind = opListInsert ∧ r.index = index + (k - deleteCount.toNat : Nat))) := by
  refine ⟨?_, ?_, ?_⟩
  · intro hne
    unfold OpSet.SpliceText
    cases he : o.ensureType obj [ObjText] with
    | error e => rfl
    | ok u => exact absurd he hne
  · intro he hneg
    unfold OpSet.SpliceText
    simp only [he, hneg, if_true]
  · intro he hi hd
    have he2 : o.ensureType obj [ObjList, ObjText] = .ok () :=
      ensureType_mono o obj _ _ (by simp) he
    obtain ⟨recs1, hrun1, hlen1, hrecs1⟩ :=
      spliceDeletes_ok obj index actor hi deleteCount.toNat o startSeq hseq he2
    have he3 : (recs1.foldl OpSet.record o).ensureType obj [ObjList, ObjText] = .ok () := by
      unfold OpSet.ensureType
      rw [(foldl_record_objects recs1 o).1]
      exact he2
    obtain ⟨recs2, hrun2, hlen2, hrecs2⟩ :=
      spliceInserts_ok obj actor text.toList (recs1.foldl OpSet.record o) index
        ((startSeq + deleteCount.toNat) % 2 ^ 64) hi (Nat.mod_lt _ (by norm_num)) he3
    have hneg : ¬ (index < 0 ∨ deleteCount < 0) := by omega
    refine ⟨recs1 ++ recs2, ?_, ?_, ?_⟩
    · unfold OpSet.SpliceText
      simp only [he, hneg, if_false, hrun1, hrun2, List.foldl_append]
      congr 2
      have : text.toList.length = text.length := rfl
      omega
    · rw [List.length_append, hlen1, hlen2]
      rfl
    · intro k r hk
      by_cases hlt : k < deleteCount.toNat
      · rw [List.getElem?_append_left (by omega)] at hk
        obtain ⟨h1, h2, h3, h4, h5⟩ := hrecs1 k r hk
        rw [if_pos hlt]
        exact ⟨h1, h2, h3, h4, h5⟩
      · rw [List.getElem?_append_right (by omega), hlen1] at hk
        obtain ⟨h1, h2, h3, h4, h5⟩ := hrecs2 _ r hk
        rw [if_neg hlt]
        refine ⟨h1, h2, ?_, h4, h5⟩
        rw [h3]
        omega

theorem ObjectsLE.refl (o : OpSet) : ObjectsLE o o := fun _ _ h => h

theorem ObjectsLE.trans {a b c : OpSet} (h1 : ObjectsLE a b) (h2 : ObjectsLE b c) :
    ObjectsLE a c := fun id st h => h2 id st (h1 id st h)

theorem ObjectsLE.contains {a b : OpSet} (h : ObjectsLE a b) (id : ObjID)
    (hc : GoMap.contains a.objects id = true) : GoMap.contains b.objects id = true := by
  unfold GoMap.contains at hc ⊢
  cases hg : GoMap.get? a.objects id with
  | none => rw [hg] at hc; cases hc
  | some st => rw [h id st hg]; rfl

theorem objectsLE_createObject (o : OpSet) (id : ObjID) (typ : ObjType) :
    ObjectsLE o (o.CreateObject id typ) := by
  intro id' st h
  unfold OpSet.CreateObject
  cases hg : GoMap.get? o.objects id with
  | some st0 => exact h
  | none =>
    dsimp only
    have hne : id' ≠ id := by
      intro e
      rw [e, hg] at h
      cases h
    rw [GoMap.get?_set_ne _ _ _ _ hne]
    exact h

theorem objectsLE_foldl_record (recs : List opRecord) (o : OpSet) :
    ObjectsLE o (recs.foldl OpSet.record o) := by
  intro id st h
  rw [(foldl_record_objects recs o).1]
  exact h

/-- The type of an object after `CreateObject`: an object that exists keeps its type. -/
theorem objectType_createObject (o : OpSet) (id id' : ObjID) (typ : ObjType) :
    (o.CreateObject id typ).ObjectType id' =
      match o.ObjectType id' with
      | some t => some t
      | none => if id' = id then some typ else none := by
  unfold OpSet.CreateObject OpSet.ObjectType
  cases hg : GoMap.get? o.objects id with
  | some st0 =>
    dsimp only
    cases hg' : GoMap.get? o.objects id' with
    | some st1 => rfl
    | none =>
      have hne : id' ≠ id := by
        intro e
        rw [e, hg] at hg'
        cases hg'
      simp [hne]
  | none =>
    dsimp only
    by_cases hid : id' = id
    · subst hid
      rw [GoMap.get?_set_self, hg]
      by_cases ht : typ = ObjMap <;> simp [ht]
    · rw [GoMap.get?_set_ne _ _ _ _ hid]
      cases hg' : GoMap.get? o.objects id' with
      | some st1 => rfl
      | none => simp [hid]

end opset

namespace automerge

open model changegraph

/-- What a mutation that is applied without error does to the op set: after its
`CreateObject` call, if it has one, it appends `specCount` records of the actor, on an
object of the op set, with consecutive sequence numbers from the counter of the op id when that is not
zero. -/
theorem apply_records (m : txMutation) (o o1 : opset.OpSet) (opid : OpID) (actor : Nat)
    (hlt : opid.Counter < 2 ^ 64)
    (h : m.apply o opid actor opid.Counter = (o1, none)) :
    ∃ recs : List opset.opRecord, o1 = recs.foldl opset.OpSet.record (m.prepare o) ∧
      recs.length = m.specCount ∧
      ∀ (k : Nat) (r : opset.opRecord), recs[k]? = some r →
        r.actor = actor ∧ (1 ≤ opid.Counter → r.seq = (opid.Counter + k) % 2 ^ 64) ∧
        GoMap.contains (m.prepare o).objects r.obj = true := by
  have single : ∀ (o0 : opset.OpSet) (rec : opset.opRecord) (want : List opset.ObjType),
      o0.ensureType rec.obj want = .ok () → rec.actor = actor → rec.seq = opid.Counter →
      o1 = o0.record rec → m.prepare o = o0 → m.specCount = 1 →
      ∃ recs : List opset.opRecord, o1 = recs.foldl opset.OpSet.record (m.prepare o) ∧
        recs.length = m.specCount ∧
        ∀ (k : Nat) (r : opset.opRecord), recs[k]? = some r →
          r.actor = actor ∧ (1 ≤ opid.Counter → r.seq = (opid.Counter + k) % 2 ^ 64) ∧
          GoMap.contains (m.prepare o).objects r.obj = true := by
    intro o0 rec want he ha hs ho hp hc
    refine ⟨[rec], by rw [hp, ho]; rfl, by rw [hc]; rfl, ?_⟩
    intro k r hk
    cases k with
    | zero =>
      simp only [List.getElem?_cons_zero, Option.some.injEq] at hk
      subst hk
      rw [hp]
      exact ⟨ha, fun _ => by rw [hs, Nat.add_zero, Nat.mod_eq_of_lt hlt],
        opset.ensureType_contains _ _ _ he⟩
    | succ k => simp at hk
  cases m with
  | putMutation obj key value =>
    simp only [txMutation.apply] at h
    cases hw : o.PutMap obj key (opset.NewScalarValue value) opid actor opid.Counter with
    | error e => simp [hw] at h
    | ok o' =>
      simp only [hw, Prod.mk.injEq, and_true] at h
      subst h
      obtain ⟨he, ho⟩ := opset.PutMap_ok _ _ _ _ _ _ _ _ hw
      exact single o _ _ he rfl rfl ho rfl rfl
  | putObjectMutation obj key typ child =>
    simp only [txMutation.apply] at h
    cases hw : (o.CreateObject child typ).PutMap obj key (opset.NewObjectValue child typ) opid
        actor opid.Counter with
    | error e => simp [hw] at h
    | ok o' =>
      simp only [hw, Prod.mk.injEq, and_true] at h
      subst h
      obtain ⟨he, ho⟩ := opset.PutMap_ok _ _ _ _ _ _ _ _ hw
      exact single _ _ _ he rfl rfl ho rfl rfl
  | insertMutation obj index value =>
    simp only [txMutation.apply] at h
    cases hw : o.InsertList obj index (opset.NewScalarValue value) opid actor opid.Counter with
    | error e => simp [hw] at h
    | ok o' =>
      simp only [hw, Prod.mk.injEq, and_true] at h
      subst h
      obtain ⟨he, -, ho⟩ := opset.InsertList_ok _ _ _ _ _ _ _ _ hw
      exact single o _ _ he rfl rfl ho rfl rfl
  | insertObjectMutation obj index typ child =>
    simp only [txMutation.apply] at h
    cases hw : (o.CreateObject child typ).InsertList obj index
        (opset.NewObjectValue child typ) opid actor opid.Counter with
    | error e => simp [hw] at h
    | ok o' =>
      simp only [hw, Prod.mk.injEq, and_true] at h
      subst h
      obtain ⟨he, -, ho⟩ := opset.InsertList_ok _ _ _ _ _ _ _ _ hw
      exact single _ _ _ he rfl rfl ho rfl rfl
  | deleteMapMutation obj key =>
    simp only [txMutation.apply] at h
    cases hw : o.DeleteMap obj key opid actor opid.Counter with
    | error e => simp [hw] at h
    | ok o' =>
      simp only [hw, Prod.mk.injEq, and_true] at h
      subst h
      obtain ⟨he, ho⟩ := opset.DeleteMap_ok _ _ _ _ _ _ _ hw
      exact single o _ _ he rfl rfl ho rfl rfl
  | deleteListMutation obj index =>
    simp only [txMutation.apply] at h
    cases hw : o.DeleteList obj index opid actor opid.Counter with
    | error e => simp [hw] at h
    | ok o' =>
      simp only [hw, Prod.mk.injEq, and_true] at h
      subst h
      obtain ⟨he, -, ho⟩ := opset.DeleteList_ok _ _ _ _ _ _ _ hw
      exact single o _ _ he rfl rfl ho rfl rfl
  | incrementMutation obj key by_ =>
    simp only [txMutation.apply] at h
    cases hw : o.IncrementMapCounter obj key by_ opid actor opid.Counter with
    | error e => simp [hw] at h
    | ok o' =>
      simp only [hw, Prod.mk.injEq, and_true] at h
      subst h
      obtain ⟨current, -, -, -, hput⟩ := opset.IncrementMapCounter_ok _ _ _ _ _ _ _ _ hw
      obtain ⟨he, ho⟩ := opset.PutMap_ok _ _ _ _ _ _ _ _ hput
      exact single o _ _ he rfl rfl ho rfl rfl
  | markMutation obj start stop name value =>
    simp only [txMutation.apply] at h
    cases hw : o.AddMark obj start stop name value opid actor opid.Counter with
    | error e => simp [hw] at h
    | ok o' =>
      simp only [hw, Prod.mk.injEq, and_true] at h
      subst h
      obtain ⟨he, -, -, ho⟩ := opset.AddMark_ok _ _ _ _ _ _ _ _ _ _ hw
      exact single o _ _ he rfl rfl ho rfl rfl
  | spliceTextMutation obj index deleteCount text =>
    simp only [txMutation.apply] at h
    obtain ⟨s1, s2, s3⟩ := opset.SpliceText_spec o obj index deleteCount text actor
      (if opid.Counter > 0 then opid.Counter - 1 else opid.Counter) (by split_ifs <;> omega)
    cases he : o.ensureType obj [opset.ObjText] with
    | error e =>
      rw [s1 (by rw [he]; simp), he] at h
      simp [Except.map] at h
    | ok u =>
      by_cases hneg : index < 0 ∨ deleteCount < 0
      · rw [s2 he hneg] at h
        simp at h
      · obtain ⟨recs, hrun, hlen, hrecs⟩ := s3 he (by omega) (by omega)
        rw [hrun] at h
        simp only [Prod.mk.injEq, and_true] at h
        subst h
        refine ⟨recs, rfl, hlen, ?_⟩
        intro k r hk
        obtain ⟨h1, h2, h3, -⟩ := hrecs k r hk
        refine ⟨h2, ?_, ?_⟩
        · intro hpos
          rw [h3, if_pos (by omega)]
          congr 1
          omega
        · rw [h1]
          exact opset.ensureType_contains _ _ _ he

end automerge

/-! ## Transactions: the object id returned by PutObject and InsertObject -/

namespace automerge

open model changegraph

theorem foldl_wrap (ms : List txMutation) :
    ∀ a, a < 2 ^ 64 →
      ms.foldl (fun total m => (total + m.opCount) % 2 ^ 64) a = (a + countSum ms) % 2 ^ 64 := by
  induction ms with
  | nil =>
    intro a ha
    simp only [List.foldl_nil, countSum, List.map_nil, List.sum_nil, Nat.add_zero]
    exact (Nat.mod_eq_of_lt ha).symm
  | cons m rest ih =>
    intro a ha
    rw [List.foldl_cons, ih _ (Nat.mod_lt _ (by norm_num))]
    simp only [countSum, List.map_cons, List.sum_cons]
    omega

theorem nextOpID_eq (tx : Transaction) :
    tx.nextOpIDForNextMutation =
      { Counter := (tx.cp.startOp + countSum tx.ops) % 2 ^ 64, Actor := tx.cp.actor } := by
  unfold Transaction.nextOpIDForNextMutation Transaction.totalMutationOpCount
  rw [foldl_wrap _ 0 (by norm_num)]
  congr 1
  omega

/-- A staging call appends at most one mutation. -/
theorem call_ops (tx : Transaction) (c : StageCall) :
    (tx.call c).tx.ops = tx.ops ∨ ∃ m, (tx.call c).tx.ops = tx.ops ++ [m] := by
  cases c with
  | spliceText obj index deleteCount insert =>
    by_cases hcl : tx.closed = true
    · simp [Transaction.call, Transaction.afterCall, Transaction.SpliceText, hcl]
    · by_cases hz : deleteCount = 0 ∧ insert = ""
      · simp [Transaction.call, Transaction.afterCall, Transaction.SpliceText, hcl, hz]
      · right
        refine ⟨.spliceTextMutation obj index deleteCount insert, ?_⟩
        simp only [Transaction.call, Transaction.afterCall, Transaction.SpliceText, hcl,
          Bool.false_eq_true, if_false, hz]
  | mark obj start stop name value =>
    by_cases hcl : tx.closed = true
    · simp [Transaction.call, Transaction.afterCall, Transaction.Mark, hcl]
    · by_cases hr : start < 0 ∨ stop < start
      · simp [Transaction.call, Transaction.afterCall, Transaction.Mark, hcl, hr]
      · right
        refine ⟨.markMutation obj start stop name value, ?_⟩
        simp only [Transaction.call, Transaction.afterCall, Transaction.Mark, hcl,
          Bool.false_eq_true, if_false, hr]
  | _ =>
    by_cases hcl : tx.closed = true <;>
    simp [Transaction.call, Transaction.afterCall, Transaction.afterObjectCall,
      Transaction.Put, Transaction.PutObject, Transaction.Insert, Transaction.InsertObject,
      Transaction.DeleteMap, Transaction.DeleteList, Transaction.Increment,
      Transaction.stage, hcl]

theorem calls_ops (cs : List StageCall) :
    ∀ (tx : Transaction), ∃ more, (tx.calls cs).ops = tx.ops ++ more := by
  induction cs with
  | nil => intro tx; exact ⟨[], by simp [Transaction.calls]⟩
  | cons c rest ih =>
    intro tx
    obtain ⟨more, hmore⟩ := ih (tx.call c).tx
    rcases call_ops tx c with h | ⟨m, h⟩
    · exact ⟨more, by rw [Transaction.calls, List.foldl_cons]; rw [← h]; exact hmore⟩
    · refine ⟨m :: more, ?_⟩
      rw [Transaction.calls, List.foldl_cons]
      have : (tx.call c).tx.ops ++ more = tx.ops ++ m :: more := by rw [h]; simp
      rw [← this]
      exact hmore

/-- The call `PutObject` or `InsertObject` on an open transaction: no error, the
returned object id is made of the next op id, and the mutation that carries it is
appended. -/
theorem objectCall_spec (tx : Transaction) (c : StageCall) (typ : opset.ObjType)
    (hc : c.objectType = some typ) (hopen : tx.closed = false) :
    (tx.call c).err = none ∧
    (tx.call c).obj = some { Root := false, Op := tx.nextOpIDForNextMutation } ∧
    ∃ m, (tx.call c).tx.ops = tx.ops ++ [m] ∧
      m.creates = some ({ Root := false, Op := tx.nextOpIDForNextMutation }, typ) ∧
      (∀ opid, ((m.toChangeOp opid).Kind = OpPutObject ∨
                (m.toChangeOp opid).Kind = OpInsertObject) ∧
        (m.toChangeOp opid).ObjType = typ ∧
        (m.toChangeOp opid).ChildObjID =
          { Root := false, Op := tx.nextOpIDForNextMutation }) := by
  cases c with
  | putObject obj key typ' =>
    simp only [StageCall.objectType, Option.some.injEq] at hc
    subst hc
    refine ⟨?_, ?_, .putObjectMutation obj key typ'
      { Root := false, Op := tx.nextOpIDForNextMutation }, ?_, rfl, ?_⟩
    · simp [Transaction.call, Transaction.afterObjectCall, Transaction.PutObject,
        Transaction.stage, hopen]
    · simp [Transaction.call, Transaction.afterObjectCall, Transaction.PutObject,
        Transaction.stage, hopen]
    · simp [Transaction.call, Transaction.afterObjectCall, Transaction.PutObject,
        Transaction.stage, hopen]
    · intro opid
      exact ⟨Or.inl rfl, rfl, rfl⟩
  | insertObject obj index typ' =>
    simp only [StageCall.objectType, Option.some.injEq] at hc
    subst hc
    refine ⟨?_, ?_, .insertObjectMutation obj index typ'
      { Root := false, Op := tx.nextOpIDForNextMutation }, ?_, rfl, ?_⟩
    · simp [Transaction.call, Transaction.afterObjectCall, Transaction.InsertObject,
        Transaction.stage, hopen]
    · simp [Transaction.call, Transaction.afterObjectCall, Transaction.InsertObject,
        Transaction.stage, hopen]
    · simp [Transaction.call, Transaction.afterObjectCall, Transaction.InsertObject,
        Transaction.stage, hopen]
    · intro opid
      exact ⟨Or.inr rfl, rfl, rfl⟩
  | _ => simp [StageCall.objectType] at hc

theorem named_append (tx tx' : Transaction) (m : txMutation) (hcp : tx'.cp = tx.cp)
    (hops : tx'.ops = tx.ops ++ [m]) (hn : tx.Named)
    (hm : ∀ id typ, m.creates = some (id, typ) →
      id = { Root := false, Op := tx.nextOpIDForNextMutation }) : tx'.Named := by
  intro j m' id typ hj hcr
  rw [hops] at hj
  rw [hcp, hops]
  by_cases hlt : j < tx.ops.length
  · rw [List.getElem?_append_left hlt] at hj
    rw [List.take_append_of_le_length (by omega)]
    exact hn j m' id typ hj hcr
  · rw [List.getElem?_append_right (by omega)] at hj
    have hj0 : j - tx.ops.length = 0 := by
      by_contra hne
      obtain ⟨k, hk⟩ : ∃ k, j - tx.ops.length = k + 1 := ⟨j - tx.ops.length - 1, by omega⟩
      rw [hk] at hj
      simp at hj
    rw [hj0] at hj
    simp only [List.getElem?_cons_zero, Option.some.injEq] at hj
    subst hj
    have hje : j = tx.ops.length := by omega
    rw [hm id typ hcr, nextOpID_eq, hje, List.take_left']
    rfl

theorem call_named (tx : Transaction) (c : StageCall) (hn : tx.Named) :
    (tx.call c).tx.Named := by
  have hcp := (call_frame tx c).1
  have same : (tx.call c).tx.ops = tx.ops → (tx.call c).tx.Named := by
    intro h j m id typ hj hcr
    rw [hcp, h]
    rw [h] at hj
    exact hn j m id typ hj hcr
  by_cases hcl : tx.closed = true
  · apply same
    rw [(call_closed tx hcl c).2]
  have hopen : tx.closed = false := by simpa using hcl
  cases hot : c.objectType with
  | some typ =>
    obtain ⟨-, -, m, hops, hcr, -⟩ := objectCall_spec tx c typ hot hopen
    refine named_append tx _ m hcp hops hn ?_
    intro id typ' hcr'
    rw [hcr] at hcr'
    injection hcr' with hcr'
    injection hcr' with h1 h2
    exact h1.symm
  | none =>
    rcases call_ops tx c with h | ⟨m, h⟩
    · exact same h
    · refine named_append tx _ m hcp h hn ?_
      intro id typ hcr
      exfalso
      cases c with
      | putObject obj key typ' => simp [StageCall.objectType] at hot
      | insertObject obj index typ' => simp [StageCall.objectType] at hot
      | put obj key value =>
        simp [Transaction.call, Transaction.afterCall, Transaction.Put, Transaction.stage,
          hopen] at h
        subst h
        simp [txMutation.creates] at hcr
      | insert obj index value =>
        simp [Transaction.call, Transaction.afterCall, Transaction.Insert, Transaction.stage,
          hopen] at h
        subst h
        simp [txMutation.creates] at hcr
      | deleteMap obj key =>
        simp [Transaction.call, Transaction.afterCall, Transaction.DeleteMap,
          Transaction.stage, hopen] at h
        subst h
        simp [txMutation.creates] at hcr
      | deleteList obj index =>
        simp [Transaction.call, Transaction.afterCall, Transaction.DeleteList,
          Transaction.stage, hopen] at h
        subst h
        simp [txMutation.creates] at hcr
      | increment obj key by_ =>
        simp [Transaction.call, Transaction.afterCall, Transaction.Increment,
          Transaction.stage, hopen] at h
        subst h
        simp [txMutation.creates] at hcr
      | spliceText obj index deleteCount insert =>
        by_cases hz : deleteCount = 0 ∧ insert = ""
        · simp [Transaction.call, Transaction.afterCall, Transaction.SpliceText, hopen, hz] at h
        · simp [Transaction.call, Transaction.afterCall, Transaction.SpliceText, hopen, hz] at h
          subst h
          simp [txMutation.creates] at hcr
      | mark obj start stop name value =>
        by_cases hr : start < 0 ∨ stop < start
        · simp [Transaction.call, Transaction.afterCall, Transaction.Mark, hopen, hr] at h
        · simp [Transaction.call, Transaction.afterCall, Transaction.Mark, hopen, hr] at h
          subst h
          simp [txMutation.creates] at hcr

theorem calls_named (cs : List StageCall) :
    ∀ (tx : Transaction), tx.Named → (tx.calls cs).Named := by
  induction cs with
  | nil => intro tx h; exact h
  | cons c rest ih => intro tx h; exact ih _ (call_named tx c h)

theorem calls_append (a b : List StageCall) (tx : Transaction) :
    tx.calls (a ++ b) = (tx.calls a).calls b := by
  simp [Transaction.calls, List.foldl_append]

/-- A mutation that is applied without error leaves the objects that its `CreateObject`
call left. -/
theorem apply_objects (m : txMutation) (o o1 : opset.OpSet) (opid : OpID) (actor seq : Nat)
    (hseq : seq < 2 ^ 64) (h : m.apply o opid actor seq = (o1, none)) :
    o1.objects = (m.prepare o).objects := by
  cases m with
  | putMutation obj key value =>
    simp only [txMutation.apply] at h
    cases hw : o.PutMap obj key (opset.NewScalarValue value) opid actor seq with
    | error e => simp [hw] at h
    | ok o' =>
      simp only [hw, Prod.mk.injEq, and_true] at h
      subst h
      rw [(opset.PutMap_ok _ _ _ _ _ _ _ _ hw).2, opset.record_objects]
      rfl
  | putObjectMutation obj key typ child =>
    simp only [txMutation.apply] at h
    cases hw : (o.CreateObject child typ).PutMap obj key (opset.NewObjectValue child typ) opid
        actor seq with
    | error e => simp [hw] at h
    | ok o' =>
      simp only [hw, Prod.mk.injEq, and_true] at h
      subst h
      rw [(opset.PutMap_ok _ _ _ _ _ _ _ _ hw).2, opset.record_objects]
      rfl
  | insertMutation obj index value =>
    simp only [txMutation.apply] at h
    cases hw : o.InsertList obj index (opset.NewScalarValue value) opid actor seq with
    | error e => simp [hw] at h
    | ok o' =>
      simp only [hw, Prod.mk.injEq, and_true] at h
      subst h
      rw [(opset.InsertList_ok _ _ _ _ _ _ _ _ hw).2.2, opset.record_objects]
      rfl
  | insertObjectMutation obj index typ child =>
    simp only [txMutation.apply] at h
    cases hw : (o.CreateObject child typ).InsertList obj index
        (opset.NewObjectValue child typ) opid actor seq with
    | error e => simp [hw] at h
    | ok o' =>
      simp only [hw, Prod.mk.injEq, and_true] at h
      subst h
      rw [(opset.InsertList_ok _ _ _ _ _ _ _ _ hw).2.2, opset.record_objects]
      rfl
  | deleteMapMutation obj key =>
    simp only [txMutation.apply] at h
    cases hw : o.DeleteMap obj key opid actor seq with
    | error e => simp [hw] at h
    | ok o' =>
      simp only [hw, Prod.mk.injEq, and_true] at h
      subst h
      rw [(opset.DeleteMap_ok _ _ _ _ _ _ _ hw).2, opset.record_objects]
      rfl
  | deleteListMutation obj index =>
    simp only [txMutation.apply] at h
    cases hw : o.DeleteList obj index opid actor seq with
    | error e => simp [hw] at h
    | ok o' =>
      simp only [hw, Prod.mk.injEq, and_true] at h
      subst h
      rw [(opset.DeleteList_ok _ _ _ _ _ _ _ hw).2.2, opset.record_objects]
      rfl
  | incrementMutation obj key by_ =>
    simp only [txMutation.apply] at h
    cases hw : o.IncrementMapCounter obj key by_ opid actor seq with
    | error e => simp [hw] at h
    | ok o' =>
      simp only [hw, Prod.mk.injEq, and_true] at h
      subst h
      obtain ⟨current, -, -, -, hput⟩ := opset.IncrementMapCounter_ok _ _ _ _ _ _ _ _ hw
      rw [(opset.PutMap_ok _ _ _ _ _ _ _ _ hput).2, opset.record_objects]
      rfl
  | markMutation obj start stop name value =>
    simp only [txMutation.apply] at h
    cases hw : o.AddMark obj start stop name value opid actor seq with
    | error e => simp [hw] at h
    | ok o' =>
      simp only [hw, Prod.mk.injEq, and_true] at h
      subst h
      rw [(opset.AddMark_ok _ _ _ _ _ _ _ _ _ _ hw).2.2.2, opset.record_objects]
      rfl
  | spliceTextMutation obj index deleteCount text =>
    simp only [txMutation.apply] at h
    obtain ⟨s1, s2, s3⟩ := opset.SpliceText_spec o obj index deleteCount text actor
      (if seq > 0 then seq - 1 else seq) (by split_ifs <;> omega)
    cases he : o.ensureType obj [opset.ObjText] with
    | error e =>
      rw [s1 (by rw [he]; simp), he] at h
      simp [Except.map] at h
    | ok u =>
      by_cases hneg : index < 0 ∨ deleteCount < 0
      · rw [s2 he hneg] at h
        simp at h
      · obtain ⟨recs, hrun, -, -⟩ := s3 he (by omega) (by omega)
        rw [hrun] at h
        simp only [Prod.mk.injEq, and_true] at h
        subst h
        rw [(opset.foldl_record_objects recs o).1]
        rfl

theorem objectType_of_objects (o o' : opset.OpSet) (h : o'.objects = o.objects)
    (id : ObjID) : o'.ObjectType id = o.ObjectType id := by
  unfold opset.OpSet.ObjectType
  rw [h]

theorem objectType_prepare (m : txMutation) (o : opset.OpSet) (id : ObjID) :
    (m.prepare o).ObjectType id =
      match o.ObjectType id with
      | some t => some t
      | none =>
        match m.creates with
        | some (id', typ) => if id = id' then some typ else none
        | none => none := by
  unfold txMutation.prepare
  cases hc : m.creates with
  | none =>
    dsimp only
    cases o.ObjectType id <;> rfl
  | some p =>
    obtain ⟨id', typ⟩ := p
    dsimp only
    exact (opset.objectType_createObject o id' id typ).trans
      (by cases o.ObjectType id <;> rfl)

/-- The objects after the loop of `CommitWith`: an object keeps its type, and the
object of a creating mutation exists, with the type of the mutation when neither the
op set before the loop nor an earlier mutation had it. -/
theorem commitLoop_objects (cp : txCheckpoint) :
    ∀ (ms : List txMutation) (o : opset.OpSet) (cops : List ChangeOperation) (off : Nat)
      (o1 : opset.OpSet) (cops1 : List ChangeOperation) (off1 : Nat),
      Transaction.commitLoop cp ms o cops off = (o1, cops1, off1, none) →
      (∀ id t, o.ObjectType id = some t → o1.ObjectType id = some t) ∧
      ∀ (i : Nat) (m : txMutation) (id : ObjID) (typ : opset.ObjType), ms[i]? = some m →
        m.creates = some (id, typ) →
        (o1.ObjectType id).isSome = true ∧
        (o.ObjectType id = none →
          (∀ (j : Nat) (m' : txMutation) (t : opset.ObjType), j < i → ms[j]? = some m' →
            m'.creates ≠ some (id, t)) →
          o1.ObjectType id = some typ) := by
  intro ms
  induction ms with
  | nil =>
    intro o cops off o1 cops1 off1 h
    simp only [Transaction.commitLoop, Prod.mk.injEq] at h
    obtain ⟨h1, -⟩ := h
    subst h1
    exact ⟨fun _ _ h => h, by simp⟩
  | cons m0 rest ih =>
    intro o cops off o1 cops1 off1 h
    unfold Transaction.commitLoop at h
    dsimp only at h
    split at h
    · simp at h
    · rename_i ops1 happly
      have hobj := apply_objects m0 o ops1 _ _ _ (Nat.mod_lt _ (by norm_num)) happly
      have htype : ∀ id, ops1.ObjectType id = (m0.prepare o).ObjectType id :=
        objectType_of_objects _ _ hobj
      obtain ⟨hkeep, hrest⟩ := ih _ _ _ _ _ _ h
      have hkeep0 : ∀ id t, o.ObjectType id = some t → ops1.ObjectType id = some t := by
        intro id t ht
        rw [htype, objectType_prepare, ht]
      refine ⟨fun id t ht => hkeep id t (hkeep0 id t ht), ?_⟩
      intro i m id typ hi hcr
      cases i with
      | zero =>
        simp only [List.getElem?_cons_zero, Option.some.injEq] at hi
        subst hi
        have hafter : (ops1.ObjectType id).isSome = true ∧
            (o.ObjectType id = none → ops1.ObjectType id = some typ) := by
          rw [htype, objectType_prepare, hcr]
          cases ho : o.ObjectType id with
          | some t => simp
          | none => simp
        constructor
        · cases h1 : ops1.ObjectType id with
          | none => rw [h1] at hafter; simp at hafter
          | some t => rw [hkeep id t h1]; rfl
        · intro hnone _
          exact hkeep id typ (hafter.2 hnone)
      | succ i =>
        simp only [List.getElem?_cons_succ] at hi
        obtain ⟨hsome, htyp⟩ := hrest i m id typ hi hcr
        refine ⟨hsome, ?_⟩
        intro hnone hearlier
        apply htyp
        · rw [htype, objectType_prepare, hnone]
          cases hc0 : m0.creates with
          | none => rfl
          | some p =>
            obtain ⟨id', t⟩ := p
            have hne : id ≠ id' := by
              intro e
              subst e
              exact hearlier 0 m0 t (by omega) (by simp) hc0
            simp [hne]
        · intro j m' t hj hm'
          exact hearlier (j + 1) m' t (by omega) (by simpa using hm')

theorem countSum_take_mono (ms : List txMutation) (hpos : ∀ m ∈ ms, 1 ≤ m.opCount) :
    ∀ (i j : Nat), j < i → i < ms.length →
      countSum (ms.take j) < countSum (ms.take i) ∧ countSum (ms.take i) ≤ countSum ms := by
  induction ms with
  | nil => intro i j _ hi; simp at hi
  | cons m rest ih =>
    intro i j hji hi
    have hm := hpos m (List.mem_cons_self m rest)
    have hrest : ∀ x ∈ rest, 1 ≤ x.opCount := fun x hx => hpos x (List.mem_cons_of_mem m hx)
    cases i with
    | zero => omega
    | succ i =>
      have hle := (countSum_take_lt rest hrest i (by simpa using hi)).1
      cases j with
      | zero =>
        simp only [List.take_zero, List.take_succ_cons, countSum, List.map_nil, List.sum_nil,
          List.map_cons, List.sum_cons] at hle ⊢
        omega
      | succ j =>
        have := ih hrest i j (by omega) (by simpa using hi)
        simp only [List.take_succ_cons, countSum, List.map_cons, List.sum_cons] at this ⊢
        omega

/-- C16 (as amended): on a transaction obtained from `Begin`, whatever calls were
staged before and after it, a call of `PutObject` or `InsertObject` returns no error and
an `ObjID` that names its creating operation: in the change that the subsequent
successful `CommitWith` returns, the operation `o` at the position of the call is a
`PutObject` or `InsertObject` operation of the requested type with
`ObjID{Op: o.OpID} = o.ChildObjID` equal to the returned `ObjID`. After that commit the
object exists; it has the requested type when the op set held no object with that id
before the commit and the op counts of the transaction sum to less than `2^64`. -/
theorem PutObject_names_operation (hasher : ChangeHasher) (d0 d1 d : Document)
    (tx0 : Transaction) (pre post : List StageCall) (call : StageCall) (typ : opset.ObjType)
    (opts : CommitOptions) (c : Change)
    (hbegin : d0.Begin = .ok (d1, tx0))
    (hcall : call.objectType = some typ)
    (htyped : ∀ x ∈ pre ++ call :: post, x.typed = true)
    (hcommit : (Transaction.CommitWith hasher d (((tx0.calls pre).call call).tx.calls post)
      opts).change = some c) :
    ((tx0.calls pre).call call).err = none ∧
    ∃ (id : ObjID) (o : ChangeOperation), ((tx0.calls pre).call call).obj = some id ∧
      c.Operations[(tx0.calls pre).ops.length]? = some o ∧
      (o.Kind = OpPutObject ∨ o.Kind = OpInsertObject) ∧ o.ObjType = typ ∧
      id = { Root := false, Op := o.OpID } ∧ id = o.ChildObjID ∧
      ((Transaction.CommitWith hasher d (((tx0.calls pre).call call).tx.calls post)
        opts).doc.ops.ObjectType id).isSome = true ∧
      (d.ops.ObjectType id = none →
        countSum (((tx0.calls pre).call call).tx.calls post).ops < 2 ^ 64 →
        (Transaction.CommitWith hasher d (((tx0.calls pre).call call).tx.calls post)
          opts).doc.ops.ObjectType id = some typ) := by
  obtain ⟨-, -, hcl0, hops0, -, -, -, -⟩ := Begin_ok d0 d1 tx0 hbegin
  have hfr1 := calls_frame pre tx0
  have hopen1 : (tx0.calls pre).closed = false := by rw [hfr1.2.1, hcl0]
  obtain ⟨herr, hobj, m, hops, hcr, hop⟩ :=
    objectCall_spec (tx0.calls pre) call typ hcall hopen1
  obtain ⟨more, hmore⟩ := calls_ops post ((tx0.calls pre).call call).tx
  have hfull : (((tx0.calls pre).call call).tx.calls post).ops =
      (tx0.calls pre).ops ++ m :: more := by
    rw [hmore, hops]
    simp
  have heq : ((tx0.calls pre).call call).tx.calls post = tx0.calls (pre ++ call :: post) := by
    rw [calls_append]
    rfl
  have hnamed0 : tx0.Named := by
    intro j m' id typ' hj
    rw [hops0] at hj
    simp at hj
  have hnamed : (((tx0.calls pre).call call).tx.calls post).Named := by
    rw [heq]
    exact calls_named _ tx0 hnamed0
  obtain ⟨hcpf, -, -, hstaged⟩ :=
    calls_spec (pre ++ call :: post) tx0 htyped (by rw [hops0]; simp)
  rw [← heq] at hcpf hstaged
  obtain ⟨-, -, -, ops1, changeOps, offset, g, hloop, -, -, hc, -, hdocops, -, -⟩ :=
    CommitWith_change hasher d _ opts c hcommit
  obtain ⟨hcops, -, hnn⟩ := commitLoop_ok _ _ _ _ _ _ _ _ (by norm_num) hloop
  simp only [List.nil_append] at hcops
  have hpos : ∀ x ∈ (((tx0.calls pre).call call).tx.calls post).ops, 1 ≤ x.opCount :=
    fun x hx => (opCount_staged x (hstaged x hx) (hnn x hx)).1
  have hidx : (((tx0.calls pre).call call).tx.calls post).ops[(tx0.calls pre).ops.length]? =
      some m := by
    rw [hfull, List.getElem?_append_right (le_refl _)]
    simp
  have htake : (((tx0.calls pre).call call).tx.calls post).ops.take (tx0.calls pre).ops.length =
      (tx0.calls pre).ops := by
    rw [hfull, List.take_left']
    rfl
  have hcp1 : (tx0.calls pre).cp = tx0.cp := hfr1.1
  have hopid : (tx0.calls pre).nextOpIDForNextMutation =
      { Counter := ((((tx0.calls pre).call call).tx.calls post).cp.startOp + 0 +
          countSum ((((tx0.calls pre).call call).tx.calls post).ops.take
            (tx0.calls pre).ops.length)) % 2 ^ 64,
        Actor := (((tx0.calls pre).call call).tx.calls post).cp.actor } := by
    rw [nextOpID_eq, htake, hcpf, hcp1, Nat.add_zero]
  have hOps : c.Operations = assignOps (((tx0.calls pre).call call).tx.calls post).cp
      (((tx0.calls pre).call call).tx.calls post).ops 0 := by
    rw [hc, hcops]
  obtain ⟨hkeep, hcreated⟩ := commitLoop_objects _ _ _ _ _ _ _ _ hloop
  obtain ⟨hsome, htyp⟩ := hcreated _ m _ typ hidx hcr
  refine ⟨herr, _, m.toChangeOp (tx0.calls pre).nextOpIDForNextMutation, hobj, ?_,
    (hop _).1, (hop _).2.1, ?_, (hop _).2.2.symm, ?_, ?_⟩
  · rw [hOps, assignOps_getElem?, hidx, hopid]
    rfl
  · rw [toChangeOp_OpID]
  · rw [hdocops]
    exact hsome
  · intro hnone hwrap
    rw [hdocops]
    apply htyp hnone
    intro j m' t hj hm' hcr'
    have hid := hnamed j m' _ t hm' hcr'
    have hjlt : j < (((tx0.calls pre).call call).tx.calls post).ops.length := by
      rw [hfull]
      simp only [List.length_append, List.length_cons]
      omega
    have hilt : (tx0.calls pre).ops.length <
        (((tx0.calls pre).call call).tx.calls post).ops.length := by
      rw [hfull]
      simp only [List.length_append, List.length_cons]
      omega
    obtain ⟨hlt, hle⟩ := countSum_take_mono _ hpos _ j hj hilt
    rw [hopid] at hid
    injection hid with _ hid
    injection hid with hid _
    rw [htake] at hid hlt hle
    omega

theorem PutObject_names_operation_witness :
    ((firstTransaction.calls []).call (.putObject RootObjID "t" opset.ObjText)).err = none ∧
    ∃ (id : ObjID) (o : ChangeOperation),
      ((firstTransaction.calls []).call (.putObject RootObjID "t" opset.ObjText)).obj = some id ∧
      textChange.Operations[(firstTransaction.calls []).ops.length]? = some o ∧
      (o.Kind = OpPutObject ∨ o.Kind = OpInsertObject) ∧ o.ObjType = opset.ObjText ∧
      id = { Root := false, Op := o.OpID } ∧ id = o.ChildObjID ∧
      ((Transaction.CommitWith exampleHasherAsc { NewDocument with openTx := true }
        (((firstTransaction.calls []).call (.putObject RootObjID "t" opset.ObjText)).tx.calls
          [.spliceText { Root := false, Op := { Counter := 1, Actor := 1 } } 0 0 "abc"])
        { Message := none, Time := none }).doc.ops.ObjectType id).isSome = true ∧
      (({ NewDocument with openTx := true } : Document).ops.ObjectType id = none →
        countSum (((firstTransaction.calls []).call
          (.putObject RootObjID "t" opset.ObjText)).tx.calls
          [.spliceText { Root := false, Op := { Counter := 1, Actor := 1 } } 0 0 "abc"]).ops
            < 2 ^ 64 →
        (Transaction.CommitWith exampleHasherAsc { NewDocument with openTx := true }
          (((firstTransaction.calls []).call (.putObject RootObjID "t" opset.ObjText)).tx.calls
            [.spliceText { Root := false, Op := { Counter := 1, Actor := 1 } } 0 0 "abc"])
          { Message := none, Time := none }).doc.ops.ObjectType id = some opset.ObjText) :=
  PutObject_names_operation exampleHasherAsc NewDocument { NewDocument with openTx := true }
    { NewDocument with openTx := true } firstTransaction []
    [.spliceText { Root := false, Op := { Counter := 1, Actor := 1 } } 0 0 "abc"]
    (.putObject RootObjID "t" opset.ObjText) opset.ObjText { Message := none, Time := none }
    textChange rfl rfl (by decide) rfl

/-- C16 (counterexample): a remote change creates the object `2@1` as a map. The local
`PutObject(root, "y", List)` of actor 1 then returns `2@1`, the commit succeeds and its
operation carries `2@1` as `ChildObjID`, but after the commit the object `2@1` is still
a map, not a list. -/
theorem PutObject_keeps_existing_object :
    (NewDocument.ApplyChanges [squatChange]).err = none ∧
    (NewDocument.ApplyChanges [squatChange]).doc.Begin =
      .ok ({ (NewDocument.ApplyChanges [squatChange]).doc with openTx := true },
           { closed := false, cp := { actor := 1, seq := 1, startOp := 2, deps := [7] },
             ops := [], openMk := [] }) ∧
    squatCall.err = none ∧
    squatCall.obj = some { Root := false, Op := { Counter := 2, Actor := 1 } } ∧
    (squatCommit exampleHasherAsc).err = none ∧
    ((squatCommit exampleHasherAsc).change.map
      (fun c => c.Operations.map (fun o => (o.Kind, o.ChildObjID, o.ObjType)))) =
      some [(OpPutObject, { Root := false, Op := { Counter := 2, Actor := 1 } },
             opset.ObjList)] ∧
    (squatCommit exampleHasherAsc).doc.ops.ObjectType
      { Root := false, Op := { Counter := 2, Actor := 1 } } = some opset.ObjMap ∧
    opset.ObjMap ≠ opset.ObjList :=
  ⟨rfl, rfl, rfl, rfl, rfl, rfl, rfl, by decide⟩

end automerge

/-! ## The op set: object-type enforcement -/

namespace opset

open model

theorem ensureType_unknown (o : OpSet) (obj : ObjID) (want : List ObjType)
    (h : o.ObjectType obj = none) : o.ensureType obj want = .error .ErrUnknownObject := by
  unfold OpSet.ObjectType at h
  unfold OpSet.ensureType
  cases hg : GoMap.get? o.objects obj with
  | none => rfl
  | some st => rw [hg] at h; cases h

theorem ensureType_wrong (o : OpSet) (obj : ObjID) (want : List ObjType) (t : ObjType)
    (h : o.ObjectType obj = some t) (hw : t ∉ want) :
    o.ensureType obj want = .error .ErrWrongObjectType := by
  unfold OpSet.ObjectType at h
  unfold OpSet.ensureType
  cases hg : GoMap.get? o.objects obj with
  | none => rw [hg] at h; cases h
  | some st =>
    rw [hg] at h
    simp only [Option.map_some', Option.some.injEq] at h
    simp [h, hw]

/-- C18 (the code at the failing input, and the operations that do enforce the type):
`IncrementMapCounter` on an object that was never created, and on a list object, returns
the error `counter not found`, not `ErrUnknownObject` or `ErrWrongObjectType`. The other
seven write operations return `ErrUnknownObject` for an object that was never created and
`ErrWrongObjectType` for an object of a type they do not accept; a write that returns an
error yields no op set, so no record is appended. -/
theorem IncrementMapCounter_skips_type_check :
    (New.ObjectType { Root := false, Op := { Counter := 9, Actor := 9 } } = none ∧
      New.IncrementMapCounter { Root := false, Op := { Counter := 9, Actor := 9 } } "k" 1
        { Counter := 1, Actor := 1 } 1 1 = .error .ErrCounterNotFound) ∧
    (listOpSet.ObjectType { Root := false, Op := { Counter := 1, Actor := 1 } } = some ObjList ∧
      listOpSet.IncrementMapCounter { Root := false, Op := { Counter := 1, Actor := 1 } } "k" 1
        { Counter := 2, Actor := 1 } 1 2 = .error .ErrCounterNotFound) ∧
    (∀ (o : OpSet) (obj : ObjID) (key : GoString) (value : Value) (scalar : ScalarValue)
        (id : OpID) (actor seq : Nat) (index deleteCount start stop : Int) (text name : GoString),
      o.ObjectType obj = none →
        o.PutMap obj key value id actor seq = .error .ErrUnknownObject ∧
        o.DeleteMap obj key id actor seq = .error .ErrUnknownObject ∧
        o.InsertList obj index value id actor seq = .error .ErrUnknownObject ∧
        o.SetList obj index value id actor seq = .error .ErrUnknownObject ∧
        o.DeleteList obj index id actor seq = .error .ErrUnknownObject ∧
        o.SpliceText obj index deleteCount text actor seq = .error .ErrUnknownObject ∧
        o.AddMark obj start stop name scalar id actor seq = .error .ErrUnknownObject) ∧
    (∀ (o : OpSet) (obj : ObjID) (t : ObjType) (key : GoString) (value : Value)
        (scalar : ScalarValue) (id : OpID) (actor seq : Nat)
        (index deleteCount start stop : Int) (text name : GoString),
      o.ObjectType obj = some t →
        (t ≠ ObjMap →
          o.PutMap obj key value id actor seq = .error .ErrWrongObjectType ∧
          o.DeleteMap obj key id actor seq = .error .ErrWrongObjectType) ∧
        (t ≠ ObjList → t ≠ ObjText →
          o.InsertList obj index value id actor seq = .error .ErrWrongObjectType ∧
          o.SetList obj index value id actor seq = .error .ErrWrongObjectType ∧
          o.DeleteList obj index id actor seq = .error .ErrWrongObjectType) ∧
        (t ≠ ObjText →
          o.SpliceText obj index deleteCount text actor seq = .error .ErrWrongObjectType ∧
          o.AddMark obj start stop name scalar id actor seq = .error .ErrWrongObjectType)) := by
  refine ⟨⟨rfl, rfl⟩, ⟨rfl, rfl⟩, ?_, ?_⟩
  · intro o obj key value scalar id actor seq index deleteCount start stop text name h
    simp only [OpSet.PutMap, OpSet.DeleteMap, OpSet.InsertList, OpSet.SetList,
      OpSet.DeleteList, OpSet.SpliceText, OpSet.AddMark, ensureType_unknown o obj _ h,
      and_self]
  · intro o obj t key value scalar id actor seq index deleteCount start stop text name h
    refine ⟨?_, ?_, ?_⟩
    · intro ht
      simp only [OpSet.PutMap, OpSet.DeleteMap,
        ensureType_wrong o obj [ObjMap] t h (by simpa using ht), and_self]
    · intro h1 h2
      simp only [OpSet.InsertList, OpSet.SetList, OpSet.DeleteList,
        ensureType_wrong o obj [ObjList, ObjText] t h (by simp [h1, h2]), and_self]
    · intro ht
      simp only [OpSet.SpliceText, OpSet.AddMark,
        ensureType_wrong o obj [ObjText] t h (by simpa using ht), and_self]

end opset

/-! ## The op set: index validation -/

namespace opset

open model

theorem replay_append (cover : Option changegraph.Clock) (a b : List opRecord) :
    ∀ (S : GoMap ObjID objectState),
      replay cover (a ++ b) S =
        match replay cover a S with
        | .error e => .error e
        | .ok S' => replay cover b S' := by
  induction a with
  | nil => intro S; rfl
  | cons op rest ih =>
    intro S
    rw [List.cons_append, replay_cons, replay_cons]
    by_cases hcov : covered cover op = true
    · simp only [hcov, if_true]
      cases applyRecord S op with
      | error e => rfl
      | ok S1 => exact ih S1
    · simp only [hcov, Bool.false_eq_true, if_false]
      exact ih S

/-- The state that `materialize` finds after one more record. -/
theorem materialize_record (o : OpSet) (rec : opRecord) (cover : Option changegraph.Clock) :
    (o.record rec).materialize cover =
      match o.materialize cover with
      | .error e => .error e
      | .ok S => if covered cover rec = true then applyRecord S rec else .ok S := by
  unfold OpSet.materialize
  rw [record_objects, record_ops, replay_append]
  cases replay cover o.ops (freshState o.objects) with
  | error e => rfl
  | ok S =>
    dsimp only
    rw [replay_cons]
    by_cases hcov : covered cover rec = true
    · simp only [hcov, if_true]
      cases applyRecord S rec <;> rfl
    · simp only [hcov, Bool.false_eq_true, if_false]
      rfl

/-- A record that `applyRecord` ignores leaves every read of a list as it was. -/
theorem listRange_record_ignored (o : OpSet) (rec : opRecord)
    (state : GoMap ObjID objectState) (st : objectState)
    (hmat : o.materialize none = .ok state) (hst : GoMap.get? state rec.obj = some st)
    (hign : applyRecordObj st rec = .ok st) (obj : ObjID) (start stop : Int) :
    (o.record rec).ListRange obj start stop none = o.ListRange obj start stop none ∧
    (o.record rec).Text obj none = o.Text obj none := by
  have hm : (o.record rec).materialize none = .ok (GoMap.set state rec.obj st) := by
    rw [materialize_record, hmat]
    simp only [covered, if_true, applyRecord, hst, hign]
  have hget : ∀ x, GoMap.get? (GoMap.set state rec.obj st) x = GoMap.get? state x := by
    intro x
    by_cases hx : x = rec.obj
    · subst hx
      rw [GoMap.get?_set_self, hst]
    · rw [GoMap.get?_set_ne _ _ _ _ hx]
  have hl : ∀ s e, (o.record rec).ListRange obj s e none = o.ListRange obj s e none := by
    intro s e
    unfold OpSet.ListRange
    rw [hm, hmat]
    simp only [hget]
  refine ⟨hl start stop, ?_⟩
  unfold OpSet.Text
  rw [hl]

/-- C19 (as amended): on an existing list or text object, `InsertList`, `SetList` and
`DeleteList` fail with `ErrInvalidIndex` when the index is negative, and `SpliceText`
on a text object when the index or `deleteCount` is negative; a failed call yields no op
set. An index that is not negative is accepted whatever the length of the sequence: the
call returns nil and appends its op record (a splice appends `deleteCount` delete records
and one insert record per character). A record whose index is out of range (above the
length for an insert, at or above the length for a set or delete) is ignored on replay,
so every read of a list or text is as before the call. -/
theorem list_index_validation (o : OpSet) (obj : ObjID)
    (state : GoMap ObjID objectState) (st : objectState)
    (hmat : o.materialize none = .ok state) (hst : GoMap.get? state obj = some st)
    (htyp : o.ensureType obj [ObjList, ObjText] = .ok ()) :
    (∀ (index : Int) (value : Value) (id : OpID) (actor seq : Nat), index < 0 →
      o.InsertList obj index value id actor seq = .error .ErrInvalidIndex ∧
      o.SetList obj index value id actor seq = .error .ErrInvalidIndex ∧
      o.DeleteList obj index id actor seq = .error .ErrInvalidIndex) ∧
    (∀ (index deleteCount : Int) (text : GoString) (actor seq : Nat),
      o.ensureType obj [ObjText] = .ok () → (index < 0 ∨ deleteCount < 0) →
      o.SpliceText obj index deleteCount text actor seq = .error .ErrInvalidIndex) ∧
    (∀ (index : Int) (value : Value) (id : OpID) (actor seq : Nat), 0 ≤ index →
      ∃ o1 o2 o3, o.InsertList obj index value id actor seq = .ok o1 ∧
        o.SetList obj index value id actor seq = .ok o2 ∧
        o.DeleteList obj index id actor seq = .ok o3 ∧
        o1.ops.length = o.ops.length + 1 ∧ o2.ops.length = o.ops.length + 1 ∧
        o3.ops.length = o.ops.length + 1 ∧
        (index > st.l.length → ∀ (obj' : ObjID) (start stop : Int),
          o1.ListRange obj' start stop none = o.ListRange obj' start stop none ∧
          o1.Text obj' none = o.Text obj' none) ∧
        (index ≥ st.l.length → ∀ (obj' : ObjID) (start stop : Int),
          (o2.ListRange obj' start stop none = o.ListRange obj' start stop none ∧
            o2.Text obj' none = o.Text obj' none) ∧
          (o3.ListRange obj' start stop none = o.ListRange obj' start stop none ∧
            o3.Text obj' none = o.Text obj' none))) ∧
    (∀ (index deleteCount : Int) (text : GoString) (actor seq : Nat), seq < 2 ^ 64 →
      o.ensureType obj [ObjText] = .ok () → 0 ≤ index → 0 ≤ deleteCount →
      ∃ o1 seq1, o.SpliceText obj index deleteCount text actor seq = .ok (o1, seq1) ∧
        o1.ops.length = o.ops.length + (deleteCount.toNat + text.length)) := by
  refine ⟨?_, ?_, ?_, ?_⟩
  · intro index value id actor seq hneg
    simp only [OpSet.InsertList, OpSet.SetList, OpSet.DeleteList, htyp, hneg, if_true,
      and_self]
  · intro index deleteCount text actor seq he hneg
    simp only [OpSet.SpliceText, he, hneg, if_true]
  · intro index value id actor seq hidx
    have hn : ¬ index < 0 := by omega
    obtain ⟨pred, hpred⟩ : ∃ pred, o.visibleListVersionIDs obj index none = .ok pred := by
      unfold OpSet.visibleListVersionIDs
      rw [hmat]
      simp only [hst]
      by_cases hr : index < 0 ∨ index ≥ (st.l.length : Int)
      · exact ⟨[], by simp [hr]⟩
      · have hlt : index.toNat < st.l.length := by omega
        simp only [hr, if_false, List.getElem?_eq_getElem hlt]
        exact ⟨_, rfl⟩
    refine ⟨_, _, _, by simp only [OpSet.InsertList, htyp, hn, if_false]; rfl,
      by simp only [OpSet.SetList, htyp, hn, if_false, hpred]; rfl,
      by simp only [OpSet.DeleteList, htyp, hn, if_false]; rfl, by simp [record_ops],
      by simp [record_ops], by simp [record_ops], ?_, ?_⟩
    · intro hout obj' start stop
      refine listRange_record_ignored o _ state st hmat hst ?_ obj' start stop
      have hgt : index > (st.l.length : Int) := hout
      simp [applyRecordObj, zeroRecord, opListInsert, opMapPut, opMapDelete, hgt]
    · intro hout obj' start stop
      have hge : index ≥ (st.l.length : Int) := hout
      constructor
      · refine listRange_record_ignored o _ state st hmat hst ?_ obj' start stop
        simp [applyRecordObj, zeroRecord, opListSet, opListInsert, opMapPut, opMapDelete, hge]
      · refine listRange_record_ignored o _ state st hmat hst ?_ obj' start stop
        simp [applyRecordObj, zeroRecord, opListDelete, opListSet, opListInsert, opMapPut,
          opMapDelete, hge]
  · intro index deleteCount text actor seq hseq he hi hd
    obtain ⟨recs, hrun, hlen, -⟩ :=
      (SpliceText_spec o obj index deleteCount text actor seq hseq).2.2 he hi hd
    refine ⟨_, _, hrun, ?_⟩
    rw [(foldl_record_objects recs o).2, List.length_append, hlen]

theorem list_index_validation_witness :
    (∀ (index : Int) (value : Value) (id : OpID) (actor seq : Nat), index < 0 →
      listOpSet.InsertList firstObject index value id actor seq = .error .ErrInvalidIndex ∧
      listOpSet.SetList firstObject index value id actor seq = .error .ErrInvalidIndex ∧
      listOpSet.DeleteList firstObject index id actor seq = .error .ErrInvalidIndex) ∧
    (∀ (index deleteCount : Int) (text : GoString) (actor seq : Nat),
      listOpSet.ensureType firstObject [ObjText] = .ok () → (index < 0 ∨ deleteCount < 0) →
      listOpSet.SpliceText firstObject index deleteCount text actor seq =
        .error .ErrInvalidIndex) ∧
    (∀ (index : Int) (value : Value) (id : OpID) (actor seq : Nat), 0 ≤ index →
      ∃ o1 o2 o3, listOpSet.InsertList firstObject index value id actor seq = .ok o1 ∧
        listOpSet.SetList firstObject index value id actor seq = .ok o2 ∧
        listOpSet.DeleteList firstObject index id actor seq = .ok o3 ∧
        o1.ops.length = listOpSet.ops.length + 1 ∧ o2.ops.length = listOpSet.ops.length + 1 ∧
        o3.ops.length = listOpSet.ops.length + 1 ∧
        (index > emptyList.l.length → ∀ (obj' : ObjID) (start stop : Int),
          o1.ListRange obj' start stop none = listOpSet.ListRange obj' start stop none ∧
          o1.Text obj' none = listOpSet.Text obj' none) ∧
        (index ≥ emptyList.l.length → ∀ (obj' : ObjID) (start stop : Int),
          (o2.ListRange obj' start stop none = listOpSet.ListRange obj' start stop none ∧
            o2.Text obj' none = listOpSet.Text obj' none) ∧
          (o3.ListRange obj' start stop none = listOpSet.ListRange obj' start stop none ∧
            o3.Text obj' none = listOpSet.Text obj' none))) ∧
    (∀ (index deleteCount : Int) (text : GoString) (actor seq : Nat), seq < 2 ^ 64 →
      listOpSet.ensureType firstObject [ObjText] = .ok () → 0 ≤ index → 0 ≤ deleteCount →
      ∃ o1 seq1, listOpSet.SpliceText firstObject index deleteCount text actor seq =
          .ok (o1, seq1) ∧
        o1.ops.length = listOpSet.ops.length + (deleteCount.toNat + text.length)) :=
  list_index_validation listOpSet firstObject
    [(RootObjID, { typ := ObjMap, m := some [], l := [], mk := [] }), (firstObject, emptyList)]
    emptyList rfl rfl rfl

/-- C19 (counterexample): the list `1@1` of `listOpSet` and the text `1@1` of
`textOpSet` are empty, yet `InsertList` at index 5, `SetList` at index 0, `DeleteList` at
index 0 and a splice at index 3 that deletes two characters all return nil and append
their records. -/
theorem list_index_out_of_range_accepted :
    listOpSet.ObjectType firstObject = some ObjList ∧
    listOpSet.ListRange firstObject 0 (-1) none = .ok [] ∧
    textOpSet.ObjectType firstObject = some ObjText ∧
    textOpSet.Text firstObject none = .ok "" ∧
    (∃ o', listOpSet.InsertList firstObject 5 (NewScalarValue (StringValue "a"))
        { Counter := 2, Actor := 1 } 1 2 = .ok o' ∧ o'.ops.length = 1) ∧
    (∃ o', listOpSet.SetList firstObject 0 (NewScalarValue (StringValue "a"))
        { Counter := 2, Actor := 1 } 1 2 = .ok o' ∧ o'.ops.length = 1) ∧
    (∃ o', listOpSet.DeleteList firstObject 0 { Counter := 2, Actor := 1 } 1 2 = .ok o' ∧
        o'.ops.length = 1) ∧
    (∃ o' seq, textOpSet.SpliceText firstObject 3 2 "x" 1 1 = .ok (o', seq) ∧
        o'.ops.length = 3) :=
  ⟨rfl, rfl, rfl, rfl, ⟨_, rfl, rfl⟩, ⟨_, rfl, rfl⟩, ⟨_, rfl, rfl⟩, ⟨_, _, rfl, rfl⟩⟩

end opset

/-! ## The op set: tracked versions and counters -/

namespace opset

open model

theorem currentMapEntry_of_current (o o' : OpSet) (h : o'.current = o.current) (obj : ObjID)
    (key : GoString) : o'.currentMapEntry obj key = o.currentMapEntry obj key := by
  unfold OpSet.currentMapEntry
  rw [h]

theorem stepVersions_other (obj : ObjID) (key : GoString) (vs : List VersionedValue)
    (r : opRecord) (h : ¬ (r.obj = obj ∧ r.key = key ∧ (r.kind = opMapPut ∨ r.kind = opMapDelete))) :
    stepVersions none obj key vs r = vs := by
  have hne : ¬ touches none obj key r = true := by
    rw [touches_eq]
    rintro ⟨-, h1, h2, h3⟩
    exact h ⟨h1, h2, h3⟩
  simp [stepVersions, hne]

theorem stepVersions_hit (obj : ObjID) (key : GoString) (vs : List VersionedValue)
    (r : opRecord) (h1 : r.obj = obj) (h2 : r.key = key)
    (h3 : r.kind = opMapPut ∨ r.kind = opMapDelete) :
    stepVersions none obj key vs r =
      if r.kind = opMapPut then removePreds vs r.pred ++ [versionOf r]
      else removePreds vs r.pred := by
  have ht : touches none obj key r = true := by
    rw [touches_eq]
    exact ⟨rfl, h1, h2, h3⟩
  simp [stepVersions, ht]

theorem currentSync_record (o : OpSet) (rec : opRecord) (hs : CurrentSync o)
    (hk : rec.kind = opMapPut ∨ rec.kind = opMapDelete →
      ∃ st', GoMap.get? o.current rec.obj = some st' ∧ st'.m.isSome = true) :
    CurrentSync (o.record rec) := by
  intro obj key
  rw [record_ops, List.foldl_append, List.foldl_cons, List.foldl_nil, ← hs obj key]
  by_cases hkind : rec.kind = opMapPut ∨ rec.kind = opMapDelete
  · obtain ⟨st0, hst0, hm0⟩ := hk hkind
    obtain ⟨mm, hmm⟩ := Option.isSome_iff_exists.1 hm0
    by_cases hobj : rec.obj = obj
    · subst hobj
      by_cases hput : rec.kind = opMapPut
      · have hcur : (o.record rec).current = GoMap.set o.current rec.obj
            { st0 with m := some (GoMap.set mm rec.key
              { versions := removePreds (entryVersions st0.m rec.key) rec.pred ++
                  [versionOf rec] }) } := by
          simp only [OpSet.record, applyRecordToCurrent, hst0, hmm, hput, if_true]
        unfold OpSet.currentMapEntry
        rw [hcur, GoMap.get?_set_self, hst0]
        dsimp only
        rw [entryVersions_set]
        by_cases hkey : rec.key = key
        · rw [if_pos hkey, stepVersions_hit _ _ _ _ rfl hkey hkind, if_pos hput, ← hkey]
        · rw [if_neg hkey, stepVersions_other _ _ _ _ (fun h => hkey h.2.1), hmm]
      · have hdel : rec.kind = opMapDelete := hkind.resolve_left hput
        cases he : GoMap.get? mm rec.key with
        | none =>
          have hcur : (o.record rec).current = o.current := by
            simp only [OpSet.record, applyRecordToCurrent, hst0, hmm, hdel,
              (by decide : ¬ opMapDelete = opMapPut), if_false, if_true, he]
          rw [currentMapEntry_of_current _ _ hcur]
          by_cases hkey : rec.key = key
          · rw [stepVersions_hit _ _ _ _ rfl hkey hkind, if_neg hput]
            unfold OpSet.currentMapEntry
            rw [hst0]
            dsimp only
            rw [hmm, ← hkey]
            simp only [entryVersions, he, removePreds_nil]
          · rw [stepVersions_other _ _ _ _ (fun h => hkey h.2.1)]
        | some e =>
          have hcur : (o.record rec).current = GoMap.set o.current rec.obj
              { st0 with m := some (GoMap.set mm rec.key
                { versions := removePreds e.versions rec.pred }) } := by
            simp only [OpSet.record, applyRecordToCurrent, hst0, hmm, hdel,
              (by decide : ¬ opMapDelete = opMapPut), if_false, if_true, he]
          unfold OpSet.currentMapEntry
          rw [hcur, GoMap.get?_set_self, hst0]
          dsimp only
          rw [entryVersions_set]
          by_cases hkey : rec.key = key
          · rw [if_pos hkey, stepVersions_hit _ _ _ _ rfl hkey hkind, if_neg hput, hmm, ← hkey]
            simp only [entryVersions, he]
          · rw [if_neg hkey, stepVersions_other _ _ _ _ (fun h => hkey h.2.1), hmm]
    · rw [stepVersions_other _ _ _ _ (fun h => hobj h.1)]
      have hne : obj ≠ rec.obj := fun e => hobj e.symm
      unfold OpSet.currentMapEntry
      have : GoMap.get? (o.record rec).current obj = GoMap.get? o.current obj := by
        simp only [OpSet.record, applyRecordToCurrent, hst0, hmm]
        split_ifs
        · exact GoMap.get?_set_ne _ _ _ _ hne
        · split
          · rfl
          · exact GoMap.get?_set_ne _ _ _ _ hne
        · rfl
      rw [this]
  · rw [stepVersions_other _ _ _ _ (fun h => hkind h.2.2)]
    push_neg at hkind
    have hcur : (o.record rec).current = o.current := by
      simp only [OpSet.record, applyRecordToCurrent]
      split
      · rfl
      · split
        · rfl
        · simp only [hkind.1, hkind.2, if_false]
    exact currentMapEntry_of_current _ _ hcur obj key

theorem record_current_isSome (o : OpSet) (rec : opRecord) (id : ObjID) (st : objectState)
    (h : GoMap.get? o.current id = some st) (hm : st.m.isSome = true) :
    ∃ st', GoMap.get? (o.record rec).current id = some st' ∧ st'.m.isSome = true := by
  by_cases hid : id = rec.obj
  · subst hid
    obtain ⟨mm, hmm⟩ := Option.isSome_iff_exists.1 hm
    simp only [OpSet.record, applyRecordToCurrent, h, hmm]
    split_ifs
    · exact ⟨_, GoMap.get?_set_self _ _ _, rfl⟩
    · split
      · exact ⟨st, h, hm⟩
      · exact ⟨_, GoMap.get?_set_self _ _ _, rfl⟩
    · exact ⟨st, h, hm⟩
  · have : GoMap.get? (o.record rec).current id = GoMap.get? o.current id := by
      simp only [OpSet.record, applyRecordToCurrent]
      split
      · rfl
      · split
        · rfl
        · split_ifs
          · exact GoMap.get?_set_ne _ _ _ _ hid
          · split
            · rfl
            · exact GoMap.get?_set_ne _ _ _ _ hid
          · rfl
    exact ⟨st, by rw [this]; exact h, hm⟩

theorem foldl_stepVersions_untouched (obj : ObjID) (key : GoString) :
    ∀ (ops : List opRecord) (vs : List VersionedValue), (∀ r ∈ ops, r.obj ≠ obj) →
      ops.foldl (stepVersions none obj key) vs = vs := by
  intro ops
  induction ops with
  | nil => intro vs _; rfl
  | cons r rest ih =>
    intro vs h
    rw [List.foldl_cons,
      stepVersions_other _ _ _ _ (fun hh => h r (List.mem_cons_self r rest) hh.1)]
    exact ih vs (fun x hx => h x (List.mem_cons_of_mem r hx))

theorem sync_New : Sync New := by
  refine ⟨?_, ?_, ?_⟩
  · intro obj key
    simp only [OpSet.currentMapEntry, New, GoMap.get?, List.foldl_nil]
    split_ifs <;> rfl
  · intro id st h _
    simp only [New, GoMap.get?] at h ⊢
    split_ifs at h ⊢
    injection h with h
    exact ⟨_, rfl, rfl⟩
  · intro r hr
    cases hr

theorem Sync.after_record {o : OpSet} (hs : Sync o) (rec : opRecord) (want : List ObjType)
    (he : o.ensureType rec.obj want = .ok ())
    (hk : rec.kind = opMapPut ∨ rec.kind = opMapDelete → ∀ t ∈ want, t = ObjMap) :
    Sync (o.record rec) := by
  obtain ⟨st, hst, hw⟩ := ensureType_ok o rec.obj want he
  refine ⟨?_, ?_, ?_⟩
  · exact currentSync_record o rec hs.current
      (fun hkind => hs.tracked rec.obj st hst (hk hkind _ hw))
  · intro id st' h ht
    rw [record_objects] at h
    obtain ⟨st'', h1, h2⟩ := hs.tracked id st' h ht
    exact record_current_isSome o rec id st'' h1 h2
  · intro r hr
    rw [record_ops] at hr
    rw [record_objects]
    rcases List.mem_append.1 hr with hr | hr
    · exact hs.anchored r hr
    · rw [List.mem_singleton.1 hr]
      exact ensureType_contains o rec.obj want he

theorem Sync.after_createObject {o : OpSet} (hs : Sync o) (id : ObjID) (typ : ObjType) :
    Sync (o.CreateObject id typ) := by
  unfold OpSet.CreateObject
  cases hg : GoMap.get? o.objects id with
  | some st0 => exact hs
  | none =>
    have hfresh : ∀ r ∈ o.ops, r.obj ≠ id := by
      intro r hr e
      have := hs.anchored r hr
      rw [e] at this
      simp [GoMap.contains, hg] at this
    refine ⟨?_, ?_, ?_⟩
    · intro obj key
      dsimp only
      by_cases hobj : obj = id
      · subst hobj
        rw [foldl_stepVersions_untouched obj key o.ops [] hfresh]
        unfold OpSet.currentMapEntry
        dsimp only
        rw [GoMap.get?_set_self]
        by_cases ht : typ = ObjMap <;> simp [ht, entryVersions, GoMap.get?]
      · rw [← hs.current obj key]
        unfold OpSet.currentMapEntry
        dsimp only
        rw [GoMap.get?_set_ne _ _ _ _ hobj]
    · intro id' st' h ht
      dsimp only at h ⊢
      by_cases hid : id' = id
      · subst hid
        rw [GoMap.get?_set_self] at h
        rw [GoMap.get?_set_self]
        injection h with h
        subst h
        refine ⟨_, rfl, ?_⟩
        by_cases ht' : typ = ObjMap
        · simp [ht']
        · simp [ht'] at ht
      · rw [GoMap.get?_set_ne _ _ _ _ hid] at h ⊢
        exact hs.tracked id' st' h ht
    · intro r hr
      dsimp only at hr ⊢
      have := hs.anchored r hr
      rw [GoMap.contains] at this ⊢
      rw [GoMap.get?_set_ne _ _ _ _ (hfresh r hr)]
      exact this

theorem PutMapRaw_ok (o o' : OpSet) (obj : ObjID) (key : GoString) (value : Value) (id : OpID)
    (actor seq : Nat) (pred : List OpID)
    (h : o.PutMapRaw obj key value id actor seq pred = .ok o') :
    o.ensureType obj [ObjMap] = .ok () ∧
    o' = o.record { zeroRecord with
      kind := opMapPut, obj := obj, key := key, value := value, id := id, actor := actor,
      seq := seq, pred := pred } := by
  unfold OpSet.PutMapRaw at h
  cases he : o.ensureType obj [ObjMap] with
  | error e => simp [he] at h
  | ok u =>
    simp only [he] at h
    injection h with h
    exact ⟨rfl, h.symm⟩

theorem SetListRaw_ok (o o' : OpSet) (obj : ObjID) (index : Int) (value : Value) (id : OpID)
    (actor seq : Nat) (pred : List OpID)
    (h : o.SetListRaw obj index value id actor seq pred = .ok o') :
    o.ensureType obj [ObjList, ObjText] = .ok () ∧
    o' = o.record { zeroRecord with
      kind := opListSet, obj := obj, index := index, value := value, id := id,
      actor := actor, seq := seq, pred := pred } := by
  unfold OpSet.SetListRaw at h
  cases he : o.ensureType obj [ObjList, ObjText] with
  | error e => simp [he] at h
  | ok u =>
    simp only [he] at h
    by_cases hi : index < 0
    · simp [hi] at h
    · simp only [hi, if_false] at h
      injection h with h
      exact ⟨rfl, h.symm⟩

theorem SetList_ok (o o' : OpSet) (obj : ObjID) (index : Int) (value : Value) (id : OpID)
    (actor seq : Nat) (h : o.SetList obj index value id actor seq = .ok o') :
    o.ensureType obj [ObjList, ObjText] = .ok () ∧
    ∃ pred, o' = o.record { zeroRecord with
      kind := opListSet, obj := obj, index := index, value := value, id := id,
      actor := actor, seq := seq, pred := pred } := by
  unfold OpSet.SetList at h
  cases he : o.ensureType obj [ObjList, ObjText] with
  | error e => simp [he] at h
  | ok u =>
    simp only [he] at h
    by_cases hi : index < 0
    · simp [hi] at h
    · simp only [hi, if_false] at h
      cases hv : o.visibleListVersionIDs obj index none with
      | error e => simp [hv] at h
      | ok pred =>
        simp only [hv] at h
        injection h with h
        exact ⟨rfl, pred, h.symm⟩

theorem Sync.after_spliceDeletes (obj : ObjID) (index : Int) (actor : Nat) :
    ∀ (n : Nat) (o : OpSet) (seq : Nat) (o' : OpSet) (seq' : Nat), Sync o →
      OpSet.spliceDeletes obj index actor n o seq = .ok (o', seq') → Sync o' := by
  intro n
  induction n with
  | zero =>
    intro o seq o' seq' hs h
    simp only [OpSet.spliceDeletes] at h
    injection h with h
    injection h with h1 h2
    subst h1
    exact hs
  | succ n ih =>
    intro o seq o' seq' hs h
    unfold OpSet.spliceDeletes at h
    dsimp only at h
    split at h
    · cases h
    · rename_i o1 hd
      obtain ⟨he, -, ho1⟩ := DeleteList_ok _ _ _ _ _ _ _ hd
      refine ih o1 _ o' seq' ?_ h
      rw [ho1]
      exact hs.after_record _ _ he (fun hk => by
        rcases hk with hk | hk <;> simp [zeroRecord, opListDelete, opMapPut, opMapDelete] at hk)

theorem Sync.after_spliceInserts (obj : ObjID) (actor : Nat) :
    ∀ (rs : List Char) (o : OpSet) (index : Int) (seq : Nat) (o' : OpSet) (seq' : Nat),
      Sync o → OpSet.spliceInserts obj actor rs o index seq = .ok (o', seq') → Sync o' := by
  intro rs
  induction rs with
  | nil =>
    intro o index seq o' seq' hs h
    simp only [OpSet.spliceInserts] at h
    injection h with h
    injection h with h1 h2
    subst h1
    exact hs
  | cons r rest ih =>
    intro o index seq o' seq' hs h
    unfold OpSet.spliceInserts at h
    dsimp only at h
    split at h
    · cases h
    · rename_i o1 hd
      obtain ⟨he, -, ho1⟩ := InsertList_ok _ _ _ _ _ _ _ _ hd
      refine ih o1 (index + 1) _ o' seq' ?_ h
      rw [ho1]
      exact hs.after_record _ _ he (fun hk => by
        rcases hk with hk | hk <;> simp [zeroRecord, opListInsert, opMapPut, opMapDelete] at hk)

/-- Every op set reachable from `New` keeps its tracked versions in step with the log. -/
theorem Reachable.sync {o : OpSet} (hr : Reachable o) : Sync o := by
  induction hr with
  | new => exact sync_New
  | createObject o id typ _ ih => exact ih.after_createObject id typ
  | putMap o o' obj key value id actor seq _ h ih =>
    obtain ⟨he, ho⟩ := PutMap_ok _ _ _ _ _ _ _ _ h
    rw [ho]
    exact ih.after_record _ _ he (fun _ t ht => by simpa using ht)
  | putMapRaw o o' obj key value id actor seq pred _ h ih =>
    obtain ⟨he, ho⟩ := PutMapRaw_ok _ _ _ _ _ _ _ _ _ h
    rw [ho]
    exact ih.after_record _ _ he (fun _ t ht => by simpa using ht)
  | deleteMap o o' obj key id actor seq _ h ih =>
    obtain ⟨he, ho⟩ := DeleteMap_ok _ _ _ _ _ _ _ h
    rw [ho]
    exact ih.after_record _ _ he (fun _ t ht => by simpa using ht)
  | insertList o o' obj index value id actor seq _ h ih =>
    obtain ⟨he, -, ho⟩ := InsertList_ok _ _ _ _ _ _ _ _ h
    rw [ho]
    exact ih.after_record _ _ he (fun hk => by
      rcases hk with hk | hk <;> simp [zeroRecord, opListInsert, opMapPut, opMapDelete] at hk)
  | setList o o' obj index value id actor seq _ h ih =>
    obtain ⟨he, pred, ho⟩ := SetList_ok _ _ _ _ _ _ _ _ h
    rw [ho]
    exact ih.after_record _ _ he (fun hk => by
      rcases hk with hk | hk <;> simp [zeroRecord, opListSet, opMapPut, opMapDelete] at hk)
  | setListRaw o o' obj index value id actor seq pred _ h ih =>
    obtain ⟨he, ho⟩ := SetListRaw_ok _ _ _ _ _ _ _ _ _ h
    rw [ho]
    exact ih.after_record _ _ he (fun hk => by
      rcases hk with hk | hk <;> simp [zeroRecord, opListSet, opMapPut, opMapDelete] at hk)
  | deleteList o o' obj index id actor seq _ h ih =>
    obtain ⟨he, -, ho⟩ := DeleteList_ok _ _ _ _ _ _ _ h
    rw [ho]
    exact ih.after_record _ _ he (fun hk => by
      rcases hk with hk | hk <;> simp [zeroRecord, opListDelete, opMapPut, opMapDelete] at hk)
  | incrementMapCounter o o' obj key by_ id actor seq _ h ih =>
    obtain ⟨current, -, -, -, hput⟩ := IncrementMapCounter_ok _ _ _ _ _ _ _ _ h
    obtain ⟨he, ho⟩ := PutMap_ok _ _ _ _ _ _ _ _ hput
    rw [ho]
    exact ih.after_record _ _ he (fun _ t ht => by simpa using ht)
  | spliceText o o' obj index deleteCount insert actor startSeq seq _ h ih =>
    unfold OpSet.SpliceText at h
    cases he : o.ensureType obj [ObjText] with
    | error e => simp [he] at h
    | ok u =>
      simp only [he] at h
      split_ifs at h
      cases hd : OpSet.spliceDeletes obj index actor deleteCount.toNat o startSeq with
      | error e => simp [hd] at h
      | ok p =>
        obtain ⟨o1, seq1⟩ := p
        simp only [hd] at h
        exact Sync.after_spliceInserts obj actor _ o1 index seq1 o' seq
          (Sync.after_spliceDeletes obj index actor _ o startSeq o1 seq1 ih hd) h
  | addMark o o' obj start stop name value id actor seq _ h ih =>
    obtain ⟨he, -, -, ho⟩ := AddMark_ok _ _ _ _ _ _ _ _ _ _ h
    rw [ho]
    exact ih.after_record _ _ he (fun hk => by
      rcases hk with hk | hk <;> simp [zeroRecord, opMark, opMapPut, opMapDelete] at hk)

theorem removePreds_all (vs : List VersionedValue) :
    removePreds vs ((sortedVersions vs).map VersionedValue.OpID) = [] := by
  rw [removePreds_eq_filter, List.filter_eq_nil_iff]
  intro v hv
  have : v.OpID ∈ (sortedVersions vs).map VersionedValue.OpID :=
    List.mem_map.2 ⟨v, (sortedVersions_perm vs).mem_iff.2 hv, rfl⟩
  simp [this]

/-- After a successful `PutMap` the key reads as the value that was put. -/
theorem PutMap_getMap (o o' : OpSet) (hr : Reachable o) (obj : ObjID) (key : GoString)
    (value : Value) (id : OpID) (actor seq : Nat)
    (h : o.PutMap obj key value id actor seq = .ok o') :
    o'.GetMap obj key none = .ok (some value) := by
  have hr' : Reachable o' := Reachable.putMap o o' obj key value id actor seq hr h
  obtain ⟨he, ho⟩ := PutMap_ok _ _ _ _ _ _ _ _ h
  obtain ⟨st, hst, htyp⟩ := ensureType_ok o obj _ he
  have hm : o'.ObjectType obj = some ObjMap := by
    unfold OpSet.ObjectType
    rw [ho, record_objects, hst]
    simp only [List.mem_singleton] at htyp
    simp [htyp]
  obtain ⟨state, st', hmat, hst', hver⟩ := materialize_entry hr'.typed obj hm none
  have hfold : survivors none obj key o'.ops = o'.currentMapEntry obj key := by
    rw [hr'.sync.current obj key, foldl_stepVersions]
    simp
  obtain ⟨rec, hrec⟩ : ∃ rec : opRecord, rec = { zeroRecord with
        kind := opMapPut, obj := obj, key := key, value := value, id := id, actor := actor,
        seq := seq,
        pred := (sortedVersions (o.currentMapEntry obj key)).map VersionedValue.OpID } :=
    ⟨_, rfl⟩
  rw [← hrec] at ho
  have hk : rec.kind = opMapPut := by rw [hrec]
  have hobj : rec.obj = obj := by rw [hrec]
  have hkey : rec.key = key := by rw [hrec]
  have hpred : rec.pred =
      (sortedVersions (o.currentMapEntry obj key)).map VersionedValue.OpID := by rw [hrec]
  have hval : (versionOf rec).Value = value := by rw [hrec]; rfl
  have hcur : o'.currentMapEntry obj key = [versionOf rec] := by
    rw [hr'.sync.current obj key, ho, record_ops, List.foldl_append, List.foldl_cons,
      List.foldl_nil, ← hr.sync.current obj key,
      stepVersions_hit _ _ _ _ hobj hkey (Or.inl hk), if_pos hk, hpred, removePreds_all]
    rfl
  unfold OpSet.GetMap
  rw [hmat]
  dsimp only
  rw [hst']
  dsimp only
  rw [hver key, hfold, hcur]
  simp only [sortedVersions, List.insertionSort, List.orderedInsert, List.getLast?_singleton,
    Option.map_some', hval]

theorem wrapInt64_add (x y : Int) : wrapInt64 (wrapInt64 x + y) = wrapInt64 (x + y) := by
  unfold wrapInt64
  omega

theorem wrapInt64_id (x : Int) (h1 : -(2 : Int) ^ 63 ≤ x) (h2 : x < (2 : Int) ^ 63) :
    wrapInt64 x = x := by
  unfold wrapInt64
  omega

theorem incrementAll_spec (obj : ObjID) (key : GoString) :
    ∀ (incs : List (int64 × OpID × Nat × Nat)) (o : OpSet) (c : Int), Reachable o →
      o.ObjectType obj = some ObjMap →
      o.GetMap obj key none = .ok (some (NewScalarValue (CounterValue c))) →
      incs ≠ [] →
      ∃ o', incrementAll obj key incs o = .ok o' ∧ Reachable o' ∧
        o'.ops.length = o.ops.length + incs.length ∧
        o'.GetMap obj key none =
          .ok (some (NewScalarValue (CounterValue (wrapInt64 (c + (incs.map Prod.fst).sum))))) := by
  intro incs
  induction incs with
  | nil => intro o c _ _ _ hne; exact absurd rfl hne
  | cons inc rest ih =>
    intro o c hr hmap hget _
    obtain ⟨by_, id, actor, seq⟩ := inc
    have he : o.ensureType obj [ObjMap] = .ok () := by
      unfold OpSet.ObjectType at hmap
      unfold OpSet.ensureType
      cases hg : GoMap.get? o.objects obj with
      | none => rw [hg] at hmap; cases hmap
      | some st =>
        rw [hg] at hmap
        simp only [Option.map_some', Option.some.injEq] at hmap
        simp [hmap]
    obtain ⟨o1, hput⟩ : ∃ o1, o.PutMap obj key
        (NewScalarValue (CounterValue (wrapInt64 (c + by_)))) id actor seq = .ok o1 := by
      unfold OpSet.PutMap
      simp only [he, OpSet.visibleMapVersionIDs]
      exact ⟨_, rfl⟩
    have hinc : o.IncrementMapCounter obj key by_ id actor seq = .ok o1 := by
      unfold OpSet.IncrementMapCounter
      rw [hget]
      simp only [NewScalarValue, CounterValue, ne_eq, not_true_eq_false, or_self, if_false]
      exact hput
    have hr1 : Reachable o1 := Reachable.putMap o o1 obj key _ id actor seq hr hput
    have hget1 := PutMap_getMap o o1 hr obj key _ id actor seq hput
    have hobj1 : o1.ObjectType obj = some ObjMap := by
      rw [← hmap]
      unfold OpSet.ObjectType
      rw [(PutMap_ok _ _ _ _ _ _ _ _ hput).2, record_objects]
    have hlen1 : o1.ops.length = o.ops.length + 1 := by
      rw [(PutMap_ok _ _ _ _ _ _ _ _ hput).2, record_ops]
      simp
    by_cases hrest : rest = []
    · subst hrest
      refine ⟨o1, ?_, hr1, by simp [hlen1], ?_⟩
      · simp only [incrementAll, hinc]
      · rw [hget1]
        simp
    · obtain ⟨o', hrun, hr', hlen, hget'⟩ := ih o1 _ hr1 hobj1 hget1 hrest
      refine ⟨o', ?_, hr', ?_, ?_⟩
      · simp only [incrementAll, hinc]
        exact hrun
      · rw [hlen, hlen1]
        simp only [List.length_cons]
        omega
      · rw [hget', wrapInt64_add]
        simp only [List.map_cons, List.sum_cons]
        rw [Int.add_assoc]

/-- C20: for a counter with value `c` stored at a key of a map object of a reachable op
set and every list of increments with amounts `k_1..k_n`, whatever their op ids, actors
and sequence numbers and in whatever order they are applied, every `IncrementMapCounter`
call succeeds and `GetMap` then reads `counter(c + k_1 + ... + k_n)`, the sum being the
`int64` sum (the number itself when it is in the `int64` range). Every application of an
`Increment` operation, by a local commit or from a remote change, is such a call.
`IncrementMapCounter` fails when the key is absent or its value is not a counter. -/
theorem counter_additivity (o : OpSet) (hr : Reachable o) (obj : ObjID) (key : GoString)
    (c : Int) (hc : -(2 : Int) ^ 63 ≤ c ∧ c < (2 : Int) ^ 63)
    (hmap : o.ObjectType obj = some ObjMap)
    (hget : o.GetMap obj key none = .ok (some (NewScalarValue (CounterValue c))))
    (incs : List (int64 × OpID × Nat × Nat)) :
    (∀ incs' : List (int64 × OpID × Nat × Nat), incs'.Perm incs →
      ∃ o', incrementAll obj key incs' o = .ok o' ∧
        o'.GetMap obj key none = .ok (some (NewScalarValue
          (CounterValue (wrapInt64 (c + (incs.map Prod.fst).sum)))))) ∧
    (-(2 : Int) ^ 63 ≤ c + (incs.map Prod.fst).sum → c + (incs.map Prod.fst).sum < (2 : Int) ^ 63 →
      wrapInt64 (c + (incs.map Prod.fst).sum) = c + (incs.map Prod.fst).sum) ∧
    (∀ (ops : OpSet) (by_ : int64) (opid : OpID) (actor seq : Nat),
      automerge.txMutation.apply (.incrementMutation obj key by_) ops opid actor seq =
        match ops.IncrementMapCounter obj key by_ opid actor seq with
        | .ok o1 => (o1, none)
        | .error e => (ops, some e)) ∧
    (∀ (ops : OpSet) (actor : Nat) (op : automerge.ChangeOperation),
      op.Kind = automerge.OpIncrement →
      automerge.applyChangeOperation ops actor op =
        match ops.IncrementMapCounter op.ObjID op.Key op.By op.OpID actor op.OpID.Counter with
        | .ok o1 => (o1, none)
        | .error e => (ops, some e)) ∧
    (∀ (o2 : OpSet) (by_ : int64) (id : OpID) (actor seq : Nat),
      (o2.GetMap obj key none = .ok none ∨
        ∃ v, o2.GetMap obj key none = .ok (some v) ∧
          (v.Kind ≠ ValueScalar ∨ v.Scalar.Kind ≠ ScalarCounter)) →
      o2.IncrementMapCounter obj key by_ id actor seq = .error .ErrCounterNotFound) := by
  refine ⟨?_, fun h1 h2 => wrapInt64_id _ h1 h2, ?_, ?_, ?_⟩
  · intro incs' hperm
    have hsum : (incs'.map Prod.fst).sum = (incs.map Prod.fst).sum :=
      (hperm.map Prod.fst).sum_eq
    rw [← hsum]
    by_cases hnil : incs' = []
    · subst hnil
      refine ⟨o, rfl, ?_⟩
      rw [hget]
      simp only [List.map_nil, List.sum_nil, Int.add_zero]
      rw [wrapInt64_id c hc.1 hc.2]
    · obtain ⟨o', hrun, -, -, hg⟩ := incrementAll_spec obj key incs' o c hr hmap hget hnil
      exact ⟨o', hrun, hg⟩
  · intro ops by_ opid actor seq
    simp only [automerge.txMutation.apply]
  · intro ops actor op hk
    unfold automerge.applyChangeOperation
    simp only [hk, automerge.OpIncrement, automerge.OpPut, automerge.OpPutObject,
      automerge.OpInsert, automerge.OpInsertObject, automerge.OpDeleteMap,
      automerge.OpDeleteList]
    simp only [Nat.reduceEqDiff, OfNat.ofNat_ne_zero, if_false, if_true]
  · intro o2 by_ id actor seq h
    unfold OpSet.IncrementMapCounter
    rcases h with h | ⟨v, h, hv⟩
    · rw [h]
    · rw [h]
      simp only [ne_eq] at hv ⊢
      rw [if_pos hv]

theorem counterOpSet_reachable : Reachable counterOpSet :=
  Reachable.putMap New counterOpSet RootObjID "n" (NewScalarValue (CounterValue 5))
    { Counter := 1, Actor := 1 } 1 1 Reachable.new rfl

theorem counter_additivity_witness :
    (∀ incs' : List (int64 × OpID × Nat × Nat),
      incs'.Perm [(2, { Counter := 2, Actor := 1 }, 1, 2), (-4, { Counter := 2, Actor := 2 }, 2, 2)] →
      ∃ o', incrementAll RootObjID "n" incs' counterOpSet = .ok o' ∧
        o'.GetMap RootObjID "n" none = .ok (some (NewScalarValue
          (CounterValue (wrapInt64 (5 + (([(2, { Counter := 2, Actor := 1 }, 1, 2),
            (-4, { Counter := 2, Actor := 2 }, 2, 2)] :
              List (int64 × OpID × Nat × Nat)).map Prod.fst).sum)))))) ∧
    (-(2 : Int) ^ 63 ≤ 5 + (([(2, { Counter := 2, Actor := 1 }, 1, 2),
        (-4, { Counter := 2, Actor := 2 }, 2, 2)] :
          List (int64 × OpID × Nat × Nat)).map Prod.fst).sum →
      5 + (([(2, { Counter := 2, Actor := 1 }, 1, 2),
        (-4, { Counter := 2, Actor := 2 }, 2, 2)] :
          List (int64 × OpID × Nat × Nat)).map Prod.fst).sum < (2 : Int) ^ 63 →
      wrapInt64 (5 + (([(2, { Counter := 2, Actor := 1 }, 1, 2),
        (-4, { Counter := 2, Actor := 2 }, 2, 2)] :
          List (int64 × OpID × Nat × Nat)).map Prod.fst).sum) =
        5 + (([(2, { Counter := 2, Actor := 1 }, 1, 2),
          (-4, { Counter := 2, Actor := 2 }, 2, 2)] :
            List (int64 × OpID × Nat × Nat)).map Prod.fst).sum) ∧
    (∀ (ops : OpSet) (by_ : int64) (opid : OpID) (actor seq : Nat),
      automerge.txMutation.apply (.incrementMutation RootObjID "n" by_) ops opid actor seq =
        match ops.IncrementMapCounter RootObjID "n" by_ opid actor seq with
        | .ok o1 => (o1, none)
        | .error e => (ops, some e)) ∧
    (∀ (ops : OpSet) (actor : Nat) (op : automerge.ChangeOperation),
      op.Kind = automerge.OpIncrement →
      automerge.applyChangeOperation ops actor op =
        match ops.IncrementMapCounter op.ObjID op.Key op.By op.OpID actor op.OpID.Counter with
        | .ok o1 => (o1, none)
        | .error e => (ops, some e)) ∧
    (∀ (o2 : OpSet) (by_ : int64) (id : OpID) (actor seq : Nat),
      (o2.GetMap RootObjID "n" none = .ok none ∨
        ∃ v, o2.GetMap RootObjID "n" none = .ok (some v) ∧
          (v.Kind ≠ ValueScalar ∨ v.Scalar.Kind ≠ ScalarCounter)) →
      o2.IncrementMapCounter RootObjID "n" by_ id actor seq = .error .ErrCounterNotFound) :=
  counter_additivity counterOpSet counterOpSet_reachable RootObjID "n" 5 (by decide) rfl rfl
    [(2, { Counter := 2, Actor := 1 }, 1, 2), (-4, { Counter := 2, Actor := 2 }, 2, 2)]

end opset

/-! ## The change graph: extension by later changes -/

namespace changegraph

open model Graph

theorem graphLE_refl (g : Graph) : GraphLE g g :=
  ⟨⟨[], by simp⟩, fun _ h => ⟨h, rfl⟩, le_refl _⟩

theorem graphLE_trans {a b c : Graph} (h1 : GraphLE a b) (h2 : GraphLE b c) : GraphLE a c := by
  obtain ⟨m1, hm1⟩ := h1.nodes
  obtain ⟨m2, hm2⟩ := h2.nodes
  refine ⟨⟨m1 ++ m2, by rw [hm2, hm1, List.append_assoc]⟩, ?_, le_trans h1.maxOp h2.maxOp⟩
  intro h hh
  obtain ⟨hb, hd⟩ := h1.deps h hh
  obtain ⟨hc, hd'⟩ := h2.deps h hb
  exact ⟨hc, hd'.trans hd⟩

theorem graphLE_addChange (g g' : Graph) (m : ChangeMeta) (wf : WellFormed g)
    (hadd : g.AddChange m = .ok g') : GraphLE g g' := by
  obtain ⟨hnew, -, depIdx, -, rfl⟩ := AddChange_ok g g' m hadd
  refine ⟨⟨_, rfl⟩, ?_, ?_⟩
  · intro h hh
    have hne : h ≠ m.Hash := by
      intro e
      rw [e, hnew] at hh
      cases hh
    obtain ⟨i, hi⟩ := (hasChange_iff g h).1 hh
    have hget : GoMap.get? (GoMap.set g.byHash m.Hash g.nodes.length) h = some i := by
      rw [GoMap.get?_set_ne _ _ _ _ hne]
      exact hi
    refine ⟨(hasChange_iff _ h).2 ⟨i, hget⟩, ?_⟩
    obtain ⟨n, hn, -⟩ := (wf.byHash_iff h i).1 hi
    have hilt : i < g.nodes.length := (List.getElem?_eq_some.1 hn).1
    unfold DepsForHash
    dsimp only
    rw [hget, hi]
    dsimp only
    rw [List.getElem?_append_left hilt]
  · dsimp only
    split_ifs <;> omega

/-- In an extension, what is reachable from a change of the smaller graph is what was
reachable in the smaller graph. -/
theorem GraphLE.reaches_iff {g g' : Graph} (hle : GraphLE g g') (wf : WellFormed g)
    (a b : ChangeHash) (ha : g.HasChange a = true) :
    g'.Reaches a b ↔ g.Reaches a b := by
  have hstep : ∀ x y, g.HasChange x = true → (g'.DepStep x y ↔ g.DepStep x y) := by
    intro x y hx
    unfold DepStep
    rw [(hle.deps x hx).2]
  have hknown : ∀ x y, g.HasChange x = true → g.DepStep x y → g.HasChange y = true := by
    intro x y _ hxy
    obtain ⟨deps, hdeps, hy⟩ := hxy
    rw [wf.depsForHash] at hdeps
    obtain ⟨n, hn, -, hd⟩ := hdeps
    exact wf.depHash_known n hn _ (hd ▸ hy)
  constructor
  · intro hr
    have : g.Reaches a b ∧ g.HasChange b = true := by
      induction hr with
      | refl => exact ⟨Relation.ReflTransGen.refl, ha⟩
      | tail _ hxy ih =>
        obtain ⟨ih1, ih2⟩ := ih
        have hxy' := (hstep _ _ ih2).1 hxy
        exact ⟨ih1.tail hxy', hknown _ _ ih2 hxy'⟩
    exact this.1
  · intro hr
    have : g'.Reaches a b ∧ g.HasChange b = true := by
      induction hr with
      | refl => exact ⟨Relation.ReflTransGen.refl, ha⟩
      | tail _ hxy ih =>
        obtain ⟨ih1, ih2⟩ := ih
        exact ⟨ih1.tail ((hstep _ _ ih2).2 hxy), hknown _ _ ih2 hxy⟩
    exact this.1

theorem reaches_known {g : Graph} (wf : WellFormed g) (a b : ChangeHash)
    (ha : g.HasChange a = true) (hr : g.Reaches a b) : g.HasChange b = true := by
  induction hr with
  | refl => exact ha
  | tail _ hxy _ =>
    obtain ⟨deps, hdeps, hy⟩ := hxy
    rw [wf.depsForHash] at hdeps
    obtain ⟨n, hn, -, hd⟩ := hdeps
    exact wf.depHash_known n hn _ (hd ▸ hy)

theorem le_foldl_max (ns : List node) :
    ∀ (init : Nat), init ≤ ns.foldl (fun m n => if n.maxOp > m then n.maxOp else m) init ∧
      ∀ n ∈ ns, n.maxOp ≤ ns.foldl (fun m n => if n.maxOp > m then n.maxOp else m) init := by
  induction ns with
  | nil => intro init; exact ⟨le_refl _, by simp⟩
  | cons n rest ih =>
    intro init
    rw [List.foldl_cons]
    obtain ⟨h1, h2⟩ := ih (if n.maxOp > init then n.maxOp else init)
    have ha : init ≤ (if n.maxOp > init then n.maxOp else init) := by split_ifs <;> omega
    have hb : n.maxOp ≤ (if n.maxOp > init then n.maxOp else init) := by split_ifs <;> omega
    refine ⟨le_trans ha h1, ?_⟩
    intro x hx
    rcases List.mem_cons.1 hx with hx | hx
    · subst hx
      exact le_trans hb h1
    · exact h2 x hx

theorem Counted.maxOp_le {g : Graph} (hc : Counted g) (n : node) (hn : n ∈ g.nodes) :
    n.maxOp ≤ g.maxOp := by
  rw [hc.maxOp_eq]
  exact (le_foldl_max g.nodes 0).2 n hn

/-- The clock of the heads of `g`, computed in an extension `g'`: it covers `(a, s)`
when `g` holds a change of `a` with `MaxOp ≥ s`, and it covers nothing above the `maxOp`
of `g`. -/
theorem clockForHeads_extension (g g' : Graph) (hb : Built g) (hb' : Built g')
    (hle : GraphLE g g') (hne : g.Heads ≠ []) :
    ∃ clk, g'.ClockForHeads g.Heads = .ok clk ∧
      (∀ n ∈ g.nodes, ∀ s, s ≤ n.maxOp → clk.Covers n.actor s = true) ∧
      (∀ a s, g.maxOp < s → clk.Covers a s = false) := by
  have wf := hb.wellFormed
  have wf' := hb'.wellFormed
  have hc := hb.counted
  have hheads : ∀ h ∈ g.Heads, g.HasChange h = true := by
    intro h hh
    rw [Heads, mem_SortChangeHashes] at hh
    exact ((wf.heads_iff h).1 hh).1
  have hk : ∀ h ∈ g.Heads, g'.HasChange h = true := fun h hh => (hle.deps h (hheads h hh)).1
  obtain ⟨out, hout, hmem⟩ := getHashesFromHeads_mem g' hb' g.Heads hk
  have hknown : ∀ h ∈ out, g'.HasChange h = true := by
    intro h hh
    rcases (hmem h).1 hh with ⟨hnil, -⟩ | ⟨hd, hhd, hr⟩
    · exact absurd hnil hne
    · exact reaches_known wf' hd h (hk hd hhd) hr
  obtain ⟨clk, hrun, hspec⟩ := clockLoop_spec g' wf' out NewClock hknown
  obtain ⟨more, hmore⟩ := hle.nodes
  refine ⟨clk, by simp only [ClockForHeads, hout]; exact hrun, ?_, ?_⟩
  · intro n hn s hs
    obtain ⟨i, hi⟩ := List.mem_iff_getElem?.1 hn
    have hilt : i < g.nodes.length := (List.getElem?_eq_some.1 hi).1
    obtain ⟨hd, hhd, hr⟩ := wf.heads_reach (g.nodes.length - i) i hilt (le_refl _)
    have hh : g.hashAt i = n.hash := by simp [hashAt, hi]
    rw [hh] at hr
    have hhd' : hd ∈ g.Heads := (mem_SortChangeHashes _ _).2 hhd
    have hr' : g'.Reaches hd n.hash :=
      (hle.reaches_iff wf hd n.hash (hheads hd hhd')).2 hr
    have hin : n.hash ∈ out := (hmem n.hash).2 (Or.inr ⟨hd, hhd', hr'⟩)
    have hn' : n ∈ g'.nodes := by rw [hmore]; exact List.mem_append_left _ hn
    have := (hspec n.actor).2.1 n hn' rfl hin
    simp only [Clock.Covers, decide_eq_true_eq]
    omega
  · intro a s hs
    have hle' : clk.MaxSeq a ≤ g.maxOp := by
      rcases (hspec a).2.2 with h0 | ⟨n, hn', -, hin, hv⟩
      · rw [h0]
        exact Nat.zero_le _
      · rcases (hmem n.hash).1 hin with ⟨hnil, -⟩ | ⟨hd, hhd, hr⟩
        · exact absurd hnil hne
        · have hrg : g.Reaches hd n.hash := (hle.reaches_iff wf hd n.hash (hheads hd hhd)).1 hr
          have hkn : g.HasChange n.hash = true := reaches_known wf hd n.hash (hheads hd hhd) hrg
          obtain ⟨i, hi⟩ := (hasChange_iff g n.hash).1 hkn
          obtain ⟨n0, hn0, hh0⟩ := (wf.byHash_iff n.hash i).1 hi
          have hn0g : n0 ∈ g.nodes := List.mem_iff_getElem?.2 ⟨i, hn0⟩
          have hn0g' : n0 ∈ g'.nodes := by rw [hmore]; exact List.mem_append_left _ hn0g
          have : n0 = n := wf'.node_of_hash n0 n hn0g' hn' hh0
          subst this
          rw [← hv]
          exact hc.maxOp_le n0 hn0g
    simp only [Clock.Covers, decide_eq_false_iff_not, ge_iff_le, not_le]
    omega

end changegraph

/-! ## The op set: replay under the clock of an earlier state -/

namespace opset

open model

/-- Under a clock that covers every record of `old` and no record of `later`, the
replay of `old ++ later` is the replay of `old` without a clock. -/
theorem replay_prefix (clk : changegraph.Clock) (later : List opRecord)
    (hl : ∀ r ∈ later, clk.Covers r.actor r.seq = false) :
    ∀ (old : List opRecord) (S : GoMap ObjID objectState),
      (∀ r ∈ old, clk.Covers r.actor r.seq = true) →
      replay (some clk) (old ++ later) S = replay none old S := by
  have hlater : ∀ (l : List opRecord) (S : GoMap ObjID objectState),
      (∀ r ∈ l, clk.Covers r.actor r.seq = false) → replay (some clk) l S = .ok S := by
    intro l
    induction l with
    | nil => intro S _; rfl
    | cons r rest ih =>
      intro S h
      rw [replay_cons]
      have hc : covered (some clk) r = false := h r (List.mem_cons_self r rest)
      simp only [hc, Bool.false_eq_true, if_false]
      exact ih S (fun x hx => h x (List.mem_cons_of_mem r hx))
  intro old
  induction old with
  | nil =>
    intro S _
    exact hlater later S hl
  | cons r rest ih =>
    intro S h
    rw [List.cons_append, replay_cons, replay_cons]
    have hc : covered (some clk) r = true := h r (List.mem_cons_self r rest)
    have hn : covered none r = true := rfl
    simp only [hc, hn, if_true]
    cases applyRecord S r with
    | error e => rfl
    | ok S1 => exact ih S1 (fun x hx => h x (List.mem_cons_of_mem r hx))

/-- Replay on two states that agree on the objects that the records are on: the
results agree on these objects, the other objects are left alone, and a panic on one
side is the same panic on the other. -/
theorem replay_agree (K : ObjID → Prop) :
    ∀ (ops : List opRecord) (S S' : GoMap ObjID objectState),
      (∀ r ∈ ops, K r.obj) → (∀ id, K id → GoMap.get? S id = GoMap.get? S' id) →
      (∀ e, replay none ops S = .error e → replay none ops S' = .error e) ∧
      (∀ T, replay none ops S = .ok T →
        ∃ T', replay none ops S' = .ok T' ∧
          (∀ id, K id → GoMap.get? T id = GoMap.get? T' id) ∧
          (∀ id, ¬ K id → GoMap.get? T id = GoMap.get? S id) ∧
          (∀ id, ¬ K id → GoMap.get? T' id = GoMap.get? S' id)) := by
  intro ops
  induction ops with
  | nil =>
    intro S S' _ hag
    refine ⟨fun e h => (by cases h), ?_⟩
    intro T hT
    injection hT with hT
    subst hT
    exact ⟨S', rfl, hag, fun _ _ => rfl, fun _ _ => rfl⟩
  | cons r rest ih =>
    intro S S' hK hag
    have hr : K r.obj := hK r (List.mem_cons_self r rest)
    have hrest : ∀ x ∈ rest, K x.obj := fun x hx => hK x (List.mem_cons_of_mem r hx)
    have hsame := hag r.obj hr
    rw [replay_cons, replay_cons]
    have hn : covered none r = true := rfl
    simp only [hn, if_true]
    unfold applyRecord
    rw [← hsame]
    cases hg : GoMap.get? S r.obj with
    | none =>
      dsimp only
      exact ih S S' hrest hag
    | some st =>
      dsimp only
      cases ha : applyRecordObj st r with
      | error e =>
        dsimp only
        exact ⟨fun e' h => h, fun T h => (by cases h)⟩
      | ok st1 =>
        dsimp only
        have hag1 : ∀ id, K id → GoMap.get? (GoMap.set S r.obj st1) id =
            GoMap.get? (GoMap.set S' r.obj st1) id := by
          intro id hid
          by_cases hid' : id = r.obj
          · subst hid'
            rw [GoMap.get?_set_self, GoMap.get?_set_self]
          · rw [GoMap.get?_set_ne _ _ _ _ hid', GoMap.get?_set_ne _ _ _ _ hid']
            exact hag id hid
        obtain ⟨h1, h2⟩ := ih (GoMap.set S r.obj st1) (GoMap.set S' r.obj st1) hrest hag1
        refine ⟨h1, ?_⟩
        intro T hT
        obtain ⟨T', hT', a1, a2, a3⟩ := h2 T hT
        refine ⟨T', hT', a1, ?_, ?_⟩
        · intro id hid
          have hne : id ≠ r.obj := fun e => hid (e ▸ hr)
          rw [a2 id hid, GoMap.get?_set_ne _ _ _ _ hne]
        · intro id hid
          have hne : id ≠ r.obj := fun e => hid (e ▸ hr)
          rw [a3 id hid, GoMap.get?_set_ne _ _ _ _ hne]

/-- The three reads depend on the state of the object only. -/
theorem reads_of_state (o o' : OpSet) (cover cover' : Option changegraph.Clock) (obj : ObjID)
    (herr : ∀ e, o.materialize cover = .error e → o'.materialize cover' = .error e)
    (hok : ∀ T, o.materialize cover = .ok T →
      ∃ T', o'.materialize cover' = .ok T' ∧
        (GoMap.get? T' obj = GoMap.get? T obj ∨
          (GoMap.get? T obj = none ∧ ∃ st, GoMap.get? T' obj = some st ∧
            st.l = [] ∧ (st.m = none ∨ st.m = some [])))) :
    (∀ key, o'.GetMap obj key cover' = o.GetMap obj key cover) ∧
    o'.KeysMap obj cover' = o.KeysMap obj cover ∧
    o'.Text obj cover' = o.Text obj cover := by
  cases hm : o.materialize cover with
  | error e =>
    have hm' := herr e hm
    refine ⟨fun key => ?_, ?_, ?_⟩
    · simp only [OpSet.GetMap, hm, hm']
    · simp only [OpSet.KeysMap, hm, hm']
    · simp only [OpSet.Text, OpSet.ListRange, hm, hm']
  | ok T =>
    obtain ⟨T', hm', hcase⟩ := hok T hm
    rcases hcase with heq | ⟨hnone, st, hst, hl, hmm⟩
    · refine ⟨fun key => ?_, ?_, ?_⟩
      · simp only [OpSet.GetMap, hm, hm', heq]
      · simp only [OpSet.KeysMap, hm, hm', heq]
      · simp only [OpSet.Text, OpSet.ListRange, hm, hm', heq]
    · refine ⟨fun key => ?_, ?_, ?_⟩
      · simp only [OpSet.GetMap, hm, hm', hnone, hst]
        rcases hmm with hmm | hmm <;>
          simp [hmm, entryVersions, GoMap.get?, sortedVersions]
      · simp only [OpSet.KeysMap, hm, hm', hnone, hst]
        rcases hmm with hmm | hmm <;> simp [hmm]
      · simp only [OpSet.Text, OpSet.ListRange, hm, hm', hnone, hst, hl]
        simp

end opset

/-! ## Historical reads -/

namespace automerge

open model changegraph

theorem prepare_ops (m : txMutation) (o : opset.OpSet) : (m.prepare o).ops = o.ops := by
  unfold txMutation.prepare
  cases m.creates with
  | none => rfl
  | some p =>
    obtain ⟨id, typ⟩ := p
    dsimp only
    unfold opset.OpSet.CreateObject
    cases GoMap.get? o.objects id <;> rfl

theorem objectsLE_prepare (m : txMutation) (o : opset.OpSet) :
    opset.ObjectsLE o (m.prepare o) := by
  unfold txMutation.prepare
  cases m.creates with
  | none => exact opset.ObjectsLE.refl o
  | some p =>
    obtain ⟨id, typ⟩ := p
    exact opset.objectsLE_createObject o id typ

/-- The records that the loop of `CommitWith` appends: as many as the op counts say, all
of the committing actor and on objects of the op set; when the op counter does not wrap,
their sequence numbers lie in the op range of the transaction. -/
theorem commitLoop_records (cp : txCheckpoint) :
    ∀ (ms : List txMutation) (o : opset.OpSet) (cops : List ChangeOperation) (off : Nat)
      (o1 : opset.OpSet) (cops1 : List ChangeOperation) (off1 : Nat),
      Transaction.commitLoop cp ms o cops off = (o1, cops1, off1, none) →
      ∃ recs : List opset.opRecord, o1.ops = o.ops ++ recs ∧
        recs.length = (ms.map txMutation.specCount).sum ∧ opset.ObjectsLE o o1 ∧
        (∀ r ∈ recs, r.actor = cp.actor ∧ GoMap.contains o1.objects r.obj = true) ∧
        (1 ≤ cp.startOp → cp.startOp + off + countSum ms ≤ 2 ^ 64 →
          (∀ m ∈ ms, 1 ≤ m.opCount ∧ m.opCount = m.specCount) →
          ∀ r ∈ recs, cp.startOp + off ≤ r.seq ∧ r.seq < cp.startOp + off + countSum ms) := by
  intro ms
  induction ms with
  | nil =>
    intro o cops off o1 cops1 off1 h
    simp only [Transaction.commitLoop, Prod.mk.injEq] at h
    obtain ⟨h1, -⟩ := h
    subst h1
    exact ⟨[], by simp, rfl, opset.ObjectsLE.refl _, by simp, by simp⟩
  | cons m rest ih =>
    intro o cops off o1 cops1 off1 h
    unfold Transaction.commitLoop at h
    dsimp only at h
    split at h
    · simp at h
    · rename_i ops1 happly
      obtain ⟨recs0, ho1, hlen0, hrecs0⟩ :=
        apply_records m o ops1 { Counter := (cp.startOp + off) % 2 ^ 64, Actor := cp.actor }
          cp.actor (Nat.mod_lt _ (by norm_num)) happly
      obtain ⟨recs1, hops1, hlen1, hle1, hact1, hseq1⟩ := ih _ _ _ _ _ _ h
      have hops0 : ops1.ops = o.ops ++ recs0 := by
        rw [ho1, (opset.foldl_record_objects recs0 _).2, prepare_ops]
      have hle0 : opset.ObjectsLE o ops1 := by
        rw [ho1]
        exact (objectsLE_prepare m o).trans (opset.objectsLE_foldl_record recs0 _)
      have hobj0 : ops1.objects = (m.prepare o).objects := by
        rw [ho1, (opset.foldl_record_objects recs0 _).1]
      refine ⟨recs0 ++ recs1, ?_, ?_, hle0.trans hle1, ?_, ?_⟩
      · rw [hops1, hops0, List.append_assoc]
      · rw [List.length_append, hlen0, hlen1, List.map_cons, List.sum_cons]
      · intro r hr
        rcases List.mem_append.1 hr with hr | hr
        · obtain ⟨k, hk⟩ := List.mem_iff_getElem?.1 hr
          obtain ⟨ha, -, hc⟩ := hrecs0 k r hk
          refine ⟨ha, hle1.contains r.obj ?_⟩
          rw [hobj0]
          exact hc
        · exact hact1 r hr
      · intro hpos hfit hcount r hr
        obtain ⟨hm1, hm2⟩ := hcount m (List.mem_cons_self m rest)
        have hsum : countSum (m :: rest) = m.opCount + countSum rest := by
          simp [countSum]
        rw [hsum] at hfit ⊢
        rcases List.mem_append.1 hr with hr | hr
        · obtain ⟨k, hk⟩ := List.mem_iff_getElem?.1 hr
          have hklt : k < recs0.length := (List.getElem?_eq_some.1 hk).1
          obtain ⟨-, hs, -⟩ := hrecs0 k r hk
          have hcnt : (cp.startOp + off) % 2 ^ 64 = cp.startOp + off :=
            Nat.mod_eq_of_lt (by omega)
          have := hs (by dsimp only; omega)
          dsimp only at this
          rw [this, hcnt, Nat.mod_eq_of_lt (by omega)]
          omega
        · have hoff : (off + m.opCount) % 2 ^ 64 = off + m.opCount :=
            Nat.mod_eq_of_lt (by omega)
          have := hseq1 hpos (by rw [hoff]; omega)
            (fun x hx => hcount x (List.mem_cons_of_mem m hx)) r hr
          rw [hoff] at this
          omega

theorem countSum_eq_specSum (ms : List txMutation)
    (h : ∀ m ∈ ms, 1 ≤ m.opCount ∧ m.opCount = m.specCount) :
    (ms.map txMutation.specCount).sum = countSum ms := by
  induction ms with
  | nil => rfl
  | cons m rest ih =>
    simp only [List.map_cons, List.sum_cons, countSum]
    rw [(h m (List.mem_cons_self m rest)).2]
    have := ih (fun x hx => h x (List.mem_cons_of_mem m hx))
    simp only [countSum] at this
    rw [this]

theorem localInv_New : LocalInv NewDocument :=
  ⟨Built.new, rfl, (by intro r hr; cases hr), (by intro r hr; cases hr)⟩

theorem docLE_refl (d : Document) : DocLE d d :=
  ⟨graphLE_refl _, ⟨[], by simp⟩, opset.ObjectsLE.refl _⟩

theorem docLE_trans {a b c : Document} (h1 : DocLE a b) (h2 : DocLE b c) : DocLE a c := by
  obtain ⟨l1, hl1, hs1⟩ := h1.ops
  obtain ⟨l2, hl2, hs2⟩ := h2.ops
  refine ⟨graphLE_trans h1.graph h2.graph, ⟨l1 ++ l2, by rw [hl2, hl1, List.append_assoc], ?_⟩,
    h1.objects.trans h2.objects⟩
  intro r hr
  rcases List.mem_append.1 hr with hr | hr
  · exact hs1 r hr
  · have := hs2 r hr
    have := h1.graph.maxOp
    omega

/-- The op log of a document only grows along a step. -/
theorem LocalStep.ops_prefix {hasher : ChangeHasher} {d d' : Document}
    (h : LocalStep hasher d d') : ∃ recs, d'.ops.ops = d.ops.ops ++ recs := by
  cases h with
  | setActor _ actor hs =>
    unfold Document.SetActor at hs
    split_ifs at hs
    injection hs with hs
    subst hs
    exact ⟨[], by simp⟩
  | commit d1 tx0 cs opts c hbegin htyped hcommit =>
    obtain ⟨-, hd1, -, -, -, -, -, -⟩ := Begin_ok d d1 tx0 hbegin
    obtain ⟨-, -, -, ops1, changeOps, offset, g, hloop, -, -, -, -, hdocops, -, -⟩ :=
      CommitWith_change hasher d1 _ opts c hcommit
    obtain ⟨recs, hrecs, -⟩ := commitLoop_records _ _ _ _ _ _ _ _ hloop
    refine ⟨recs, ?_⟩
    rw [hdocops, hrecs, hd1]

theorem localSteps_length {hasher : ChangeHasher} {d d' : Document}
    (h : Relation.ReflTransGen (LocalStep hasher) d d') :
    d.ops.ops.length ≤ d'.ops.ops.length := by
  induction h with
  | refl => exact le_refl _
  | tail _ hstep ih =>
    obtain ⟨recs, hrecs⟩ := hstep.ops_prefix
    rw [hrecs, List.length_append]
    omega

end automerge

namespace automerge

open model changegraph

/-- A step keeps the invariant, and the document after it is a later state of the
document before it, as long as the op log stays below `2^64` records. -/
theorem LocalStep.inv {hasher : ChangeHasher} {d d' : Document}
    (h : LocalStep hasher d d') (hi : LocalInv d) (hfit : d'.ops.ops.length < 2 ^ 64) :
    LocalInv d' ∧ DocLE d d' := by
  cases h with
  | setActor _ actor hs =>
    unfold Document.SetActor at hs
    split_ifs at hs
    injection hs with hs
    subst hs
    exact ⟨⟨hi.built, hi.maxOp, hi.covered, hi.anchored⟩,
      ⟨graphLE_refl _, ⟨[], by simp⟩, opset.ObjectsLE.refl _⟩⟩
  | commit d1 tx0 cs opts c hbegin htyped hcommit =>
    obtain ⟨-, hd1, -, hops, -, hactor, hstart, -⟩ := Begin_ok d d1 tx0 hbegin
    obtain ⟨hcp, -, -, hstaged⟩ :=
      calls_spec cs tx0 htyped (by rw [hops]; intro m hm; cases hm)
    obtain ⟨-, -, hne, ops1, changeOps, offset, g, hloop, -, hadd, hc, -, hdocops,
      hdocgraph, -⟩ := CommitWith_change hasher d1 _ opts c hcommit
    obtain ⟨-, hoffset, hnn⟩ := commitLoop_ok _ _ _ _ _ _ _ _ (by norm_num) hloop
    have hcount : ∀ m ∈ (tx0.calls cs).ops, 1 ≤ m.opCount ∧ m.opCount = m.specCount :=
      fun m hm => opCount_staged m (hstaged m hm) (hnn m hm)
    obtain ⟨recs, hrecs, hlen, hle, hact, hseq⟩ := commitLoop_records _ _ _ _ _ _ _ _ hloop
    rw [countSum_eq_specSum _ hcount] at hlen
    have hd1ops : d1.ops = d.ops := by rw [hd1]
    have hd1graph : d1.graph = d.graph := by rw [hd1]
    rw [hd1ops] at hrecs hle
    rw [hd1graph] at hadd
    rw [hdocops, hrecs, List.length_append, hlen] at hfit
    have hpos : 1 ≤ countSum (tx0.calls cs).ops := by
      have h1 := length_le_countSum _ (fun m hm => (hcount m hm).1)
      have h2 : 1 ≤ (tx0.calls cs).ops.length := by
        cases hl : (tx0.calls cs).ops with
        | nil => exact absurd hl hne
        | cons _ _ => simp
      omega
    have hmax : d.graph.maxOp = d.ops.ops.length := hi.maxOp
    have hst : (tx0.calls cs).cp.startOp = d.ops.ops.length + 1 := by
      rw [hcp, hstart]
      show (d.graph.maxOp + 1) % 2 ^ 64 = _
      rw [hmax]
      exact Nat.mod_eq_of_lt (by omega)
    have hoff : offset = countSum (tx0.calls cs).ops := by
      rw [hoffset, Nat.zero_add]
      exact Nat.mod_eq_of_lt (by omega)
    have hcmax : c.MaxOp = d.ops.ops.length + countSum (tx0.calls cs).ops := by
      rw [hc]
      dsimp only
      rw [hst, hoff]
      omega
    have hrange := hseq (by omega) (by rw [hst]; omega) hcount
    rw [hst] at hrange
    obtain ⟨-, -, depIdx, -, hg⟩ := Graph.AddChange_ok _ _ _ hadd
    have hgn : g.nodes = d.graph.nodes ++
        [{ hash := c.Hash, depIdx := depIdx, depHash := SortChangeHashes (tx0.calls cs).cp.deps,
           actor := (tx0.calls cs).cp.actor, seq := (tx0.calls cs).cp.seq,
           maxOp := c.MaxOp }] := by
      rw [hg]
    have hgm : g.maxOp = c.MaxOp := by
      rw [hg]
      dsimp only
      rw [if_pos (by omega)]
    refine ⟨⟨?_, ?_, ?_, ?_⟩, ⟨?_, ⟨recs, ?_, ?_⟩, ?_⟩⟩
    · rw [hdocgraph]
      exact Built.add _ _ _ hi.built hadd
    · rw [hdocgraph, hdocops, hrecs, List.length_append, hlen, hgm, hcmax]
    · intro r hr
      rw [hdocops, hrecs] at hr
      rw [hdocgraph, hgn]
      rcases List.mem_append.1 hr with hr | hr
      · obtain ⟨n, hn, h1, h2⟩ := hi.covered r hr
        exact ⟨n, List.mem_append_left _ hn, h1, h2⟩
      · refine ⟨_, List.mem_append_right _ (List.mem_singleton_self _), ?_, ?_⟩
        · exact (hact r hr).1.symm
        · dsimp only
          rw [hcmax]
          have := hrange r hr
          omega
    · unfold opset.Anchored
      rw [hdocops]
      intro r hr
      rw [hrecs] at hr
      rcases List.mem_append.1 hr with hr | hr
      · exact hle.contains _ (hi.anchored r hr)
      · exact (hact r hr).2
    · rw [hdocgraph]
      exact graphLE_addChange _ _ _ hi.built.wellFormed hadd
    · rw [hdocops, hrecs]
    · intro r hr
      have := hrange r hr
      omega
    · rw [hdocops]
      exact hle

theorem localSteps_inv {hasher : ChangeHasher} {d d' : Document}
    (h : Relation.ReflTransGen (LocalStep hasher) d d') (hi : LocalInv d)
    (hfit : d'.ops.ops.length < 2 ^ 64) : LocalInv d' ∧ DocLE d d' := by
  induction h with
  | refl => exact ⟨hi, docLE_refl d⟩
  | tail hsteps hstep ih =>
    obtain ⟨recs, hrecs⟩ := hstep.ops_prefix
    obtain ⟨him, hle⟩ := ih (by rw [hrecs, List.length_append] at hfit; omega)
    obtain ⟨hi2, hle2⟩ := hstep.inv him hfit
    exact ⟨hi2, docLE_trans hle hle2⟩

/-- The clock that a later state computes from the heads of an earlier state covers the
op records of the earlier state and none of the later ones. -/
theorem clockFromHeads_split {d d' : Document} (hi : LocalInv d) (hi' : LocalInv d')
    (hle : DocLE d d') :
    ∃ clk later, d'.clockFromHeads d.Heads = .ok clk ∧ d'.ops.ops = d.ops.ops ++ later ∧
      (∀ r ∈ d.ops.ops, clk.Covers r.actor r.seq = true) ∧
      (∀ r ∈ later, clk.Covers r.actor r.seq = false) := by
  obtain ⟨later, hlater, hseq⟩ := hle.ops
  by_cases hne : d.graph.Heads = []
  · have hnodes : d.graph.nodes = [] := by
      cases hn : d.graph.nodes with
      | nil => rfl
      | cons n rest =>
        exfalso
        obtain ⟨hd, hhd, -⟩ := hi.built.wellFormed.heads_reach d.graph.nodes.length 0
          (by rw [hn]; simp) (by omega)
        have : hd ∈ d.graph.Heads := by
          rw [Graph.Heads, mem_SortChangeHashes]
          exact hhd
        rw [hne] at this
        cases this
    refine ⟨NewClock, later, ?_, hlater, ?_, ?_⟩
    · unfold Document.clockFromHeads
      rw [if_pos (by show d.graph.Heads.length = 0; rw [hne]; rfl)]
    · intro r hr
      obtain ⟨n, hn, -⟩ := hi.covered r hr
      rw [hnodes] at hn
      cases hn
    · intro r hr
      have := hseq r hr
      have h0 : NewClock.MaxSeq r.actor = 0 := rfl
      simp only [Clock.Covers, h0, decide_eq_false_iff_not]
      omega
  · obtain ⟨clk, hclk, hcov, hnot⟩ :=
      clockForHeads_extension d.graph d'.graph hi.built hi'.built hle.graph hne
    have hlen : ¬ d.Heads.length = 0 := by
      intro h0
      exact hne (List.length_eq_zero.1 h0)
    refine ⟨clk, later, ?_, hlater, ?_, ?_⟩
    · unfold Document.clockFromHeads Document.ClockForHeads
      rw [if_neg hlen, if_neg hlen]
      exact hclk
    · intro r hr
      obtain ⟨n, hn, ha, hs⟩ := hi.covered r hr
      rw [← ha]
      exact hcov n hn r.seq hs
    · intro r hr
      exact hnot r.actor r.seq (hseq r hr)

/-- C17: for every document `d` built from a new document by local commits (each a
`Begin`, staging calls and a `CommitWith` that returns a change; `SetActor` may come in
between), with the heads `d.Heads` recorded at that moment, and for every document `d1`
reached from `d` by any number of later such commits, whose op log holds fewer than
`2^64` records: `GetMapAt(obj, key, H)`, `KeysMapAt(obj, H)` and `TextAt(obj, H)` on `d1`
return what `GetMap`, `KeysMap` and `Text` with no clock returned on `d`. -/
theorem historical_reads (hasher : ChangeHasher) (d d1 : Document)
    (hd : Relation.ReflTransGen (LocalStep hasher) NewDocument d)
    (hlater : Relation.ReflTransGen (LocalStep hasher) d d1)
    (hfit : d1.ops.ops.length < 2 ^ 64) :
    ∀ obj : ObjID,
      (∀ key, d1.GetMapAt obj key d.Heads = d.GetMap obj key none) ∧
      d1.KeysMapAt obj d.Heads = d.ops.KeysMap obj none ∧
      d1.TextAt obj d.Heads = d.Text obj none := by
  intro obj
  have hfitd := lt_of_le_of_lt (localSteps_length hlater) hfit
  obtain ⟨hi, -⟩ := localSteps_inv hd localInv_New hfitd
  obtain ⟨hi1, hle⟩ := localSteps_inv hlater hi hfit
  obtain ⟨clk, later, hclk, hops, hcov, hnot⟩ := clockFromHeads_split hi hi1 hle
  have hmat : d1.ops.materialize (some clk) =
      opset.replay none d.ops.ops (opset.freshState d1.ops.objects) := by
    unfold opset.OpSet.materialize
    rw [hops]
    exact opset.replay_prefix clk later hnot d.ops.ops _ hcov
  have hagree := opset.replay_agree (fun id => GoMap.contains d.ops.objects id = true)
    d.ops.ops (opset.freshState d.ops.objects) (opset.freshState d1.ops.objects)
    hi.anchored (by
      intro id hK
      rw [opset.freshState_get, opset.freshState_get]
      unfold GoMap.contains at hK
      cases hg : GoMap.get? d.ops.objects id with
      | none => rw [hg] at hK; cases hK
      | some st => rw [hle.objects id st hg])
  have hreads := opset.reads_of_state d.ops d1.ops none (some clk) obj
    (fun e he => by rw [hmat]; exact hagree.1 e he)
    (fun T hT => by
      obtain ⟨T1, hT1, hK, hnK, hnK1⟩ := hagree.2 T hT
      refine ⟨T1, hmat.trans hT1, ?_⟩
      by_cases hobj : GoMap.contains d.ops.objects obj = true
      · exact Or.inl (hK obj hobj).symm
      · have hnone : GoMap.get? d.ops.objects obj = none := by
          unfold GoMap.contains at hobj
          cases hg : GoMap.get? d.ops.objects obj with
          | none => rfl
          | some st => rw [hg] at hobj; exact absurd rfl hobj
        have hT0 : GoMap.get? T obj = none := by
          rw [hnK obj hobj, opset.freshState_get, hnone]
          rfl
        have hT10 := hnK1 obj hobj
        rw [opset.freshState_get] at hT10
        cases hg1 : GoMap.get? d1.ops.objects obj with
        | none =>
          rw [hg1] at hT10
          exact Or.inl (hT10.trans hT0.symm)
        | some st0 =>
          rw [hg1] at hT10
          simp only [Option.map_some'] at hT10
          by_cases ht : st0.typ = opset.ObjMap
          · rw [if_pos ht] at hT10
            exact Or.inr ⟨hT0, _, hT10, rfl, Or.inr rfl⟩
          · rw [if_neg ht] at hT10
            exact Or.inr ⟨hT0, _, hT10, rfl, Or.inl rfl⟩)
  refine ⟨fun key => ?_, ?_, ?_⟩
  · simp only [Document.GetMapAt, hclk, Document.GetMap]
    exact hreads.1 key
  · simp only [Document.KeysMapAt, hclk]
    exact hreads.2.1
  · simp only [Document.TextAt, hclk, Document.Text]
    exact hreads.2.2

/-- C17 (witness): the first commit puts `"v1"` at `"k"` and the text `"ab"`, the second
overwrites `"k"`, adds `"n"` and appends `"c"`; the reads at the heads of the first commit
on the second document return the values of the first document: the text is `"ab"` at
those heads and `"abc"` now. -/
theorem historical_reads_witness :
    Relation.ReflTransGen (LocalStep exampleHasherAsc) NewDocument historyDoc1 ∧
    Relation.ReflTransGen (LocalStep exampleHasherAsc) historyDoc1 historyDoc2 ∧
    historyDoc2.ops.ops.length < 2 ^ 64 ∧
    (∀ obj : ObjID,
      (∀ key, historyDoc2.GetMapAt obj key historyDoc1.Heads =
        historyDoc1.GetMap obj key none) ∧
      historyDoc2.KeysMapAt obj historyDoc1.Heads = historyDoc1.ops.KeysMap obj none ∧
      historyDoc2.TextAt obj historyDoc1.Heads = historyDoc1.Text obj none) ∧
    historyDoc2.TextAt { Root := false, Op := { Counter := 2, Actor := 1 } }
      historyDoc1.Heads = .ok "ab" ∧
    historyDoc2.Text { Root := false, Op := { Counter := 2, Actor := 1 } } none = .ok "abc" :=
  have h1 : Relation.ReflTransGen (LocalStep exampleHasherAsc) NewDocument historyDoc1 :=
    Relation.ReflTransGen.single
      (LocalStep.commit NewDocument { NewDocument with openTx := true } firstTransaction
        historyCalls1 { Message := none, Time := none } _ rfl (by decide) rfl)
  have h2 : Relation.ReflTransGen (LocalStep exampleHasherAsc) historyDoc1 historyDoc2 :=
    Relation.ReflTransGen.single
      (LocalStep.commit historyDoc1 { historyDoc1 with openTx := true } secondTransaction
        historyCalls2 { Message := none, Time := none } _ rfl (by decide) rfl)
  have h3 : historyDoc2.ops.ops.length < 2 ^ 64 := by decide
  ⟨h1, h2, h3, historical_reads exampleHasherAsc historyDoc1 historyDoc2 h1 h2 h3, rfl, rfl⟩

end automerge

/-! ## Bloom filters -/

namespace sync

open model

theorem and_one_shiftLeft_eq_zero (w i : Nat) :
    w &&& (1 <<< i) = 0 ↔ w.testBit i = false := by
  rw [Nat.one_shiftLeft, Nat.and_two_pow]
  cases w.testBit i <;> simp

/-- The word-level update of `AddHash`: the bit `idx` is set afterwards, and the bits that
were set stay set. -/
theorem bitAt_set (b : BloomFilter) (idx j : Nat) (hlen : b.Words.length = bloomWords)
    (hidx : idx < bloomBits) :
    BloomFilter.bitAt
      { Words := b.Words.set (idx / 64) (b.word (idx / 64) ||| (1 <<< (idx % 64))) } j =
      (b.bitAt j || decide (j / 64 = idx / 64 ∧ j % 64 = idx % 64)) := by
  have hw : idx / 64 < b.Words.length := by
    rw [hlen]
    have : bloomWords = 16 := rfl
    have : bloomBits = 1024 := rfl
    omega
  unfold BloomFilter.bitAt BloomFilter.word
  dsimp only
  by_cases hj : j / 64 = idx / 64
  · rw [hj, List.getD_eq_getElem?_getD, List.getElem?_set_self hw, Option.getD_some, Nat.testBit_or,
      Nat.one_shiftLeft, Nat.testBit_two_pow]
    rw [List.getD_eq_getElem?_getD]
    by_cases hb : j % 64 = idx % 64
    · simp [hb]
    · have : ¬ idx % 64 = j % 64 := fun h => hb h.symm
      simp [hb, this]
  · rw [List.getD_eq_getElem?_getD, List.getElem?_set_ne (fun h => hj h.symm)]
    rw [List.getD_eq_getElem?_getD]
    simp [hj]

theorem length_AddHash (b : BloomFilter) (h : ChangeHash) :
    (b.AddHash h).Words.length = b.Words.length := by
  simp [BloomFilter.AddHash]

theorem probe1_lt (h : ChangeHash) : probe1 h < bloomBits :=
  Nat.mod_lt _ (by decide)

theorem probe2_lt (h : ChangeHash) : probe2 h < bloomBits :=
  Nat.mod_lt _ (by decide)

/-- The bits of the filter after `AddHash`: the two probe positions of the hash and the
bits that were set before. -/
theorem bitAt_AddHash (b : BloomFilter) (h : ChangeHash) (j : Nat)
    (hlen : b.Words.length = bloomWords) (hj : j < bloomBits) :
    (b.AddHash h).bitAt j = (b.bitAt j || decide (j = probe1 h) || decide (j = probe2 h)) := by
  have h1 := bitAt_set b (probe1 h) j hlen (probe1_lt h)
  have hlen1 : (⟨b.Words.set (probe1 h / 64)
      (b.word (probe1 h / 64) ||| (1 <<< (probe1 h % 64)))⟩ : BloomFilter).Words.length =
      bloomWords := by
    simp [hlen]
  have h2 := bitAt_set _ (probe2 h) j hlen1 (probe2_lt h)
  have e1 : decide (j / 64 = probe1 h / 64 ∧ j % 64 = probe1 h % 64) = decide (j = probe1 h) := by
    apply Bool.decide_congr
    constructor
    · rintro ⟨a, c⟩; omega
    · rintro rfl; exact ⟨rfl, rfl⟩
  have e2 : decide (j / 64 = probe2 h / 64 ∧ j % 64 = probe2 h % 64) = decide (j = probe2 h) := by
    apply Bool.decide_congr
    constructor
    · rintro ⟨a, c⟩; omega
    · rintro rfl; exact ⟨rfl, rfl⟩
  rw [e1] at h1
  rw [e2, h1] at h2
  exact h2

/-- The test `ContainsHash` holds exactly when both probe bits are set. -/
theorem ContainsHash_iff (b : BloomFilter) (h : ChangeHash) :
    b.ContainsHash h = (b.bitAt (probe1 h) && b.bitAt (probe2 h)) := by
  unfold BloomFilter.ContainsHash BloomFilter.bitAt
  dsimp only
  have e1 := and_one_shiftLeft_eq_zero (b.word (probe1 h / 64)) (probe1 h % 64)
  have e2 := and_one_shiftLeft_eq_zero (b.word (probe2 h / 64)) (probe2 h % 64)
  unfold probe1 at e1
  unfold probe2 at e2
  unfold probe1 probe2
  by_cases c1 : (b.word (fnv64a (hashBytes h) % bloomBits / 64)).testBit
      (fnv64a (hashBytes h) % bloomBits % 64) = true
  · have n1 : ¬ (b.word (fnv64a (hashBytes h) % bloomBits / 64) &&&
        1 <<< (fnv64a (hashBytes h) % bloomBits % 64) = 0) := by
      rw [e1, c1]; decide
    rw [if_neg n1, c1, Bool.true_and]
    by_cases c2 : (b.word (fnv64a (putUint64 (fnv64a (hashBytes h) ^^^ 0x9e3779b97f4a7c15)) %
        bloomBits / 64)).testBit
        (fnv64a (putUint64 (fnv64a (hashBytes h) ^^^ 0x9e3779b97f4a7c15)) % bloomBits % 64) = true
    · rw [c2, decide_eq_true_iff, Ne, e2, c2]; decide
    · rw [Bool.not_eq_true] at c2
      rw [c2, decide_eq_false_iff_not, not_not, e2, c2]
  · rw [Bool.not_eq_true] at c1
    rw [if_pos (e1.2 c1), c1, Bool.false_and]

theorem ContainsHash_AddHash_mono (b : BloomFilter) (h g : ChangeHash)
    (hlen : b.Words.length = bloomWords) (hc : b.ContainsHash h = true) :
    (b.AddHash g).ContainsHash h = true := by
  rw [ContainsHash_iff, Bool.and_eq_true] at hc
  rw [ContainsHash_iff, bitAt_AddHash b g _ hlen (probe1_lt h),
    bitAt_AddHash b g _ hlen (probe2_lt h), hc.1, hc.2]
  rfl

theorem ContainsHash_AddHash_self (b : BloomFilter) (h : ChangeHash)
    (hlen : b.Words.length = bloomWords) : (b.AddHash h).ContainsHash h = true := by
  rw [ContainsHash_iff, bitAt_AddHash b h _ hlen (probe1_lt h),
    bitAt_AddHash b h _ hlen (probe2_lt h)]
  simp

theorem ContainsHash_foldl (hs : List ChangeHash) :
    ∀ (b : BloomFilter), b.Words.length = bloomWords →
      (hs.foldl BloomFilter.AddHash b).Words.length = bloomWords ∧
      ∀ h, (h ∈ hs ∨ b.ContainsHash h = true) →
        (hs.foldl BloomFilter.AddHash b).ContainsHash h = true := by
  induction hs with
  | nil =>
    intro b hlen
    refine ⟨hlen, ?_⟩
    intro h hh
    rcases hh with hh | hh
    · cases hh
    · exact hh
  | cons g rest ih =>
    intro b hlen
    have hlen1 : (b.AddHash g).Words.length = bloomWords := by rw [length_AddHash, hlen]
    obtain ⟨i1, i2⟩ := ih (b.AddHash g) hlen1
    refine ⟨i1, ?_⟩
    intro h hh
    apply i2 h
    rcases hh with hh | hh
    · rcases List.mem_cons.1 hh with rfl | hh
      · exact Or.inr (ContainsHash_AddHash_self b h hlen)
      · exact Or.inl hh
    · exact Or.inr (ContainsHash_AddHash_mono b h g hlen hh)

/-- C26: for every filter `b` (an array of `bloomWords` words) and hashes `h` and `g`,
`ContainsHash(h)` is true right after `AddHash(h)`; if `ContainsHash(h)` is true before
`AddHash(g)` it is true after it; and every element of `hs` is contained in
`BloomFromHashes(hs)`. -/
theorem bloom_no_false_negatives (b : BloomFilter) (h g : ChangeHash)
    (hlen : b.Words.length = bloomWords) :
    (b.AddHash h).ContainsHash h = true ∧
    (b.ContainsHash h = true → (b.AddHash g).ContainsHash h = true) ∧
    ∀ hs : List ChangeHash, h ∈ hs → (BloomFromHashes hs).ContainsHash h = true :=
  ⟨ContainsHash_AddHash_self b h hlen, ContainsHash_AddHash_mono b h g hlen,
    fun hs hh => (ContainsHash_foldl hs NewBloomFilter rfl).2 h (Or.inl hh)⟩

/-- C26 (witness): the empty filter and the hashes `0xaa` and `0xbb` of the test
`TestBloomContains`. -/
theorem bloom_no_false_negatives_witness :
    NewBloomFilter.Words.length = bloomWords ∧
    (NewBloomFilter.AddHash 0xaa).ContainsHash 0xaa = true ∧
    (NewBloomFilter.ContainsHash 0xaa = true →
      (NewBloomFilter.AddHash 0xbb).ContainsHash 0xaa = true) ∧
    ∀ hs : List ChangeHash, 0xaa ∈ hs → (BloomFromHashes hs).ContainsHash 0xaa = true :=
  ⟨rfl, bloom_no_false_negatives NewBloomFilter 0xaa 0xbb rfl⟩

/-- C27 (as amended): for every Bloom filter `b` and hash `h`, `ContainsHash(h)` returns
true exactly when both probe positions of `h` are one bits of `b`, and so it returns false
as soon as one of the two is a zero bit. The probe positions are FNV-1a of the 32 hash
bytes mod 1024 and FNV-1a of the big-endian bytes of that first hash XOR
`0x9e3779b97f4a7c15`, mod 1024; the bit `i` is bit `i mod 64` of the word `i / 64`. -/
theorem ContainsHash_both_probes (b : BloomFilter) (h : ChangeHash) :
    (b.ContainsHash h = true ↔ b.bitAt (probe1 h) = true ∧ b.bitAt (probe2 h) = true) ∧
    (b.ContainsHash h = false ↔ b.bitAt (probe1 h) = false ∨ b.bitAt (probe2 h) = false) ∧
    probe1 h = fnv64a (hashBytes h) % 1024 ∧
    probe2 h = fnv64a (putUint64 (fnv64a (hashBytes h) ^^^ 0x9e3779b97f4a7c15)) % 1024 ∧
    ∀ i, (b.bitAt i = true ↔ b.word (i / 64) &&& (1 <<< (i % 64)) ≠ 0) := by
  refine ⟨?_, ?_, rfl, rfl, ?_⟩
  · rw [ContainsHash_iff, Bool.and_eq_true]
  · rw [ContainsHash_iff, Bool.and_eq_false_iff]
  · intro i
    unfold BloomFilter.bitAt
    rw [Ne, and_one_shiftLeft_eq_zero, Bool.not_eq_false]

/-- C27 (counterexample): in the filter built from the hash 14 the first probe position
of the hash 12 is a one bit (it is the second probe position of 14) and the second is a
zero bit, and `ContainsHash(12)` returns false; in the filter built from the hash 12 the
second probe position of 14 is a one bit, the first is a zero bit, and `ContainsHash(14)`
returns false. -/
theorem ContainsHash_false_with_one_probe_set :
    (BloomFromHashes [14]).bitAt (probe1 12) = true ∧
    (BloomFromHashes [14]).bitAt (probe2 12) = false ∧
    (BloomFromHashes [14]).ContainsHash 12 = false ∧
    (BloomFromHashes [12]).bitAt (probe1 14) = false ∧
    (BloomFromHashes [12]).bitAt (probe2 14) = true ∧
    (BloomFromHashes [12]).ContainsHash 14 = false := by
  decide

end sync

/-! ## The persisted sync state -/

namespace sync

open model

theorem appendULEBLoop_acc (fuel : Nat) :
    ∀ (dst : List Nat) (v : Nat), appendULEBLoop fuel dst v = dst ++ appendULEBLoop fuel [] v := by
  induction fuel with
  | zero => intro dst v; simp [appendULEBLoop]
  | succ n ih =>
    intro dst v
    unfold appendULEBLoop
    dsimp only
    split_ifs
    · rw [ih (dst ++ _), ih ([] ++ _), List.append_assoc, List.nil_append]
    · rfl

theorem low7_facts : ∀ b < 128, (b ||| 0x80) &&& 0x7f = b ∧ (b ||| 0x80) &&& 0x80 ≠ 0 ∧
    b &&& 0x80 = 0 ∧ b &&& 0x7f = b := by
  decide

theorem or_shiftLeft_of_lt (out b shift : Nat) (h : out < 2 ^ shift) :
    out ||| (b <<< shift) = out + b * 2 ^ shift := by
  rw [Nat.shiftLeft_eq, Nat.lor_comm, Nat.mul_comm b, ← Nat.mul_add_lt_is_or h, Nat.add_comm]

/-- Reading back what `appendULEB` wrote gives the number and the count of the bytes. -/
theorem readULEBLoop_append (fuel : Nat) :
    ∀ (v : Nat) (rest : List Nat) (i out shift : Nat), v < 2 ^ (7 * fuel) → 1 ≤ fuel →
      out < 2 ^ shift → out + v * 2 ^ shift < 2 ^ 64 →
      readULEBLoop (appendULEBLoop fuel [] v ++ rest) i out shift =
        .ok (out + v * 2 ^ shift, i + (appendULEBLoop fuel [] v).length) := by
  induction fuel with
  | zero => intro v rest i out shift _ h1; omega
  | succ n ih =>
    intro v rest i out shift hv _ hout hfit
    have hb : v &&& 0x7f = v % 128 := Nat.and_pow_two_sub_one_eq_mod v 7
    have hs : v >>> 7 = v / 128 := Nat.shiftRight_eq_div_pow v 7
    have hblt : v % 128 < 128 := Nat.mod_lt _ (by decide)
    obtain ⟨f1, f2, f3, f4⟩ := low7_facts (v % 128) hblt
    have hpos : 0 < 2 ^ shift := Nat.pow_pos (by decide)
    have hsplit : v % 128 * 2 ^ shift + v / 128 * 2 ^ (shift + 7) = v * 2 ^ shift := by
      have h0 := Nat.div_add_mod v 128
      rw [pow_add]
      have h7 : (2 : Nat) ^ 7 = 128 := by norm_num
      rw [h7]
      calc v % 128 * 2 ^ shift + v / 128 * (2 ^ shift * 128)
          = (128 * (v / 128) + v % 128) * 2 ^ shift := by ring
        _ = v * 2 ^ shift := by rw [h0]
    have hble : v % 128 * 2 ^ shift ≤ v * 2 ^ shift :=
      Nat.mul_le_mul_right _ (Nat.mod_le v 128)
    unfold appendULEBLoop
    dsimp only
    rw [hb, hs]
    by_cases hz : v / 128 = 0
    · rw [if_neg (by rw [hz]; exact fun h => h rfl)]
      have hv128 : v % 128 = v := by
        have := Nat.div_add_mod v 128
        omega
      rw [List.nil_append, List.singleton_append]
      unfold readULEBLoop
      dsimp only
      rw [f4, f3, if_pos rfl, Nat.shiftLeft_eq, Nat.mod_eq_of_lt (by omega),
        ← Nat.shiftLeft_eq, or_shiftLeft_of_lt out _ shift hout, hv128]
      rfl
    · rw [if_pos hz, List.nil_append, appendULEBLoop_acc, List.append_assoc,
        List.singleton_append]
      have hn : 1 ≤ n := by
        rcases n with _ | n
        · exfalso
          have : v < 128 := by simpa using hv
          exact hz (Nat.div_eq_of_lt this)
        · omega
      have hv1 : v / 128 < 2 ^ (7 * n) := by
        apply Nat.div_lt_of_lt_mul
        have : 128 * 2 ^ (7 * n) = 2 ^ (7 * (n + 1)) := by
          rw [Nat.mul_add, pow_add]
          norm_num
          ring
        rw [this]
        exact hv
      have hge : 2 ^ (shift + 7) ≤ v * 2 ^ shift := by
        have : 128 ≤ v := by
          by_contra hlt
          exact hz (Nat.div_eq_of_lt (by omega))
        rw [pow_add, Nat.mul_comm]
        exact Nat.mul_le_mul_right _ (by norm_num; exact this)
      have hshift : ¬ shift + 7 > 63 := by
        intro hgt
        have : 2 ^ 64 ≤ 2 ^ (shift + 7) := Nat.pow_le_pow_right (by decide) (by omega)
        omega
      have hout1 : out + v % 128 * 2 ^ shift < 2 ^ (shift + 7) := by
        rw [pow_add]
        have h7 : (2 : Nat) ^ 7 = 128 := by norm_num
        rw [h7]
        have : v % 128 * 2 ^ shift ≤ 127 * 2 ^ shift := Nat.mul_le_mul_right _ (by omega)
        omega
      unfold readULEBLoop
      dsimp only
      rw [f1, if_neg f2, if_neg hshift, Nat.shiftLeft_eq, Nat.mod_eq_of_lt (by omega),
        ← Nat.shiftLeft_eq, or_shiftLeft_of_lt out _ shift hout]
      rw [ih (v / 128) rest (i + 1) _ (shift + 7) hv1 hn hout1 (by omega)]
      have hl : ([v % 128 ||| 128] ++ appendULEBLoop n [] (v / 128)).length =
          1 + (appendULEBLoop n [] (v / 128)).length := by
        simp [Nat.add_comm]
      rw [hl, Nat.add_assoc (out), hsplit, Nat.add_assoc i]

theorem readULEB_appendULEB (v : Nat) (rest : List Nat) (hv : v < 2 ^ 64) :
    readULEB (appendULEB [] v ++ rest) = .ok (v, (appendULEB [] v).length) := by
  have h := readULEBLoop_append 10 v rest 0 0 0
    (lt_of_lt_of_le hv (Nat.pow_le_pow_right (by decide) (by decide))) (by decide)
    (by decide) (by simpa using hv)
  simpa [readULEB, appendULEB] using h

theorem foldl_digits (n : Nat) :
    ∀ h : Nat, h < 256 ^ n →
      ((List.range n).map (fun i => h / 256 ^ (n - 1 - i) % 256)).foldl
        (fun acc b => acc * 256 + b) 0 = h := by
  induction n with
  | zero => intro h hh; simp at hh; simp [hh]
  | succ n ih =>
    intro h hh
    rw [List.range_succ, List.map_append, List.foldl_append]
    have hq : h / 256 < 256 ^ n := by
      apply Nat.div_lt_of_lt_mul
      rw [Nat.mul_comm, ← pow_succ]
      exact hh
    have hmap : (List.range n).map (fun i => h / 256 ^ (n + 1 - 1 - i) % 256) =
        (List.range n).map (fun i => h / 256 / 256 ^ (n - 1 - i) % 256) := by
      apply List.map_congr_left
      intro i hi
      have hi : i < n := List.mem_range.1 hi
      have e : n + 1 - 1 - i = (n - 1 - i) + 1 := by omega
      rw [e, pow_succ, Nat.div_div_eq_div_mul, Nat.mul_comm]
    rw [hmap, ih (h / 256) hq]
    simp only [List.map_cons, List.map_nil, List.foldl_cons, List.foldl_nil]
    have e0 : n + 1 - 1 - n = 0 := by omega
    rw [e0, pow_zero, Nat.div_one]
    exact Nat.div_add_mod' h 256

theorem hashOfBytes_hashBytes (h : ChangeHash) (hh : h < 2 ^ 256) :
    hashOfBytes (hashBytes h) = h := by
  have := foldl_digits 32 h (by norm_num; exact hh)
  exact this

theorem length_hashBytes (h : ChangeHash) : (hashBytes h).length = 32 := by
  simp [hashBytes]

theorem encode_eq (pre : List Nat) (hs : List ChangeHash) :
    hs.foldl (fun out h => out ++ hashBytes h) pre = pre ++ hs.flatMap hashBytes := by
  induction hs generalizing pre with
  | nil => simp
  | cons h rest ih => rw [List.foldl_cons, ih, List.flatMap_cons, List.append_assoc]

theorem decodeHeads_flatMap (hs : List ChangeHash) :
    ∀ (pre : List Nat) (head : List ChangeHash), (∀ h ∈ hs, h < 2 ^ 256) →
      decodeHeads (pre ++ hs.flatMap hashBytes) hs.length pre.length head =
        .ok (head ++ hs, (pre ++ hs.flatMap hashBytes).length) := by
  induction hs with
  | nil => intro pre head _; simp [decodeHeads]
  | cons h rest ih =>
    intro pre head hh
    have hlen := length_hashBytes h
    rw [List.length_cons, decodeHeads]
    have hnot : ¬ (((pre ++ (h :: rest).flatMap hashBytes).length : Int) - (pre.length : Int)
        < 32) := by
      rw [List.length_append, List.flatMap_cons, List.length_append, hlen]
      push_cast
      omega
    rw [if_neg hnot]
    have htake : ((pre ++ (h :: rest).flatMap hashBytes).drop pre.length).take 32 =
        hashBytes h := by
      rw [List.drop_left, List.flatMap_cons, ← hlen, List.take_left]
    rw [htake, hashOfBytes_hashBytes h (hh h (List.mem_cons_self h rest))]
    have hin : pre ++ (h :: rest).flatMap hashBytes =
        (pre ++ hashBytes h) ++ rest.flatMap hashBytes := by
      rw [List.flatMap_cons, List.append_assoc]
    have hoff : pre.length + 32 = (pre ++ hashBytes h).length := by
      rw [List.length_append, hlen]
    rw [hin, hoff, ih (pre ++ hashBytes h) (head ++ [h])
      (fun x hx => hh x (List.mem_cons_of_mem h hx)), List.append_assoc, List.singleton_append]

/-- The round trip of the persisted state: `DecodeState(Encode(s))` succeeds with the
shared heads of `s`, for hashes of 32 bytes and a slice of heads that fits in memory. -/
theorem DecodeState_Encode (s : State) (hh : ∀ h ∈ s.SharedHeads, h < 2 ^ 256)
    (hn : s.SharedHeads.length * 32 ≤ maxAlloc) :
    DecodeState s.Encode = .ok { NewState with SharedHeads := s.SharedHeads, TheirHave := some [] } ∧
    s.Encode = [0x43] ++ appendULEB [] s.SharedHeads.length ++ s.SharedHeads.flatMap hashBytes := by
  have hmax : maxAlloc = 2 ^ 48 := rfl
  have hlt : s.SharedHeads.length < 2 ^ 64 := by omega
  have henc : s.Encode =
      [0x43] ++ appendULEB [] s.SharedHeads.length ++ s.SharedHeads.flatMap hashBytes := by
    unfold State.Encode
    rw [encode_eq, Nat.mod_eq_of_lt hlt]
    unfold appendULEB
    rw [appendULEBLoop_acc]
    rfl
  refine ⟨?_, henc⟩
  rw [henc]
  unfold DecodeState
  have h0 : ¬ (([0x43] ++ appendULEB [] s.SharedHeads.length ++
      s.SharedHeads.flatMap hashBytes).length = 0 ∨
      ([0x43] ++ appendULEB [] s.SharedHeads.length ++
        s.SharedHeads.flatMap hashBytes)[0]? ≠ some syncStateType) := by
    intro h
    rcases h with h | h
    · simp at h
    · exact h (by simp [syncStateType])
  rw [if_neg h0]
  dsimp only
  have hdrop : ([0x43] ++ appendULEB [] s.SharedHeads.length ++
      s.SharedHeads.flatMap hashBytes).drop 1 =
      appendULEB [] s.SharedHeads.length ++ s.SharedHeads.flatMap hashBytes := by
    simp
  rw [hdrop, readULEB_appendULEB _ _ hlt]
  dsimp only
  have hint : ¬ (intOfUint64 s.SharedHeads.length < 0 ∨ s.SharedHeads.length * 32 > maxAlloc) := by
    intro h
    rcases h with h | h
    · unfold intOfUint64 at h
      rw [Nat.mod_eq_of_lt hlt] at h
      rw [if_pos (by omega)] at h
      omega
    · omega
  rw [if_neg hint]
  have hoff : 1 + (appendULEB [] s.SharedHeads.length).length =
      ([0x43] ++ appendULEB [] s.SharedHeads.length).length := by
    simp [Nat.add_comm]
  rw [hoff, decodeHeads_flatMap s.SharedHeads _ [] hh]
  dsimp only
  rw [if_neg (fun h => h rfl)]
  rfl

/-- C28 (failing input): the eleven bytes `43 80 80 80 80 80 80 80 80 80 01` carry the
type tag and the ULEB128 count `2^63` but no head. `readULEB` returns the count and
`DecodeState` panics in `make([]ChangeHash, 0, count)`, where the claim (and every other
malformed input) gives `ErrStateDecode`. -/
theorem DecodeState_hugeCount :
    readULEB (hugeCountState.drop 1) = .ok (2 ^ 63, 10) ∧
    DecodeState hugeCountState = .error .panicMakeSliceCap :=
  ⟨rfl, rfl⟩

end sync

/-! ## Text splice -/

namespace opset

open model

theorem foldl_runes (t : List Char) :
    ∀ b : GoString, (t.map runeValue).foldl (fun b v =>
      if v.Kind = ValueScalar ∧ v.Scalar.Kind = ScalarString then b ++ v.Scalar.String else b) b =
      b ++ String.mk t := by
  induction t with
  | nil => intro b; apply String.ext; simp
  | cons c rest ih =>
    intro b
    rw [List.map_cons, List.foldl_cons]
    have hc : (runeValue c).Kind = ValueScalar ∧ (runeValue c).Scalar.Kind = ScalarString :=
      ⟨rfl, rfl⟩
    rw [if_pos hc, ih]
    apply String.ext
    simp [runeValue, NewScalarValue, StringValue, String.singleton]

theorem HoldsText.text {o : OpSet} {obj : ObjID} {t : GoString} (h : HoldsText o obj t) :
    o.Text obj none = .ok t := by
  obtain ⟨-, S, st, hS, hst, hl⟩ := h
  unfold OpSet.Text OpSet.ListRange
  rw [hS]
  dsimp only
  rw [hst]
  dsimp only
  have h1 : ¬ ((0 : Int) < 0) := by decide
  have h2 : ((-1 : Int) > (st.l.length : Int) ∨ (-1 : Int) < 0) := Or.inr (by decide)
  rw [if_neg h1, if_pos h2]
  have h3 : ¬ ((0 : Int) > (st.l.length : Int)) := by omega
  rw [if_neg h3]
  have h4 : ((st.l.length : Int) - 0).toNat = st.l.length := by omega
  have hfm : st.l.filterMap OpSet.winner = t.toList.map runeValue := by
    have : st.l.filterMap OpSet.winner = (st.l.map OpSet.winner).filterMap id := by
      rw [List.filterMap_map]; rfl
    rw [this, hl, List.filterMap_map]
    exact congrFun (List.filterMap_eq_map runeValue) _
  simp only [Int.toNat_zero, List.drop_zero, h4, List.take_length, hfm]
  rw [foldl_runes]
  congr 1

theorem applyRecordObj_delete (st : objectState) (rec : opRecord)
    (hk : rec.kind = opListDelete) (h0 : 0 ≤ rec.index) (hlt : rec.index < (st.l.length : Int)) :
    applyRecordObj st rec = .ok { st with l := st.l.eraseIdx rec.index.toNat } := by
  unfold applyRecordObj
  rw [hk]
  simp only [opListDelete, opMapPut, opMapDelete, opListInsert, opListSet]
  have : ¬ (rec.index < 0 ∨ rec.index ≥ (st.l.length : Int)) := by omega
  simp [this]

theorem applyRecordObj_insert (st : objectState) (rec : opRecord)
    (hk : rec.kind = opListInsert) (h0 : 0 ≤ rec.index) (hle : rec.index ≤ (st.l.length : Int)) :
    applyRecordObj st rec =
      .ok { st with l := insertAt st.l rec.index.toNat { versions := [versionOf rec] } } := by
  unfold applyRecordObj
  rw [hk]
  simp only [opListDelete, opMapPut, opMapDelete, opListInsert, opListSet]
  have : ¬ (rec.index < 0 ∨ rec.index > (st.l.length : Int)) := by omega
  simp [this]

/-- A record on `obj` that changes the list of `obj` from `st.l` to `l1`, appended to an
op set that holds the text `t`, gives an op set that holds the text of `l1`. -/
theorem HoldsText.step_record {o : OpSet} {obj : ObjID} {t t1 : GoString} (rec : opRecord)
    (h : HoldsText o obj t) (hobj : rec.obj = obj)
    (hstep : ∀ st : objectState,
      st.l.map OpSet.winner = t.toList.map (fun c => some (runeValue c)) →
      ∃ l1, applyRecordObj st rec = .ok { st with l := l1 } ∧
        l1.map OpSet.winner = t1.toList.map (fun c => some (runeValue c))) :
    HoldsText (o.record rec) obj t1 := by
  obtain ⟨ht, S, st, hS, hst, hl⟩ := h
  obtain ⟨l1, hap, hl1⟩ := hstep st hl
  refine ⟨by rw [ensureType_record]; exact ht, GoMap.set S obj { st with l := l1 },
    { st with l := l1 }, ?_, GoMap.get?_set_self _ _ _, hl1⟩
  rw [materialize_record, hS]
  dsimp only
  have hc : covered none rec = true := rfl
  rw [if_pos hc]
  unfold applyRecord
  rw [hobj, hst]
  dsimp only
  rw [hap]

theorem HoldsText.listType {o : OpSet} {obj : ObjID} {t : GoString} (h : HoldsText o obj t) :
    o.ensureType obj [ObjList, ObjText] = .ok () :=
  ensureType_mono o obj [ObjText] [ObjList, ObjText]
    (fun _ hx => List.mem_cons_of_mem _ hx) h.1

theorem HoldsText.after_delete {o : OpSet} {obj : ObjID} {t : GoString} (h : HoldsText o obj t)
    (index : Int) (id : OpID) (actor seq : Nat) (h0 : 0 ≤ index) (hlt : index < (t.length : Int)) :
    ∃ o1, o.DeleteList obj index id actor seq = .ok o1 ∧
      HoldsText o1 obj (String.mk (t.toList.take index.toNat ++ t.toList.drop (index.toNat + 1))) := by
  obtain ⟨rec, hrec⟩ : ∃ rec : opRecord, rec = { zeroRecord with
      kind := opListDelete, obj := obj, index := index, id := id, actor := actor,
      seq := seq } := ⟨_, rfl⟩
  refine ⟨o.record rec, ?_, ?_⟩
  · unfold OpSet.DeleteList
    rw [h.listType]
    dsimp only
    rw [if_neg (by omega), hrec]
  · apply HoldsText.step_record rec h (by rw [hrec])
    intro st hl
    have hlen : st.l.length = t.length := by
      have := congrArg List.length hl
      simpa using this
    have hk : rec.kind = opListDelete := by rw [hrec]
    have hi : rec.index = index := by rw [hrec]
    refine ⟨_, applyRecordObj_delete st rec hk (by rw [hi]; exact h0)
      (by rw [hi, hlen]; exact hlt), ?_⟩
    rw [hi, List.eraseIdx_eq_take_drop_succ, List.map_append, List.map_take, List.map_drop, hl]
    show _ = List.map _ (t.toList.take index.toNat ++ t.toList.drop (index.toNat + 1))
    rw [List.map_append, List.map_take, List.map_drop]

theorem HoldsText.after_insert {o : OpSet} {obj : ObjID} {t : GoString} (h : HoldsText o obj t)
    (index : Int) (c : Char) (id : OpID) (actor seq : Nat) (h0 : 0 ≤ index)
    (hle : index ≤ (t.length : Int)) :
    ∃ o1, o.InsertList obj index (runeValue c) id actor seq = .ok o1 ∧
      HoldsText o1 obj (String.mk (t.toList.take index.toNat ++ c :: t.toList.drop index.toNat)) := by
  obtain ⟨rec, hrec⟩ : ∃ rec : opRecord, rec = { zeroRecord with
      kind := opListInsert, obj := obj, index := index, value := runeValue c, id := id,
      actor := actor, seq := seq } := ⟨_, rfl⟩
  refine ⟨o.record rec, ?_, ?_⟩
  · unfold OpSet.InsertList
    rw [h.listType]
    dsimp only
    rw [if_neg (by omega), hrec]
  · apply HoldsText.step_record rec h (by rw [hrec])
    intro st hl
    have hlen : st.l.length = t.length := by
      have := congrArg List.length hl
      simpa using this
    have hk : rec.kind = opListInsert := by rw [hrec]
    have hi : rec.index = index := by rw [hrec]
    refine ⟨_, applyRecordObj_insert st rec hk (by rw [hi]; exact h0)
      (by rw [hi, hlen]; exact hle), ?_⟩
    have hw : OpSet.winner { versions := [versionOf rec] } = some (runeValue c) := by
      rw [hrec]; rfl
    rw [hi, insertAt, List.map_append, List.map_cons, List.map_take, List.map_drop, hl, hw]
    show _ = List.map _ (t.toList.take index.toNat ++ c :: t.toList.drop index.toNat)
    rw [List.map_append, List.map_cons, List.map_take, List.map_drop]

/-- The first loop of `SpliceText` on a text: `n` deletions at `index` remove the next `n`
characters. -/
theorem spliceDeletes_text (obj : ObjID) (index : Int) (actor : Nat) (h0 : 0 ≤ index) :
    ∀ (n : Nat) (o : OpSet) (seq : Nat) (t : GoString), seq < 2 ^ 64 → HoldsText o obj t →
      index + n ≤ (t.length : Int) →
      ∃ o1, OpSet.spliceDeletes obj index actor n o seq = .ok (o1, (seq + n) % 2 ^ 64) ∧
        HoldsText o1 obj
          (String.mk (t.toList.take index.toNat ++ t.toList.drop (index.toNat + n))) := by
  intro n
  induction n with
  | zero =>
    intro o seq t hseq h _
    refine ⟨o, ?_, ?_⟩
    · simp only [OpSet.spliceDeletes, Nat.add_zero, Nat.mod_eq_of_lt hseq]
    · have : String.mk (t.toList.take index.toNat ++ t.toList.drop (index.toNat + 0)) = t := by
        apply String.ext
        simp
      rw [this]
      exact h
  | succ n ih =>
    intro o seq t hseq h hfit
    obtain ⟨o1, hdel, h1⟩ := h.after_delete index
      { Counter := (seq + 1) % 2 ^ 64, Actor := actor } actor ((seq + 1) % 2 ^ 64) h0
      (by push_cast at hfit; omega)
    have hlen : (String.mk (t.toList.take index.toNat ++
        t.toList.drop (index.toNat + 1))).length = t.length - 1 := by
      show (t.toList.take index.toNat ++ t.toList.drop (index.toNat + 1)).length = _
      have : t.toList.length = t.length := rfl
      rw [List.length_append, List.length_take, List.length_drop, this]
      have : index.toNat < t.length := by push_cast at hfit; omega
      omega
    obtain ⟨o2, hrest, h2⟩ := ih o1 ((seq + 1) % 2 ^ 64) _ (Nat.mod_lt _ (by norm_num)) h1
      (by rw [hlen]; push_cast at hfit; omega)
    refine ⟨o2, ?_, ?_⟩
    · unfold OpSet.spliceDeletes
      dsimp only
      rw [hdel]
      dsimp only
      rw [hrest]
      congr 2
      omega
    · have e : String.mk ((String.mk (t.toList.take index.toNat ++
          t.toList.drop (index.toNat + 1))).toList.take index.toNat ++
          (String.mk (t.toList.take index.toNat ++
            t.toList.drop (index.toNat + 1))).toList.drop (index.toNat + n)) =
          String.mk (t.toList.take index.toNat ++ t.toList.drop (index.toNat + (n + 1))) := by
        apply String.ext
        show (t.toList.take index.toNat ++ t.toList.drop (index.toNat + 1)).take index.toNat ++
          (t.toList.take index.toNat ++ t.toList.drop (index.toNat + 1)).drop (index.toNat + n) =
          t.toList.take index.toNat ++ t.toList.drop (index.toNat + (n + 1))
        have hil : index.toNat ≤ t.toList.length := by
          have : t.toList.length = t.length := rfl
          push_cast at hfit
          omega
        have hlt : (t.toList.take index.toNat).length = index.toNat := by
          rw [List.length_take]; omega
        rw [List.take_append_of_le_length (by omega), List.take_of_length_le (by omega),
          List.drop_append_eq_append_drop, List.drop_of_length_le (by omega), List.nil_append,
          hlt, List.drop_drop]
        congr 2
        omega
      rw [← e]
      exact h2

/-- The second loop of `SpliceText` on a text: the characters are inserted in order at
`index`. -/
theorem spliceInserts_text (obj : ObjID) (actor : Nat) :
    ∀ (rs : List Char) (o : OpSet) (index : Int) (seq : Nat) (t : GoString), 0 ≤ index →
      seq < 2 ^ 64 → HoldsText o obj t → index ≤ (t.length : Int) →
      ∃ o1, OpSet.spliceInserts obj actor rs o index seq = .ok (o1, (seq + rs.length) % 2 ^ 64) ∧
        HoldsText o1 obj
          (String.mk (t.toList.take index.toNat ++ rs ++ t.toList.drop index.toNat)) := by
  intro rs
  induction rs with
  | nil =>
    intro o index seq t _ hseq h _
    refine ⟨o, ?_, ?_⟩
    · simp only [OpSet.spliceInserts, List.length_nil, Nat.add_zero, Nat.mod_eq_of_lt hseq]
    · have : String.mk (t.toList.take index.toNat ++ [] ++ t.toList.drop index.toNat) = t := by
        apply String.ext
        simp
      rw [this]
      exact h
  | cons c rest ih =>
    intro o index seq t h0 hseq h hle
    obtain ⟨o1, hins, h1⟩ := h.after_insert index c
      { Counter := (seq + 1) % 2 ^ 64, Actor := actor } actor ((seq + 1) % 2 ^ 64) h0 hle
    have hil : index.toNat ≤ t.toList.length := by
      have : t.toList.length = t.length := rfl
      omega
    have hlen : (String.mk (t.toList.take index.toNat ++ c :: t.toList.drop index.toNat)).length =
        t.length + 1 := by
      show (t.toList.take index.toNat ++ c :: t.toList.drop index.toNat).length = _
      have : t.toList.length = t.length := rfl
      rw [List.length_append, List.length_cons, List.length_take, List.length_drop, this]
      omega
    obtain ⟨o2, hrest, h2⟩ := ih o1 (index + 1) ((seq + 1) % 2 ^ 64) _ (by omega)
      (Nat.mod_lt _ (by norm_num)) h1 (by rw [hlen]; push_cast; omega)
    refine ⟨o2, ?_, ?_⟩
    · unfold OpSet.spliceInserts
      dsimp only
      have hv : NewScalarValue (StringValue (String.singleton c)) = runeValue c := rfl
      rw [hv, hins]
      dsimp only
      rw [hrest]
      congr 2
      rw [List.length_cons]
      omega
    · have hi1 : (index + 1).toNat = index.toNat + 1 := by omega
      have hlt : (t.toList.take index.toNat).length = index.toNat := by
        rw [List.length_take]; omega
      have e : String.mk ((String.mk (t.toList.take index.toNat ++
          c :: t.toList.drop index.toNat)).toList.take (index + 1).toNat ++ rest ++
          (String.mk (t.toList.take index.toNat ++
            c :: t.toList.drop index.toNat)).toList.drop (index + 1).toNat) =
          String.mk (t.toList.take index.toNat ++ c :: rest ++ t.toList.drop index.toNat) := by
        apply String.ext
        show (t.toList.take index.toNat ++ c :: t.toList.drop index.toNat).take (index + 1).toNat
          ++ rest ++
          (t.toList.take index.toNat ++ c :: t.toList.drop index.toNat).drop (index + 1).toNat =
          t.toList.take index.toNat ++ c :: rest ++ t.toList.drop index.toNat
        have ht1 : (t.toList.take index.toNat).take (index.toNat + 1) =
            t.toList.take index.toNat := List.take_of_length_le (by rw [hlt]; omega)
        have hd1 : (t.toList.take index.toNat).drop (index.toNat + 1) = [] :=
          List.drop_of_length_le (by rw [hlt]; omega)
        rw [hi1, List.take_append_eq_append_take, List.drop_append_eq_append_drop, hlt, ht1, hd1]
        simp
      rw [← e]
      exact h2

/-- C21 (as amended): for every text object that holds the characters of `t` (each
element a string of one character, as `SpliceText` inserts them), every `index` and
`deleteCount` with `0 ≤ index`, `0 ≤ deleteCount` and `index + deleteCount ≤ len(t)`, and
every string `ins`, `SpliceText(obj, index, deleteCount, ins, actor, startSeq)` succeeds,
afterwards `Text(obj)` is `t[0..index) ++ ins ++ t[index+deleteCount..)` and the object
again holds such a text, and the returned counter is
`startSeq + deleteCount + rune count of ins` in `uint64`. -/
theorem SpliceText_text (o : OpSet) (obj : ObjID) (t ins : GoString) (index deleteCount : Int)
    (actor startSeq : Nat) (ht : HoldsText o obj t) (hseq : startSeq < 2 ^ 64)
    (h0 : 0 ≤ index) (hd : 0 ≤ deleteCount) (hfit : index + deleteCount ≤ (t.length : Int)) :
    o.Text obj none = .ok t ∧
    ∃ o1, o.SpliceText obj index deleteCount ins actor startSeq =
        .ok (o1, (startSeq + deleteCount.toNat + ins.length) % 2 ^ 64) ∧
      o1.Text obj none = .ok (String.mk (t.toList.take index.toNat ++ ins.toList ++
        t.toList.drop (index.toNat + deleteCount.toNat))) ∧
      HoldsText o1 obj (String.mk (t.toList.take index.toNat ++ ins.toList ++
        t.toList.drop (index.toNat + deleteCount.toNat))) ∧
      (startSeq + deleteCount.toNat + ins.length < 2 ^ 64 →
        o.SpliceText obj index deleteCount ins actor startSeq =
          .ok (o1, startSeq + deleteCount.toNat + ins.length)) := by
  refine ⟨ht.text, ?_⟩
  obtain ⟨o1, hdel, h1⟩ := spliceDeletes_text obj index actor h0 deleteCount.toNat o startSeq t
    hseq ht (by omega)
  have hil : index.toNat ≤ t.toList.length := by
    have : t.toList.length = t.length := rfl
    omega
  have hlen1 : (index : Int) ≤ ((String.mk (t.toList.take index.toNat ++
      t.toList.drop (index.toNat + deleteCount.toNat))).length : Int) := by
    have : (String.mk (t.toList.take index.toNat ++
        t.toList.drop (index.toNat + deleteCount.toNat))).length =
        (t.toList.take index.toNat ++ t.toList.drop (index.toNat + deleteCount.toNat)).length :=
      rfl
    rw [this, List.length_append, List.length_take]
    push_cast
    omega
  obtain ⟨o2, hins, h2⟩ := spliceInserts_text obj actor ins.toList o1 index
    ((startSeq + deleteCount.toNat) % 2 ^ 64) _ h0 (Nat.mod_lt _ (by norm_num)) h1 hlen1
  have hlt : (t.toList.take index.toNat).length = index.toNat := by
    rw [List.length_take]; omega
  have e : String.mk ((String.mk (t.toList.take index.toNat ++
      t.toList.drop (index.toNat + deleteCount.toNat))).toList.take index.toNat ++ ins.toList ++
      (String.mk (t.toList.take index.toNat ++
        t.toList.drop (index.toNat + deleteCount.toNat))).toList.drop index.toNat) =
      String.mk (t.toList.take index.toNat ++ ins.toList ++
        t.toList.drop (index.toNat + deleteCount.toNat)) := by
    apply String.ext
    show (t.toList.take index.toNat ++ t.toList.drop (index.toNat + deleteCount.toNat)).take
        index.toNat ++ ins.toList ++
      (t.toList.take index.toNat ++ t.toList.drop (index.toNat + deleteCount.toNat)).drop
        index.toNat =
      t.toList.take index.toNat ++ ins.toList ++ t.toList.drop (index.toNat + deleteCount.toNat)
    have ht1 : (t.toList.take index.toNat).take index.toNat = t.toList.take index.toNat :=
      List.take_of_length_le (le_of_eq hlt)
    have hd1 : (t.toList.take index.toNat).drop index.toNat = [] :=
      List.drop_of_length_le (le_of_eq hlt)
    rw [List.take_append_eq_append_take, List.drop_append_eq_append_drop, hlt, ht1, hd1]
    simp
  rw [e] at h2
  have hcall : o.SpliceText obj index deleteCount ins actor startSeq =
      .ok (o2, (startSeq + deleteCount.toNat + ins.length) % 2 ^ 64) := by
    unfold OpSet.SpliceText
    rw [ht.1]
    dsimp only
    rw [if_neg (by omega), hdel]
    dsimp only
    rw [hins]
    congr 2
    have : ins.toList.length = ins.length := rfl
    rw [this]
    omega
  refine ⟨o2, hcall, h2.text, h2, ?_⟩
  intro hno
  rw [hcall, Nat.mod_eq_of_lt hno]

theorem holdsText_hello : HoldsText helloOpSet firstObject "hello" :=
  ⟨rfl, _, _, rfl, rfl, rfl⟩

/-- C21 (witness): the text `"hello"` spliced at 1, deleting 2 and inserting `"a"`, with
the counter 5 of the first splice: the text becomes `"halo"` and the counter 8. -/
theorem SpliceText_text_witness :
    HoldsText helloOpSet firstObject "hello" ∧
    String.mk ("hello".toList.take 1 ++ "a".toList ++ "hello".toList.drop (1 + 2)) = "halo" ∧
    helloOpSet.Text firstObject none = .ok "hello" ∧
    ∃ o1, helloOpSet.SpliceText firstObject 1 2 "a" 1 5 = .ok (o1, (5 + 2 + 1) % 2 ^ 64) ∧
      o1.Text firstObject none = .ok (String.mk ("hello".toList.take 1 ++ "a".toList ++
        "hello".toList.drop (1 + 2))) ∧
      HoldsText o1 firstObject (String.mk ("hello".toList.take 1 ++ "a".toList ++
        "hello".toList.drop (1 + 2))) ∧
      (5 + 2 + 1 < 2 ^ 64 →
        helloOpSet.SpliceText firstObject 1 2 "a" 1 5 = .ok (o1, 5 + 2 + 1)) :=
  ⟨holdsText_hello, by decide,
    SpliceText_text helloOpSet firstObject "hello" "a" 1 2 1 5 holdsText_hello (by norm_num)
      (by decide) (by decide) (by decide)⟩

/-- C21 (counterexample): on the text `"hello"`, `index = 2` and `deleteCount = -1`
satisfy `0 ≤ index` and `index + deleteCount ≤ len(t)`, but `SpliceText` returns
`ErrInvalidIndex` at its guard `deleteCount < 0` and the text stays `"hello"`, which is
not `t[0..2) ++ "x" ++ t[1..)`. -/
theorem SpliceText_negative_deleteCount :
    HoldsText helloOpSet firstObject "hello" ∧
    (0 : Int) ≤ 2 ∧ (2 : Int) + (-1) ≤ (("hello".length : Nat) : Int) ∧
    helloOpSet.SpliceText firstObject 2 (-1) "x" 1 5 = .error .ErrInvalidIndex ∧
    helloOpSet.Text firstObject none = .ok "hello" ∧
    "hello" ≠ String.mk ("hello".toList.take 2 ++ "x".toList ++ "hello".toList.drop 1) :=
  ⟨holdsText_hello, by decide, by decide, rfl, rfl, by decide⟩

end opset

/-! ## Marks at an index -/

namespace opset

open model

theorem applyRecordObj_mk (st st1 : objectState) (op : opRecord)
    (h : applyRecordObj st op = .ok st1) :
    st1.mk = st.mk ++ (if op.kind = opMark then [markOf op] else []) := by
  have hne : ∀ k : opKind, op.kind = k → k ≠ opMark →
      st.mk ++ (if op.kind = opMark then [markOf op] else []) = st.mk := by
    intro k hk hn
    rw [if_neg (by rw [hk]; exact hn), List.append_nil]
  unfold applyRecordObj at h
  by_cases h1 : op.kind = opMapPut
  · rw [if_pos h1] at h
    rw [hne _ h1 (by decide)]
    cases hm : st.m with
    | none => simp only [hm] at h; cases h
    | some mm => simp only [hm] at h; injection h with h; rw [← h]
  · rw [if_neg h1] at h
    by_cases h2 : op.kind = opMapDelete
    · rw [if_pos h2] at h
      rw [hne _ h2 (by decide)]
      cases hm : st.m with
      | none => simp only [hm] at h; injection h with h; rw [← h]
      | some mm =>
        simp only [hm] at h
        cases hg : GoMap.get? mm op.key with
        | none => simp only [hg] at h; injection h with h; rw [← h]
        | some e => simp only [hg] at h; injection h with h; rw [← h]
    · rw [if_neg h2] at h
      by_cases h3 : op.kind = opListInsert
      · rw [if_pos h3] at h
        rw [hne _ h3 (by decide)]
        split_ifs at h <;> (injection h with h; rw [← h])
      · rw [if_neg h3] at h
        by_cases h4 : op.kind = opListSet
        · rw [if_pos h4] at h
          rw [hne _ h4 (by decide)]
          split_ifs at h
          · injection h with h; rw [← h]
          · cases hg : st.l[op.index.toNat]? with
            | none => simp only [hg] at h; cases h
            | some e => simp only [hg] at h; injection h with h; rw [← h]
        · rw [if_neg h4] at h
          by_cases h5 : op.kind = opListDelete
          · rw [if_pos h5] at h
            rw [hne _ h5 (by decide)]
            split_ifs at h <;> (injection h with h; rw [← h])
          · rw [if_neg h5] at h
            by_cases h6 : op.kind = opMark
            · rw [if_pos h6] at h
              rw [if_pos h6]
              injection h with h
              rw [← h]
              rfl
            · rw [if_neg h6] at h
              rw [if_neg h6, List.append_nil]
              injection h with h
              rw [← h]

theorem visibleMarks_cons (cover : Option changegraph.Clock) (obj : ObjID) (r : opRecord)
    (rest : List opRecord) :
    visibleMarks cover obj (r :: rest) =
      (if covered cover r = true ∧ r.obj = obj ∧ r.kind = opMark then [markOf r] else []) ++
        visibleMarks cover obj rest := by
  unfold visibleMarks
  by_cases h : covered cover r = true ∧ r.obj = obj ∧ r.kind = opMark
  · rw [if_pos h]
    obtain ⟨h1, h2, h3⟩ := h
    simp [List.filter_cons, h1, h2, h3]
  · rw [if_neg h, List.nil_append]
    have : (covered cover r && decide (r.obj = obj) && decide (r.kind = opMark)) = false := by
      rw [Bool.eq_false_iff]
      intro hc
      simp only [Bool.and_eq_true, decide_eq_true_eq] at hc
      exact h ⟨hc.1.1, hc.1.2, hc.2⟩
    rw [List.filter_cons, this]
    rfl

/-- The marks that the replay loop leaves on an object: those it had, followed by the
marks of the visible mark records on it; an object that the state does not hold is not
created. -/
theorem replay_marks (cover : Option changegraph.Clock) :
    ∀ (ops : List opRecord) (S S1 : GoMap ObjID objectState), replay cover ops S = .ok S1 →
      ∀ obj, (GoMap.get? S obj = none → GoMap.get? S1 obj = none) ∧
        ∀ st, GoMap.get? S obj = some st →
          ∃ st1, GoMap.get? S1 obj = some st1 ∧ st1.mk = st.mk ++ visibleMarks cover obj ops := by
  intro ops
  induction ops with
  | nil =>
    intro S S1 h obj
    injection h with h
    subst h
    exact ⟨fun h => h, fun st hst => ⟨st, hst, by simp [visibleMarks]⟩⟩
  | cons r rest ih =>
    intro S S1 h obj
    rw [replay_cons] at h
    rw [visibleMarks_cons]
    by_cases hc : covered cover r = true
    · rw [if_pos hc] at h
      cases ha : applyRecord S r with
      | error e => rw [ha] at h; cases h
      | ok S2 =>
        rw [ha] at h
        have ih2 := ih S2 S1 h obj
        unfold applyRecord at ha
        cases hg : GoMap.get? S r.obj with
        | none =>
          rw [hg] at ha
          injection ha with ha
          subst ha
          by_cases ho : r.obj = obj
          · refine ⟨ih2.1, ?_⟩
            intro st hst
            rw [ho, hst] at hg
            cases hg
          · rw [if_neg (fun hh => ho hh.2.1), List.nil_append]
            exact ih2
        | some ost =>
          rw [hg] at ha
          dsimp only at ha
          cases hao : applyRecordObj ost r with
          | error e => rw [hao] at ha; cases ha
          | ok ost1 =>
            rw [hao] at ha
            injection ha with ha
            subst ha
            have hmk := applyRecordObj_mk ost ost1 r hao
            by_cases ho : r.obj = obj
            · subst ho
              have hget : GoMap.get? (GoMap.set S r.obj ost1) r.obj = some ost1 :=
                GoMap.get?_set_self _ _ _
              refine ⟨?_, ?_⟩
              · intro hn
                rw [hn] at hg
                cases hg
              · intro st hst
                rw [hst] at hg
                injection hg with hg
                subst hg
                obtain ⟨st1, h1, h2⟩ := ih2.2 ost1 hget
                refine ⟨st1, h1, ?_⟩
                rw [h2, hmk, List.append_assoc]
                congr 1
                by_cases hk : r.kind = opMark
                · rw [if_pos hk, if_pos ⟨hc, rfl, hk⟩]
                · rw [if_neg hk, if_neg (fun hh => hk hh.2.2)]
            · have hget : GoMap.get? (GoMap.set S r.obj ost1) obj = GoMap.get? S obj :=
                GoMap.get?_set_ne _ _ _ _ (fun e => ho e.symm)
              rw [if_neg (fun hh => ho hh.2.1), List.nil_append]
              rw [hget] at ih2
              exact ih2
    · rw [if_neg hc] at h
      rw [if_neg (fun hh => hc hh.1), List.nil_append]
      exact ih S S1 h obj

theorem anchored_record {o : OpSet} (ha : Anchored o) (rec : opRecord)
    (hc : GoMap.contains o.objects rec.obj = true) : Anchored (o.record rec) := by
  intro r hr
  rw [record_objects]
  rw [record_ops] at hr
  rcases List.mem_append.1 hr with hr | hr
  · exact ha r hr
  · rw [List.mem_singleton.1 hr]
    exact hc

theorem anchored_createObject {o : OpSet} (ha : Anchored o) (id : ObjID) (typ : ObjType) :
    Anchored (o.CreateObject id typ) := by
  intro r hr
  have hops : (o.CreateObject id typ).ops = o.ops := by
    unfold OpSet.CreateObject
    cases GoMap.get? o.objects id <;> rfl
  rw [hops] at hr
  exact (objectsLE_createObject o id typ).contains r.obj (ha r hr)

theorem anchored_spliceDeletes (obj : ObjID) (index : Int) (actor : Nat) :
    ∀ (n : Nat) (o : OpSet) (seq : Nat) (o1 : OpSet) (seq1 : Nat), Anchored o →
      OpSet.spliceDeletes obj index actor n o seq = .ok (o1, seq1) → Anchored o1 := by
  intro n
  induction n with
  | zero =>
    intro o seq o1 seq1 ha h
    simp only [OpSet.spliceDeletes] at h
    injection h with h
    injection h with h1 h2
    subst h1
    exact ha
  | succ n ih =>
    intro o seq o1 seq1 ha h
    unfold OpSet.spliceDeletes at h
    dsimp only at h
    split at h
    · cases h
    · rename_i o2 hd
      obtain ⟨he, -, ho2⟩ := DeleteList_ok _ _ _ _ _ _ _ hd
      refine ih o2 _ o1 seq1 ?_ h
      rw [ho2]
      exact anchored_record ha _ (ensureType_contains _ _ _ he)

theorem anchored_spliceInserts (obj : ObjID) (actor : Nat) :
    ∀ (rs : List Char) (o : OpSet) (index : Int) (seq : Nat) (o1 : OpSet) (seq1 : Nat),
      Anchored o → OpSet.spliceInserts obj actor rs o index seq = .ok (o1, seq1) →
      Anchored o1 := by
  intro rs
  induction rs with
  | nil =>
    intro o index seq o1 seq1 ha h
    simp only [OpSet.spliceInserts] at h
    injection h with h
    injection h with h1 h2
    subst h1
    exact ha
  | cons r rest ih =>
    intro o index seq o1 seq1 ha h
    unfold OpSet.spliceInserts at h
    dsimp only at h
    split at h
    · cases h
    · rename_i o2 hd
      obtain ⟨he, -, ho2⟩ := InsertList_ok _ _ _ _ _ _ _ _ hd
      refine ih o2 (index + 1) _ o1 seq1 ?_ h
      rw [ho2]
      exact anchored_record ha _ (ensureType_contains _ _ _ he)

/-- Every record of a reachable op set is on an object of the op set. -/
theorem Reachable.anchored {o : OpSet} (hr : Reachable o) : Anchored o := by
  induction hr with
  | new => intro r hr; cases hr
  | createObject o id typ _ ih => exact anchored_createObject ih id typ
  | putMap o o1 obj key value id actor seq _ h ih =>
    obtain ⟨he, ho⟩ := PutMap_ok _ _ _ _ _ _ _ _ h
    rw [ho]
    exact anchored_record ih _ (ensureType_contains _ _ _ he)
  | putMapRaw o o1 obj key value id actor seq pred _ h ih =>
    obtain ⟨he, ho⟩ := PutMapRaw_ok _ _ _ _ _ _ _ _ _ h
    rw [ho]
    exact anchored_record ih _ (ensureType_contains _ _ _ he)
  | deleteMap o o1 obj key id actor seq _ h ih =>
    obtain ⟨he, ho⟩ := DeleteMap_ok _ _ _ _ _ _ _ h
    rw [ho]
    exact anchored_record ih _ (ensureType_contains _ _ _ he)
  | insertList o o1 obj index value id actor seq _ h ih =>
    obtain ⟨he, -, ho⟩ := InsertList_ok _ _ _ _ _ _ _ _ h
    rw [ho]
    exact anchored_record ih _ (ensureType_contains _ _ _ he)
  | setList o o1 obj index value id actor seq _ h ih =>
    obtain ⟨he, pred, ho⟩ := SetList_ok _ _ _ _ _ _ _ _ h
    rw [ho]
    exact anchored_record ih _ (ensureType_contains _ _ _ he)
  | setListRaw o o1 obj index value id actor seq pred _ h ih =>
    obtain ⟨he, ho⟩ := SetListRaw_ok _ _ _ _ _ _ _ _ _ h
    rw [ho]
    exact anchored_record ih _ (ensureType_contains _ _ _ he)
  | deleteList o o1 obj index id actor seq _ h ih =>
    obtain ⟨he, -, ho⟩ := DeleteList_ok _ _ _ _ _ _ _ h
    rw [ho]
    exact anchored_record ih _ (ensureType_contains _ _ _ he)
  | incrementMapCounter o o1 obj key by_ id actor seq _ h ih =>
    obtain ⟨current, -, -, -, hput⟩ := IncrementMapCounter_ok _ _ _ _ _ _ _ _ h
    obtain ⟨he, ho⟩ := PutMap_ok _ _ _ _ _ _ _ _ hput
    rw [ho]
    exact anchored_record ih _ (ensureType_contains _ _ _ he)
  | spliceText o o1 obj index deleteCount insert actor startSeq seq _ h ih =>
    unfold OpSet.SpliceText at h
    cases he : o.ensureType obj [ObjText] with
    | error e => simp [he] at h
    | ok u =>
      simp only [he] at h
      split_ifs at h
      cases hd : OpSet.spliceDeletes obj index actor deleteCount.toNat o startSeq with
      | error e => simp [hd] at h
      | ok p =>
        obtain ⟨o2, seq2⟩ := p
        simp only [hd] at h
        exact anchored_spliceInserts obj actor _ o2 index seq2 o1 seq
          (anchored_spliceDeletes obj index actor _ o startSeq o2 seq2 ih hd) h
  | addMark o o1 obj start stop name value id actor seq _ h ih =>
    obtain ⟨he, -, -, ho⟩ := AddMark_ok _ _ _ _ _ _ _ _ _ _ h
    rw [ho]
    exact anchored_record ih _ (ensureType_contains _ _ _ he)

/-- The marks that `Marks` returns on a reachable op set: a permutation, sorted by
`markLess`, of the marks of the visible mark records on the object. -/
theorem Marks_spec {o : OpSet} (hr : Reachable o) (obj : ObjID)
    (cover : Option changegraph.Clock) :
    ∃ all, o.Marks obj cover = .ok all ∧ all.Perm (visibleMarks cover obj o.ops) := by
  obtain ⟨S1, hS1, -⟩ := replay_spec cover o.ops (freshState o.objects) hr.typed.putsOnMaps
  have hm := replay_marks cover o.ops _ S1 hS1 obj
  unfold OpSet.Marks OpSet.materialize
  rw [hS1]
  dsimp only
  cases hg : GoMap.get? (freshState o.objects) obj with
  | none =>
    rw [hm.1 hg]
    refine ⟨[], rfl, ?_⟩
    have hnone : GoMap.get? o.objects obj = none := by
      rw [freshState_get] at hg
      cases hgo : GoMap.get? o.objects obj with
      | none => rfl
      | some x => rw [hgo] at hg; cases hg
    have : visibleMarks cover obj o.ops = [] := by
      unfold visibleMarks
      rw [List.map_eq_nil_iff, List.filter_eq_nil_iff]
      intro r hrm hc
      simp only [Bool.and_eq_true, decide_eq_true_eq] at hc
      have := hr.anchored r hrm
      rw [hc.1.2] at this
      unfold GoMap.contains at this
      rw [hnone] at this
      cases this
    rw [this]
  | some st0 =>
    obtain ⟨st1, h1, h2⟩ := hm.2 st0 hg
    rw [h1]
    refine ⟨_, rfl, ?_⟩
    have hmk0 : st0.mk = [] := by
      rw [freshState_get] at hg
      cases hgo : GoMap.get? o.objects obj with
      | none => rw [hgo] at hg; cases hg
      | some x =>
        rw [hgo] at hg
        simp only [Option.map_some', Option.some.injEq] at hg
        rw [← hg]
        split_ifs <;> rfl
    rw [h2, hmk0, List.nil_append]
    exact List.perm_insertionSort _ _

theorem GoMap.mem_of_get? {κ ν : Type} [DecidableEq κ] (m : GoMap κ ν) (k : κ) (v : ν)
    (h : GoMap.get? m k = some v) : (k, v) ∈ m := by
  induction m with
  | nil => cases h
  | cons p rest ih =>
    obtain ⟨a, b⟩ := p
    unfold GoMap.get? at h
    by_cases hk : a = k
    · rw [if_pos hk] at h
      injection h with h
      rw [hk, h]
      exact List.mem_cons_self _ _
    · rw [if_neg hk] at h
      exact List.mem_cons_of_mem _ (ih h)

theorem GoMap.get?_of_mem {κ ν : Type} [DecidableEq κ] (m : GoMap κ ν) (k : κ) (v : ν)
    (hn : (GoMap.keys m).Nodup) (h : (k, v) ∈ m) : GoMap.get? m k = some v := by
  induction m with
  | nil => cases h
  | cons p rest ih =>
    obtain ⟨a, b⟩ := p
    have hn' : a ∉ GoMap.keys rest ∧ (GoMap.keys rest).Nodup := by
      simpa [GoMap.keys] using hn
    unfold GoMap.get?
    rcases List.mem_cons.1 h with h | h
    · injection h with h1 h2
      rw [if_pos h1.symm, h2]
    · have hne : ¬ a = k := by
        intro e
        apply hn'.1
        rw [e]
        exact List.mem_map_of_mem Prod.fst h
      rw [if_neg hne]
      exact ih hn'.2 h

theorem compare_lt_iff (a b : OpID) :
    a.Compare b < 0 ↔ a.Counter < b.Counter ∨ (a.Counter = b.Counter ∧ a.Actor < b.Actor) := by
  unfold OpID.Compare
  split_ifs <;> constructor <;> intro h <;> omega

/-- The invariant of the loop of `MarksAtIndex` over the marks `L` seen so far. -/
theorem byName_fold (L : List Mark) :
    ∀ (done : List Mark) (acc : GoMap GoString Mark), (GoMap.keys acc).Nodup →
      (∀ p ∈ acc, p.2.Name = p.1 ∧ p.2 ∈ done ∧
        ∀ m ∈ done, m.Name = p.1 → m.OpID.Compare p.2.OpID ≤ 0) →
      (∀ m ∈ done, m.Name ∈ GoMap.keys acc) →
      (GoMap.keys (L.foldl byNameStep acc)).Nodup ∧
      (∀ p ∈ L.foldl byNameStep acc, p.2.Name = p.1 ∧ p.2 ∈ done ++ L ∧
        ∀ m ∈ done ++ L, m.Name = p.1 → m.OpID.Compare p.2.OpID ≤ 0) ∧
      (∀ m ∈ done ++ L, m.Name ∈ GoMap.keys (L.foldl byNameStep acc)) := by
  induction L with
  | nil =>
    intro done acc h1 h2 h3
    simp only [List.foldl_nil, List.append_nil]
    exact ⟨h1, h2, h3⟩
  | cons m rest ih =>
    intro done acc h1 h2 h3
    rw [List.foldl_cons]
    have hstep : (GoMap.keys (byNameStep acc m)).Nodup ∧
        (∀ p ∈ byNameStep acc m, p.2.Name = p.1 ∧ p.2 ∈ done ++ [m] ∧
          ∀ x ∈ done ++ [m], x.Name = p.1 → x.OpID.Compare p.2.OpID ≤ 0) ∧
        (∀ x ∈ done ++ [m], x.Name ∈ GoMap.keys (byNameStep acc m)) := by
      have hself : m.OpID.Compare m.OpID ≤ 0 := by rw [compare_le_iff]; omega
      have hset : (GoMap.keys (GoMap.set acc m.Name m)).Nodup ∧
          (∀ x ∈ done ++ [m], x.Name ∈ GoMap.keys (GoMap.set acc m.Name m)) ∧
          (∀ p ∈ GoMap.set acc m.Name m, p.1 ≠ m.Name → p.2.Name = p.1 ∧ p.2 ∈ done ++ [m] ∧
            ∀ x ∈ done ++ [m], x.Name = p.1 → x.OpID.Compare p.2.OpID ≤ 0) := by
        refine ⟨GoMap.nodup_keys_set _ _ _ h1, ?_, ?_⟩
        · intro x hx
          rw [GoMap.mem_keys_set]
          by_cases hxn : x.Name = m.Name
          · exact Or.inr hxn
          · rcases List.mem_append.1 hx with hx | hx
            · exact Or.inl ⟨h3 x hx, hxn⟩
            · rw [List.mem_singleton.1 hx] at hxn
              exact absurd rfl hxn
        · intro p hp hne
          rw [GoMap.mem_set_iff] at hp
          rcases hp with ⟨hp, -⟩ | hp
          · obtain ⟨a, b, c⟩ := h2 p hp
            refine ⟨a, List.mem_append_left _ b, ?_⟩
            intro x hx hxn
            rcases List.mem_append.1 hx with hx | hx
            · exact c x hx hxn
            · rw [List.mem_singleton.1 hx] at hxn
              exact absurd hxn.symm hne
          · rw [hp] at hne
            exact absurd rfl hne
      unfold byNameStep
      cases hg : GoMap.get? acc m.Name with
      | none =>
        dsimp only
        refine ⟨hset.1, ?_, hset.2.1⟩
        intro p hp
        by_cases hne : p.1 = m.Name
        · have hpm : p = (m.Name, m) := by
            rw [GoMap.mem_set_iff] at hp
            rcases hp with ⟨-, hp⟩ | hp
            · exact absurd hne hp
            · exact hp
          rw [hpm]
          refine ⟨rfl, List.mem_append_right _ (List.mem_singleton_self m), ?_⟩
          intro x hx hxn
          rcases List.mem_append.1 hx with hx | hx
          · exfalso
            have := (GoMap.get?_isSome_iff_mem_keys acc x.Name).2 (h3 x hx)
            rw [hxn, hg] at this
            cases this
          · rw [List.mem_singleton.1 hx]
            exact hself
        · exact hset.2.2 p hp hne
      | some curr =>
        dsimp only
        have hcurr := h2 _ (GoMap.mem_of_get? acc m.Name curr hg)
        by_cases hlt : curr.OpID.Compare m.OpID < 0
        · rw [if_pos hlt]
          refine ⟨hset.1, ?_, hset.2.1⟩
          intro p hp
          by_cases hne : p.1 = m.Name
          · have hpm : p = (m.Name, m) := by
              rw [GoMap.mem_set_iff] at hp
              rcases hp with ⟨-, hp⟩ | hp
              · exact absurd hne hp
              · exact hp
            rw [hpm]
            refine ⟨rfl, List.mem_append_right _ (List.mem_singleton_self m), ?_⟩
            intro x hx hxn
            rcases List.mem_append.1 hx with hx | hx
            · have := hcurr.2.2 x hx hxn
              dsimp only at this ⊢
              rw [compare_le_iff] at this ⊢
              rw [compare_lt_iff] at hlt
              omega
            · rw [List.mem_singleton.1 hx]
              exact hself
          · exact hset.2.2 p hp hne
        · rw [if_neg hlt]
          refine ⟨h1, ?_, ?_⟩
          · intro p hp
            obtain ⟨a, b, c⟩ := h2 p hp
            refine ⟨a, List.mem_append_left _ b, ?_⟩
            intro x hx hxn
            rcases List.mem_append.1 hx with hx | hx
            · exact c x hx hxn
            · rw [List.mem_singleton.1 hx] at hxn ⊢
              have hp2 : GoMap.get? acc p.1 = some p.2 := GoMap.get?_of_mem acc p.1 p.2 h1 hp
              rw [← hxn, hg] at hp2
              injection hp2 with hp2
              rw [← hp2]
              rw [compare_lt_iff] at hlt
              rw [compare_le_iff]
              omega
          · intro x hx
            rcases List.mem_append.1 hx with hx | hx
            · exact h3 x hx
            · rw [List.mem_singleton.1 hx]
              apply (GoMap.get?_isSome_iff_mem_keys acc m.Name).1
              rw [hg]
              rfl
    obtain ⟨s1, s2, s3⟩ := hstep
    have := ih (done ++ [m]) (byNameStep acc m) s1 s2 s3
    simpa [List.append_assoc] using this

theorem markNameLess_false_iff (a b : Mark) :
    markNameLess b a = false ↔
      a.Name < b.Name ∨ (a.Name = b.Name ∧ a.OpID.Compare b.OpID ≤ 0) := by
  unfold markNameLess
  by_cases hn : b.Name = a.Name
  · rw [if_neg (by rw [hn]; exact fun h => h rfl), decide_eq_false_iff_not, compare_lt_iff,
      compare_le_iff]
    constructor
    · intro h
      refine Or.inr ⟨hn.symm, ?_⟩
      omega
    · rintro (h | ⟨-, h⟩)
      · rw [hn] at h
        exact absurd h (lt_irrefl _)
      · omega
  · rw [if_pos hn, decide_eq_false_iff_not]
    constructor
    · intro h
      exact Or.inl (lt_of_le_of_ne (not_lt.1 h) (fun e => hn e.symm))
    · rintro (h | ⟨h, -⟩)
      · exact not_lt.2 (le_of_lt h)
      · exact absurd h.symm hn

instance markNameLE_isTotal : IsTotal Mark (fun a b => markNameLess b a = false) :=
  ⟨fun a b => by
    rw [markNameLess_false_iff, markNameLess_false_iff, compare_le_iff, compare_le_iff]
    rcases lt_trichotomy a.Name b.Name with h | h | h
    · exact Or.inl (Or.inl h)
    · have h' := h.symm
      by_cases hc : a.OpID.Counter < b.OpID.Counter ∨
          (a.OpID.Counter = b.OpID.Counter ∧ a.OpID.Actor ≤ b.OpID.Actor)
      · exact Or.inl (Or.inr ⟨h, hc⟩)
      · exact Or.inr (Or.inr ⟨h', by omega⟩)
    · exact Or.inr (Or.inl h)⟩

instance markNameLE_isTrans : IsTrans Mark (fun a b => markNameLess b a = false) :=
  ⟨fun a b c => by
    rw [markNameLess_false_iff, markNameLess_false_iff, markNameLess_false_iff, compare_le_iff,
      compare_le_iff, compare_le_iff]
    rintro (h1 | ⟨h1, c1⟩) (h2 | ⟨h2, c2⟩)
    · exact Or.inl (lt_trans h1 h2)
    · exact Or.inl (h2 ▸ h1)
    · exact Or.inl (h1 ▸ h2)
    · exact Or.inr ⟨h1.trans h2, by omega⟩⟩

/-- C22: on every op set built by the write operations, `MarksAtIndex(obj, idx, clock)`
returns nothing for a negative `idx`; otherwise it returns marks with strictly ascending
names, each of them the mark of a mark record on `obj` that is visible in the clock and
has `start ≤ idx < end`, with an OpID that is greatest among the records of its name
there, and every name that has such a record is the name of a returned mark. -/
theorem MarksAtIndex_spec (o : OpSet) (hr : Reachable o) (obj : ObjID) (idx : Int)
    (cover : Option changegraph.Clock) :
    (idx < 0 → o.MarksAtIndex obj idx cover = .ok []) ∧
    ∃ out, o.MarksAtIndex obj idx cover = .ok out ∧
      (out.map Mark.Name).Pairwise (fun a b => a < b) ∧
      (∀ m ∈ out, m ∈ visibleMarks cover obj o.ops ∧ m.Start ≤ idx ∧ idx < m.End ∧
        ∀ m1 ∈ visibleMarks cover obj o.ops, m1.Start ≤ idx → idx < m1.End →
          m1.Name = m.Name → m1.OpID.Compare m.OpID ≤ 0) ∧
      (0 ≤ idx → ∀ m1 ∈ visibleMarks cover obj o.ops, m1.Start ≤ idx → idx < m1.End →
        ∃ m ∈ out, m.Name = m1.Name) := by
  have hneg : idx < 0 → o.MarksAtIndex obj idx cover = .ok [] := by
    intro h
    unfold OpSet.MarksAtIndex
    rw [if_pos h]
  refine ⟨hneg, ?_⟩
  by_cases hidx : idx < 0
  · exact ⟨[], hneg hidx, List.Pairwise.nil, (by intro m hm; cases hm), (by intro h; omega)⟩
  obtain ⟨all, hall, hperm⟩ := Marks_spec hr obj cover
  have hfilt : ∀ m, m ∈ all.filter (fun m => decide (m.Start ≤ idx ∧ idx < m.End)) ↔
      m ∈ visibleMarks cover obj o.ops ∧ m.Start ≤ idx ∧ idx < m.End := by
    intro m
    rw [List.mem_filter, hperm.mem_iff, decide_eq_true_iff]
  unfold OpSet.MarksAtIndex
  rw [if_neg hidx, hall]
  dsimp only
  by_cases hempty : (all.filter (fun m => decide (m.Start ≤ idx ∧ idx < m.End))).length = 0
  · rw [if_pos hempty]
    refine ⟨[], rfl, List.Pairwise.nil, (by intro m hm; cases hm), ?_⟩
    intro _ m1 hm1 h1 h2
    have := (hfilt m1).2 ⟨hm1, h1, h2⟩
    rw [List.length_eq_zero.1 hempty] at this
    cases this
  · rw [if_neg hempty]
    obtain ⟨f1, f2, f3⟩ := byName_fold
      (all.filter (fun m => decide (m.Start ≤ idx ∧ idx < m.End))) [] [] List.nodup_nil
      (by intro p hp; cases hp) (by intro m hm; cases hm)
    rw [List.nil_append] at f2 f3
    refine ⟨_, rfl, ?_, ?_, ?_⟩
    · have hsorted := List.sorted_insertionSort (fun a b : Mark => markNameLess b a = false)
        (((all.filter (fun m => decide (m.Start ≤ idx ∧ idx < m.End))).foldl byNameStep
          []).map Prod.snd)
      have hp := List.perm_insertionSort (fun a b : Mark => markNameLess b a = false)
        (((all.filter (fun m => decide (m.Start ≤ idx ∧ idx < m.End))).foldl byNameStep
          []).map Prod.snd)
      have hnames : ((((all.filter (fun m => decide (m.Start ≤ idx ∧ idx < m.End))).foldl
          byNameStep []).map Prod.snd).map Mark.Name) =
          GoMap.keys ((all.filter (fun m => decide (m.Start ≤ idx ∧ idx < m.End))).foldl
            byNameStep []) := by
        rw [List.map_map]
        unfold GoMap.keys
        apply List.map_congr_left
        intro p hp
        exact (f2 p hp).1
      have hnodup : ((List.insertionSort (fun a b : Mark => markNameLess b a = false)
          (((all.filter (fun m => decide (m.Start ≤ idx ∧ idx < m.End))).foldl byNameStep
            []).map Prod.snd)).map Mark.Name).Nodup := by
        rw [(hp.map Mark.Name).nodup_iff, hnames]
        exact f1
      rw [List.pairwise_map]
      have hne := List.pairwise_map.1 hnodup
      refine (hsorted.and hne).imp ?_
      intro a b hab
      obtain ⟨h1, h2⟩ := hab
      rw [markNameLess_false_iff] at h1
      rcases h1 with h1 | ⟨h1, -⟩
      · exact h1
      · exact absurd h1 h2
    · intro m hm
      rw [(List.perm_insertionSort _ _).mem_iff, List.mem_map] at hm
      obtain ⟨p, hp, rfl⟩ := hm
      obtain ⟨a, b, c⟩ := f2 p hp
      obtain ⟨b1, b2, b3⟩ := (hfilt p.2).1 b
      refine ⟨b1, b2, b3, ?_⟩
      intro m1 hm1 h1 h2 hn
      exact c m1 ((hfilt m1).2 ⟨hm1, h1, h2⟩) (hn.trans a)
    · intro _ m1 hm1 h1 h2
      have hk := f3 m1 ((hfilt m1).2 ⟨hm1, h1, h2⟩)
      unfold GoMap.keys at hk
      rw [List.mem_map] at hk
      obtain ⟨p, hp, hp1⟩ := hk
      refine ⟨p.2, ?_, ?_⟩
      · rw [(List.perm_insertionSort _ _).mem_iff]
        exact List.mem_map_of_mem Prod.snd hp
      · rw [(f2 p hp).1, hp1]

theorem marksOpSet_reachable : Reachable marksOpSet :=
  Reachable.addMark marksOpSet3 marksOpSet marksText 2 4 "em"
    { zeroScalar with Kind := ScalarBoolean, Boolean := true } { Counter := 7, Actor := 1 } 1 7
    (Reachable.addMark marksOpSet2 marksOpSet3 marksText 0 4 "bold"
      { zeroScalar with Kind := ScalarBoolean } { Counter := 6, Actor := 1 } 1 6
      (Reachable.addMark marksOpSet1 marksOpSet2 marksText 1 3 "bold"
        { zeroScalar with Kind := ScalarBoolean, Boolean := true } { Counter := 5, Actor := 1 } 1 5
        (Reachable.spliceText _ marksOpSet1 marksText 0 0 "abcd" 1 0 4
          (Reachable.createObject _ marksText ObjText Reachable.new) rfl) rfl) rfl) rfl

/-- The marks at index 2 of the example: the later `bold` mark and the `em` mark. -/
theorem marksOpSet_at_2 :
    marksOpSet.MarksAtIndex marksText 2 none =
      .ok [ { Start := 0, End := 4, Name := "bold",
              Value := { zeroScalar with Kind := ScalarBoolean },
              OpID := { Counter := 6, Actor := 1 }, Actor := 1, Seq := 6 },
            { Start := 2, End := 4, Name := "em",
              Value := { zeroScalar with Kind := ScalarBoolean, Boolean := true },
              OpID := { Counter := 7, Actor := 1 }, Actor := 1, Seq := 7 } ] := by
  have h1 : marksOpSet.MarksAtIndex marksText 2 none =
      .ok (List.insertionSort (fun a b => markNameLess b a = false)
        [ { Start := 0, End := 4, Name := "bold",
            Value := { zeroScalar with Kind := ScalarBoolean },
            OpID := { Counter := 6, Actor := 1 }, Actor := 1, Seq := 6 },
          { Start := 2, End := 4, Name := "em",
            Value := { zeroScalar with Kind := ScalarBoolean, Boolean := true },
            OpID := { Counter := 7, Actor := 1 }, Actor := 1, Seq := 7 } ]) := rfl
  rw [h1]
  have hlt : "bold" < "em" := by rw [String.lt_iff_toList_lt]; decide
  have hr : markNameLess
      { Start := 2, End := 4, Name := "em",
        Value := { zeroScalar with Kind := ScalarBoolean, Boolean := true },
        OpID := { Counter := 7, Actor := 1 }, Actor := 1, Seq := 7 }
      { Start := 0, End := 4, Name := "bold",
        Value := { zeroScalar with Kind := ScalarBoolean },
        OpID := { Counter := 6, Actor := 1 }, Actor := 1, Seq := 6 } = false := by
    rw [markNameLess_false_iff]
    exact Or.inl hlt
  simp only [List.insertionSort, List.orderedInsert, hr, if_true]

/-- C22 (witness): the op set of the test `TestMarksAtIndexUsesLatestByName` with a third
mark named `em`, read at index 2 with no clock: the marks returned are the later `bold`
mark (`6@1`, value false) and the `em` mark, in this order. -/
theorem MarksAtIndex_spec_witness :
    Reachable marksOpSet ∧
    (((2 : Int) < 0 → marksOpSet.MarksAtIndex marksText 2 none = .ok []) ∧
    ∃ out, marksOpSet.MarksAtIndex marksText 2 none = .ok out ∧
      (out.map Mark.Name).Pairwise (fun a b => a < b) ∧
      (∀ m ∈ out, m ∈ visibleMarks none marksText marksOpSet.ops ∧ m.Start ≤ 2 ∧ 2 < m.End ∧
        ∀ m1 ∈ visibleMarks none marksText marksOpSet.ops, m1.Start ≤ 2 → 2 < m1.End →
          m1.Name = m.Name → m1.OpID.Compare m.OpID ≤ 0) ∧
      ((0 : Int) ≤ 2 → ∀ m1 ∈ visibleMarks none marksText marksOpSet.ops, m1.Start ≤ 2 →
        2 < m1.End → ∃ m ∈ out, m.Name = m1.Name)) :=
  ⟨marksOpSet_reachable, MarksAtIndex_spec marksOpSet marksOpSet_reachable marksText 2 none⟩

end opset

/-! ## Save and its cache -/

namespace automerge

open model changegraph

theorem cacheStep_refl (d : Document) : CacheStep d d := Or.inl ⟨rfl, rfl, rfl⟩

theorem cacheStep_trans {a b c : Document} (h1 : CacheStep a b) (h2 : CacheStep b c) :
    CacheStep a c := by
  rcases h2 with ⟨g2, c2, s2⟩ | h2
  · rcases h1 with ⟨g1, c1, s1⟩ | h1
    · exact Or.inl ⟨g2.trans g1, c2.trans c1, s2.trans s1⟩
    · exact Or.inr (s2.trans h1)
  · exact Or.inr h2

theorem docChunk_congr (codec : Codec) (d d1 : Document) (hg : d1.graph = d.graph)
    (hc : d1.changes = d.changes) (deflate : Bool) :
    d1.docChunk codec deflate = d.docChunk codec deflate := by
  unfold Document.docChunk Document.AllChanges Document.Heads
  rw [hg, hc]

theorem cacheOK_step {codec : Codec} {d d1 : Document} (h : CacheOK codec d)
    (hs : CacheStep d d1) : CacheOK codec d1 := by
  intro key bytes hk
  rcases hs with ⟨hg, hc, hsc⟩ | hs
  · rw [docChunk_congr codec d d1 hg hc]
    rw [hsc] at hk
    exact h key bytes hk
  · rw [hs] at hk
    cases hk

theorem cacheStep_applyOneChange (d : Document) (c : Change) :
    CacheStep d (d.applyOneChange c).doc := by
  unfold Document.applyOneChange
  split
  · exact Or.inl ⟨rfl, rfl, rfl⟩
  · split
    · exact Or.inl ⟨rfl, rfl, rfl⟩
    · exact Or.inr rfl

theorem cacheStep_applyLoop (batch : List Change) :
    ∀ (order : List Nat) (d : Document), CacheStep d (applyLoop batch order d).doc := by
  intro order
  induction order with
  | nil => intro d; exact cacheStep_refl d
  | cons idx rest ih =>
    intro d
    unfold applyLoop
    cases hb : batch[idx]? with
    | none => exact cacheStep_refl d
    | some c =>
      dsimp only
      split_ifs
      · exact ih d
      · have h1 := cacheStep_applyOneChange d c
        split
        · rename_i d1 e heq
          rw [heq] at h1
          exact h1
        · rename_i d1 heq
          rw [heq] at h1
          exact cacheStep_trans h1 (ih d1)

theorem intakeLoop_frame (actorMap : Option (GoMap Nat Nat)) :
    ∀ (changes : List Change) (st : Intake),
      (intakeLoop actorMap changes st).1.doc.graph = st.doc.graph ∧
      (intakeLoop actorMap changes st).1.doc.changes = st.doc.changes ∧
      (intakeLoop actorMap changes st).1.doc.saveCache = st.doc.saveCache := by
  intro changes
  induction changes with
  | nil => intro st; exact ⟨rfl, rfl, rfl⟩
  | cons c rest ih =>
    intro st
    unfold intakeLoop
    dsimp only
    repeat' split
    all_goals first | exact ⟨rfl, rfl, rfl⟩ | exact ih _

theorem popNext_frame (d d1 : Document) (ready : GoMap ChangeHash Unit) (c : Change)
    (h : d.popNextCausallyReady ready = some (c, d1)) :
    d1.graph = d.graph ∧ d1.changes = d.changes ∧ d1.saveCache = d.saveCache := by
  unfold Document.popNextCausallyReady at h
  split at h
  · cases h
  · split at h
    · injection h with h
      injection h with h1 h2
      subst h2
      exact ⟨rfl, rfl, rfl⟩
    · cases h

theorem drainLoop_frame :
    ∀ (fuel : Nat) (st st1 : Intake), drainLoop fuel st = .ok st1 →
      st1.doc.graph = st.doc.graph ∧ st1.doc.changes = st.doc.changes ∧
      st1.doc.saveCache = st.doc.saveCache := by
  intro fuel
  induction fuel with
  | zero => intro st st1 h; cases h
  | succ n ih =>
    intro st st1 h
    unfold drainLoop at h
    cases hp : st.doc.popNextCausallyReady st.ready with
    | none =>
      rw [hp] at h
      injection h with h
      subst h
      exact ⟨rfl, rfl, rfl⟩
    | some r =>
      obtain ⟨next, d1⟩ := r
      rw [hp] at h
      obtain ⟨a, b, c⟩ := ih _ _ h
      obtain ⟨a1, b1, c1⟩ := popNext_frame _ _ _ _ hp
      exact ⟨a.trans a1, b.trans b1, c.trans c1⟩

theorem cacheStep_applyChanges (d : Document) (changes : List Change)
    (actorMap : Option (GoMap Nat Nat)) :
    CacheStep d (d.ApplyChangesWithActorMap changes actorMap).doc := by
  unfold Document.ApplyChangesWithActorMap
  have hin := intakeLoop_frame actorMap changes { doc := d, ready := [], batch := [] }
  split
  · rename_i st e heq
    rw [heq] at hin
    exact Or.inl hin
  · rename_i st heq
    rw [heq] at hin
    split
    · exact Or.inl hin
    · rename_i st1 hd
      have hdr := drainLoop_frame _ _ _ hd
      have h1 : CacheStep d st1.doc :=
        Or.inl ⟨hdr.1.trans hin.1, hdr.2.1.trans hin.2.1, hdr.2.2.trans hin.2.2⟩
      split
      · exact h1
      · exact cacheStep_trans h1 (cacheStep_applyLoop _ _ _)

theorem cacheStep_commit (hasher : ChangeHasher) (d : Document) (tx : Transaction)
    (opts : CommitOptions) : CacheStep d (Transaction.CommitWith hasher d tx opts).doc := by
  unfold Transaction.CommitWith
  split_ifs
  · exact Or.inl ⟨rfl, rfl, rfl⟩
  · exact Or.inl ⟨rfl, rfl, rfl⟩
  · exact Or.inl ⟨rfl, rfl, rfl⟩
  · split
    · exact Or.inl ⟨rfl, rfl, rfl⟩
    · split_ifs
      · exact Or.inl ⟨rfl, rfl, rfl⟩
      · dsimp only
        split
        · exact Or.inl ⟨rfl, rfl, rfl⟩
        · exact Or.inr rfl

theorem cacheStep_merge (d other : Document) : CacheStep d (d.Merge other).doc := by
  unfold Document.Merge
  split
  · exact cacheStep_refl d
  · split
    · exact cacheStep_refl d
    · exact cacheStep_applyChanges d _ none

theorem save_doc (d : Document) (codec : Codec) (opts : SaveOptions) :
    ∃ sc, (d.SaveWithOptions codec opts).2 = { d with saveCache := sc } := by
  unfold Document.SaveWithOptions
  dsimp only
  repeat' split
  all_goals first | exact ⟨d.saveCache, rfl⟩ | exact ⟨_, rfl⟩

theorem saveQueueLoop_of_length_eq_zero (codec : Codec) (deflate : Bool) (q : List Change)
    (buf : List Nat) (hq : q.length = 0) :
    Document.saveQueueLoop codec deflate q buf = .ok buf := by
  cases q with
  | nil => rfl
  | cons a r => cases hq

theorem cacheOK_save {codec : Codec} {d : Document} (h : CacheOK codec d)
    (opts : SaveOptions) : CacheOK codec (d.SaveWithOptions codec opts).2 := by
  unfold Document.SaveWithOptions
  dsimp only
  split
  · exact h
  · split
    · exact h
    · split
      · exact h
      · rename_i payload hp
        split
        · exact h
        · rename_i buf hb
          split
          · exact h
          · rename_i out ho
            split
            · rename_i hq
              intro key bytes hk
              dsimp only at hk ⊢
              refine (docChunk_congr codec d _ rfl rfl key.1).trans ?_
              by_cases hkey : key = (opts.Deflate, opts.RetainOrphans)
              · subst hkey
                rw [GoMap.get?_set_self] at hk
                injection hk with hk
                subst hk
                rw [saveQueueLoop_of_length_eq_zero _ _ _ _ hq] at ho
                have ho1 : (Except.ok buf : Except GoError (List Nat)) = .ok out := by
                  split_ifs at ho <;> exact ho
                injection ho1 with ho1
                subst ho1
                unfold Document.docChunk
                rw [hp]
                exact hb
              · rw [GoMap.get?_set_ne _ _ _ _ hkey] at hk
                exact h key bytes hk
            · exact h

theorem history_cacheOK {hasher : ChangeHasher} {codec : Codec} {d : Document}
    (h : History hasher codec d) : CacheOK codec d := by
  induction h with
  | new => intro key bytes hk; cases hk
  | setActor d d1 actor _ hs ih =>
    unfold Document.SetActor at hs
    split_ifs at hs
    injection hs with hs
    subst hs
    exact cacheOK_step ih (Or.inl ⟨rfl, rfl, rfl⟩)
  | begin d d1 tx _ hb ih =>
    unfold Document.Begin at hb
    split_ifs at hb
    split at hb
    · cases hb
    · injection hb with hb
      injection hb with hb1 hb2
      subst hb1
      exact cacheOK_step ih (Or.inl ⟨rfl, rfl, rfl⟩)
  | commit d tx opts _ ih => exact cacheOK_step ih (cacheStep_commit hasher d tx opts)
  | rollback d d1 tx tx1 _ hr ih =>
    unfold Transaction.Rollback at hr
    split_ifs at hr
    injection hr with hr
    injection hr with hr1 hr2
    subst hr1
    exact cacheOK_step ih (Or.inl ⟨rfl, rfl, rfl⟩)
  | applyChanges d changes actorMap _ ih => exact cacheOK_step ih (cacheStep_applyChanges d changes actorMap)
  | merge d other _ ih => exact cacheOK_step ih (cacheStep_merge d other)
  | save d opts _ ih => exact cacheOK_save ih opts
  | legacy d raw _ ih => exact cacheOK_step ih (Or.inl ⟨rfl, rfl, rfl⟩)

theorem save_eq_fresh {codec : Codec} {d : Document} (h : CacheOK codec d)
    (opts : SaveOptions) :
    (d.SaveWithOptions codec opts).1 =
      (({ d with saveCache := [] } : Document).SaveWithOptions codec opts).1 := by
  have hall : ({ d with saveCache := [] } : Document).AllChanges = d.AllChanges := rfl
  unfold Document.SaveWithOptions
  dsimp only
  rw [hall]
  by_cases hl : d.legacyRaw.length > 0 ∧ d.changes.length = 0
  · rw [if_pos hl, if_pos hl]
  · rw [if_neg hl, if_neg hl]
    by_cases hq : d.queue.length = 0
    · simp only [hq, if_true]
      have hnone : GoMap.get? ([] : GoMap (Bool × Bool) (List Nat))
          (opts.Deflate, opts.RetainOrphans) = none := rfl
      rw [hnone]
      cases hc : GoMap.get? d.saveCache (opts.Deflate, opts.RetainOrphans) with
      | none => dsimp only; repeat' split
                all_goals rfl
      | some cached =>
        have hdc := h _ _ hc
        unfold Document.docChunk at hdc
        dsimp only at hdc ⊢
        cases hp : codec.marshalDocument d.AllChanges with
        | error e => rw [hp] at hdc; cases hdc
        | ok payload =>
          rw [hp] at hdc
          dsimp only at hdc ⊢
          rw [hdc]
          dsimp only
          rw [saveQueueLoop_of_length_eq_zero _ _ _ _ hq]
          split_ifs <;> rfl
    · simp only [hq, if_false]
      repeat' split
      all_goals rfl

end automerge

namespace automerge

open model changegraph

/-- C30: for every document that the methods of the package make of a new document and
every SaveOptions, a second `SaveWithOptions` right after a first returns what the first
returned, and the first returns what `SaveWithOptions` returns on the same document with
an empty save cache. -/
theorem SaveWithOptions_idempotent (hasher : ChangeHasher) (codec : Codec) (d : Document)
    (hd : History hasher codec d) (opts : SaveOptions) :
    ((d.SaveWithOptions codec opts).2.SaveWithOptions codec opts).1 =
        (d.SaveWithOptions codec opts).1 ∧
      (d.SaveWithOptions codec opts).1 =
        (({ d with saveCache := [] } : Document).SaveWithOptions codec opts).1 := by
  have h0 := history_cacheOK hd
  have h1 := cacheOK_save h0 opts
  refine ⟨?_, save_eq_fresh h0 opts⟩
  rw [save_eq_fresh h1 opts, save_eq_fresh h0 opts]
  obtain ⟨sc, hsc⟩ := save_doc d codec opts
  rw [hsc]

theorem SaveWithOptions_idempotent_witness :
    History exampleHasherAsc exampleCodec savedChainDoc ∧
      ((savedChainDoc.SaveWithOptions exampleCodec DefaultSaveOptions).2.SaveWithOptions
          exampleCodec DefaultSaveOptions).1 =
        (savedChainDoc.SaveWithOptions exampleCodec DefaultSaveOptions).1 ∧
      (savedChainDoc.SaveWithOptions exampleCodec DefaultSaveOptions).1 =
        (({ savedChainDoc with saveCache := [] } : Document).SaveWithOptions exampleCodec
          DefaultSaveOptions).1 :=
  ⟨History.save _ _ (History.applyChanges _ _ none History.new),
    SaveWithOptions_idempotent exampleHasherAsc exampleCodec savedChainDoc
      (History.save _ _ (History.applyChanges _ _ none History.new)) DefaultSaveOptions⟩

end automerge

/-! ## Load after Save -/

namespace automerge

open model changegraph

/-- C29 (failing input): `mixedDoc` holds the local commit `k = "A"` of actor 1 and then
receives the concurrent change `k = "B"` of actor 2, whose hash is the smaller one; its
queue is empty. `Save` succeeds and `Load` of the bytes succeeds with the same heads,
but `GetMap` and `GetAllMap` at `k` return `"B"` on `mixedDoc` and `"A"` on the loaded
document. -/
theorem Load_Save_reads_differ :
    mixedDoc.queue = [] ∧
      mixedDoc.Heads = [801, 901] ∧
      stringOf (mixedDoc.GetMap RootObjID "k" none) = some "B" ∧
      stringsOf (mixedDoc.GetAllMap RootObjID "k" none) = ["B"] ∧
      mixedLoaded.map (fun d => d.Heads) = some [801, 901] ∧
      mixedLoaded.map (fun d => stringOf (d.GetMap RootObjID "k" none)) = some (some "A") ∧
      mixedLoaded.map (fun d => stringsOf (d.GetAllMap RootObjID "k" none)) = some ["A"] :=
  ⟨rfl, rfl, rfl, rfl, rfl, rfl, rfl⟩

end automerge

/-! ## The sync engine -/

namespace automerge

open model changegraph

theorem hashesEqual_self (a : List ChangeHash) : hashesEqual a a = true := by
  unfold hashesEqual
  simp only [ne_eq, not_true_eq_false, if_false, List.all_eq_true, decide_eq_true_eq]
  intro p hp
  induction a with
  | nil => cases hp
  | cons x xs ih =>
    simp only [List.zip_cons_cons, List.mem_cons] at hp
    rcases hp with rfl | hp
    · rfl
    · exact ih hp

/-- A second `SaveWithOptions` right after a first returns what the first returned and
leaves the document as the first left it, whatever the cache held. -/
theorem SaveWithOptions_again (d : Document) (codec : Codec) (opts : SaveOptions) :
    (d.SaveWithOptions codec opts).2.SaveWithOptions codec opts =
      d.SaveWithOptions codec opts := by
  by_cases hl : d.legacyRaw.length > 0 ∧ d.changes.length = 0
  · have h1 : d.SaveWithOptions codec opts = (.ok d.legacyRaw, d) := by
      unfold Document.SaveWithOptions
      rw [if_pos hl]
    rw [h1]
    exact h1
  · by_cases hq : d.queue.length = 0
    · cases hc : GoMap.get? d.saveCache (opts.Deflate, opts.RetainOrphans) with
      | some cached =>
        have h1 : d.SaveWithOptions codec opts = (.ok cached, d) := by
          unfold Document.SaveWithOptions
          rw [if_neg hl]
          simp only [hq, if_true, hc]
        rw [h1]
        exact h1
      | none =>
        cases hm : codec.marshalDocument d.AllChanges with
        | error e =>
          have h1 : d.SaveWithOptions codec opts = (.error e, d) := by
            unfold Document.SaveWithOptions
            rw [if_neg hl]
            simp only [hq, if_true, hc, hm]
          rw [h1]
          exact h1
        | ok payload =>
          cases he : storage.EncodeChunk codec.deflateBytes codec.checksum
              storage.ChunkDocument payload opts.Deflate with
          | error e =>
            have h1 : d.SaveWithOptions codec opts = (.error e, d) := by
              unfold Document.SaveWithOptions
              rw [if_neg hl]
              simp only [hq, if_true, hc, hm, he]
            rw [h1]
            exact h1
          | ok buf =>
            have h1 : d.SaveWithOptions codec opts = (.ok buf,
                { d with saveCache := GoMap.set d.saveCache (opts.Deflate, opts.RetainOrphans) buf }) := by
              unfold Document.SaveWithOptions
              rw [if_neg hl]
              simp only [hq, if_true, hc, hm, he,
                saveQueueLoop_of_length_eq_zero _ _ _ _ hq, ite_self]
            rw [h1]
            unfold Document.SaveWithOptions
            dsimp only
            rw [if_neg hl]
            simp only [hq, if_true, GoMap.get?_set_self]
    · have h2 : (d.SaveWithOptions codec opts).2 = d := by
        unfold Document.SaveWithOptions
        rw [if_neg hl]
        simp only [hq, if_false]
        repeat' split
        all_goals rfl
      rw [h2]

end automerge


namespace automerge

open model changegraph

theorem selectPayload_doc (sc : SyncCodec) (d : Document) (st : sync.State)
    (msg : sync.Message) :
    (selectPayload sc d st msg).1 = d ∨ (selectPayload sc d st msg).1 = (d.Save sc.save).2 := by
  unfold selectPayload
  dsimp only
  repeat' split
  all_goals first | exact Or.inl rfl | exact Or.inr rfl

theorem selectPayload_congr (sc : SyncCodec) (d d1 : Document) (st st1 : sync.State)
    (msg : sync.Message) (hg : d1.graph = d.graph) (hc : d1.changes = d.changes)
    (hs : (d1.Save sc.save).1 = (d.Save sc.save).1)
    (h1 : st1.TheirHeads = st.TheirHeads) (h2 : st1.TheirCapabilities = st.TheirCapabilities)
    (h3 : st1.TheirHave = st.TheirHave) (h4 : st1.TheirNeed = st.TheirNeed) :
    (selectPayload sc d1 st1 msg).2 = (selectPayload sc d st msg).2 := by
  have hH : d1.Heads = d.Heads := by unfold Document.Heads; rw [hg]
  have hv2 : st1.SupportsV2 = st.SupportsV2 := by unfold sync.State.SupportsV2; rw [h2]
  have hsd : st1.SendDoc = st.SendDoc := by unfold sync.State.SendDoc; rw [h1, h2, hv2]
  have hto : ∀ hv nd, getHashesToSend d1 hv nd = getHashesToSend d hv nd := by
    intro hv nd; unfold getHashesToSend; rw [hH, hg, hc]
  have hser : ∀ hashes, serializeChangesByHashes sc d1 hashes =
      serializeChangesByHashes sc d hashes := by
    intro hashes; unfold serializeChangesByHashes; rw [hc]
  unfold selectPayload
  simp only [hH, hg, hv2, hsd, hto, hser, h3, h4, hs]
  repeat' split
  all_goals rfl

theorem save_frame (d : Document) (codec : Codec) (opts : SaveOptions) :
    (d.SaveWithOptions codec opts).2.graph = d.graph ∧
      (d.SaveWithOptions codec opts).2.changes = d.changes ∧
      (d.SaveWithOptions codec opts).2.queue = d.queue := by
  obtain ⟨x, hx⟩ := save_doc d codec opts
  rw [hx]
  exact ⟨rfl, rfl, rfl⟩

theorem selectPayload_frame (sc : SyncCodec) (d : Document) (st : sync.State)
    (msg : sync.Message) :
    (selectPayload sc d st msg).1.graph = d.graph ∧
      (selectPayload sc d st msg).1.changes = d.changes ∧
      (selectPayload sc d st msg).1.queue = d.queue ∧
      ((selectPayload sc d st msg).1.Save sc.save).1 = (d.Save sc.save).1 := by
  rcases selectPayload_doc sc d st msg with h | h
  · rw [h]
    exact ⟨rfl, rfl, rfl, rfl⟩
  · rw [h]
    obtain ⟨a, b, c⟩ := save_frame d sc.save DefaultSaveOptions
    refine ⟨a, b, c, ?_⟩
    unfold Document.Save
    rw [SaveWithOptions_again]

theorem baseMessage_congr (d d1 : Document) (st st1 : sync.State) (hg : d1.graph = d.graph)
    (hq : d1.queue = d.queue) (h1 : st1.TheirHeads = st.TheirHeads)
    (h2 : st1.SharedHeads = st.SharedHeads) : baseMessage d1 st1 = baseMessage d st := by
  unfold baseMessage makeHave Document.getMissingDeps Document.hasChange Document.Heads
  rw [hg, hq, h1, h2]

/-- When `GenerateSyncMessage` returns a message, the payload part returned it, the
document is the one it left, and the state is marked as sent. -/
theorem GenerateSyncMessage_sent (sc : SyncCodec) (d : Document) (st : sync.State)
    (h : (GenerateSyncMessage sc d (some st)).msg.isSome = true) :
    ∃ m hs sent,
      (selectPayload sc d (withSentHashes st) (baseMessage d (withSentHashes st))).2 =
        .ok (m, hs) ∧
      (GenerateSyncMessage sc d (some st)).doc =
        (selectPayload sc d (withSentHashes st) (baseMessage d (withSentHashes st))).1 ∧
      (GenerateSyncMessage sc d (some st)).state =
        some { withSentHashes st with
          HaveResponded := true, LastSentHeads := d.Heads, SentHashes := some sent,
          InFlight := true } := by
  unfold GenerateSyncMessage at h ⊢
  dsimp only at h ⊢
  rcases hsel : selectPayload sc d (withSentHashes st) (baseMessage d (withSentHashes st)) with
    ⟨d1, res⟩
  rw [hsel] at h
  cases res with
  | error e => cases h
  | ok p =>
    obtain ⟨m, hs⟩ := p
    dsimp only at h ⊢
    refine ⟨m, hs, hs.foldl (fun m h => GoMap.set m h ()) ((withSentHashes st).SentHashes.getD []),
      rfl, ?_⟩
    split_ifs at h ⊢
    · cases h
    · cases h
    · exact ⟨rfl, rfl⟩
    · exact ⟨rfl, rfl⟩

/-- On a state that is marked as sent for the heads of the document, a call whose
payload part succeeds returns no message and leaves the state as it is. -/
theorem GenerateSyncMessage_quiet (sc : SyncCodec) (d : Document) (st : sync.State)
    (m : sync.Message) (hs : List ChangeHash) (sent : GoMap ChangeHash Unit)
    (hsent : st.SentHashes = some sent)
    (hsel : (selectPayload sc d st (baseMessage d st)).2 = .ok (m, hs))
    (hl : st.LastSentHeads = d.Heads) (hr : st.HaveResponded = true)
    (hf : st.InFlight = true) :
    (GenerateSyncMessage sc d (some st)).msg = none ∧
      (GenerateSyncMessage sc d (some st)).err = none ∧
      (GenerateSyncMessage sc d (some st)).state = some st := by
  have hw : withSentHashes st = st := by
    unfold withSentHashes
    rw [hsent]
  unfold GenerateSyncMessage
  dsimp only
  rw [hw]
  rcases hsel1 : selectPayload sc d st (baseMessage d st) with ⟨d1, res⟩
  rw [hsel1] at hsel
  dsimp only at hsel
  subst hsel
  dsimp only
  rw [hl, hashesEqual_self, hr, hf]
  simp only [Bool.and_self, if_true]
  split_ifs <;> exact ⟨rfl, rfl, rfl⟩

/-- C25: for every document and every non-nil sync state, if `GenerateSyncMessage`
returns a message, then a second `GenerateSyncMessage` on the document and the state as
the first call left them returns no message and no error and leaves the state as it
is. -/
theorem GenerateSyncMessage_inFlight (sc : SyncCodec) (d : Document) (st : sync.State)
    (h : (GenerateSyncMessage sc d (some st)).msg.isSome = true) :
    (GenerateSyncMessage sc (GenerateSyncMessage sc d (some st)).doc
        (GenerateSyncMessage sc d (some st)).state).msg = none ∧
      (GenerateSyncMessage sc (GenerateSyncMessage sc d (some st)).doc
        (GenerateSyncMessage sc d (some st)).state).err = none ∧
      (GenerateSyncMessage sc (GenerateSyncMessage sc d (some st)).doc
        (GenerateSyncMessage sc d (some st)).state).state =
        (GenerateSyncMessage sc d (some st)).state := by
  obtain ⟨m, hs, sent, hsel, hdoc, hstate⟩ := GenerateSyncMessage_sent sc d st h
  obtain ⟨fg, fc, fq, fs⟩ :=
    selectPayload_frame sc d (withSentHashes st) (baseMessage d (withSentHashes st))
  rw [hstate, hdoc]
  have hH : (selectPayload sc d (withSentHashes st)
      (baseMessage d (withSentHashes st))).1.Heads = d.Heads := by
    unfold Document.Heads
    rw [fg]
  refine GenerateSyncMessage_quiet sc _ _ m hs sent rfl ?_ hH.symm rfl rfl
  have hb : ∀ st2 : sync.State, st2.TheirHeads = (withSentHashes st).TheirHeads →
      st2.SharedHeads = (withSentHashes st).SharedHeads →
      st2.TheirCapabilities = (withSentHashes st).TheirCapabilities →
      st2.TheirHave = (withSentHashes st).TheirHave →
      st2.TheirNeed = (withSentHashes st).TheirNeed →
      (selectPayload sc
        (selectPayload sc d (withSentHashes st) (baseMessage d (withSentHashes st))).1 st2
        (baseMessage
          (selectPayload sc d (withSentHashes st) (baseMessage d (withSentHashes st))).1
          st2)).2 = .ok (m, hs) := by
    intro st2 a b c e f
    rw [baseMessage_congr d _ (withSentHashes st) st2 fg fq a b,
      selectPayload_congr sc d _ (withSentHashes st) st2 _ fg fc fs a c e f]
    exact hsel
  exact hb _ rfl rfl rfl rfl rfl

theorem GenerateSyncMessage_inFlight_witness :
    (GenerateSyncMessage (indexSyncCodec gatingDoc.AllChanges) gatingDoc
        (some gatingState)).msg.isSome = true ∧
      (GenerateSyncMessage (indexSyncCodec gatingDoc.AllChanges)
        (GenerateSyncMessage (indexSyncCodec gatingDoc.AllChanges) gatingDoc
          (some gatingState)).doc
        (GenerateSyncMessage (indexSyncCodec gatingDoc.AllChanges) gatingDoc
          (some gatingState)).state).msg = none ∧
      (GenerateSyncMessage (indexSyncCodec gatingDoc.AllChanges)
        (GenerateSyncMessage (indexSyncCodec gatingDoc.AllChanges) gatingDoc
          (some gatingState)).doc
        (GenerateSyncMessage (indexSyncCodec gatingDoc.AllChanges) gatingDoc
          (some gatingState)).state).err = none ∧
      (GenerateSyncMessage (indexSyncCodec gatingDoc.AllChanges)
        (GenerateSyncMessage (indexSyncCodec gatingDoc.AllChanges) gatingDoc
          (some gatingState)).doc
        (GenerateSyncMessage (indexSyncCodec gatingDoc.AllChanges) gatingDoc
          (some gatingState)).state).state =
        (GenerateSyncMessage (indexSyncCodec gatingDoc.AllChanges) gatingDoc
          (some gatingState)).state :=
  ⟨rfl, GenerateSyncMessage_inFlight (indexSyncCodec gatingDoc.AllChanges) gatingDoc gatingState
    rfl⟩

theorem peerSession_round1 :
    syncRound (indexSyncCodec peerChanges) flatWire peerSession =
      .ok (true, peerSessionAfter 1) := rfl

theorem peerSession_round2 :
    syncRound (indexSyncCodec peerChanges) flatWire (peerSessionAfter 1) =
      .ok (true, peerSessionAfter 2) := rfl

set_option maxRecDepth 100000 in
theorem peerSession_keeps : roundKeeps (peerSessionAfter 2) = true := by
  decide!

theorem peerSession_round3 :
    syncRound (indexSyncCodec peerChanges) flatWire (peerSessionAfter 2) =
      .ok (true, peerSessionAfter 2) := by
  have h := peerSession_keeps
  unfold roundKeeps at h
  split at h
  · rename_i m s1 heq
    simp only [Bool.and_eq_true, decide_eq_true_eq] at h
    rw [heq, h.1, h.2]
  · cases h

theorem peerSession_stuck (n : Nat) :
    syncRounds (indexSyncCodec peerChanges) flatWire n (peerSessionAfter 2) =
      .ok (peerSessionAfter 2) := by
  induction n with
  | zero => rfl
  | succ k ih =>
    unfold syncRounds
    rw [peerSession_round3]
    exact ih

set_option maxRecDepth 100000 in
/-- C24 (failing input): the first peer commits the string `"s"` at the root key `c` as
actor 1; the second commits a counter at `c` and two increments as actor 2; the hash of
the first peer's change lies between the first and the second hash of the second peer.
Both start with new sync states. After two rounds of messages the session stays as it
is for every further round, and in each of them a message is generated: the first peer
has the heads `[100, 151]` and never receives the increments `200` and `300`, the second
has the heads `[151, 300]`. -/
theorem sync_never_ends (n : Nat) :
    syncRounds (indexSyncCodec peerChanges) flatWire (n + 2) peerSession =
        .ok (peerSessionAfter 2) ∧
      syncRound (indexSyncCodec peerChanges) flatWire (peerSessionAfter 2) =
        .ok (true, peerSessionAfter 2) ∧
      (peerSessionAfter 2).p1.Heads = [100, 151] ∧
      (peerSessionAfter 2).p2.Heads = [151, 300] ∧
      (peerSessionAfter 2).p1.hasChange 200 = false ∧
      (peerSessionAfter 2).p1.hasChange 300 = false := by
  refine ⟨?_, peerSession_round3, by decide!, by decide!, by decide!, by decide!⟩
  have h2 : syncRounds (indexSyncCodec peerChanges) flatWire (n + 2) peerSession =
      syncRounds (indexSyncCodec peerChanges) flatWire n (peerSessionAfter 2) := by
    show (match syncRound (indexSyncCodec peerChanges) flatWire peerSession with
      | Except.error e => Except.error e
      | Except.ok (_, s1) => syncRounds (indexSyncCodec peerChanges) flatWire (n + 1) s1) = _
    rw [peerSession_round1]
    show (match syncRound (indexSyncCodec peerChanges) flatWire (peerSessionAfter 1) with
      | Except.error e => Except.error e
      | Except.ok (_, s1) => syncRounds (indexSyncCodec peerChanges) flatWire n s1) = _
    rw [peerSession_round2]
  rw [h2]
  exact peerSession_stuck n

end automerge

/-! ## Diff -/

namespace automerge

open model changegraph

theorem contains_set_any {κ ν : Type} [DecidableEq κ] (m : GoMap κ ν) (k h : κ) (v : ν) :
    GoMap.contains (GoMap.set m k v) h = true ↔ GoMap.contains m h = true ∨ h = k := by
  unfold GoMap.contains
  by_cases hk : h = k
  · subst hk
    simp [GoMap.get?_set_self]
  · rw [GoMap.get?_set_ne _ _ _ _ hk]
    simp [hk]

theorem expectedPatch_objID (obj : ObjID) (bm am : GoMap GoString opset.Value) (k : GoString)
    (p : Patch) (h : expectedPatch obj bm am k = some p) : p.ObjID = obj ∧ p.Key = k := by
  unfold expectedPatch at h
  split at h
  · injection h with h; subst h; exact ⟨rfl, rfl⟩
  · injection h with h; subst h; exact ⟨rfl, rfl⟩
  · split at h
    · cases h
    · injection h with h; subst h; exact ⟨rfl, rfl⟩
  · cases h

/-- The patches that one round of the loop of `diffMap` appends for the key itself are
the patch that `expectedPatch` names. -/
theorem ownStep (obj : ObjID) (bm am : GoMap GoString opset.Value) (k : GoString)
    (patches : List Patch) :
    (match GoMap.get? bm k, GoMap.get? am k with
      | some bv, none =>
        patches ++ [{ zeroPatch with Kind := PatchMapDelete, ObjID := obj, Key := k,
                                     OldValue := some bv }]
      | none, some av =>
        patches ++ [{ zeroPatch with Kind := PatchMapPut, ObjID := obj, Key := k,
                                     NewValue := some av }]
      | some bv, some av =>
        if (!bv.Equal av) = true then
          patches ++ [{ zeroPatch with Kind := PatchMapPut, ObjID := obj, Key := k,
                                       OldValue := some bv, NewValue := some av }]
        else patches
      | none, none => patches) = patches ++ (expectedPatch obj bm am k).toList := by
  unfold expectedPatch
  cases GoMap.get? bm k <;> cases GoMap.get? am k <;> simp
  rename_i bv av
  cases bv.Equal av <;> simp

theorem diffKeys_spec (obj : ObjID) (bm am : GoMap GoString opset.Value) (recursive : Bool)
    (sub : ObjID → GoMap ObjID Unit → GoMap ObjID Unit × Except GoError (List Patch))
    (hsub : SubOK sub) (seen0 : GoMap ObjID Unit) :
    ∀ (keys : List GoString) (seen : GoMap ObjID Unit) (patches : List Patch)
      (seen1 : GoMap ObjID Unit) (out : List Patch),
      GoMap.contains seen obj = true →
      (∀ y, GoMap.contains seen0 y = true → GoMap.contains seen y = true) →
      Document.diffKeys obj bm am recursive sub keys seen patches = (seen1, .ok out) →
      out.filter (fun x => decide (x.ObjID = obj)) =
          patches.filter (fun x => decide (x.ObjID = obj)) ++
            keys.filterMap (expectedPatch obj bm am) ∧
        (∀ y, GoMap.contains seen y = true → GoMap.contains seen1 y = true) ∧
        (∀ x ∈ out, x ∈ patches ∨ x.ObjID = obj ∨ GoMap.contains seen0 x.ObjID = false) := by
  intro keys
  induction keys with
  | nil =>
    intro seen patches seen1 out _ _ h
    unfold Document.diffKeys at h
    injection h with h1 h2
    injection h2 with h2
    subst h1 h2
    exact ⟨by simp, fun y hy => hy, fun x hx => Or.inl hx⟩
  | cons k rest ih =>
    intro seen patches seen1 out hobj h0 h
    unfold Document.diffKeys at h
    rw [ownStep] at h
    have hown : (patches ++ (expectedPatch obj bm am k).toList).filter
        (fun x => decide (x.ObjID = obj)) =
        patches.filter (fun x => decide (x.ObjID = obj)) ++
          (expectedPatch obj bm am k).toList := by
      rw [List.filter_append]
      congr 1
      cases he : expectedPatch obj bm am k with
      | none => rfl
      | some p =>
        have := (expectedPatch_objID obj bm am k p he).1
        simp [this]
    have hmem : ∀ x ∈ patches ++ (expectedPatch obj bm am k).toList,
        x ∈ patches ∨ x.ObjID = obj := by
      intro x hx
      rcases List.mem_append.1 hx with hx | hx
      · exact Or.inl hx
      · right
        cases he : expectedPatch obj bm am k with
        | none => rw [he] at hx; cases hx
        | some p =>
          rw [he] at hx
          simp only [Option.toList_some, List.mem_singleton] at hx
          rw [hx]
          exact (expectedPatch_objID obj bm am k p he).1
    have hfm : (k :: rest).filterMap (expectedPatch obj bm am) =
        (expectedPatch obj bm am k).toList ++ rest.filterMap (expectedPatch obj bm am) := by
      cases he : expectedPatch obj bm am k with
      | none => simp [List.filterMap_cons, he]
      | some p => simp [List.filterMap_cons, he]
    have plain : ∀ s1 o1,
        Document.diffKeys obj bm am recursive sub rest seen
          (patches ++ (expectedPatch obj bm am k).toList) = (s1, .ok o1) →
        o1.filter (fun x => decide (x.ObjID = obj)) =
            patches.filter (fun x => decide (x.ObjID = obj)) ++
              (k :: rest).filterMap (expectedPatch obj bm am) ∧
          (∀ y, GoMap.contains seen y = true → GoMap.contains s1 y = true) ∧
          (∀ x ∈ o1, x ∈ patches ∨ x.ObjID = obj ∨ GoMap.contains seen0 x.ObjID = false) := by
      intro s1 o1 h1
      obtain ⟨a, b, c⟩ := ih seen _ s1 o1 hobj h0 h1
      refine ⟨?_, b, ?_⟩
      · rw [a, hown, hfm, List.append_assoc]
      · intro x hx
        rcases c x hx with hx | hx | hx
        · rcases hmem x hx with hx | hx
          · exact Or.inl hx
          · exact Or.inr (Or.inl hx)
        · exact Or.inr (Or.inl hx)
        · exact Or.inr (Or.inr hx)
    split at h
    · rename_i bv av hb ha
      split_ifs at h with hrec
      · rcases hs : sub bv.Object.ID seen with ⟨s2, r⟩
        rw [hs] at h
        cases r with
        | error e =>
          dsimp only at h
          injection h with _ h2
          cases h2
        | ok more =>
          dsimp only at h
          obtain ⟨m1, m2⟩ := hsub _ _ _ _ hs
          have hobj2 : GoMap.contains s2 obj = true := m2 obj hobj
          obtain ⟨a, b, c⟩ := ih s2 _ seen1 out hobj2 (fun y hy => m2 y (h0 y hy)) h
          have hmore : more.filter (fun x => decide (x.ObjID = obj)) = [] := by
            rw [List.filter_eq_nil_iff]
            intro x hx
            have := m1 x hx
            simp only [decide_eq_true_eq]
            intro hxo
            rw [hxo, hobj] at this
            cases this
          refine ⟨?_, fun y hy => b y (m2 y hy), ?_⟩
          · rw [a, List.filter_append, hown, hmore, List.append_nil, hfm, List.append_assoc]
          · intro x hx
            rcases c x hx with hx | hx | hx
            · rcases List.mem_append.1 hx with hx | hx
              · rcases hmem x hx with hx | hx
                · exact Or.inl hx
                · exact Or.inr (Or.inl hx)
              · right; right
                have := m1 x hx
                cases hc : GoMap.contains seen0 x.ObjID with
                | false => rfl
                | true => rw [h0 _ hc] at this; cases this
            · exact Or.inr (Or.inl hx)
            · exact Or.inr (Or.inr hx)
      · exact plain _ _ h
    · exact plain _ _ h

theorem diffObjAt_subOK (d : Document) (before after : Clock) :
    ∀ (fuel : Nat) (recursive : Bool),
      SubOK (fun o s => Document.diffObjAt d before after fuel o recursive s) := by
  intro fuel
  induction fuel with
  | zero =>
    intro recursive o s s1 p h
    simp only [Document.diffObjAt] at h
    injection h with _ h2
    cases h2
  | succ n ih =>
    intro recursive o s s1 p h
    simp only [Document.diffObjAt] at h
    split_ifs at h with hc
    · injection h with h1 h2
      injection h2 with h2
      subst h1 h2
      exact ⟨fun x hx => (by cases hx), fun y hy => hy⟩
    · have hno : GoMap.contains s o = false := by
        cases hcc : GoMap.contains s o with
        | false => rfl
        | true => exact absurd hcc hc
      have hgrow : ∀ y, GoMap.contains s y = true →
          GoMap.contains (GoMap.set s o ()) y = true :=
        fun y hy => (contains_set_any s o y ()).2 (Or.inl hy)
      have hone : ∀ (q : Patch), q.ObjID = o →
          (s1, (Except.ok p : Except GoError (List Patch))) = (GoMap.set s o (), .ok [q]) →
          (∀ x ∈ p, GoMap.contains s x.ObjID = false) ∧
            (∀ y, GoMap.contains s y = true → GoMap.contains s1 y = true) := by
        intro q hq he
        injection he with h1 h2
        injection h2 with h2
        subst h1 h2
        refine ⟨fun x hx => ?_, hgrow⟩
        rw [List.mem_singleton.1 hx, hq]
        exact hno
      have hnil : (s1, (Except.ok p : Except GoError (List Patch))) =
          (GoMap.set s o (), .ok []) →
          (∀ x ∈ p, GoMap.contains s x.ObjID = false) ∧
            (∀ y, GoMap.contains s y = true → GoMap.contains s1 y = true) := by
        intro he
        injection he with h1 h2
        injection h2 with h2
        subst h1 h2
        exact ⟨fun x hx => (by cases hx), hgrow⟩
      split at h
      · injection h with _ h2
        cases h2
      · rename_i typ htyp
        split_ifs at h with hm ht hl
        · unfold Document.diffMap at h
          split at h
          · injection h with _ h2
            cases h2
          · split at h
            · injection h with _ h2
              cases h2
            · rename_i bm _ _ am _
              obtain ⟨_, b, c⟩ := diffKeys_spec o bm am recursive _ (ih true) s _ _ []
                s1 p ((contains_set_any s o o ()).2 (Or.inr rfl)) hgrow h
              refine ⟨fun x hx => ?_, fun y hy => b y (hgrow y hy)⟩
              rcases c x hx with hx | hx | hx
              · cases hx
              · rw [hx]; exact hno
              · exact hx
        · split at h
          · injection h with _ h2
            cases h2
          · split at h
            · injection h with _ h2
              cases h2
            · split_ifs at h
              · exact hnil h.symm
              · exact hone _ rfl h.symm
        · split at h
          · injection h with _ h2
            cases h2
          · split at h
            · injection h with _ h2
              cases h2
            · split_ifs at h
              · exact hnil h.symm
              · exact hone _ rfl h.symm
        · injection h with _ h2
          cases h2

/-- The own patches of a map object: when `diffObjAt` returns patches for a map object
that was not visited before, those on the object itself are, in the order of the sorted
keys, the patches that `expectedPatch` names. -/
theorem diffObjAt_map (d : Document) (before after : Clock) (fuel : Nat) (obj : ObjID)
    (recursive : Bool) (seen seen1 : GoMap ObjID Unit) (out : List Patch)
    (hno : GoMap.contains seen obj = false)
    (hmap : d.ops.ObjectType obj = some opset.ObjMap)
    (h : Document.diffObjAt d before after (fuel + 1) obj recursive seen = (seen1, .ok out)) :
    ∃ bm am, d.mapSnapshot obj before = .ok bm ∧ d.mapSnapshot obj after = .ok am ∧
      out.filter (fun x => decide (x.ObjID = obj)) =
        (Document.diffKeyList bm am).filterMap (expectedPatch obj bm am) := by
  simp only [Document.diffObjAt] at h
  rw [if_neg (by rw [hno]; simp), hmap] at h
  dsimp only at h
  rw [if_pos rfl] at h
  unfold Document.diffMap at h
  split at h
  · injection h with _ h2
    cases h2
  · split at h
    · injection h with _ h2
      cases h2
    · rename_i bm hb _ am ha
      obtain ⟨a, _, _⟩ := diffKeys_spec obj bm am recursive _
        (diffObjAt_subOK d before after fuel true) seen _ _ [] seen1 out
        ((contains_set_any seen obj obj ()).2 (Or.inr rfl))
        (fun y hy => (contains_set_any seen obj y ()).2 (Or.inl hy)) h
      exact ⟨bm, am, hb, ha, by simpa using a⟩

theorem mem_keys_foldl_set_unit {κ : Type} [DecidableEq κ] (ks : List κ) :
    ∀ (s : GoMap κ Unit) (a : κ),
      a ∈ GoMap.keys (ks.foldl (fun s k => GoMap.set s k ()) s) ↔ a ∈ GoMap.keys s ∨ a ∈ ks := by
  induction ks with
  | nil => intro s a; simp
  | cons k rest ih =>
    intro s a
    simp only [List.foldl_cons, ih, GoMap.mem_keys_set, List.mem_cons]
    by_cases h : a = k
    · simp [h]
    · simp [h]

theorem nodup_keys_foldl_set_unit {κ : Type} [DecidableEq κ] (ks : List κ) :
    ∀ (s : GoMap κ Unit), (GoMap.keys s).Nodup →
      (GoMap.keys (ks.foldl (fun s k => GoMap.set s k ()) s)).Nodup := by
  induction ks with
  | nil => intro s h; simpa
  | cons k rest ih => intro s h; exact ih _ (GoMap.nodup_keys_set s k () h)

theorem mem_diffKeyList (bm am : GoMap GoString opset.Value) (k : GoString) :
    k ∈ Document.diffKeyList bm am ↔ k ∈ GoMap.keys bm ∨ k ∈ GoMap.keys am := by
  unfold Document.diffKeyList
  rw [(List.perm_insertionSort _ _).mem_iff, mem_keys_foldl_set_unit, mem_keys_foldl_set_unit]
  simp [GoMap.keys]

theorem diffKeyList_ascending (bm am : GoMap GoString opset.Value) :
    (Document.diffKeyList bm am).Pairwise (fun a b => a < b) := by
  unfold Document.diffKeyList
  have htot : IsTotal GoString (fun a b => ¬ b < a) :=
    ⟨fun a b => by
      by_cases h : b < a
      · exact Or.inr (lt_asymm h)
      · exact Or.inl h⟩
  have htr : IsTrans GoString (fun a b => ¬ b < a) :=
    ⟨fun a b c h1 h2 => not_lt.2 (le_trans (not_lt.1 h1) (not_lt.1 h2))⟩
  have hs := List.sorted_insertionSort (fun a b : GoString => ¬ b < a)
    (GoMap.keys ((GoMap.keys am).foldl (fun s k => GoMap.set s k ())
      ((GoMap.keys bm).foldl (fun s k => GoMap.set s k ()) ([] : GoMap GoString Unit))))
  have hnd : (List.insertionSort (fun a b : GoString => ¬ b < a)
      (GoMap.keys ((GoMap.keys am).foldl (fun s k => GoMap.set s k ())
        ((GoMap.keys bm).foldl (fun s k => GoMap.set s k ()) ([] : GoMap GoString Unit))))).Nodup :=
    (List.perm_insertionSort _ _).nodup_iff.2
      (nodup_keys_foldl_set_unit _ _ (nodup_keys_foldl_set_unit _ _ List.nodup_nil))
  have hp := (List.Pairwise.and hs hnd)
  exact hp.imp (fun ⟨h1, h2⟩ => lt_of_le_of_ne (not_lt.1 h1) h2)

theorem valuesEqual_self (l : List opset.Value) (h : ∀ v ∈ l, v.Equal v = true) :
    valuesEqual l l = true := by
  unfold valuesEqual
  simp only [ne_eq, not_true_eq_false, if_false, List.all_eq_true]
  intro p hp
  induction l with
  | nil => cases hp
  | cons x xs ih =>
    simp only [List.zip_cons_cons, List.mem_cons] at hp
    rcases hp with rfl | hp
    · exact h x (List.mem_cons_self x xs)
    · exact ih (fun v hv => h v (List.mem_cons_of_mem x hv)) hp

theorem diffKeys_same (obj : ObjID) (m : GoMap GoString opset.Value) (recursive : Bool)
    (sub : ObjID → GoMap ObjID Unit → GoMap ObjID Unit × Except GoError (List Patch))
    (hsub : ∀ o s s1 p, sub o s = (s1, .ok p) → p = [])
    (hm : ∀ k v, GoMap.get? m k = some v → v.Equal v = true) :
    ∀ (keys : List GoString) (seen : GoMap ObjID Unit) (patches : List Patch)
      (seen1 : GoMap ObjID Unit) (out : List Patch),
      Document.diffKeys obj m m recursive sub keys seen patches = (seen1, .ok out) →
      out = patches := by
  intro keys
  induction keys with
  | nil =>
    intro seen patches seen1 out h
    unfold Document.diffKeys at h
    injection h with h1 h2
    injection h2 with h2
    exact h2.symm
  | cons k rest ih =>
    intro seen patches seen1 out h
    unfold Document.diffKeys at h
    rw [ownStep] at h
    have he : expectedPatch obj m m k = none := by
      unfold expectedPatch
      cases hk : GoMap.get? m k with
      | none => rfl
      | some v => simp [hm k v hk]
    rw [he, Option.toList_none, List.append_nil] at h
    split at h
    · split_ifs at h
      · rcases hs : sub _ seen with ⟨s2, r⟩
        rw [hs] at h
        cases r with
        | error e =>
          dsimp only at h
          injection h with _ h2
          cases h2
        | ok more =>
          dsimp only at h
          rw [hsub _ _ _ _ hs, List.append_nil] at h
          exact ih _ _ _ _ h
      · exact ih _ _ _ _ h
    · exact ih _ _ _ _ h

theorem objectType_mem_keys (d : Document) (obj : ObjID) (typ : opset.ObjType)
    (h : d.ops.ObjectType obj = some typ) : obj ∈ GoMap.keys d.ops.objects := by
  unfold opset.OpSet.ObjectType at h
  rw [← GoMap.contains_iff_mem_keys]
  unfold GoMap.contains
  cases hg : GoMap.get? d.ops.objects obj with
  | none => rw [hg] at h; cases h
  | some st => rfl

/-- With the same clock on both sides and values that are equal to themselves,
`diffObjAt` returns no patch. -/
theorem diffObjAt_same (d : Document) (clk : Clock) (hself : d.selfEqualAt clk = true) :
    ∀ (fuel : Nat) (obj : ObjID) (recursive : Bool) (seen seen1 : GoMap ObjID Unit)
      (out : List Patch),
      Document.diffObjAt d clk clk fuel obj recursive seen = (seen1, .ok out) → out = [] := by
  intro fuel
  induction fuel with
  | zero =>
    intro obj recursive seen seen1 out h
    simp only [Document.diffObjAt] at h
    injection h with _ h2
    cases h2
  | succ n ih =>
    intro obj recursive seen seen1 out h
    simp only [Document.diffObjAt] at h
    split_ifs at h with hc
    · injection h with _ h2
      injection h2 with h2
      exact h2.symm
    · split at h
      · injection h with _ h2
        cases h2
      · rename_i typ htyp
        have hmem := objectType_mem_keys d obj typ htyp
        unfold Document.selfEqualAt at hself
        rw [List.all_eq_true] at hself
        have hs := hself obj hmem
        rw [Bool.and_eq_true] at hs
        obtain ⟨hs1, hs2⟩ := hs
        split_ifs at h with hm ht hl
        · unfold Document.diffMap at h
          cases hsnap : d.mapSnapshot obj clk with
          | error e =>
            rw [hsnap] at h
            injection h with _ h2
            cases h2
          | ok m =>
            rw [hsnap] at h hs1
            dsimp only at h hs1
            rw [List.all_eq_true] at hs1
            exact diffKeys_same obj m recursive _ (fun o s s1 p hp => ih o true s s1 p hp)
              (fun k v hk => hs1 (k, v) (opset.GoMap.mem_of_get? m k v hk)) _ _ _ _ _ h
        · cases htx : d.ops.Text obj (some clk) with
          | error e =>
            rw [htx] at h
            injection h with _ h2
            cases h2
          | ok t =>
            rw [htx] at h
            dsimp only at h
            rw [if_pos rfl] at h
            injection h with _ h2
            injection h2 with h2
            exact h2.symm
        · cases hlr : d.ops.ListRange obj 0 (-1) (some clk) with
          | error e =>
            rw [hlr] at h
            injection h with _ h2
            cases h2
          | ok l =>
            rw [hlr] at h hs2
            dsimp only at h hs2
            rw [List.all_eq_true] at hs2
            rw [if_pos (valuesEqual_self l hs2)] at h
            injection h with _ h2
            injection h2 with h2
            exact h2.symm
        · injection h with _ h2
          cases h2

/-- The errors that the reads of the op set can return in the model: the panics of
`applyRecord`; none of them is the lack of fuel. -/
theorem applyRecordObj_fuel (obj : opset.objectState) (op : opset.opRecord) (e : GoError)
    (h : opset.applyRecordObj obj op = .error e) : e ≠ .outOfFuel := by
  unfold opset.applyRecordObj at h
  repeat' split at h
  all_goals (cases h; try decide)

theorem replay_fuel (cover : Option Clock) :
    ∀ (ops : List opset.opRecord) (state : GoMap ObjID opset.objectState) (e : GoError),
      opset.replay cover ops state = .error e → e ≠ .outOfFuel := by
  intro ops
  induction ops with
  | nil => intro state e h; cases h
  | cons op rest ih =>
    intro state e h
    have hrec : ∀ e1, opset.applyRecord state op = .error e1 → e1 ≠ .outOfFuel := by
      intro e1 h1
      unfold opset.applyRecord at h1
      split at h1
      · cases h1
      · split at h1
        · rename_i e2 he2
          injection h1 with h1
          subst h1
          exact applyRecordObj_fuel _ _ _ he2
        · cases h1
    unfold opset.replay at h
    split at h
    · split_ifs at h
      · split at h
        · rename_i e1 he1
          injection h with h
          subst h
          exact hrec _ he1
        · exact ih _ _ h
      · exact ih _ _ h
    · split at h
      · rename_i e1 he1
        injection h with h
        subst h
        exact hrec _ he1
      · exact ih _ _ h

theorem getMap_fuel (o : opset.OpSet) (obj : ObjID) (k : GoString) (cover : Option Clock)
    (e : GoError) (h : o.GetMap obj k cover = .error e) : e ≠ .outOfFuel := by
  unfold opset.OpSet.GetMap opset.OpSet.materialize at h
  split at h
  · rename_i e1 he1
    injection h with h
    subst h
    exact replay_fuel _ _ _ _ he1
  · split at h <;> cases h

theorem keysMap_fuel (o : opset.OpSet) (obj : ObjID) (cover : Option Clock)
    (e : GoError) (h : o.KeysMap obj cover = .error e) : e ≠ .outOfFuel := by
  unfold opset.OpSet.KeysMap opset.OpSet.materialize at h
  split at h
  · rename_i e1 he1
    injection h with h
    subst h
    exact replay_fuel _ _ _ _ he1
  · split at h <;> cases h

theorem listRange_fuel (o : opset.OpSet) (obj : ObjID) (start stop : Int)
    (cover : Option Clock) (e : GoError) (h : o.ListRange obj start stop cover = .error e) :
    e ≠ .outOfFuel := by
  unfold opset.OpSet.ListRange opset.OpSet.materialize at h
  split at h
  · rename_i e1 he1
    injection h with h
    subst h
    exact replay_fuel _ _ _ _ he1
  · split at h <;> cases h

theorem text_fuel (o : opset.OpSet) (obj : ObjID) (cover : Option Clock) (e : GoError)
    (h : o.Text obj cover = .error e) : e ≠ .outOfFuel := by
  unfold opset.OpSet.Text at h
  split at h
  · rename_i e1 he1
    injection h with h
    subst h
    exact listRange_fuel _ _ _ _ _ _ he1
  · cases h

theorem iterMapLoop_fuel (o : opset.OpSet) (obj : ObjID) (cover : Option Clock) :
    ∀ (keys : List GoString) (e : GoError),
      o.iterMapLoop obj cover keys = .error e → e ≠ .outOfFuel := by
  intro keys
  induction keys with
  | nil => intro e h; cases h
  | cons k rest ih =>
    intro e h
    unfold opset.OpSet.iterMapLoop at h
    split at h
    · rename_i e1 he1
      injection h with h
      subst h
      exact getMap_fuel _ _ _ _ _ he1
    · split at h
      · rename_i e1 he1
        injection h with h
        subst h
        exact ih _ he1
      · split at h <;> cases h

theorem mapSnapshot_fuel (d : Document) (obj : ObjID) (clk : Clock) (e : GoError)
    (h : d.mapSnapshot obj clk = .error e) : e ≠ .outOfFuel := by
  unfold Document.mapSnapshot opset.OpSet.IterMap at h
  split at h
  · rename_i e1 he1
    injection h with h
    subst h
    split at he1
    · rename_i e2 he2
      injection he1 with he1
      subst he1
      exact keysMap_fuel _ _ _ _ he2
    · exact iterMapLoop_fuel _ _ _ _ _ he1
  · cases h

theorem unseen_mono (d : Document) (s s1 : GoMap ObjID Unit)
    (h : ∀ y, GoMap.contains s y = true → GoMap.contains s1 y = true) :
    unseen d s1 ≤ unseen d s := by
  unfold unseen
  apply List.Sublist.length_le
  apply List.monotone_filter_right
  intro o ho
  cases hc : GoMap.contains s o with
  | false => rfl
  | true => rw [h o hc] at ho; cases ho

theorem unseen_lt (d : Document) (s : GoMap ObjID Unit) (obj : ObjID)
    (hmem : obj ∈ GoMap.keys d.ops.objects) (hno : GoMap.contains s obj = false) :
    unseen d (GoMap.set s obj ()) < unseen d s := by
  unfold unseen
  have heq : (GoMap.keys d.ops.objects).filter (fun o => !GoMap.contains (GoMap.set s obj ()) o) =
      ((GoMap.keys d.ops.objects).filter (fun o => !GoMap.contains s o)).filter
        (fun o => !decide (o = obj)) := by
    rw [List.filter_filter]
    congr 1
    funext o
    have := contains_set_any s obj o ()
    cases h1 : GoMap.contains (GoMap.set s obj ()) o <;> cases h2 : GoMap.contains s o <;>
      by_cases h3 : o = obj <;> simp_all
  rw [heq]
  apply List.length_filter_lt_length_iff_exists.2
  exact ⟨obj, List.mem_filter.2 ⟨hmem, by simp [hno]⟩, by simp⟩

theorem diffKeys_fuel (d : Document) (n : Nat) (obj : ObjID)
    (bm am : GoMap GoString opset.Value) (recursive : Bool)
    (sub : ObjID → GoMap ObjID Unit → GoMap ObjID Unit × Except GoError (List Patch))
    (hsub : SubOK sub)
    (hf : ∀ o s, unseen d s < n → (sub o s).2 ≠ .error .outOfFuel) :
    ∀ (keys : List GoString) (seen : GoMap ObjID Unit) (patches : List Patch),
      unseen d seen < n →
      (Document.diffKeys obj bm am recursive sub keys seen patches).2 ≠ .error .outOfFuel := by
  intro keys
  induction keys with
  | nil =>
    intro seen patches _
    unfold Document.diffKeys
    intro h
    cases h
  | cons k rest ih =>
    intro seen patches hlt
    unfold Document.diffKeys
    dsimp only
    split
    · rename_i bv av _ _
      split_ifs
      · rcases hs : sub bv.Object.ID seen with ⟨s2, r⟩
        cases r with
        | error e =>
          dsimp only
          have := hf bv.Object.ID seen hlt
          rw [hs] at this
          exact this
        | ok more =>
          dsimp only
          exact ih _ _ (lt_of_le_of_lt (unseen_mono d seen s2 (hsub _ _ _ _ hs).2) hlt)
      · exact ih _ _ hlt
    · exact ih _ _ hlt

theorem diffObjAt_fuel (d : Document) (before after : Clock) :
    ∀ (fuel : Nat) (obj : ObjID) (recursive : Bool) (seen : GoMap ObjID Unit),
      unseen d seen < fuel →
      (Document.diffObjAt d before after fuel obj recursive seen).2 ≠ .error .outOfFuel := by
  intro fuel
  induction fuel with
  | zero => intro obj recursive seen h; cases h
  | succ n ih =>
    intro obj recursive seen hlt
    simp only [Document.diffObjAt]
    split_ifs with hc
    · intro h; cases h
    · have hno : GoMap.contains seen obj = false := by
        cases hcc : GoMap.contains seen obj with
        | false => rfl
        | true => exact absurd hcc hc
      have wrap : ∀ (s : GoMap ObjID Unit) (e : GoError), e ≠ .outOfFuel →
          (s, (Except.error e : Except GoError (List Patch))).2 ≠ .error .outOfFuel :=
        fun s e he h => he (by injection h)
      split
      · intro h; cases h
      · rename_i typ htyp
        have hlt1 : unseen d (GoMap.set seen obj ()) < n :=
          lt_of_lt_of_le (unseen_lt d seen obj (objectType_mem_keys d obj typ htyp) hno)
            (Nat.le_of_lt_succ hlt)
        split_ifs
        · unfold Document.diffMap
          split
          · rename_i e he
            exact wrap _ _ (mapSnapshot_fuel _ _ _ _ he)
          · split
            · rename_i e he
              exact wrap _ _ (mapSnapshot_fuel _ _ _ _ he)
            · exact diffKeys_fuel d n obj _ _ recursive _ (diffObjAt_subOK d before after n true)
                (fun o s hs => ih o true s hs) _ _ _ hlt1
        · split
          · rename_i e he
            exact wrap _ _ (text_fuel _ _ _ _ he)
          · split
            · rename_i e he
              exact wrap _ _ (text_fuel _ _ _ _ he)
            · split_ifs <;> (intro h; cases h)
        · split
          · rename_i e he
            exact wrap _ _ (listRange_fuel _ _ _ _ _ _ he)
          · split
            · rename_i e he
              exact wrap _ _ (listRange_fuel _ _ _ _ _ _ he)
            · split_ifs <;> (intro h; cases h)
        · intro h; cases h

/-- The fuel that `DiffObj` gives to `diffObjAt` is enough. -/
theorem diffObjAt_total (d : Document) (before after : Clock) (obj : ObjID)
    (recursive : Bool) :
    (Document.diffObjAt d before after (d.ops.objects.length + 1) obj recursive []).2 ≠
      .error .outOfFuel := by
  apply diffObjAt_fuel
  unfold unseen
  refine lt_of_le_of_lt (List.length_filter_le _ _) ?_
  rw [GoMap.length_keys]
  exact Nat.lt_succ_self _

theorem filterMap_expected_keys (obj : ObjID) (bm am : GoMap GoString opset.Value) :
    ∀ keys : List GoString,
      (keys.filterMap (expectedPatch obj bm am)).map Patch.Key =
        keys.filter (fun k => (expectedPatch obj bm am k).isSome) := by
  intro keys
  induction keys with
  | nil => rfl
  | cons k rest ih =>
    cases he : expectedPatch obj bm am k with
    | none => simp [List.filterMap_cons, he, ih]
    | some p =>
      simp [List.filterMap_cons, he, ih, (expectedPatch_objID obj bm am k p he).2]

theorem expectedPatch_mem_keys (obj : ObjID) (bm am : GoMap GoString opset.Value)
    (k : GoString) (p : Patch) (h : expectedPatch obj bm am k = some p) :
    k ∈ Document.diffKeyList bm am := by
  rw [mem_diffKeyList, ← GoMap.get?_isSome_iff_mem_keys, ← GoMap.get?_isSome_iff_mem_keys]
  unfold expectedPatch at h
  cases hb : GoMap.get? bm k with
  | some bv => exact Or.inl rfl
  | none =>
    cases ha : GoMap.get? am k with
    | some av => exact Or.inr rfl
    | none => rw [hb, ha] at h; cases h

theorem ok_of_toOption {ε α : Type} {x : Except ε α} {a : α} (h : x.toOption = some a) :
    x = .ok a := by
  cases x with
  | error e => cases h
  | ok v =>
    injection h with h
    rw [h]

end automerge

namespace automerge

open model changegraph

/-- C23 (as amended): for every map object and every two sets of heads for which
`DiffObj` returns patches (the heads resolve and the diff of no nested object fails),
the patches on the object itself come in strictly ascending key order; each of them is
the patch that `expectedPatch` names for its key from the snapshots of the two sides
(a delete with the old value for a key only before, a put with the new value for a key
only after, a put with both values for a key on both sides whose values are not
`Equal`, none for a key with `Equal` values), and every key for which a patch is named
has it. When the two sets of heads are the same and every value read at that clock is
`Equal` to itself, there is no patch. -/
theorem DiffObj_map_patches (d : Document) (obj : ObjID)
    (beforeHeads afterHeads : List ChangeHash) (recursive : Bool) (patches : List Patch)
    (hmap : d.ops.ObjectType obj = some opset.ObjMap)
    (hok : d.DiffObj obj beforeHeads afterHeads recursive = .ok patches) :
    ∃ bc ac bm am,
      d.clockFromHeads beforeHeads = .ok bc ∧ d.clockFromHeads afterHeads = .ok ac ∧
      d.mapSnapshot obj bc = .ok bm ∧ d.mapSnapshot obj ac = .ok am ∧
      ((patches.filter (fun x => decide (x.ObjID = obj))).map Patch.Key).Pairwise
        (fun a b => a < b) ∧
      (∀ p ∈ patches, p.ObjID = obj → expectedPatch obj bm am p.Key = some p) ∧
      (∀ k p, expectedPatch obj bm am k = some p → p ∈ patches) ∧
      (beforeHeads = afterHeads → d.selfEqualAt bc = true → patches = []) := by
  unfold Document.DiffObj at hok
  cases hb : d.clockFromHeads beforeHeads with
  | error e => rw [hb] at hok; cases hok
  | ok bc =>
    cases ha : d.clockFromHeads afterHeads with
    | error e => rw [hb, ha] at hok; cases hok
    | ok ac =>
      rw [hb, ha] at hok
      dsimp only at hok
      rcases hr : Document.diffObjAt d bc ac (d.ops.objects.length + 1) obj recursive [] with
        ⟨seen1, r⟩
      rw [hr] at hok
      dsimp only at hok
      subst hok
      obtain ⟨bm, am, hbm, ham, hown⟩ :=
        diffObjAt_map d bc ac _ obj recursive [] seen1 patches rfl hmap hr
      refine ⟨bc, ac, bm, am, rfl, rfl, hbm, ham, ?_, ?_, ?_, ?_⟩
      · rw [hown, filterMap_expected_keys]
        exact (diffKeyList_ascending bm am).sublist (List.filter_sublist _)
      · intro p hp hobj
        have hmem : p ∈ patches.filter (fun x => decide (x.ObjID = obj)) :=
          List.mem_filter.2 ⟨hp, by simpa using hobj⟩
        rw [hown, List.mem_filterMap] at hmem
        obtain ⟨k, _, hk⟩ := hmem
        rw [(expectedPatch_objID obj bm am k p hk).2]
        exact hk
      · intro k p hk
        have hmem : p ∈ patches.filter (fun x => decide (x.ObjID = obj)) := by
          rw [hown, List.mem_filterMap]
          exact ⟨k, expectedPatch_mem_keys obj bm am k p hk, hk⟩
        exact (List.mem_filter.1 hmem).1
      · intro heq hself
        subst heq
        rw [hb] at ha
        injection ha with ha
        subst ha
        exact diffObjAt_same d bc hself _ _ _ _ _ _ hr

theorem DiffObj_map_patches_witness :
    historyDoc2.ops.ObjectType RootObjID = some opset.ObjMap ∧
      historyDoc2.DiffObj RootObjID [101] [102] true = .ok historyPatches ∧
      ∃ bc ac bm am,
        historyDoc2.clockFromHeads [101] = .ok bc ∧
        historyDoc2.clockFromHeads [102] = .ok ac ∧
        historyDoc2.mapSnapshot RootObjID bc = .ok bm ∧
        historyDoc2.mapSnapshot RootObjID ac = .ok am ∧
        ((historyPatches.filter (fun x => decide (x.ObjID = RootObjID))).map Patch.Key).Pairwise
          (fun a b => a < b) ∧
        (∀ p ∈ historyPatches, p.ObjID = RootObjID →
          expectedPatch RootObjID bm am p.Key = some p) ∧
        (∀ k p, expectedPatch RootObjID bm am k = some p → p ∈ historyPatches) ∧
        (([101] : List ChangeHash) = [102] → historyDoc2.selfEqualAt bc = true →
          historyPatches = []) :=
  ⟨rfl, ok_of_toOption (by decide!),
    DiffObj_map_patches historyDoc2 RootObjID [101] [102] true historyPatches rfl
      (ok_of_toOption (by decide!))⟩

/-- C23 (counterexample): `nanDoc` has one commit, which puts a NaN at the root key `x`;
`Diff` with its heads on both sides returns a put of `x`, because a NaN is not `Equal`
to itself. `oddObjectDoc` has an object of the unknown type 7 at the root key `o` since
its first commit and the key `k` since its second; `Diff` from the first to the second
returns nothing, although `k` is visible only after, because the diff of the nested
object fails and `Diff` drops the error with the patches. -/
theorem Diff_same_heads_not_empty :
    nanDoc.Heads = [101] ∧
      (nanDoc.clockFromHeads [101]).toOption.map nanDoc.selfEqualAt = some false ∧
      nanDoc.Diff [101] [101] =
        .ok [{ zeroPatch with
          Kind := PatchMapPut, ObjID := RootObjID, Key := "x",
          OldValue := some (opset.NewScalarValue (F64Value 0x7ff8000000000000)),
          NewValue := some (opset.NewScalarValue (F64Value 0x7ff8000000000000)) }] ∧
      oddObjectDoc.GetMapAt RootObjID "k" [101] = .ok none ∧
      stringOf (oddObjectDoc.GetMapAt RootObjID "k" [102]) = some "v" ∧
      oddObjectDoc.DiffObj RootObjID [101] [102] true = .error .ErrDiffUnknownObject ∧
      oddObjectDoc.Diff [101] [102] = .ok [] := by
  refine ⟨by decide!, by decide!, ok_of_toOption (by decide!), ok_of_toOption (by decide!),
    by decide!, ?_, ok_of_toOption (by decide!)⟩
  cases h : oddObjectDoc.DiffObj RootObjID [101] [102] true with
  | ok p =>
    have : (oddObjectDoc.DiffObj RootObjID [101] [102] true).toOption = none := by decide!
    rw [h] at this
    cases this
  | error e =>
    have h2 : (match oddObjectDoc.DiffObj RootObjID [101] [102] true with
      | .ok p => decide (GoError.ErrDiffUnknownObject = GoError.ErrDiffUnknownObject)
      | .error e1 => decide (e1 = GoError.ErrDiffUnknownObject)) = true := by decide!
    rw [h] at h2
    simp only [decide_eq_true_eq] at h2
    rw [h2]

end automerge

/-! ## The tracked map state and full replay -/

namespace opset

open model

/-- C38: for an op set reachable from `New` by `CreateObject` and the write operations,
a map object and a key, the versions tracked in the current state are the versions
that replaying the whole log with `materialize(nil)` leaves at the key, and the
OpIDs that `visibleMapVersionIDs` reads with no clock are the sorted OpIDs of the
replayed entry, in the same order. -/
theorem current_refines_replay (o : OpSet) (hr : Reachable o) (obj : ObjID)
    (hm : o.ObjectType obj = some ObjMap) (key : GoString) :
    ∃ state st, o.materialize none = .ok state ∧ GoMap.get? state obj = some st ∧
      o.currentMapEntry obj key = entryVersions st.m key ∧
      o.visibleMapVersionIDs obj key none =
        .ok ((sortedVersions (entryVersions st.m key)).map VersionedValue.OpID) := by
  obtain ⟨state, st, hmat, hst, hver⟩ := materialize_entry hr.typed obj hm none
  have hfold : survivors none obj key o.ops = o.currentMapEntry obj key := by
    rw [hr.sync.current obj key, foldl_stepVersions]
    simp
  refine ⟨state, st, hmat, hst, ?_, ?_⟩
  · rw [hver key, hfold]
  · unfold OpSet.visibleMapVersionIDs
    rw [hver key, hfold]

theorem current_refines_replay_witness :
    ∃ state st, exampleOpSet.materialize none = .ok state ∧
      GoMap.get? state RootObjID = some st ∧
      exampleOpSet.currentMapEntry RootObjID "name" = entryVersions st.m "name" ∧
      exampleOpSet.visibleMapVersionIDs RootObjID "name" none =
        .ok ((sortedVersions (entryVersions st.m "name")).map VersionedValue.OpID) :=
  current_refines_replay exampleOpSet exampleOpSet_reachable RootObjID rfl "name"

end opset

/-! ## A failed `AddChange` -/

namespace changegraph

open model

namespace Graph

theorem AddChangeOutcome_eq (g : Graph) (m : ChangeMeta) :
    g.AddChange m =
      match g.AddChangeOutcome m with
      | (g', none) => .ok g'
      | (_, some e) => .error e := by
  unfold AddChange AddChangeOutcome HasChange
  by_cases h1 : GoMap.contains g.byHash m.Hash = true
  · simp [h1]
  · simp only [h1]
    by_cases h2 : m.Seq = (g.actorIndexes m.Actor).length + 1
    · simp only [h2]
      cases hd : resolveDeps g (SortChangeHashes m.Deps) with
      | error e => simp
      | ok idx =>
        simp only [ne_eq, not_true_eq_false, if_false, Bool.false_eq_true]
        by_cases h3 : m.MaxOp > g.maxOp
        · simp [h3, actorIndexes]
        · simp [h3, actorIndexes]
    · simp [h2]

theorem AddChangeOutcome_error (g : Graph) (m : ChangeMeta) (e : GoError)
    (h : (g.AddChangeOutcome m).2 = some e) : (g.AddChangeOutcome m).1 = g := by
  unfold AddChangeOutcome at h ⊢
  by_cases h1 : GoMap.contains g.byHash m.Hash = true
  · simp [h1]
  · simp only [h1] at h ⊢
    by_cases h2 : m.Seq = (g.actorIndexes m.Actor).length + 1
    · simp only [h2] at h ⊢
      cases hd : resolveDeps g (SortChangeHashes m.Deps) with
      | error e => simp
      | ok idx => rw [hd] at h; simp at h
    · simp [h2]

end Graph

/-- C40: when `AddChange` returns an error, the graph held by the receiver after the
call answers `Len`, `Heads`, `MaxOp`, `SeqForActor`, `HashForActorSeq`, `HasChange`,
`DepsForHash` and `GetHashesFromHeads` as the graph before the call did. -/
theorem AddChange_error_changes_nothing (g : Graph) (m : ChangeMeta) (e : GoError)
    (h : (g.AddChangeOutcome m).2 = some e) :
    (g.AddChangeOutcome m).1.Len = g.Len ∧
    (g.AddChangeOutcome m).1.Heads = g.Heads ∧
    (g.AddChangeOutcome m).1.MaxOp = g.MaxOp ∧
    (∀ actor, (g.AddChangeOutcome m).1.SeqForActor actor = g.SeqForActor actor) ∧
    (∀ actor seq, (g.AddChangeOutcome m).1.HashForActorSeq actor seq =
      g.HashForActorSeq actor seq) ∧
    (∀ hash, (g.AddChangeOutcome m).1.HasChange hash = g.HasChange hash) ∧
    (∀ hash, (g.AddChangeOutcome m).1.DepsForHash hash = g.DepsForHash hash) ∧
    (∀ heads, (g.AddChangeOutcome m).1.GetHashesFromHeads heads =
      g.GetHashesFromHeads heads) := by
  rw [Graph.AddChangeOutcome_error g m e h]
  exact ⟨rfl, rfl, rfl, fun _ => rfl, fun _ _ => rfl, fun _ => rfl, fun _ => rfl, fun _ => rfl⟩

end changegraph

namespace changegraph

theorem AddChange_error_changes_nothing_witness :
    (exampleGraph.AddChangeOutcome
      { Hash := 20, Deps := [], Actor := 3, Seq := 1, MaxOp := 9 }).2 =
        some GoError.ErrChangeExists ∧
    (exampleGraph.AddChangeOutcome
      { Hash := 20, Deps := [], Actor := 3, Seq := 1, MaxOp := 9 }).1.Len = exampleGraph.Len ∧
    (exampleGraph.AddChangeOutcome
      { Hash := 20, Deps := [], Actor := 3, Seq := 1, MaxOp := 9 }).1.Heads =
        exampleGraph.Heads :=
  ⟨by decide,
    (AddChange_error_changes_nothing exampleGraph
      { Hash := 20, Deps := [], Actor := 3, Seq := 1, MaxOp := 9 } GoError.ErrChangeExists
      (by decide)).1,
    (AddChange_error_changes_nothing exampleGraph
      { Hash := 20, Deps := [], Actor := 3, Seq := 1, MaxOp := 9 } GoError.ErrChangeExists
      (by decide)).2.1⟩

end changegraph

/-! ## Equality of scalar values -/

namespace model

/-- C35 (counterexample): the quiet NaN `0x7ff8000000000000` is not `Equal` to itself,
the zeros `+0` and `-0`
(patterns `0` and `2^63`) are `Equal`, and a scalar whose kind is outside the
enumeration is not `Equal` to itself. -/
theorem Equal_not_bitwise :
    (F64Value 0x7ff8000000000000).Equal (F64Value 0x7ff8000000000000) = false ∧
    (F64Value 0).Equal (F64Value (2 ^ 63)) = true ∧
    ScalarValue.Equal { zeroScalar with Kind := 10 } { zeroScalar with Kind := 10 } = false := by
  decide

/-- C35 (amended): `Equal` is equality by tag and payload. Two `f64` scalars, other than
a NaN compared with itself and two zeros of different sign, are `Equal` exactly when
their bit patterns are the same; two scalars of which the first is not an `f64` are
`Equal` exactly when they have the same enumerated kind and the same payload for that
kind; and a scalar of an enumerated kind that is not an `f64` NaN is `Equal` to
itself. -/
theorem Equal_tag_and_payload (v w : ScalarValue) (x y : Nat)
    (hnan : x = y → f64IsNaN x = false)
    (hzero : x ≠ y → ¬ (x % 2 ^ 63 = 0 ∧ y % 2 ^ 63 = 0)) :
    ((F64Value x).Equal (F64Value y) = true ↔ x = y) ∧
    (v.Kind ≠ ScalarF64 →
      (v.Equal w = true ↔ v.Kind = w.Kind ∧
        (v.Kind = ScalarNull ∨
         (v.Kind = ScalarBytes ∧ v.Bytes = w.Bytes) ∨
         (v.Kind = ScalarString ∧ v.String = w.String) ∨
         (v.Kind = ScalarInt ∧ v.Int = w.Int) ∨
         (v.Kind = ScalarUint ∧ v.Uint = w.Uint) ∨
         (v.Kind = ScalarCounter ∧ v.Counter = w.Counter) ∨
         (v.Kind = ScalarTimestamp ∧ v.Time = w.Time) ∨
         (v.Kind = ScalarBoolean ∧ v.Boolean = w.Boolean) ∨
         (v.Kind = ScalarUnknown ∧ v.TypeCode = w.TypeCode ∧ v.Bytes = w.Bytes)))) ∧
    (v.Kind ≤ ScalarUnknown → (v.Kind = ScalarF64 → f64IsNaN v.F64 = false) →
      v.Equal v = true) := by
  refine ⟨?_, ?_, ?_⟩
  · have he : (F64Value x).Equal (F64Value y) = f64Eq x y := by
      simp [ScalarValue.Equal, F64Value, ScalarF64, ScalarNull, ScalarBytes, ScalarString,
        ScalarInt, ScalarUint]
    rw [he]
    unfold f64Eq
    constructor
    · intro h
      by_contra hne
      simp only [Bool.and_eq_true, Bool.or_eq_true, decide_eq_true_eq, Bool.not_eq_true'] at h
      rcases h.2 with h2 | h2
      · exact hne h2
      · exact hzero hne h2
    · intro h
      subst h
      simp [hnan rfl]
  · intro hk
    unfold ScalarValue.Equal
    simp only [ScalarNull, ScalarBytes, ScalarString, ScalarInt, ScalarUint, ScalarF64,
      ScalarCounter, ScalarTimestamp, ScalarBoolean, ScalarUnknown] at hk ⊢
    by_cases hkw : v.Kind = w.Kind
    · simp only [hkw, ne_eq, not_true_eq_false, if_false, true_and]
      rw [← hkw]
      by_cases h0 : v.Kind = 0
      · simp [h0]
      by_cases h1 : v.Kind = 1
      · simp [h1]
      by_cases h2 : v.Kind = 2
      · simp [h2]
      by_cases h3 : v.Kind = 3
      · simp [h3]
      by_cases h4 : v.Kind = 4
      · simp [h4]
      by_cases h6 : v.Kind = 6
      · simp [h6]
      by_cases h7 : v.Kind = 7
      · simp [h7]
      by_cases h8 : v.Kind = 8
      · simp [h8]
      by_cases h9 : v.Kind = 9
      · simp [h9]
      simp [h0, h1, h2, h3, h4, hk, h6, h7, h8, h9]
    · simp [hkw]
  · intro hk hf
    unfold ScalarValue.Equal
    simp only [ScalarNull, ScalarBytes, ScalarString, ScalarInt, ScalarUint, ScalarF64,
      ScalarCounter, ScalarTimestamp, ScalarBoolean, ScalarUnknown] at hk hf ⊢
    simp only [ne_eq, not_true_eq_false, if_false]
    by_cases h0 : v.Kind = 0
    · simp [h0]
    by_cases h1 : v.Kind = 1
    · simp [h1]
    by_cases h2 : v.Kind = 2
    · simp [h2]
    by_cases h3 : v.Kind = 3
    · simp [h3]
    by_cases h4 : v.Kind = 4
    · simp [h4]
    by_cases h5 : v.Kind = 5
    · have hn := hf h5
      simp [h5, f64Eq, hn]
    by_cases h6 : v.Kind = 6
    · simp [h6]
    by_cases h7 : v.Kind = 7
    · simp [h7]
    by_cases h8 : v.Kind = 8
    · simp [h8]
    by_cases h9 : v.Kind = 9
    · simp [h9]
    exfalso
    have key : ∀ k : Nat, k ≤ 9 → k ≠ 0 → k ≠ 1 → k ≠ 2 → k ≠ 3 → k ≠ 4 → k ≠ 5 → k ≠ 6 →
        k ≠ 7 → k ≠ 8 → k ≠ 9 → False := by
      intro k; omega
    exact key v.Kind hk h0 h1 h2 h3 h4 h5 h6 h7 h8 h9

theorem Equal_tag_and_payload_witness :
    ((F64Value 1).Equal (F64Value 2) = true ↔ 1 = 2) ∧
    (StringValue "a").Equal (StringValue "a") = true :=
  ⟨(Equal_tag_and_payload (StringValue "a") (StringValue "a") 1 2 (by decide) (by decide)).1,
    (Equal_tag_and_payload (StringValue "a") (StringValue "a") 1 2 (by decide)
      (by decide)).2.2 (by decide) (by decide)⟩

end model

/-! ## The order of a batch without a dependency cycle -/

namespace automerge

open model changegraph

theorem greedyFrom_pre (batch : List Change) :
    ∀ (hs E : List ChangeHash), GreedyFrom batch E hs → GreedyPre batch E hs := by
  intro hs
  induction hs with
  | nil => intro E _; trivial
  | cons h t ih => intro E hg; exact ⟨hg.1, ih _ hg.2⟩

theorem greedyFrom_final (batch : List Change) :
    ∀ (hs E : List ChangeHash), GreedyFrom batch E hs → ∀ c, ¬ HReady batch (E ++ hs) c := by
  intro hs
  induction hs with
  | nil => intro E hg; simpa using hg
  | cons h t ih =>
    intro E hg c
    have := ih _ hg.2 c
    simpa using this

theorem greedyPre_getElem? (batch : List Change) :
    ∀ (hs E : List ChangeHash) (p : Nat) (h : ChangeHash), GreedyPre batch E hs →
      hs[p]? = some h → IsNext batch (E ++ hs.take p) h := by
  intro hs
  induction hs with
  | nil => intro E p h _ hp; simp at hp
  | cons a t ih =>
    intro E p h hg hp
    cases p with
    | zero =>
      simp only [List.getElem?_cons_zero, Option.some.injEq] at hp
      subst hp
      simpa using hg.1
    | succ p =>
      simp only [List.getElem?_cons_succ] at hp
      have := ih (E ++ [a]) p h hg.2 hp
      simpa using this

theorem greedyPre_nodup (batch : List Change) :
    ∀ (hs E : List ChangeHash), GreedyPre batch E hs →
      hs.Nodup ∧ ∀ h ∈ hs, h ∈ batch.map Change.Hash ∧ h ∉ E := by
  intro hs
  induction hs with
  | nil => intro E _; exact ⟨List.nodup_nil, fun h hh => absurd hh (List.not_mem_nil h)⟩
  | cons a t ih =>
    intro E hg
    obtain ⟨hn, hrest⟩ := hg
    obtain ⟨hnd, hmem⟩ := ih _ hrest
    obtain ⟨⟨c, ⟨hc, hne, _⟩, hca⟩, _⟩ := hn
    subst hca
    refine ⟨List.nodup_cons.2 ⟨?_, hnd⟩, ?_⟩
    · intro hin
      exact (hmem _ hin).2 (by simp)
    · intro h hh
      rcases List.mem_cons.1 hh with rfl | hh
      · exact ⟨List.mem_map.2 ⟨c, hc, rfl⟩, hne⟩
      · exact ⟨(hmem h hh).1, fun hE => (hmem h hh).2 (by simp [hE])⟩

/-- Without a cycle, when no change is ready every change has been emitted. -/
theorem acyclic_all_emitted (batch : List Change) (hac : Acyclic batch)
    (F : List ChangeHash) (hno : ∀ c, ¬ HReady batch F c) :
    ∀ c ∈ batch, c.Hash ∈ F := by
  obtain ⟨rank, hrank⟩ := hac
  have key : ∀ n, ∀ c ∈ batch, rank c.Hash = n → c.Hash ∈ F := by
    intro n
    induction n using Nat.strong_induction_on with
    | _ n ih =>
      intro c hc hn
      by_contra hnot
      apply hno c
      refine ⟨hc, hnot, ?_⟩
      intro d hd hdb
      obtain ⟨c', hc', hcd⟩ := List.mem_map.1 hdb
      have hlt := hrank c hc d hd hdb
      rw [← hcd]
      exact ih (rank c'.Hash) (by rw [hcd, ← hn]; exact hlt) c' hc' rfl
  intro c hc
  exact key _ c hc rfl

/-- Without a cycle the greedy order holds every hash of the batch once. -/
theorem greedyFrom_perm_of_acyclic (batch : List Change)
    (hnd : (batch.map Change.Hash).Nodup) (hac : Acyclic batch) (hs : List ChangeHash)
    (hg : GreedyFrom batch [] hs) : hs.Perm (batch.map Change.Hash) := by
  obtain ⟨hnd', hmem⟩ := greedyPre_nodup batch hs [] (greedyFrom_pre batch hs [] hg)
  have hfin := greedyFrom_final batch hs [] hg
  rw [List.nil_append] at hfin
  have hall := acyclic_all_emitted batch hac hs hfin
  rw [List.perm_ext_iff_of_nodup hnd' hnd]
  intro a
  constructor
  · intro ha; exact (hmem a ha).1
  · intro ha
    obtain ⟨c, hc, rfl⟩ := List.mem_map.1 ha
    exact hall c hc

end automerge

namespace automerge

open model changegraph

/-- On a batch with distinct hashes and no cycle the function returns the greedy
order. -/
theorem order_greedy_of_acyclic (batch : List Change) (hnd : (batch.map Change.Hash).Nodup)
    (hac : Acyclic batch) :
    ∃ order, orderChangeIndicesTopologically batch = .ok order ∧
      ValidItems batch.length order ∧ GreedyFrom batch [] (order.map (keyOf batch)) := by
  by_cases hlen : batch.length ≤ 1
  · refine ⟨List.range batch.length, ?_, fun x hx => List.mem_range.1 hx, ?_⟩
    · unfold orderChangeIndicesTopologically
      rw [if_pos hlen]
    · rw [range_map_keyOf]
      cases batch with
      | nil =>
        intro c hc
        exact absurd hc.1 (List.not_mem_nil c)
      | cons c t =>
        cases t with
        | cons b t => simp at hlen
        | nil =>
          obtain ⟨rank, hrank⟩ := hac
          have hready : HReady [c] [] c := by
            refine ⟨List.mem_singleton.2 rfl, List.not_mem_nil _, ?_⟩
            intro d hd hdb
            have hlt := hrank c (List.mem_singleton.2 rfl) d hd hdb
            simp only [List.map_cons, List.map_nil, List.mem_singleton] at hdb
            rw [hdb] at hlt
            exact absurd hlt (Nat.lt_irrefl _)
          refine ⟨⟨⟨c, hready, rfl⟩, ?_⟩, ?_⟩
          · intro c' hc'
            have := List.mem_singleton.1 hc'.1
            rw [this]
          · intro c' hc'
            have := List.mem_singleton.1 hc'.1
            apply hc'.2.1
            rw [this]
            simp
  · obtain ⟨order, hok, hv, hspec⟩ := order_spec batch hnd hlen
    refine ⟨order, hok, hv, ?_⟩
    rcases hspec with ⟨hg, _⟩ | ⟨⟨hs', hg', hne⟩, _, _⟩
    · exact hg
    · exact absurd ((greedyFrom_perm_of_acyclic batch hnd hac hs' hg').length_eq.trans
        (List.length_map _ _)) hne

/-- An order of valid indexes whose hashes are greedy puts every change after its
dependencies inside the batch. -/
theorem greedy_deps_before (batch : List Change) (hnd : (batch.map Change.Hash).Nodup)
    (order : List Nat) (hv : ValidItems batch.length order) (hndo : order.Nodup)
    (hg : GreedyPre batch [] (order.map (keyOf batch))) (p q i j : Nat)
    (hp : order[p]? = some i) (hq : order[q]? = some j)
    (hdep : keyOf batch j ∈ depsAt batch i) : q < p := by
  obtain ⟨hpl, hpi⟩ := List.getElem?_eq_some.1 hp
  obtain ⟨hql, hqj⟩ := List.getElem?_eq_some.1 hq
  have hi : i < batch.length := hv i (hpi ▸ List.getElem_mem hpl)
  have hj : j < batch.length := hv j (hqj ▸ List.getElem_mem hql)
  have hnext := greedyPre_getElem? batch (order.map (keyOf batch)) [] p (keyOf batch i) hg
    (by rw [List.getElem?_map, hp]; rfl)
  rw [List.nil_append, ← List.map_take] at hnext
  obtain ⟨⟨c, ⟨hc, _, hdeps⟩, hch⟩, _⟩ := hnext
  obtain ⟨k, hk⟩ := List.mem_iff_getElem?.1 hc
  obtain ⟨hkl, hkc⟩ := List.getElem?_eq_some.1 hk
  have hki : k = i := by
    apply keyOf_inj batch hnd k i hkl hi
    rw [keyOf_eq_getElem batch k hkl, hkc, hch]
  subst hki
  have hd : c.Deps = depsAt batch k := by
    rw [depsAt_eq_getElem batch k hkl, hkc]
  rw [← hd] at hdep
  have hin := hdeps _ hdep (keyOf_mem batch j hj)
  obtain ⟨x, hx, hxj⟩ := List.mem_map.1 hin
  have hxv : x < batch.length := hv x (List.mem_of_mem_take hx)
  have hxj' : x = j := keyOf_inj batch hnd x j hxv hj hxj
  subst hxj'
  obtain ⟨q', hq'⟩ := List.mem_iff_getElem?.1 hx
  obtain ⟨hq'l, hq'x⟩ := List.getElem?_eq_some.1 hq'
  rw [List.length_take] at hq'l
  rw [List.getElem_take] at hq'x
  have hqq : q' = q := by
    apply (List.Nodup.getElem_inj_iff hndo).1
    rw [hq'x, hqj]
  omega

end automerge

namespace automerge

open model changegraph

/-- C37 (counterexample): on two changes that depend on each other the function
returns the fallback order
`[0, 1]`: the hashes are distinct, the first change emitted depends on the second one,
and it was not ready when it was emitted. -/
theorem order_cycle_fallback :
    (cyclicBatch.map Change.Hash).Nodup ∧
    (orderChangeIndicesTopologically cyclicBatch).toOption = some [0, 1] ∧
    keyOf cyclicBatch 1 ∈ depsAt cyclicBatch 0 ∧
    ¬ IsNext cyclicBatch [] (keyOf cyclicBatch 0) := by
  refine ⟨by decide, by decide, by decide, ?_⟩
  rintro ⟨⟨c, ⟨hc, _, hd⟩, _⟩, _⟩
  simp only [cyclicBatch, List.mem_cons, List.mem_singleton, List.not_mem_nil, or_false] at hc
  rcases hc with rfl | rfl
  · exact absurd (hd 2 (by simp) (by decide)) (List.not_mem_nil _)
  · exact absurd (hd 1 (by simp) (by decide)) (List.not_mem_nil _)

/-- C37 (amended): on a batch of changes with pairwise distinct hashes and no
dependency cycle inside the batch, `orderChangeIndicesTopologically` returns a
permutation of the indices `0..n-1` in which every change comes after each of its
dependencies that is in the batch, and in which the change emitted at every step is
the one with the smallest hash among the changes whose dependencies inside the batch
have all been emitted; a batch with the same changes in another order is put in the
same order. -/
theorem order_topological (batch : List Change) (hnd : (batch.map Change.Hash).Nodup)
    (hac : Acyclic batch) :
    ∃ order, orderChangeIndicesTopologically batch = .ok order ∧
      order.Perm (List.range batch.length) ∧
      (∀ p q i j : Nat, order[p]? = some i → order[q]? = some j →
        keyOf batch j ∈ depsAt batch i → q < p) ∧
      GreedyFrom batch [] (order.map (keyOf batch)) ∧
      ∀ batch2, batch.Perm batch2 →
        ∃ order2, orderChangeIndicesTopologically batch2 = .ok order2 ∧
          order.map (fun i => batch[i]?) = order2.map (fun i => batch2[i]?) := by
  obtain ⟨order, hok, hv, hg⟩ := order_greedy_of_acyclic batch hnd hac
  have hperm := greedyFrom_perm_of_acyclic batch hnd hac _ hg
  have hndk : (order.map (keyOf batch)).Nodup := (List.Perm.nodup_iff hperm).2 hnd
  have hndo : order.Nodup := List.Nodup.of_map _ hndk
  have hlen : order.length = batch.length := by
    have := hperm.length_eq
    simpa using this
  have hpr : order.Perm (List.range batch.length) := by
    have hsub : order ⊆ List.range batch.length := fun i hi => List.mem_range.2 (hv i hi)
    exact (List.subperm_of_subset hndo hsub).perm_of_length_le (by simp [hlen])
  refine ⟨order, hok, hpr, ?_, hg, ?_⟩
  · intro p q i j hp hq hdep
    exact greedy_deps_before batch hnd order hv hndo (greedyFrom_pre batch _ [] hg)
      p q i j hp hq hdep
  · intro batch2 hp2
    obtain ⟨o1, o2, h1, h2, heq⟩ := order_canonical batch batch2 hp2 hnd
    rw [hok] at h1
    injection h1 with h1
    subst h1
    exact ⟨o2, h2, heq⟩

theorem order_topological_witness :
    (chainBatch.map Change.Hash).Nodup ∧
    ∃ order, orderChangeIndicesTopologically chainBatch = .ok order ∧
      order.Perm (List.range chainBatch.length) ∧
      (∀ p q i j : Nat, order[p]? = some i → order[q]? = some j →
        keyOf chainBatch j ∈ depsAt chainBatch i → q < p) ∧
      GreedyFrom chainBatch [] (order.map (keyOf chainBatch)) ∧
      ∀ batch2, chainBatch.Perm batch2 →
        ∃ order2, orderChangeIndicesTopologically batch2 = .ok order2 ∧
          order.map (fun i => chainBatch[i]?) = order2.map (fun i => batch2[i]?) :=
  ⟨by decide, order_topological chainBatch (by decide)
    ⟨fun h => h, by
      intro c hc d hd _
      simp only [chainBatch, List.mem_cons, List.mem_singleton, List.not_mem_nil,
        or_false] at hc
      rcases hc with rfl | rfl | rfl <;> simp at hd <;> simp [hd]⟩⟩

end automerge

/-! ## Loading -/

namespace automerge

open model changegraph

/-- C33: the function `ParseRustChunks` panics on a chunk that declares a payload of
`2^63` bytes, whatever the digest and the inflater are, `LoadWithOptions` panics on
the same input under every option, and `HashForActorSeq` panics on the sequence
number `2^63` of an actor without changes. -/
theorem Load_panics_on_declared_length :
    (∀ sha256 inflateRust,
      storage.ParseRustChunks sha256 inflateRust storage.hugeLengthChunk =
        ([], some GoError.panicSliceBounds)) ∧
    (∀ opts, LoadWithOptions rustDecoder storage.hugeLengthChunk opts =
      .error GoError.panicSliceBounds) ∧
    changegraph.New.HashForActorSeq 0 (2 ^ 63) = .error GoError.panicIndexOutOfRange := by
  refine ⟨?_, ?_, ?_⟩
  · intro sha256 inflateRust
    rfl
  · intro opts
    rfl
  · rfl

end automerge

/-! ## Chunks -/

namespace storage

open model

theorem uint32BE_putUint32 (n : Nat) (h : n < 2 ^ 32) : uint32BE (putUint32 n) = n := by
  unfold uint32BE putUint32
  simp only [List.getD_cons_zero, List.getD_cons_succ]
  omega

/-- One round of the loop of `ParseChunks` on input that starts with a header. -/
theorem parseChunksLoop_header (inflateBytes : List Nat → Except GoError (List Nat))
    (checksum : List Nat → Nat) (fuel v typ flags r n chk : Nat) (rest : List Nat)
    (chunks : List DecodedChunk) (hn : n < 2 ^ 32) (hchk : chk < 2 ^ 32) :
    parseChunksLoop inflateBytes checksum (fuel + 1)
      (Magic ++ [v, typ, flags, r] ++ putUint32 n ++ putUint32 chk ++ rest) chunks =
    if isKnownType typ = false then (chunks, some .ErrUnknownChunk)
    else if rest.length < n then (chunks, some .ErrShortPayload)
    else
      match (if flags &&& flagDeflate ≠ 0 then inflateBytes (rest.take n)
             else .ok (rest.take n)) with
      | .error e => (chunks, some e)
      | .ok payload =>
        if checksum payload % 2 ^ 32 ≠ chk then (chunks, some .ErrBadChecksum)
        else
          parseChunksLoop inflateBytes checksum fuel (rest.drop n)
            (chunks ++ [{ Header := { Version := v, Typ := typ, Flags := flags, Reserved := r,
                                      PayloadLen := n, Checksum := chk },
                          Payload := payload }]) := by
  have h1 := uint32BE_putUint32 n hn
  have h2 := uint32BE_putUint32 chk hchk
  unfold putUint32 at h1 h2
  rw [parseChunksLoop]
  simp only [Nat.reducePow] at h1 h2
  have h3 : ¬ (rest.length + 1 + 1 + 1 + 1 + 1 + 1 + 1 + 1 + 1 + 1 + 1 + 1 + 1 + 1 + 1 + 1 < 16) := by
    omega
  simp only [Magic, putUint32, headerLen, h1, h2, h3, List.cons_append, List.nil_append,
    List.length_cons, List.length_nil, List.take_succ_cons, List.take_zero, List.drop_succ_cons,
    List.drop_zero, List.getD_cons_zero, List.getD_cons_succ, Nat.reducePow, Nat.reduceAdd,
    Nat.add_eq_zero, one_ne_zero, and_false, if_false, ne_eq, not_true_eq_false,
    Bool.not_eq_true']

theorem EncodeChunk_bytes (deflateBytes : List Nat → Except GoError (List Nat))
    (checksum : List Nat → Nat) (typ : Nat) (payload : List Nat) (deflate : Bool)
    (out : List Nat) (h : EncodeChunk deflateBytes checksum typ payload deflate = .ok out) :
    ∃ body, bodyOf deflateBytes payload deflate = .ok body ∧
      out = Magic ++ [Version1, typ, if deflate then flagDeflate else 0, 0] ++
        putUint32 (body.length % 2 ^ 32) ++ putUint32 (checksum payload % 2 ^ 32) ++ body := by
  unfold EncodeChunk at h
  unfold bodyOf
  cases hb : (if deflate = true then deflateBytes payload else Except.ok payload) with
  | error e => rw [hb] at h; cases h
  | ok body =>
    rw [hb] at h
    injection h with h
    exact ⟨body, rfl, h.symm⟩

/-- The loop of `ParseChunks` reads back what `encodeChunks` wrote. -/
theorem parseChunksLoop_encoded (deflateBytes inflateBytes : List Nat → Except GoError (List Nat))
    (checksum : List Nat → Nat)
    (hinv : ∀ p b, deflateBytes p = .ok b → inflateBytes b = .ok p) :
    ∀ (triples : List (Nat × List Nat × Bool)) (data : List Nat),
      encodeChunks deflateBytes checksum triples = .ok data →
      (∀ t ∈ triples, isKnownType t.1 = true) →
      (∀ t ∈ triples, ∀ body, bodyOf deflateBytes t.2.1 t.2.2 = .ok body →
        body.length < 2 ^ 32) →
      ∀ (fuel : Nat) (tail : List Nat) (chunks : List DecodedChunk),
        parseChunksLoop inflateBytes checksum (fuel + triples.length) (data ++ tail) chunks =
          parseChunksLoop inflateBytes checksum fuel tail
            (chunks ++ triples.map
              (fun t => { Header := headerOf deflateBytes checksum t, Payload := t.2.1 })) := by
  intro triples
  induction triples with
  | nil =>
    intro data henc _ _ fuel tail chunks
    simp only [encodeChunks] at henc
    injection henc with henc
    subst henc
    simp
  | cons t rest ih =>
    intro data henc hk hlen fuel tail chunks
    simp only [encodeChunks] at henc
    cases he : EncodeChunk deflateBytes checksum t.1 t.2.1 t.2.2 with
    | error e => rw [he] at henc; cases henc
    | ok out =>
      rw [he] at henc
      cases hr : encodeChunks deflateBytes checksum rest with
      | error e => rw [hr] at henc; cases henc
      | ok more =>
        rw [hr] at henc
        injection henc with henc
        subst henc
        obtain ⟨body, hbody, hout⟩ := EncodeChunk_bytes _ _ _ _ _ _ he
        have hbl : body.length < 2 ^ 32 := hlen t (List.mem_cons_self _ _) body hbody
        have hkt : isKnownType t.1 = true := hk t (List.mem_cons_self _ _)
        have hdata : out ++ more ++ tail =
            Magic ++ [Version1, t.1, if t.2.2 then flagDeflate else 0, 0] ++
              putUint32 body.length ++ putUint32 (checksum t.2.1 % 2 ^ 32) ++
              (body ++ (more ++ tail)) := by
          rw [hout, Nat.mod_eq_of_lt hbl]
          simp only [List.append_assoc]
        have hfuel : fuel + (t :: rest).length = (fuel + rest.length) + 1 := by
          simp only [List.length_cons]
          omega
        rw [hdata, hfuel, parseChunksLoop_header inflateBytes checksum _ _ _ _ _ _ _ _ _ hbl
          (Nat.mod_lt _ (by norm_num))]
        have htake : (body ++ (more ++ tail)).take body.length = body := by simp
        have hdrop : (body ++ (more ++ tail)).drop body.length = more ++ tail := by simp
        have hpay : (if (if t.2.2 then flagDeflate else 0) &&& flagDeflate ≠ 0
            then inflateBytes body else Except.ok body) = .ok t.2.1 := by
          unfold bodyOf at hbody
          cases hd : t.2.2 with
          | false =>
            rw [hd] at hbody
            simp only [Bool.false_eq_true, if_false, Except.ok.injEq] at hbody
            simp [flagDeflate, hbody]
          | true =>
            rw [hd] at hbody
            simp only [if_true] at hbody
            simp [flagDeflate, hinv _ _ hbody]
        have hhdr : Header.mk Version1 t.1 (if t.2.2 then flagDeflate else 0) 0 body.length
            (checksum t.2.1 % 2 ^ 32) = headerOf deflateBytes checksum t := by
          unfold headerOf
          rw [hbody]
        rw [htake, hdrop, hpay]
        simp only [hkt, Bool.true_eq_false, if_false, List.length_append, ne_eq,
          not_true_eq_false]
        rw [if_neg (by omega), hhdr,
          ih more hr (fun t ht => hk t (List.mem_cons_of_mem _ ht))
            (fun t ht => hlen t (List.mem_cons_of_mem _ ht)) fuel tail]
        simp

theorem encodeChunks_length (deflateBytes : List Nat → Except GoError (List Nat))
    (checksum : List Nat → Nat) :
    ∀ (triples : List (Nat × List Nat × Bool)) (data : List Nat),
      encodeChunks deflateBytes checksum triples = .ok data → triples.length ≤ data.length := by
  intro triples
  induction triples with
  | nil => intro data _; simp
  | cons t rest ih =>
    intro data henc
    simp only [encodeChunks] at henc
    cases he : EncodeChunk deflateBytes checksum t.1 t.2.1 t.2.2 with
    | error e => rw [he] at henc; cases henc
    | ok out =>
      rw [he] at henc
      cases hr : encodeChunks deflateBytes checksum rest with
      | error e => rw [hr] at henc; cases henc
      | ok more =>
        rw [hr] at henc
        injection henc with henc
        subst henc
        obtain ⟨body, _, hout⟩ := EncodeChunk_bytes _ _ _ _ _ _ he
        have := ih more hr
        rw [hout]
        simp [Magic, putUint32]
        omega

end storage

namespace storage

open model

theorem encodeChunks_mem (deflateBytes : List Nat → Except GoError (List Nat))
    (checksum : List Nat → Nat) :
    ∀ (triples : List (Nat × List Nat × Bool)) (data : List Nat),
      encodeChunks deflateBytes checksum triples = .ok data →
      ∀ t ∈ triples, ∃ out, EncodeChunk deflateBytes checksum t.1 t.2.1 t.2.2 = .ok out := by
  intro triples
  induction triples with
  | nil => intro data _ t ht; exact absurd ht (List.not_mem_nil t)
  | cons a rest ih =>
    intro data henc t ht
    simp only [encodeChunks] at henc
    cases he : EncodeChunk deflateBytes checksum a.1 a.2.1 a.2.2 with
    | error e => rw [he] at henc; cases henc
    | ok out =>
      rw [he] at henc
      cases hr : encodeChunks deflateBytes checksum rest with
      | error e => rw [hr] at henc; cases henc
      | ok more =>
        rcases List.mem_cons.1 ht with rfl | ht
        · exact ⟨out, he⟩
        · exact ih more hr t ht

theorem parseChunksLoop_nil (inflateBytes : List Nat → Except GoError (List Nat))
    (checksum : List Nat → Nat) (fuel : Nat) (chunks : List DecodedChunk) :
    parseChunksLoop inflateBytes checksum (fuel + 1) [] chunks = (chunks, none) := by
  rw [parseChunksLoop]
  simp

/-- C34 (amended): for every list of triples of type, payload and deflate flag with the
type in Document, Change, CompressedChange, Bundle and a body (the payload, deflated
when the flag is set) shorter than `2^32` bytes, and an inflater that undoes the
deflater, `ParseChunks` on the concatenation of the `EncodeChunk` outputs succeeds and
returns one chunk for every triple, in order, with the original type and payload and
the header version 1, flags bit 0 = deflate, reserved 0, the length of the body and
the checksum of the payload; and each encoded chunk is `AMG6`, these header bytes with
the length and the checksum in big-endian order, and the body. -/
theorem EncodeChunk_ParseChunks_round_trip
    (deflateBytes inflateBytes : List Nat → Except GoError (List Nat))
    (checksum : List Nat → Nat) (triples : List (Nat × List Nat × Bool)) (data : List Nat)
    (hinv : ∀ p b, deflateBytes p = .ok b → inflateBytes b = .ok p)
    (hk : ∀ t ∈ triples, isKnownType t.1 = true)
    (hlen : ∀ t ∈ triples, ∀ body, bodyOf deflateBytes t.2.1 t.2.2 = .ok body →
      body.length < 2 ^ 32)
    (henc : encodeChunks deflateBytes checksum triples = .ok data) :
    ParseChunks inflateBytes checksum data =
      (triples.map (fun t => { Header := headerOf deflateBytes checksum t, Payload := t.2.1 }),
        none) ∧
    ∀ t ∈ triples, ∃ body, bodyOf deflateBytes t.2.1 t.2.2 = .ok body ∧
      EncodeChunk deflateBytes checksum t.1 t.2.1 t.2.2 =
        .ok (Magic ++ [Version1, t.1, if t.2.2 then flagDeflate else 0, 0] ++
          putUint32 body.length ++ putUint32 (checksum t.2.1 % 2 ^ 32) ++ body) := by
  constructor
  · have hle := encodeChunks_length deflateBytes checksum triples data henc
    have hfuel : data.length + 1 = (data.length - triples.length + 1) + triples.length := by
      omega
    have h := parseChunksLoop_encoded deflateBytes inflateBytes checksum hinv triples data henc
      hk hlen (data.length - triples.length + 1) [] []
    rw [List.append_nil, ← hfuel, parseChunksLoop_nil, List.nil_append] at h
    exact h
  · intro t ht
    obtain ⟨out, he⟩ := encodeChunks_mem deflateBytes checksum triples data henc t ht
    obtain ⟨body, hbody, hout⟩ := EncodeChunk_bytes _ _ _ _ _ _ he
    refine ⟨body, hbody, ?_⟩
    rw [he, hout, Nat.mod_eq_of_lt (hlen t ht body hbody)]

theorem EncodeChunk_ParseChunks_round_trip_witness :
    ParseChunks (automerge.tableDecoder []).inflateBytes (fun b => b.sum)
        (Magic ++ [Version1, ChunkChange, flagDeflate, 0] ++ putUint32 3 ++ putUint32 11 ++
          [2, 5, 6] ++
         (Magic ++ [Version1, ChunkDocument, 0, 0] ++ putUint32 1 ++ putUint32 9 ++ [9])) =
      ([{ Header := headerOf (automerge.tableCodec []).deflateBytes (fun b => b.sum)
            (ChunkChange, [5, 6], true), Payload := [5, 6] },
        { Header := headerOf (automerge.tableCodec []).deflateBytes (fun b => b.sum)
            (ChunkDocument, [9], false), Payload := [9] }], none) :=
  (EncodeChunk_ParseChunks_round_trip (automerge.tableCodec []).deflateBytes
    (automerge.tableDecoder []).inflateBytes (fun b => b.sum)
    [(ChunkChange, [5, 6], true), (ChunkDocument, [9], false)] _
    (by
      intro p b h
      simp only [automerge.tableCodec, Except.ok.injEq] at h
      subst h
      simp [automerge.tableDecoder])
    (by decide)
    (by
      intro t ht body hb
      simp only [List.mem_cons, List.mem_singleton, List.not_mem_nil, or_false] at ht
      rcases ht with rfl | rfl
      · simp only [bodyOf, automerge.tableCodec, if_true, Except.ok.injEq] at hb
        subst hb
        norm_num
      · simp only [bodyOf, Bool.false_eq_true, if_false, Except.ok.injEq] at hb
        subst hb
        norm_num)
    rfl).1

end storage

namespace storage

open model

theorem hugePayload_length : hugePayload.length = 2 ^ 32 - 1 := by
  unfold hugePayload
  exact List.length_replicate _ _

theorem body_length_wraps (p : List Nat) (hl : p.length = 2 ^ 32 - 1) :
    ∃ data, EncodeChunk (automerge.tableCodec []).deflateBytes (fun b => b.sum) ChunkChange
        p true = .ok data ∧
      ParseChunks (automerge.tableDecoder []).inflateBytes (fun b => b.sum) data =
        ([], some GoError.ErrInflatePayload) := by
  have hzero : (p.length :: p).length % 2 ^ 32 = 0 := by
    rw [List.length_cons, hl]
    norm_num
  refine ⟨Magic ++ [Version1, ChunkChange, flagDeflate, 0] ++ putUint32 0 ++
    putUint32 (p.sum % 2 ^ 32) ++ (p.length :: p), ?_, ?_⟩
  · unfold EncodeChunk
    simp only [automerge.tableCodec, if_true]
    rw [hzero]
  · unfold ParseChunks
    rw [parseChunksLoop_header _ _ _ _ _ _ _ _ _ _ _ (by norm_num)
      (Nat.mod_lt _ (by norm_num))]
    simp [isKnownType, ChunkChange, ChunkDocument, ChunkCompressedChange, ChunkBundle,
      flagDeflate, automerge.tableDecoder]

/-- C34 (counterexample): a payload of `2^32 - 1` bytes with a deflater that adds one
byte (the length in front, undone by the inflater): the body has `2^32` bytes, the header holds the length
0, and `ParseChunks` on the output of `EncodeChunk` fails. -/
theorem EncodeChunk_body_length_wraps :
    (∀ p b, (automerge.tableCodec []).deflateBytes p = .ok b →
      (automerge.tableDecoder []).inflateBytes b = .ok p) ∧
    hugePayload.length < 2 ^ 32 ∧
    ∃ data, EncodeChunk (automerge.tableCodec []).deflateBytes (fun b => b.sum) ChunkChange
        hugePayload true = .ok data ∧
      ParseChunks (automerge.tableDecoder []).inflateBytes (fun b => b.sum) data =
        ([], some GoError.ErrInflatePayload) := by
  refine ⟨?_, ?_, body_length_wraps hugePayload hugePayload_length⟩
  · intro p b h
    simp only [automerge.tableCodec, Except.ok.injEq] at h
    subst h
    simp [automerge.tableDecoder]
  · rw [hugePayload_length]
    norm_num

end storage

namespace storage

open model

theorem encodeChunks_take (deflateBytes : List Nat → Except GoError (List Nat))
    (checksum : List Nat → Nat) (triples : List (Nat × List Nat × Bool)) (pre : List Nat)
    (henc : encodeChunks deflateBytes checksum triples = .ok pre) (rest : List Nat) :
    (pre ++ (Magic ++ rest)).take 4 = Magic := by
  cases triples with
  | nil =>
    simp only [encodeChunks] at henc
    injection henc with henc
    subst henc
    simp [Magic]
  | cons t more =>
    simp only [encodeChunks] at henc
    cases he : EncodeChunk deflateBytes checksum t.1 t.2.1 t.2.2 with
    | error e => rw [he] at henc; cases henc
    | ok out =>
      rw [he] at henc
      cases hr : encodeChunks deflateBytes checksum more with
      | error e => rw [hr] at henc; cases henc
      | ok tl =>
        rw [hr] at henc
        injection henc with henc
        subst henc
        obtain ⟨body, _, hout⟩ := EncodeChunk_bytes _ _ _ _ _ _ he
        rw [hout]
        simp [Magic]

/-- The function `ParseChunks` on well-formed chunks followed by a chunk whose stored
checksum is not the one of its payload. -/
theorem ParseChunks_bad_checksum
    (deflateBytes inflateBytes : List Nat → Except GoError (List Nat))
    (checksum : List Nat → Nat) (triples : List (Nat × List Nat × Bool)) (pre : List Nat)
    (v typ flags r chk : Nat) (body payload tail : List Nat)
    (hinv : ∀ p b, deflateBytes p = .ok b → inflateBytes b = .ok p)
    (hk : ∀ t ∈ triples, isKnownType t.1 = true)
    (hlen : ∀ t ∈ triples, ∀ body, bodyOf deflateBytes t.2.1 t.2.2 = .ok body →
      body.length < 2 ^ 32)
    (henc : encodeChunks deflateBytes checksum triples = .ok pre)
    (htyp : isKnownType typ = true) (hbl : body.length < 2 ^ 32) (hchk : chk < 2 ^ 32)
    (hpay : (if flags &&& flagDeflate ≠ 0 then inflateBytes body else .ok body) = .ok payload)
    (hbad : checksum payload % 2 ^ 32 ≠ chk) :
    ParseChunks inflateBytes checksum
      (pre ++ (Magic ++ [v, typ, flags, r] ++ putUint32 body.length ++ putUint32 chk ++ body ++
        tail)) =
      (triples.map (fun t => { Header := headerOf deflateBytes checksum t, Payload := t.2.1 }),
        some .ErrBadChecksum) := by
  have hle := encodeChunks_length deflateBytes checksum triples pre henc
  unfold ParseChunks
  have hfuel : (pre ++ (Magic ++ [v, typ, flags, r] ++ putUint32 body.length ++ putUint32 chk ++
      body ++ tail)).length + 1 =
      ((pre.length - triples.length + (Magic ++ [v, typ, flags, r] ++ putUint32 body.length ++
        putUint32 chk ++ body ++ tail).length) + 1) + triples.length := by
    rw [List.length_append]
    omega
  rw [hfuel, parseChunksLoop_encoded deflateBytes inflateBytes checksum hinv triples pre henc
    hk hlen, List.nil_append, List.append_assoc _ body tail,
    parseChunksLoop_header _ _ _ _ _ _ _ _ _ _ _ hbl hchk]
  have htake : (body ++ tail).take body.length = body := by simp
  rw [htake, hpay]
  have hbad2 : ¬ checksum payload % 4294967296 = chk := by
    simpa only [Nat.reducePow, ne_eq] using hbad
  simp [htyp, hbad2]

end storage

namespace automerge

open model changegraph

/-- C31 (counterexample): under `OnPartialIgnore` the chunk `badChecksumChunk`, which `ParseChunks` refuses
with `ErrBadChecksum`, loads as the new document without an error. -/
theorem Load_ignores_bad_checksum :
    (tableDecoder []).checksum [0] % 2 ^ 32 ≠ 7 ∧
    storage.ParseChunks (tableDecoder []).inflateBytes (tableDecoder []).checksum
      storage.badChecksumChunk = ([], some GoError.ErrBadChecksum) ∧
    (LoadWithOptions (tableDecoder []) storage.badChecksumChunk ignoreOptions).toOption =
      some NewDocument := by
  refine ⟨by decide, rfl, rfl⟩

/-- C31 (amended): for input that holds, after well-formed chunks, a chunk whose stored
checksum differs from the checksum of its payload (inflated when the flag is set),
`ParseChunks` returns `ErrBadChecksum`; `LoadWithOptions` returns that error unless the
mode is `OnPartialIgnore`, and in that mode it returns the new document and no error. -/
theorem LoadWithOptions_bad_checksum (dec : Decoder)
    (deflateBytes : List Nat → Except GoError (List Nat))
    (triples : List (Nat × List Nat × Bool)) (pre : List Nat)
    (v typ flags r chk : Nat) (body payload tail : List Nat) (opts : LoadOptions)
    (hinv : ∀ p b, deflateBytes p = .ok b → dec.inflateBytes b = .ok p)
    (hk : ∀ t ∈ triples, storage.isKnownType t.1 = true)
    (hlen : ∀ t ∈ triples, ∀ body, storage.bodyOf deflateBytes t.2.1 t.2.2 = .ok body →
      body.length < 2 ^ 32)
    (henc : storage.encodeChunks deflateBytes dec.checksum triples = .ok pre)
    (htyp : storage.isKnownType typ = true) (hbl : body.length < 2 ^ 32) (hchk : chk < 2 ^ 32)
    (hpay : (if flags &&& storage.flagDeflate ≠ 0 then dec.inflateBytes body else .ok body) =
      .ok payload)
    (hbad : dec.checksum payload % 2 ^ 32 ≠ chk) :
    (storage.ParseChunks dec.inflateBytes dec.checksum
      (pre ++ (storage.Magic ++ [v, typ, flags, r] ++ storage.putUint32 body.length ++
        storage.putUint32 chk ++ body ++ tail))).2 = some .ErrBadChecksum ∧
    (opts.OnPartialLoad ≠ OnPartialIgnore →
      LoadWithOptions dec
        (pre ++ (storage.Magic ++ [v, typ, flags, r] ++ storage.putUint32 body.length ++
          storage.putUint32 chk ++ body ++ tail)) opts = .error .ErrBadChecksum) ∧
    (opts.OnPartialLoad = OnPartialIgnore →
      LoadWithOptions dec
        (pre ++ (storage.Magic ++ [v, typ, flags, r] ++ storage.putUint32 body.length ++
          storage.putUint32 chk ++ body ++ tail)) opts = .ok NewDocument) := by
  have hparse := storage.ParseChunks_bad_checksum deflateBytes dec.inflateBytes dec.checksum
    triples pre v typ flags r chk body payload tail hinv hk hlen henc htyp hbl hchk hpay hbad
  have htake : (pre ++ (storage.Magic ++ [v, typ, flags, r] ++
      storage.putUint32 body.length ++ storage.putUint32 chk ++ body ++ tail)).take 4 =
      storage.Magic := by
    have := storage.encodeChunks_take deflateBytes dec.checksum triples pre henc
      ([v, typ, flags, r] ++ storage.putUint32 body.length ++ storage.putUint32 chk ++ body ++
        tail)
    simpa only [List.append_assoc] using this
  have hne : (pre ++ (storage.Magic ++ [v, typ, flags, r] ++
      storage.putUint32 body.length ++ storage.putUint32 chk ++ body ++ tail)).length ≠ 0 := by
    simp [storage.Magic]
  have hrust : ¬ ((pre ++ (storage.Magic ++ [v, typ, flags, r] ++
      storage.putUint32 body.length ++ storage.putUint32 chk ++ body ++ tail)).length ≥ 4 ∧
      (pre ++ (storage.Magic ++ [v, typ, flags, r] ++
      storage.putUint32 body.length ++ storage.putUint32 chk ++ body ++ tail)).take 4 =
      storage.RustMagic) := by
    rw [htake]
    intro h
    exact absurd h.2 (by decide)
  refine ⟨by rw [hparse], ?_, ?_⟩
  · intro hmode
    unfold LoadWithOptions
    simp only [hne, if_false, hparse, hrust, hmode]
  · intro hmode
    unfold LoadWithOptions
    simp only [hne, if_false, hparse, hrust, hmode, if_true]

theorem LoadWithOptions_bad_checksum_witness :
    (storage.ParseChunks (tableDecoder []).inflateBytes (tableDecoder []).checksum
      ([] ++ (storage.Magic ++ [1, 2, 0, 0] ++ storage.putUint32 [0].length ++
        storage.putUint32 7 ++ [0] ++ []))).2 = some GoError.ErrBadChecksum ∧
    LoadWithOptions (tableDecoder [])
      ([] ++ (storage.Magic ++ [1, 2, 0, 0] ++ storage.putUint32 [0].length ++
        storage.putUint32 7 ++ [0] ++ [])) DefaultLoadOptions = .error GoError.ErrBadChecksum :=
  ⟨(LoadWithOptions_bad_checksum (tableDecoder []) (tableCodec []).deflateBytes [] []
      1 2 0 0 7 [0] [0] [] DefaultLoadOptions
      (by
        intro p b h
        simp only [tableCodec, Except.ok.injEq] at h
        subst h
        simp [tableDecoder])
      (by decide) (by intro t ht; exact absurd ht (List.not_mem_nil t)) rfl (by decide)
      (by decide) (by decide) rfl (by decide)).1,
    (LoadWithOptions_bad_checksum (tableDecoder []) (tableCodec []).deflateBytes [] []
      1 2 0 0 7 [0] [0] [] DefaultLoadOptions
      (by
        intro p b h
        simp only [tableCodec, Except.ok.injEq] at h
        subst h
        simp [tableDecoder])
      (by decide) (by intro t ht; exact absurd ht (List.not_mem_nil t)) rfl (by decide)
      (by decide) (by decide) rfl (by decide)).2.1 (by decide)⟩

/-- C32: under `OnPartialIgnore` the chunk `badHashChunk`, whose payload is well-formed
JSON with a hash that `decodeChanges` refuses, makes `LoadWithOptions` return the error
of `decodeChanges`, while `ParseChunks` accepts the chunk. -/
theorem Load_ignore_returns_decode_error :
    storage.ParseChunks badHashDecoder.inflateBytes badHashDecoder.checksum
      storage.badHashChunk =
      ([{ Header := { Version := 1, Typ := storage.ChunkDocument, Flags := 0, Reserved := 0,
                      PayloadLen := 27, Checksum := 2393 },
          Payload := storage.badHashJSON }], none) ∧
    LoadWithOptions badHashDecoder storage.badHashChunk ignoreOptions = .error GoError.errHex ∧
    LoadWithOptions badHashDecoder storage.badHashChunk DefaultLoadOptions =
      .error GoError.errHex := by
  refine ⟨by decide, rfl, rfl⟩

end automerge

/-! ## Cursors on a text -/

namespace opset

open model

theorem entry_of_pair (e : listEntry) (id : OpID) (v : Value)
    (h : e.versions.map (fun x => (x.OpID, x.Value)) = [(id, v)]) :
    (sortedVersions e.versions).getLast?.map VersionedValue.OpID = some id ∧
    OpSet.winner e = some v := by
  cases hv : e.versions with
  | nil => rw [hv] at h; simp at h
  | cons x rest =>
    rw [hv] at h
    cases rest with
    | cons y t => simp at h
    | nil =>
      simp only [List.map_cons, List.map_nil, List.cons.injEq, Prod.mk.injEq, and_true] at h
      unfold OpSet.winner
      rw [hv]
      simp [sortedVersions, List.insertionSort, h.1, h.2]

theorem holdsElems_ids {o : OpSet} {obj : ObjID} {elems : List (OpID × Char)}
    (h : HoldsElems o obj elems) :
    o.SequenceElementIDs obj none = .ok (elems.map Prod.fst) := by
  obtain ⟨-, S, st, hS, hst, htyp, hl⟩ := h
  unfold OpSet.SequenceElementIDs
  rw [hS]
  dsimp only
  rw [hst]
  dsimp only
  have hno : ¬ (st.typ ≠ ObjList ∧ st.typ ≠ ObjText) := fun hh => hh.2 htyp
  rw [if_neg hno]
  congr 1
  have key : ∀ (l : List listEntry) (es : List (OpID × Char)),
      l.map (fun e => e.versions.map (fun v => (v.OpID, v.Value))) =
        es.map (fun p => [(p.1, runeValue p.2)]) →
      l.filterMap (fun entry =>
        (sortedVersions entry.versions).getLast?.map VersionedValue.OpID) =
        es.map Prod.fst := by
    intro l
    induction l with
    | nil =>
      intro es hh
      cases es with
      | nil => rfl
      | cons p t => simp at hh
    | cons e rest ih =>
      intro es hh
      cases es with
      | nil => simp at hh
      | cons p t =>
        simp only [List.map_cons, List.cons.injEq] at hh
        rw [List.filterMap_cons, (entry_of_pair e p.1 _ hh.1).1, List.map_cons, ih t hh.2]
  exact key st.l elems hl

theorem holdsElems_holdsText {o : OpSet} {obj : ObjID} {elems : List (OpID × Char)}
    (h : HoldsElems o obj elems) : HoldsText o obj (String.mk (elems.map Prod.snd)) := by
  obtain ⟨ht, S, st, hS, hst, -, hl⟩ := h
  refine ⟨ht, S, st, hS, hst, ?_⟩
  have key : ∀ (l : List listEntry) (es : List (OpID × Char)),
      l.map (fun e => e.versions.map (fun v => (v.OpID, v.Value))) =
        es.map (fun p => [(p.1, runeValue p.2)]) →
      l.map OpSet.winner = (es.map Prod.snd).map (fun c => some (runeValue c)) := by
    intro l
    induction l with
    | nil =>
      intro es hh
      cases es with
      | nil => rfl
      | cons p t => simp at hh
    | cons e rest ih =>
      intro es hh
      cases es with
      | nil => simp at hh
      | cons p t =>
        simp only [List.map_cons, List.cons.injEq] at hh
        rw [List.map_cons, (entry_of_pair e p.1 _ hh.1).2, ih t hh.2]
        rfl
  exact key st.l elems hl

theorem holdsElems_text {o : OpSet} {obj : ObjID} {elems : List (OpID × Char)}
    (h : HoldsElems o obj elems) : o.Text obj none = .ok (String.mk (elems.map Prod.snd)) :=
  (holdsElems_holdsText h).text

/-- A record on `obj` that changes the list of `obj` from `st.l` to `l1`, appended to an
op set that holds the elements `elems`, gives an op set that holds the elements of
`l1`. -/
theorem holdsElems_step {o : OpSet} {obj : ObjID} {elems elems1 : List (OpID × Char)}
    (rec : opRecord) (h : HoldsElems o obj elems) (hobj : rec.obj = obj)
    (hstep : ∀ st : objectState,
      st.l.map (fun e => e.versions.map (fun v => (v.OpID, v.Value))) =
        elems.map (fun p => [(p.1, runeValue p.2)]) →
      ∃ l1, applyRecordObj st rec = .ok { st with l := l1 } ∧
        l1.map (fun e => e.versions.map (fun v => (v.OpID, v.Value))) =
          elems1.map (fun p => [(p.1, runeValue p.2)])) :
    HoldsElems (o.record rec) obj elems1 := by
  obtain ⟨ht, S, st, hS, hst, htyp, hl⟩ := h
  obtain ⟨l1, hap, hl1⟩ := hstep st hl
  refine ⟨by rw [ensureType_record]; exact ht, GoMap.set S obj { st with l := l1 },
    { st with l := l1 }, ?_, GoMap.get?_set_self _ _ _, htyp, hl1⟩
  rw [materialize_record, hS]
  dsimp only
  have hc : covered none rec = true := rfl
  rw [if_pos hc]
  unfold applyRecord
  rw [hobj, hst]
  dsimp only
  rw [hap]

theorem applyRecordObj_delete_any (st : objectState) (rec : opRecord)
    (hk : rec.kind = opListDelete) (h0 : 0 ≤ rec.index) :
    applyRecordObj st rec = .ok { st with l := st.l.eraseIdx rec.index.toNat } := by
  by_cases hlt : rec.index < (st.l.length : Int)
  · exact applyRecordObj_delete st rec hk h0 hlt
  · unfold applyRecordObj
    rw [hk]
    simp only [opListDelete, opMapPut, opMapDelete, opListInsert, opListSet]
    have hge : rec.index < 0 ∨ rec.index ≥ (st.l.length : Int) := Or.inr (by omega)
    have he : st.l.eraseIdx rec.index.toNat = st.l :=
      List.eraseIdx_of_length_le (by omega)
    simp [hge, he]

theorem applyRecordObj_insert_out (st : objectState) (rec : opRecord)
    (hk : rec.kind = opListInsert) (hgt : rec.index > (st.l.length : Int)) :
    applyRecordObj st rec = .ok { st with l := st.l } := by
  unfold applyRecordObj
  rw [hk]
  simp only [opListDelete, opMapPut, opMapDelete, opListInsert, opListSet]
  have hor : rec.index < 0 ∨ rec.index > (st.l.length : Int) := Or.inr hgt
  simp [hor]

theorem holdsElems_listType {o : OpSet} {obj : ObjID} {elems : List (OpID × Char)}
    (h : HoldsElems o obj elems) : o.ensureType obj [ObjList, ObjText] = .ok () :=
  ensureType_mono o obj [ObjText] [ObjList, ObjText]
    (fun _ hx => List.mem_cons_of_mem _ hx) h.1

theorem holdsElems_delete {o : OpSet} {obj : ObjID} {elems : List (OpID × Char)}
    (h : HoldsElems o obj elems) (index : Int) (id : OpID) (actor seq : Nat)
    (h0 : 0 ≤ index) :
    ∃ o1, o.DeleteList obj index id actor seq = .ok o1 ∧
      HoldsElems o1 obj (elems.eraseIdx index.toNat) := by
  obtain ⟨rec, hrec⟩ : ∃ rec : opRecord, rec = { zeroRecord with
      kind := opListDelete, obj := obj, index := index, id := id, actor := actor,
      seq := seq } := ⟨_, rfl⟩
  refine ⟨o.record rec, ?_, ?_⟩
  · unfold OpSet.DeleteList
    rw [(holdsElems_listType h)]
    dsimp only
    rw [if_neg (by omega), hrec]
  · apply holdsElems_step rec h (by rw [hrec])
    intro st hl
    have hk : rec.kind = opListDelete := by rw [hrec]
    have hi : rec.index = index := by rw [hrec]
    refine ⟨_, applyRecordObj_delete_any st rec hk (by rw [hi]; exact h0), ?_⟩
    rw [hi, List.eraseIdx_eq_take_drop_succ, List.eraseIdx_eq_take_drop_succ, List.map_append,
      List.map_take, List.map_drop, hl, List.map_append, List.map_take, List.map_drop]

theorem holdsElems_insert {o : OpSet} {obj : ObjID} {elems : List (OpID × Char)}
    (h : HoldsElems o obj elems) (index : Int) (c : Char) (id : OpID) (actor seq : Nat)
    (h0 : 0 ≤ index) :
    ∃ o1, o.InsertList obj index (runeValue c) id actor seq = .ok o1 ∧
      HoldsElems o1 obj (if index.toNat ≤ elems.length then
        elems.take index.toNat ++ (id, c) :: elems.drop index.toNat else elems) := by
  obtain ⟨rec, hrec⟩ : ∃ rec : opRecord, rec = { zeroRecord with
      kind := opListInsert, obj := obj, index := index, value := runeValue c, id := id,
      actor := actor, seq := seq } := ⟨_, rfl⟩
  refine ⟨o.record rec, ?_, ?_⟩
  · unfold OpSet.InsertList
    rw [(holdsElems_listType h)]
    dsimp only
    rw [if_neg (by omega), hrec]
  · apply holdsElems_step rec h (by rw [hrec])
    intro st hl
    have hlen : st.l.length = elems.length := by
      have := congrArg List.length hl
      simpa using this
    have hk : rec.kind = opListInsert := by rw [hrec]
    have hi : rec.index = index := by rw [hrec]
    by_cases hle : index.toNat ≤ elems.length
    · refine ⟨_, applyRecordObj_insert st rec hk (by rw [hi]; exact h0)
        (by rw [hi, hlen]; omega), ?_⟩
      rw [hi, if_pos hle, insertAt, List.map_append, List.map_cons, List.map_take,
        List.map_drop, hl]
      have hv : (versionOf rec).OpID = id ∧ (versionOf rec).Value = runeValue c := by
        rw [hrec]
        exact ⟨rfl, rfl⟩
      simp only [List.map_append, List.map_cons, List.map_take, List.map_drop, List.map_nil,
        hv.1, hv.2]
    · refine ⟨_, applyRecordObj_insert_out st rec hk (by rw [hi, hlen]; omega), ?_⟩
      rw [if_neg hle, hl]

end opset

namespace opset

open model

theorem getElem?_eraseIdx_below {α : Type} (l : List α) (i a : Nat) (h : a < i) :
    (l.eraseIdx i)[a]? = l[a]? := by
  induction l generalizing i a with
  | nil => simp
  | cons x t ih =>
    cases i with
    | zero => omega
    | succ i =>
      cases a with
      | zero => simp
      | succ a =>
        simp only [List.eraseIdx_cons_succ, List.getElem?_cons_succ]
        exact ih i a (by omega)

theorem getElem?_eraseIdx_above {α : Type} (l : List α) (i a : Nat) (h : i ≤ a) :
    (l.eraseIdx i)[a]? = l[a + 1]? := by
  induction l generalizing i a with
  | nil => simp
  | cons x t ih =>
    cases i with
    | zero => simp
    | succ i =>
      cases a with
      | zero => omega
      | succ a =>
        simp only [List.eraseIdx_cons_succ, List.getElem?_cons_succ]
        exact ih i a (by omega)

theorem getElem?_insert_below {α : Type} (l : List α) (x : α) (i a : Nat) (h : a < i)
    (hi : i ≤ l.length) : (l.take i ++ x :: l.drop i)[a]? = l[a]? := by
  induction l generalizing i a with
  | nil => simp at hi; omega
  | cons y t ih =>
    cases i with
    | zero => omega
    | succ i =>
      cases a with
      | zero => simp
      | succ a =>
        simp only [List.take_succ_cons, List.drop_succ_cons, List.cons_append,
          List.getElem?_cons_succ]
        exact ih i a (by omega) (by simpa using hi)

theorem getElem?_insert_above {α : Type} (l : List α) (x : α) (i a : Nat) (h : i ≤ a) :
    (l.take i ++ x :: l.drop i)[a + 1]? = l[a]? := by
  induction l generalizing i a with
  | nil => simp
  | cons y t ih =>
    cases i with
    | zero => simp
    | succ i =>
      cases a with
      | zero => omega
      | succ a =>
        simp only [List.take_succ_cons, List.drop_succ_cons, List.cons_append,
          List.getElem?_cons_succ]
        exact ih i a (by omega)

/-- The first loop of `SpliceText` on a text keeps an element that it does not delete:
an element before `index` stays where it is, an element behind the deleted ones moves
down by their number. -/
theorem spliceDeletes_anchor (obj : ObjID) (index : Int) (actor : Nat) (h0 : 0 ≤ index) :
    ∀ (n : Nat) (o : OpSet) (seq : Nat) (elems : List (OpID × Char)) (a : Nat)
      (p : OpID × Char), HoldsElems o obj elems → elems[a]? = some p →
      ((a : Int) < index ∨ index + n ≤ a) →
      ∃ o1 seq1 elems1, OpSet.spliceDeletes obj index actor n o seq = .ok (o1, seq1) ∧
        HoldsElems o1 obj elems1 ∧
        elems1[if index + n ≤ a then a - n else a]? = some p := by
  intro n
  induction n with
  | zero =>
    intro o seq elems a p h ha _
    refine ⟨o, seq, elems, rfl, h, ?_⟩
    simp [ha]
  | succ n ih =>
    intro o seq elems a p h ha hkeep
    obtain ⟨o1, hdel, h1⟩ := holdsElems_delete h index { Counter := (seq + 1) % 2 ^ 64, Actor := actor }
      actor ((seq + 1) % 2 ^ 64) h0
    rw [OpSet.spliceDeletes]
    simp only [hdel]
    by_cases hlt : (a : Int) < index
    · have ha1 : (elems.eraseIdx index.toNat)[a]? = some p := by
        rw [getElem?_eraseIdx_below _ _ _ (by omega), ha]
      obtain ⟨o2, seq2, elems2, hrun, h2, hp⟩ := ih o1 ((seq + 1) % 2 ^ 64) _ a p h1 ha1
        (Or.inl hlt)
      refine ⟨o2, seq2, elems2, hrun, h2, ?_⟩
      have hn1 : ¬ (index + (n : Int) ≤ a) := by omega
      have hn2 : ¬ (index + ((n + 1 : Nat) : Int) ≤ a) := by push_cast; omega
      rw [if_neg hn1] at hp
      rw [if_neg hn2]
      exact hp
    · have hge : index + ((n + 1 : Nat) : Int) ≤ a := by
        rcases hkeep with hk | hk
        · exact absurd hk hlt
        · exact hk
      have hpos : 1 ≤ a := by push_cast at hge; omega
      have ha1 : (elems.eraseIdx index.toNat)[a - 1]? = some p := by
        rw [getElem?_eraseIdx_above _ _ _ (by push_cast at hge; omega)]
        have : a - 1 + 1 = a := by omega
        rw [this, ha]
      have hge1 : index + (n : Int) ≤ ((a - 1 : Nat) : Int) := by push_cast at hge; omega
      obtain ⟨o2, seq2, elems2, hrun, h2, hp⟩ := ih o1 ((seq + 1) % 2 ^ 64) _ (a - 1) p h1 ha1
        (Or.inr hge1)
      refine ⟨o2, seq2, elems2, hrun, h2, ?_⟩
      rw [if_pos hge1] at hp
      rw [if_pos hge]
      have : a - 1 - n = a - (n + 1) := by omega
      rw [← this]
      exact hp

/-- The second loop of `SpliceText` on a text keeps every element: an element before
`index` stays where it is, an element at `index` or behind it moves up by the number of
inserted characters. -/
theorem spliceInserts_anchor (obj : ObjID) (actor : Nat) :
    ∀ (chars : List Char) (o : OpSet) (index : Int) (seq : Nat)
      (elems : List (OpID × Char)) (a : Nat) (p : OpID × Char), 0 ≤ index →
      HoldsElems o obj elems → elems[a]? = some p →
      ∃ o1 seq1 elems1, OpSet.spliceInserts obj actor chars o index seq = .ok (o1, seq1) ∧
        HoldsElems o1 obj elems1 ∧
        elems1[if index ≤ a then a + chars.length else a]? = some p := by
  intro chars
  induction chars with
  | nil =>
    intro o index seq elems a p _ h ha
    refine ⟨o, seq, elems, rfl, h, ?_⟩
    simp [ha]
  | cons c rest ih =>
    intro o index seq elems a p h0 h ha
    obtain ⟨o1, hins, h1⟩ := holdsElems_insert h index c { Counter := (seq + 1) % 2 ^ 64, Actor := actor }
      actor ((seq + 1) % 2 ^ 64) h0
    have halen : a < elems.length := by
      by_contra hc
      rw [List.getElem?_eq_none (by omega)] at ha
      cases ha
    rw [OpSet.spliceInserts]
    have hv : NewScalarValue (StringValue (String.singleton c)) = runeValue c := rfl
    simp only [hv, hins]
    by_cases hle : index ≤ (a : Int)
    · have hfit : index.toNat ≤ elems.length := by omega
      rw [if_pos hfit] at h1
      have ha1 : (elems.take index.toNat ++
          (({ Counter := (seq + 1) % 2 ^ 64, Actor := actor } : OpID), c) ::
            elems.drop index.toNat)[a + 1]? = some p := by
        rw [getElem?_insert_above _ _ _ _ (by omega), ha]
      obtain ⟨o2, seq2, elems2, hrun, h2, hp⟩ := ih o1 (index + 1) ((seq + 1) % 2 ^ 64) _
        (a + 1) p (by omega) h1 ha1
      refine ⟨o2, seq2, elems2, hrun, h2, ?_⟩
      have hle1 : index + 1 ≤ ((a + 1 : Nat) : Int) := by push_cast; omega
      rw [if_pos hle1] at hp
      rw [if_pos hle, List.length_cons]
      have : a + 1 + rest.length = a + (rest.length + 1) := by omega
      rw [← this]
      exact hp
    · have ha1 : (if index.toNat ≤ elems.length then
          elems.take index.toNat ++
            (({ Counter := (seq + 1) % 2 ^ 64, Actor := actor } : OpID), c) ::
              elems.drop index.toNat else elems)[a]? = some p := by
        by_cases hfit : index.toNat ≤ elems.length
        · rw [if_pos hfit, getElem?_insert_below _ _ _ _ (by omega) hfit, ha]
        · rw [if_neg hfit, ha]
      obtain ⟨o2, seq2, elems2, hrun, h2, hp⟩ := ih o1 (index + 1) ((seq + 1) % 2 ^ 64) _
        a p (by omega) h1 ha1
      refine ⟨o2, seq2, elems2, hrun, h2, ?_⟩
      have hle1 : ¬ (index + 1 ≤ (a : Int)) := by omega
      rw [if_neg hle1] at hp
      rw [if_neg hle]
      exact hp

/-- A successful `SpliceText` on a text keeps an element that it does not delete: an
element before `index` stays where it is, an element behind the deleted ones moves by
the number of inserted characters less the number of deleted ones. -/
theorem SpliceText_anchor (o o1 : OpSet) (obj : ObjID) (index deleteCount : Int)
    (ins : GoString) (actor startSeq seq1 : Nat) (elems : List (OpID × Char)) (a : Nat)
    (p : OpID × Char) (h : HoldsElems o obj elems) (ha : elems[a]? = some p)
    (hkeep : (a : Int) < index ∨ index + deleteCount ≤ a)
    (hok : o.SpliceText obj index deleteCount ins actor startSeq = .ok (o1, seq1)) :
    0 ≤ index ∧ 0 ≤ deleteCount ∧ ∃ elems1, HoldsElems o1 obj elems1 ∧
      elems1[if index + deleteCount ≤ a then a - deleteCount.toNat + ins.length else a]? =
        some p := by
  unfold OpSet.SpliceText at hok
  rw [h.1] at hok
  dsimp only at hok
  by_cases hbad : index < 0 ∨ deleteCount < 0
  · rw [if_pos hbad] at hok
    cases hok
  · rw [if_neg hbad] at hok
    have h0 : 0 ≤ index := by omega
    have hd0 : 0 ≤ deleteCount := by omega
    have hdn : ((deleteCount.toNat : Nat) : Int) = deleteCount := Int.toNat_of_nonneg hd0
    obtain ⟨o2, seq2, elems2, hrun, h2, hp2⟩ := spliceDeletes_anchor obj index actor h0
      deleteCount.toNat o startSeq elems a p h ha (by rw [hdn]; exact hkeep)
    rw [hrun] at hok
    dsimp only at hok
    rw [hdn] at hp2
    obtain ⟨o3, seq3, elems3, hrun3, h3, hp3⟩ := spliceInserts_anchor obj actor ins.toList o2
      index seq2 elems2 _ p h0 h2 hp2
    rw [hrun3] at hok
    injection hok with hok
    injection hok with ho _
    subst ho
    refine ⟨h0, hd0, elems3, h3, ?_⟩
    by_cases hge : index + deleteCount ≤ a
    · rw [if_pos hge] at hp3 ⊢
      have hle : index ≤ ((a - deleteCount.toNat : Nat) : Int) := by omega
      rw [if_pos hle] at hp3
      exact hp3
    · rw [if_neg hge] at hp3 ⊢
      have hlt : (a : Int) < index := by
        rcases hkeep with hk | hk
        · exact hk
        · exact absurd hk hge
      have hle : ¬ (index ≤ (a : Int)) := by omega
      rw [if_neg hle] at hp3
      exact hp3

end opset

namespace automerge

open model changegraph

/-- A commit of one `SpliceText` call that returns a change has run `OpSet.SpliceText`
on the op set of the document. -/
theorem commitCalls_spliceText (hasher : ChangeHasher) (d : Document) (obj : ObjID)
    (index deleteCount : Int) (ins : GoString) (ch : Change)
    (h : (commitCalls hasher d [.spliceText obj index deleteCount ins]).change = some ch) :
    ∃ actor start seq1,
      d.ops.SpliceText obj index deleteCount ins actor start =
        .ok ((commitCalls hasher d [.spliceText obj index deleteCount ins]).doc.ops, seq1) := by
  unfold commitCalls at h ⊢
  cases hB : d.Begin with
  | error e => rw [hB] at h; cases h
  | ok r =>
    obtain ⟨d1, tx⟩ := r
    rw [hB] at h
    dsimp only at h ⊢
    obtain ⟨-, hd1, hcl, hops, -, -, -, -⟩ := Begin_ok d d1 tx hB
    have hops1 : d1.ops = d.ops := by rw [hd1]
    unfold Transaction.Commit at h ⊢
    obtain ⟨-, -, hne, ops1, changeOps, offset, g, hloop, -, -, -, -, hdoc, -, -⟩ :=
      CommitWith_change hasher d1 _ _ ch h
    rw [hdoc]
    have hcalls : (tx.calls [.spliceText obj index deleteCount ins]).ops =
        if deleteCount = 0 ∧ ins = "" then []
        else [txMutation.spliceTextMutation obj index deleteCount ins] := by
      simp only [Transaction.calls, List.foldl_cons, List.foldl_nil, Transaction.call,
        Transaction.SpliceText, hcl, Bool.false_eq_true, if_false]
      by_cases he : deleteCount = 0 ∧ ins = ""
      · simp only [he, and_self, if_true, Transaction.afterCall, hops]
      · simp only [he, if_false, Transaction.afterCall, hops, List.nil_append]
    by_cases he : deleteCount = 0 ∧ ins = ""
    · rw [if_pos he] at hcalls
      exact absurd hcalls hne
    · rw [if_neg he] at hcalls
      rw [hcalls] at hloop
      unfold Transaction.commitLoop at hloop
      dsimp only at hloop
      simp only [txMutation.apply] at hloop
      rw [hops1] at hloop
      cases hs : d.ops.SpliceText obj index deleteCount ins
          (tx.calls [.spliceText obj index deleteCount ins]).cp.actor
          (if ((tx.calls [.spliceText obj index deleteCount ins]).cp.startOp + 0) % 2 ^ 64 > 0
            then ((tx.calls [.spliceText obj index deleteCount ins]).cp.startOp + 0) % 2 ^ 64 - 1
            else ((tx.calls [.spliceText obj index deleteCount ins]).cp.startOp + 0) % 2 ^ 64) with
      | error e =>
        rw [hs] at hloop
        simp at hloop
      | ok r2 =>
        obtain ⟨o2, s2⟩ := r2
        rw [hs] at hloop
        simp only [Transaction.commitLoop, Prod.mk.injEq] at hloop
        obtain ⟨ho, -⟩ := hloop
        subst ho
        exact ⟨_, _, s2, hs⟩

end automerge

namespace automerge

open model changegraph

theorem resolveLoop_found (anchor : OpID) (side : CursorSide) :
    ∀ (ids : List OpID) (i : Nat) (fb : Int) (a : Nat), ids.Nodup → ids[a]? = some anchor →
      resolveLoop anchor side ids i fb =
        if side = CursorBefore then ((i + a : Nat) : Int) else ((i + a : Nat) : Int) + 1 := by
  intro ids
  induction ids with
  | nil => intro i fb a _ ha; simp at ha
  | cons id rest ih =>
    intro i fb a hnd ha
    cases a with
    | zero =>
      simp only [List.getElem?_cons_zero, Option.some.injEq] at ha
      subst ha
      simp [resolveLoop]
    | succ a =>
      simp only [List.getElem?_cons_succ] at ha
      have hmem : anchor ∈ rest := List.mem_iff_getElem?.2 ⟨a, ha⟩
      have hne : id ≠ anchor := by
        intro he
        subst he
        exact (List.nodup_cons.1 hnd).1 hmem
      rw [resolveLoop, if_pos hne, ih (i + 1) fb a (List.nodup_cons.1 hnd).2 ha]
      have : i + 1 + a = i + (a + 1) := by omega
      rw [this]

theorem ObjectType_of_ensureType (o : opset.OpSet) (obj : ObjID)
    (h : o.ensureType obj [opset.ObjText] = .ok ()) : o.ObjectType obj = some opset.ObjText := by
  obtain ⟨st, hst, htyp⟩ := opset.ensureType_ok o obj _ h
  unfold opset.OpSet.ObjectType
  rw [hst]
  simp only [List.mem_singleton] at htyp
  simp [htyp]

/-- On a text with pairwise distinct element ids the cursor resolves to the place of
its anchor, or to the place behind it. -/
theorem resolve_anchor (d : Document) (c : Cursor) (elems : List (OpID × Char)) (a : Nat)
    (h : opset.HoldsElems d.ops c.ObjID elems) (hnd : (elems.map Prod.fst).Nodup)
    (ha : (elems.map Prod.fst)[a]? = some c.Anchor) :
    d.ResolveTextCursor c text.EncodingUTF8 =
      .ok (if c.Side = CursorBefore then (a : Int) else (a : Int) + 1) := by
  unfold Document.ResolveTextCursor Document.resolveTextCursor
  rw [ObjectType_of_ensureType _ _ h.1]
  dsimp only
  rw [if_neg (by simp), (opset.holdsElems_ids h)]
  dsimp only
  rw [resolveLoop_found _ _ _ 0 _ a hnd ha]
  have hlen : a < (elems.map Prod.fst).length := by
    by_contra hc
    rw [List.getElem?_eq_none (by omega)] at ha
    cases ha
  have hne : ¬ (text.EncodingUTF8 = text.EncodingUTF16) := by decide
  rw [if_neg hne]
  congr 1
  by_cases hs : c.Side = CursorBefore
  · simp only [hs, if_true, Nat.zero_add]
    rw [if_neg (by omega), if_neg (by omega)]
  · simp only [hs, if_false, Nat.zero_add]
    rw [if_neg (by omega), if_neg (by omega)]

/-- What `CursorForText` returns on a text: on the empty text the cursor without an
anchor, otherwise a cursor whose anchor is an element and whose place is the index
clamped to the text. -/
theorem CursorForText_spec (d : Document) (obj : ObjID) (elems : List (OpID × Char))
    (r : Int) (c : Cursor) (h : opset.HoldsElems d.ops obj elems)
    (hc : d.CursorForText obj r text.EncodingUTF8 = .ok c) :
    c.ObjID = obj ∧
    ((elems = [] ∧ c.FallbackRune = 0 ∧ c.Side = CursorAfter) ∨
      ∃ a : Nat, (elems.map Prod.fst)[a]? = some c.Anchor ∧
        (if c.Side = CursorBefore then (a : Int) else (a : Int) + 1) =
          max 0 (min r (elems.length : Int))) := by
  unfold Document.CursorForText Document.cursorForText at hc
  rw [ObjectType_of_ensureType _ _ h.1] at hc
  dsimp only at hc
  rw [if_neg (by simp), (opset.holdsElems_text h)] at hc
  dsimp only at hc
  rw [(opset.holdsElems_ids h)] at hc
  dsimp only at hc
  have hne : ¬ (text.EncodingUTF8 = text.EncodingUTF16) := by decide
  rw [if_neg hne] at hc
  have hnorm : text.NormalizeIndexForEncoding (String.mk (elems.map Prod.snd)) r
      text.EncodingUTF8 = max 0 (min r (elems.length : Int)) := by
    unfold text.NormalizeIndexForEncoding text.RuneCount
    have hl : (String.mk (elems.map Prod.snd)).length = elems.length := by
      simp [String.length]
    rw [hl, if_neg hne]
    by_cases h1 : r < 0
    · rw [if_pos h1]; omega
    · rw [if_neg h1]
      by_cases h2 : r > (elems.length : Int)
      · rw [if_pos h2]; omega
      · rw [if_neg h2]; omega
  rw [hnorm] at hc
  have hlen : (elems.map Prod.fst).length = elems.length := List.length_map _ _
  rw [hlen] at hc
  by_cases he : elems.length = 0
  · rw [if_pos he] at hc
    injection hc with hc
    subst hc
    exact ⟨rfl, Or.inl ⟨List.length_eq_zero.1 he, rfl, rfl⟩⟩
  · rw [if_neg he] at hc
    by_cases h1 : max 0 (min r (elems.length : Int)) ≤ 0
    · rw [if_pos h1] at hc
      cases hg : (elems.map Prod.fst)[0]? with
      | none => rw [hg] at hc; cases hc
      | some x =>
        rw [hg] at hc
        injection hc with hc
        subst hc
        refine ⟨rfl, Or.inr ⟨0, hg, ?_⟩⟩
        simp only [if_true]
        omega
    · rw [if_neg h1] at hc
      by_cases h2 : max 0 (min r (elems.length : Int)) ≥ (elems.length : Int)
      · rw [if_pos h2] at hc
        cases hg : (elems.map Prod.fst)[elems.length - 1]? with
        | none => rw [hg] at hc; cases hc
        | some x =>
          rw [hg] at hc
          injection hc with hc
          subst hc
          refine ⟨rfl, Or.inr ⟨elems.length - 1, hg, ?_⟩⟩
          have hs : ¬ (CursorAfter = CursorBefore) := by decide
          simp only [hs, if_false]
          omega
      · rw [if_neg h2] at hc
        cases hg : (elems.map Prod.fst)[(max 0 (min r (elems.length : Int)) - 1).toNat]? with
        | none => rw [hg] at hc; cases hc
        | some x =>
          rw [hg] at hc
          injection hc with hc
          subst hc
          refine ⟨rfl, Or.inr ⟨_, hg, ?_⟩⟩
          have hs : ¬ (CursorAfter = CursorBefore) := by decide
          simp only [hs, if_false]
          omega

end automerge

namespace automerge

open model changegraph

/-- Along a run of committed splices the text keeps holding single characters with
distinct ids, and the anchor moves by the net number of characters. -/
theorem spliced_anchor (hasher : ChangeHasher) (obj : ObjID) (anchor : OpID) (d : Document)
    (elems : List (OpID × Char)) (h : opset.HoldsElems d.ops obj elems)
    (hnd : (elems.map Prod.fst).Nodup) :
    ∀ (d1 : Document) (net : Int), Spliced hasher obj anchor d d1 net →
      (elems = [] → d1 = d ∧ net = 0) ∧
      ∀ a0 : Nat, (elems.map Prod.fst)[a0]? = some anchor →
        ∃ (elems1 : List (OpID × Char)) (a1 : Nat), opset.HoldsElems d1.ops obj elems1 ∧
          (elems1.map Prod.fst).Nodup ∧ (elems1.map Prod.fst)[a1]? = some anchor ∧
          (a1 : Int) = (a0 : Int) + net := by
  intro d1 net hs
  induction hs with
  | start => exact ⟨fun _ => ⟨rfl, rfl⟩, fun a0 ha0 => ⟨elems, a0, h, hnd, ha0, by omega⟩⟩
  | step d2 net2 index deleteCount ins ids a hprev hids ha hkeep hch hfresh ih =>
    constructor
    · intro he
      obtain ⟨hd, -⟩ := ih.1 he
      subst hd
      rw [(opset.holdsElems_ids h), he] at hids
      injection hids with hids
      subst hids
      simp at ha
    · intro a0 ha0
      obtain ⟨elems1, a1, h1, hnd1, ha1, hnet⟩ := ih.2 a0 ha0
      rw [(opset.holdsElems_ids h1)] at hids
      injection hids with hids
      subst hids
      have haa : a = a1 := by
        have hl : a < (elems1.map Prod.fst).length := by
          by_contra hc
          rw [List.getElem?_eq_none (by omega)] at ha
          cases ha
        have hl1 : a1 < (elems1.map Prod.fst).length := by
          by_contra hc
          rw [List.getElem?_eq_none (by omega)] at ha1
          cases ha1
        rw [List.getElem?_eq_getElem hl] at ha
        rw [List.getElem?_eq_getElem hl1] at ha1
        injection ha with ha
        injection ha1 with ha1
        exact (List.Nodup.getElem_inj_iff hnd1).1 (ha.trans ha1.symm)
      subst haa
      obtain ⟨p, hp, hpa⟩ : ∃ p, elems1[a]? = some p ∧ p.1 = anchor := by
        rw [List.getElem?_map] at ha1
        cases hg : elems1[a]? with
        | none => rw [hg] at ha1; cases ha1
        | some p =>
          rw [hg] at ha1
          simp only [Option.map_some', Option.some.injEq] at ha1
          exact ⟨p, rfl, ha1⟩
      obtain ⟨ch, hch1⟩ := Option.isSome_iff_exists.1 hch
      obtain ⟨actor, start, seq1, hsplice⟩ := commitCalls_spliceText hasher d2 obj index
        deleteCount ins ch hch1
      obtain ⟨h0, hd0, elems2, h2, hp2⟩ := opset.SpliceText_anchor _ _ obj index deleteCount
        ins actor start seq1 elems1 a p h1 hp hkeep hsplice
      refine ⟨elems2, if index + deleteCount ≤ a then a - deleteCount.toNat + ins.length else a,
        h2, hfresh _ (opset.holdsElems_ids h2), ?_, ?_⟩
      · rw [List.getElem?_map, hp2]
        simp [hpa]
      · by_cases hge : index + deleteCount ≤ a
        · rw [if_pos hge, if_pos hge]
          have : deleteCount.toNat ≤ a := by omega
          have hl : ((ins.length : Nat) : Int) = (ins.length : Int) := rfl
          push_cast
          omega
        · rw [if_neg hge, if_neg hge]
          omega

/-- C36 (amended): for a text object whose elements are single characters with
pairwise distinct ids and a cursor created by `CursorForText` at the rune index `r`,
after any sequence of committed text splices on the object, each of which leaves the
anchored element in the text and the element ids pairwise distinct, `ResolveTextCursor`
returns `r` clamped to the text plus the number of characters inserted less the number
deleted before the anchor. -/
theorem ResolveTextCursor_stable (hasher : ChangeHasher) (d d1 : Document) (obj : ObjID)
    (elems : List (OpID × Char)) (r : Int) (c : Cursor) (net : Int)
    (h : opset.HoldsElems d.ops obj elems) (hnd : (elems.map Prod.fst).Nodup)
    (hc : d.CursorForText obj r text.EncodingUTF8 = .ok c)
    (hs : Spliced hasher obj c.Anchor d d1 net) :
    d1.ResolveTextCursor c text.EncodingUTF8 =
      .ok (max 0 (min r (elems.length : Int)) + net) := by
  obtain ⟨hobj, hcase⟩ := CursorForText_spec d obj elems r c h hc
  obtain ⟨hempty, hmove⟩ := spliced_anchor hasher obj c.Anchor d elems h hnd d1 net hs
  rcases hcase with ⟨he, hfb, hside⟩ | ⟨a0, ha0, hplace⟩
  · obtain ⟨hd, hn⟩ := hempty he
    subst hd hn
    subst he
    unfold Document.ResolveTextCursor Document.resolveTextCursor
    rw [hobj, ObjectType_of_ensureType _ _ h.1]
    dsimp only
    rw [if_neg (by simp), (opset.holdsElems_ids h)]
    dsimp only
    have hne : ¬ (text.EncodingUTF8 = text.EncodingUTF16) := by decide
    rw [if_neg hne]
    simp only [List.map_nil, resolveLoop, hfb, List.length_nil]
    congr 1
    simp only [Nat.cast_zero, lt_self_iff_false, if_false, gt_iff_lt]
    omega
  · obtain ⟨elems1, a1, h1, hnd1, ha1, hnet⟩ := hmove a0 ha0
    rw [← hobj] at h1
    rw [resolve_anchor d1 c elems1 a1 h1 hnd1 ha1]
    congr 1
    by_cases hs : c.Side = CursorBefore
    · rw [if_pos hs] at hplace ⊢
      omega
    · rw [if_neg hs] at hplace ⊢
      omega

end automerge

namespace automerge

open model changegraph

theorem holdsElems_ab :
    opset.HoldsElems abDoc.ops opset.firstObject
      [({ Counter := 2, Actor := 1 }, 'a'), ({ Counter := 3, Actor := 1 }, 'b')] :=
  ⟨rfl, _, _, rfl, rfl, rfl, rfl⟩

theorem ResolveTextCursor_stable_witness :
    abDoc.CursorForText opset.firstObject 1 text.EncodingUTF8 =
      .ok { ObjID := opset.firstObject, Anchor := { Counter := 2, Actor := 1 },
            Side := CursorAfter, FallbackRune := 1 } ∧
    (commitCalls exampleHasherAsc abDoc
      [.spliceText opset.firstObject 0 0 "X"]).doc.ResolveTextCursor
        { ObjID := opset.firstObject, Anchor := { Counter := 2, Actor := 1 },
          Side := CursorAfter, FallbackRune := 1 } text.EncodingUTF8 = .ok 2 :=
  ⟨rfl,
    ResolveTextCursor_stable exampleHasherAsc abDoc _ opset.firstObject
      [({ Counter := 2, Actor := 1 }, 'a'), ({ Counter := 3, Actor := 1 }, 'b')] 1 _ _
      holdsElems_ab (by decide) rfl
      (Spliced.step abDoc abDoc 0 0 0 "X"
        [{ Counter := 2, Actor := 1 }, { Counter := 3, Actor := 1 }] 0
        (Spliced.start abDoc) rfl rfl (Or.inr (by decide)) rfl
        (by
          intro ids1 h1
          have he : (commitCalls exampleHasherAsc abDoc
              [.spliceText opset.firstObject 0 0 "X"]).doc.ops.SequenceElementIDs
                opset.firstObject none =
              .ok [{ Counter := 4, Actor := 1 }, { Counter := 2, Actor := 1 },
                { Counter := 3, Actor := 1 }] := rfl
          rw [he] at h1
          injection h1 with h1
          subst h1
          decide))⟩

/-- C36 (counterexample): a text object may hold an element that is not one character:
`Insert` puts the
string `hello` into the text as one element. The text has five runes, the cursor
created at the rune index 3 is anchored behind the only element, and with no edit in
between it resolves to 1. -/
theorem cursor_on_word_element :
    (commitCalls exampleHasherAsc NewDocument
      [.putObject RootObjID "text" opset.ObjText,
       .insert opset.firstObject 0 (StringValue "hello")]).err = none ∧
    wordDoc.Text opset.firstObject none = .ok "hello" ∧
    wordDoc.CursorForText opset.firstObject 3 text.EncodingUTF8 =
      .ok { ObjID := opset.firstObject, Anchor := { Counter := 2, Actor := 1 },
            Side := CursorAfter, FallbackRune := 1 } ∧
    wordDoc.ResolveTextCursor
      { ObjID := opset.firstObject, Anchor := { Counter := 2, Actor := 1 },
        Side := CursorAfter, FallbackRune := 1 } text.EncodingUTF8 = .ok 1 :=
  ⟨rfl, rfl, rfl, rfl⟩

end automerge

/-! ## The hashed bytes determine the change -/

namespace model

namespace ChangeHasher

theorem putUint64_inj (v w : Nat) (hv : v < 2 ^ 64) (hw : w < 2 ^ 64)
    (h : sync.putUint64 v = sync.putUint64 w) : v = w := by
  have h1 := sync.foldl_digits 8 v (by norm_num; exact hv)
  have h2 := sync.foldl_digits 8 w (by norm_num; exact hw)
  have e : ∀ x : Nat, sync.putUint64 x =
      (List.range 8).map (fun i => x / 256 ^ (8 - 1 - i) % 256) := fun _ => rfl
  rw [← e v] at h1
  rw [← e w] at h2
  rw [← h1, ← h2, h]

theorem length_putUint64 (v : Nat) : (sync.putUint64 v).length = 8 := by
  simp [sync.putUint64]

theorem hashBytes_inj (v w : ChangeHash) (hv : v < 2 ^ 256) (hw : w < 2 ^ 256)
    (h : sync.hashBytes v = sync.hashBytes w) : v = w := by
  rw [← sync.hashOfBytes_hashBytes v hv, ← sync.hashOfBytes_hashBytes w hw, h]

theorem read_uint64 (v w : Nat) (r s : List Nat) (hv : v < 2 ^ 64) (hw : w < 2 ^ 64)
    (h : WriteUint64 v ++ r = WriteUint64 w ++ s) : v = w ∧ r = s := by
  unfold WriteUint64 writeTag at h
  simp only [List.cons_append, List.nil_append, List.cons.injEq, true_and] at h
  obtain ⟨h1, h2⟩ := List.append_inj h (by rw [length_putUint64, length_putUint64])
  exact ⟨putUint64_inj v w hv hw h1, h2⟩

theorem read_int64 (v w : Int) (r s : List Nat)
    (hv : -(2 : Int) ^ 63 ≤ v ∧ v < (2 : Int) ^ 63)
    (hw : -(2 : Int) ^ 63 ≤ w ∧ w < (2 : Int) ^ 63)
    (h : WriteInt64 v ++ r = WriteInt64 w ++ s) : v = w ∧ r = s := by
  unfold WriteInt64 writeTag at h
  simp only [List.cons_append, List.nil_append, List.cons.injEq, true_and] at h
  obtain ⟨h1, h2⟩ := List.append_inj h (by rw [length_putUint64, length_putUint64])
  have h3 := putUint64_inj _ _ (by omega) (by omega) h1
  exact ⟨by omega, h2⟩

theorem read_bool (v w : Bool) (r s : List Nat) (h : WriteBool v ++ r = WriteBool w ++ s) :
    v = w ∧ r = s := by
  unfold WriteBool writeTag at h
  simp only [List.cons_append, List.nil_append, List.cons.injEq, true_and] at h
  refine ⟨?_, h.2⟩
  cases v <;> cases w <;> simp at h <;> rfl

theorem read_hash (v w : ChangeHash) (r s : List Nat) (hv : v < 2 ^ 256) (hw : w < 2 ^ 256)
    (h : WriteChangeHash v ++ r = WriteChangeHash w ++ s) : v = w ∧ r = s := by
  unfold WriteChangeHash writeTag at h
  simp only [List.cons_append, List.nil_append, List.cons.injEq, true_and] at h
  obtain ⟨h1, h2⟩ := List.append_inj h
    (by rw [sync.length_hashBytes, sync.length_hashBytes])
  exact ⟨hashBytes_inj v w hv hw h1, h2⟩

theorem read_opID (a b : OpID) (r s : List Nat)
    (ha : a.Counter < 2 ^ 64 ∧ a.Actor < 2 ^ 32) (hb : b.Counter < 2 ^ 64 ∧ b.Actor < 2 ^ 32)
    (h : WriteOpID a ++ r = WriteOpID b ++ s) : a = b ∧ r = s := by
  unfold WriteOpID writeTag at h
  simp only [List.cons_append, List.nil_append, List.cons.injEq, true_and,
    List.append_assoc] at h
  obtain ⟨h1, h2⟩ := read_uint64 _ _ _ _ ha.1 hb.1 h
  obtain ⟨h3, h4⟩ := read_uint64 _ _ _ _ (by omega) (by omega) h2
  refine ⟨?_, h4⟩
  cases a
  cases b
  simp only [OpID.mk.injEq]
  exact ⟨h1, h3⟩

theorem read_bytes (a b r s : List Nat) (ha : a.length < 2 ^ 63) (hb : b.length < 2 ^ 63)
    (h : WriteBytes a ++ r = WriteBytes b ++ s) : a = b ∧ r = s := by
  unfold WriteBytes writeTag writeLen at h
  simp only [List.cons_append, List.nil_append, List.cons.injEq, true_and,
    List.append_assoc] at h
  obtain ⟨h1, h2⟩ := List.append_inj h (by rw [length_putUint64, length_putUint64])
  have hl : a.length = b.length := by
    have := putUint64_inj _ _ (Nat.mod_lt _ (by norm_num)) (Nat.mod_lt _ (by norm_num)) h1
    omega
  exact List.append_inj h2 hl

theorem read_string (bytesOf : GoString → List Nat) (hinj : Function.Injective bytesOf)
    (a b : GoString) (r s : List Nat) (ha : (bytesOf a).length < 2 ^ 63)
    (hb : (bytesOf b).length < 2 ^ 63)
    (h : WriteString bytesOf a ++ r = WriteString bytesOf b ++ s) : a = b ∧ r = s := by
  have h1 : WriteBytes (bytesOf a) ++ r = WriteBytes (bytesOf b) ++ s := by
    unfold WriteString writeTag at h
    unfold WriteBytes writeTag
    simp only [List.cons_append, List.nil_append, List.cons.injEq, true_and,
      List.append_assoc] at h ⊢
    exact h
  obtain ⟨h2, h3⟩ := read_bytes _ _ _ _ ha hb h1
  exact ⟨hinj h2, h3⟩

end ChangeHasher

end model

namespace automerge

open model changegraph

theorem read_objID (a b : ObjID) (r s : List Nat) (ha : opIDTyped a.Op) (hb : opIDTyped b.Op)
    (h : model.ChangeHasher.WriteObjID a ++ r = model.ChangeHasher.WriteObjID b ++ s) :
    objAgrees a b ∧ r = s := by
  unfold model.ChangeHasher.WriteObjID model.ChangeHasher.writeTag at h
  simp only [List.cons_append, List.nil_append, List.cons.injEq, true_and,
    List.append_assoc] at h
  obtain ⟨h1, h2⟩ := model.ChangeHasher.read_bool _ _ _ _ h
  unfold objAgrees
  rw [← h1] at h2
  cases hr : a.Root with
  | true =>
    rw [hr] at h2 h1
    simp only [Bool.not_true, Bool.false_eq_true, if_false, List.nil_append] at h2
    exact ⟨⟨h1, fun hc => by cases hc⟩, h2⟩
  | false =>
    rw [hr] at h2 h1
    simp only [Bool.not_false, if_true] at h2
    obtain ⟨h3, h4⟩ := model.ChangeHasher.read_opID _ _ _ _ ha hb h2
    exact ⟨⟨h1, fun _ => h3⟩, h4⟩

theorem read_value (bytesOf : GoString → List Nat) (hinj : Function.Injective bytesOf)
    (a b : ScalarValue) (r s : List Nat) (ha : scalarTyped bytesOf a)
    (hb : scalarTyped bytesOf b) (hk : a.Kind = b.Kind)
    (h : hashValue bytesOf a ++ r = hashValue bytesOf b ++ s) :
    valueAgrees a b ∧ r = s := by
  obtain ⟨-, ha2, ha3, ha4, ha5, ha6, ha7, ha8, ha9⟩ := ha
  obtain ⟨-, hb2, hb3, hb4, hb5, hb6, hb7, hb8, hb9⟩ := hb
  unfold hashValue at h
  rw [← hk] at h
  unfold valueAgrees
  simp only [ScalarNull, ScalarBytes, ScalarString, ScalarInt, ScalarUint, ScalarF64,
    ScalarCounter, ScalarTimestamp, ScalarBoolean, ScalarUnknown] at h ⊢
  by_cases k2 : a.Kind = 2
  · simp only [if_pos k2] at h
    obtain ⟨h1, h2⟩ := model.ChangeHasher.read_string bytesOf hinj _ _ _ _ ha3 hb3 h
    simp [k2, hk.symm, h1, h2]
  by_cases k3 : a.Kind = 3
  · simp only [if_neg k2, if_pos k3] at h
    obtain ⟨h1, h2⟩ := model.ChangeHasher.read_int64 _ _ _ _ ha4 hb4 h
    simp [k3, hk.symm, h1, h2]
  by_cases k4 : a.Kind = 4
  · simp only [if_neg k2, if_neg k3, if_pos k4] at h
    obtain ⟨h1, h2⟩ := model.ChangeHasher.read_uint64 _ _ _ _ ha5 hb5 h
    simp [k4, hk.symm, h1, h2]
  by_cases k6 : a.Kind = 6
  · simp only [if_neg k2, if_neg k3, if_neg k4, if_pos k6] at h
    obtain ⟨h1, h2⟩ := model.ChangeHasher.read_int64 _ _ _ _ ha7 hb7 h
    simp [k6, hk.symm, h1, h2]
  by_cases k7 : a.Kind = 7
  · simp only [if_neg k2, if_neg k3, if_neg k4, if_neg k6, if_pos k7] at h
    obtain ⟨h1, h2⟩ := model.ChangeHasher.read_int64 _ _ _ _ ha8 hb8 h
    simp [k7, hk.symm, h1, h2]
  by_cases k8 : a.Kind = 8
  · simp only [if_neg k2, if_neg k3, if_neg k4, if_neg k6, if_neg k7, if_pos k8] at h
    obtain ⟨h1, h2⟩ := model.ChangeHasher.read_bool _ _ _ _ h
    simp [k8, hk.symm, h1, h2]
  by_cases k19 : a.Kind = 1 ∨ a.Kind = 9
  · simp only [if_neg k2, if_neg k3, if_neg k4, if_neg k6, if_neg k7, if_neg k8, if_pos k19] at h
    simp only [List.append_assoc] at h
    obtain ⟨h1, h2⟩ := model.ChangeHasher.read_bytes _ _ _ _ ha2 hb2 h
    obtain ⟨h3, h4⟩ := model.ChangeHasher.read_uint64 _ _ _ _ (by omega) (by omega) h2
    rcases k19 with k | k <;> simp [k, hk.symm, h1, h3, h4]
  by_cases k5 : a.Kind = 5
  · simp only [if_neg k2, if_neg k3, if_neg k4, if_neg k6, if_neg k7, if_neg k8, if_neg k19,
      if_pos k5] at h
    obtain ⟨h1, h2⟩ := model.ChangeHasher.read_uint64 _ _ _ _ ha6 hb6 h
    simp [k5, hk.symm, h1, h2]
  have h1 : ¬ a.Kind = 1 := fun hh => k19 (Or.inl hh)
  have h9 : ¬ a.Kind = 9 := fun hh => k19 (Or.inr hh)
  by_cases k0 : a.Kind = 0
  · simp only [if_neg k2, if_neg k3, if_neg k4, if_neg k6, if_neg k7, if_neg k8, if_neg k19,
      if_neg k5, if_pos k0] at h
    have h2 := List.append_cancel_left h
    simp [k0, hk.symm, h2]
  · simp only [if_neg k2, if_neg k3, if_neg k4, if_neg k6, if_neg k7, if_neg k8, if_neg k19,
      if_neg k5, if_neg k0] at h
    simp only [List.nil_append] at h
    simp [k2, k3, k4, k5, k6, k7, k8, h1, h9, hk.symm, h]

end automerge

namespace automerge

open model changegraph

theorem read_operation (bytesOf : GoString → List Nat) (hinj : Function.Injective bytesOf)
    (a b : ChangeOperation) (r s : List Nat) (ha : operationTyped bytesOf a)
    (hb : operationTyped bytesOf b)
    (h : hashOperation bytesOf a ++ r = hashOperation bytesOf b ++ s) :
    operationAgrees a b ∧ r = s := by
  obtain ⟨a1, a2, a3, a4, a5, a6, a7, a8, a9, a10, a11, a12, a13, a14⟩ := ha
  obtain ⟨b1, b2, b3, b4, b5, b6, b7, b8, b9, b10, b11, b12, b13, b14⟩ := hb
  unfold hashOperation at h
  simp only [List.append_assoc] at h
  obtain ⟨e1, h⟩ := model.ChangeHasher.read_uint64 _ _ _ _
    (Nat.lt_of_lt_of_le a1 (by norm_num)) (Nat.lt_of_lt_of_le b1 (by norm_num)) h
  obtain ⟨e2, h⟩ := read_objID _ _ _ _ a2 b2 h
  obtain ⟨e3, h⟩ := read_objID _ _ _ _ a3 b3 h
  obtain ⟨e4, h⟩ := model.ChangeHasher.read_string bytesOf hinj _ _ _ _ a4 b4 h
  obtain ⟨e5, h⟩ := model.ChangeHasher.read_int64 _ _ _ _ a5 b5 h
  obtain ⟨e6, h⟩ := model.ChangeHasher.read_int64 _ _ _ _ a8 b8 h
  obtain ⟨e7, h⟩ := model.ChangeHasher.read_int64 _ _ _ _ a9 b9 h
  obtain ⟨e8, h⟩ := model.ChangeHasher.read_string bytesOf hinj _ _ _ _ a10 b10 h
  obtain ⟨e9, h⟩ := model.ChangeHasher.read_int64 _ _ _ _ a11 b11 h
  obtain ⟨e10, h⟩ := model.ChangeHasher.read_int64 _ _ _ _ a12 b12 h
  obtain ⟨e11, h⟩ := model.ChangeHasher.read_string bytesOf hinj _ _ _ _ a13 b13 h
  obtain ⟨e12, h⟩ := model.ChangeHasher.read_uint64 _ _ _ _
    (Nat.lt_of_lt_of_le a7 (by norm_num)) (Nat.lt_of_lt_of_le b7 (by norm_num)) h
  obtain ⟨e13, h⟩ := model.ChangeHasher.read_opID _ _ _ _ a14 b14 h
  obtain ⟨e14, h⟩ := model.ChangeHasher.read_uint64 _ _ _ _
    (Nat.lt_of_lt_of_le a6.1 (by norm_num)) (Nat.lt_of_lt_of_le b6.1 (by norm_num)) h
  obtain ⟨e15, h⟩ := read_value bytesOf hinj _ _ _ _ a6 b6 e14 h
  exact ⟨⟨e1, e2, e3, e4, e5, e6, e7, e8, e9, e10, e11, e12, e13, e15⟩, h⟩

theorem read_hashes (ds es : List ChangeHash) (r s : List Nat) (hl : ds.length = es.length)
    (hd : ∀ x ∈ ds, x < 2 ^ 256) (he : ∀ x ∈ es, x < 2 ^ 256)
    (h : ds.flatMap model.ChangeHasher.WriteChangeHash ++ r =
      es.flatMap model.ChangeHasher.WriteChangeHash ++ s) : ds = es ∧ r = s := by
  induction ds generalizing es with
  | nil =>
    cases es with
    | nil => exact ⟨rfl, by simpa using h⟩
    | cons e es => simp at hl
  | cons d ds ih =>
    cases es with
    | nil => simp at hl
    | cons e es =>
      simp only [List.flatMap_cons, List.append_assoc] at h
      obtain ⟨h1, h2⟩ := model.ChangeHasher.read_hash _ _ _ _
        (hd d (List.mem_cons_self _ _)) (he e (List.mem_cons_self _ _)) h
      obtain ⟨h3, h4⟩ := ih es (by simpa using hl)
        (fun x hx => hd x (List.mem_cons_of_mem _ hx))
        (fun x hx => he x (List.mem_cons_of_mem _ hx)) h2
      exact ⟨by rw [h1, h3], h4⟩

theorem read_operations (bytesOf : GoString → List Nat) (hinj : Function.Injective bytesOf)
    (as bs : List ChangeOperation) (r s : List Nat) (hl : as.length = bs.length)
    (ha : ∀ op ∈ as, operationTyped bytesOf op) (hb : ∀ op ∈ bs, operationTyped bytesOf op)
    (h : as.flatMap (hashOperation bytesOf) ++ r = bs.flatMap (hashOperation bytesOf) ++ s) :
    List.Forall₂ operationAgrees as bs ∧ r = s := by
  induction as generalizing bs with
  | nil =>
    cases bs with
    | nil => exact ⟨List.Forall₂.nil, by simpa using h⟩
    | cons e es => simp at hl
  | cons d ds ih =>
    cases bs with
    | nil => simp at hl
    | cons e es =>
      simp only [List.flatMap_cons, List.append_assoc] at h
      obtain ⟨h1, h2⟩ := read_operation bytesOf hinj _ _ _ _
        (ha d (List.mem_cons_self _ _)) (hb e (List.mem_cons_self _ _)) h
      obtain ⟨h3, h4⟩ := ih es (by simpa using hl)
        (fun x hx => ha x (List.mem_cons_of_mem _ hx))
        (fun x hx => hb x (List.mem_cons_of_mem _ hx)) h2
      exact ⟨List.Forall₂.cons h1 h3, h4⟩

theorem read_message (bytesOf : GoString → List Nat) (hinj : Function.Injective bytesOf)
    (m n : Option GoString) (r s : List Nat)
    (h : (match m with
        | some x => model.ChangeHasher.WriteBool true ++
            model.ChangeHasher.WriteString bytesOf x
        | none => model.ChangeHasher.WriteBool false) ++ r =
      (match n with
        | some x => model.ChangeHasher.WriteBool true ++
            model.ChangeHasher.WriteString bytesOf x
        | none => model.ChangeHasher.WriteBool false) ++ s)
    (hm : ∀ x, m = some x → stringTyped bytesOf x)
    (hn : ∀ x, n = some x → stringTyped bytesOf x) : m = n ∧ r = s := by
  cases m with
  | none =>
    cases n with
    | none =>
      exact ⟨rfl, (model.ChangeHasher.read_bool _ _ _ _ h).2⟩
    | some y =>
      simp only [List.append_assoc] at h
      exact absurd (model.ChangeHasher.read_bool _ _ _ _ h).1 (by decide)
  | some x =>
    cases n with
    | none =>
      simp only [List.append_assoc] at h
      exact absurd (model.ChangeHasher.read_bool _ _ _ _ h).1 (by decide)
    | some y =>
      simp only [List.append_assoc] at h
      obtain ⟨-, h2⟩ := model.ChangeHasher.read_bool _ _ _ _ h
      obtain ⟨h3, h4⟩ := model.ChangeHasher.read_string bytesOf hinj _ _ _ _
        (hm x rfl) (hn y rfl) h2
      exact ⟨by rw [h3], h4⟩

theorem read_time (m n : Option int64) (r s : List Nat)
    (h : (match m with
        | some x => model.ChangeHasher.WriteBool true ++ model.ChangeHasher.WriteInt64 x
        | none => model.ChangeHasher.WriteBool false) ++ r =
      (match n with
        | some x => model.ChangeHasher.WriteBool true ++ model.ChangeHasher.WriteInt64 x
        | none => model.ChangeHasher.WriteBool false) ++ s)
    (hm : ∀ x, m = some x → isInt64 x) (hn : ∀ x, n = some x → isInt64 x) :
    m = n ∧ r = s := by
  cases m with
  | none =>
    cases n with
    | none =>
      exact ⟨rfl, (model.ChangeHasher.read_bool _ _ _ _ h).2⟩
    | some y =>
      simp only [List.append_assoc] at h
      exact absurd (model.ChangeHasher.read_bool _ _ _ _ h).1 (by decide)
  | some x =>
    cases n with
    | none =>
      simp only [List.append_assoc] at h
      exact absurd (model.ChangeHasher.read_bool _ _ _ _ h).1 (by decide)
    | some y =>
      simp only [List.append_assoc] at h
      obtain ⟨-, h2⟩ := model.ChangeHasher.read_bool _ _ _ _ h
      obtain ⟨h3, h4⟩ := model.ChangeHasher.read_int64 _ _ _ _ (hm x rfl) (hn y rfl) h2
      exact ⟨by rw [h3], h4⟩

theorem codePoints_injective : Function.Injective codePoints := by
  intro a b h
  unfold codePoints at h
  have hc : Function.Injective Char.toNat := by
    intro x y hxy
    rw [← Char.ofNat_toNat x, ← Char.ofNat_toNat y, hxy]
  exact String.ext (List.map_injective_iff.2 hc h)

/-- C39 (amended): the bytes that `computeChangeHash` gives to SHA-256 determine the
change up to the OpID inside an object id that has the root flag set. If two inputs
whose fields have their Go types produce the same bytes, they have the same actor,
sequence number, first and last operation counter, dependencies in order, optional
message and optional time, the same number of operations, and the operations agree one
by one on the kind, the key, the index, `By`, the delete count, the inserted text, the
start, the end, the mark name, the object type, the OpID, the kind of the value and the
payload that the kind selects, and on the root flag of both object ids and, when the
flag is not set, on their OpID. -/
theorem computeChangeHashInput_injective (bytesOf : GoString → List Nat)
    (hinj : Function.Injective bytesOf)
    (actor seq startOp maxOp actor2 seq2 startOp2 maxOp2 : Nat)
    (deps deps2 : List ChangeHash) (opts opts2 : CommitOptions)
    (ops ops2 : List ChangeOperation)
    (ht : hashInputTyped bytesOf actor seq startOp maxOp deps opts ops)
    (ht2 : hashInputTyped bytesOf actor2 seq2 startOp2 maxOp2 deps2 opts2 ops2)
    (h : computeChangeHashInput bytesOf actor seq startOp maxOp deps opts ops =
      computeChangeHashInput bytesOf actor2 seq2 startOp2 maxOp2 deps2 opts2 ops2) :
    actor = actor2 ∧ seq = seq2 ∧ startOp = startOp2 ∧ maxOp = maxOp2 ∧ deps = deps2 ∧
    opts.Message = opts2.Message ∧ opts.Time = opts2.Time ∧
    List.Forall₂ operationAgrees ops ops2 := by
  obtain ⟨t1, t2, t3, t4, t5, t6, t7, t8, t9, t10⟩ := ht
  obtain ⟨u1, u2, u3, u4, u5, u6, u7, u8, u9, u10⟩ := ht2
  unfold computeChangeHashInput at h
  simp only [List.append_assoc] at h
  have h := List.append_cancel_left h
  obtain ⟨e1, h⟩ := model.ChangeHasher.read_uint64 _ _ _ _
    (Nat.lt_of_lt_of_le t1 (by norm_num)) (Nat.lt_of_lt_of_le u1 (by norm_num)) h
  obtain ⟨e2, h⟩ := model.ChangeHasher.read_uint64 _ _ _ _ t2 u2 h
  obtain ⟨e3, h⟩ := model.ChangeHasher.read_uint64 _ _ _ _ t3 u3 h
  obtain ⟨e4, h⟩ := model.ChangeHasher.read_uint64 _ _ _ _ t4 u4 h
  obtain ⟨e5, h⟩ := model.ChangeHasher.read_uint64 _ _ _ _
    (Nat.mod_lt _ (by norm_num)) (Nat.mod_lt _ (by norm_num)) h
  have hl : deps.length = deps2.length := by omega
  obtain ⟨e6, h⟩ := read_hashes _ _ _ _ hl t6 u6 h
  obtain ⟨e7, h⟩ := read_message bytesOf hinj _ _ _ _ h t7 u7
  obtain ⟨e8, h⟩ := read_time _ _ _ _ h t8 u8
  obtain ⟨e9, h⟩ := model.ChangeHasher.read_uint64 _ _ _ _
    (Nat.mod_lt _ (by norm_num)) (Nat.mod_lt _ (by norm_num)) h
  have hl2 : ops.length = ops2.length := by omega
  have h2 : ops.flatMap (hashOperation bytesOf) ++ [] =
      ops2.flatMap (hashOperation bytesOf) ++ [] := by
    rw [List.append_nil, List.append_nil]
    exact h
  exact ⟨e1, e2, e3, e4, e6, e7, e8,
    (read_operations bytesOf hinj _ _ _ _ hl2 t10 u10 h2).1⟩

theorem computeChangeHashInput_injective_witness :
    Function.Injective codePoints ∧
    hashInputTyped codePoints 1 1 1 1 [7] { Message := some "m", Time := some 5 }
      [putOn rootWithOp] ∧
    hashInputTyped codePoints 1 1 1 1 [7] { Message := some "m", Time := some 5 }
      [putOn RootObjID] ∧
    computeChangeHashInput codePoints 1 1 1 1 [7] { Message := some "m", Time := some 5 }
        [putOn rootWithOp] =
      computeChangeHashInput codePoints 1 1 1 1 [7] { Message := some "m", Time := some 5 }
        [putOn RootObjID] ∧
    List.Forall₂ operationAgrees [putOn rootWithOp] [putOn RootObjID] :=
  ⟨codePoints_injective,
    by simp [hashInputTyped, operationTyped, scalarTyped, stringTyped, opIDTyped, isUint64,
      isInt64, putOn, rootWithOp, zeroOperation, StringValue, zeroScalar, codePoints, OpPut,
      ScalarString]; decide,
    by simp [hashInputTyped, operationTyped, scalarTyped, stringTyped, opIDTyped, isUint64,
      isInt64, putOn, RootObjID, zeroOperation, StringValue, zeroScalar, codePoints, OpPut,
      ScalarString]; decide,
    rfl,
    (computeChangeHashInput_injective codePoints codePoints_injective 1 1 1 1 1 1 1 1 [7] [7]
      { Message := some "m", Time := some 5 } { Message := some "m", Time := some 5 }
      [putOn rootWithOp] [putOn RootObjID]
      (by simp [hashInputTyped, operationTyped, scalarTyped, stringTyped, opIDTyped, isUint64,
        isInt64, putOn, rootWithOp, zeroOperation, StringValue, zeroScalar, codePoints, OpPut,
        ScalarString]; decide)
      (by simp [hashInputTyped, operationTyped, scalarTyped, stringTyped, opIDTyped, isUint64,
        isInt64, putOn, RootObjID, zeroOperation, StringValue, zeroScalar, codePoints, OpPut,
        ScalarString]; decide)
      rfl).2.2.2.2.2.2.2⟩

/-- C39 (counterexample): a put on the object id that has the root flag set and the
OpID `1@1` and the same put on `RootObjID` are different operations on different
object ids, of which only the second names a known object of the new op set, and
`computeChangeHash` gives the same bytes to SHA-256 for both. -/
theorem hash_input_ignores_op_of_root :
    rootWithOp ≠ RootObjID ∧
    putOn rootWithOp ≠ putOn RootObjID ∧
    opset.New.ObjectType rootWithOp = none ∧
    opset.New.ObjectType RootObjID = some opset.ObjMap ∧
    computeChangeHashInput codePoints 1 1 1 1 [] { Message := none, Time := none }
        [putOn rootWithOp] =
      computeChangeHashInput codePoints 1 1 1 1 [] { Message := none, Time := none }
        [putOn RootObjID] :=
  ⟨by decide, by decide, rfl, rfl, rfl⟩

end automerge
